import Mathlib

/-! # loxj: a shallow embedding of the scanner, the loop emitters, the value
representation, the hash table, string interning and the call path of the VM

The definitions of the first part transcribe the C functions and macros of the
repository, one definition per function, under the C name.  Pointers into a
buffer are modelled as offsets into that buffer, heap pointers as addresses
(natural numbers) looked up in a heap, loops as recursion on a fuel argument
that the caller sets to a bound on the number of iterations (running out of
fuel yields `none`).  The theorems of the second part are about these
definitions.
-/

namespace Loxj

/-! ## scanner.h -/

/-- The token kinds of `scanner.h`, in declaration order. -/
inductive TokenType
  | TOKEN_LEFT_PAREN | TOKEN_RIGHT_PAREN | TOKEN_LEFT_BRACE | TOKEN_RIGHT_BRACE
  | TOKEN_COMMA | TOKEN_DOT | TOKEN_MINUS | TOKEN_PLUS | TOKEN_SEMICOLON
  | TOKEN_SLASH | TOKEN_STAR
  | TOKEN_BANG | TOKEN_BANG_EQUAL | TOKEN_EQUAL | TOKEN_EQUAL_EQUAL
  | TOKEN_GREATER | TOKEN_GREATER_EQUAL | TOKEN_LESS | TOKEN_LESS_EQUAL
  | TOKEN_IDENTIFIER | TOKEN_STRING | TOKEN_NUMBER
  | TOKEN_CLASS | TOKEN_ELSE | TOKEN_FALSE | TOKEN_FOR | TOKEN_FUN | TOKEN_IF
  | TOKEN_AND | TOKEN_OR | TOKEN_NIL
  | TOKEN_REMAINDER | TOKEN_BITWISE_AND | TOKEN_BITWISE_OR | TOKEN_BITWISE_XOR
  | TOKEN_BITWISE_NOT | TOKEN_LEFT_SHIFT | TOKEN_UNSIGNED_LEFT_SHIFT
  | TOKEN_RIGHT_SHIFT | TOKEN_UNSIGNED_RIGHT_SHIFT
  | TOKEN_PRINT | TOKEN_RETURN | TOKEN_SUPER | TOKEN_THIS | TOKEN_TRUE
  | TOKEN_VAR | TOKEN_WHILE | TOKEN_CONTINUE | TOKEN_BREAK | TOKEN_EXTENDS
  | TOKEN_TYPEOF
  | TOKEN_ERROR | TOKEN_EOF
  deriving DecidableEq, Repr

/-- The integer value of an enumerator (C numbers them from 0 in declaration
order); `TOKEN_IDENTIFIER` is 19. -/
def TokenType.toNat : TokenType → Nat
  | .TOKEN_LEFT_PAREN => 0 | .TOKEN_RIGHT_PAREN => 1 | .TOKEN_LEFT_BRACE => 2
  | .TOKEN_RIGHT_BRACE => 3 | .TOKEN_COMMA => 4 | .TOKEN_DOT => 5
  | .TOKEN_MINUS => 6 | .TOKEN_PLUS => 7 | .TOKEN_SEMICOLON => 8
  | .TOKEN_SLASH => 9 | .TOKEN_STAR => 10 | .TOKEN_BANG => 11
  | .TOKEN_BANG_EQUAL => 12 | .TOKEN_EQUAL => 13 | .TOKEN_EQUAL_EQUAL => 14
  | .TOKEN_GREATER => 15 | .TOKEN_GREATER_EQUAL => 16 | .TOKEN_LESS => 17
  | .TOKEN_LESS_EQUAL => 18 | .TOKEN_IDENTIFIER => 19 | .TOKEN_STRING => 20
  | .TOKEN_NUMBER => 21 | .TOKEN_CLASS => 22 | .TOKEN_ELSE => 23
  | .TOKEN_FALSE => 24 | .TOKEN_FOR => 25 | .TOKEN_FUN => 26 | .TOKEN_IF => 27
  | .TOKEN_AND => 28 | .TOKEN_OR => 29 | .TOKEN_NIL => 30
  | .TOKEN_REMAINDER => 31 | .TOKEN_BITWISE_AND => 32 | .TOKEN_BITWISE_OR => 33
  | .TOKEN_BITWISE_XOR => 34 | .TOKEN_BITWISE_NOT => 35
  | .TOKEN_LEFT_SHIFT => 36 | .TOKEN_UNSIGNED_LEFT_SHIFT => 37
  | .TOKEN_RIGHT_SHIFT => 38 | .TOKEN_UNSIGNED_RIGHT_SHIFT => 39
  | .TOKEN_PRINT => 40 | .TOKEN_RETURN => 41 | .TOKEN_SUPER => 42
  | .TOKEN_THIS => 43 | .TOKEN_TRUE => 44 | .TOKEN_VAR => 45
  | .TOKEN_WHILE => 46 | .TOKEN_CONTINUE => 47 | .TOKEN_BREAK => 48
  | .TOKEN_EXTENDS => 49 | .TOKEN_TYPEOF => 50 | .TOKEN_ERROR => 51
  | .TOKEN_EOF => 52

/-- What the `start` pointer of a token points into: the source buffer (at an
offset), the buffer `stringToken` allocates for an unescaped literal (given by
its bytes), or a message in static storage. -/
inductive TokenStart
  | source (offset : Nat)
  | heap (bytes : List Char)
  | static (message : String)
  deriving DecidableEq, Repr

/-- The struct `Token`. -/
structure Token where
  type : TokenType
  start : TokenStart
  length : Nat
  line : Nat
  deriving DecidableEq, Repr

/-! ## scanner.c -/

/-- The global `scanner`: `source` is the NUL-terminated buffer handed to
`initScanner` (the list holds the bytes before the terminator; reading at or
past its end yields the terminator), `start` and `current` are offsets. -/
structure Scanner where
  source : List Char
  start : Nat
  current : Nat
  line : Nat
  deriving DecidableEq, Repr

def initScanner (source : List Char) : Scanner :=
  { source := source, start := 0, current := 0, line := 1 }

/-- The byte `source[i]` of the NUL-terminated buffer. -/
def Scanner.byteAt (s : Scanner) (i : Nat) : Char := s.source.getD i '\x00'

def isDigit (c : Char) : Bool := decide ('0' ≤ c) && decide (c ≤ '9')

def isAlpha (c : Char) : Bool :=
  (decide ('a' ≤ c) && decide (c ≤ 'z')) ||
  (decide ('A' ≤ c) && decide (c ≤ 'Z')) ||
  c == '_'

def makeToken (s : Scanner) (type : TokenType) : Token :=
  { type := type, start := .source s.start, length := s.current - s.start, line := s.line }

def isAtEnd (s : Scanner) : Bool := s.byteAt s.current == '\x00'

/-- Returns the consumed byte and the advanced scanner. -/
def advance (s : Scanner) : Char × Scanner :=
  (s.byteAt s.current, { s with current := s.current + 1 })

def peek (s : Scanner) : Char := s.byteAt s.current

def peekNext (s : Scanner) : Char :=
  if isAtEnd s then '\x00' else s.byteAt (s.current + 1)

def «match» (s : Scanner) (expected : Char) : Bool × Scanner :=
  if isAtEnd s then (false, s)
  else if s.byteAt s.current != expected then (false, s)
  else (true, { s with current := s.current + 1 })

/-- The inner loop of `skipWhitespace` that runs to the end of a line
comment: `while (peek() != '\n' && !isAtEnd()) advance();`. -/
def skipComment : Nat → Scanner → Option Scanner
  | 0, _ => none
  | fuel + 1, s =>
    if peek s != '\n' && !isAtEnd s then skipComment fuel (advance s).2 else some s

def skipWhitespace : Nat → Scanner → Option Scanner
  | 0, _ => none
  | fuel + 1, s =>
    let c := peek s
    if c == ' ' || c == '\r' || c == '\t' then skipWhitespace fuel (advance s).2
    else if c == '\n' then
      skipWhitespace fuel { (advance s).2 with line := (advance s).2.line + 1 }
    else if c == '/' then
      if peekNext s == '/' then (skipComment (fuel + 1) s).bind (skipWhitespace fuel)
      else some s
    else some s

def errorToken (s : Scanner) (message : String) : Token :=
  { type := .TOKEN_ERROR, start := .static message, length := message.length, line := s.line }

/-- The first loop of `stringToken` (`LOXJ_OPTIONS_ESCAPE` is defined in
`common.h`): scans to the closing quote counting escapes.  The result is the
error token of an unsupported escape (with the scanner at that point), or the
scanner and `escapeCount` at loop exit. -/
def stringScan : Nat → Scanner → Nat → Option ((Token × Scanner) ⊕ (Scanner × Nat))
  | 0, _, _ => none
  | fuel + 1, s, escapeCount =>
    if peek s != '"' && !isAtEnd s then
      let s1 := if peek s == '\n' then { s with line := s.line + 1 } else s
      if peek s1 == '\\' && !isAtEnd s1 then
        let s2 := (advance s1).2
        let c := peek s2
        if c == 'n' || c == 't' || c == '\\' || c == '"' then
          stringScan fuel (advance s2).2 (escapeCount + 1)
        else some (.inl (errorToken s2 "Unsupported escape sequences.", s2))
      else stringScan fuel (advance s1).2 escapeCount
    else some (.inr (s, escapeCount))

/-- The copy loop of `stringToken`: `for (int i = 0; i < srcLen; i++)`, with
`src` the offset of the first byte after the opening quote and `dst` the bytes
written so far.  In the `default` branch (which the C marks unreachable)
nothing is stored and `dst` still moves on; the byte left there is whatever
`malloc` returned, modelled as NUL.  The result is the bytes stored in the
buffer `unescaped`, in order. -/
def unescape (s : Scanner) (src srcLen : Nat) : Nat → Nat → List Char → Option (List Char)
  | 0, _, _ => none
  | fuel + 1, i, dst =>
    if i < srcLen then
      if s.byteAt (src + i) == '\\' then
        let c := s.byteAt (src + (i + 1))
        let out :=
          if c == 't' then '\t' else if c == 'n' then '\n'
          else if c == '"' then '"' else if c == '\\' then '\\' else '\x00'
        unescape s src srcLen fuel (i + 1 + 1) (dst ++ [out])
      else unescape s src srcLen fuel (i + 1) (dst ++ [s.byteAt (src + i)])
    else some dst

def stringToken (s : Scanner) : Option (Token × Scanner) :=
  let src := s.current
  match stringScan (s.source.length + 1) s 0 with
  | none => none
  | some (.inl err) => some err
  | some (.inr (s1, escapeCount)) =>
    if isAtEnd s1 then some (errorToken s1 "Unterminated string.", s1)
    else
      let s2 := (advance s1).2
      let srcLen := (s2.current - s2.start) - 2
      let len := srcLen - escapeCount
      match unescape s2 src srcLen (srcLen + 1) 0 [] with
      | none => none
      | some unescaped =>
        some ({ type := .TOKEN_STRING, start := .heap unescaped,
                length := len, line := s2.line }, s2)

/-- The loop `while (isDigit(peek())) advance();` of `numberToken`. -/
def skipDigits : Nat → Scanner → Option Scanner
  | 0, _ => none
  | fuel + 1, s => if isDigit (peek s) then skipDigits fuel (advance s).2 else some s

def numberToken (s : Scanner) : Option (Token × Scanner) :=
  let fuel := s.source.length + 1
  (skipDigits fuel s).bind fun s1 =>
    if peek s1 == '.' && isDigit (peekNext s1) then
      (skipDigits fuel (advance s1).2).map fun s2 => (makeToken s2 .TOKEN_NUMBER, s2)
    else some (makeToken s1 .TOKEN_NUMBER, s1)

/-- The comparison `memcmp(scanner.start + start_, rest, length) == 0`. -/
def memcmpEq (s : Scanner) (off : Nat) (rest : List Char) (length : Nat) : Bool :=
  (List.range length).all fun i => s.byteAt (off + i) == rest.getD i '\x00'

/-- The first operand of the conditional that the `CHECK_KEYWORD` text expands
to: `(current - start == start_ + length) && (memcmp(...) == 0)`. -/
def keywordMatches (s : Scanner) (start_ length : Nat) (rest : String) : Bool :=
  (s.current - s.start == start_ + length) && memcmpEq s (s.start + start_) rest.toList length

/-- One use of `CHECK_KEYWORD` standing alone after `return`:
`cond ? token_type : TOKEN_IDENTIFIER`. -/
def CHECK_KEYWORD (s : Scanner) (start_ length : Nat) (rest : String)
    (token_type : TokenType) : TokenType :=
  if keywordMatches s start_ length rest then token_type else .TOKEN_IDENTIFIER

/-- The function `identifierType`.  The outer `switch` has no `break` after
the bodies of `case 'c'` and `case 'e'`, so control that leaves their inner
`switch` without returning falls through into the next case; `case 'f'` and
`case 't'` end in `break`.

In `case 'u'` the statement is
`return CHECK_KEYWORD(2, 1, "n", TOKEN_FUN) || CHECK_KEYWORD(2, 6, "nction", TOKEN_FUN);`
and the defined text has no outer parentheses, so it reads
`A ? TOKEN_FUN : ((TOKEN_IDENTIFIER || B) ? TOKEN_FUN : TOKEN_IDENTIFIER)`
with `A`, `B` the two length-and-memcmp tests (`&&` binds tighter than `||`,
which binds tighter than `?:`, and `?:` groups to the right). -/
def identifierType (s : Scanner) : TokenType :=
  let c0 := s.byteAt s.start
  let c1 := s.byteAt (s.start + 1)
  let len := s.current - s.start
  let caseF : TokenType :=
    if len > 1 then
      if c1 == 'a' then CHECK_KEYWORD s 2 3 "lse" .TOKEN_FALSE
      else if c1 == 'o' then CHECK_KEYWORD s 2 1 "r" .TOKEN_FOR
      else if c1 == 'u' then
        if keywordMatches s 2 1 "n" then .TOKEN_FUN
        else if (TokenType.TOKEN_IDENTIFIER.toNat != 0) || keywordMatches s 2 6 "nction"
          then .TOKEN_FUN
        else .TOKEN_IDENTIFIER
      else .TOKEN_IDENTIFIER
    else .TOKEN_IDENTIFIER
  let caseE : TokenType :=
    if len > 1 then
      if c1 == 'l' then CHECK_KEYWORD s 2 2 "se" .TOKEN_ELSE
      else if c1 == 'x' then CHECK_KEYWORD s 2 5 "tends" .TOKEN_EXTENDS
      else caseF
    else caseF
  let caseC : TokenType :=
    if len > 1 then
      if c1 == 'l' then CHECK_KEYWORD s 2 3 "ass" .TOKEN_CLASS
      else if c1 == 'o' then CHECK_KEYWORD s 2 6 "ntinue" .TOKEN_CONTINUE
      else caseE
    else caseE
  if c0 == 'a' then CHECK_KEYWORD s 1 2 "nd" .TOKEN_AND
  else if c0 == 'b' then CHECK_KEYWORD s 1 4 "reak" .TOKEN_AND
  else if c0 == 'c' then caseC
  else if c0 == 'e' then caseE
  else if c0 == 'f' then caseF
  else if c0 == 'i' then CHECK_KEYWORD s 1 1 "f" .TOKEN_IF
  else if c0 == 'n' then CHECK_KEYWORD s 1 2 "il" .TOKEN_NIL
  else if c0 == 'o' then CHECK_KEYWORD s 1 1 "r" .TOKEN_OR
  else if c0 == 'p' then CHECK_KEYWORD s 1 4 "rint" .TOKEN_PRINT
  else if c0 == 'r' then CHECK_KEYWORD s 1 5 "eturn" .TOKEN_RETURN
  else if c0 == 's' then CHECK_KEYWORD s 1 4 "uper" .TOKEN_SUPER
  else if c0 == 't' then
    if len > 1 then
      if c1 == 'h' then CHECK_KEYWORD s 2 2 "is" .TOKEN_THIS
      else if c1 == 'r' then CHECK_KEYWORD s 2 2 "ue" .TOKEN_TRUE
      else if c1 == 'y' then CHECK_KEYWORD s 2 4 "peof" .TOKEN_TYPEOF
      else .TOKEN_IDENTIFIER
    else .TOKEN_IDENTIFIER
  else if c0 == 'v' then CHECK_KEYWORD s 1 2 "ar" .TOKEN_VAR
  else if c0 == 'w' then CHECK_KEYWORD s 1 4 "hile" .TOKEN_WHILE
  else .TOKEN_IDENTIFIER

/-- The loop `while (isAlpha(peek()) || isDigit(peek())) advance();`. -/
def skipIdentifier : Nat → Scanner → Option Scanner
  | 0, _ => none
  | fuel + 1, s =>
    if isAlpha (peek s) || isDigit (peek s) then skipIdentifier fuel (advance s).2 else some s

def identifierToken (s : Scanner) : Option (Token × Scanner) :=
  (skipIdentifier (s.source.length + 1) s).map fun s1 => (makeToken s1 (identifierType s1), s1)

/-- The function `scanToken`: the token and the scanner after the call. -/
def scanToken (s0 : Scanner) : Option (Token × Scanner) :=
  (skipWhitespace (s0.source.length + 1) s0).bind fun sw =>
    let s := { sw with start := sw.current }
    if isAtEnd s then some (makeToken s .TOKEN_EOF, s)
    else
      let c := (advance s).1
      let s := (advance s).2
      if isAlpha c then identifierToken s
      else if isDigit c then numberToken s
      else if c == '(' then some (makeToken s .TOKEN_LEFT_PAREN, s)
      else if c == ')' then some (makeToken s .TOKEN_RIGHT_PAREN, s)
      else if c == '{' then some (makeToken s .TOKEN_LEFT_BRACE, s)
      else if c == '}' then some (makeToken s .TOKEN_RIGHT_BRACE, s)
      else if c == ';' then some (makeToken s .TOKEN_SEMICOLON, s)
      else if c == ',' then some (makeToken s .TOKEN_COMMA, s)
      else if c == '.' then some (makeToken s .TOKEN_DOT, s)
      else if c == '-' then some (makeToken s .TOKEN_MINUS, s)
      else if c == '+' then some (makeToken s .TOKEN_PLUS, s)
      else if c == '/' then some (makeToken s .TOKEN_SLASH, s)
      else if c == '*' then some (makeToken s .TOKEN_STAR, s)
      else if c == '!' then
        let m := «match» s '='
        some (makeToken m.2 (if m.1 then .TOKEN_BANG_EQUAL else .TOKEN_BANG), m.2)
      else if c == '=' then
        let m := «match» s '='
        some (makeToken m.2 (if m.1 then .TOKEN_EQUAL_EQUAL else .TOKEN_EQUAL), m.2)
      else if c == '<' then
        let m := «match» s '='
        if m.1 then some (makeToken m.2 .TOKEN_LESS_EQUAL, m.2)
        else
          let m1 := «match» m.2 '<'
          if m1.1 then
            let m2 := «match» m1.2 '<'
            some (makeToken m2.2
              (if m2.1 then .TOKEN_UNSIGNED_LEFT_SHIFT else .TOKEN_LEFT_SHIFT), m2.2)
          else some (makeToken m1.2 .TOKEN_LESS, m1.2)
      else if c == '>' then
        let m := «match» s '='
        if m.1 then some (makeToken m.2 .TOKEN_GREATER_EQUAL, m.2)
        else
          let m1 := «match» m.2 '>'
          if m1.1 then
            let m2 := «match» m1.2 '>'
            some (makeToken m2.2
              (if m2.1 then .TOKEN_UNSIGNED_RIGHT_SHIFT else .TOKEN_RIGHT_SHIFT), m2.2)
          else some (makeToken m1.2 .TOKEN_LESS, m1.2)
      else if c == '"' then stringToken s
      else if c == '&' then
        let m := «match» s '&'
        some (makeToken m.2 (if m.1 then .TOKEN_AND else .TOKEN_BITWISE_AND), m.2)
      else if c == '|' then
        let m := «match» s '|'
        some (makeToken m.2 (if m.1 then .TOKEN_OR else .TOKEN_BITWISE_OR), m.2)
      else if c == '~' then some (makeToken s .TOKEN_BITWISE_NOT, s)
      else if c == '^' then some (makeToken s .TOKEN_BITWISE_XOR, s)
      else if c == '%' then some (makeToken s .TOKEN_REMAINDER, s)
      else some (errorToken s "Unexpected character.", s)

/-! ### String literal bodies (used to state the behaviour of `stringToken`) -/

/-- One element of a string-literal body: an ordinary byte, or one of the four
escapes, named by the character after the backslash. -/
inductive StrItem
  | ordinary (c : Char)
  | escape (c : Char)
  deriving DecidableEq, Repr

/-- An ordinary byte is neither the quote, the backslash nor the terminator;
an escape character is one of `n`, `t`, backslash, quote. -/
def StrItem.wf : StrItem → Bool
  | .ordinary c => c != '"' && c != '\\' && c != '\x00'
  | .escape c => c == 'n' || c == 't' || c == '\\' || c == '"'

/-- The source bytes of a body. -/
def encodeBody : List StrItem → List Char
  | [] => []
  | .ordinary c :: r => c :: encodeBody r
  | .escape c :: r => '\\' :: c :: encodeBody r

/-- The character an escape stands for. -/
def escapeValue (c : Char) : Char :=
  if c == 't' then '\t' else if c == 'n' then '\n'
  else if c == '"' then '"' else '\\'

/-- The bytes a body denotes. -/
def decodeBody : List StrItem → List Char
  | [] => []
  | .ordinary c :: r => c :: decodeBody r
  | .escape c :: r => escapeValue c :: decodeBody r

/-- The number of escapes in a body. -/
def escapesIn : List StrItem → Nat
  | [] => 0
  | .ordinary _ :: r => escapesIn r
  | .escape _ :: r => escapesIn r + 1

/-- The number of raw newline bytes in a body. -/
def newlinesIn : List StrItem → Nat
  | [] => 0
  | .ordinary c :: r => (if c == '\n' then 1 else 0) + newlinesIn r
  | .escape _ :: r => newlinesIn r

/-! ## value.h (`NAN_BOXING` is defined in `common.h`)

A `Value` is a 64-bit word, here a `Nat`.  A number is the bit pattern of its
IEEE-754 double, so `NUMBER_VAL` and `AS_NUMBER` (a `memcpy` in C) are the
identity on words. -/

def QNAN : Nat := 0x7ffc000000000000
def SIGN_BIT : Nat := 0x8000000000000000
def TAG_NIL : Nat := 1
def TAG_FALSE : Nat := 2
def TAG_TRUE : Nat := 3

def IS_NUMBER (value : Nat) : Bool := (value &&& QNAN) != QNAN
def NIL_VAL : Nat := QNAN ||| TAG_NIL
def TRUE_VAL : Nat := QNAN ||| TAG_TRUE
def FALSE_VAL : Nat := QNAN ||| TAG_FALSE
def IS_NIL (value : Nat) : Bool := value == NIL_VAL
def IS_BOOL (value : Nat) : Bool := (value ||| 1) == TRUE_VAL
def AS_BOOL (value : Nat) : Bool := value == TRUE_VAL
def BOOL_VAL (b : Bool) : Nat := if b then TRUE_VAL else FALSE_VAL
def OBJ_VAL (obj : Nat) : Nat := SIGN_BIT ||| QNAN ||| obj
/-- The mask `~(SIGN_BIT | QNAN)` on 64 bits is `0x0003ffffffffffff`. -/
def AS_OBJ (value : Nat) : Nat := value &&& (2 ^ 64 - 1 - (SIGN_BIT ||| QNAN))
def IS_OBJ (value : Nat) : Bool := (value &&& (QNAN ||| SIGN_BIT)) == (QNAN ||| SIGN_BIT)

/-- A bit pattern is a NaN when its exponent field is all ones and its
fraction is not zero. -/
def doubleIsNaN (d : Nat) : Bool := decide (0x7ff0000000000000 < d % 2 ^ 63)

/-- The C comparison `a == b` on doubles given by their bit patterns (IEEE-754):
a NaN equals nothing, the two zeros equal each other, and otherwise two
doubles are equal when their bits are. -/
def doubleEq (a b : Nat) : Bool :=
  !doubleIsNaN a && !doubleIsNaN b && (a == b || (a % 2 ^ 63 == 0 && b % 2 ^ 63 == 0))

/-- The position of a non-NaN double on the number line, as an order-preserving
integer: the magnitude bits, negated when the sign bit is set. -/
def doubleKey (d : Nat) : Int := if d < 2 ^ 63 then (d : Int) else -((d % 2 ^ 63 : Nat) : Int)

/-- The C comparison `a < b` on doubles given by their bit patterns. -/
def doubleLess (a b : Nat) : Bool :=
  !doubleIsNaN a && !doubleIsNaN b && decide (doubleKey a < doubleKey b)

/-- The function `isFalsey` of `value.c`; the literal `0` converts to the
double `+0.0`, whose bit pattern is 0. -/
def isFalsey (value : Nat) : Bool :=
  IS_NIL value || (IS_BOOL value && !AS_BOOL value) || (IS_NUMBER value && doubleEq value 0)

def isValuesEqual (a b : Nat) : Bool :=
  if IS_NUMBER a && IS_NUMBER b then doubleEq a b else a == b

/-! ## chunk.h, chunk.c -/

def OP_CONSTANT : Nat := 0
def OP_NIL : Nat := 1
def OP_TRUE : Nat := 2
def OP_FALSE : Nat := 3
def OP_POP : Nat := 4
def OP_GET_LOCAL : Nat := 5
def OP_SET_LOCAL : Nat := 6
def OP_GET_GLOBAL : Nat := 7
def OP_DEFINE_GLOBAL : Nat := 8
def OP_SET_GLOBAL : Nat := 9
def OP_EQUAL : Nat := 10
def OP_GREATER : Nat := 11
def OP_LESS : Nat := 12
def OP_JUMP : Nat := 13
def OP_JUMP_IF_FALSE : Nat := 14
def OP_LOOP : Nat := 15
def OP_ADD : Nat := 16
def OP_SUBTRACT : Nat := 17
def OP_MULTIPLY : Nat := 18
def OP_DIVIDE : Nat := 19
def OP_NOT : Nat := 20
def OP_NEGATE : Nat := 21
def OP_PRINT : Nat := 22
def OP_CALL : Nat := 23
def OP_CLOSURE : Nat := 24
def OP_GET_UPVALUE : Nat := 25
def OP_SET_UPVALUE : Nat := 26
def OP_CLOSE_UPVALUE : Nat := 27
def OP_RETURN : Nat := 28
def OP_TYPEOF : Nat := 29
def OP_CLASS : Nat := 30
def OP_GET_PROPERTY : Nat := 31
def OP_SET_PROPERTY : Nat := 32
def OP_METHOD : Nat := 33
def OP_INVOKE : Nat := 34
def OP_INHERIT : Nat := 35
def OP_GET_SUPER : Nat := 36
def OP_SUPER_INVOKE : Nat := 37

/-- The struct `Chunk`: `count` is `code.length`, one line number per byte,
and the constant pool.  The capacities, which only drive `realloc`, are not
part of the model. -/
structure Chunk where
  code : List Nat
  lines : List Nat
  constants : List Nat
  deriving DecidableEq, Repr

def initChunk : Chunk := { code := [], lines := [], constants := [] }

def Chunk.count (chunk : Chunk) : Nat := chunk.code.length

def writeChunk (chunk : Chunk) (byte : Nat) (line : Nat) : Chunk :=
  { chunk with code := chunk.code ++ [byte], lines := chunk.lines ++ [line] }

/-! ## compiler.c: the jump and loop emitters

The compiler state these functions touch is the chunk being written, the line
of `parser.previous` and the error flag; `error` is modelled by recording its
message. -/

structure Emitter where
  chunk : Chunk
  line : Nat
  errors : List String
  deriving DecidableEq, Repr

def emitByte (e : Emitter) (byte : Nat) : Emitter :=
  { e with chunk := writeChunk e.chunk byte e.line }

def UINT16_MAX : Nat := 65535
def UINT8_MAX : Nat := 255

def error (e : Emitter) (message : String) : Emitter :=
  { e with errors := e.errors ++ [message] }

def emitJump (e : Emitter) (instruction : Nat) : Emitter × Nat :=
  let e := emitByte e instruction
  let e := emitByte e 0xff
  let e := emitByte e 0xff
  (e, e.chunk.count - 2)

def patchJump (e : Emitter) (offset : Nat) : Emitter :=
  let jump := e.chunk.count - offset - 2
  let e := if jump > UINT16_MAX then error e "Too much code to jump over." else e
  { e with chunk := { e.chunk with
      code := (e.chunk.code.set offset ((jump >>> 8) &&& 0xff)).set (offset + 1) (jump &&& 0xff) } }

def emitLoop (e : Emitter) (loopStart : Nat) : Emitter :=
  let e := emitByte e OP_LOOP
  let offset := e.chunk.count - loopStart + 2
  let e := if offset > UINT16_MAX then error e "Loop body too large." else e
  let e := emitByte e ((offset >>> 8) &&& 0xff)
  emitByte e (offset &&& 0xff)

/-- The `switch` of `binary`, which emits the instructions of an infix
operator once both operands are compiled; a token kind without a case emits
nothing. -/
def binary (e : Emitter) (operatorType : TokenType) : Emitter :=
  match operatorType with
  | .TOKEN_PLUS => emitByte e OP_ADD
  | .TOKEN_MINUS => emitByte e OP_SUBTRACT
  | .TOKEN_STAR => emitByte e OP_MULTIPLY
  | .TOKEN_SLASH => emitByte e OP_DIVIDE
  | .TOKEN_BANG_EQUAL => emitByte (emitByte e OP_EQUAL) OP_NOT
  | .TOKEN_EQUAL_EQUAL => emitByte e OP_EQUAL
  | .TOKEN_GREATER => emitByte e OP_GREATER
  | .TOKEN_GREATER_EQUAL => emitByte (emitByte e OP_LESS) OP_NOT
  | .TOKEN_LESS => emitByte e OP_LESS
  | .TOKEN_LESS_EQUAL => emitByte (emitByte e OP_GREATER) OP_NOT
  | _ => e

/-- The function `whileStatement`; the recursive-descent calls `expression`
(the condition) and `statement` (the body) are parameters, each the code
emitter of that part. -/
def whileStatement (e : Emitter) (expression statement : Emitter → Emitter) : Emitter :=
  let loopStart := e.chunk.count
  let e := expression e
  let (e, exitJump) := emitJump e OP_JUMP_IF_FALSE
  let e := emitByte e OP_POP
  let e := statement e
  let e := emitLoop e loopStart
  let e := patchJump e exitJump
  emitByte e OP_POP

/-- The part of `forStatement` that lays out the loop.  The recursive-descent
calls it makes (`varDeclaration` or `expressionStatement` for the first clause,
`expression` for the condition and the increment, `statement` for the body,
and the `endScope` that pops the loop variable) are parameters: each is the
code emitter of that clause; `none` stands for an absent clause. -/
def forStatement (e : Emitter) (initializer : Emitter → Emitter)
    (condition increment : Option (Emitter → Emitter)) (body : Emitter → Emitter)
    (endScope : Emitter → Emitter) : Emitter :=
  let e := initializer e
  let innermostLoopStart := e.chunk.count
  let (e, exitJump) : Emitter × Option Nat :=
    match condition with
    | none => (e, none)
    | some expression =>
      let e := expression e
      let (e, exitJump) := emitJump e OP_JUMP_IF_FALSE
      (emitByte e OP_POP, some exitJump)
  let (e, innermostLoopStart) : Emitter × Nat :=
    match increment with
    | none => (e, innermostLoopStart)
    | some expression =>
      let (e, bodyJump) := emitJump e OP_JUMP
      let incrementStart := e.chunk.count
      let e := expression e
      let e := emitByte e OP_POP
      let e := emitLoop e innermostLoopStart
      (patchJump e bodyJump, incrementStart)
  let e := body e
  let e := emitLoop e innermostLoopStart
  let e :=
    match exitJump with
    | none => e
    | some exitJump => emitByte (patchJump e exitJump) OP_POP
  endScope e

/-! ## table.h, object.h, vm.h: the data model

A heap pointer is an address, a natural number; the heap maps an address to
the object stored there.  A nullable pointer is an `Option`. -/

/-- The struct `Entry`; `key` is an `ObjString *`. -/
structure Entry where
  key : Option Nat
  value : Nat
  deriving DecidableEq, Repr

/-- The struct `Table`; `entries` is the array of `capacity` buckets. -/
structure Table where
  count : Nat
  capacity : Nat
  entries : List Entry
  deriving DecidableEq, Repr

/-- Where `ObjUpvalue.location` points: at a slot of the VM stack, or at the
upvalue's own `closed` field. -/
inductive UpvalueLocation
  | stack (slot : Nat)
  | closed
  deriving DecidableEq, Repr

/-- The heap object kinds of `object.h`, each with the fields of its struct
after the common header. -/
inductive Obj
  | OBJ_CLASS (name : Nat) (methods : Table)
  | OBJ_BOUND_METHOD (receiver : Nat) (method : Nat)
  | OBJ_CLOSURE (function : Nat) (upvalues : List (Option Nat)) (upvalueCount : Nat)
  | OBJ_FUNCTION (name : Option Nat) (arity : Nat) (chunk : Chunk) (upvalueCount : Nat)
  | OBJ_INSTANCE (klass : Nat) (fields : Table)
  | OBJ_NATIVE (function : Nat)
  | OBJ_STRING (length : Nat) (hash : Nat) (chars : List Char)
  | OBJ_UPVALUE (location : UpvalueLocation) (closed : Nat) (next : Option Nat)
  deriving DecidableEq, Repr

/-- A heap cell: the header's mark bit and the object.  The header's `next`
link is the order of `VM.objects`. -/
structure HeapCell where
  isMarked : Bool
  obj : Obj
  deriving DecidableEq, Repr

/-- The heap: the cell at each address, `none` where nothing is allocated. -/
abbrev Heap := List (Option HeapCell)

def Heap.get (heap : Heap) (p : Nat) : Option Obj := (heap.getD p none).map (·.obj)

/-- The struct `CallFrame`: `ip` is an offset into the code of the closure's
function, `slots` an index into the VM stack. -/
structure CallFrame where
  closure : Nat
  ip : Nat
  slots : Nat
  deriving DecidableEq, Repr

def FRAMES_MAX : Nat := 64
def STACK_MAX : Nat := FRAMES_MAX * (UINT8_MAX + 1)

/-- The global `vm`.  `stack` is the memory of the value stack from its base
(a slot that was never written reads as 0, the array being in zeroed static
storage) and `stackTop` the index of the next free slot; `frames` holds the
`frameCount` active frames, outermost first; `objects` is the object list,
newest first; `stderr` is what has been printed to the standard error stream.
The collector's bookkeeping (`grayStack`, `bytesAllocated`, `nextGC`) is not
part of these definitions, which describe execution between collections. -/
structure VM where
  stack : List Nat
  stackTop : Nat
  heap : Heap
  objects : List Nat
  strings : Table
  globals : Table
  frames : List CallFrame
  openUpvalues : Option Nat
  initString : Option Nat
  stderr : String
  deriving DecidableEq, Repr

def VM.frameCount (vm : VM) : Nat := vm.frames.length

/-- Store into the stack memory at an index. -/
def storeAt (stack : List Nat) (i : Nat) (v : Nat) : List Nat :=
  if i < stack.length then stack.set i v
  else stack ++ List.replicate (i - stack.length) 0 ++ [v]

/-- Read `vm.stack[i]`. -/
def VM.slot (vm : VM) (i : Nat) : Nat := vm.stack.getD i 0

def resetStack (vm : VM) : VM :=
  { vm with stackTop := 0, frames := [], openUpvalues := none }

def push (vm : VM) (value : Nat) : VM :=
  { vm with stack := storeAt vm.stack vm.stackTop value, stackTop := vm.stackTop + 1 }

def pop (vm : VM) : Nat × VM :=
  (vm.slot (vm.stackTop - 1), { vm with stackTop := vm.stackTop - 1 })

/-- The function `peek` of `vm.c`: `vm.stackTop[-1 - distance]`. -/
def VM.peek (vm : VM) (distance : Nat) : Nat := vm.slot (vm.stackTop - 1 - distance)

/-! ## memory.h, table.c

A function that dereferences a pointer takes the heap.  The result `none`
means that the C call does not return a value: it loops for ever or its
behaviour is undefined (a null or mistyped pointer, an index outside an
array). -/

def CAPACITY_MIN : Nat := 8
def CAPACITY_GROW_RATE : Nat := 2

def GROW_CAPACITY (capacity : Nat) : Nat :=
  if capacity < CAPACITY_MIN then CAPACITY_MIN else capacity * CAPACITY_GROW_RATE

def initTable : Table := { count := 0, capacity := 0, entries := [] }

/-- The fields of the `ObjString` at an address. -/
def Heap.string (heap : Heap) (p : Nat) : Option (Nat × Nat × List Char) :=
  match heap.get p with
  | some (.OBJ_STRING length hash chars) => some (length, hash, chars)
  | _ => none

/-- The probe loop of `findEntry`, returning the index of the bucket that the
C returns a pointer to.  The sequence of indices does not depend on what the
loop has seen, so if no bucket among the first `capacity` ones visited makes
it return, none ever will: the caller passes `capacity` as fuel. -/
def findEntryLoop (entries : List Entry) (capacity key : Nat) :
    Nat → Nat → Option Nat → Option Nat
  | 0, _, _ => none
  | fuel + 1, index, tombstone =>
    match entries.get? index with
    | none => none
    | some entry =>
      match entry.key with
      | none =>
        if IS_NIL entry.value then some (tombstone.getD index)
        else findEntryLoop entries capacity key fuel ((index + 1) &&& (capacity - 1))
          (some (tombstone.getD index))
      | some k =>
        if k == key then some index
        else findEntryLoop entries capacity key fuel ((index + 1) &&& (capacity - 1)) tombstone

def findEntry (heap : Heap) (entries : List Entry) (capacity key : Nat) : Option Nat :=
  match heap.string key with
  | none => none
  | some (_, hash, _) =>
    if capacity = 0 then none
    else findEntryLoop entries capacity key capacity (hash % capacity) none

/-- The re-insertion loop of `adjustCapacity` over the old buckets. -/
def adjustCapacityLoop (heap : Heap) (capacity : Nat) :
    List Entry → List Entry → Nat → Option (List Entry × Nat)
  | [], entries, count => some (entries, count)
  | entry :: rest, entries, count =>
    match entry.key with
    | none => adjustCapacityLoop heap capacity rest entries count
    | some k =>
      match findEntry heap entries capacity k with
      | none => none
      | some dest =>
        adjustCapacityLoop heap capacity rest
          (entries.set dest { key := some k, value := entry.value }) (count + 1)

def adjustCapacity (heap : Heap) (table : Table) (capacity : Nat) : Option Table :=
  let entries := List.replicate capacity ({ key := none, value := NIL_VAL } : Entry)
  (adjustCapacityLoop heap capacity (table.entries.take table.capacity) entries 0).map
    fun r => { count := r.2, capacity := capacity, entries := r.1 }

/-- The function `tableSet`; the test `count + 1 > capacity * 0.75`, which C
evaluates in `double`, is exact for these integers and is written with
integers.  Returns `isNewKey` and the table. -/
def tableSet (heap : Heap) (table : Table) (key : Nat) (value : Nat) : Option (Bool × Table) :=
  (if 4 * (table.count + 1) > 3 * table.capacity
    then adjustCapacity heap table (GROW_CAPACITY table.capacity) else some table).bind fun table =>
  (findEntry heap table.entries table.capacity key).bind fun i =>
  (table.entries.get? i).map fun entry =>
    let isNewKey := entry.key.isNone
    (isNewKey,
      { table with
        count := if isNewKey && IS_NIL entry.value then table.count + 1 else table.count,
        entries := table.entries.set i { key := some key, value := value } })

/-- The function `tableGet`: `some v` stands for `true` with `*value = v`. -/
def tableGet (heap : Heap) (table : Table) (key : Nat) : Option (Option Nat) :=
  if table.count = 0 then some none
  else
    (findEntry heap table.entries table.capacity key).bind fun i =>
    (table.entries.get? i).map fun entry =>
      match entry.key with
      | none => none
      | some _ => some entry.value

def tableDelete (heap : Heap) (table : Table) (key : Nat) : Option (Bool × Table) :=
  if table.count = 0 then some (false, table)
  else
    (findEntry heap table.entries table.capacity key).bind fun i =>
    (table.entries.get? i).map fun entry =>
      match entry.key with
      | none => (false, table)
      | some _ =>
        (true, { table with entries := table.entries.set i { key := none, value := BOOL_VAL true } })

/-- The probe loop of `tableFindString`; fuel as in `findEntryLoop`.  The
inner `Option` is the returned pointer, `none` for `NULL`. -/
def tableFindStringLoop (heap : Heap) (table : Table) (chars : List Char) (length hash : Nat) :
    Nat → Nat → Option (Option Nat)
  | 0, _ => none
  | fuel + 1, index =>
    match table.entries.get? index with
    | none => none
    | some entry =>
      match entry.key with
      | none =>
        if IS_NIL entry.value then some none
        else tableFindStringLoop heap table chars length hash fuel
          ((index + 1) &&& (table.capacity - 1))
      | some k =>
        match heap.string k with
        | none => none
        | some (klength, khash, kchars) =>
          if klength == length && khash == hash && kchars.take length == chars.take length
          then some (some k)
          else tableFindStringLoop heap table chars length hash fuel
            ((index + 1) &&& (table.capacity - 1))

def tableFindString (heap : Heap) (table : Table) (chars : List Char) (length hash : Nat) :
    Option (Option Nat) :=
  if table.count = 0 then some none
  else tableFindStringLoop heap table chars length hash table.capacity
    (hash &&& (table.capacity - 1))

/-- The loop of `tableAddAll`.  The function gets two `Table *`; `same` says
that both point at the same table, in which case the C reads `from->capacity`
and `from->entries` again after each `tableSet`.  The capacity of `from`
changes at most once (a second `adjustCapacity` would need more than half of
the new buckets in use), so the caller's fuel, one more than the grown
capacity, is never what stops the loop. -/
def tableAddAllLoop (heap : Heap) (same : Bool) : Nat → Table → Table → Nat → Option Table
  | 0, _, _, _ => none
  | fuel + 1, from_, to_, i =>
    if i < from_.capacity then
      match from_.entries.get? i with
      | none => none
      | some entry =>
        match entry.key with
        | none => tableAddAllLoop heap same fuel from_ to_ (i + 1)
        | some key =>
          match tableSet heap to_ key entry.value with
          | none => none
          | some (_, to_) =>
            tableAddAllLoop heap same fuel (if same then to_ else from_) to_ (i + 1)
    else some to_

/-- The function `tableAddAll(from, to)`; the result is the table `*to`. -/
def tableAddAll (heap : Heap) (from_ to_ : Table) (same : Bool) : Option Table :=
  tableAddAllLoop heap same (GROW_CAPACITY from_.capacity + 1) from_ to_ 0

/-! ## object.c -/

/-- The function `allocateObject`: the new object gets an address at which
nothing is stored yet and is put at the head of `vm.objects`. -/
def allocateObject (vm : VM) (obj : Obj) : Nat × VM :=
  (vm.heap.length,
    { vm with heap := vm.heap ++ [some { isMarked := false, obj := obj }],
              objects := vm.heap.length :: vm.objects })

def allocateString (vm : VM) (chars : List Char) (length hash : Nat) : Option (Nat × VM) :=
  let (string, vm) := allocateObject vm (.OBJ_STRING length hash chars)
  let vm := push vm (OBJ_VAL string)
  (tableSet vm.heap vm.strings string NIL_VAL).map fun r =>
    (string, (pop { vm with strings := r.2 }).2)

/-- FNV-1a on 32 bits; a `char` is converted to `uint8_t`. -/
def hashString (key : List Char) : Nat :=
  key.foldl (fun hash c => ((hash ^^^ (c.toNat % 256)) * 16777619) % 2 ^ 32) 2166136261

/-- The function `copyString`; `chars` holds the `length` bytes at the
argument pointer. -/
def copyString (vm : VM) (chars : List Char) (length : Nat) : Option (Nat × VM) :=
  let hash := hashString (chars.take length)
  (tableFindString vm.heap vm.strings chars length hash).bind fun interned =>
    match interned with
    | some interned => some (interned, vm)
    | none => allocateString vm (chars.take length) length hash

/-- The function `takeString`; releasing the argument buffer when the string
is already interned does not change the modelled state. -/
def takeString (vm : VM) (chars : List Char) (length : Nat) : Option (Nat × VM) :=
  let hash := hashString (chars.take length)
  (tableFindString vm.heap vm.strings chars length hash).bind fun interned =>
    match interned with
    | some interned => some (interned, vm)
    | none => allocateString vm (chars.take length) length hash

def takeStringFromToken (vm : VM) (chars : List Char) (length : Nat) : Option (Nat × VM) :=
  let hash := hashString (chars.take length)
  (tableFindString vm.heap vm.strings chars length hash).bind fun interned =>
    match interned with
    | some interned => some (interned, vm)
    | none => allocateString vm (chars.take length) length hash

def newInstance (vm : VM) (klass : Nat) : Nat × VM :=
  allocateObject vm (.OBJ_INSTANCE klass initTable)

def newBoundMethod (vm : VM) (receiver : Nat) (method : Nat) : Nat × VM :=
  allocateObject vm (.OBJ_BOUND_METHOD receiver method)

def newNative (vm : VM) (function : Nat) : Nat × VM :=
  allocateObject vm (.OBJ_NATIVE function)

/-- The function `newClosure`: the upvalue array holds `upvalueCount` null
pointers. -/
def newClosure (vm : VM) (function : Nat) : Option (Nat × VM) :=
  match vm.heap.get function with
  | some (.OBJ_FUNCTION _ _ _ upvalueCount) =>
    some (allocateObject vm (.OBJ_CLOSURE function (List.replicate upvalueCount none) upvalueCount))
  | _ => none

/-- The function `newUpvalue`; `slot` is a stack index. -/
def newUpvalue (vm : VM) (slot : Nat) : Nat × VM :=
  allocateObject vm (.OBJ_UPVALUE (.stack slot) NIL_VAL none)

/-- The enumeration `ObjType` of `object.h`. -/
inductive ObjType
  | OBJ_CLASS | OBJ_BOUND_METHOD | OBJ_CLOSURE | OBJ_FUNCTION
  | OBJ_INSTANCE | OBJ_NATIVE | OBJ_STRING | OBJ_UPVALUE
  deriving DecidableEq, Repr

/-- The header field `type` of an object. -/
def Obj.type : Obj → ObjType
  | .OBJ_CLASS _ _ => .OBJ_CLASS
  | .OBJ_BOUND_METHOD _ _ => .OBJ_BOUND_METHOD
  | .OBJ_CLOSURE _ _ _ => .OBJ_CLOSURE
  | .OBJ_FUNCTION _ _ _ _ => .OBJ_FUNCTION
  | .OBJ_INSTANCE _ _ => .OBJ_INSTANCE
  | .OBJ_NATIVE _ => .OBJ_NATIVE
  | .OBJ_STRING _ _ _ => .OBJ_STRING
  | .OBJ_UPVALUE _ _ _ => .OBJ_UPVALUE

/-- The inline function `isObjType`: `IS_OBJ(value) && OBJ_TYPE(value) == type`,
which reads the header of the object the value points at. -/
def isObjType (heap : Heap) (value : Nat) (type : ObjType) : Option Bool :=
  if IS_OBJ value then (heap.get (AS_OBJ value)).map fun obj => decide (obj.type = type)
  else some false

/-- Assign the fields of the object at an address, keeping its header. -/
def Heap.setObj (heap : Heap) (p : Nat) (obj : Obj) : Heap :=
  match heap.getD p none with
  | none => heap
  | some cell => heap.set p (some { cell with obj := obj })

/-! ## vm.c -/

inductive InterpretResult
  | INTERPRET_OK | INTERPRET_COMPILE_ERROR | INTERPRET_RUNTIME_ERROR
  deriving DecidableEq, Repr

/-- The `ObjFunction` of the closure at an address: name, arity, chunk. -/
def Heap.closureFunction (heap : Heap) (closure : Nat) : Option (Option Nat × Nat × Chunk) :=
  match heap.get closure with
  | some (.OBJ_CLOSURE function _ _) =>
    match heap.get function with
    | some (.OBJ_FUNCTION name arity chunk _) => some (name, arity, chunk)
    | _ => none
  | _ => none

/-- One line of the stack trace of `runtimeError`, for one frame. -/
def traceLine (heap : Heap) (frame : CallFrame) : Option String :=
  match heap.closureFunction frame.closure with
  | none => none
  | some (name, _, chunk) =>
    if frame.ip = 0 then none
    else
      match chunk.lines.get? (frame.ip - 1) with
      | none => none
      | some line =>
        match name with
        | none => some ("[line " ++ toString line ++ "] at " ++ "<script>\n")
        | some n =>
          match heap.string n with
          | none => none
          | some (_, _, chars) =>
            some ("[line " ++ toString line ++ "] at " ++ String.mk chars ++ "()\n")

/-- The stack trace: the loop `for (int i = vm.frameCount - 1; i >= 0; i--)`. -/
def stackTrace (heap : Heap) : List CallFrame → Option String
  | [] => some ""
  | frame :: outer =>
    (traceLine heap frame).bind fun l => (stackTrace heap outer).map fun r => l ++ r

/-- The function `runtimeError`, applied to the formatted message. -/
def runtimeError (vm : VM) (message : String) : Option VM :=
  (stackTrace vm.heap vm.frames.reverse).map fun trace =>
    resetStack { vm with stderr := vm.stderr ++ message ++ "\n" ++ trace }

def call (vm : VM) (closure : Nat) (argCount : Nat) : Option (Bool × VM) :=
  match vm.heap.closureFunction closure with
  | none => none
  | some (_, arity, _) =>
    if argCount != arity then
      (runtimeError vm
        ("Expected " ++ toString arity ++ " arguments but got " ++ toString argCount ++ ".")).map
        fun vm => (false, vm)
    else if vm.frameCount >= FRAMES_MAX then
      (runtimeError vm "Stack overflow.").map fun vm => (false, vm)
    else
      some (true, { vm with frames := vm.frames ++
        [{ closure := closure, ip := 0, slots := vm.stackTop - argCount - 1 }] })

/-- The host functions behind `ObjNative.function`, by function pointer: each
gets `argCount`, the arguments `vm.stackTop[-argCount ..]` and the VM, and
returns a value and the VM it leaves. -/
abbrev Natives := Nat → Nat → List Nat → VM → Option (Nat × VM)

def callValue (natives : Natives) (vm : VM) (callee : Nat) (argCount : Nat) :
    Option (Bool × VM) :=
  let notCallable := (runtimeError vm "Can only call functions and classes.").map
    fun vm => (false, vm)
  if IS_OBJ callee then
    match vm.heap.get (AS_OBJ callee) with
    | none => none
    | some (.OBJ_CLOSURE _ _ _) => call vm (AS_OBJ callee) argCount
    | some (.OBJ_NATIVE native) =>
      (natives native argCount
        ((List.range argCount).map fun i => vm.slot (vm.stackTop - argCount + i)) vm).map
        fun r => (true, push { r.2 with stackTop := r.2.stackTop - (argCount + 1) } r.1)
    | some (.OBJ_CLASS _ methods) =>
      let klass := AS_OBJ callee
      let (instance_, vm) := newInstance vm klass
      let vm := { vm with stack := storeAt vm.stack (vm.stackTop - argCount - 1) (OBJ_VAL instance_) }
      match vm.initString with
      | none => none
      | some initString =>
        match tableGet vm.heap methods initString with
        | none => none
        | some (some initializer) => call vm (AS_OBJ initializer) argCount
        | some none =>
          if argCount != 0 then
            (runtimeError vm ("Expected 0 arguments but got " ++ toString argCount ++ ".")).map
              fun vm => (false, vm)
          else some (true, vm)
    | some (.OBJ_BOUND_METHOD receiver method) =>
      call { vm with stack := storeAt vm.stack (vm.stackTop - argCount - 1) receiver }
        method argCount
    | some _ => notCallable
  else notCallable

/-- What one turn of the dispatch loop of `run` does. -/
inductive Step
  /-- The case ends in `break`: the loop goes on in this state. -/
  | next (vm : VM)
  /-- The function `run` returns. -/
  | ret (result : InterpretResult) (vm : VM)
  /-- The behaviour is undefined in C (a read outside the chunk, no frame). -/
  | undefined
  /-- An instruction these definitions do not cover. -/
  | notCovered (instruction : Nat)
  deriving DecidableEq, Repr

/-- The chunk of the function of the frame `run` works in. -/
def VM.chunk (vm : VM) : Option Chunk :=
  match vm.frames.getLast? with
  | none => none
  | some frame => (vm.heap.closureFunction frame.closure).map fun f => f.2.2

/-- The value of `frame->ip`, as an offset into the code. -/
def VM.ip (vm : VM) : Option Nat := vm.frames.getLast?.map fun frame => frame.ip

/-- Assign `frame->ip`. -/
def VM.setIp (vm : VM) (ip : Nat) : VM :=
  match vm.frames.getLast? with
  | none => vm
  | some frame => { vm with frames := vm.frames.dropLast ++ [{ frame with ip := ip }] }

/-- The expansion of `READ_BYTE()`: `*frame->ip++`. -/
def READ_BYTE (vm : VM) : Option (Nat × VM) :=
  match vm.chunk, vm.ip with
  | some chunk, some ip => (chunk.code.get? ip).map fun byte => (byte, vm.setIp (ip + 1))
  | _, _ => none

/-- The expansion of `READ_SHORT()`: two bytes, big endian. -/
def READ_SHORT (vm : VM) : Option (Nat × VM) :=
  match vm.chunk, vm.ip with
  | some chunk, some ip =>
    match chunk.code.get? ip, chunk.code.get? (ip + 1) with
    | some hi, some lo => some (((hi <<< 8) ||| lo) % 2 ^ 16, vm.setIp (ip + 2))
    | _, _ => none
  | _, _ => none

def READ_CONSTANT (vm : VM) : Option (Nat × VM) :=
  (READ_BYTE vm).bind fun r =>
    match r.2.chunk with
    | none => none
    | some chunk => (chunk.constants.get? r.1).map fun c => (c, r.2)

/-- Turn an `Option` state into a step. -/
def Step.ofOption : Option VM → Step
  | none => .undefined
  | some vm => .next vm

/-- The expansion of `BINARY_OP(BOOL_VAL, op)` for a comparison `op`. -/
def BINARY_OP_BOOL (vm : VM) (op : Nat → Nat → Bool) : Step :=
  if !IS_NUMBER (vm.peek 0) || !IS_NUMBER (vm.peek 1) then
    match runtimeError vm "Operands must be numbers." with
    | none => .undefined
    | some vm => .ret .INTERPRET_RUNTIME_ERROR vm
  else
    let (b, vm) := pop vm
    let (a, vm) := pop vm
    .next (push vm (BOOL_VAL (op a b)))

/-- The body of `case OP_LOOP:` in `run`. -/
def run_OP_LOOP (vm : VM) : Step :=
  match READ_SHORT vm with
  | none => .undefined
  | some (offset, vm) =>
    match vm.ip with
    | none => .undefined
    | some ip => .next (vm.setIp (ip + offset))

def run_OP_JUMP (vm : VM) : Step :=
  match READ_SHORT vm with
  | none => .undefined
  | some (offset, vm) =>
    match vm.ip with
    | none => .undefined
    | some ip => .next (vm.setIp (ip + offset))

def run_OP_JUMP_IF_FALSE (vm : VM) : Step :=
  match READ_SHORT vm with
  | none => .undefined
  | some (offset, vm) =>
    match vm.ip with
    | none => .undefined
    | some ip => if isFalsey (vm.peek 0) then .next (vm.setIp (ip + offset)) else .next vm

def run_OP_NOT (vm : VM) : Step :=
  let (v, vm) := pop vm
  .next (push vm (BOOL_VAL (isFalsey v)))

def run_OP_CALL (natives : Natives) (vm : VM) : Step :=
  match READ_BYTE vm with
  | none => .undefined
  | some (argCount, vm) =>
    match callValue natives vm (vm.peek argCount) argCount with
    | none => .undefined
    | some (false, vm) => .ret .INTERPRET_RUNTIME_ERROR vm
    | some (true, vm) => .next vm

/-- What `%s` prints for a `char *`: the bytes before the first NUL. -/
def cString (chars : List Char) : String := String.mk (chars.takeWhile fun c => c != '\x00')

/-- The expansion of `READ_STRING()`: `AS_STRING(READ_CONSTANT())`. -/
def READ_STRING (vm : VM) : Option (Nat × VM) :=
  (READ_CONSTANT vm).map fun r => (AS_OBJ r.1, r.2)

/-- The two lines `runtimeError(...); return INTERPRET_RUNTIME_ERROR;`. -/
def Step.error (vm : VM) (message : String) : Step :=
  match Loxj.runtimeError vm message with
  | none => .undefined
  | some vm => .ret .INTERPRET_RUNTIME_ERROR vm

/-- The body of `case OP_SET_GLOBAL:`. -/
def run_OP_SET_GLOBAL (vm : VM) : Step :=
  match READ_STRING vm with
  | none => .undefined
  | some (name, vm) =>
    match tableSet vm.heap vm.globals name (vm.peek 0) with
    | none => .undefined
    | some (true, globals) =>
      match tableDelete vm.heap globals name with
      | none => .undefined
      | some (_, globals) =>
        match vm.heap.string name with
        | none => .undefined
        | some (_, _, chars) =>
          Step.error { vm with globals := globals }
            ("Undefined variable '" ++ cString chars ++ "'.")
    | some (false, globals) => .next { vm with globals := globals }

def bindMethod (vm : VM) (klass name : Nat) : Option (Bool × VM) :=
  match vm.heap.get klass with
  | some (.OBJ_CLASS _ methods) =>
    match tableGet vm.heap methods name with
    | none => none
    | some none =>
      match vm.heap.string name with
      | none => none
      | some (_, _, chars) =>
        (runtimeError vm ("Undefined property '" ++ cString chars ++ "'.")).map
          fun vm => (false, vm)
    | some (some method) =>
      let (bound, vm) := newBoundMethod vm (vm.peek 0) (AS_OBJ method)
      let vm := (pop vm).2
      some (true, push vm (OBJ_VAL bound))
  | _ => none

/-- The body of `case OP_GET_PROPERTY:`. -/
def run_OP_GET_PROPERTY (vm : VM) : Step :=
  match isObjType vm.heap (vm.peek 0) .OBJ_INSTANCE with
  | none => .undefined
  | some false => Step.error vm "Only instances have properties."
  | some true =>
    match vm.heap.get (AS_OBJ (vm.peek 0)) with
    | some (.OBJ_INSTANCE klass fields) =>
      match READ_STRING vm with
      | none => .undefined
      | some (name, vm) =>
        match tableGet vm.heap fields name with
        | none => .undefined
        | some (some value) => .next (push (pop vm).2 value)
        | some none =>
          match bindMethod vm klass name with
          | none => .undefined
          | some (false, vm) => .ret .INTERPRET_RUNTIME_ERROR vm
          | some (true, vm) => .next vm
    | _ => .undefined

/-- The body of `case OP_INHERIT:`.  The subclass is not checked to be a
class: `AS_CLASS(peek(0))` is a cast. -/
def run_OP_INHERIT (vm : VM) : Step :=
  let superclass := vm.peek 1
  match isObjType vm.heap superclass .OBJ_CLASS with
  | none => .undefined
  | some false => Step.error vm "Superclass must be a class."
  | some true =>
    let subclass := AS_OBJ (vm.peek 0)
    match vm.heap.get (AS_OBJ superclass), vm.heap.get subclass with
    | some (.OBJ_CLASS _ from_), some (.OBJ_CLASS name to_) =>
      match tableAddAll vm.heap from_ to_ (AS_OBJ superclass == subclass) with
      | none => .undefined
      | some to_ =>
        .next (pop { vm with heap := vm.heap.setObj subclass (.OBJ_CLASS name to_) }).2
    | _, _ => .undefined

/-- The function `concatenate`; the buffer it allocates holds the bytes of
`a` followed by those of `b`. -/
def concatenate (vm : VM) : Option VM :=
  let b := AS_OBJ (vm.peek 0)
  let a := AS_OBJ (vm.peek 1)
  match vm.heap.string a, vm.heap.string b with
  | some (alength, _, achars), some (blength, _, bchars) =>
    let length := alength + blength
    let chars := achars.take alength ++ bchars.take blength
    (takeString vm chars length).map fun r =>
      let vm := (pop r.2).2
      let vm := (pop vm).2
      push vm (OBJ_VAL r.1)
  | _, _ => none

/-- The body of `case OP_ADD:`.  The addition of two `double`s is the
parameter `dadd`, a function on their bit patterns; `NUMBER_VAL` and
`AS_NUMBER` leave the bits as they are. -/
def run_OP_ADD (dadd : Nat → Nat → Nat) (vm : VM) : Step :=
  match isObjType vm.heap (vm.peek 0) .OBJ_STRING with
  | none => .undefined
  | some isString0 =>
    match (if isString0 then isObjType vm.heap (vm.peek 1) .OBJ_STRING else some false) with
    | none => .undefined
    | some true => Step.ofOption (concatenate vm)
    | some false =>
      if IS_NUMBER (vm.peek 0) && IS_NUMBER (vm.peek 1) then
        let (b, vm) := pop vm
        let (a, vm) := pop vm
        .next (push vm (dadd a b))
      else Step.error vm "Operands must be two numbers or two strings."

/-- The loop of `closeUpvalues(last)`, `last` being a stack index.  Each turn
closes the head of the open list and unlinks it, and an upvalue that is
already closed ends the loop in `none` (its `location` points into the heap
and C does not define how that compares with a stack address), so the loop
makes at most one turn per heap object: the caller passes `heap.length + 1`. -/
def closeUpvaluesLoop : Nat → VM → Nat → Option VM
  | 0, _, _ => none
  | fuel + 1, vm, last =>
    match vm.openUpvalues with
    | none => some vm
    | some upvalue =>
      match vm.heap.get upvalue with
      | some (.OBJ_UPVALUE (.stack slot) _ next) =>
        if slot >= last then
          closeUpvaluesLoop fuel
            { vm with heap := vm.heap.setObj upvalue (.OBJ_UPVALUE .closed (vm.slot slot) next),
                      openUpvalues := next } last
        else some vm
      | _ => none

def closeUpvalues (vm : VM) (last : Nat) : Option VM :=
  closeUpvaluesLoop (vm.heap.length + 1) vm last

/-- The body of `case OP_RETURN:`. -/
def run_OP_RETURN (vm : VM) : Step :=
  match vm.frames.getLast? with
  | none => .undefined
  | some frame =>
    let (returnValue, vm) := pop vm
    match closeUpvalues vm frame.slots with
    | none => .undefined
    | some vm =>
      let vm := { vm with frames := vm.frames.dropLast }
      if vm.frameCount = 0 then .ret .INTERPRET_OK (pop vm).2
      else .next (push { vm with stackTop := frame.slots } returnValue)

/-- The function `defineNative`; `name` holds the bytes of the C string
before its NUL and `function` is the function pointer. -/
def defineNative (vm : VM) (name : List Char) (function : Nat) : Option VM :=
  (copyString vm name name.length).bind fun r =>
    let vm := push r.2 (OBJ_VAL r.1)
    let (native, vm) := newNative vm function
    let vm := push vm (OBJ_VAL native)
    (tableSet vm.heap vm.globals (AS_OBJ (vm.slot 0)) (vm.slot 1)).map fun t =>
      let vm := { vm with globals := t.2 }
      let vm := (pop vm).2
      (pop vm).2

/-- The function `invokeFromClass`. -/
def invokeFromClass (vm : VM) (klass name : Nat) (argCount : Nat) : Option (Bool × VM) :=
  match vm.heap.get klass with
  | some (.OBJ_CLASS _ methods) =>
    match tableGet vm.heap methods name with
    | none => none
    | some none =>
      match vm.heap.string name with
      | none => none
      | some (_, _, chars) =>
        (runtimeError vm ("Undefined property '" ++ cString chars ++ "'.")).map
          fun vm => (false, vm)
    | some (some method) => call vm (AS_OBJ method) argCount
  | _ => none

/-- The function `invoke`. -/
def invoke (natives : Natives) (vm : VM) (name : Nat) (argCount : Nat) : Option (Bool × VM) :=
  let receiver := vm.peek argCount
  match isObjType vm.heap receiver .OBJ_INSTANCE with
  | none => none
  | some false => (runtimeError vm "Only instances have methods.").map fun vm => (false, vm)
  | some true =>
    match vm.heap.get (AS_OBJ receiver) with
    | some (.OBJ_INSTANCE klass fields) =>
      match tableGet vm.heap fields name with
      | none => none
      | some (some value) =>
        callValue natives
          { vm with stack := storeAt vm.stack (vm.stackTop - argCount - 1) value } value argCount
      | some none => invokeFromClass vm klass name argCount
    | _ => none

/-- The body of `case OP_INVOKE:`. -/
def run_OP_INVOKE (natives : Natives) (vm : VM) : Step :=
  match READ_STRING vm with
  | none => .undefined
  | some (method, vm) =>
    match READ_BYTE vm with
    | none => .undefined
    | some (argCount, vm) =>
      match invoke natives vm method argCount with
      | none => .undefined
      | some (false, vm) => .ret .INTERPRET_RUNTIME_ERROR vm
      | some (true, vm) => .next vm

/-- The loop of `captureUpvalue(local)`, `local` being a stack index: the
pair `(prevUpvalue, upvalue)` when it ends.  An upvalue of the list that is
closed ends it in `none`, as in `closeUpvaluesLoop`; the loop makes at most
one turn per heap object. -/
def captureUpvalueLoop (heap : Heap) (local_ : Nat) :
    Nat → Option Nat → Option Nat → Option (Option Nat × Option Nat)
  | 0, _, _ => none
  | _ + 1, prevUpvalue, none => some (prevUpvalue, none)
  | fuel + 1, prevUpvalue, some upvalue =>
    match heap.get upvalue with
    | some (.OBJ_UPVALUE (.stack slot) _ next) =>
      if slot > local_ then captureUpvalueLoop heap local_ fuel (some upvalue) next
      else some (prevUpvalue, some upvalue)
    | _ => none

/-- The end of `captureUpvalue`, from `newUpvalue` on: the new upvalue is
linked in between `prevUpvalue` and `upvalue`. -/
def insertUpvalue (vm : VM) (local_ : Nat) (prevUpvalue upvalue : Option Nat) :
    Option (Nat × VM) :=
  let (createdUpvalue, vm) := newUpvalue vm local_
  let vm := { vm with
    heap := vm.heap.setObj createdUpvalue (.OBJ_UPVALUE (.stack local_) NIL_VAL upvalue) }
  match prevUpvalue with
  | none => some (createdUpvalue, { vm with openUpvalues := some createdUpvalue })
  | some prev =>
    match vm.heap.get prev with
    | some (.OBJ_UPVALUE location closed _) =>
      some (createdUpvalue,
        { vm with heap := vm.heap.setObj prev (.OBJ_UPVALUE location closed (some createdUpvalue)) })
    | _ => none

/-- The part of `captureUpvalue` after the loop: the upvalue the loop
stopped at is returned when it is open on `local`, and a new one is inserted
otherwise. -/
def captureUpvalueEnd (vm : VM) (local_ : Nat) (prevUpvalue upvalue : Option Nat) :
    Option (Nat × VM) :=
  match upvalue with
  | none => insertUpvalue vm local_ prevUpvalue none
  | some found =>
    match vm.heap.get found with
    | some (.OBJ_UPVALUE (.stack slot) _ _) =>
      if slot = local_ then some (found, vm) else insertUpvalue vm local_ prevUpvalue upvalue
    | _ => none

/-- The function `captureUpvalue(local)`. -/
def captureUpvalue (vm : VM) (local_ : Nat) : Option (Nat × VM) :=
  (captureUpvalueLoop vm.heap local_ (vm.heap.length + 1) none vm.openUpvalues).bind fun r =>
    captureUpvalueEnd vm local_ r.1 r.2

/-- The pointer `frame->closure->upvalues[slot]`. -/
def frameUpvalue (vm : VM) (slot : Nat) : Option (Option Nat) :=
  match vm.frames.getLast? with
  | none => none
  | some frame =>
    match vm.heap.get frame.closure with
    | some (.OBJ_CLOSURE _ upvalues _) => upvalues.get? slot
    | _ => none

/-- The value `*upvalue->location`. -/
def readLocation (vm : VM) (upvalue : Nat) : Option Nat :=
  match vm.heap.get upvalue with
  | some (.OBJ_UPVALUE (.stack slot) _ _) => some (vm.slot slot)
  | some (.OBJ_UPVALUE .closed closed _) => some closed
  | _ => none

/-- The assignment `*upvalue->location = value`. -/
def writeLocation (vm : VM) (upvalue : Nat) (value : Nat) : Option VM :=
  match vm.heap.get upvalue with
  | some (.OBJ_UPVALUE (.stack slot) _ _) => some { vm with stack := storeAt vm.stack slot value }
  | some (.OBJ_UPVALUE .closed _ next) =>
    some { vm with heap := vm.heap.setObj upvalue (.OBJ_UPVALUE .closed value next) }
  | _ => none

/-- The body of `case OP_GET_UPVALUE:`. -/
def run_OP_GET_UPVALUE (vm : VM) : Step :=
  match READ_BYTE vm with
  | none => .undefined
  | some (slot, vm) =>
    match frameUpvalue vm slot with
    | some (some upvalue) =>
      match readLocation vm upvalue with
      | none => .undefined
      | some value => .next (push vm value)
    | _ => .undefined

/-- The body of `case OP_SET_UPVALUE:`. -/
def run_OP_SET_UPVALUE (vm : VM) : Step :=
  match READ_BYTE vm with
  | none => .undefined
  | some (slot, vm) =>
    match frameUpvalue vm slot with
    | some (some upvalue) => Step.ofOption (writeLocation vm upvalue (vm.peek 0))
    | _ => .undefined

/-- The body of `case OP_CLOSE_UPVALUE:`. -/
def run_OP_CLOSE_UPVALUE (vm : VM) : Step :=
  match closeUpvalues vm (vm.stackTop - 1) with
  | none => .undefined
  | some vm => .next (pop vm).2

/-- The loop of `case OP_CLOSURE:` over the upvalues `i`, ..., `i + n - 1` of
the new closure. -/
def closureUpvaluesLoop : Nat → Nat → VM → Nat → Option VM
  | 0, _, vm, _ => some vm
  | n + 1, i, vm, closure =>
    (READ_BYTE vm).bind fun r1 =>
    (READ_BYTE r1.2).bind fun r2 =>
    let isLocal := r1.1
    let index := r2.1
    let vm := r2.2
    match vm.frames.getLast? with
    | none => none
    | some frame =>
      (if isLocal != 0 then
        (captureUpvalue vm (frame.slots + index)).map fun r => (some r.1, r.2)
      else (frameUpvalue vm index).map fun upvalue => (upvalue, vm)).bind fun r =>
      let vm := r.2
      match vm.heap.get closure with
      | some (.OBJ_CLOSURE function upvalues upvalueCount) =>
        if i < upvalues.length then
          let obj := Obj.OBJ_CLOSURE function (upvalues.set i r.1) upvalueCount
          closureUpvaluesLoop n (i + 1) { vm with heap := vm.heap.setObj closure obj } closure
        else none
      | _ => none

/-- The body of `case OP_CLOSURE:`. -/
def run_OP_CLOSURE (vm : VM) : Step :=
  match READ_CONSTANT vm with
  | none => .undefined
  | some (constant, vm) =>
    match newClosure vm (AS_OBJ constant) with
    | none => .undefined
    | some (closure, vm) =>
      let vm := push vm (OBJ_VAL closure)
      match vm.heap.get closure with
      | some (.OBJ_CLOSURE _ _ upvalueCount) =>
        Step.ofOption (closureUpvaluesLoop upvalueCount 0 vm closure)
      | _ => .undefined

/-- The expansion of `BINARY_OP(NUMBER_VAL, op)`, `op` being the operation on
the bit patterns of two doubles. -/
def BINARY_OP_NUMBER (vm : VM) (op : Nat → Nat → Nat) : Step :=
  if !IS_NUMBER (vm.peek 0) || !IS_NUMBER (vm.peek 1) then
    match runtimeError vm "Operands must be numbers." with
    | none => .undefined
    | some vm => .ret .INTERPRET_RUNTIME_ERROR vm
  else
    let (b, vm) := pop vm
    let (a, vm) := pop vm
    .next (push vm (op a b))

/-- One turn of the dispatch loop `for (;;) switch (instruction = READ_BYTE())`
of `run`, for the instructions covered here. -/
def runStep (natives : Natives) (vm0 : VM) : Step :=
  match READ_BYTE vm0 with
  | none => .undefined
  | some (instruction, vm) =>
    if instruction = OP_CONSTANT then
      match READ_CONSTANT vm with
      | none => .undefined
      | some (constant, vm) => .next (push vm constant)
    else if instruction = OP_NIL then .next (push vm NIL_VAL)
    else if instruction = OP_TRUE then .next (push vm (BOOL_VAL true))
    else if instruction = OP_FALSE then .next (push vm (BOOL_VAL false))
    else if instruction = OP_POP then .next (pop vm).2
    else if instruction = OP_GET_LOCAL then
      match READ_BYTE vm, vm.frames.getLast? with
      | some (slot, vm), some frame => .next (push vm (vm.slot (frame.slots + slot)))
      | _, _ => .undefined
    else if instruction = OP_SET_LOCAL then
      match READ_BYTE vm, vm.frames.getLast? with
      | some (slot, vm), some frame =>
        .next { vm with stack := storeAt vm.stack (frame.slots + slot) (vm.peek 0) }
      | _, _ => .undefined
    else if instruction = OP_EQUAL then
      let (b, vm) := pop vm
      let (a, vm) := pop vm
      .next (push vm (BOOL_VAL (isValuesEqual a b)))
    else if instruction = OP_GREATER then BINARY_OP_BOOL vm fun a b => doubleLess b a
    else if instruction = OP_LESS then BINARY_OP_BOOL vm doubleLess
    else if instruction = OP_NOT then run_OP_NOT vm
    else if instruction = OP_JUMP then run_OP_JUMP vm
    else if instruction = OP_JUMP_IF_FALSE then run_OP_JUMP_IF_FALSE vm
    else if instruction = OP_LOOP then run_OP_LOOP vm
    else if instruction = OP_CALL then run_OP_CALL natives vm
    else if instruction = OP_SET_GLOBAL then run_OP_SET_GLOBAL vm
    else if instruction = OP_GET_PROPERTY then run_OP_GET_PROPERTY vm
    else if instruction = OP_INHERIT then run_OP_INHERIT vm
    else if instruction = OP_RETURN then run_OP_RETURN vm
    else if instruction = OP_GET_UPVALUE then run_OP_GET_UPVALUE vm
    else if instruction = OP_SET_UPVALUE then run_OP_SET_UPVALUE vm
    else if instruction = OP_CLOSE_UPVALUE then run_OP_CLOSE_UPVALUE vm
    else if instruction = OP_CLOSURE then run_OP_CLOSURE vm
    else if instruction = OP_INVOKE then run_OP_INVOKE natives vm
    else .notCovered instruction

/-- The dispatch loop of `run`, for at most `fuel` instructions: the state
after them when the loop is still going (`next`), or how it stopped. -/
def run (natives : Natives) : Nat → VM → Step
  | 0, vm => .next vm
  | fuel + 1, vm =>
    match runStep natives vm with
    | .next vm => run natives fuel vm
    | stop => stop

/-! ## States and programs used to evaluate the definitions -/

/-- The state `interpret` leaves just before it calls `run` for a compiled
script with the given chunk: the function and its closure are on the heap, the
closure is in stack slot 0 and one frame is active at the first instruction.
The intern table and the globals are left empty. -/
def scriptVM (chunk : Chunk) : VM :=
  { stack := [OBJ_VAL 1], stackTop := 1,
    heap := [some { isMarked := false, obj := .OBJ_FUNCTION none 0 chunk 0 },
             some { isMarked := false, obj := .OBJ_CLOSURE 0 [] 0 }],
    objects := [1, 0], strings := initTable, globals := initTable,
    frames := [{ closure := 1, ip := 0, slots := 0 }],
    openUpvalues := none, initString := none, stderr := "" }

/-- A table of host functions for states that hold no native object. -/
def noNatives : Natives := fun _ _ _ _ => none

/-- Emit a list of bytes. -/
def emitBytes (bytes : List Nat) (e : Emitter) : Emitter := bytes.foldl emitByte e

/-- The script `while (true) {}` as `compile` emits it: the condition is
`OP_TRUE`, the body `{}` emits nothing, and `endCompiler` appends `OP_NIL`,
`OP_RETURN`. -/
def whileTrueProgram : Emitter :=
  let e : Emitter := { chunk := initChunk, line := 1, errors := [] }
  emitBytes [OP_NIL, OP_RETURN] (whileStatement e (emitBytes [OP_TRUE]) id)

/-- The bit pattern of the double `1.0`. -/
def doubleOne : Nat := 0x3ff0000000000000

/-- The script `for (var i = 0; i < 1; i = i + 1) {}` as `compile` emits it.
In a script, slot 0 is reserved, so `i` is local 1.  The first clause is
`OP_CONSTANT 0` (the constant `0`); the condition `i < 1` is `OP_GET_LOCAL 1`,
`OP_CONSTANT 1`, `OP_LESS`; the increment `i = i + 1` is `OP_GET_LOCAL 1`,
`OP_CONSTANT 2`, `OP_ADD`, `OP_SET_LOCAL 1`; the body `{}` emits nothing;
`endScope` pops `i`; `endCompiler` appends `OP_NIL`, `OP_RETURN`. -/
def forOnceProgram : Emitter :=
  let e : Emitter := { chunk := { code := [], lines := [], constants := [0, doubleOne, doubleOne] },
                       line := 1, errors := [] }
  let e := forStatement e (emitBytes [OP_CONSTANT, 0])
    (some (emitBytes [OP_GET_LOCAL, 1, OP_CONSTANT, 1, OP_LESS]))
    (some (emitBytes [OP_GET_LOCAL, 1, OP_CONSTANT, 2, OP_ADD, OP_SET_LOCAL, 1]))
    id (emitBytes [OP_POP])
  emitBytes [OP_NIL, OP_RETURN] e

/-! ## The table invariant -/

/-- A bucket that was never used: `key == NULL` and `value` is nil.  (A
tombstone has `key == NULL` and a value that is not nil.) -/
def Entry.isEmpty (e : Entry) : Bool := e.key.isNone && IS_NIL e.value

/-- The key stored in bucket `i`, if the bucket exists and holds one. -/
def keyAt (entries : List Entry) (i : Nat) : Option Nat := entries[i]?.bind (·.key)

/-- The index of the `d`-th bucket on the probe path of hash `h`. -/
def probeAt (capacity h d : Nat) : Nat := (h + d) % capacity

/-- The bucket array is well formed for open addressing: it has `capacity`
buckets, a power of two; every key is a string object; no key occurs twice;
and no bucket between a key's home bucket and the bucket that holds it is
empty. -/
structure ProbeInv (heap : Heap) (entries : List Entry) (capacity : Nat) : Prop where
  len : entries.length = capacity
  pow : ∃ n, capacity = 2 ^ n
  strings : ∀ i k, keyAt entries i = some k → ∃ s, heap.string k = some s
  nodup : ∀ i j k, keyAt entries i = some k → keyAt entries j = some k → i = j
  path : ∀ i k s d, keyAt entries i = some k → heap.string k = some s → d < capacity →
    probeAt capacity s.2.1 d = i →
    ∀ d1, d1 < d → ∃ e, entries[probeAt capacity s.2.1 d1]? = some e ∧ e.isEmpty = false

/-- The table invariant: `capacity` is 0 (with no buckets and `count` 0) or
the buckets are well formed and `capacity` is a power of two that is at least
8, `count` is the number of buckets that are not empty (live entries and
tombstones), and `count <= 0.75 * capacity`. -/
structure TableInv (heap : Heap) (t : Table) : Prop where
  zero : t.capacity = 0 → t.entries = [] ∧ t.count = 0
  probe : 0 < t.capacity → ProbeInv heap t.entries t.capacity ∧ 8 ≤ t.capacity
  count_eq : t.count = t.entries.countP (fun e => !e.isEmpty)
  load : 4 * t.count ≤ 3 * t.capacity

/-- The string object `p` is a key of the table. -/
def Table.hasKey (t : Table) (p : Nat) : Prop := ∃ i, keyAt t.entries i = some p

/-- The invariant of the intern table `vm.strings`: the table invariant, every
key is a string object whose cached length and hash are those of its bytes,
and no two distinct keys are strings with equal bytes. -/
structure InternInv (heap : Heap) (t : Table) : Prop where
  table : TableInv heap t
  cached : ∀ k s, t.hasKey k → heap.string k = some s →
    s.1 = s.2.2.length ∧ s.2.1 = hashString s.2.2
  unique : ∀ ki kj si sj, t.hasKey ki → t.hasKey kj →
    heap.string ki = some si → heap.string kj = some sj → si.2.2 = sj.2.2 → ki = kj

/-- What `findEntry` returns for a key of hash `h`: the bucket that holds the
key, or, when no bucket holds it, a bucket without a key (the first tombstone
on the probe path, else the empty bucket that ends it) before which the path
has no empty bucket. -/
def FindSpec (entries : List Entry) (capacity key h i : Nat) : Prop :=
  ∃ e, entries[i]? = some e ∧
    (e.key = some key ∨
      (e.key = none ∧ (∀ j, keyAt entries j ≠ some key) ∧
        ∃ di, di < capacity ∧ probeAt capacity h di = i ∧
          ∀ d1, d1 < di → ∃ e1, entries[probeAt capacity h d1]? = some e1 ∧ e1.isEmpty = false))

/-- Some bucket holds key `k` with value `v`. -/
def Live (entries : List Entry) (k v : Nat) : Prop :=
  ∃ j : Nat, entries[j]? = some { key := some k, value := v }

/-- No bucket is a tombstone. -/
def NoTombstone (entries : List Entry) : Prop :=
  ∀ (j : Nat) (e : Entry), entries[j]? = some e → e.key = none → e.isEmpty = true

/-! ## More states and inputs used to evaluate the definitions -/

/-- The first two tokens of a source text. -/
def scanTwo (source : String) : Option (Token × Token) :=
  (scanToken (initScanner source.toList)).bind fun r1 =>
    (scanToken r1.2).map fun r2 => (r1.1, r2.1)

/-- The kind of the first token of a source text. -/
def firstTokenType (source : String) : Option TokenType :=
  (scanToken (initScanner source.toList)).map fun r => r.1.type

/-- The state `initVM` has set up when it is about to intern the initializer
name: empty stack, heap and tables. -/
def emptyVM : VM :=
  { stack := [], stackTop := 0, heap := [], objects := [], strings := initTable,
    globals := initTable, frames := [], openUpvalues := none, initString := none, stderr := "" }

/-- The build option `LOXJ_OPTIONS_INIT` of `common.h`. -/
def LOXJ_OPTIONS_INIT : String := "constructor"

def LOXJ_OPTIONS_INIT_LENGTH : Nat := 11

/-- The function `initVM` up to the point where the initializer name is
interned; the host functions that `loadBuiltInNative` defines after that are
not part of this definition. -/
def initVM : Option VM :=
  (copyString { emptyVM with initString := none } LOXJ_OPTIONS_INIT.toList
    LOXJ_OPTIONS_INIT_LENGTH).map fun r => { r.2 with initString := some r.1 }

/-- The bit pattern of the double `42.0`. -/
def doubleFortyTwo : Nat := 0x4045000000000000

/-- The method table of a class whose only method is `constructor`, bound to
the closure at address 3, as `defineMethod` builds it with `tableSet`. -/
def constructorMethods (heap : Heap) : Table :=
  match tableSet heap initTable 0 (OBJ_VAL 3) with
  | some r => r.2
  | none => initTable

/-- The heap of the script `class P { constructor(x) {} } P(42);` when the
call is about to be made: the interned strings `constructor` (0) and `P` (1),
the function of the constructor (2) and its closure (3), the class (4), the
script function (5) and its closure (6). -/
def classHeap : Heap :=
  let strings : Heap :=
    [some ⟨false, .OBJ_STRING 11 (hashString "constructor".toList) "constructor".toList⟩,
     some ⟨false, .OBJ_STRING 1 (hashString "P".toList) "P".toList⟩]
  strings ++
    [some ⟨false, .OBJ_FUNCTION (some 0) 1 ⟨[OP_GET_LOCAL, 0, OP_RETURN], [1, 1, 1], []⟩ 0⟩,
     some ⟨false, .OBJ_CLOSURE 2 [] 0⟩,
     some ⟨false, .OBJ_CLASS 1 (constructorMethods strings)⟩,
     some ⟨false, .OBJ_FUNCTION none 0 ⟨[OP_NIL, OP_RETURN], [1, 1], []⟩ 0⟩,
     some ⟨false, .OBJ_CLOSURE 5 [] 0⟩]

/-- The state of that script at the call `P(42)`: the stack holds the script
closure, the class and the argument. -/
def classVM : VM :=
  { stack := [OBJ_VAL 6, OBJ_VAL 4, doubleFortyTwo], stackTop := 3, heap := classHeap,
    objects := [6, 5, 4, 3, 2, 1, 0], strings := initTable, globals := initTable,
    frames := [{ closure := 6, ip := 1, slots := 0 }], openUpvalues := none,
    initString := some 0, stderr := "" }


/-! ## States used to evaluate the instructions of `run` -/

/-- The heap of a script whose chunk is given, with the string `x` interned
at address 2: the script function (0), its closure (1), the string (2). -/
def globalHeap (chunk : Chunk) : Heap :=
  [some ⟨false, .OBJ_FUNCTION none 0 chunk 0⟩,
   some ⟨false, .OBJ_CLOSURE 0 [] 0⟩,
   some ⟨false, .OBJ_STRING 1 (hashString "x".toList) "x".toList⟩]

/-- The state of the script `x = 1;` when `run` has read the opcode of
`OP_SET_GLOBAL 0`: the constant 0 is the name `x`, the value `1` is on top of
the stack, and no global is defined. -/
def setGlobalVM : VM :=
  let chunk : Chunk :=
    ⟨[OP_CONSTANT, 1, OP_SET_GLOBAL, 0, OP_POP, OP_NIL, OP_RETURN], [1, 1, 1, 1, 1, 1, 1],
      [OBJ_VAL 2, doubleOne]⟩
  { stack := [OBJ_VAL 1, doubleOne], stackTop := 2, heap := globalHeap chunk,
    objects := [2, 1, 0], strings := initTable, globals := initTable,
    frames := [{ closure := 1, ip := 3, slots := 0 }],
    openUpvalues := none, initString := none, stderr := "" }

/-- The table that `tableSet` makes of an empty table and one entry. -/
def singletonTable (heap : Heap) (key value : Nat) : Table :=
  match tableSet heap initTable key value with
  | some r => r.2
  | none => initTable

/-- The state of the script `class x { x() {} } var o = x(); o.x;` (with the
method body left out) when `run` has read the opcode of `OP_GET_PROPERTY 0`:
the heap holds the script function (0) and its closure (1), the string `x`
(2), the class (3), whose method `x` is bound to the closure at address 1,
and an instance of it without fields (4), which is on top of the stack. -/
def propertyVM : VM :=
  let chunk : Chunk := ⟨[OP_GET_PROPERTY, 0, OP_POP, OP_NIL, OP_RETURN], [1, 1, 1, 1, 1], [OBJ_VAL 2]⟩
  let heap := globalHeap chunk
  { stack := [OBJ_VAL 1, OBJ_VAL 4], stackTop := 2,
    heap := heap ++ [some ⟨false, .OBJ_CLASS 2 (singletonTable heap 2 (OBJ_VAL 1))⟩,
                     some ⟨false, .OBJ_INSTANCE 3 initTable⟩],
    objects := [4, 3, 2, 1, 0], strings := initTable, globals := initTable,
    frames := [{ closure := 1, ip := 1, slots := 0 }],
    openUpvalues := none, initString := none, stderr := "" }

/-- A state in which `run` has read the opcode of `OP_INHERIT`: the heap holds
the script function (0) and its closure (1), the string `x` (2), a class
whose method `x` is bound to the closure at address 1 (3) and a class without
methods (4); the stack holds the script closure, the first class as the
superclass and the second as the subclass. -/
def inheritVM : VM :=
  let chunk : Chunk := ⟨[OP_INHERIT, OP_POP, OP_NIL, OP_RETURN], [1, 1, 1, 1], []⟩
  let heap := globalHeap chunk
  { stack := [OBJ_VAL 1, OBJ_VAL 3, OBJ_VAL 4], stackTop := 3,
    heap := heap ++ [some ⟨false, .OBJ_CLASS 2 (singletonTable heap 2 (OBJ_VAL 1))⟩,
                     some ⟨false, .OBJ_CLASS 2 initTable⟩],
    objects := [4, 3, 2, 1, 0], strings := initTable, globals := initTable,
    frames := [{ closure := 1, ip := 1, slots := 0 }],
    openUpvalues := none, initString := none, stderr := "" }

/-- The state of the script `var x = "x"; x + x;` (with a constant pool that
is not needed left out) when `run` has read the opcode of `OP_ADD`: the string
`x` (2) is interned and is on the stack twice, above the script closure. -/
def addVM : VM :=
  let chunk : Chunk := ⟨[OP_ADD, OP_POP, OP_NIL, OP_RETURN], [1, 1, 1, 1], []⟩
  let heap := globalHeap chunk
  { stack := [OBJ_VAL 1, OBJ_VAL 2, OBJ_VAL 2], stackTop := 3, heap := heap,
    objects := [2, 1, 0], strings := singletonTable heap 2 NIL_VAL, globals := initTable,
    frames := [{ closure := 1, ip := 1, slots := 0 }],
    openUpvalues := none, initString := none, stderr := "" }

/-- A state in which a host function runs: as `addVM`, but the stack holds
the string `x` in slot 0 and the number `1` in slot 1. -/
def nativeCallVM : VM := { addVM with stack := [OBJ_VAL 2, doubleOne], stackTop := 2 }

/-! ## The list of open upvalues -/

/-- The list that starts at `head` and follows `next` consists of the open
upvalues `l`, each given by its address and the stack slot it points at. -/
def OpenList (heap : Heap) : Option Nat → List (Nat × Nat) → Prop
  | none, [] => True
  | some p, x :: rest =>
    p = x.1 ∧ ∃ (closed : Nat) (next : Option Nat),
      heap.get p = some (.OBJ_UPVALUE (.stack x.2) closed next) ∧ OpenList heap next rest
  | _, _ => False

/-- The slots of the list go down strictly, as `captureUpvalue` keeps them. -/
def OpenSorted (l : List (Nat × Nat)) : Prop := l.Pairwise fun x y => y.2 < x.2

/-- The state of the script `fun f() { var a; fun g() { a; } return g; } f();`
when `run` has read the opcode of the `OP_RETURN` of `f`: the heap holds the
script function (0) and closure (1), the function (2) and closure (3) of `f`,
the function of `g` (4), its closure (5) and the open upvalue for `a` (6); the
stack holds the script closure, the closure of `f`, the local `a` and the
closure of `g`, which is the value returned.  The name strings, which
`OP_RETURN` does not read, are left out: the functions have no name and the
constant 1 of the script is absent. -/
def returnVM : VM :=
  let script : Chunk :=
    ⟨[OP_CLOSURE, 0, OP_DEFINE_GLOBAL, 1, OP_GET_GLOBAL, 1, OP_CALL, 0, OP_POP, OP_NIL, OP_RETURN],
      [1, 1, 1, 1, 1, 1, 1, 1, 1, 1, 1], [OBJ_VAL 2]⟩
  let f : Chunk :=
    ⟨[OP_NIL, OP_CLOSURE, 0, 1, 1, OP_GET_LOCAL, 2, OP_RETURN, OP_NIL, OP_RETURN],
      [1, 1, 1, 1, 1, 1, 1, 1, 1, 1], [OBJ_VAL 4]⟩
  let g : Chunk := ⟨[OP_GET_UPVALUE, 0, OP_POP, OP_NIL, OP_RETURN], [1, 1, 1, 1, 1], []⟩
  { stack := [OBJ_VAL 1, OBJ_VAL 3, NIL_VAL, OBJ_VAL 5, OBJ_VAL 5], stackTop := 5,
    heap := [some ⟨false, .OBJ_FUNCTION none 0 script 0⟩, some ⟨false, .OBJ_CLOSURE 0 [] 0⟩,
             some ⟨false, .OBJ_FUNCTION none 0 f 0⟩, some ⟨false, .OBJ_CLOSURE 2 [] 0⟩,
             some ⟨false, .OBJ_FUNCTION none 0 g 1⟩, some ⟨false, .OBJ_CLOSURE 4 [some 6] 1⟩,
             some ⟨false, .OBJ_UPVALUE (.stack 2) NIL_VAL none⟩],
    objects := [6, 5, 4, 3, 2, 1, 0], strings := initTable, globals := initTable,
    frames := [{ closure := 1, ip := 8, slots := 0 }, { closure := 3, ip := 8, slots := 1 }],
    openUpvalues := some 6, initString := none, stderr := "" }


/-! ## compiler.c: statements and functions

The definitions above model the emitters on the chunk alone.  The ones below
work on the whole state of a compilation: the chain of `Compiler` records, the
function objects they write to (which live on the heap of the VM), the error
flags of the parser and the two globals that `continue` reads.  The token
stream is not part of the state: where the C calls a recursive-descent
function for a part of the statement (`expression`, `statement`, ...), the
definition takes the compilation of that part as a parameter, and where it
tests the next token (`match(TOKEN_SEMICOLON)`), a parameter says which way
the test goes.  The calls of `consume` on a well-formed statement only
advance the scanner and are left out. -/

/-- The struct `Local`; `name` holds the bytes of the token. -/
structure Local where
  name : List Char
  depth : Int
  isCaptured : Bool
  deriving DecidableEq, Repr

/-- The struct `Upvalue`. -/
structure Upvalue where
  index : Nat
  isLocal : Bool
  deriving DecidableEq, Repr

inductive FunctionType
  | TYPE_FUNCTION | TYPE_METHOD | TYPE_INITIALIZER | TYPE_SCRIPT
  deriving DecidableEq, Repr

/-- The struct `Compiler`; `locals` holds the `localCount` locals in use, and
the link `enclosing` is the order of the list `Compilation.currentCompiler`. -/
structure Compiler where
  function : Nat
  type : FunctionType
  locals : List Local
  scopeDepth : Int
  upvalues : List Upvalue
  deriving DecidableEq, Repr

/-- What the definitions below use of the struct `Parser`: the line of
`parser.previous` and the two flags. -/
structure Parser where
  line : Nat
  hadError : Bool
  panicMode : Bool
  deriving DecidableEq, Repr

/-- The state of a compilation: the VM, the global `parser`, the messages that
`errorAt` has printed (each is printed on a line of its own after the line
number and the token), the chain that starts at `currentCompiler` (innermost
first, `[]` for `NULL`), and the globals `innermostLoopStart` and
`innermostLoopScopeDepth`. -/
structure Compilation where
  vm : VM
  parser : Parser
  reported : List String
  currentCompiler : List Compiler
  innermostLoopStart : Int
  innermostLoopScopeDepth : Int
  deriving DecidableEq, Repr

namespace Compilation

/-- The function `errorAt` (and `error`, `errorAtCurrent`, which pass it a
token): nothing in panic mode, else both flags are set and the message is
printed. -/
def error (c : Compilation) (message : String) : Compilation :=
  if c.parser.panicMode then c
  else { c with parser := { c.parser with panicMode := true, hadError := true },
                reported := c.reported ++ [message] }

/-- The function `compilingChunk`: the chunk of `currentCompiler->function`. -/
def compilingChunk (c : Compilation) : Option Chunk :=
  match c.currentCompiler with
  | [] => none
  | compiler :: _ =>
    match c.vm.heap.get compiler.function with
    | some (.OBJ_FUNCTION _ _ chunk _) => some chunk
    | _ => none

/-- Assign the chunk of `currentCompiler->function`. -/
def setChunk (c : Compilation) (chunk : Chunk) : Option Compilation :=
  match c.currentCompiler with
  | [] => none
  | compiler :: _ =>
    match c.vm.heap.get compiler.function with
    | some (.OBJ_FUNCTION name arity _ upvalueCount) =>
      let heap := c.vm.heap.setObj compiler.function (.OBJ_FUNCTION name arity chunk upvalueCount)
      some { c with vm := { c.vm with heap := heap } }
    | _ => none

/-- The function `emitByte`; the parameter is a `uint8_t`. -/
def emitByte (c : Compilation) (byte : Nat) : Option Compilation :=
  c.compilingChunk.bind fun chunk => c.setChunk (writeChunk chunk (byte % 256) c.parser.line)

def emitReturn (c : Compilation) : Option Compilation :=
  match c.currentCompiler with
  | [] => none
  | compiler :: _ =>
    if compiler.type = .TYPE_INITIALIZER then
      ((c.emitByte OP_GET_LOCAL).bind fun c => c.emitByte 0).bind fun c => c.emitByte OP_RETURN
    else (c.emitByte OP_NIL).bind fun c => c.emitByte OP_RETURN

/-- The function `endCompiler`: returns the function and makes the enclosing
compiler the current one. -/
def endCompiler (c : Compilation) : Option (Nat × Compilation) :=
  (emitReturn c).bind fun c =>
    match c.currentCompiler with
    | [] => none
    | compiler :: enclosing => some (compiler.function, { c with currentCompiler := enclosing })

def emitJump (c : Compilation) (instruction : Nat) : Option (Nat × Compilation) :=
  ((c.emitByte instruction).bind fun c => c.emitByte 0xff).bind fun c =>
    (c.emitByte 0xff).bind fun c => c.compilingChunk.map fun chunk => (chunk.count - 2, c)

def patchJump (c : Compilation) (offset : Nat) : Option Compilation :=
  c.compilingChunk.bind fun chunk =>
    let jump := chunk.count - offset - 2
    let c := if jump > UINT16_MAX then c.error "Too much code to jump over." else c
    if offset + 1 < chunk.count then
      c.setChunk { chunk with
        code := (chunk.code.set offset ((jump >>> 8) &&& 0xff)).set (offset + 1) (jump &&& 0xff) }
    else none

/-- The function `emitLoop`; `loopStart` is an `int`, and so is `offset`,
which is masked to a byte twice. -/
def emitLoop (c : Compilation) (loopStart : Int) : Option Compilation :=
  (c.emitByte OP_LOOP).bind fun c =>
    c.compilingChunk.bind fun chunk =>
      let offset : Int := (chunk.count : Int) - loopStart + 2
      let c := if offset > UINT16_MAX then c.error "Loop body too large." else c
      (c.emitByte (((offset >>> 8) % 256).toNat)).bind fun c => c.emitByte ((offset % 256).toNat)

/-- The function `addConstant` of `chunk.c`, on the chunk being compiled: the
value is on the VM stack while the pool grows. -/
def addConstant (c : Compilation) (value : Nat) : Option (Nat × Compilation) :=
  c.compilingChunk.bind fun chunk =>
    let index := chunk.constants.length
    let c := { c with vm := push c.vm value }
    (c.setChunk { chunk with constants := chunk.constants ++ [value] }).map fun c =>
      (index, { c with vm := (pop c.vm).2 })

def makeConstant (c : Compilation) (value : Nat) : Option (Nat × Compilation) :=
  (c.addConstant value).map fun r =>
    if r.1 > UINT8_MAX then (0, r.2.error "Too many constants in one chunk.")
    else (r.1, r.2)

/-- Assign a field of `*currentCompiler`. -/
def mapCompiler (c : Compilation) (f : Compiler → Compiler) : Option Compilation :=
  match c.currentCompiler with
  | [] => none
  | compiler :: enclosing => some { c with currentCompiler := f compiler :: enclosing }

def beginScope (c : Compilation) : Option Compilation :=
  c.mapCompiler fun compiler => { compiler with scopeDepth := compiler.scopeDepth + 1 }

/-- The loop of `endScope`, with one unit of fuel per local. -/
def endScopeLoop : Nat → Compilation → Option Compilation
  | 0, c => some c
  | fuel + 1, c =>
    match c.currentCompiler with
    | [] => none
    | compiler :: _ =>
      match compiler.locals.getLast? with
      | none => some c
      | some local_ =>
        if local_.depth > compiler.scopeDepth then
          (c.emitByte (if local_.isCaptured then OP_CLOSE_UPVALUE else OP_POP)).bind fun c =>
            (c.mapCompiler fun compiler =>
              { compiler with locals := compiler.locals.dropLast }).bind fun c =>
                endScopeLoop fuel c
        else some c

def endScope (c : Compilation) : Option Compilation :=
  (c.mapCompiler fun compiler => { compiler with scopeDepth := compiler.scopeDepth - 1 }).bind
    fun c =>
      match c.currentCompiler with
      | [] => none
      | compiler :: _ => endScopeLoop (compiler.locals.length + 1) c

/-- The function `addLocal`. -/
def addLocal (c : Compilation) (name : List Char) : Option Compilation :=
  match c.currentCompiler with
  | [] => none
  | compiler :: _ =>
    if compiler.locals.length >= UINT8_MAX + 1 then
      some (c.error "Too many local variables in function.")
    else
      c.mapCompiler fun compiler =>
        { compiler with locals := compiler.locals ++ [{ name := name, depth := -1, isCaptured := false }] }

/-- The loop of `declareVariable` over the locals, innermost first: does one
of the current scope have this name? -/
def declaredInScope (name : List Char) (scopeDepth : Int) : List Local → Bool
  | [] => false
  | local_ :: outer =>
    if local_.depth != -1 && local_.depth < scopeDepth then false
    else if local_.name == name then true
    else declaredInScope name scopeDepth outer

/-- The function `declareVariable`; `name` is the token `parser.previous`.
In panic mode a second `error` prints nothing, so one call stands for the
calls of the loop. -/
def declareVariable (c : Compilation) (name : List Char) : Option Compilation :=
  match c.currentCompiler with
  | [] => none
  | compiler :: _ =>
    if compiler.scopeDepth = 0 then some c
    else
      let c := if declaredInScope name compiler.scopeDepth compiler.locals.reverse
        then c.error "Already a variable with this name in this scope." else c
      c.addLocal name

def markInitialized (c : Compilation) : Option Compilation :=
  match c.currentCompiler with
  | [] => none
  | compiler :: _ =>
    if compiler.scopeDepth = 0 then some c
    else
      match compiler.locals.getLast? with
      | none => none
      | some local_ =>
        c.mapCompiler fun compiler =>
          { compiler with locals :=
              compiler.locals.dropLast ++ [{ local_ with depth := compiler.scopeDepth }] }

def defineVariable (c : Compilation) (global : Nat) : Option Compilation :=
  match c.currentCompiler with
  | [] => none
  | compiler :: _ =>
    if compiler.scopeDepth > 0 then c.markInitialized
    else (c.emitByte OP_DEFINE_GLOBAL).bind fun c => c.emitByte global

/-- The function `identifierConstant`; `name` holds the bytes of the token. -/
def identifierConstant (c : Compilation) (name : List Char) : Option (Nat × Compilation) :=
  (copyString c.vm name name.length).bind fun r =>
    ({ c with vm := r.2 } : Compilation).makeConstant (OBJ_VAL r.1)

/-- The function `parseVariable` when the next token is an identifier, whose
bytes are `name`. -/
def parseVariable (c : Compilation) (name : List Char) : Option (Nat × Compilation) :=
  (c.declareVariable name).bind fun c =>
    match c.currentCompiler with
    | [] => none
    | compiler :: _ =>
      if compiler.scopeDepth > 0 then some (0, c)
      else c.identifierConstant name

/-- The function `initCompiler`; `name` holds the bytes of `parser.previous`,
which names the function when it is not the script. -/
def initCompiler (c : Compilation) (type : FunctionType) (name : List Char) :
    Option Compilation :=
  let (function, vm) := allocateObject c.vm (.OBJ_FUNCTION none 0 initChunk 0)
  let compiler : Compiler :=
    { function := function, type := type, locals := [], scopeDepth := 0, upvalues := [] }
  let c := { c with vm := vm, currentCompiler := compiler :: c.currentCompiler }
  (if type != .TYPE_SCRIPT then
    (copyString c.vm name name.length).map fun r =>
      let heap := r.2.heap.setObj function (.OBJ_FUNCTION (some r.1) 0 initChunk 0)
      { c with vm := { r.2 with heap := heap } }
    else some c).bind fun c =>
  c.mapCompiler fun compiler =>
    { compiler with locals := compiler.locals ++
        [{ name := if type != .TYPE_FUNCTION then "this".toList else [],
           depth := 0, isCaptured := false }] }

/-- The function `declaration`, given the compilation of the declaration or
statement that the next token starts; of `synchronize` only the reset of the
panic flag is in the state. -/
def declaration (c : Compilation) (declared : Compilation → Option Compilation) :
    Option Compilation :=
  (declared c).map fun c =>
    if c.parser.panicMode then { c with parser := { c.parser with panicMode := false } } else c

/-- The function `block`, given the declarations up to the closing brace. -/
def block (c : Compilation) : List (Compilation → Option Compilation) → Option Compilation
  | [] => some c
  | declared :: rest => (c.declaration declared).bind fun c => c.block rest

/-- The case `match(TOKEN_LEFT_BRACE)` of `statement`. -/
def statementBlock (c : Compilation) (declarations : List (Compilation → Option Compilation)) :
    Option Compilation :=
  (c.beginScope.bind fun c => c.block declarations).bind fun c => c.endScope

/-- The function `expressionStatement`. -/
def expressionStatement (c : Compilation) (expression : Compilation → Option Compilation) :
    Option Compilation :=
  (expression c).bind fun c => c.emitByte OP_POP

def whileStatement (c : Compilation) (expression statement : Compilation → Option Compilation) :
    Option Compilation :=
  c.compilingChunk.bind fun chunk =>
    let loopStart := chunk.count
    (expression c).bind fun c =>
    (c.emitJump OP_JUMP_IF_FALSE).bind fun r =>
    let exitJump := r.1
    (r.2.emitByte OP_POP).bind fun c =>
    (statement c).bind fun c =>
    (c.emitLoop loopStart).bind fun c =>
    (c.patchJump exitJump).bind fun c =>
    c.emitByte OP_POP

/-- The function `forStatement`.  Each clause is the compilation of that
clause, `none` when the clause is absent: `initializer` is `varDeclaration` or
`expressionStatement`, `condition` and `increment` are `expression`. -/
def forStatement (c : Compilation)
    (initializer condition increment : Option (Compilation → Option Compilation))
    (statement : Compilation → Option Compilation) : Option Compilation :=
  c.beginScope.bind fun c =>
  (match initializer with
    | none => some c
    | some declared => declared c).bind fun c =>
  let surroundingLoopStart := c.innermostLoopStart
  let surroundingLoopScopeDepth := c.innermostLoopScopeDepth
  match c.compilingChunk, c.currentCompiler with
  | some chunk, compiler :: _ =>
    let c := { c with innermostLoopStart := chunk.count,
                      innermostLoopScopeDepth := compiler.scopeDepth }
    (match condition with
      | none => some (none, c)
      | some expression =>
        (expression c).bind fun c =>
        (c.emitJump OP_JUMP_IF_FALSE).bind fun r =>
        (r.2.emitByte OP_POP).map fun c => (some r.1, c)).bind fun (r : Option Nat × Compilation) =>
    let exitJump := r.1
    (match increment with
      | none => some r.2
      | some expression =>
        (r.2.emitJump OP_JUMP).bind fun j =>
        let bodyJump := j.1
        j.2.compilingChunk.bind fun chunk =>
        let incrementStart := chunk.count
        (expression j.2).bind fun c =>
        (c.emitByte OP_POP).bind fun c =>
        (c.emitLoop c.innermostLoopStart).bind fun c =>
        ({ c with innermostLoopStart := incrementStart } : Compilation).patchJump bodyJump).bind
      fun c =>
    (statement c).bind fun c =>
    (c.emitLoop c.innermostLoopStart).bind fun c =>
    (match exitJump with
      | none => some c
      | some exitJump => (c.patchJump exitJump).bind fun c => c.emitByte OP_POP).bind fun c =>
    ({ c with innermostLoopStart := surroundingLoopStart,
              innermostLoopScopeDepth := surroundingLoopScopeDepth } : Compilation).endScope
  | _, _ => none

/-- The number of turns of the loop of `continueStatement`: the locals from
the last one down whose depth is above `innermostLoopScopeDepth`. -/
def localsInLoop (locals : List Local) (depth : Int) : Nat :=
  (locals.reverse.takeWhile fun local_ => local_.depth > depth).length

/-- Emit `OP_POP` a number of times. -/
def emitPops : Nat → Compilation → Option Compilation
  | 0, c => some c
  | n + 1, c => (c.emitByte OP_POP).bind fun c => emitPops n c

def continueStatement (c : Compilation) : Option Compilation :=
  let c := if c.innermostLoopStart = -1
    then c.error "Can't use 'continue' outside of a loop." else c
  match c.currentCompiler with
  | [] => none
  | compiler :: _ =>
    (emitPops (localsInLoop compiler.locals c.innermostLoopScopeDepth) c).bind fun c =>
      c.emitLoop c.innermostLoopStart

/-- The bytes that follow `OP_CLOSURE` and its constant. -/
def emitUpvalues : List Upvalue → Compilation → Option Compilation
  | [], c => some c
  | upvalue :: rest, c =>
    ((c.emitByte (if upvalue.isLocal then 1 else 0)).bind fun c =>
      c.emitByte upvalue.index).bind fun c => emitUpvalues rest c

/-- The function `function`, for a function without parameters; `name` holds
the bytes of `parser.previous` and `body` the declarations of the body. -/
def function (c : Compilation) (type : FunctionType) (name : List Char)
    (body : List (Compilation → Option Compilation)) : Option Compilation :=
  (c.initCompiler type name).bind fun c =>
  c.beginScope.bind fun c =>
  (c.block body).bind fun c =>
  match c.currentCompiler with
  | [] => none
  | compiler :: _ =>
    c.endCompiler.bind fun r =>
    let function := r.1
    (r.2.emitByte OP_CLOSURE).bind fun c =>
    (c.makeConstant (OBJ_VAL function)).bind fun k =>
    (k.2.emitByte k.1).bind fun c =>
    match c.vm.heap.get function with
    | some (.OBJ_FUNCTION _ _ _ upvalueCount) =>
      emitUpvalues (compiler.upvalues.take upvalueCount) c
    | _ => none

/-- The function `funDeclaration`, for a function without parameters. -/
def funDeclaration (c : Compilation) (name : List Char)
    (body : List (Compilation → Option Compilation)) : Option Compilation :=
  (c.parseVariable name).bind fun r =>
  r.2.markInitialized.bind fun c =>
  (c.function .TYPE_FUNCTION name body).bind fun c =>
  c.defineVariable r.1

/-- The function `compile`, given the declarations of the source text:
`some` function, or `none` for `NULL`, and the state the compilation leaves.
The two loop globals keep the values they have. -/
def compile (vm : VM) (innermostLoopStart innermostLoopScopeDepth : Int)
    (declarations : List (Compilation → Option Compilation)) :
    Option (Option Nat × Compilation) :=
  let c : Compilation :=
    { vm := vm, parser := { line := 1, hadError := false, panicMode := false },
      reported := [], currentCompiler := [],
      innermostLoopStart := innermostLoopStart,
      innermostLoopScopeDepth := innermostLoopScopeDepth }
  (c.initCompiler .TYPE_SCRIPT []).bind fun c =>
  (c.block declarations).bind fun c =>
  c.endCompiler.map fun r => (if r.2.parser.hadError then none else some r.1, r.2)

end Compilation

/-! ## Compilations used to evaluate the definitions -/

/-- A compilation in the body of an initializer whose function object, at
address 0, has the given chunk. -/
def initializerCompilation (chunk : Chunk) : Compilation :=
  { vm := { emptyVM with heap := [some ⟨false, .OBJ_FUNCTION none 0 chunk 0⟩], objects := [0] },
    parser := { line := 1, hadError := false, panicMode := false },
    reported := [],
    currentCompiler := [{ function := 0, type := .TYPE_INITIALIZER,
                          locals := [{ name := "this".toList, depth := 0, isCaptured := false }],
                          scopeDepth := 1, upvalues := [] }],
    innermostLoopStart := -1, innermostLoopScopeDepth := 0 }

/-- A chunk whose constant pool holds 256 entries. -/
def fullPoolChunk : Chunk := { code := [], lines := [], constants := List.replicate 256 NIL_VAL }

/-- The code of the function object at an address. -/
def codeAt (c : Compilation) (function : Nat) : Option (List Nat) :=
  match c.vm.heap.get function with
  | some (.OBJ_FUNCTION _ _ chunk _) => some chunk.code
  | _ => none

/-- What is looked at of the result of `compile`: whether it returned a
function, the messages, and the code of the function objects at addresses 0
(the script) and 1. -/
def Compilation.summary (r : Option (Option Nat × Compilation)) :
    Option (Option Nat × List String × Option (List Nat) × Option (List Nat)) :=
  r.map fun r => (r.1, r.2.reported, codeAt r.2 0, codeAt r.2 1)

/-- The script `while (true) { continue; }`: the condition `true` is compiled
by `literal`, which emits `OP_TRUE`. -/
def whileContinueProgram : Option (Option Nat × Compilation) :=
  Compilation.compile emptyVM (-1) 0
    [fun c => c.whileStatement (fun c => c.emitByte OP_TRUE)
      (fun c => c.statementBlock [Compilation.continueStatement])]

/-- The script `for (;;) { continue; }`. -/
def forContinueProgram : Option (Option Nat × Compilation) :=
  Compilation.compile emptyVM (-1) 0
    [fun c => c.forStatement none none none
      (fun c => c.statementBlock [Compilation.continueStatement])]

/-- The script `for (; true;) { while (true) { continue; } }`. -/
def forWhileContinueProgram : Option (Option Nat × Compilation) :=
  Compilation.compile emptyVM (-1) 0
    [fun c => c.forStatement none (some fun c => c.emitByte OP_TRUE) none
      (fun c => c.statementBlock
        [fun c => c.whileStatement (fun c => c.emitByte OP_TRUE)
          (fun c => c.statementBlock [Compilation.continueStatement])])]

/-- The script `for (;;) { fun f() { continue; } }`. -/
def forFunContinueProgram : Option (Option Nat × Compilation) :=
  Compilation.compile emptyVM (-1) 0
    [fun c => c.forStatement none none none
      (fun c => c.statementBlock
        [fun c => c.funDeclaration "f".toList [Compilation.continueStatement]])]


/-! ## memory.c: the collector

The state of the mark phase is the heap, where the mark bits are, and the
gray stack `vm.grayStack[0 .. grayCount)`, a list with the top first.  The
gray stack is empty outside `collectGarbage` (`initVM` sets `grayCount` to 0
and `traceReferences` ends when it is 0 again), so it is not a field of `VM`.
The growth of the gray stack ends the process when `realloc` fails and has no
other effect. -/

/-- The mark bit of the object at an address (`false` where there is none). -/
def Heap.marked (heap : Heap) (p : Nat) : Bool :=
  match heap.getD p none with
  | some cell => cell.isMarked
  | none => false

/-- The function `markObject`; `object` is `none` for `NULL`. -/
def markObject (s : Heap × List Nat) (object : Option Nat) : Option (Heap × List Nat) :=
  match object with
  | none => some s
  | some p =>
    match s.1.getD p none with
    | none => none
    | some cell =>
      if cell.isMarked then some s
      else some (s.1.set p (some { cell with isMarked := true }), p :: s.2)

def markValue (s : Heap × List Nat) (value : Nat) : Option (Heap × List Nat) :=
  if IS_OBJ value then markObject s (some (AS_OBJ value)) else some s

/-- The function `markArray`, on the `count` values of the array. -/
def markArray (s : Heap × List Nat) : List Nat → Option (Heap × List Nat)
  | [] => some s
  | value :: rest => (markValue s value).bind fun s => markArray s rest

/-- The loop of `markTable` over the buckets. -/
def markEntries (s : Heap × List Nat) : List Entry → Option (Heap × List Nat)
  | [] => some s
  | entry :: rest =>
    ((markObject s entry.key).bind fun s => markValue s entry.value).bind fun s =>
      markEntries s rest

/-- The function `markTable` of `table.c`. -/
def markTable (s : Heap × List Nat) (table : Table) : Option (Heap × List Nat) :=
  if table.capacity ≤ table.entries.length then markEntries s (table.entries.take table.capacity)
  else none

/-- The loop of `blackenObject` over the upvalues of a closure. -/
def markUpvalues (s : Heap × List Nat) : List (Option Nat) → Option (Heap × List Nat)
  | [] => some s
  | upvalue :: rest => (markObject s upvalue).bind fun s => markUpvalues s rest

/-- The function `blackenObject`, given the object at the address. -/
def blackenObject (s : Heap × List Nat) (obj : Obj) : Option (Heap × List Nat) :=
  match obj with
  | .OBJ_CLASS name methods => (markObject s (some name)).bind fun s => markTable s methods
  | .OBJ_BOUND_METHOD receiver method =>
    (markValue s receiver).bind fun s => markObject s (some method)
  | .OBJ_INSTANCE klass fields => (markObject s (some klass)).bind fun s => markTable s fields
  | .OBJ_UPVALUE _ closed _ => markValue s closed
  | .OBJ_CLOSURE function upvalues upvalueCount =>
    (markObject s (some function)).bind fun s =>
      if upvalueCount ≤ upvalues.length then markUpvalues s (upvalues.take upvalueCount)
      else none
  | .OBJ_FUNCTION name _ chunk _ =>
    (markObject s name).bind fun s => markArray s chunk.constants
  | .OBJ_NATIVE _ => some s
  | .OBJ_STRING _ _ _ => some s

/-- The function `traceReferences`.  Every turn pops one object, and an
object is pushed only when it gets marked, so the loop makes at most as many
turns as the gray stack holds objects plus the heap holds cells: the caller
passes one more as fuel. -/
def traceReferences : Nat → Heap × List Nat → Option (Heap × List Nat)
  | 0, _ => none
  | _ + 1, (heap, []) => some (heap, [])
  | fuel + 1, (heap, object :: grayStack) =>
    match heap.get object with
    | none => none
    | some obj => (blackenObject (heap, grayStack) obj).bind fun s => traceReferences fuel s

/-- The function `markCompilerRoots` of `compiler.c`, on the chain that starts
at `currentCompiler`. -/
def markCompilerRoots (s : Heap × List Nat) : List Compiler → Option (Heap × List Nat)
  | [] => some s
  | compiler :: enclosing =>
    (markObject s (some compiler.function)).bind fun s => markCompilerRoots s enclosing

/-- The loop of `markRoots` over the frames. -/
def markFrames (s : Heap × List Nat) : List CallFrame → Option (Heap × List Nat)
  | [] => some s
  | frame :: rest => (markObject s (some frame.closure)).bind fun s => markFrames s rest

/-- The loop of `markRoots` over the list of open upvalues.  Marking does not
change a link, and a list that comes back to one of its objects never ends, so
the loop makes at most one turn per heap cell: the caller passes one more as
fuel. -/
def markOpenUpvalues : Nat → Heap × List Nat → Option Nat → Option (Heap × List Nat)
  | 0, _, _ => none
  | _ + 1, s, none => some s
  | fuel + 1, s, some upvalue =>
    match s.1.get upvalue with
    | some (.OBJ_UPVALUE _ _ next) =>
      (markObject s (some upvalue)).bind fun s => markOpenUpvalues fuel s next
    | _ => none

/-- The function `markRoots`; `currentCompiler` is the global of
`compiler.c`. -/
def markRoots (vm : VM) (currentCompiler : List Compiler) : Option (Heap × List Nat) :=
  (markArray (vm.heap, []) ((List.range vm.stackTop).map vm.slot)).bind fun s =>
  (markTable s vm.globals).bind fun s =>
  (markCompilerRoots s currentCompiler).bind fun s =>
  (markObject s vm.initString).bind fun s =>
  (markFrames s vm.frames).bind fun s =>
  markOpenUpvalues (vm.heap.length + 1) s vm.openUpvalues

/-- The loop of `tableRemoveWhite`, for the `n` buckets from `i` on. -/
def tableRemoveWhiteLoop (heap : Heap) : Nat → Nat → Table → Option Table
  | 0, _, table => some table
  | n + 1, i, table =>
    match table.entries.get? i with
    | none => none
    | some entry =>
      match entry.key with
      | none => tableRemoveWhiteLoop heap n (i + 1) table
      | some key =>
        match heap.getD key none with
        | none => none
        | some cell =>
          if cell.isMarked then tableRemoveWhiteLoop heap n (i + 1) table
          else (tableDelete heap table key).bind fun r =>
            tableRemoveWhiteLoop heap n (i + 1) r.2

def tableRemoveWhite (heap : Heap) (table : Table) : Option Table :=
  tableRemoveWhiteLoop heap table.capacity 0 table

/-- The loop of `sweep` over the object list: the heap, and the objects that
stay in the list.  A freed object leaves its address empty. -/
def sweepLoop (heap : Heap) : List Nat → Option (Heap × List Nat)
  | [] => some (heap, [])
  | object :: rest =>
    match heap.getD object none with
    | none => none
    | some cell =>
      if cell.isMarked then
        (sweepLoop (heap.set object (some { cell with isMarked := false })) rest).map
          fun r => (r.1, object :: r.2)
      else sweepLoop (heap.set object none) rest

def sweep (vm : VM) : Option VM :=
  (sweepLoop vm.heap vm.objects).map fun r => { vm with heap := r.1, objects := r.2 }

/-- The state of the mark phase when `traceReferences` has returned. -/
def markPhase (vm : VM) (currentCompiler : List Compiler) : Option (Heap × List Nat) :=
  (markRoots vm currentCompiler).bind fun s => traceReferences (s.2.length + s.1.length + 1) s

/-- The function `collectGarbage`; the threshold `nextGC` is not part of the
state. -/
def collectGarbage (vm : VM) (currentCompiler : List Compiler) : Option VM :=
  (markPhase vm currentCompiler).bind fun s =>
  (tableRemoveWhite s.1 vm.strings).bind fun strings =>
  sweep { vm with heap := s.1, strings := strings }

/-! ### What the collector traces -/

/-- The object a value points at, if it is an object value. -/
def valueRefs (value : Nat) : List Nat := if IS_OBJ value then [AS_OBJ value] else []

/-- The objects that `markTable` marks. -/
def Table.refs (table : Table) : List Nat :=
  (table.entries.take table.capacity).flatMap fun entry => entry.key.toList ++ valueRefs entry.value

/-- The objects that `blackenObject` marks for an object. -/
def Obj.refs : Obj → List Nat
  | .OBJ_CLASS name methods => name :: methods.refs
  | .OBJ_BOUND_METHOD receiver method => valueRefs receiver ++ [method]
  | .OBJ_INSTANCE klass fields => klass :: fields.refs
  | .OBJ_UPVALUE _ closed _ => valueRefs closed
  | .OBJ_CLOSURE function upvalues upvalueCount =>
    function :: (upvalues.take upvalueCount).flatMap fun upvalue => upvalue.toList
  | .OBJ_FUNCTION name _ chunk _ => name.toList ++ chunk.constants.flatMap valueRefs
  | .OBJ_NATIVE _ => []
  | .OBJ_STRING _ _ _ => []

/-- The arrays that `blackenObject` walks have the length their count says. -/
def Obj.wf : Obj → Bool
  | .OBJ_CLASS _ methods => decide (methods.capacity ≤ methods.entries.length)
  | .OBJ_INSTANCE _ fields => decide (fields.capacity ≤ fields.entries.length)
  | .OBJ_CLOSURE _ upvalues upvalueCount => decide (upvalueCount ≤ upvalues.length)
  | _ => true

/-- The list of open upvalues that starts at `head` consists of `l`. -/
def UpvalueList (heap : Heap) : Option Nat → List Nat → Prop
  | none, [] => True
  | some p, q :: rest =>
    p = q ∧ ∃ (location : UpvalueLocation) (closed : Nat) (next : Option Nat),
      heap.get p = some (.OBJ_UPVALUE location closed next) ∧ UpvalueList heap next rest
  | _, _ => False

/-- The roots: the values in `[stack, stackTop)`, the keys and values of the
globals, the functions of the compiler chain, the initializer name, the
closures of the active frames, and the open upvalues `upvalues`. -/
def roots (vm : VM) (currentCompiler : List Compiler) (upvalues : List Nat) : List Nat :=
  ((List.range vm.stackTop).map vm.slot).flatMap valueRefs ++ vm.globals.refs ++
    currentCompiler.map (fun compiler => compiler.function) ++ vm.initString.toList ++
    vm.frames.map (fun frame => frame.closure) ++ upvalues

/-- An object is reachable: it is a root, or an object that is reachable
refers to it. -/
inductive Reachable (heap : Heap) (roots : List Nat) : Nat → Prop
  | root (p : Nat) : p ∈ roots → Reachable heap roots p
  | step (p q : Nat) (obj : Obj) :
    Reachable heap roots p → heap.get p = some obj → q ∈ obj.refs → Reachable heap roots q

/-- Every object of the heap has arrays of the length their count says and
refers to allocated objects only. -/
def Heap.closed (heap : Heap) : Bool :=
  heap.all fun cell =>
    match cell with
    | none => true
    | some cell => cell.obj.wf && cell.obj.refs.all fun q => (heap.get q).isSome

/-- The state `classVM` with one more object, a string that nothing refers
to, at address 7. -/
def garbageVM : VM :=
  { classVM with
    heap := classVM.heap ++ [some ⟨false, .OBJ_STRING 1 (hashString "x".toList) "x".toList⟩],
    objects := 7 :: classVM.objects }

/-! ### The invariants of the mark phase -/

/-- The cell at an address is allocated. -/
def Heap.allocated (heap : Heap) (p : Nat) : Prop := ∃ obj, heap.get p = some obj

/-- The cell holds an object that is not marked. -/
def isUnmarked (cell : Option HeapCell) : Bool :=
  match cell with
  | some cell => !cell.isMarked
  | none => false

/-- The number of allocated objects that are not marked. -/
def Heap.unmarked (heap : Heap) : Nat := heap.countP isUnmarked

/-- The heap `heap1` is `heap` with more mark bits set. -/
structure MarkedFrom (heap heap1 : Heap) : Prop where
  length : heap1.length = heap.length
  get : ∀ p, heap1.get p = heap.get p
  marked : ∀ p, heap.marked p = true → heap1.marked p = true

/-- From the state `s` the marking of the objects `qs` leads to `s1`: they are
all marked; the gray stack has kept its objects and got the objects that are
newly marked; and what the gray stack has gained, the unmarked objects have
lost. -/
structure MarkStep (s s1 : Heap × List Nat) (qs : List Nat) : Prop where
  heap : MarkedFrom s.1 s1.1
  all : ∀ q ∈ qs, s1.1.marked q = true
  keep : ∀ p ∈ s.2, p ∈ s1.2
  gray : ∀ p ∈ s1.2, p ∈ s.2 ∨ p ∈ qs
  new : ∀ p, s1.1.marked p = true → s.1.marked p = true ∨ (p ∈ qs ∧ p ∈ s1.2)
  measure : s1.2.length + s1.1.unmarked = s.2.length + s.1.unmarked

/-- The function `f` marks the objects `qs`, whenever they are allocated. -/
def Marks (f : Heap × List Nat → Option (Heap × List Nat)) (qs : List Nat) : Prop :=
  ∀ s : Heap × List Nat, (∀ q ∈ qs, s.1.allocated q) → ∃ s1, f s = some s1 ∧ MarkStep s s1 qs

/-- The invariant of `traceReferences` for a collection that started in the
heap `heap0` with the roots `rs`: mark bits apart the heap is `heap0`; the
gray objects are marked; the marked objects are reachable; a marked object
that is not gray has all its references marked; the roots are marked. -/
structure TraceInv (heap0 : Heap) (rs : List Nat) (s : Heap × List Nat) : Prop where
  heap : MarkedFrom heap0 s.1
  gray : ∀ p ∈ s.2, s.1.marked p = true
  reach : ∀ p, s.1.marked p = true → Reachable heap0 rs p
  black : ∀ p obj, s.1.marked p = true → p ∉ s.2 → heap0.get p = some obj →
    ∀ q ∈ obj.refs, s.1.marked q = true
  roots : ∀ r ∈ rs, s.1.marked r = true


/-! ## IEEE 754 doubles -/

/-- The word is the bit pattern of a finite double: below the sign bit it is
less than the pattern of infinity, that is, the exponent field (bits 52 to 62)
is not all ones. -/
def doubleIsFinite (d : Nat) : Bool := decide (d % 2 ^ 63 < 0x7ff0000000000000)

/-! ## Tables: tombstones and sequences of operations -/

/-- A tombstone: `key == NULL` and a value that is not nil. -/
def Entry.isTombstone (e : Entry) : Bool := e.key.isNone && !IS_NIL e.value

/-- Bucket `i` is the first bucket without a key on the probe path of the
hash `h`: every bucket the path visits before it holds a key. -/
def FirstKeyless (entries : List Entry) (capacity h i : Nat) : Prop :=
  ∃ di, di < capacity ∧ probeAt capacity h di = i ∧
    (∃ e, entries[i]? = some e ∧ e.key = none) ∧
    ∀ d1, d1 < di → ∃ k1, keyAt entries (probeAt capacity h d1) = some k1

/-- A call of one of the functions of `table.c` that modify a table `t`:
`initTable(&t)`, `tableSet(&t, key, value)`, `tableDelete(&t, key)`,
`tableAddAll(&from, &t)` from another table, and `tableAddAll(&t, &t)`. -/
inductive TableOp
  | initTable
  | tableSet (key value : Nat)
  | tableDelete (key : Nat)
  | tableAddAll (from_ : Table)
  | tableAddAllSelf
  deriving DecidableEq, Repr

/-- The table after the call. -/
def TableOp.run (heap : Heap) (t : Table) : TableOp → Option Table
  | .initTable => some Loxj.initTable
  | .tableSet key value => (Loxj.tableSet heap t key value).map fun r => r.2
  | .tableDelete key => (Loxj.tableDelete heap t key).map fun r => r.2
  | .tableAddAll from_ => Loxj.tableAddAll heap from_ t false
  | .tableAddAllSelf => Loxj.tableAddAll heap t t true

/-- The table after a sequence of calls. -/
def runTableOps (heap : Heap) : List TableOp → Table → Option Table
  | [], t => some t
  | op :: ops, t => (op.run heap t).bind fun t => runTableOps heap ops t

/-- The arguments of the call are valid: the key points at a string object,
the other table satisfies the table invariant. -/
def TableOp.ok (heap : Heap) : TableOp → Prop
  | .initTable => True
  | .tableSet key _ => (heap.string key).isSome = true
  | .tableDelete key => (heap.string key).isSome = true
  | .tableAddAll from_ => TableInv heap from_
  | .tableAddAllSelf => True

/-- A heap of four strings whose hashes are 0, 8, 16 and 1: in a table of
capacity 8 the first three have the same home bucket. -/
def probeHeap : Heap :=
  [some ⟨false, .OBJ_STRING 1 0 ['a']⟩, some ⟨false, .OBJ_STRING 1 8 ['b']⟩,
   some ⟨false, .OBJ_STRING 1 16 ['c']⟩, some ⟨false, .OBJ_STRING 1 1 ['d']⟩]

/-- The table after `tableSet` of the strings 0, 1 and 3 of `probeHeap`. -/
def probeTable : Table :=
  (runTableOps probeHeap [.tableSet 0 doubleOne, .tableSet 1 doubleFortyTwo,
    .tableSet 3 NIL_VAL] initTable).getD initTable

/-- A heap of the seven strings `i b c d e f a`, at the addresses 0 to 6, with
the hashes `hashString` gives them: in a table of capacity 8 the home buckets
are 4, 5, 2, 3, 0, 1 and 4. -/
def tombstoneHeap : Heap :=
  "ibcdefa".toList.map fun c => some ⟨false, .OBJ_STRING 1 (hashString [c]) [c]⟩

/-- The table after `tableSet` of the first six strings of `tombstoneHeap` and
`tableDelete` of the first one: six of its eight buckets are counted, and
bucket 4 is a tombstone. -/
def tombstoneTable : Table :=
  (runTableOps tombstoneHeap [.tableSet 0 doubleOne, .tableSet 1 doubleOne,
    .tableSet 2 doubleOne, .tableSet 3 doubleOne, .tableSet 4 doubleOne, .tableSet 5 doubleOne,
    .tableDelete 0] initTable).getD initTable

/-! ## The list of open upvalues: insertion -/

/-- The pointer that `captureUpvalue` assigns when it links a new upvalue in:
`vm.openUpvalues` when `prevUpvalue` is `NULL`, and `prevUpvalue->next`
otherwise. -/
def linkTarget (vm : VM) (prevUpvalue : Option Nat) : Option (Option Nat) :=
  match prevUpvalue with
  | none => some vm.openUpvalues
  | some prev =>
    match vm.heap.get prev with
    | some (.OBJ_UPVALUE _ _ next) => some next
    | _ => none

/-- What `captureUpvalue` leaves alone when it inserts an upvalue behind
`prevUpvalue` after walking over the upvalues `l`: the stack, the frames, the
tables; every object but the new one, `prevUpvalue` and those of `l`; and of
every upvalue all but the `next` link.  The new object is at the head of the
object list. -/
structure CaptureFrame (vm vm1 : VM) (prevUpvalue : Option Nat) (l : List (Nat × Nat)) :
    Prop where
  stack : vm1.stack = vm.stack
  stackTop : vm1.stackTop = vm.stackTop
  frames : vm1.frames = vm.frames
  globals : vm1.globals = vm.globals
  strings : vm1.strings = vm.strings
  initString : vm1.initString = vm.initString
  length : vm1.heap.length = vm.heap.length + 1
  objects : vm1.objects = vm.heap.length :: vm.objects
  head : prevUpvalue ≠ none → vm1.openUpvalues = vm.openUpvalues
  other : ∀ q, q < vm.heap.length → prevUpvalue ≠ some q → (∀ x ∈ l, x.1 ≠ q) →
    vm1.heap.get q = vm.heap.get q
  fields : ∀ q location closed next,
    vm.heap.get q = some (.OBJ_UPVALUE location closed next) →
    ∃ next1, vm1.heap.get q = some (.OBJ_UPVALUE location closed next1)

/-- The state of the script
`fun f() { var a = 1; var b = 42; fun g() { a = b; } fun h() { return a; } } f();`
in `f` when both closures have been created: the heap holds the script
function (0) and closure (1), the function (2) and closure (3) of `f`, the
function (4) and closure (5) of `g`, the upvalues for `a` (6, slot 2) and `b`
(7, slot 3), and the function (8) and closure (9) of `h`; the list of open
upvalues is 7, 6.  The name strings are left out. -/
def upvalueVM : VM :=
  let g : Chunk := ⟨[OP_GET_UPVALUE, 1, OP_SET_UPVALUE, 0, OP_POP, OP_NIL, OP_RETURN],
    [1, 1, 1, 1, 1, 1, 1], []⟩
  let h : Chunk := ⟨[OP_GET_UPVALUE, 0, OP_RETURN, OP_NIL, OP_RETURN], [1, 1, 1, 1, 1], []⟩
  let f : Chunk :=
    ⟨[OP_CONSTANT, 0, OP_CONSTANT, 1, OP_CLOSURE, 2, 1, 1, 1, 2, OP_CLOSURE, 3, 1, 1, OP_NIL,
      OP_RETURN], [1, 1, 1, 1, 1, 1, 1, 1, 1, 1, 1, 1, 1, 1, 1, 1],
      [doubleOne, doubleFortyTwo, OBJ_VAL 4, OBJ_VAL 8]⟩
  { stack := [OBJ_VAL 1, OBJ_VAL 3, doubleOne, doubleFortyTwo, OBJ_VAL 5, OBJ_VAL 9], stackTop := 6,
    heap := [some ⟨false, .OBJ_FUNCTION none 0 ⟨[OP_NIL, OP_RETURN], [1, 1], []⟩ 0⟩,
             some ⟨false, .OBJ_CLOSURE 0 [] 0⟩,
             some ⟨false, .OBJ_FUNCTION none 0 f 0⟩, some ⟨false, .OBJ_CLOSURE 2 [] 0⟩,
             some ⟨false, .OBJ_FUNCTION none 0 g 2⟩,
             some ⟨false, .OBJ_CLOSURE 4 [some 6, some 7] 2⟩,
             some ⟨false, .OBJ_UPVALUE (.stack 2) NIL_VAL none⟩,
             some ⟨false, .OBJ_UPVALUE (.stack 3) NIL_VAL (some 6)⟩,
             some ⟨false, .OBJ_FUNCTION none 0 h 1⟩,
             some ⟨false, .OBJ_CLOSURE 8 [some 6] 1⟩],
    objects := [9, 8, 7, 6, 5, 4, 3, 2, 1, 0], strings := initTable, globals := initTable,
    frames := [{ closure := 1, ip := 8, slots := 0 }, { closure := 3, ip := 14, slots := 1 }],
    openUpvalues := some 7, initString := none, stderr := "" }

/-- The state `vm` in a call without arguments of the closure at `closure`,
when `run` has read the opcode at offset `ip - 1` of its code, with `value`
pushed on the stack. -/
def inCall (vm : VM) (closure ip value : Nat) : VM :=
  let frame : CallFrame := { closure := closure, ip := ip, slots := vm.stackTop }
  push (push { vm with frames := vm.frames ++ [frame] } (OBJ_VAL closure)) value

/-- The value on top of the stack after a step that goes on. -/
def Step.top : Step → Option Nat
  | .next vm => some (vm.peek 0)
  | _ => none

/-- The state after a step that goes on. -/
def Step.state : Step → Option VM
  | .next vm => some vm
  | _ => none

/-! ## Method invocation: the fused and the unfused instruction sequence -/

/-- What the cases of `run` do with the result of `call`, `callValue` and
`invoke`: `false` makes `run` return `INTERPRET_RUNTIME_ERROR`. -/
def Step.ofCall : Option (Bool × VM) → Step
  | none => .undefined
  | some (false, vm) => .ret .INTERPRET_RUNTIME_ERROR vm
  | some (true, vm) => .next vm

/-- Push the values, the first one first. -/
def pushAll (vm : VM) (values : List Nat) : VM := values.foldl push vm

/-- The body of `case OP_GET_PROPERTY:` for the operand `name`, as a function
of the state and the name: `false` stands for the return of
`INTERPRET_RUNTIME_ERROR`. -/
def getProperty (vm : VM) (name : Nat) : Option (Bool × VM) :=
  match isObjType vm.heap (vm.peek 0) .OBJ_INSTANCE with
  | none => none
  | some false => (runtimeError vm "Only instances have properties.").map fun vm => (false, vm)
  | some true =>
    match vm.heap.get (AS_OBJ (vm.peek 0)) with
    | some (.OBJ_INSTANCE klass fields) =>
      match tableGet vm.heap fields name with
      | none => none
      | some (some value) => some (true, push (pop vm).2 value)
      | some none => bindMethod vm klass name
    | _ => none

/-- The unfused sequence for `receiver.name(args)`, with the receiver on top
of the stack: `OP_GET_PROPERTY name`, then the arguments are pushed, then
`OP_CALL argCount`. -/
def unfusedInvoke (natives : Natives) (vm : VM) (name : Nat) (args : List Nat) :
    Option (Bool × VM) :=
  (getProperty vm name).bind fun r =>
    if r.1 then
      let vm := pushAll r.2 args
      callValue natives vm (vm.peek args.length) args.length
    else some r

/-- The fused sequence: the arguments are pushed, then `OP_INVOKE name
argCount`. -/
def fusedInvoke (natives : Natives) (vm : VM) (name : Nat) (args : List Nat) :
    Option (Bool × VM) :=
  invoke natives (pushAll vm args) name args.length

/-- A state with an instance on top of the stack: the heap holds the script
function (0) and closure (1), the string `x` (2), the function (3) and closure
(4) of a method without parameters, the function (5) and closure (6) of a
function with one parameter, a class whose method `x` is the closure 4 (7),
an instance of it whose field `x` holds the closure 6 (8), and an instance
without fields (9). -/
def invokeVM (receiver : Nat) : VM :=
  let chunk : Chunk := ⟨[OP_NIL, OP_RETURN], [1, 1], [OBJ_VAL 2]⟩
  let heap := globalHeap chunk
  { stack := [OBJ_VAL 1, OBJ_VAL receiver], stackTop := 2,
    heap := heap ++ [some ⟨false, .OBJ_FUNCTION (some 2) 0 chunk 0⟩,
                     some ⟨false, .OBJ_CLOSURE 3 [] 0⟩,
                     some ⟨false, .OBJ_FUNCTION (some 2) 1 chunk 0⟩,
                     some ⟨false, .OBJ_CLOSURE 5 [] 0⟩,
                     some ⟨false, .OBJ_CLASS 2 (singletonTable heap 2 (OBJ_VAL 4))⟩,
                     some ⟨false, .OBJ_INSTANCE 7 (singletonTable heap 2 (OBJ_VAL 6))⟩,
                     some ⟨false, .OBJ_INSTANCE 7 initTable⟩],
    objects := [9, 8, 7, 6, 5, 4, 3, 2, 1, 0], strings := initTable, globals := initTable,
    frames := [{ closure := 1, ip := 1, slots := 0 }],
    openUpvalues := none, initString := none, stderr := "" }

/-! ## States used to evaluate the collector -/

/-- The state `garbageVM` when `collectGarbage` has run its mark phase: the
objects 0 to 6 are marked, the string at address 7 is not. -/
def sweepVM : VM :=
  match markPhase garbageVM [] with
  | some s => { garbageVM with heap := s.1 }
  | none => garbageVM

/-- A state with two interned strings, `hi` at address 0 and `yo` at address
1, of which only the first is on the stack. -/
def internVM : VM :=
  match copyString emptyVM "hi".toList 2 with
  | none => emptyVM
  | some (hi, vm) =>
    match copyString (push vm (OBJ_VAL hi)) "yo".toList 2 with
    | none => emptyVM
    | some (_, vm) => vm


/-! ## compiler.c: the expression parser

The definitions on `Compilation` take the compilation of an expression as a
parameter.  The ones below read the tokens: the state is the compilation, the
two tokens `parser.current` and `parser.previous`, and the tokens that the
calls of `scanToken` still to come return, in order (`scanToken` reads the
global `scanner` only, which nothing else writes).  Of the functions that
the rule table points to, `number` and `binary` are covered; a call of
another one ends the model in `none`, as does what C leaves undefined. -/

/-- The enumeration `Precedence`, by value. -/
def PREC_NONE : Nat := 0
def PREC_ASSIGNMENT : Nat := 1
def PREC_OR : Nat := 2
def PREC_AND : Nat := 3
def PREC_EQUALITY : Nat := 4
def PREC_COMPARISON : Nat := 5
def PREC_TERM : Nat := 6
def PREC_FACTOR : Nat := 7
def PREC_UNARY : Nat := 8
def PREC_CALL : Nat := 9
def PREC_PRIMARY : Nat := 10

/-- The functions of type `ParseFn` that the table `rules` points to. -/
inductive ParseFn
  | grouping | call | dot | unary | binary | variable | string | number | literal
  | and_ | or_ | super_ | this_
  deriving DecidableEq, Repr

/-- The struct `ParseRule`: the two function pointers (`none` for `NULL`) and
the precedence. -/
structure ParseRule where
  prefixRule : Option ParseFn
  infixRule : Option ParseFn
  precedence : Nat
  deriving DecidableEq, Repr

/-- The function `getRule`, that is the table `rules`; a token kind without
an initializer in it has the rule of all zeroes. -/
def getRule : TokenType → ParseRule
  | .TOKEN_LEFT_PAREN => ⟨some .grouping, some .call, PREC_CALL⟩
  | .TOKEN_DOT => ⟨none, some .dot, PREC_CALL⟩
  | .TOKEN_MINUS => ⟨some .unary, some .binary, PREC_TERM⟩
  | .TOKEN_PLUS => ⟨none, some .binary, PREC_TERM⟩
  | .TOKEN_SLASH => ⟨none, some .binary, PREC_FACTOR⟩
  | .TOKEN_STAR => ⟨none, some .binary, PREC_FACTOR⟩
  | .TOKEN_BANG => ⟨some .unary, none, PREC_NONE⟩
  | .TOKEN_BANG_EQUAL => ⟨none, some .binary, PREC_EQUALITY⟩
  | .TOKEN_EQUAL_EQUAL => ⟨none, some .binary, PREC_EQUALITY⟩
  | .TOKEN_GREATER => ⟨none, some .binary, PREC_COMPARISON⟩
  | .TOKEN_GREATER_EQUAL => ⟨none, some .binary, PREC_COMPARISON⟩
  | .TOKEN_LESS => ⟨none, some .binary, PREC_COMPARISON⟩
  | .TOKEN_LESS_EQUAL => ⟨none, some .binary, PREC_COMPARISON⟩
  | .TOKEN_IDENTIFIER => ⟨some .variable, none, PREC_NONE⟩
  | .TOKEN_STRING => ⟨some .string, none, PREC_NONE⟩
  | .TOKEN_NUMBER => ⟨some .number, none, PREC_NONE⟩
  | .TOKEN_AND => ⟨none, some .and_, PREC_AND⟩
  | .TOKEN_EXTENDS => ⟨none, some .binary, PREC_COMPARISON⟩
  | .TOKEN_TYPEOF => ⟨some .unary, none, PREC_COMPARISON⟩
  | .TOKEN_FALSE => ⟨some .literal, none, PREC_NONE⟩
  | .TOKEN_NIL => ⟨some .literal, none, PREC_NONE⟩
  | .TOKEN_OR => ⟨none, some .or_, PREC_OR⟩
  | .TOKEN_SUPER => ⟨some .super_, none, PREC_NONE⟩
  | .TOKEN_THIS => ⟨some .this_, none, PREC_NONE⟩
  | .TOKEN_TRUE => ⟨some .literal, none, PREC_NONE⟩
  | _ => ⟨none, none, PREC_NONE⟩

/-- The state of the parser: the compilation, `parser.current`,
`parser.previous` and the tokens that `scanToken` is still to return.  The
field `line` of `compilation.parser` is the line of `previous`. -/
structure Parsing where
  compilation : Compilation
  current : Token
  previous : Token
  tokens : List Token
  deriving DecidableEq, Repr

/-- The function `emitConstant`. -/
def Compilation.emitConstant (c : Compilation) (value : Nat) : Option Compilation :=
  (c.emitByte OP_CONSTANT).bind fun c =>
    (c.makeConstant value).bind fun r => r.2.emitByte r.1

/-- The `switch` of `binary` on the compilation. -/
def Compilation.binaryOperator (c : Compilation) (operatorType : TokenType) :
    Option Compilation :=
  match operatorType with
  | .TOKEN_PLUS => c.emitByte OP_ADD
  | .TOKEN_MINUS => c.emitByte OP_SUBTRACT
  | .TOKEN_STAR => c.emitByte OP_MULTIPLY
  | .TOKEN_SLASH => c.emitByte OP_DIVIDE
  | .TOKEN_BANG_EQUAL => (c.emitByte OP_EQUAL).bind fun c => c.emitByte OP_NOT
  | .TOKEN_EQUAL_EQUAL => c.emitByte OP_EQUAL
  | .TOKEN_GREATER => c.emitByte OP_GREATER
  | .TOKEN_GREATER_EQUAL => (c.emitByte OP_LESS).bind fun c => c.emitByte OP_NOT
  | .TOKEN_LESS => c.emitByte OP_LESS
  | .TOKEN_LESS_EQUAL => (c.emitByte OP_GREATER).bind fun c => c.emitByte OP_NOT
  | _ => some c

namespace Parsing

/-- The loop of `advance`: the next token that is not an error token becomes
`parser.current`; an error token is reported with its message.  After
`TOKEN_EOF` the scanner returns `TOKEN_EOF` again. -/
def advanceLoop (c : Compilation) : List Token → Option (Compilation × Token × List Token)
  | [] => none
  | token :: rest =>
    if token.type ≠ .TOKEN_ERROR then
      some (c, token, if token.type = .TOKEN_EOF then token :: rest else rest)
    else
      match token.start with
      | .static message => advanceLoop (c.error message) rest
      | _ => none

/-- The function `advance`. -/
def advance (p : Parsing) : Option Parsing :=
  let c := { p.compilation with parser := { p.compilation.parser with line := p.current.line } }
  (advanceLoop c p.tokens).map fun r =>
    { compilation := r.1, current := r.2.1, previous := p.current, tokens := r.2.2 }

/-- The functions `error` and `errorAtCurrent`: the token they pass to
`errorAt` decides where the message points, not whether it is printed. -/
def error (p : Parsing) (message : String) : Parsing :=
  { p with compilation := p.compilation.error message }

def check (p : Parsing) (type : TokenType) : Bool := p.current.type == type

def consume (p : Parsing) (type : TokenType) (message : String) : Option Parsing :=
  if p.check type then p.advance else some (p.error message)

def «match» (p : Parsing) (type : TokenType) : Option (Bool × Parsing) :=
  if p.check type then p.advance.map fun p => (true, p) else some (false, p)

/-- Run an emitter of `Compilation` in the parser state. -/
def emit (p : Parsing) (f : Compilation → Option Compilation) : Option Parsing :=
  (f p.compilation).map fun c => { p with compilation := c }

/-- The function `number`; `strtod` gives the bits of the double that the C
function of that name returns for the text at a pointer. -/
def number (strtod : TokenStart → Nat) (p : Parsing) : Option Parsing :=
  p.emit fun c => c.emitConstant (strtod p.previous.start)

mutual

/-- The function `parsePrecedence`.  The first parameter bounds the depth of
the calls. -/
def parsePrecedence (strtod : TokenStart → Nat) : Nat → Parsing → Nat → Option Parsing
  | 0, _, _ => none
  | fuel + 1, p, precedence =>
    p.advance.bind fun p =>
      match (getRule p.previous.type).prefixRule with
      | none => some (p.error "Expect expression.")
      | some .number =>
        (p.number strtod).bind fun p =>
          (infixLoop strtod fuel p precedence).bind fun p =>
            if precedence ≤ PREC_ASSIGNMENT then
              (p.«match» .TOKEN_EQUAL).map fun r =>
                if r.1 then r.2.error "Invalid assignment target." else r.2
            else some p
      | some _ => none

/-- The loop `while (getRule(parser.current.type)->precedence >= precedence)`
of `parsePrecedence`. -/
def infixLoop (strtod : TokenStart → Nat) : Nat → Parsing → Nat → Option Parsing
  | 0, _, _ => none
  | fuel + 1, p, precedence =>
    if (getRule p.current.type).precedence ≥ precedence then
      p.advance.bind fun p =>
        match (getRule p.previous.type).infixRule with
        | some .binary => (binary strtod fuel p).bind fun p => infixLoop strtod fuel p precedence
        | _ => none
    else some p

/-- The function `binary`. -/
def binary (strtod : TokenStart → Nat) : Nat → Parsing → Option Parsing
  | 0, _ => none
  | fuel + 1, p =>
    let operatorType := p.previous.type
    (parsePrecedence strtod fuel p ((getRule operatorType).precedence + 1)).bind fun p =>
      p.emit fun c => c.binaryOperator operatorType

end

/-- The function `expression`.  A call of `parsePrecedence`, of `binary` or a
turn of the loop that goes on reads a token, so twice the number of tokens
bounds the depth. -/
def expression (strtod : TokenStart → Nat) (p : Parsing) : Option Parsing :=
  parsePrecedence strtod (2 * p.tokens.length + 8) p PREC_ASSIGNMENT

/-- The function `printStatement`. -/
def printStatement (strtod : TokenStart → Nat) (p : Parsing) : Option Parsing :=
  (p.expression strtod).bind fun p =>
    (p.consume .TOKEN_SEMICOLON "Expect ';' after value.").bind fun p =>
      p.emit fun c => c.emitByte OP_PRINT

end Parsing

/-- The tokens that the calls of `scanToken` return up to the first
`TOKEN_EOF`. -/
def scanTokens : Nat → Scanner → Option (List Token)
  | 0, _ => none
  | fuel + 1, s =>
    (scanToken s).bind fun r =>
      if r.1.type = .TOKEN_EOF then some [r.1]
      else (scanTokens fuel r.2).map fun rest => r.1 :: rest

/-! ## Arithmetic expressions

The definitions below are what the parser is compared with.  An expression
`n0 op1 n1 ... opk nk` is given by the token `n0` and the pairs of an operator
token and a number token that follow it. -/

/-- The tokens of the pairs, in order. -/
def operandTokens : List (Token × Token) → List Token
  | [] => []
  | x :: rest => x.1 :: x.2 :: operandTokens rest

def isTermOperator (type : TokenType) : Bool := type == .TOKEN_PLUS || type == .TOKEN_MINUS

def isFactorOperator (type : TokenType) : Bool := type == .TOKEN_STAR || type == .TOKEN_SLASH

/-- The token is a number literal and every pair is one of `+ - * /` followed
by a number literal. -/
def isArithmetic (first : Token) (rest : List (Token × Token)) : Bool :=
  first.type == .TOKEN_NUMBER &&
    rest.all fun x =>
      (isTermOperator x.1.type || isFactorOperator x.1.type) && x.2.type == .TOKEN_NUMBER

/-- An expression tree: a number literal, or an operator with two operands. -/
inductive Arith
  | number (token : Token)
  | binary (operatorType : TokenType) (left right : Arith)
  deriving DecidableEq, Repr

/-- Following the spec (`*` and `/` bind tighter than `+` and `-`): the pairs
up to the first `+` or `-`, which multiply or divide the number before them,
and the terms after it, each with the `+` or `-` in front of it, its first
number and the pairs that multiply or divide it. -/
def splitTerms : List (Token × Token) →
    List (Token × Token) × List (Token × Token × List (Token × Token))
  | [] => ([], [])
  | x :: rest =>
    if isFactorOperator x.1.type then (x :: (splitTerms rest).1, (splitTerms rest).2)
    else ([], (x.1, x.2, (splitTerms rest).1) :: (splitTerms rest).2)

/-- Following the spec (left-associative): the tree of a term, the number
`first` multiplied or divided by the numbers of the pairs, from left to
right. -/
def termTree (first : Token) (factors : List (Token × Token)) : Arith :=
  factors.foldl (fun left x => .binary x.1.type left (.number x.2)) (.number first)

/-- Following the spec (left-associative): the terms are added to or
subtracted from the tree `left`, from left to right. -/
def sumTree (left : Arith) (terms : List (Token × Token × List (Token × Token))) : Arith :=
  terms.foldl (fun left x => .binary x.1.type left (termTree x.2.1 x.2.2)) left

/-- Following the spec: the tree of `first op1 n1 ... opk nk`. -/
def arithTree (first : Token) (rest : List (Token × Token)) : Arith :=
  sumTree (termTree first (splitTerms rest).1) (splitTerms rest).2

/-- The number of literals of a tree. -/
def Arith.size : Arith → Nat
  | .number _ => 1
  | .binary _ left right => left.size + right.size

/-- The literals of a tree, from left to right. -/
def Arith.literals : Arith → List Token
  | .number token => [token]
  | .binary _ left right => left.literals ++ right.literals

/-- The operators of a tree, from left to right. -/
def Arith.operators : Arith → List TokenType
  | .number _ => []
  | .binary operatorType left right => left.operators ++ operatorType :: right.operators

/-- Following the spec: the instruction of an operator. -/
def operatorCode : TokenType → List Nat
  | .TOKEN_PLUS => [OP_ADD]
  | .TOKEN_MINUS => [OP_SUBTRACT]
  | .TOKEN_STAR => [OP_MULTIPLY]
  | .TOKEN_SLASH => [OP_DIVIDE]
  | _ => []

/-- Following the spec (operands, then operator): the code of a tree whose
literals are the constants `index`, `index + 1`, ... of the pool. -/
def Arith.code : Arith → Nat → List Nat
  | .number _, index => [OP_CONSTANT, index]
  | .binary operatorType left right, index =>
    left.code index ++ right.code (index + left.size) ++ operatorCode operatorType

/-- The operators `+ - * /` of C on two `double`s, as functions on their bit
patterns. -/
structure DoubleOps where
  add : Nat → Nat → Nat
  sub : Nat → Nat → Nat
  mul : Nat → Nat → Nat
  div : Nat → Nat → Nat

def DoubleOps.apply (ops : DoubleOps) : TokenType → Option (Nat → Nat → Nat)
  | .TOKEN_PLUS => some ops.add
  | .TOKEN_MINUS => some ops.sub
  | .TOKEN_STAR => some ops.mul
  | .TOKEN_SLASH => some ops.div
  | _ => none

/-- The value of a tree: the operator is applied to the values of the two
operands. -/
def Arith.value (ops : DoubleOps) (strtod : TokenStart → Nat) : Arith → Option Nat
  | .number token => some (strtod token.start)
  | .binary operatorType left right =>
    (ops.apply operatorType).bind fun op =>
      (left.value ops strtod).bind fun a => (right.value ops strtod).map fun b => op a b

/-- What a compilation has written and reported: the code and the constants
of the chunk being compiled, the two flags of the parser and the messages. -/
structure Emission where
  code : List Nat
  constants : List Nat
  hadError : Bool
  panicMode : Bool
  reported : List String
  deriving DecidableEq, Repr

namespace Emission

/-- The function `errorAt` on what is written and reported. -/
def error (e : Emission) (message : String) : Emission :=
  if e.panicMode then e
  else { e with panicMode := true, hadError := true, reported := e.reported ++ [message] }

def emitByte (e : Emission) (byte : Nat) : Emission := { e with code := e.code ++ [byte % 256] }

/-- The functions `emitConstant` and `makeConstant` on what is written and
reported. -/
def emitConstant (e : Emission) (value : Nat) : Emission :=
  let e := e.emitByte OP_CONSTANT
  let constantIndex := e.constants.length
  let e := { e with constants := e.constants ++ [value] }
  if constantIndex > UINT8_MAX then (e.error "Too many constants in one chunk.").emitByte 0
  else e.emitByte constantIndex

/-- The `switch` of `binary` on what is written and reported. -/
def binaryOperator (e : Emission) (operatorType : TokenType) : Emission :=
  match operatorType with
  | .TOKEN_PLUS => e.emitByte OP_ADD
  | .TOKEN_MINUS => e.emitByte OP_SUBTRACT
  | .TOKEN_STAR => e.emitByte OP_MULTIPLY
  | .TOKEN_SLASH => e.emitByte OP_DIVIDE
  | .TOKEN_BANG_EQUAL => (e.emitByte OP_EQUAL).emitByte OP_NOT
  | .TOKEN_EQUAL_EQUAL => e.emitByte OP_EQUAL
  | .TOKEN_GREATER => e.emitByte OP_GREATER
  | .TOKEN_GREATER_EQUAL => (e.emitByte OP_LESS).emitByte OP_NOT
  | .TOKEN_LESS => e.emitByte OP_LESS
  | .TOKEN_LESS_EQUAL => (e.emitByte OP_GREATER).emitByte OP_NOT
  | _ => e

end Emission

/-- What the compiler writes and reports for a tree: the left operand, the
right operand, then the operator. -/
def Arith.emit (strtod : TokenStart → Nat) : Arith → Emission → Emission
  | .number token, e => e.emitConstant (strtod token.start)
  | .binary operatorType left right, e =>
    (right.emit strtod (left.emit strtod e)).binaryOperator operatorType

/-- What the compilation `c` has written to the chunk of the function
`function` and reported, if that is a function object. -/
def Compilation.emission (c : Compilation) (function : Nat) : Option Emission :=
  match c.vm.heap.get function with
  | some (.OBJ_FUNCTION _ _ chunk _) =>
    some { code := chunk.code, constants := chunk.constants, hadError := c.parser.hadError,
           panicMode := c.parser.panicMode, reported := c.reported }
  | _ => none

/-- The current compiler is `compiler`, and the compilation has written and
reported `e`. -/
def Parsing.Writes (p : Parsing) (compiler : Compiler) (enclosing : List Compiler)
    (e : Emission) : Prop :=
  p.compilation.currentCompiler = compiler :: enclosing ∧
    p.compilation.emission compiler.function = some e

/-- The tokens that `scanToken` is still to return once it has returned
`token`, then to be followed by `rest`. -/
def tokensAfter (token : Token) (rest : List Token) : List Token :=
  if token.type = .TOKEN_EOF then token :: rest else rest

/-- The parser is at the start of the tokens `stream`: the first one is
`parser.current`. -/
def Parsing.At (p : Parsing) : List Token → Prop
  | [] => False
  | token :: rest => p.current = token ∧ p.tokens = tokensAfter token rest

/-- The tokens of the terms that follow the first one, in order. -/
def termTokens : List (Token × Token × List (Token × Token)) → List Token
  | [] => []
  | x :: rest => x.1 :: x.2.1 :: (operandTokens x.2.2 ++ termTokens rest)

/-! ## vm.c: the arithmetic instructions -/

/-- One turn of the dispatch loop of `run` with the four arithmetic
instructions. -/
def runStepWith (ops : DoubleOps) (natives : Natives) (vm0 : VM) : Step :=
  match READ_BYTE vm0 with
  | none => .undefined
  | some (instruction, vm) =>
    if instruction = OP_ADD then run_OP_ADD ops.add vm
    else if instruction = OP_SUBTRACT then BINARY_OP_NUMBER vm ops.sub
    else if instruction = OP_MULTIPLY then BINARY_OP_NUMBER vm ops.mul
    else if instruction = OP_DIVIDE then BINARY_OP_NUMBER vm ops.div
    else runStep natives vm0

/-- The dispatch loop of `run` with the arithmetic instructions, for at most
`fuel` instructions. -/
def runWith (ops : DoubleOps) (natives : Natives) : Nat → VM → Step
  | 0, vm => .next vm
  | fuel + 1, vm =>
    match runStepWith ops natives vm with
    | .next vm => runWith ops natives fuel vm
    | stop => stop

/-! ## Sources and numbers used to evaluate the definitions -/

/-- The global `parser` before `compile` has called `advance`: its tokens are
all zeroes. -/
def initialToken : Token := { type := .TOKEN_LEFT_PAREN, start := .static "", length := 0, line := 0 }

/-- The beginning of `compile` on the tokens of a source: `initCompiler`, the
two flags, and the first call of `advance`. -/
def Parsing.start (vm : VM) (tokens : List Token) : Option Parsing :=
  let c : Compilation :=
    { vm := vm, parser := { line := 0, hadError := false, panicMode := false },
      reported := [], currentCompiler := [], innermostLoopStart := -1,
      innermostLoopScopeDepth := 0 }
  (c.initCompiler .TYPE_SCRIPT []).bind fun c =>
    Parsing.advance { compilation := c, current := initialToken, previous := initialToken,
                      tokens := tokens }

/-- A token of the first line of a source, by its type, offset and length. -/
def tokenAt (type : TokenType) (offset length : Nat) : Token :=
  { type := type, start := .source offset, length := length, line := 1 }

/-- The exponent of the highest bit of `n`, for `0 < n < 2 ^ 64`. -/
def floorLog2 (n : Nat) : Nat := (List.range 64).countP fun k => decide (2 ^ (k + 1) ≤ n)

/-- The bit pattern of the `double` that is the natural number `n`, for
`n < 2 ^ 53`: zero is all zeroes; otherwise the exponent field holds the
exponent of the highest bit plus 1023, and the fraction field the bits below
the highest one, from its top. -/
def doubleOfNat (n : Nat) : Nat :=
  if n = 0 then 0 else (1023 + floorLog2 n) * 2 ^ 52 + n * 2 ^ (52 - floorLog2 n) % 2 ^ 52

/-- The natural number below 256 that a `double` is, if it is one. -/
def natOfDouble (d : Nat) : Option Nat := (List.range 256).find? fun n => doubleOfNat n == d

/-- The operators of C on two doubles that are natural numbers below 256 and
give a natural number, where they are exact; this instance yields 0 on other
operands. -/
def exactOps : DoubleOps where
  add a b :=
    match natOfDouble a, natOfDouble b with
    | some x, some y => doubleOfNat (x + y)
    | _, _ => 0
  sub a b :=
    match natOfDouble a, natOfDouble b with
    | some x, some y => if y ≤ x then doubleOfNat (x - y) else 0
    | _, _ => 0
  mul a b :=
    match natOfDouble a, natOfDouble b with
    | some x, some y => doubleOfNat (x * y)
    | _, _ => 0
  div a b :=
    match natOfDouble a, natOfDouble b with
    | some x, some y => if 0 < y ∧ x % y = 0 then doubleOfNat (x / y) else 0
    | _, _ => 0

/-- The function `strtod` on a source whose number literals are decimal
digits: the double that is the number the digits at the pointer spell. -/
def strtodDigits (source : List Char) : TokenStart → Nat
  | .source offset =>
    doubleOfNat (((source.drop offset).takeWhile isDigit).foldl
      (fun n c => 10 * n + (c.toNat - '0'.toNat)) 0)
  | _ => 0

/-- The compilation of a script when `initCompiler` has run on the empty VM:
the function of the script is at address 0, and `parser.previous` is on the
line given. -/
def scriptCompilation (line : Nat) : Compilation :=
  { vm := { emptyVM with heap := [some ⟨false, .OBJ_FUNCTION none 0 initChunk 0⟩],
                         objects := [0] },
    parser := { line := line, hadError := false, panicMode := false },
    reported := [],
    currentCompiler := [{ function := 0, type := .TYPE_SCRIPT,
                          locals := [{ name := "this".toList, depth := 0, isCaptured := false }],
                          scopeDepth := 0, upvalues := [] }],
    innermostLoopStart := -1, innermostLoopScopeDepth := 0 }

/-- The source `print 1 + 2 * 3;`. -/
def printSource : String := "print 1 + 2 * 3;"

/-- The tokens of `printSource`. -/
def printTokens : List Token :=
  [tokenAt .TOKEN_PRINT 0 5, tokenAt .TOKEN_NUMBER 6 1, tokenAt .TOKEN_PLUS 8 1,
   tokenAt .TOKEN_NUMBER 10 1, tokenAt .TOKEN_STAR 12 1, tokenAt .TOKEN_NUMBER 14 1,
   tokenAt .TOKEN_SEMICOLON 15 1, tokenAt .TOKEN_EOF 16 0]

/-- The parser on `printSource` when `statement` has matched `print`. -/
def printParsing : Parsing :=
  { compilation := scriptCompilation 1, current := tokenAt .TOKEN_NUMBER 6 1,
    previous := tokenAt .TOKEN_PRINT 0 5, tokens := printTokens.drop 2 }

/-- The chunk of the script `printSource`: the code of the statement, and the
return that `endCompiler` emits. -/
def printChunk : Chunk :=
  { code := [OP_CONSTANT, 0, OP_CONSTANT, 1, OP_CONSTANT, 2, OP_MULTIPLY, OP_ADD, OP_PRINT,
             OP_NIL, OP_RETURN],
    lines := List.replicate 11 1,
    constants := [doubleOfNat 1, doubleOfNat 2, doubleOfNat 3] }

/-- The source `8 - 3 - 2`. -/
def subtractSource : String := "8 - 3 - 2"

/-- The tokens of `subtractSource`. -/
def subtractTokens : List Token :=
  [tokenAt .TOKEN_NUMBER 0 1, tokenAt .TOKEN_MINUS 2 1, tokenAt .TOKEN_NUMBER 4 1,
   tokenAt .TOKEN_MINUS 6 1, tokenAt .TOKEN_NUMBER 8 1, tokenAt .TOKEN_EOF 9 0]

/-- The parser on `subtractSource` when `compile` has called `advance`. -/
def subtractParsing : Parsing :=
  { compilation := scriptCompilation 0, current := tokenAt .TOKEN_NUMBER 0 1,
    previous := initialToken, tokens := subtractTokens.drop 1 }

/-- A chunk that holds the code of `subtractSource`. -/
def subtractChunk : Chunk :=
  { code := [OP_CONSTANT, 0, OP_CONSTANT, 1, OP_SUBTRACT, OP_CONSTANT, 2, OP_SUBTRACT],
    lines := List.replicate 8 1,
    constants := [doubleOfNat 8, doubleOfNat 3, doubleOfNat 2] }

/-- The pairs `+ 1` of the expression `1 + 1 + ... + 1` of 257 literals, each
literal four bytes after the one before. -/
def overflowOperands : List (Token × Token) :=
  (List.range 256).map fun i =>
    (tokenAt .TOKEN_PLUS (4 * i + 2) 1, tokenAt .TOKEN_NUMBER (4 * i + 4) 1)

/-- The parser at the start of the expression of 257 literals, in a script
that holds nothing else. -/
def overflowParsing : Parsing :=
  { compilation := scriptCompilation 0, current := tokenAt .TOKEN_NUMBER 0 1,
    previous := initialToken,
    tokens := operandTokens overflowOperands ++ [tokenAt .TOKEN_EOF 1025 0] }


/-! ## value.h, value.c: the two representations of a value

`common.h` defines `NAN_BOXING`, and the definitions of `Value` above are
those of that branch.  The branch `#else` of `value.h` declares the tagged
union.  The functions `typeofValue` and `isValuesEqual` have one body per
branch, `isFalsey` has one body made of macros that each branch defines. -/

/-- The inner `switch (AS_OBJ(value)->type)` of `typeofValue`, the same text
in both branches. -/
def objectTypeName : ObjType → String
  | .OBJ_CLASS => "class"
  | .OBJ_INSTANCE => "object"
  | .OBJ_BOUND_METHOD => "function"
  | .OBJ_CLOSURE => "function"
  | .OBJ_FUNCTION => "function"
  | .OBJ_NATIVE => "function"
  | .OBJ_STRING => "string"
  | .OBJ_UPVALUE => "upvalue"

/-- The function `typeofValue` under `NAN_BOXING`; the result is the static
string returned, and `none` when `AS_OBJ(value)` points at no object. -/
def typeofValue (heap : Heap) (value : Nat) : Option String :=
  if IS_BOOL value then some "boolean"
  else if IS_NIL value then some "nil"
  else if IS_NUMBER value then some "number"
  else if IS_OBJ value then (heap.get (AS_OBJ value)).map fun obj => objectTypeName obj.type
  else some "unknown"

/-- The enumeration `ValueType` of the branch `#else`. -/
inductive ValueType
  | VAL_BOOL | VAL_NIL | VAL_NUMBER | VAL_OBJ
  deriving DecidableEq, Repr

/-- The struct `Value` of the branch `#else`: the tag `type` and the member
of the union `as` that goes with it.  The constructors are the macros
`BOOL_VAL`, `NIL_VAL`, `NUMBER_VAL` and `OBJ_VAL` of that branch; a number is
the bit pattern of its double, an object its address. -/
inductive TaggedValue
  | BOOL_VAL (boolean : Bool)
  | NIL_VAL
  | NUMBER_VAL (number : Nat)
  | OBJ_VAL (obj : Nat)
  deriving DecidableEq, Repr

namespace TaggedValue

/-- The field `type`. -/
def type : TaggedValue → ValueType
  | .BOOL_VAL _ => .VAL_BOOL
  | .NIL_VAL => .VAL_NIL
  | .NUMBER_VAL _ => .VAL_NUMBER
  | .OBJ_VAL _ => .VAL_OBJ

def IS_BOOL (value : TaggedValue) : Bool := value.type == .VAL_BOOL
def IS_NIL (value : TaggedValue) : Bool := value.type == .VAL_NIL
def IS_NUMBER (value : TaggedValue) : Bool := value.type == .VAL_NUMBER
def IS_OBJ (value : TaggedValue) : Bool := value.type == .VAL_OBJ

/-- The macro `AS_BOOL`, `(value).as.boolean`.  The C reads it only under
the test of the tag; for another tag the model gives `false`. -/
def AS_BOOL : TaggedValue → Bool
  | .BOOL_VAL boolean => boolean
  | _ => false

/-- The macro `AS_NUMBER`; for another tag the model gives the word 0. -/
def AS_NUMBER : TaggedValue → Nat
  | .NUMBER_VAL number => number
  | _ => 0

/-- The macro `AS_OBJ`; for another tag the model gives the address 0. -/
def AS_OBJ : TaggedValue → Nat
  | .OBJ_VAL obj => obj
  | _ => 0

/-- The function `typeofValue` of the branch `#else`. -/
def typeofValue (heap : Heap) (value : TaggedValue) : Option String :=
  match value.type with
  | .VAL_BOOL => some "boolean"
  | .VAL_NIL => some "nil"
  | .VAL_NUMBER => some "number"
  | .VAL_OBJ => (heap.get value.AS_OBJ).map fun obj => objectTypeName obj.type

/-- The function `isValuesEqual` of the branch `#else`; `isnan` is
`doubleIsNaN` and `==` on doubles is `doubleEq`. -/
def isValuesEqual (a b : TaggedValue) : Bool :=
  if a.type != b.type then false
  else
    match a.type with
    | .VAL_BOOL => a.AS_BOOL == b.AS_BOOL
    | .VAL_NIL => true
    | .VAL_NUMBER =>
      if doubleIsNaN a.AS_NUMBER || doubleIsNaN b.AS_NUMBER then false
      else doubleEq a.AS_NUMBER b.AS_NUMBER
    | .VAL_OBJ => a.AS_OBJ == b.AS_OBJ

/-- The function `isFalsey` with the macros of the branch `#else`. -/
def isFalsey (value : TaggedValue) : Bool :=
  value.IS_NIL || (value.IS_BOOL && !value.AS_BOOL) ||
    (value.IS_NUMBER && doubleEq value.AS_NUMBER 0)

/-- The word that stands for the same value under `NAN_BOXING`: each
constructor macro of the branch `#else` goes to the macro of the same name of
the other branch (`NUMBER_VAL` is a `memcpy` of the double). -/
def boxed : TaggedValue → Nat
  | .BOOL_VAL boolean => Loxj.BOOL_VAL boolean
  | .NIL_VAL => Loxj.NIL_VAL
  | .NUMBER_VAL number => number
  | .OBJ_VAL obj => Loxj.OBJ_VAL obj

/-- The value has a word under `NAN_BOXING`: the bit pattern of a number
does not have all the bits of `QNAN` set, and an address fits in the 50 bits
below them. -/
def boxable : TaggedValue → Bool
  | .NUMBER_VAL number => Loxj.IS_NUMBER number
  | .OBJ_VAL obj => decide (obj < 2 ^ 50)
  | _ => true

end TaggedValue

/-- The bit pattern of the quiet NaN that the division `0.0 / 0.0` yields on
x86-64: only the top bit of the fraction is set. -/
def doubleNaN : Nat := 0xfff8000000000000

/-! ## compiler.c: scopes and upvalues -/

/-- The instruction `endScope` emits for a local it removes. -/
def scopeExitCode (local_ : Local) : Nat :=
  if local_.isCaptured then OP_CLOSE_UPVALUE else OP_POP

/-- A compiler of a function at scope depth 2 with four locals: the reserved
slot 0, `a` declared at depth 1, and `b` (captured by a closure) and `c`
declared at depth 2. -/
def scopeLocals : Compiler :=
  { function := 0, type := .TYPE_FUNCTION,
    locals := [{ name := [], depth := 0, isCaptured := false },
               { name := ['a'], depth := 1, isCaptured := false },
               { name := ['b'], depth := 2, isCaptured := true },
               { name := ['c'], depth := 2, isCaptured := false }],
    scopeDepth := 2, upvalues := [] }

/-- A compilation whose only compiler is `scopeLocals`, writing to an empty
function object at address 0. -/
def scopeCompilation : Compilation :=
  { initializerCompilation initChunk with currentCompiler := [scopeLocals] }

/-- The function `identifiersEqual`, on the bytes of the two tokens. -/
def identifiersEqual (a b : List Char) : Bool :=
  if a.length == b.length then a == b else false

/-- The loop of `resolveLocal`, `for (i = localCount - 1; i >= 0; i--)`, over
the locals from index `i` down (the first of the list is `locals[i]`, so `i`
is the length of the rest).  A local of that name which is not initialized is
reported and the search goes on below it. -/
def Compilation.resolveLocalLoop (name : List Char) :
    List Local → Compilation → Int × Compilation
  | [], c => (-1, c)
  | local_ :: below, c =>
    if identifiersEqual name local_.name then
      if local_.depth = -1 then
        resolveLocalLoop name below
          (c.error "Can't read local variable in its own initializer.")
      else ((below.length : Int), c)
    else resolveLocalLoop name below c

/-- The function `resolveLocal(compiler, name)`: the index of the local, or
-1. -/
def Compilation.resolveLocal (c : Compilation) (compiler : Compiler) (name : List Char) :
    Int × Compilation :=
  Compilation.resolveLocalLoop name compiler.locals.reverse c

/-- The loop of `addUpvalue` over `upvalues[i]`, `upvalues[i + 1]`, ...: the
index of the first upvalue with this `index` and `isLocal`. -/
def findUpvalue (index : Nat) (isLocal : Bool) : List Upvalue → Nat → Option Nat
  | [], _ => none
  | upvalue :: rest, i =>
    if upvalue.index == index && upvalue.isLocal == isLocal then some i
    else findUpvalue index isLocal rest (i + 1)

/-- The assignment to `compiler->upvalues[i]`, for `i` up to the number of
entries written so far. -/
def storeUpvalue (upvalues : List Upvalue) (i : Nat) (upvalue : Upvalue) : List Upvalue :=
  if i < upvalues.length then upvalues.set i upvalue else upvalues ++ [upvalue]

/-- The function `addUpvalue(compiler, index, isLocal)`; `index` is a
`uint8_t`.  The result is the returned index, the compilation (the function
object of `compiler` holds `upvalueCount`) and the record `*compiler`.
Reading an entry of the array that was never written is undefined. -/
def Compilation.addUpvalue (c : Compilation) (compiler : Compiler) (index : Nat)
    (isLocal : Bool) : Option (Int × Compilation × Compiler) :=
  match c.vm.heap.get compiler.function with
  | some (.OBJ_FUNCTION name arity chunk upvalueCount) =>
    if compiler.upvalues.length < upvalueCount then none
    else
      match findUpvalue index isLocal (compiler.upvalues.take upvalueCount) 0 with
      | some i => some ((i : Int), c, compiler)
      | none =>
        if upvalueCount >= UINT8_MAX + 1 then
          some (0, c.error "Too many closure variables in function.", compiler)
        else
          let heap := c.vm.heap.setObj compiler.function
            (.OBJ_FUNCTION name arity chunk (upvalueCount + 1))
          some ((upvalueCount : Int), { c with vm := { c.vm with heap := heap } },
            { compiler with
              upvalues := storeUpvalue compiler.upvalues upvalueCount
                { index := index, isLocal := isLocal } })
  | _ => none

/-- The assignment `locals[i].isCaptured = true`. -/
def captureLocal (locals : List Local) (i : Nat) : List Local :=
  match locals.get? i with
  | none => locals
  | some local_ => locals.set i { local_ with isCaptured := true }

/-- The function `resolveUpvalue(compiler, name)`, where `compiler` is the
first record of the list and the rest is the chain of `compiler->enclosing`
(`[]` for `NULL`).  The result is the returned index (-1 when the name is not
found), the compilation and the records of the chain afterwards.  The casts
`(uint8_t)local` and `(uint8_t)upvalue` are the remainders modulo 256. -/
def Compilation.resolveUpvalue (c : Compilation) (name : List Char) :
    List Compiler → Option (Int × Compilation × List Compiler)
  | [] => none
  | [compiler] => some (-1, c, [compiler])
  | compiler :: enclosing :: outer =>
    let r := c.resolveLocal enclosing name
    if r.1 != -1 then
      let enclosing := { enclosing with locals := captureLocal enclosing.locals r.1.toNat }
      (r.2.addUpvalue compiler (r.1.toNat % 256) true).map fun a =>
        (a.1, a.2.1, a.2.2 :: enclosing :: outer)
    else
      (r.2.resolveUpvalue name (enclosing :: outer)).bind fun u =>
        if u.1 != -1 then
          (u.2.1.addUpvalue compiler (u.1.toNat % 256) false).map fun a =>
            (a.1, a.2.1, a.2.2 :: u.2.2)
        else some (-1, u.2.1, compiler :: u.2.2)

/-- The compiler has an initialized local of this name. -/
def Compiler.hasLocal (compiler : Compiler) (name : List Char) : Prop :=
  ∃ l ∈ compiler.locals, l.name = name ∧ l.depth ≠ -1

/-- Slot `s` holds the innermost initialized local of this name: no local
above it that has the name is initialized. -/
def Compiler.localAt (compiler : Compiler) (name : List Char) (s : Nat) : Prop :=
  (∃ l, compiler.locals[s]? = some l ∧ l.name = name ∧ l.depth ≠ -1) ∧
  ∀ i l, s < i → compiler.locals[i]? = some l → l.name = name → l.depth = -1

/-- The compilers of a chain write to function objects at different
addresses, each function object counts the upvalues of its compiler, and the
arrays `locals` and `upvalues` hold at most their 256 entries. -/
def ChainInv (heap : Heap) (chain : List Compiler) : Prop :=
  (chain.map fun compiler => compiler.function).Nodup ∧
  ∀ compiler ∈ chain, ∃ name arity chunk,
    heap.get compiler.function =
      some (.OBJ_FUNCTION name arity chunk compiler.upvalues.length) ∧
    compiler.upvalues.length ≤ 256 ∧ compiler.locals.length ≤ 256

/-- What `resolveUpvalue` has set up when it returns the upvalue index `i`
for the first compiler of a chain (`before` and `after` the call): the
compiler has at `i` an upvalue that is either `isLocal` with the slot of the
innermost initialized local of that name in the directly enclosing compiler,
which is marked captured there, or not `isLocal` with the index that the
same holds for, one compiler further out, the directly enclosing compiler
having no such local. -/
def UpvaluePath (name : List Char) : List Compiler → List Compiler → Nat → Prop
  | _ :: enclosing :: outer, compiler1 :: enclosing1 :: outer1, i =>
    (∃ s, enclosing.localAt name s ∧
      compiler1.upvalues[i]? = some { index := s, isLocal := true } ∧
      (∃ l, enclosing1.locals[s]? = some l ∧ l.isCaptured = true) ∧ outer1 = outer) ∨
    (¬ enclosing.hasLocal name ∧
      ∃ j, compiler1.upvalues[i]? = some { index := j, isLocal := false } ∧
        UpvaluePath name (enclosing :: outer) (enclosing1 :: outer1) j)
  | _, _, _ => False

/-- A compilation with the given chain of compilers whose function objects,
at the addresses 0, 1, ..., count the upvalues of each. -/
def chainCompilation (chain : List Compiler) : Compilation :=
  { initializerCompilation initChunk with
    vm := { emptyVM with
      heap := chain.map fun compiler =>
        some ⟨false, .OBJ_FUNCTION none 0 initChunk compiler.upvalues.length⟩ },
    currentCompiler := chain }

/-- The compilers of `fun outer() { var x; fun middle() { fun inner() { x; } } }`
when `x` is met in `inner`: `inner` (function object 0) and `middle` (1) have
no local of that name, `outer` (2) has `x` in slot 1. -/
def nestedChain : List Compiler :=
  [{ function := 0, type := .TYPE_FUNCTION,
     locals := [{ name := [], depth := 0, isCaptured := false }],
     scopeDepth := 1, upvalues := [] },
   { function := 1, type := .TYPE_FUNCTION,
     locals := [{ name := [], depth := 0, isCaptured := false },
                { name := "inner".toList, depth := 1, isCaptured := false }],
     scopeDepth := 1, upvalues := [] },
   { function := 2, type := .TYPE_FUNCTION,
     locals := [{ name := [], depth := 0, isCaptured := false },
                { name := ['x'], depth := 1, isCaptured := false },
                { name := "middle".toList, depth := 1, isCaptured := false }],
     scopeDepth := 1, upvalues := [] }]

/-- A chain in which the innermost compiler is full: `outer` (function
object 2) is a method with `this` and 255 locals `v`, `vv`, ...; `middle` (1)
has captured all 256 of them and has the local `x` in slot 1; `inner` (0) has
all 256 upvalues of `middle` as its own. -/
def fullChain : List Compiler :=
  [{ function := 0, type := .TYPE_FUNCTION,
     locals := [{ name := [], depth := 0, isCaptured := false }],
     scopeDepth := 1,
     upvalues := (List.range 256).map fun k => { index := k, isLocal := false } },
   { function := 1, type := .TYPE_FUNCTION,
     locals := [{ name := [], depth := 0, isCaptured := false },
                { name := ['x'], depth := 1, isCaptured := false }],
     scopeDepth := 1,
     upvalues := (List.range 256).map fun k => { index := k, isLocal := true } },
   { function := 2, type := .TYPE_METHOD,
     locals := { name := "this".toList, depth := 0, isCaptured := true } ::
       (List.range 255).map fun k =>
         { name := List.replicate (k + 1) 'v', depth := 1, isCaptured := true },
     scopeDepth := 1, upvalues := [] }]

/-! ## compiler.c: expression statements -/

/-- The function `expressionStatement`. -/
def Parsing.expressionStatement (strtod : TokenStart → Nat) (p : Parsing) : Option Parsing :=
  (p.expression strtod).bind fun p =>
    (p.consume .TOKEN_SEMICOLON "Expect ';' after expression.").bind fun p =>
      p.emit fun c => c.emitByte OP_POP

/-- What `emitByte` and the emitters have written and reported in a
compilation that has written and reported nothing before. -/
def noEmission : Emission :=
  { code := [], constants := [], hadError := false, panicMode := false, reported := [] }

/-- The source `1 typeof 2;`. -/
def typeofSource : String := "1 typeof 2;"

/-- The tokens of `typeofSource`. -/
def typeofTokens : List Token :=
  [tokenAt .TOKEN_NUMBER 0 1, tokenAt .TOKEN_TYPEOF 2 6, tokenAt .TOKEN_NUMBER 9 1,
   tokenAt .TOKEN_SEMICOLON 10 1, tokenAt .TOKEN_EOF 11 0]

/-- The parser on `typeofSource` when `compile` has called `advance`, which
is the state in which `declaration`, `statement`, `expressionStatement` and
`expression` are entered. -/
def typeofParsing : Parsing :=
  { compilation := scriptCompilation 0, current := tokenAt .TOKEN_NUMBER 0 1,
    previous := initialToken, tokens := typeofTokens.drop 1 }

/-- The source `1 extends 2;`. -/
def extendsSource : String := "1 extends 2;"

/-- The tokens of `extendsSource`. -/
def extendsTokens : List Token :=
  [tokenAt .TOKEN_NUMBER 0 1, tokenAt .TOKEN_EXTENDS 2 7, tokenAt .TOKEN_NUMBER 10 1,
   tokenAt .TOKEN_SEMICOLON 11 1, tokenAt .TOKEN_EOF 12 0]

/-- The parser on `extendsSource` when `compile` has called `advance`. -/
def extendsParsing : Parsing :=
  { compilation := scriptCompilation 0, current := tokenAt .TOKEN_NUMBER 0 1,
    previous := initialToken, tokens := extendsTokens.drop 1 }

/-- The result with which `run` has returned, if it has, and the height of
the stack. -/
def Step.height : Step → Option (Option InterpretResult × Nat)
  | .next vm => some (none, vm.stackTop)
  | .ret result vm => some (some result, vm.stackTop)
  | _ => none

/-- The chunk of the script `extendsSource`: the code of the statement, and
the return that `endCompiler` emits. -/
def extendsChunk : Chunk :=
  { code := [OP_CONSTANT, 0, OP_CONSTANT, 1, OP_POP, OP_NIL, OP_RETURN],
    lines := List.replicate 7 1,
    constants := [doubleOfNat 1, doubleOfNat 2] }

/-- The source `1 < 2;`, in which the operator has a case in `binary`. -/
def lessSource : String := "1 < 2;"

/-- The tokens of `lessSource`. -/
def lessTokens : List Token :=
  [tokenAt .TOKEN_NUMBER 0 1, tokenAt .TOKEN_LESS 2 1, tokenAt .TOKEN_NUMBER 4 1,
   tokenAt .TOKEN_SEMICOLON 5 1, tokenAt .TOKEN_EOF 6 0]

/-- The parser on `lessSource` when `compile` has called `advance`. -/
def lessParsing : Parsing :=
  { compilation := scriptCompilation 0, current := tokenAt .TOKEN_NUMBER 0 1,
    previous := initialToken, tokens := lessTokens.drop 1 }

/-- The chunk of the script `lessSource`. -/
def lessChunk : Chunk :=
  { code := [OP_CONSTANT, 0, OP_CONSTANT, 1, OP_LESS, OP_POP, OP_NIL, OP_RETURN],
    lines := List.replicate 8 1,
    constants := [doubleOfNat 1, doubleOfNat 2] }

/-! ## vm.c: globals, `interpret`, and a closure that outlives a runtime error -/

/-- The body of `case OP_GET_GLOBAL:`. -/
def run_OP_GET_GLOBAL (vm : VM) : Step :=
  match READ_STRING vm with
  | none => .undefined
  | some (name, vm) =>
    match tableGet vm.heap vm.globals name with
    | none => .undefined
    | some none =>
      match vm.heap.string name with
      | none => .undefined
      | some (_, _, chars) =>
        Step.error vm ("Undefined variable '" ++ cString chars ++ "'.")
    | some (some value) => .next (push vm value)

/-- One turn of the dispatch loop of `run` with `OP_GET_GLOBAL`. -/
def runStepGlobal (natives : Natives) (vm0 : VM) : Step :=
  match READ_BYTE vm0 with
  | none => .undefined
  | some (instruction, vm) =>
    if instruction = OP_GET_GLOBAL then run_OP_GET_GLOBAL vm
    else runStep natives vm0

/-- The dispatch loop of `run` with `OP_GET_GLOBAL`, for at most `fuel`
instructions. -/
def runGlobal (natives : Natives) : Nat → VM → Step
  | 0, vm => .next vm
  | fuel + 1, vm =>
    match runStepGlobal natives vm with
    | .next vm => runGlobal natives fuel vm
    | stop => stop

/-- The function `interpret` from the point where `compile` has returned the
function at address `function` to the call of `run`. -/
def interpretCompiled (vm : VM) (function : Nat) : Option VM :=
  (newClosure (push vm (OBJ_VAL function)) function).bind fun r =>
    (call (push (pop r.2).2 (OBJ_VAL r.1)) r.1 0).bind fun q =>
      if q.1 then some q.2 else none

/-- The chunk of the function `inner` of `captureVM`: `return x;`. -/
def innerChunk : Chunk :=
  ⟨[OP_GET_UPVALUE, 0, OP_RETURN, OP_NIL, OP_RETURN], [1, 1, 1, 1, 1], []⟩

/-- The chunk of the function `outer` of `captureVM`. -/
def outerChunk : Chunk :=
  ⟨[OP_CONSTANT, 0, OP_CLOSURE, 1, 1, 1, OP_GET_LOCAL, 2, OP_SET_GLOBAL, 2, OP_POP,
    OP_GET_LOCAL, 1, OP_CALL, 0, OP_POP, OP_NIL, OP_RETURN],
   List.replicate 18 1, [doubleFortyTwo, OBJ_VAL 5, OBJ_VAL 2]⟩

/-- The state of the line
`var f; fun outer() { var x = 42; fun inner() { return x; } f = inner; x(); } outer();`
when `run` has executed the call `outer()`: the heap holds the script function
(0) and closure (1), the strings `f` (2) and `outer` (3), the functions of
`outer` (4) and `inner` (5) and the closure of `outer` (6); the globals are
`f`, still nil, and `outer`; the stack holds the two closures. -/
def captureVM : VM :=
  let script : Chunk :=
    ⟨[OP_NIL, OP_DEFINE_GLOBAL, 0, OP_CLOSURE, 2, OP_DEFINE_GLOBAL, 1, OP_GET_GLOBAL, 3,
      OP_CALL, 0, OP_POP, OP_NIL, OP_RETURN],
     List.replicate 14 1, [OBJ_VAL 2, OBJ_VAL 3, OBJ_VAL 4, OBJ_VAL 3]⟩
  let heap : Heap :=
    [some ⟨false, .OBJ_FUNCTION none 0 script 0⟩, some ⟨false, .OBJ_CLOSURE 0 [] 0⟩,
     some ⟨false, .OBJ_STRING 1 (hashString ['f']) ['f']⟩,
     some ⟨false, .OBJ_STRING 5 (hashString "outer".toList) "outer".toList⟩,
     some ⟨false, .OBJ_FUNCTION (some 3) 0 outerChunk 0⟩,
     some ⟨false, .OBJ_FUNCTION none 0 innerChunk 1⟩,
     some ⟨false, .OBJ_CLOSURE 4 [] 0⟩]
  { stack := [OBJ_VAL 1, OBJ_VAL 6], stackTop := 2, heap := heap,
    objects := [6, 5, 4, 3, 2, 1, 0], strings := initTable,
    globals := (runTableOps heap [.tableSet 2 NIL_VAL, .tableSet 3 (OBJ_VAL 6)]
      initTable).getD initTable,
    frames := [{ closure := 1, ip := 11, slots := 0 }, { closure := 6, ip := 0, slots := 1 }],
    openUpvalues := none, initString := none, stderr := "" }

/-- The chunk of the script `nil == f();`. -/
def secondChunk : Chunk :=
  ⟨[OP_NIL, OP_GET_GLOBAL, 0, OP_CALL, 0, OP_EQUAL, OP_POP, OP_NIL, OP_RETURN],
   List.replicate 9 1, [OBJ_VAL 2]⟩

/-- The state in which `compile` returns the function of a script with the
given chunk, when it has interned no new string: the function object is the
newest object. -/
def compiledScript (vm : VM) (chunk : Chunk) : Nat × VM :=
  allocateObject vm (.OBJ_FUNCTION none 0 chunk 0)

/-- The state in which `run` returned, if it did. -/
def Step.returned : Step → Option (InterpretResult × VM)
  | .ret result vm => some (result, vm)
  | _ => none

/-- The state after the steps, if `run` is still going. -/
def Step.going : Step → Option VM
  | .next vm => some vm
  | _ => none

/-! ## compiler.c: the return statement -/

/-- The function `returnStatement`, entered when `statement` has matched the
token `return`; `expression` is the function of that name. -/
def Parsing.returnStatement (expression : Parsing → Option Parsing) (p : Parsing) :
    Option Parsing :=
  match p.compilation.currentCompiler with
  | [] => none
  | compiler :: _ =>
    let p := if compiler.type = .TYPE_SCRIPT
      then p.error "Illegal return statement in the top-level." else p
    (p.«match» .TOKEN_SEMICOLON).bind fun r =>
      if r.1 then r.2.emit fun c => c.emitReturn
      else
        match r.2.compilation.currentCompiler with
        | [] => none
        | compiler :: _ =>
          let p := if compiler.type = .TYPE_INITIALIZER
            then r.2.error "Can't return a value from an initializer." else r.2
          (expression p).bind fun p =>
            (p.consume .TOKEN_SEMICOLON "Expect ';' after return value.").bind fun p =>
              p.emit fun c => c.emitByte OP_RETURN

/-- A compilation in the body of a function declared with `fun`, whose
function object, at address 0, has an empty chunk. -/
def functionCompilation : Compilation :=
  { initializerCompilation initChunk with
    currentCompiler := [{ function := 0, type := .TYPE_FUNCTION,
                          locals := [{ name := [], depth := 0, isCaptured := false }],
                          scopeDepth := 1, upvalues := [] }] }

/-- The source `fun f() { return 1 }`, where no semicolon follows the value. -/
def returnValueSource : String := "fun f() { return 1 }"

/-- The parser on `returnValueSource` when `statement` has matched `return`
and calls `returnStatement`: the current token is the number. -/
def returnValueParsing : Parsing :=
  { compilation := functionCompilation, current := tokenAt .TOKEN_NUMBER 17 1,
    previous := tokenAt .TOKEN_RETURN 10 6,
    tokens := [tokenAt .TOKEN_RIGHT_BRACE 19 1, tokenAt .TOKEN_EOF 20 0] }

/-- The script `if (+) return;`, whose condition is no expression. -/
def returnPanicSource : String := "if (+) return;"

/-- The parser on `returnPanicSource` when `ifStatement` has consumed the
parenthesis and calls `expression`. -/
def ifConditionParsing : Parsing :=
  { compilation := scriptCompilation 1, current := tokenAt .TOKEN_PLUS 4 1,
    previous := tokenAt .TOKEN_LEFT_PAREN 3 1,
    tokens := [tokenAt .TOKEN_RIGHT_PAREN 5 1, tokenAt .TOKEN_RETURN 7 6,
      tokenAt .TOKEN_SEMICOLON 13 1, tokenAt .TOKEN_EOF 14 0] }

/-- The parser on `returnPanicSource` when `statement` has matched `return`
and calls `returnStatement`: `expression` has reported the `+` and set panic
mode, and `ifStatement` has emitted its jump and `OP_POP`. -/
def returnPanicParsing : Parsing :=
  { compilation :=
      { scriptCompilation 1 with
        vm := { emptyVM with
                heap := [some ⟨false, .OBJ_FUNCTION none 0
                  ⟨[OP_JUMP_IF_FALSE, 0xff, 0xff, OP_POP], [1, 1, 1, 1], []⟩ 0⟩],
                objects := [0] },
        parser := { line := 1, hadError := true, panicMode := true },
        reported := ["Expect expression."] },
    current := tokenAt .TOKEN_SEMICOLON 13 1, previous := tokenAt .TOKEN_RETURN 7 6,
    tokens := [tokenAt .TOKEN_EOF 14 0] }

/-- The parser in an initializer `constructor() { return; }` when `statement`
has matched `return` and calls `returnStatement`. -/
def returnBareParsing : Parsing :=
  { compilation := initializerCompilation initChunk, current := tokenAt .TOKEN_SEMICOLON 22 1,
    previous := tokenAt .TOKEN_RETURN 16 6,
    tokens := [tokenAt .TOKEN_RIGHT_BRACE 24 1, tokenAt .TOKEN_EOF 25 0] }

/-! ## Scanner progress -/

/-- A call of `scanToken` returned a token other than `TOKEN_EOF` and left
`scanner.current` after the offset `from_` and not past the terminator of the
source. -/
def ScanProgress (source : List Char) (from_ : Nat) (r : Option (Token × Scanner)) : Prop :=
  ∃ token s1, r = some (token, s1) ∧ s1.source = source ∧ token.type ≠ .TOKEN_EOF ∧
    from_ < s1.current ∧ s1.current ≤ source.length

/-- A source with a comment, an unsupported escape, a number, an unexpected
character and an unterminated string: three of its tokens are error tokens. -/
def progressSource : String := "a // b\n\"c\\q 1.5 #\"x"


/-! ## memory.c: the allocation counter

The counter `vm.bytesAllocated` and the blocks of the C heap, over the path
`initVM`, `takeStringFromToken`, `freeVM`.  The objects are described by what
`freeObject` uses of them. -/

namespace Accounting

/-- The number of values of `size_t`. -/
def SIZE_MOD : Nat := 2 ^ 64

/-- The values of `sizeof` for the types whose blocks are obtained on this path;
`sizeof(char)` is 1. -/
structure Sizes where
  Entry : Nat
  ObjString : Nat
  ObjNative : Nat
  deriving DecidableEq, Repr

/-- The sizes with 8-byte pointers and `NAN_BOXING`: an `Obj` header takes 16
bytes, an `ObjString` adds two 4-byte integers and a pointer, an `ObjNative` a
pointer, and an `Entry` is a pointer and a `Value`. -/
def lp64 : Sizes := { Entry := 16, ObjString := 32, ObjNative := 24 }

/-- A block of the C heap: its size, and whether `reallocate` handed it out
(the buffer of a string token comes from `malloc` in the scanner). -/
structure Block where
  size : Nat
  counted : Bool
  deriving DecidableEq, Repr

/-- The counter `vm.bytesAllocated`, a `size_t`, and the blocks of the C heap
by address: `some` for a block in use, `none` for one that was released. -/
structure Memory where
  bytesAllocated : Nat
  blocks : List (Option Block)
  deriving DecidableEq, Repr

/-- The total size of the blocks in use that `reallocate` handed out. -/
def liveBlocks : List (Option Block) → Nat
  | [] => 0
  | some block :: rest => (if block.counted then block.size else 0) + liveBlocks rest
  | none :: rest => liveBlocks rest

def Memory.live (m : Memory) : Nat := liveBlocks m.blocks

/-- The number of blocks in use, whoever handed them out. -/
def Memory.inUse (m : Memory) : Nat := (m.blocks.filter Option.isSome).length

/-- The library function `free`; `none` is `NULL`. -/
def Memory.free (m : Memory) (pointer : Option Nat) : Memory :=
  match pointer with
  | none => m
  | some p => { m with blocks := m.blocks.set p none }

/-- The library function `malloc`. -/
def Memory.malloc (m : Memory) (size : Nat) : Nat × Memory :=
  (m.blocks.length, { m with blocks := m.blocks ++ [some { size := size, counted := false }] })

/-- The library function `realloc` as `reallocate` calls it; the block keeps
its address. -/
def Memory.realloc (m : Memory) (pointer : Option Nat) (newSize : Nat) : Option Nat × Memory :=
  match pointer with
  | none =>
    (some m.blocks.length,
      { m with blocks := m.blocks ++ [some { size := newSize, counted := true }] })
  | some p => (some p, { m with blocks := m.blocks.set p (some { size := newSize, counted := true }) })

/-- The function `reallocate`: `bytesAllocated += newSize - oldSize` in
`size_t`, then `free` or `realloc`.  The call of `collectGarbage` it makes
when the counter has passed `nextGC` is not part of this definition: the
collector changes the counter only through the calls of `reallocate` that
`sweep` makes for unreachable objects, and on the path modelled here every
object is reachable when it runs. -/
def reallocate (m : Memory) (pointer : Option Nat) (oldSize newSize : Nat) : Option Nat × Memory :=
  let m := { m with
    bytesAllocated :=
      (m.bytesAllocated + (newSize % SIZE_MOD + (SIZE_MOD - oldSize % SIZE_MOD)) % SIZE_MOD)
        % SIZE_MOD }
  if newSize = 0 then (none, m.free pointer) else m.realloc pointer newSize

/-- What `freeObject` uses of an object: its type, its block and, for a
string, the block of `chars`, `length` and the bytes. -/
inductive Owned
  | OBJ_NATIVE (object : Nat)
  | OBJ_STRING (object : Nat) (chars : Nat) (length : Nat) (bytes : List Char)
  deriving DecidableEq, Repr

def Owned.object : Owned → Nat
  | .OBJ_NATIVE object => object
  | .OBJ_STRING object _ _ _ => object

/-- What the counter depends on in a `Table`: the keys stored (no key is
deleted on this path, so `count` is their number), `capacity` and the block of
`entries` (`none` is `NULL`). -/
structure Buckets where
  keys : List Nat
  capacity : Nat
  entries : Option Nat
  deriving DecidableEq, Repr

def Buckets.count (table : Buckets) : Nat := table.keys.length

/-- The state of the path: the memory, the list `vm.objects` (most recent
first) and the tables `vm.strings` and `vm.globals`. -/
structure State where
  memory : Memory
  objects : List Owned
  strings : Buckets
  globals : Buckets
  deriving DecidableEq, Repr

def initTable : Buckets := { keys := [], capacity := 0, entries := none }

/-- The function `adjustCapacity`: `ALLOCATE(Entry, capacity)`, the keys are
stored again, `FREE_ARRAY(Entry, table->entries, table->capacity)`. -/
def adjustCapacity (sizes : Sizes) (m : Memory) (table : Buckets) (capacity : Nat) :
    Memory × Buckets :=
  let (entries, m) := reallocate m none 0 (sizes.Entry * capacity)
  let (_, m) := reallocate m table.entries (sizes.Entry * table.capacity) 0
  (m, { table with entries := entries, capacity := capacity })

/-- The function `tableSet`. -/
def tableSet (sizes : Sizes) (m : Memory) (table : Buckets) (key : Nat) : Memory × Buckets :=
  let (m, table) :=
    if 4 * (table.count + 1) > 3 * table.capacity
    then adjustCapacity sizes m table (GROW_CAPACITY table.capacity) else (m, table)
  (m, if key ∈ table.keys then table else { table with keys := table.keys ++ [key] })

/-- The function `freeTable`. -/
def freeTable (sizes : Sizes) (m : Memory) (table : Buckets) : Memory × Buckets :=
  ((reallocate m table.entries (sizes.Entry * table.capacity) 0).2, initTable)

/-- The function `tableFindString`: the interned string with these bytes. -/
def tableFindString (s : State) (bytes : List Char) : Option Nat :=
  (s.objects.find? fun o =>
    match o with
    | .OBJ_STRING object _ _ b => decide (b = bytes) && decide (object ∈ s.strings.keys)
    | _ => false).map Owned.object

/-- The function `allocateString`, with `ALLOCATE_OBJ(ObjString, OBJ_STRING)`. -/
def allocateString (sizes : Sizes) (s : State) (chars : Nat) (bytes : List Char) : Nat × State :=
  match reallocate s.memory none 0 sizes.ObjString with
  | (some string, m) =>
    let (m, strings) := tableSet sizes m s.strings string
    (string, { s with memory := m, strings := strings,
                      objects := .OBJ_STRING string chars bytes.length bytes :: s.objects })
  | (none, m) => (0, { s with memory := m })

/-- The function `copyString`. -/
def copyString (sizes : Sizes) (s : State) (bytes : List Char) : Nat × State :=
  match tableFindString s bytes with
  | some interned => (interned, s)
  | none =>
    match reallocate s.memory none 0 (bytes.length + 1) with
    | (some heapChars, m) => allocateString sizes { s with memory := m } heapChars bytes
    | (none, m) => (0, { s with memory := m })

/-- The function `takeStringFromToken`; `chars` is the buffer that
`stringToken` obtained with `malloc(len + 2)`. -/
def takeStringFromToken (sizes : Sizes) (s : State) (chars : Nat) (bytes : List Char) :
    Nat × State :=
  match tableFindString s bytes with
  | some interned => (interned, { s with memory := s.memory.free (some chars) })
  | none => allocateString sizes s chars bytes

/-- The buffer of `stringToken` for a literal with these bytes, then
`takeStringFromToken`, as `string()` of the compiler calls it. -/
def stringLiteral (sizes : Sizes) (s : State) (bytes : List Char) : Nat × State :=
  let (chars, m) := s.memory.malloc (bytes.length + 2)
  takeStringFromToken sizes { s with memory := m } chars bytes

/-- The function `newNative`, with `ALLOCATE_OBJ(ObjNative, OBJ_NATIVE)`. -/
def newNative (sizes : Sizes) (s : State) : Nat × State :=
  match reallocate s.memory none 0 sizes.ObjNative with
  | (some native, m) => (native, { s with memory := m, objects := .OBJ_NATIVE native :: s.objects })
  | (none, m) => (0, { s with memory := m })

/-- The function `defineNative`. -/
def defineNative (sizes : Sizes) (s : State) (name : String) : State :=
  let (string, s) := copyString sizes s name.toList
  let (_, s) := newNative sizes s
  let (m, globals) := tableSet sizes s.memory s.globals string
  { s with memory := m, globals := globals }

/-- The names that `loadBuiltInNative` defines, in its order. -/
def builtInNatives : List String :=
  ["now", "exit", "isNaN", "clock", "system", "echo", "sleep", "random", "gc",
   "setField", "getField", "hasField", "deleteField"]

def loadBuiltInNative (sizes : Sizes) (s : State) : State :=
  builtInNatives.foldl (defineNative sizes) s

/-- The state at the start of the program: `vm` is in zeroed static storage
and nothing is allocated. -/
def start : State :=
  { memory := { bytesAllocated := 0, blocks := [] }, objects := [],
    strings := initTable, globals := initTable }

/-- The function `initVM` up to and including
`vm.initString = copyString(LOXJ_OPTIONS_INIT, LOXJ_OPTIONS_INIT_LENGTH)`. -/
def internInitString (sizes : Sizes) (s : State) : State :=
  (copyString sizes { s with objects := [], strings := initTable, globals := initTable }
    LOXJ_OPTIONS_INIT.toList).2

/-- The function `initVM`. -/
def initVM (sizes : Sizes) (s : State) : State :=
  let s := internInitString sizes s
  let s := { s with memory := { s.memory with bytesAllocated := 0 } }
  loadBuiltInNative sizes s

/-- The function `freeObject`. -/
def freeObject (sizes : Sizes) (m : Memory) : Owned → Memory
  | .OBJ_NATIVE object => (reallocate m (some object) sizes.ObjNative 0).2
  | .OBJ_STRING object chars length _ =>
    let m := (reallocate m (some chars) (length + 1) 0).2
    (reallocate m (some object) sizes.ObjString 0).2

/-- The function `freeObjects`. -/
def freeObjects (sizes : Sizes) (s : State) : State :=
  { s with memory := s.objects.foldl (freeObject sizes) s.memory, objects := [] }

/-- The function `freeVM`. -/
def freeVM (sizes : Sizes) (s : State) : State :=
  let (m, strings) := freeTable sizes s.memory s.strings
  let (m, globals) := freeTable sizes m s.globals
  freeObjects sizes { s with memory := m, strings := strings, globals := globals }

/-- The bytes that `initVM` obtains before it sets the counter to 0: the 12
bytes of `constructor`, its `ObjString` and the 8 buckets of `vm.strings`. -/
def uncounted (sizes : Sizes) : Nat := 12 + sizes.ObjString + sizes.Entry * 8

end Accounting

end Loxj

/-! # Values: truthiness (C6) -/

namespace Loxj

theorem or_one_div_two (v : Nat) : (v ||| 1) / 2 = v / 2 := by
  rw [Nat.or_div_two]; simp

theorem or_one_mod_two (v : Nat) : (v ||| 1) % 2 = 1 := by
  rw [Nat.or_mod_two_eq_one]; right; rfl

theorem isBool_false_iff (v : Nat) : (IS_BOOL v && !AS_BOOL v) = true ↔ v = FALSE_VAL := by
  have h1 := or_one_div_two v
  have h2 := or_one_mod_two v
  have hT : TRUE_VAL = 0x7ffc000000000003 := by decide
  have hF : FALSE_VAL = 0x7ffc000000000002 := by decide
  constructor
  · intro h
    simp only [IS_BOOL, AS_BOOL, Bool.and_eq_true, beq_iff_eq, Bool.not_eq_true',
      beq_eq_false_iff_ne, ne_eq, hT] at h
    obtain ⟨h, hne⟩ := h
    have h' : (v ||| 1 : Nat) = 0x7ffc000000000003 := h
    rw [hF]; omega
  · rintro rfl; decide

theorem OBJ_VAL_eq_add (p : Nat) (hp : p < 2 ^ 50) : OBJ_VAL p = 0xfffc000000000000 + p := by
  have h : OBJ_VAL p = 2 ^ 50 * 16383 ||| p := by
    simp only [OBJ_VAL]; congr 1
  rw [h, ← Nat.mul_add_lt_is_or hp]

theorem IS_NUMBER_OBJ_VAL (p : Nat) : IS_NUMBER (OBJ_VAL p) = false := by
  simp only [IS_NUMBER, bne_eq_false_iff_eq]
  apply Nat.eq_of_testBit_eq
  intro i
  simp only [OBJ_VAL, Nat.testBit_and, Nat.testBit_or]
  cases h1 : QNAN.testBit i <;> simp

theorem isFalsey_OBJ_VAL (p : Nat) (hp : p < 2 ^ 50) : isFalsey (OBJ_VAL p) = false := by
  have h := OBJ_VAL_eq_add p hp
  have hnil : IS_NIL (OBJ_VAL p) = false := by
    simp only [IS_NIL, beq_eq_false_iff_ne, ne_eq, h]
    have : NIL_VAL = 0x7ffc000000000001 := by decide
    rw [this]; omega
  have hb : (IS_BOOL (OBJ_VAL p) && !AS_BOOL (OBJ_VAL p)) = false := by
    rw [Bool.eq_false_iff, ne_eq, isBool_false_iff, h]
    have : FALSE_VAL = 0x7ffc000000000002 := by decide
    rw [this]; omega
  simp [isFalsey, hnil, hb, IS_NUMBER_OBJ_VAL]


theorem IS_OBJ_OBJ_VAL (p : Nat) : IS_OBJ (OBJ_VAL p) = true := by
  simp only [IS_OBJ, beq_iff_eq]
  apply Nat.eq_of_testBit_eq
  intro i
  simp only [OBJ_VAL, Nat.testBit_and, Nat.testBit_or]
  cases QNAN.testBit i <;> cases SIGN_BIT.testBit i <;> simp

theorem AS_OBJ_OBJ_VAL (p : Nat) (hp : p < 2 ^ 50) : AS_OBJ (OBJ_VAL p) = p := by
  rw [OBJ_VAL_eq_add p hp]
  have h : AS_OBJ (0xfffc000000000000 + p) = (0xfffc000000000000 + p) &&& (2 ^ 50 - 1) := by
    simp only [AS_OBJ]; congr 1
  rw [h, Nat.and_pow_two_sub_one_eq_mod]
  omega

theorem setIp_stack (vm : VM) (ip : Nat) :
    (vm.setIp ip).stack = vm.stack ∧ (vm.setIp ip).stackTop = vm.stackTop := by
  unfold VM.setIp; split <;> simp

theorem setIp_peek (vm : VM) (ip d : Nat) : (vm.setIp ip).peek d = vm.peek d := by
  simp [VM.peek, VM.slot, setIp_stack]

end Loxj

/-! # Loops: `OP_LOOP` and the `for` statement (C1, C5) -/

namespace Loxj

/-- C1 (code at the failing input): for the script `while (true) {}` the
compiler emits, at offset 5, `OP_LOOP` with operand 8, which is the distance
from the byte after the operand (offset 8) back to the loop start (offset 0).
After the three instructions of the first pass through the condition, `run`
is at that `OP_LOOP`; executing it adds the operand and leaves `ip` at 16,
outside the 11 bytes of the chunk, not at the loop start 0; the next fetch is
undefined. -/
theorem C1_OP_LOOP_adds_offset :
    whileTrueProgram.chunk.code =
      [OP_TRUE, OP_JUMP_IF_FALSE, 0, 4, OP_POP, OP_LOOP, 0, 8, OP_POP, OP_NIL, OP_RETURN] ∧
    whileTrueProgram.errors = [] ∧
    (∃ vm, run noNatives 3 (scriptVM whileTrueProgram.chunk) = .next vm ∧ vm.ip = some 5 ∧
      vm.stackTop = 1 ∧ runStep noNatives vm = .next (vm.setIp 16) ∧
      runStep noNatives (vm.setIp 16) = .undefined) := by
  refine ⟨by decide, by decide, _, rfl, by decide, by decide, by decide, by decide⟩

/-- C5 (code at the failing input): the script
`for (var i = 0; i < 1; i = i + 1) {}` compiles to 32 bytes of code without a
compile error; running it, the condition holds, the empty body is reached,
and the `OP_LOOP` that closes the body (at offset 25, meant to go back to the
increment at offset 14) leaves `ip` at 42, outside the chunk, with the loop
variable still on the stack; the next fetch is undefined, so the statement
does not terminate with the stack at its initial height. -/
theorem C5_for_loop_leaves_chunk :
    forOnceProgram.chunk.code =
      [OP_CONSTANT, 0, OP_GET_LOCAL, 1, OP_CONSTANT, 1, OP_LESS, OP_JUMP_IF_FALSE, 0, 18, OP_POP,
       OP_JUMP, 0, 11, OP_GET_LOCAL, 1, OP_CONSTANT, 2, OP_ADD, OP_SET_LOCAL, 1, OP_POP,
       OP_LOOP, 0, 23, OP_LOOP, 0, 14, OP_POP, OP_POP, OP_NIL, OP_RETURN] ∧
    forOnceProgram.errors = [] ∧
    (∃ vm, run noNatives 7 (scriptVM forOnceProgram.chunk) = .next vm ∧ vm.ip = some 25 ∧
      vm.stackTop = 2) ∧
    (∃ vm, run noNatives 8 (scriptVM forOnceProgram.chunk) = .next vm ∧ vm.ip = some 42 ∧
      vm.stackTop = 2) ∧
    run noNatives 9 (scriptVM forOnceProgram.chunk) = .undefined := by
  refine ⟨by decide, by decide, ⟨_, rfl, by decide, by decide⟩, ⟨_, rfl, by decide, by decide⟩, by decide⟩

end Loxj

/-! # Scanner: keywords, identifiers, operators (C2, C3, C4) -/

namespace Loxj

/-- C2 (code at the failing input): the source `break` scans as one token of
kind `TOKEN_AND` (not `TOKEN_BREAK`) followed by EOF.  Each of the other twenty
keywords scans as its own kind followed by EOF. -/
theorem C2_break_scans_as_TOKEN_AND :
    scanTwo "break" = some (⟨.TOKEN_AND, .source 0, 5, 1⟩, ⟨.TOKEN_EOF, .source 5, 0, 1⟩) ∧
    [("and", TokenType.TOKEN_AND), ("or", .TOKEN_OR), ("class", .TOKEN_CLASS),
      ("else", .TOKEN_ELSE), ("false", .TOKEN_FALSE), ("true", .TOKEN_TRUE), ("for", .TOKEN_FOR),
      ("if", .TOKEN_IF), ("nil", .TOKEN_NIL), ("print", .TOKEN_PRINT), ("return", .TOKEN_RETURN),
      ("super", .TOKEN_SUPER), ("this", .TOKEN_THIS), ("var", .TOKEN_VAR), ("while", .TOKEN_WHILE),
      ("continue", .TOKEN_CONTINUE), ("extends", .TOKEN_EXTENDS), ("typeof", .TOKEN_TYPEOF),
      ("fun", .TOKEN_FUN), ("function", .TOKEN_FUN)].all
      (fun p => (scanTwo p.1).map (fun r => (r.1.type, r.1.length, r.2.type)) ==
        some (p.2, p.1.length, .TOKEN_EOF)) = true := by
  constructor <;> decide

/-- C3 (code at the failing inputs): identifiers that are not keywords scan as
keyword tokens.  `full` and `fu` scan as `TOKEN_FUN` (the second test of the
`fu` case is always true), and through the missing `break` after the `c` and
`e` cases `cur` and `eun` scan as `TOKEN_FUN`, `calse` as `TOKEN_FALSE`, `eor`
as `TOKEN_FOR` and `cxtends` as `TOKEN_EXTENDS`; in each case the token covers
the whole lexeme.  The identifier `cor` scans as `TOKEN_IDENTIFIER`. -/
theorem C3_identifiers_scanned_as_keywords :
    scanTwo "full" = some (⟨.TOKEN_FUN, .source 0, 4, 1⟩, ⟨.TOKEN_EOF, .source 4, 0, 1⟩) ∧
    firstTokenType "fu" = some .TOKEN_FUN ∧
    firstTokenType "cur" = some .TOKEN_FUN ∧
    firstTokenType "eun" = some .TOKEN_FUN ∧
    firstTokenType "calse" = some .TOKEN_FALSE ∧
    firstTokenType "eor" = some .TOKEN_FOR ∧
    firstTokenType "cxtends" = some .TOKEN_EXTENDS ∧
    firstTokenType "cor" = some .TOKEN_IDENTIFIER := by
  refine ⟨by decide, by decide, by decide, by decide, by decide, by decide, by decide, by decide⟩

/-- C4 (code at the failing input): in `a > b` the character `>` scans as a
token of kind `TOKEN_LESS` and length 1, for which `binary` emits `OP_LESS`,
the same instruction as for `<`; `TOKEN_GREATER` is what `binary` maps to
`OP_GREATER`.  The other operator lexemes scan as their own kinds. -/
theorem C4_greater_scans_as_TOKEN_LESS :
    scanTwo "> b" = some (⟨.TOKEN_LESS, .source 0, 1, 1⟩, ⟨.TOKEN_IDENTIFIER, .source 2, 1, 1⟩) ∧
    (binary ⟨initChunk, 1, []⟩ .TOKEN_LESS).chunk.code = [OP_LESS] ∧
    (binary ⟨initChunk, 1, []⟩ .TOKEN_GREATER).chunk.code = [OP_GREATER] ∧
    [("<", TokenType.TOKEN_LESS), ("<=", .TOKEN_LESS_EQUAL), (">=", .TOKEN_GREATER_EQUAL),
      ("<<", .TOKEN_LEFT_SHIFT), (">>", .TOKEN_RIGHT_SHIFT), ("<<<", .TOKEN_UNSIGNED_LEFT_SHIFT),
      (">>>", .TOKEN_UNSIGNED_RIGHT_SHIFT), ("!", .TOKEN_BANG), ("!=", .TOKEN_BANG_EQUAL),
      ("=", .TOKEN_EQUAL), ("==", .TOKEN_EQUAL_EQUAL)].all
      (fun p => (scanTwo p.1).map (fun r => (r.1.type, r.1.length, r.2.type)) ==
        some (p.2, p.1.length, .TOKEN_EOF)) = true := by
  refine ⟨by decide, by decide, by decide, by decide⟩

end Loxj

/-! # Scanner: string literals with escapes (C8) -/

namespace Loxj

@[simp] theorem byteAt_mk (src : List Char) (st cur ln i : Nat) :
    Scanner.byteAt ⟨src, st, cur, ln⟩ i = src.getD i '\x00' := rfl

theorem getD_at_cons (pre : List Char) (c : Char) (post : List Char) (n : Nat)
    (hn : n = pre.length) : (pre ++ c :: post)[n]?.getD '\x00' = c := by
  subst hn
  rw [List.getElem?_append_right (le_refl _)]
  simp

theorem stringScan_body (items : List StrItem) :
    ∀ (fuel : Nat) (src pre post : List Char) (st ln esc : Nat),
      (∀ it ∈ items, it.wf = true) → src = pre ++ encodeBody items ++ post →
      stringScan (fuel + items.length) ⟨src, st, pre.length, ln⟩ esc =
        stringScan fuel ⟨src, st, pre.length + (encodeBody items).length, ln + newlinesIn items⟩
          (esc + escapesIn items) := by
  induction items with
  | nil =>
    intro fuel src pre post st ln esc _ _
    simp [encodeBody, newlinesIn, escapesIn]
  | cons it r ih =>
    intro fuel src pre post st ln esc hwf hsrc
    have hr : ∀ it ∈ r, it.wf = true := fun x hx => hwf x (List.mem_cons_of_mem _ hx)
    have hit := hwf it (List.mem_cons_self _ _)
    cases it with
    | ordinary c =>
      simp only [StrItem.wf, Bool.and_eq_true, bne_iff_ne, ne_eq] at hit
      obtain ⟨⟨h1, h2⟩, h3⟩ := hit
      have hb : src[pre.length]?.getD '\x00' = c := by
        rw [hsrc]; simp only [encodeBody, List.append_assoc, List.cons_append]
        exact getD_at_cons pre c _ _ rfl
      have key := ih fuel src (pre ++ [c]) post st (ln + (if c == '\n' then 1 else 0)) esc hr
        (by rw [hsrc]; simp [encodeBody])
      rw [show fuel + (StrItem.ordinary c :: r).length = (fuel + r.length) + 1 by simp; omega]
      rw [stringScan]
      simp only [List.length_append, List.length_singleton] at key
      by_cases hn : c = '\n'
      · subst hn
        simp [peek, isAtEnd, advance, hb]
        simp at key
        rw [key]
        simp [encodeBody, newlinesIn, escapesIn]
        ac_rfl
      · simp [peek, isAtEnd, advance, hb, h1, h2, h3, hn]
        simp [hn] at key
        rw [key]
        simp [encodeBody, newlinesIn, escapesIn, hn]
        ac_rfl
    | escape c =>
      have hb : src[pre.length]?.getD '\x00' = '\\' := by
        rw [hsrc]; simp only [encodeBody, List.append_assoc, List.cons_append]
        exact getD_at_cons pre _ _ _ rfl
      have hb2 : src[pre.length + 1]?.getD '\x00' = c := by
        have := getD_at_cons (pre ++ ['\\']) c (encodeBody r ++ post) (pre.length + 1) (by simp)
        rw [hsrc]
        simpa [encodeBody] using this
      have key := ih fuel src (pre ++ ['\\', c]) post st ln (esc + 1) hr
        (by rw [hsrc]; simp [encodeBody])
      rw [show fuel + (StrItem.escape c :: r).length = (fuel + r.length) + 1 by simp; omega]
      rw [stringScan]
      simp only [StrItem.wf, Bool.or_eq_true, beq_iff_eq] at hit
      simp [peek, isAtEnd, advance, hb, hb2, hit]
      simp at key
      rw [show pre.length + 1 + 1 = pre.length + 2 by omega, key]
      simp [encodeBody, newlinesIn, escapesIn]
      ac_rfl


theorem length_encodeBody (items : List StrItem) :
    (encodeBody items).length = items.length + escapesIn items := by
  induction items with
  | nil => rfl
  | cons it r ih => cases it <;> simp [encodeBody, escapesIn, ih] <;> omega

theorem length_decodeBody (items : List StrItem) : (decodeBody items).length = items.length := by
  induction items with
  | nil => rfl
  | cons it r ih => cases it <;> simp [decodeBody, ih]

theorem unescape_body (items : List StrItem) :
    ∀ (fuel : Nat) (source pre post : List Char) (st cur ln srcLen src0 i : Nat) (dst : List Char),
      (∀ it ∈ items, it.wf = true) → source = pre ++ encodeBody items ++ post →
      src0 + i = pre.length → i + (encodeBody items).length ≤ srcLen →
      unescape ⟨source, st, cur, ln⟩ src0 srcLen (fuel + items.length) i dst =
        unescape ⟨source, st, cur, ln⟩ src0 srcLen fuel (i + (encodeBody items).length)
          (dst ++ decodeBody items) := by
  induction items with
  | nil =>
    intro fuel source pre post st cur ln srcLen src0 i dst _ _ _ _
    simp [encodeBody, decodeBody]
  | cons it r ih =>
    intro fuel source pre post st cur ln srcLen src0 i dst hwf hsrc hi hle
    have hr : ∀ it ∈ r, it.wf = true := fun x hx => hwf x (List.mem_cons_of_mem _ hx)
    have hit := hwf it (List.mem_cons_self _ _)
    cases it with
    | ordinary c =>
      simp only [StrItem.wf, Bool.and_eq_true, bne_iff_ne, ne_eq] at hit
      obtain ⟨⟨h1, h2⟩, h3⟩ := hit
      have hb : source[src0 + i]?.getD '\x00' = c := by
        rw [hsrc]; simp only [encodeBody, List.append_assoc, List.cons_append]
        exact getD_at_cons pre c _ _ hi
      have hlt : i < srcLen := by simp [encodeBody] at hle; omega
      have key := ih fuel source (pre ++ [c]) post st cur ln srcLen src0 (i + 1) (dst ++ [c]) hr
        (by rw [hsrc]; simp [encodeBody]) (by simp; omega) (by simp [encodeBody] at hle; omega)
      rw [show fuel + (StrItem.ordinary c :: r).length = (fuel + r.length) + 1 by simp; omega]
      rw [unescape]
      simp [hb, h2, hlt]
      rw [key]
      simp [encodeBody, decodeBody]
      ac_rfl
    | escape c =>
      have hb : source[src0 + i]?.getD '\x00' = '\\' := by
        rw [hsrc]; simp only [encodeBody, List.append_assoc, List.cons_append]
        exact getD_at_cons pre _ _ _ hi
      have hb2 : source[src0 + (i + 1)]?.getD '\x00' = c := by
        have := getD_at_cons (pre ++ ['\\']) c (encodeBody r ++ post) (src0 + (i + 1)) (by simp; omega)
        rw [hsrc]
        simpa [encodeBody] using this
      have hlt : i < srcLen := by simp [encodeBody] at hle; omega
      have key := ih fuel source (pre ++ ['\\', c]) post st cur ln srcLen src0 (i + 1 + 1)
        (dst ++ [escapeValue c]) hr
        (by rw [hsrc]; simp [encodeBody]) (by simp; omega) (by simp [encodeBody] at hle; omega)
      rw [show fuel + (StrItem.escape c :: r).length = (fuel + r.length) + 1 by simp; omega]
      rw [unescape]
      simp only [StrItem.wf, Bool.or_eq_true, beq_iff_eq] at hit
      have hout : (if c == 't' then '\t' else if c == 'n' then '\n'
          else if c == '"' then '"' else if c == '\\' then '\\' else '\x00') = escapeValue c := by
        rcases hit with ((rfl | rfl) | rfl) | rfl <;> decide
      simp only [byteAt_mk, List.getD_eq_getElem?_getD, hb, hb2, hlt, if_true, hout, beq_self_eq_true]
      rw [key]
      simp [encodeBody, decodeBody]
      ac_rfl

theorem unescape_done (s : Scanner) (src0 srcLen fuel : Nat) (dst : List Char) :
    unescape s src0 srcLen (fuel + 1) srcLen dst = some dst := by
  simp [unescape]


/-- The scanner state in which `scanToken` enters `stringToken` when the
opening quote is at offset `n`. -/
theorem scanToken_quote (src : List Char) (st n ln : Nat)
    (hq : src[n]?.getD '\x00' = '"') :
    scanToken ⟨src, st, n, ln⟩ = stringToken ⟨src, n, n + 1, ln⟩ := by
  unfold scanToken
  rw [skipWhitespace]
  simp [peek, isAtEnd, advance, hq, isAlpha, isDigit]

theorem stringScan_stop_quote (fuel : Nat) (src : List Char) (st n ln esc : Nat)
    (hq : src[n]?.getD '\x00' = '"') :
    stringScan (fuel + 1) ⟨src, st, n, ln⟩ esc = some (.inr (⟨src, st, n, ln⟩, esc)) := by
  rw [stringScan]; simp [peek, hq]

theorem stringScan_stop_end (fuel : Nat) (src : List Char) (st n ln esc : Nat)
    (hq : src[n]?.getD '\x00' = '\x00') :
    stringScan (fuel + 1) ⟨src, st, n, ln⟩ esc = some (.inr (⟨src, st, n, ln⟩, esc)) := by
  rw [stringScan]; simp [peek, isAtEnd, hq]

theorem stringScan_stop_bad (fuel : Nat) (src : List Char) (st n ln esc : Nat) (c : Char)
    (hq : src[n]?.getD '\x00' = '\\') (hc : src[n + 1]?.getD '\x00' = c)
    (h : c ≠ 'n' ∧ c ≠ 't' ∧ c ≠ '\\' ∧ c ≠ '"') :
    stringScan (fuel + 1) ⟨src, st, n, ln⟩ esc =
      some (.inl (⟨.TOKEN_ERROR, .static "Unsupported escape sequences.", 29, ln⟩,
        ⟨src, st, n + 1, ln⟩)) := by
  rw [stringScan]; simp [peek, isAtEnd, advance, hq, hc, h, errorToken]
  decide

theorem stringToken_ok (items : List StrItem) (pre rest : List Char) (st ln : Nat)
    (hwf : ∀ it ∈ items, it.wf = true) :
    scanToken ⟨pre ++ '"' :: (encodeBody items ++ '"' :: rest), st, pre.length, ln⟩ =
      some (⟨.TOKEN_STRING, .heap (decodeBody items), (encodeBody items).length - escapesIn items,
              ln + newlinesIn items⟩,
            ⟨pre ++ '"' :: (encodeBody items ++ '"' :: rest), pre.length,
              pre.length + 1 + (encodeBody items).length + 1, ln + newlinesIn items⟩) := by
  generalize hsrc : pre ++ '"' :: (encodeBody items ++ '"' :: rest) = src
  have hq : src[pre.length]?.getD '\x00' = '"' := by rw [← hsrc]; exact getD_at_cons _ _ _ _ rfl
  have hsrc2 : src = (pre ++ ['"']) ++ encodeBody items ++ ('"' :: rest) := by
    rw [← hsrc]; simp
  have hq2 : src[pre.length + 1 + (encodeBody items).length]?.getD '\x00' = '"' := by
    rw [hsrc2]; exact getD_at_cons _ _ _ _ (by simp; omega)
  have hlen : src.length = pre.length + 1 + (encodeBody items).length + 1 + rest.length := by
    rw [hsrc2]; simp; omega
  have hel := length_encodeBody items
  rw [scanToken_quote src st _ ln hq]
  unfold stringToken
  simp only
  obtain ⟨f, hf⟩ : ∃ f, src.length + 1 = (f + 1) + items.length := ⟨src.length - items.length, by omega⟩
  rw [hf]
  have h1 := stringScan_body items (f + 1) src (pre ++ ['"']) ('"' :: rest) pre.length ln 0 hwf hsrc2
  simp only [List.length_append, List.length_singleton] at h1
  rw [h1, stringScan_stop_quote _ _ _ _ _ _ hq2]
  simp only [isAtEnd, byteAt_mk, List.getD_eq_getElem?_getD, hq2, advance]
  have hsl : pre.length + 1 + (encodeBody items).length + 1 - pre.length - 2 = (encodeBody items).length := by
    omega
  simp only [hsl]
  obtain ⟨g, hg⟩ : ∃ g, (encodeBody items).length + 1 = (g + 1) + items.length :=
    ⟨escapesIn items, by omega⟩
  rw [hg]
  have h2 := unescape_body items (g + 1) src (pre ++ ['"']) ('"' :: rest) pre.length
    (pre.length + 1 + (encodeBody items).length + 1) (ln + newlinesIn items) (encodeBody items).length
    (pre.length + 1) 0 [] hwf hsrc2 (by simp) (by omega)
  rw [h2]
  simp only [Nat.zero_add, unescape_done, List.nil_append]
  simp


theorem stringToken_bad (items : List StrItem) (pre rest : List Char) (c : Char) (st ln : Nat)
    (hwf : ∀ it ∈ items, it.wf = true) (hc : c ≠ 'n' ∧ c ≠ 't' ∧ c ≠ '\\' ∧ c ≠ '"') :
    scanToken ⟨pre ++ '"' :: (encodeBody items ++ '\\' :: c :: rest), st, pre.length, ln⟩ =
      some (⟨.TOKEN_ERROR, .static "Unsupported escape sequences.", 29, ln + newlinesIn items⟩,
            ⟨pre ++ '"' :: (encodeBody items ++ '\\' :: c :: rest), pre.length,
              pre.length + 1 + (encodeBody items).length + 1, ln + newlinesIn items⟩) := by
  generalize hsrc : pre ++ '"' :: (encodeBody items ++ '\\' :: c :: rest) = src
  have hq : src[pre.length]?.getD '\x00' = '"' := by rw [← hsrc]; exact getD_at_cons _ _ _ _ rfl
  have hsrc2 : src = (pre ++ ['"']) ++ encodeBody items ++ ('\\' :: c :: rest) := by
    rw [← hsrc]; simp
  have hsrc3 : src = (pre ++ ['"'] ++ encodeBody items ++ ['\\']) ++ (c :: rest) := by
    rw [← hsrc]; simp
  have hq2 : src[pre.length + 1 + (encodeBody items).length]?.getD '\x00' = '\\' := by
    rw [hsrc2]; exact getD_at_cons _ _ _ _ (by simp; omega)
  have hq3 : src[pre.length + 1 + (encodeBody items).length + 1]?.getD '\x00' = c := by
    rw [hsrc3]; exact getD_at_cons _ _ _ _ (by simp; omega)
  have hlen : src.length = pre.length + 1 + (encodeBody items).length + 2 + rest.length := by
    rw [hsrc2]; simp; omega
  have hel := length_encodeBody items
  rw [scanToken_quote src st _ ln hq]
  unfold stringToken
  simp only
  obtain ⟨f, hf⟩ : ∃ f, src.length + 1 = (f + 1) + items.length := ⟨src.length - items.length, by omega⟩
  rw [hf]
  have h1 := stringScan_body items (f + 1) src (pre ++ ['"']) ('\\' :: c :: rest) pre.length ln 0 hwf hsrc2
  simp only [List.length_append, List.length_singleton] at h1
  rw [h1, stringScan_stop_bad _ _ _ _ _ _ c hq2 hq3 hc]

theorem stringToken_unterminated (items : List StrItem) (pre : List Char) (st ln : Nat)
    (hwf : ∀ it ∈ items, it.wf = true) :
    scanToken ⟨pre ++ '"' :: encodeBody items, st, pre.length, ln⟩ =
      some (⟨.TOKEN_ERROR, .static "Unterminated string.", 20, ln + newlinesIn items⟩,
            ⟨pre ++ '"' :: encodeBody items, pre.length,
              pre.length + 1 + (encodeBody items).length, ln + newlinesIn items⟩) := by
  generalize hsrc : pre ++ '"' :: encodeBody items = src
  have hq : src[pre.length]?.getD '\x00' = '"' := by rw [← hsrc]; exact getD_at_cons _ _ _ _ rfl
  have hsrc2 : src = (pre ++ ['"']) ++ encodeBody items ++ [] := by
    rw [← hsrc]; simp
  have hlen : src.length = pre.length + 1 + (encodeBody items).length := by
    rw [hsrc2]; simp; omega
  have hq2 : src[pre.length + 1 + (encodeBody items).length]?.getD '\x00' = '\x00' := by
    rw [List.getElem?_eq_none (by omega)]; rfl
  have hel := length_encodeBody items
  rw [scanToken_quote src st _ ln hq]
  unfold stringToken
  simp only
  obtain ⟨f, hf⟩ : ∃ f, src.length + 1 = (f + 1) + items.length := ⟨src.length - items.length, by omega⟩
  rw [hf]
  have h1 := stringScan_body items (f + 1) src (pre ++ ['"']) [] pre.length ln 0 hwf hsrc2
  simp only [List.length_append, List.length_singleton] at h1
  rw [h1, stringScan_stop_end _ _ _ _ _ _ hq2]
  simp [isAtEnd, hq2, errorToken]
  decide


/-- C8: for a literal whose body is made of ordinary bytes and the four
escapes, followed by the closing quote, `scanToken` returns a `TOKEN_STRING`
whose buffer holds the body with every escape replaced by the character it
stands for, of length body length minus number of escapes, and leaves the
scanner after the closing quote.  If after such a prefix a backslash is
followed by any other byte, it returns the error token
"Unsupported escape sequences."; if the input ends after such a prefix, the
error token "Unterminated string.". -/
theorem C8_stringToken_escapes (items : List StrItem) (pre rest : List Char) (st ln : Nat)
    (hwf : ∀ it ∈ items, it.wf = true) :
    scanToken ⟨pre ++ '"' :: (encodeBody items ++ '"' :: rest), st, pre.length, ln⟩ =
      some (⟨.TOKEN_STRING, .heap (decodeBody items), (encodeBody items).length - escapesIn items,
              ln + newlinesIn items⟩,
            ⟨pre ++ '"' :: (encodeBody items ++ '"' :: rest), pre.length,
              pre.length + 1 + (encodeBody items).length + 1, ln + newlinesIn items⟩) ∧
    (decodeBody items).length = (encodeBody items).length - escapesIn items ∧
    (∀ c : Char, c ≠ 'n' ∧ c ≠ 't' ∧ c ≠ '\\' ∧ c ≠ '"' →
      scanToken ⟨pre ++ '"' :: (encodeBody items ++ '\\' :: c :: rest), st, pre.length, ln⟩ =
        some (⟨.TOKEN_ERROR, .static "Unsupported escape sequences.", 29, ln + newlinesIn items⟩,
              ⟨pre ++ '"' :: (encodeBody items ++ '\\' :: c :: rest), pre.length,
                pre.length + 1 + (encodeBody items).length + 1, ln + newlinesIn items⟩)) ∧
    scanToken ⟨pre ++ '"' :: encodeBody items, st, pre.length, ln⟩ =
      some (⟨.TOKEN_ERROR, .static "Unterminated string.", 20, ln + newlinesIn items⟩,
            ⟨pre ++ '"' :: encodeBody items, pre.length,
              pre.length + 1 + (encodeBody items).length, ln + newlinesIn items⟩) := by
  refine ⟨stringToken_ok items pre rest st ln hwf, ?_,
    fun c hc => stringToken_bad items pre rest c st ln hwf hc,
    stringToken_unterminated items pre st ln hwf⟩
  rw [length_decodeBody, length_encodeBody]; omega

/-- C8 at the source `"a\nb";` (the escape written with a backslash and the
letter n): the token holds the three bytes `a`, newline, `b`. -/
theorem C8_stringToken_escapes_witness :
    (∀ it ∈ [StrItem.ordinary 'a', .escape 'n', .ordinary 'b'], it.wf = true) ∧
    scanToken (initScanner ['"', 'a', '\\', 'n', 'b', '"', ';']) =
      some (⟨.TOKEN_STRING, .heap ['a', '\n', 'b'], 3, 1⟩,
            ⟨['"', 'a', '\\', 'n', 'b', '"', ';'], 0, 6, 1⟩) :=
  ⟨by decide,
    (C8_stringToken_escapes [.ordinary 'a', .escape 'n', .ordinary 'b'] [] [';'] 0 1
      (by decide)).1⟩

end Loxj

/-! # Calls: `call` (C9) -/

namespace Loxj

/-- C9: `call` succeeds exactly when the argument count equals the arity and
fewer than 64 frames are active.  On success one frame is appended, with `ip`
at the first byte of the function's code and `slots` at
`stackTop - argCount - 1`, and nothing else of the VM changes.  On an arity
mismatch it prints "Expected <arity> arguments but got <argCount>.", and with
matching arity and 64 active frames "Stack overflow."; both failures print
the stack trace, call `resetStack` and push no frame. -/
theorem C9_call (vm : VM) (closure argCount arity : Nat) (name : Option Nat) (chunk : Chunk)
    (trace : String)
    (hf : vm.heap.closureFunction closure = some (name, arity, chunk))
    (ht : stackTrace vm.heap vm.frames.reverse = some trace) :
    ((∃ vm1, call vm closure argCount = some (true, vm1)) ↔
      (argCount = arity ∧ vm.frameCount < 64)) ∧
    (argCount = arity → vm.frameCount < 64 →
      call vm closure argCount = some (true, { vm with frames := vm.frames ++
        [{ closure := closure, ip := 0, slots := vm.stackTop - argCount - 1 }] })) ∧
    (argCount ≠ arity →
      call vm closure argCount = some (false, resetStack { vm with stderr := vm.stderr ++
        ("Expected " ++ toString arity ++ " arguments but got " ++ toString argCount ++ ".") ++
        "\n" ++ trace })) ∧
    (argCount = arity → 64 ≤ vm.frameCount →
      call vm closure argCount = some (false, resetStack { vm with stderr := vm.stderr ++
        "Stack overflow." ++ "\n" ++ trace })) ∧
    (∀ vm1, call vm closure argCount = some (false, vm1) → vm1.frames = [] ∧ vm1.stackTop = 0) := by
  have h1 : argCount = arity → vm.frameCount < 64 →
      call vm closure argCount = some (true, { vm with frames := vm.frames ++
        [{ closure := closure, ip := 0, slots := vm.stackTop - argCount - 1 }] }) := by
    intro ha hc
    simp [call, hf, ha, FRAMES_MAX, Nat.not_le.mpr hc]
  have h2 : argCount ≠ arity →
      call vm closure argCount = some (false, resetStack { vm with stderr := vm.stderr ++
        ("Expected " ++ toString arity ++ " arguments but got " ++ toString argCount ++ ".") ++
        "\n" ++ trace }) := by
    intro ha
    simp [call, hf, ha, runtimeError, ht]
  have h3 : argCount = arity → 64 ≤ vm.frameCount →
      call vm closure argCount = some (false, resetStack { vm with stderr := vm.stderr ++
        "Stack overflow." ++ "\n" ++ trace }) := by
    intro ha hc
    simp [call, hf, ha, runtimeError, ht, FRAMES_MAX, hc]
  refine ⟨?_, h1, h2, h3, ?_⟩
  · constructor
    · rintro ⟨vm1, h⟩
      by_cases ha : argCount = arity
      · by_cases hc : vm.frameCount < 64
        · exact ⟨ha, hc⟩
        · rw [h3 ha (Nat.not_lt.mp hc)] at h; simp at h
      · rw [h2 ha] at h; simp at h
    · rintro ⟨ha, hc⟩; exact ⟨_, h1 ha hc⟩
  · intro vm1 h
    by_cases ha : argCount = arity
    · by_cases hc : vm.frameCount < 64
      · rw [h1 ha hc] at h; simp at h
      · rw [h3 ha (Nat.not_lt.mp hc)] at h
        simp only [Option.some.injEq, Prod.mk.injEq, true_and] at h
        rw [← h]; simp [resetStack]
    · rw [h2 ha] at h
      simp only [Option.some.injEq, Prod.mk.injEq, true_and] at h
      rw [← h]; simp [resetStack]

/-- C9 at a concrete state: a script frame at its second instruction calling
its own closure (arity 0) with no argument. -/
theorem C9_call_witness :
    ((scriptVM ⟨[OP_NIL, OP_POP], [1, 1], []⟩).setIp 1).heap.closureFunction 1 =
        some (none, 0, ⟨[OP_NIL, OP_POP], [1, 1], []⟩) ∧
    stackTrace ((scriptVM ⟨[OP_NIL, OP_POP], [1, 1], []⟩).setIp 1).heap
        ((scriptVM ⟨[OP_NIL, OP_POP], [1, 1], []⟩).setIp 1).frames.reverse =
        some "[line 1] at <script>\n" ∧
    call ((scriptVM ⟨[OP_NIL, OP_POP], [1, 1], []⟩).setIp 1) 1 1 =
      some (false, resetStack { (scriptVM ⟨[OP_NIL, OP_POP], [1, 1], []⟩).setIp 1 with
        stderr := "Expected 0 arguments but got 1.\n[line 1] at <script>\n" }) :=
  ⟨by decide, by decide,
    ((C9_call ((scriptVM ⟨[OP_NIL, OP_POP], [1, 1], []⟩).setIp 1) 1 1 0 none
      ⟨[OP_NIL, OP_POP], [1, 1], []⟩ "[line 1] at <script>\n" (by decide) (by decide)).2.2.1
      (by decide)).trans (by decide)⟩

end Loxj

/-! # Calls: calling a class (C10) -/

namespace Loxj

theorem Heap.get_append_lt (heap : Heap) (c : Option HeapCell) (p : Nat) (hp : p < heap.length) :
    Heap.get (heap ++ [c]) p = Heap.get heap p := by
  simp [Heap.get, List.getD_eq_getElem?_getD, List.getElem?_append_left hp]

theorem Heap.get_append_length (heap : Heap) (cell : HeapCell) :
    Heap.get (heap ++ [some cell]) heap.length = some cell.obj := by
  simp [Heap.get, List.getD_eq_getElem?_getD]

theorem Heap.get_length (heap : Heap) : Heap.get heap heap.length = none := by
  simp [Heap.get, List.getD_eq_getElem?_getD]

theorem Heap.get_some_lt (heap : Heap) (p : Nat) (o : Obj) (h : Heap.get heap p = some o) :
    p < heap.length := by
  by_contra hn
  simp [Heap.get, List.getD_eq_getElem?_getD, List.getElem?_eq_none (Nat.not_lt.mp hn)] at h

/-- Allocating an object that is not a string leaves every `key->hash` read
as it was. -/
theorem Heap.string_append_instance (heap : Heap) (k : Nat) (t : Table) (p : Nat) :
    Heap.string (heap ++ [some ⟨false, .OBJ_INSTANCE k t⟩]) p = Heap.string heap p := by
  unfold Heap.string
  rcases Nat.lt_trichotomy p heap.length with h | h | h
  · rw [Heap.get_append_lt _ _ _ h]
  · subst h
    rw [Heap.get_append_length, Heap.get_length]
  · have h1 : Heap.get (heap ++ [some ⟨false, .OBJ_INSTANCE k t⟩]) p = none := by
      simp [Heap.get, List.getD_eq_getElem?_getD]
      rw [List.getElem?_eq_none (by simp; omega)]; rfl
    have h2 : Heap.get heap p = none := by
      simp [Heap.get, List.getD_eq_getElem?_getD]
      rw [List.getElem?_eq_none (by omega)]; rfl
    rw [h1, h2]

theorem storeAt_getD_self (stack : List Nat) (i v : Nat) : (storeAt stack i v).getD i 0 = v := by
  unfold storeAt
  split
  · rename_i h
    simp [List.getD_eq_getElem?_getD, List.getElem?_set, h]
  · rename_i h
    have h1 : stack.length ≤ i := Nat.not_lt.mp h
    rw [List.getD_eq_getElem?_getD, List.getElem?_append_right (by simp; omega)]
    have h2 : i - (stack ++ List.replicate (i - stack.length) 0).length = 0 := by simp; omega
    rw [h2]; rfl

theorem tableGet_append_instance (heap : Heap) (k : Nat) (t methods : Table) (key : Nat) :
    tableGet (heap ++ [some ⟨false, .OBJ_INSTANCE k t⟩]) methods key = tableGet heap methods key := by
  simp only [tableGet, findEntry, Heap.string_append_instance]

/-- C10: `callValue` on a class value allocates a new instance of the class
with an empty field table and stores it in the callee slot
`stackTop[-argCount - 1]`.  If `tableGet` finds the initializer name in the
class's methods, the result is that of `call` on that closure with the same
argument count, so on success the new frame's slot 0 is the callee slot.
Otherwise the call returns true without touching the frames when
`argCount` is 0, and fails with "Expected 0 arguments but got <argCount>."
when it is not.  The name `initVM` interns as `vm.initString` is
`constructor`. -/
theorem C10_callValue_class (natives : Natives) (vm : VM) (klass argCount name initString : Nat)
    (methods : Table) (hk : klass < 2 ^ 50)
    (hc : vm.heap.get klass = some (.OBJ_CLASS name methods))
    (hi : vm.initString = some initString) :
    let instance_ := vm.heap.length
    let vm2 : VM := { vm with
      heap := vm.heap ++ [some { isMarked := false, obj := .OBJ_INSTANCE klass initTable }],
      objects := vm.heap.length :: vm.objects,
      stack := storeAt vm.stack (vm.stackTop - argCount - 1) (OBJ_VAL instance_) }
    vm.heap.get instance_ = none ∧
    vm2.heap.get instance_ = some (.OBJ_INSTANCE klass initTable) ∧
    vm2.slot (vm.stackTop - argCount - 1) = OBJ_VAL instance_ ∧
    (∀ initializer, tableGet vm.heap methods initString = some (some initializer) →
      callValue natives vm (OBJ_VAL klass) argCount = call vm2 (AS_OBJ initializer) argCount ∧
      ∀ nm ch, vm2.heap.closureFunction (AS_OBJ initializer) = some (nm, argCount, ch) →
        vm.frameCount < 64 →
        callValue natives vm (OBJ_VAL klass) argCount = some (true, { vm2 with frames :=
          vm.frames ++ [{ closure := AS_OBJ initializer, ip := 0,
                          slots := vm.stackTop - argCount - 1 }] })) ∧
    (tableGet vm.heap methods initString = some none → argCount = 0 →
      callValue natives vm (OBJ_VAL klass) argCount = some (true, vm2) ∧ vm2.frames = vm.frames) ∧
    (tableGet vm.heap methods initString = some none → argCount ≠ 0 →
      callValue natives vm (OBJ_VAL klass) argCount =
        (runtimeError vm2 ("Expected 0 arguments but got " ++ toString argCount ++ ".")).map
          fun vm => (false, vm)) ∧
    (∃ vm0 p, initVM = some vm0 ∧ vm0.initString = some p ∧
      vm0.heap.string p = some (11, hashString "constructor".toList, "constructor".toList)) := by
  intro instance_ vm2
  have hcv : ∀ r, tableGet vm.heap methods initString = some r →
      callValue natives vm (OBJ_VAL klass) argCount =
        match r with
        | some initializer => call vm2 (AS_OBJ initializer) argCount
        | none =>
          if argCount != 0 then
            (runtimeError vm2 ("Expected 0 arguments but got " ++ toString argCount ++ ".")).map
              fun vm => (false, vm)
          else some (true, vm2) := by
    intro r hr
    have hr2 := (tableGet_append_instance vm.heap klass initTable methods initString).trans hr
    unfold callValue
    simp only [IS_OBJ_OBJ_VAL, AS_OBJ_OBJ_VAL klass hk, hc, if_true, newInstance, allocateObject, hi,
      hr2]
    cases r <;> simp [vm2, instance_, hi]
  refine ⟨Heap.get_length _, Heap.get_append_length _ _, ?_, ?_, ?_, ?_, ?_⟩
  · exact storeAt_getD_self _ _ _
  · intro initializer hr
    have h := hcv _ hr
    refine ⟨h, ?_⟩
    intro nm ch hfn hfc
    rw [h]
    have hfc2 : ¬ (64 ≤ vm.frames.length) := by
      simpa [VM.frameCount] using Nat.not_le.mpr hfc
    simp [call, hfn, FRAMES_MAX, VM.frameCount, vm2, hfc2]
  · intro hr ha
    rw [hcv _ hr]
    subst ha
    exact ⟨rfl, rfl⟩
  · intro hr ha
    rw [hcv _ hr]
    simp [ha]
  · exact ⟨_, 0, rfl, rfl, by decide⟩


/-- C10 at the call `P(42)` of the script `class P { constructor(x) {} } P(42);`:
the class is at address 4, the new instance gets address 7 and replaces the
class in stack slot 1, and the frame of the constructor starts at that slot. -/
theorem C10_callValue_class_witness :
    (4 < 2 ^ 50 ∧ classVM.heap.get 4 = some (.OBJ_CLASS 1 (constructorMethods (classHeap.take 2))) ∧
      classVM.initString = some 0) ∧
    callValue noNatives classVM (OBJ_VAL 4) 1 = some (true,
      { classVM with
        heap := classVM.heap ++ [some ⟨false, .OBJ_INSTANCE 4 initTable⟩],
        objects := 7 :: classVM.objects,
        stack := [OBJ_VAL 6, OBJ_VAL 7, doubleFortyTwo],
        frames := [⟨6, 1, 0⟩, ⟨3, 0, 1⟩] }) :=
  ⟨⟨by decide, by decide, by decide⟩,
    (((C10_callValue_class noNatives classVM 4 1 1 0 (constructorMethods (classHeap.take 2))
      (by decide) (by decide) (by decide)).2.2.2.1 (OBJ_VAL 3) (by decide)).2 (some 0)
      ⟨[OP_GET_LOCAL, 0, OP_RETURN], [1, 1, 1], []⟩ (by decide) (by decide)).trans (by decide)⟩

end Loxj

/-! # Tables: `findEntry`, `adjustCapacity`, `tableSet` keep the invariant -/

namespace Loxj

theorem probeAt_lt (cap h d : Nat) (hc : 0 < cap) : probeAt cap h d < cap :=
  Nat.mod_lt _ hc

theorem probeAt_next (n h d : Nat) :
    (probeAt (2 ^ n) h d + 1) &&& (2 ^ n - 1) = probeAt (2 ^ n) h (d + 1) := by
  rw [Nat.and_pow_two_sub_one_eq_mod]
  simp only [probeAt]
  rw [← Nat.add_assoc]
  exact (Nat.ModEq.add_right 1 (Nat.mod_modEq (h + d) (2 ^ n)))

theorem probeAt_surj (cap h j : Nat) (hj : j < cap) : ∃ d, d < cap ∧ probeAt cap h d = j := by
  have hr : h % cap < cap := Nat.mod_lt _ (by omega)
  have hh := Nat.div_add_mod h cap
  by_cases hle : h % cap ≤ j
  · refine ⟨j - h % cap, by omega, ?_⟩
    simp only [probeAt]
    have : h + (j - h % cap) = j + cap * (h / cap) := by omega
    rw [this, Nat.add_mul_mod_self_left, Nat.mod_eq_of_lt hj]
  · refine ⟨j + cap - h % cap, by omega, ?_⟩
    simp only [probeAt]
    have : h + (j + cap - h % cap) = j + cap * (h / cap + 1) := by
      rw [Nat.mul_add, Nat.mul_one]; omega
    rw [this, Nat.add_mul_mod_self_left, Nat.mod_eq_of_lt hj]

theorem probeAt_inj (cap h d1 d2 : Nat) (h1 : d1 < cap) (h2 : d2 < cap)
    (he : probeAt cap h d1 = probeAt cap h d2) : d1 = d2 := by
  simp only [probeAt] at he
  have e : (h + d1) ≡ (h + d2) [MOD cap] := he
  have e2 : d1 ≡ d2 [MOD cap] := Nat.ModEq.add_left_cancel' h e
  have := Nat.ModEq.eq_of_lt_of_lt e2 h1 h2
  exact this


theorem keyAt_eq (entries : List Entry) (i : Nat) (e : Entry) (h : entries[i]? = some e) :
    keyAt entries i = e.key := by
  simp [keyAt, h]

theorem keyAt_some (entries : List Entry) (i k : Nat) (h : keyAt entries i = some k) :
    ∃ e, entries[i]? = some e ∧ e.key = some k := by
  unfold keyAt at h
  cases he : entries[i]? with
  | none => simp [he] at h
  | some e => exact ⟨e, rfl, by simpa [he] using h⟩

theorem isEmpty_false_of_key (e : Entry) (k : Nat) (h : e.key = some k) : e.isEmpty = false := by
  simp [Entry.isEmpty, h]

theorem findEntryLoop_spec (heap : Heap) (entries : List Entry) (n key : Nat)
    (s : Nat × Nat × List Char) (hinv : ProbeInv heap entries (2 ^ n))
    (hs : heap.string key = some s)
    (hempty : ∃ (j : Nat) (e : Entry), entries[j]? = some e ∧ e.isEmpty = true) :
    ∀ (fuel d : Nat) (tb : Option Nat), d + fuel = 2 ^ n →
      (∀ d1, d1 < d → ∃ e, entries[probeAt (2 ^ n) s.2.1 d1]? = some e ∧ e.isEmpty = false ∧
        e.key ≠ some key) →
      (∀ t, tb = some t → ∃ d0, d0 < d ∧ t = probeAt (2 ^ n) s.2.1 d0 ∧
        ∃ e, entries[t]? = some e ∧ e.key = none) →
      ∃ i, findEntryLoop entries (2 ^ n) key fuel (probeAt (2 ^ n) s.2.1 d) tb = some i ∧
        FindSpec entries (2 ^ n) key s.2.1 i := by
  have hcap : 0 < 2 ^ n := Nat.two_pow_pos n
  -- the distance of an empty bucket
  obtain ⟨j0, e0, hj0, he0⟩ := hempty
  have hj0lt : j0 < 2 ^ n := by
    have := (List.getElem?_eq_some_iff.mp hj0).1
    rw [hinv.len] at this; exact this
  obtain ⟨dE, hdE, hpE⟩ := probeAt_surj (2 ^ n) s.2.1 j0 hj0lt
  -- the key is absent once an empty bucket is met after buckets that do not hold it
  have habsent : ∀ d, d < 2 ^ n →
      (∀ d1, d1 < d → ∃ e, entries[probeAt (2 ^ n) s.2.1 d1]? = some e ∧ e.isEmpty = false ∧
        e.key ≠ some key) →
      (∃ e, entries[probeAt (2 ^ n) s.2.1 d]? = some e ∧ e.isEmpty = true) →
      ∀ j, keyAt entries j ≠ some key := by
    intro d hd hpre ⟨e, hge, hee⟩ j hj
    obtain ⟨ej, hgj, hkj⟩ := keyAt_some _ _ _ hj
    have hjlt : j < 2 ^ n := by
      have := (List.getElem?_eq_some_iff.mp hgj).1
      rw [hinv.len] at this; exact this
    obtain ⟨dj, hdj, hpj⟩ := probeAt_surj (2 ^ n) s.2.1 j hjlt
    rcases Nat.lt_trichotomy d dj with h | h | h
    · obtain ⟨e1, h1, h2⟩ := hinv.path j key s dj hj hs hdj hpj d h
      rw [hge] at h1; cases h1; rw [hee] at h2; cases h2
    · subst h
      rw [hpj, hgj] at hge; cases hge
      rw [isEmpty_false_of_key _ _ hkj] at hee; cases hee
    · obtain ⟨e1, h1, _, h3⟩ := hpre dj h
      rw [hpj, hgj] at h1; cases h1
      exact h3 hkj
  intro fuel
  induction fuel with
  | zero =>
    intro d tb hd hpre _
    exfalso
    have : dE < d := by omega
    obtain ⟨e, h1, h2, _⟩ := hpre dE this
    rw [hpE, hj0] at h1; cases h1
    rw [he0] at h2; cases h2
  | succ fuel ih =>
    intro d tb hd hpre htb
    have hdlt : d < 2 ^ n := by omega
    have hidx : probeAt (2 ^ n) s.2.1 d < entries.length := by
      rw [hinv.len]; exact probeAt_lt _ _ _ hcap
    obtain ⟨e, hge⟩ : ∃ e, entries[probeAt (2 ^ n) s.2.1 d]? = some e :=
      ⟨_, List.getElem?_eq_getElem hidx⟩
    rw [findEntryLoop]
    simp only [List.get?_eq_getElem?, hge, probeAt_next]
    cases hk : e.key with
    | none =>
      simp only
      by_cases hnil : IS_NIL e.value = true
      · simp only [hnil, if_true]
        have hee : e.isEmpty = true := by simp [Entry.isEmpty, hk, hnil]
        have habs := habsent d hdlt hpre ⟨e, hge, hee⟩
        cases tb with
        | none =>
          refine ⟨_, rfl, e, hge, Or.inr ⟨hk, habs, d, hdlt, rfl, ?_⟩⟩
          intro d1 h1
          obtain ⟨e1, h2, h3, _⟩ := hpre d1 h1
          exact ⟨e1, h2, h3⟩
        | some t =>
          obtain ⟨d0, hd0, ht, et, hget, hkt⟩ := htb t rfl
          refine ⟨_, rfl, et, hget, Or.inr ⟨hkt, habs, d0, by omega, ht.symm, ?_⟩⟩
          intro d1 h1
          obtain ⟨e1, h2, h3, _⟩ := hpre d1 (by omega)
          exact ⟨e1, h2, h3⟩
      · simp only [hnil]
        have hee : e.isEmpty = false := by simp [Entry.isEmpty, hk, hnil]
        apply ih (d + 1) _ (by omega)
        · intro d1 h1
          rcases Nat.lt_succ_iff_lt_or_eq.mp h1 with h | h
          · exact hpre d1 h
          · subst h; exact ⟨e, hge, hee, by simp [hk]⟩
        · intro t ht
          cases tb with
          | none =>
            simp only [Option.getD_none, Option.some.injEq] at ht
            exact ⟨d, by omega, ht.symm, e, by rw [← ht]; exact hge, hk⟩
          | some t0 =>
            simp only [Option.getD_some, Option.some.injEq] at ht
            obtain ⟨d0, hd0, h1, h2⟩ := htb t0 rfl
            exact ⟨d0, by omega, by rw [← ht]; exact h1, by rw [← ht]; exact h2⟩
    | some k =>
      simp only
      by_cases hkk : k = key
      · subst hkk
        simp only [beq_self_eq_true, if_true]
        exact ⟨_, rfl, e, hge, Or.inl hk⟩
      · have : (k == key) = false := by simpa using hkk
        simp only [this]
        apply ih (d + 1) _ (by omega)
        · intro d1 h1
          rcases Nat.lt_succ_iff_lt_or_eq.mp h1 with h | h
          · exact hpre d1 h
          · subst h
            exact ⟨e, hge, isEmpty_false_of_key _ _ hk, by simp [hk, hkk]⟩
        · intro t ht
          obtain ⟨d0, hd0, h1, h2⟩ := htb t ht
          exact ⟨d0, by omega, h1, h2⟩


theorem findEntry_spec (heap : Heap) (entries : List Entry) (cap key : Nat)
    (s : Nat × Nat × List Char) (hinv : ProbeInv heap entries cap)
    (hs : heap.string key = some s)
    (hempty : ∃ (j : Nat) (e : Entry), entries[j]? = some e ∧ e.isEmpty = true) :
    ∃ i, findEntry heap entries cap key = some i ∧ FindSpec entries cap key s.2.1 i := by
  obtain ⟨n, hn⟩ := hinv.pow
  subst hn
  have hcap : 2 ^ n ≠ 0 := Nat.pos_iff_ne_zero.mp (Nat.two_pow_pos n)
  have h := findEntryLoop_spec heap entries n key s hinv hs hempty (2 ^ n) 0 none (by simp)
    (by intro d1 h1; omega) (by intro t ht; cases ht)
  obtain ⟨l, hh, cs⟩ := s
  simp only [findEntry, hs, hcap, if_false]
  simpa [probeAt] using h

theorem exists_empty_of_countP_lt (entries : List Entry)
    (h : entries.countP (fun e => !e.isEmpty) < entries.length) :
    ∃ (j : Nat) (e : Entry), entries[j]? = some e ∧ e.isEmpty = true := by
  induction entries with
  | nil => simp at h
  | cons a r ih =>
    by_cases ha : a.isEmpty = true
    · exact ⟨0, a, by simp, ha⟩
    · have ha2 : a.isEmpty = false := by simpa using ha
      simp only [List.countP_cons, ha2, Bool.not_false, if_true, List.length_cons] at h
      obtain ⟨j, e, h1, h2⟩ := ih (by omega)
      exact ⟨j + 1, e, by simpa using h1, h2⟩

theorem keyAt_set (entries : List Entry) (i j : Nat) (x : Entry) (hi : i < entries.length) :
    keyAt (entries.set i x) j = if j = i then x.key else keyAt entries j := by
  unfold keyAt
  by_cases h : j = i
  · subst h; simp [List.getElem?_set, hi]
  · simp [List.getElem?_set, h, Ne.symm h]

theorem getElem?_set_isEmpty (entries : List Entry) (i j key v : Nat) (e1 : Entry)
    (h1 : entries[j]? = some e1) (h2 : e1.isEmpty = false) :
    ∃ e, (entries.set i ⟨some key, v⟩)[j]? = some e ∧ e.isEmpty = false := by
  by_cases h : i = j
  · subst h
    have hlt := (List.getElem?_eq_some_iff.mp h1).1
    exact ⟨⟨some key, v⟩, by simp [List.getElem?_set, hlt], rfl⟩
  · exact ⟨e1, by simp [List.getElem?_set, h, h1], h2⟩

theorem ProbeInv_set (heap : Heap) (entries : List Entry) (cap key v i : Nat)
    (s : Nat × Nat × List Char) (hinv : ProbeInv heap entries cap)
    (hs : heap.string key = some s) (hf : FindSpec entries cap key s.2.1 i) :
    ProbeInv heap (entries.set i ⟨some key, v⟩) cap := by
  obtain ⟨e, hge, hcase⟩ := hf
  have hi : i < entries.length := (List.getElem?_eq_some_iff.mp hge).1
  have hkey_i : ∀ j, keyAt entries j = some key → j = i := by
    intro j hj
    rcases hcase with h | ⟨_, habs, _⟩
    · exact hinv.nodup j i key hj (by rw [keyAt_eq _ _ _ hge, h])
    · exact absurd hj (habs j)
  constructor
  · simp [hinv.len]
  · exact hinv.pow
  · intro j k hk
    rw [keyAt_set _ _ _ _ hi] at hk
    split at hk
    · simp only [Option.some.injEq] at hk; subst hk; exact ⟨s, hs⟩
    · exact hinv.strings j k hk
  · intro j1 j2 k h1 h2
    rw [keyAt_set _ _ _ _ hi] at h1 h2
    split at h1 <;> split at h2
    · omega
    · simp only [Option.some.injEq] at h1; subst h1
      have := hkey_i j2 h2; omega
    · simp only [Option.some.injEq] at h2; subst h2
      have := hkey_i j1 h1; omega
    · exact hinv.nodup j1 j2 k h1 h2
  · intro j k s1 d hk hs1 hd hp d1 hd1
    rw [keyAt_set _ _ _ _ hi] at hk
    split at hk
    · rename_i hji
      simp only [Option.some.injEq] at hk; subst hk
      rw [hs] at hs1; cases hs1
      rcases hcase with h | ⟨_, _, di, hdi, hpi, hpath⟩
      · obtain ⟨e1, h1, h2⟩ := hinv.path i key s d (by rw [keyAt_eq _ _ _ hge, h]) hs hd
          (by rw [hp, hji]) d1 hd1
        exact getElem?_set_isEmpty _ _ _ _ _ _ h1 h2
      · have : d = di := probeAt_inj cap s.2.1 d di hd hdi (by rw [hp, hpi, hji])
        subst this
        obtain ⟨e1, h1, h2⟩ := hpath d1 hd1
        exact getElem?_set_isEmpty _ _ _ _ _ _ h1 h2
    · obtain ⟨e1, h1, h2⟩ := hinv.path j k s1 d hk hs1 hd hp d1 hd1
      exact getElem?_set_isEmpty _ _ _ _ _ _ h1 h2

theorem countP_set (entries : List Entry) (i : Nat) (x e : Entry) (p : Entry → Bool)
    (hge : entries[i]? = some e) :
    (entries.set i x).countP p + (if p e then 1 else 0) =
      entries.countP p + (if p x then 1 else 0) := by
  induction entries generalizing i with
  | nil => simp at hge
  | cons a r ih =>
    cases i with
    | zero =>
      simp only [List.getElem?_cons_zero, Option.some.injEq] at hge
      subst hge
      simp only [List.set_cons_zero, List.countP_cons]
      omega
    | succ i =>
      simp only [List.getElem?_cons_succ] at hge
      have := ih i hge
      simp only [List.set_cons_succ, List.countP_cons]
      omega


theorem Live_iff_keyAt (entries : List Entry) (k : Nat) :
    (∃ v, Live entries k v) ↔ ∃ j, keyAt entries j = some k := by
  constructor
  · rintro ⟨v, j, h⟩; exact ⟨j, by simp [keyAt, h]⟩
  · rintro ⟨j, h⟩
    obtain ⟨e, h1, h2⟩ := keyAt_some _ _ _ h
    obtain ⟨ek, ev⟩ := e
    simp only at h2; subst h2
    exact ⟨ev, j, h1⟩

theorem hasKey_of_Live (t : Table) (k v : Nat) (h : Live t.entries k v) : t.hasKey k :=
  (Live_iff_keyAt t.entries k).mp ⟨v, h⟩

theorem Live_set (heap : Heap) (entries : List Entry) (cap key v i h : Nat)
    (hinv : ProbeInv heap entries cap) (hf : FindSpec entries cap key h i) (k v1 : Nat) :
    Live (entries.set i ⟨some key, v⟩) k v1 ↔ (k = key ∧ v1 = v) ∨ (k ≠ key ∧ Live entries k v1) := by
  obtain ⟨e, hge, hcase⟩ := hf
  have hi : i < entries.length := (List.getElem?_eq_some_iff.mp hge).1
  have hkey_i : ∀ j, keyAt entries j = some key → j = i := by
    intro j hj
    rcases hcase with h | ⟨_, habs, _⟩
    · exact hinv.nodup j i key hj (by rw [keyAt_eq _ _ _ hge, h])
    · exact absurd hj (habs j)
  constructor
  · rintro ⟨j, hj⟩
    by_cases hji : i = j
    · subst hji
      simp only [List.getElem?_set, hi, if_true, Option.some.injEq, Entry.mk.injEq] at hj
      exact Or.inl ⟨hj.1.symm, hj.2.symm⟩
    · simp only [List.getElem?_set, hji, if_false] at hj
      refine Or.inr ⟨?_, j, hj⟩
      rintro rfl
      exact hji (hkey_i j (by simp [keyAt, hj])).symm
  · rintro (⟨rfl, rfl⟩ | ⟨hne, j, hj⟩)
    · exact ⟨i, by simp [List.getElem?_set, hi]⟩
    · have hji : i ≠ j := by
        rintro rfl
        rw [hge] at hj; cases hj
        rcases hcase with h | ⟨h, _⟩
        · simp only [Option.some.injEq] at h; exact hne h
        · cases h
      exact ⟨j, by simp [List.getElem?_set, hji, hj]⟩

theorem adjustCapacityLoop_spec (heap : Heap) (cap : Nat) :
    ∀ (rest new : List Entry) (count : Nat), ProbeInv heap new cap → NoTombstone new →
      new.countP (fun e => !e.isEmpty) = count → count + rest.length < cap →
      (∀ e ∈ rest, ∀ k, e.key = some k → ∃ s, heap.string k = some s) →
      (∀ e ∈ rest, ∀ k, e.key = some k → ∀ j, keyAt new j ≠ some k) →
      rest.Pairwise (fun a b => ∀ k, a.key = some k → b.key ≠ some k) →
      ∃ new1 count1, adjustCapacityLoop heap cap rest new count = some (new1, count1) ∧
        ProbeInv heap new1 cap ∧ NoTombstone new1 ∧
        new1.countP (fun e => !e.isEmpty) = count1 ∧
        count1 = count + rest.countP (fun e => e.key.isSome) ∧
        ∀ k v, Live new1 k v ↔ (Live new k v ∨ (⟨some k, v⟩ : Entry) ∈ rest) := by
  intro rest
  induction rest with
  | nil =>
    intro new count hinv hnt hc _ _ _ _
    exact ⟨new, count, rfl, hinv, hnt, hc, by simp, by simp⟩
  | cons a r ih =>
    intro new count hinv hnt hc hroom hstr hnew hnd
    have hr_str : ∀ e ∈ r, ∀ k, e.key = some k → ∃ s, heap.string k = some s :=
      fun e he => hstr e (List.mem_cons_of_mem _ he)
    have hnd2 := (List.pairwise_cons.mp hnd)
    simp only [List.length_cons] at hroom
    cases hk : a.key with
    | none =>
      obtain ⟨new1, count1, h1, h2, h3, h4, h5, h6⟩ := ih new count hinv hnt hc (by omega) hr_str
        (fun e he => hnew e (List.mem_cons_of_mem _ he)) hnd2.2
      refine ⟨new1, count1, ?_, h2, h3, h4, ?_, ?_⟩
      · rw [adjustCapacityLoop]; simp only [hk]; exact h1
      · simp [List.countP_cons, hk, h5]
      · intro k v
        rw [h6 k v]
        constructor
        · rintro (h | h)
          · exact Or.inl h
          · exact Or.inr (List.mem_cons_of_mem _ h)
        · rintro (h | h)
          · exact Or.inl h
          · rcases List.mem_cons.mp h with h | h
            · rw [← h] at hk; cases hk
            · exact Or.inr h
    | some k =>
      obtain ⟨s, hs⟩ := hstr a (List.mem_cons_self _ _) k hk
      have hlen := hinv.len
      obtain ⟨i, hfi, hspec⟩ := findEntry_spec heap new cap k s hinv hs
        (exists_empty_of_countP_lt new (by rw [hc, hlen]; omega))
      have habs := hnew a (List.mem_cons_self _ _) k hk
      obtain ⟨e, hge, hcase⟩ := id hspec
      have hek : e.key = none := by
        rcases hcase with h | ⟨h, _⟩
        · exact absurd (by rw [keyAt_eq _ _ _ hge, h]) (habs i)
        · exact h
      have hee : e.isEmpty = true := hnt i e hge hek
      have hi : i < new.length := (List.getElem?_eq_some_iff.mp hge).1
      have hinv2 := ProbeInv_set heap new cap k a.value i s hinv hs hspec
      have hnt2 : NoTombstone (new.set i ⟨some k, a.value⟩) := by
        intro j e1 h1 h2
        by_cases hji : i = j
        · subst hji
          simp only [List.getElem?_set, hi, if_true, Option.some.injEq] at h1
          rw [← h1] at h2; cases h2
        · simp only [List.getElem?_set, hji, if_false] at h1
          exact hnt j e1 h1 h2
      have hc2 : (new.set i ⟨some k, a.value⟩).countP (fun e => !e.isEmpty) = count + 1 := by
        have := countP_set new i ⟨some k, a.value⟩ e (fun e => !e.isEmpty) hge
        simp only [hee, Bool.not_true, Bool.false_eq_true, if_false, Nat.add_zero] at this
        rw [this, hc]; rfl
      have hnew2 : ∀ e ∈ r, ∀ k1, e.key = some k1 → ∀ j, keyAt (new.set i ⟨some k, a.value⟩) j ≠ some k1 := by
        intro e1 he1 k1 hk1 j
        rw [keyAt_set _ _ _ _ hi]
        split
        · simp only [ne_eq, Option.some.injEq]
          rintro rfl
          exact hnd2.1 e1 he1 k hk hk1
        · exact hnew e1 (List.mem_cons_of_mem _ he1) k1 hk1 j
      obtain ⟨new1, count1, h1, h2, h3, h4, h5, h6⟩ := ih _ (count + 1) hinv2 hnt2 hc2 (by omega)
        hr_str hnew2 hnd2.2
      refine ⟨new1, count1, ?_, h2, h3, h4, ?_, ?_⟩
      · rw [adjustCapacityLoop]; simp only [hk, hfi]; exact h1
      · simp [List.countP_cons, hk, h5]; omega
      · intro k1 v1
        rw [h6 k1 v1, Live_set heap new cap k a.value i s.2.1 hinv hspec k1 v1]
        have ha : a = ⟨some k, a.value⟩ := by
          obtain ⟨ak, av⟩ := a; simp only at hk; subst hk; rfl
        constructor
        · rintro ((⟨rfl, rfl⟩ | ⟨_, h⟩) | h)
          · exact Or.inr (by rw [← ha]; exact List.mem_cons_self _ _)
          · exact Or.inl h
          · exact Or.inr (List.mem_cons_of_mem _ h)
        · rintro (h | h)
          · by_cases hkk : k1 = k
            · subst hkk
              obtain ⟨j, hj⟩ := h
              exact absurd (by simp [keyAt, hj]) (habs j)
            · exact Or.inl (Or.inr ⟨hkk, h⟩)
          · rcases List.mem_cons.mp h with h | h
            · rw [ha] at h
              simp only [Entry.mk.injEq, Option.some.injEq] at h
              exact Or.inl (Or.inl h)
            · exact Or.inr h


theorem GROW_CAPACITY_pow (cap : Nat) (h : cap = 0 ∨ (8 ≤ cap ∧ ∃ n, cap = 2 ^ n)) :
    (∃ n, GROW_CAPACITY cap = 2 ^ n) ∧ 8 ≤ GROW_CAPACITY cap ∧ cap < GROW_CAPACITY cap ∧
      (GROW_CAPACITY cap = 8 ∨ GROW_CAPACITY cap = 2 * cap) := by
  unfold GROW_CAPACITY CAPACITY_MIN CAPACITY_GROW_RATE
  rcases h with h | ⟨h8, n, hn⟩
  · subst h; exact ⟨⟨3, by decide⟩, by decide, by decide, Or.inl (by decide)⟩
  · have : ¬ cap < 8 := by omega
    simp only [this, if_false]
    exact ⟨⟨n + 1, by rw [hn, Nat.pow_succ]⟩, by omega, by omega, Or.inr (by omega)⟩

theorem ProbeInv_replicate (heap : Heap) (cap : Nat) (hp : ∃ n, cap = 2 ^ n) :
    ProbeInv heap (List.replicate cap ⟨none, NIL_VAL⟩) cap := by
  have hk : ∀ j, keyAt (List.replicate cap (⟨none, NIL_VAL⟩ : Entry)) j = none := by
    intro j
    simp only [keyAt, List.getElem?_replicate]
    split <;> rfl
  constructor
  · simp
  · exact hp
  · intro i k h; rw [hk] at h; cases h
  · intro i j k h; rw [hk] at h; cases h
  · intro i k s d h; rw [hk] at h; cases h

theorem TableInv.pow_cases (heap : Heap) (t : Table) (hinv : TableInv heap t) :
    t.capacity = 0 ∨ (8 ≤ t.capacity ∧ ∃ n, t.capacity = 2 ^ n) := by
  by_cases h : t.capacity = 0
  · exact Or.inl h
  · have := hinv.probe (Nat.pos_of_ne_zero h)
    exact Or.inr ⟨this.2, this.1.pow⟩

theorem TableInv.length_eq (heap : Heap) (t : Table) (hinv : TableInv heap t) :
    t.entries.length = t.capacity := by
  by_cases h : t.capacity = 0
  · rw [(hinv.zero h).1, h]; rfl
  · exact (hinv.probe (Nat.pos_of_ne_zero h)).1.len

theorem adjustCapacity_spec (heap : Heap) (t : Table) (hinv : TableInv heap t) :
    ∃ t1, adjustCapacity heap t (GROW_CAPACITY t.capacity) = some t1 ∧
      t1.capacity = GROW_CAPACITY t.capacity ∧ ProbeInv heap t1.entries t1.capacity ∧
      NoTombstone t1.entries ∧ t1.count = t1.entries.countP (fun e => !e.isEmpty) ∧
      t1.count ≤ t.count ∧ ∀ k v, Live t1.entries k v ↔ Live t.entries k v := by
  have hg := GROW_CAPACITY_pow t.capacity (hinv.pow_cases heap t)
  have hlen := hinv.length_eq heap t
  have htake : t.entries.take t.capacity = t.entries := by
    rw [← hlen]; exact List.take_length _
  have hstr : ∀ e ∈ t.entries, ∀ k, e.key = some k → ∃ s, heap.string k = some s := by
    intro e he k hk
    obtain ⟨j, hj⟩ := List.mem_iff_getElem?.mp he
    have hpos : 0 < t.capacity := by
      have := (List.getElem?_eq_some_iff.mp hj).1; omega
    exact (hinv.probe hpos).1.strings j k (by rw [keyAt_eq _ _ _ hj, hk])
  have hnd : t.entries.Pairwise (fun a b => ∀ k, a.key = some k → b.key ≠ some k) := by
    rw [List.pairwise_iff_getElem]
    intro i j hi hj hij k hki hkj
    have hpos : 0 < t.capacity := by omega
    have := (hinv.probe hpos).1.nodup i j k
      (by rw [keyAt_eq _ _ _ (List.getElem?_eq_getElem hi), hki])
      (by rw [keyAt_eq _ _ _ (List.getElem?_eq_getElem hj), hkj])
    omega
  have hk0 : ∀ j, keyAt (List.replicate (GROW_CAPACITY t.capacity) (⟨none, NIL_VAL⟩ : Entry)) j = none := by
    intro j
    simp only [keyAt, List.getElem?_replicate]
    split <;> rfl
  obtain ⟨new1, count1, h1, h2, h3, h4, h5, h6⟩ :=
    adjustCapacityLoop_spec heap (GROW_CAPACITY t.capacity) t.entries
      (List.replicate (GROW_CAPACITY t.capacity) ⟨none, NIL_VAL⟩) 0
      (ProbeInv_replicate heap _ hg.1)
      (by
        intro j e hj _
        rw [List.getElem?_replicate] at hj
        split at hj
        · cases hj; rfl
        · cases hj)
      (by
        rw [List.countP_replicate]
        simp [Entry.isEmpty, IS_NIL])
      (by omega) hstr
      (by intro e _ k _ j; rw [hk0]; simp)
      hnd
  refine ⟨⟨count1, GROW_CAPACITY t.capacity, new1⟩, ?_, rfl, h2, h3, h4.symm, ?_, ?_⟩
  · simp only [adjustCapacity, htake, h1, Option.map_some']
  · simp only
    rw [h5, hinv.count_eq, Nat.zero_add]
    apply List.countP_mono_left
    intro e _ he
    cases hk : e.key with
    | none => simp [hk] at he
    | some k => simp [Entry.isEmpty, hk]
  · intro k v
    simp only
    rw [h6 k v]
    constructor
    · rintro (⟨j, hj⟩ | h)
      · rw [List.getElem?_replicate] at hj
        split at hj <;> cases hj
      · exact List.mem_iff_getElem?.mp h
    · intro h
      exact Or.inr (List.mem_iff_getElem?.mpr h)


theorem tableSet_spec (heap : Heap) (t : Table) (key v : Nat) (s : Nat × Nat × List Char)
    (hinv : TableInv heap t) (hs : heap.string key = some s) :
    ∃ b t1, tableSet heap t key v = some (b, t1) ∧ TableInv heap t1 ∧
      (∀ k v1, Live t1.entries k v1 ↔ (k = key ∧ v1 = v) ∨ (k ≠ key ∧ Live t.entries k v1)) ∧
      (b = true ↔ ∀ j, keyAt t.entries j ≠ some key) := by
  -- the table after the growth test
  obtain ⟨t0, ht0, hp0, hc0, hl0, h80, hlive0⟩ : ∃ t0,
      (if 4 * (t.count + 1) > 3 * t.capacity
        then adjustCapacity heap t (GROW_CAPACITY t.capacity) else some t) = some t0 ∧
      ProbeInv heap t0.entries t0.capacity ∧
      t0.count = t0.entries.countP (fun e => !e.isEmpty) ∧
      4 * (t0.count + 1) ≤ 3 * t0.capacity ∧ 8 ≤ t0.capacity ∧
      ∀ k v, Live t0.entries k v ↔ Live t.entries k v := by
    by_cases hg : 4 * (t.count + 1) > 3 * t.capacity
    · obtain ⟨t1, h1, h2, h3, _, h5, h6, h7⟩ := adjustCapacity_spec heap t hinv
      have hgp := GROW_CAPACITY_pow t.capacity (hinv.pow_cases heap t)
      have hload := hinv.load
      refine ⟨t1, by simp only [hg, if_true, h1], h3, h5, ?_, by omega, h7⟩
      rcases hinv.pow_cases heap t with hz | ⟨h8, _⟩
      · have := (hinv.zero hz).2
        omega
      · omega
    · have hpos : 0 < t.capacity := by omega
      have := hinv.probe hpos
      exact ⟨t, by simp only [hg, if_false], this.1, hinv.count_eq, by omega, this.2,
        fun _ _ => Iff.rfl⟩
  have hlen := hp0.len
  obtain ⟨i, hfi, hspec⟩ := findEntry_spec heap t0.entries t0.capacity key s hp0 hs
    (exists_empty_of_countP_lt _ (by rw [← hc0, hlen]; omega))
  obtain ⟨e, hge, hcase⟩ := id hspec
  have hkeys : ∀ k, (∃ j, keyAt t0.entries j = some k) ↔ ∃ j, keyAt t.entries j = some k := by
    intro k
    rw [← Live_iff_keyAt, ← Live_iff_keyAt]
    exact exists_congr fun v => hlive0 k v
  refine ⟨e.key.isNone,
    { t0 with
      count := if e.key.isNone && IS_NIL e.value then t0.count + 1 else t0.count,
      entries := t0.entries.set i { key := some key, value := v } }, ?_, ?_, ?_, ?_⟩
  · simp only [tableSet, ht0, Option.some_bind, hfi, List.get?_eq_getElem?, hge, Option.map_some']
  · constructor
    · intro hz; simp only at hz; omega
    · intro _
      exact ⟨ProbeInv_set heap t0.entries t0.capacity key v i s hp0 hs hspec, h80⟩
    · have := countP_set t0.entries i ⟨some key, v⟩ e (fun e => !e.isEmpty) hge
      have hx : (⟨some key, v⟩ : Entry).isEmpty = false := rfl
      simp only [hx, Bool.not_false, if_true] at this
      show (if e.isEmpty then t0.count + 1 else t0.count) = _
      cases hemp : e.isEmpty
      · simp only [hemp, Bool.not_false, if_true, Bool.false_eq_true, if_false] at this ⊢
        omega
      · simp only [hemp, Bool.not_true, Bool.false_eq_true, if_false, if_true] at this ⊢
        omega
    · simp only
      split <;> omega
  · intro k v1
    simp only
    rw [Live_set heap t0.entries t0.capacity key v i s.2.1 hp0 hspec k v1, hlive0]
  · rcases hcase with h | ⟨h, habs, _⟩
    · simp only [h, Option.isNone_some, Bool.false_eq_true, false_iff, not_forall, not_not]
      exact (hkeys key).mp ⟨i, by rw [keyAt_eq _ _ _ hge, h]⟩
    · simp only [h, Option.isNone_none, true_iff]
      intro j hj
      obtain ⟨j0, hj0⟩ := (hkeys key).mpr ⟨j, hj⟩
      exact habs j0 hj0


theorem getElem?_set_tombstone (entries : List Entry) (i j : Nat) (e1 : Entry)
    (h1 : entries[j]? = some e1) (h2 : e1.isEmpty = false) :
    ∃ e, (entries.set i ⟨none, BOOL_VAL true⟩)[j]? = some e ∧ e.isEmpty = false := by
  by_cases h : i = j
  · subst h
    have hlt := (List.getElem?_eq_some_iff.mp h1).1
    exact ⟨⟨none, BOOL_VAL true⟩, by simp [List.getElem?_set, hlt], by decide⟩
  · exact ⟨e1, by simp [List.getElem?_set, h, h1], h2⟩

theorem ProbeInv_delete (heap : Heap) (entries : List Entry) (cap i : Nat)
    (hinv : ProbeInv heap entries cap) (hi : i < entries.length) :
    ProbeInv heap (entries.set i ⟨none, BOOL_VAL true⟩) cap := by
  have hk : ∀ j k, keyAt (entries.set i ⟨none, BOOL_VAL true⟩) j = some k →
      keyAt entries j = some k := by
    intro j k h
    rw [keyAt_set _ _ _ _ hi] at h
    split at h
    · cases h
    · exact h
  constructor
  · simp [hinv.len]
  · exact hinv.pow
  · intro j k h; exact hinv.strings j k (hk j k h)
  · intro j1 j2 k h1 h2; exact hinv.nodup j1 j2 k (hk _ _ h1) (hk _ _ h2)
  · intro j k s d h hs hd hp d1 hd1
    obtain ⟨e1, h1, h2⟩ := hinv.path j k s d (hk _ _ h) hs hd hp d1 hd1
    exact getElem?_set_tombstone _ _ _ _ h1 h2

theorem tableDelete_spec (heap : Heap) (t : Table) (key : Nat) (s : Nat × Nat × List Char)
    (hinv : TableInv heap t) (hs : heap.string key = some s) :
    ∃ b t1, tableDelete heap t key = some (b, t1) ∧ TableInv heap t1 ∧
      (∀ k v, Live t1.entries k v ↔ (k ≠ key ∧ Live t.entries k v)) ∧
      (b = true ↔ t.hasKey key) := by
  unfold tableDelete
  by_cases hc : t.count = 0
  · simp only [hc, if_true]
    have hnone : ∀ k, ¬ t.hasKey k := by
      rintro k ⟨j, hj⟩
      obtain ⟨e, hge, hk⟩ := keyAt_some _ _ _ hj
      have h1 := hinv.count_eq
      rw [hc] at h1
      have h2 : 0 < t.entries.countP (fun e => !e.isEmpty) :=
        List.countP_pos_iff.mpr ⟨e, List.mem_iff_getElem?.mpr ⟨j, hge⟩, by
          simp [isEmpty_false_of_key _ _ hk]⟩
      omega
    refine ⟨false, t, rfl, hinv, ?_, by simpa using hnone key⟩
    intro k v
    constructor
    · intro h
      refine ⟨?_, h⟩
      rintro rfl
      exact hnone k ((hasKey_of_Live t k v) h)
    · exact fun h => h.2
  · simp only [hc, if_false]
    have hload := hinv.load
    have hpos : 0 < t.capacity := by omega
    have hp := (hinv.probe hpos).1
    obtain ⟨i, hfi, hspec⟩ := findEntry_spec heap t.entries t.capacity key s hp hs
      (exists_empty_of_countP_lt _ (by rw [← hinv.count_eq, hp.len]; omega))
    obtain ⟨e, hge, hcase⟩ := id hspec
    have hi : i < t.entries.length := (List.getElem?_eq_some_iff.mp hge).1
    simp only [hfi, Option.some_bind, List.get?_eq_getElem?, hge, Option.map_some']
    rcases hcase with hk | ⟨hk, habs, _⟩
    · simp only [hk]
      refine ⟨true, _, rfl, ?_, ?_, by simpa using ⟨i, by rw [keyAt_eq _ _ _ hge, hk]⟩⟩
      · constructor
        · intro hz; simp only at hz; omega
        · intro _; exact ⟨ProbeInv_delete heap t.entries t.capacity i hp hi, (hinv.probe hpos).2⟩
        · simp only
          have := countP_set t.entries i ⟨none, BOOL_VAL true⟩ e (fun e => !e.isEmpty) hge
          have hx : (⟨none, BOOL_VAL true⟩ : Entry).isEmpty = false := by decide
          simp only [hx, isEmpty_false_of_key _ _ hk, Bool.not_false, if_true] at this
          rw [hinv.count_eq]; omega
        · exact hinv.load
      · intro k v
        simp only
        constructor
        · rintro ⟨j, hj⟩
          by_cases hji : i = j
          · subst hji
            simp [List.getElem?_set, hi] at hj
          · simp only [List.getElem?_set, hji, if_false] at hj
            refine ⟨?_, j, hj⟩
            rintro rfl
            exact hji (hp.nodup i j k (by rw [keyAt_eq _ _ _ hge, hk]) (by simp [keyAt, hj]))
        · rintro ⟨hne, j, hj⟩
          have hji : i ≠ j := by
            rintro rfl
            rw [hge] at hj; cases hj
            simp only [Option.some.injEq] at hk
            exact hne hk
          exact ⟨j, by simp [List.getElem?_set, hji, hj]⟩
    · simp only [hk]
      refine ⟨false, t, rfl, hinv, ?_, ?_⟩
      · intro k v
        constructor
        · intro h
          refine ⟨?_, h⟩
          rintro rfl
          obtain ⟨j, hj⟩ := (hasKey_of_Live t k v) h
          exact habs j hj
        · exact fun h => h.2
      · simp only [Bool.false_eq_true, false_iff]
        rintro ⟨j, hj⟩
        exact habs j hj

end Loxj

/-! # String interning (C7) -/

namespace Loxj

theorem tableFindStringLoop_spec (heap : Heap) (t : Table) (n : Nat) (chars : List Char)
    (length : Nat) (hcap : t.capacity = 2 ^ n) (hinv : InternInv heap t)
    (hlen : length ≤ chars.length) :
    ∀ (fuel d : Nat), d + fuel = 2 ^ n →
      (∀ d1, d1 < d → ∃ e, t.entries[probeAt (2 ^ n) (hashString (chars.take length)) d1]? = some e ∧
        e.isEmpty = false ∧
        ∀ k s, e.key = some k → heap.string k = some s → s.2.2 ≠ chars.take length) →
      ∃ r, tableFindStringLoop heap t chars length (hashString (chars.take length)) fuel
          (probeAt (2 ^ n) (hashString (chars.take length)) d) = some r ∧
        match r with
        | some k => t.hasKey k ∧
            heap.string k = some (length, hashString (chars.take length), chars.take length)
        | none => ∀ k s, t.hasKey k → heap.string k = some s → s.2.2 ≠ chars.take length := by
  have hpos : 0 < t.capacity := by rw [hcap]; exact Nat.two_pow_pos n
  have hp := (hinv.table.probe hpos).1
  rw [hcap] at hp
  have hload := hinv.table.load
  have hce := hinv.table.count_eq
  obtain ⟨j0, e0, hj0, he0⟩ := exists_empty_of_countP_lt t.entries
    (by rw [← hce, hp.len, ← hcap]; omega)
  have hj0lt : j0 < 2 ^ n := by
    have := (List.getElem?_eq_some_iff.mp hj0).1
    rw [hp.len] at this; exact this
  obtain ⟨dE, hdE, hpE⟩ := probeAt_surj (2 ^ n) (hashString (chars.take length)) j0 hj0lt
  have htl : (chars.take length).length = length := by simp [hlen]
  intro fuel
  induction fuel with
  | zero =>
    intro d hd hpre
    exfalso
    obtain ⟨e, h1, h2, _⟩ := hpre dE (by omega)
    rw [hpE, hj0] at h1; cases h1
    rw [he0] at h2; cases h2
  | succ fuel ih =>
    intro d hd hpre
    have hdlt : d < 2 ^ n := by omega
    have hidx : probeAt (2 ^ n) (hashString (chars.take length)) d < t.entries.length := by
      rw [hp.len]; exact probeAt_lt _ _ _ (Nat.two_pow_pos n)
    obtain ⟨e, hge⟩ : ∃ e, t.entries[probeAt (2 ^ n) (hashString (chars.take length)) d]? = some e :=
      ⟨_, List.getElem?_eq_getElem hidx⟩
    rw [tableFindStringLoop]
    simp only [List.get?_eq_getElem?, hge, hcap, probeAt_next]
    cases hk : e.key with
    | none =>
      simp only
      by_cases hnil : IS_NIL e.value = true
      · simp only [hnil, if_true]
        refine ⟨none, rfl, ?_⟩
        intro k s ⟨j, hj⟩ hs heq
        obtain ⟨ej, hgj, hkj⟩ := keyAt_some _ _ _ hj
        have hjlt : j < 2 ^ n := by
          have := (List.getElem?_eq_some_iff.mp hgj).1
          rw [hp.len] at this; exact this
        have hch := (hinv.cached k s ⟨j, hj⟩ hs).2
        rw [heq] at hch
        obtain ⟨dj, hdj, hpj⟩ := probeAt_surj (2 ^ n) (hashString (chars.take length)) j hjlt
        rcases Nat.lt_trichotomy d dj with h | h | h
        · obtain ⟨e1, h1, h2⟩ := hp.path j k s dj hj hs hdj (by rw [hch]; exact hpj) d h
          rw [hch, hge] at h1; cases h1
          simp [Entry.isEmpty, hk, hnil] at h2
        · subst h
          rw [hpj, hgj] at hge; cases hge
          rw [hk] at hkj; cases hkj
        · obtain ⟨e1, h1, _, h3⟩ := hpre dj h
          rw [hpj, hgj] at h1; cases h1
          exact h3 k s hkj hs heq
      · simp only [hnil]
        apply ih (d + 1) (by omega)
        intro d1 h1
        rcases Nat.lt_succ_iff_lt_or_eq.mp h1 with h | h
        · exact hpre d1 h
        · subst h
          exact ⟨e, hge, by simp [Entry.isEmpty, hk, hnil], by intro k s h; rw [hk] at h; cases h⟩
    | some k =>
      simp only
      have hkey : keyAt t.entries (probeAt (2 ^ n) (hashString (chars.take length)) d) = some k := by
        rw [keyAt_eq _ _ _ hge, hk]
      obtain ⟨s, hs⟩ := hp.strings _ k hkey
      obtain ⟨kl, kh, kc⟩ := s
      have hch := hinv.cached k _ ⟨_, hkey⟩ hs
      simp only at hch
      simp only [hs]
      by_cases hm : (kl == length && kh == hashString (chars.take length) &&
          kc.take length == chars.take length) = true
      · simp only [hm, if_true]
        refine ⟨some k, rfl, ⟨_, hkey⟩, ?_⟩
        simp only [Bool.and_eq_true, beq_iff_eq] at hm
        obtain ⟨⟨h1, h2⟩, h3⟩ := hm
        have : kc.take length = kc := by rw [← h1, hch.1]; exact List.take_length _
        rw [this] at h3
        rw [hs, h1, h2, h3]
      · simp only [hm]
        apply ih (d + 1) (by omega)
        intro d1 h1
        rcases Nat.lt_succ_iff_lt_or_eq.mp h1 with h | h
        · exact hpre d1 h
        · subst h
          refine ⟨e, hge, isEmpty_false_of_key _ _ hk, ?_⟩
          intro k1 s1 hk1 hs1 heq
          rw [hk] at hk1; cases hk1
          rw [hs] at hs1; cases hs1
          simp only at heq
          apply hm
          subst heq
          simp only [Bool.and_eq_true, beq_iff_eq]
          refine ⟨⟨?_, hch.2⟩, ?_⟩
          · rw [hch.1]; exact htl
          · simp [List.take_take]

theorem tableFindString_spec (heap : Heap) (t : Table) (chars : List Char) (length : Nat)
    (hinv : InternInv heap t) (hlen : length ≤ chars.length) :
    ∃ r, tableFindString heap t chars length (hashString (chars.take length)) = some r ∧
      match r with
      | some k => t.hasKey k ∧
          heap.string k = some (length, hashString (chars.take length), chars.take length)
      | none => ∀ k s, t.hasKey k → heap.string k = some s → s.2.2 ≠ chars.take length := by
  unfold tableFindString
  by_cases hc : t.count = 0
  · simp only [hc, if_true]
    refine ⟨none, rfl, ?_⟩
    intro k s ⟨j, hj⟩ _ _
    obtain ⟨e, hge, hk⟩ := keyAt_some _ _ _ hj
    have h1 := hinv.table.count_eq
    rw [hc] at h1
    have h2 : 0 < t.entries.countP (fun e => !e.isEmpty) :=
      List.countP_pos_iff.mpr ⟨e, List.mem_iff_getElem?.mpr ⟨j, hge⟩, by
        simp [isEmpty_false_of_key _ _ hk]⟩
    omega
  · simp only [hc, if_false]
    have hpos : 0 < t.capacity := by
      have := hinv.table.load; omega
    obtain ⟨n, hn⟩ := (hinv.table.probe hpos).1.pow
    have h := tableFindStringLoop_spec heap t n chars length hn hinv hlen (2 ^ n) 0 (by simp)
      (by intro d1 h1; omega)
    rw [hn, Nat.and_pow_two_sub_one_eq_mod]
    simpa [probeAt] using h

theorem Heap.string_append_lt (heap : Heap) (c : Option HeapCell) (p : Nat)
    (s : Nat × Nat × List Char) (h : Heap.string heap p = some s) :
    Heap.string (heap ++ [c]) p = some s := by
  have hlt : p < heap.length := by
    by_contra hn
    have : Heap.get heap p = none := by
      simp [Heap.get, List.getD_eq_getElem?_getD, List.getElem?_eq_none (Nat.not_lt.mp hn)]
    simp [Heap.string, this] at h
  unfold Heap.string at h ⊢
  rw [Heap.get_append_lt _ _ _ hlt]
  exact h

theorem ProbeInv_heap_append (heap : Heap) (c : Option HeapCell) (entries : List Entry) (cap : Nat)
    (h : ProbeInv heap entries cap) : ProbeInv (heap ++ [c]) entries cap := by
  constructor
  · exact h.len
  · exact h.pow
  · intro i k hk
    obtain ⟨s, hs⟩ := h.strings i k hk
    exact ⟨s, Heap.string_append_lt _ _ _ _ hs⟩
  · exact h.nodup
  · intro i k s d hk hs hd hp
    obtain ⟨s0, hs0⟩ := h.strings i k hk
    have := Heap.string_append_lt heap c k s0 hs0
    have e : s0 = s := by rw [this] at hs; exact Option.some.inj hs
    subst e
    exact h.path i k s0 d hk hs0 hd hp

theorem TableInv_heap_append (heap : Heap) (c : Option HeapCell) (t : Table)
    (h : TableInv heap t) : TableInv (heap ++ [c]) t :=
  ⟨h.zero, fun hp => ⟨ProbeInv_heap_append _ _ _ _ (h.probe hp).1, (h.probe hp).2⟩,
    h.count_eq, h.load⟩

theorem hasKey_iff_Live (t : Table) (k : Nat) : t.hasKey k ↔ ∃ v, Live t.entries k v :=
  (Live_iff_keyAt t.entries k).symm


theorem TableInv.hasKey_string (heap : Heap) (t : Table) (h : TableInv heap t) (k : Nat)
    (hk : t.hasKey k) : ∃ s, heap.string k = some s := by
  obtain ⟨j, hj⟩ := hk
  obtain ⟨e, hge, _⟩ := keyAt_some _ _ _ hj
  have hpos : 0 < t.capacity := by
    have := (List.getElem?_eq_some_iff.mp hge).1
    rw [h.length_eq heap t] at this; omega
  exact (h.probe hpos).1.strings j k hj

theorem Heap.string_append_new (heap : Heap) (length hash : Nat) (chars : List Char) :
    Heap.string (heap ++ [some ⟨false, .OBJ_STRING length hash chars⟩]) heap.length =
      some (length, hash, chars) := by
  simp [Heap.string, Heap.get_append_length]

theorem allocateString_spec (vm : VM) (s : List Char)
    (hinv : InternInv vm.heap vm.strings)
    (hnew : ∀ q sq, vm.strings.hasKey q → vm.heap.string q = some sq → sq.2.2 ≠ s) :
    ∃ vm1, allocateString vm s s.length (hashString s) = some (vm.heap.length, vm1) ∧
      InternInv vm1.heap vm1.strings ∧ vm1.strings.hasKey vm.heap.length ∧
      vm1.heap = vm.heap ++ [some ⟨false, .OBJ_STRING s.length (hashString s) s⟩] ∧
      vm1.objects = vm.heap.length :: vm.objects ∧ vm1.stackTop = vm.stackTop ∧
      vm1.frames = vm.frames ∧ vm1.globals = vm.globals ∧
      (∀ k, vm1.strings.hasKey k ↔ (k = vm.heap.length ∨ vm.strings.hasKey k)) := by
  have hti := TableInv_heap_append vm.heap
    (some ⟨false, .OBJ_STRING s.length (hashString s) s⟩) vm.strings hinv.table
  have hsn := Heap.string_append_new vm.heap s.length (hashString s) s
  obtain ⟨b, t1, hset, hinv1, hlive, _⟩ := tableSet_spec _ vm.strings vm.heap.length NIL_VAL _ hti hsn
  have hkeys : ∀ k, t1.hasKey k ↔ (k = vm.heap.length ∨ vm.strings.hasKey k) := by
    intro k
    rw [hasKey_iff_Live, hasKey_iff_Live]
    constructor
    · rintro ⟨v, hv⟩
      rcases (hlive k v).mp hv with ⟨h, _⟩ | ⟨_, h⟩
      · exact Or.inl h
      · exact Or.inr ⟨v, h⟩
    · rintro (h | ⟨v, hv⟩)
      · exact ⟨NIL_VAL, (hlive k NIL_VAL).mpr (Or.inl ⟨h, rfl⟩)⟩
      · by_cases hk : k = vm.heap.length
        · exact ⟨NIL_VAL, (hlive k NIL_VAL).mpr (Or.inl ⟨hk, rfl⟩)⟩
        · exact ⟨v, (hlive k v).mpr (Or.inr ⟨hk, hv⟩)⟩
  -- what the extended heap holds at a key of the new table
  have hstr : ∀ k sk, t1.hasKey k →
      Heap.string (vm.heap ++ [some ⟨false, .OBJ_STRING s.length (hashString s) s⟩]) k = some sk →
      (k = vm.heap.length ∧ sk = (s.length, hashString s, s)) ∨
      (k ≠ vm.heap.length ∧ vm.strings.hasKey k ∧ vm.heap.string k = some sk) := by
    intro k sk hk hsk
    by_cases hkn : k = vm.heap.length
    · subst hkn
      rw [hsn] at hsk
      exact Or.inl ⟨rfl, (Option.some.inj hsk).symm⟩
    · have hold : vm.strings.hasKey k := by
        rcases (hkeys k).mp hk with h | h
        · exact absurd h hkn
        · exact h
      obtain ⟨s0, hs0⟩ := hinv.table.hasKey_string _ _ k hold
      have := Heap.string_append_lt vm.heap
        (some ⟨false, .OBJ_STRING s.length (hashString s) s⟩) k s0 hs0
      rw [this] at hsk
      have e : s0 = sk := Option.some.inj hsk
      subst e
      exact Or.inr ⟨hkn, hold, hs0⟩
  refine ⟨(pop { push (allocateObject vm (.OBJ_STRING s.length (hashString s) s)).2
      (OBJ_VAL vm.heap.length) with strings := t1 }).2, ?_, ?_, ?_, rfl, rfl, rfl, rfl, rfl, ?_⟩
  · simp only [allocateString, allocateObject, push, hset, Option.map_some']
  · simp only [pop]
    constructor
    · exact hinv1
    · intro k sk hk hsk
      rcases hstr k sk hk hsk with ⟨_, rfl⟩ | ⟨_, hold, hs0⟩
      · exact ⟨rfl, rfl⟩
      · exact hinv.cached k sk hold hs0
    · intro ki kj si sj hki hkj hsi hsj heq
      rcases hstr ki si hki hsi with ⟨h1, rfl⟩ | ⟨_, holdi, hsi0⟩ <;>
        rcases hstr kj sj hkj hsj with ⟨h2, rfl⟩ | ⟨_, holdj, hsj0⟩
      · rw [h1, h2]
      · exact absurd heq.symm (hnew kj sj holdj hsj0)
      · exact absurd heq (hnew ki si holdi hsi0)
      · exact hinv.unique ki kj si sj holdi holdj hsi0 hsj0 heq
  · simp only [pop]
    exact (hkeys _).mpr (Or.inl rfl)
  · simp only [pop]
    exact hkeys

theorem copyString_spec (vm : VM) (chars : List Char) (length : Nat)
    (hinv : InternInv vm.heap vm.strings) (hlen : length ≤ chars.length) :
    ∃ p vm1, copyString vm chars length = some (p, vm1) ∧
      InternInv vm1.heap vm1.strings ∧ vm1.strings.hasKey p ∧
      vm1.heap.string p = some (length, hashString (chars.take length), chars.take length) ∧
      ((∃ q sq, vm.strings.hasKey q ∧ vm.heap.string q = some sq ∧ sq.2.2 = chars.take length) →
        vm.strings.hasKey p ∧ vm1 = vm) ∧
      ((∀ q sq, vm.strings.hasKey q → vm.heap.string q = some sq → sq.2.2 ≠ chars.take length) →
        p = vm.heap.length ∧
        vm1.heap = vm.heap ++ [some ⟨false,
          .OBJ_STRING length (hashString (chars.take length)) (chars.take length)⟩] ∧
        vm1.objects = p :: vm.objects ∧
        ∀ k, vm1.strings.hasKey k ↔ (k = p ∨ vm.strings.hasKey k)) := by
  have htl : (chars.take length).length = length := by simp [hlen]
  obtain ⟨r, hr, hspec⟩ := tableFindString_spec vm.heap vm.strings chars length hinv hlen
  cases r with
  | some k =>
    simp only at hspec
    refine ⟨k, vm, ?_, hinv, hspec.1, hspec.2, fun _ => ⟨hspec.1, rfl⟩, ?_⟩
    · simp only [copyString, hr, Option.some_bind]
    · intro h
      exact absurd rfl (h k _ hspec.1 hspec.2)
  | none =>
    simp only at hspec
    obtain ⟨vm1, h1, h2, h3, h4, h5, _, _, _, h6⟩ := allocateString_spec vm (chars.take length) hinv hspec
    rw [htl] at h1 h4
    refine ⟨vm.heap.length, vm1, ?_, h2, h3, ?_, ?_, fun _ => ⟨rfl, h4, h5, h6⟩⟩
    · simp only [copyString, hr, Option.some_bind]
      exact h1
    · rw [h4]; exact Heap.string_append_new _ _ _ _
    · rintro ⟨q, sq, hq, hsq, heq⟩
      exact absurd heq (hspec q sq hq hsq)


theorem InternInv_initTable (heap : Heap) : InternInv heap initTable := by
  have hk : ∀ k, ¬ initTable.hasKey k := by
    rintro k ⟨i, hi⟩
    simp [keyAt, initTable] at hi
  refine ⟨⟨fun _ => ⟨rfl, rfl⟩, fun h => ?_, rfl, by simp [initTable]⟩, ?_, ?_⟩
  · simp [initTable] at h
  · intro k s h; exact absurd h (hk k)
  · intro ki kj si sj h; exact absurd h (hk ki)

theorem OBJ_VAL_inj (a b : Nat) (ha : a < 2 ^ 50) (hb : b < 2 ^ 50) :
    OBJ_VAL a = OBJ_VAL b ↔ a = b := by
  rw [OBJ_VAL_eq_add a ha, OBJ_VAL_eq_add b hb]
  omega

/-- C7: the intern-table invariant (the table invariant, cached lengths and
hashes, and no two distinct keys with equal bytes) holds of the empty table and
is preserved by `copyString`, `takeString` and `takeStringFromToken`.  Each of
them returns, for the `length` bytes at `chars`, a string object that is a key
of the table and holds exactly those bytes; when the table already has a key
with those bytes the VM is left as it was (nothing is allocated) and that key
is returned; when it has none the result is a new object at an address that
was not allocated, it is put at the head of the object list and becomes a key
of the table next to the old ones.  For two keys of the table, equal bytes
and `isValuesEqual` on their object values are the same condition.  Deleting
a key with `tableDelete`, as the collector does for unmarked strings, keeps
the invariant too. -/
theorem C7_string_interning (vm : VM) (chars : List Char) (length : Nat)
    (hinv : InternInv vm.heap vm.strings) (hlen : length ≤ chars.length) :
    (∀ heap, InternInv heap initTable) ∧
    (∀ f : VM → List Char → Nat → Option (Nat × VM),
      f = copyString ∨ f = takeString ∨ f = takeStringFromToken →
      ∃ p vm1, f vm chars length = some (p, vm1) ∧
        InternInv vm1.heap vm1.strings ∧ vm1.strings.hasKey p ∧
        vm1.heap.string p = some (length, hashString (chars.take length), chars.take length) ∧
        ((∃ q sq, vm.strings.hasKey q ∧ vm.heap.string q = some sq ∧ sq.2.2 = chars.take length) →
          vm.strings.hasKey p ∧ vm1 = vm) ∧
        ((∀ q sq, vm.strings.hasKey q → vm.heap.string q = some sq → sq.2.2 ≠ chars.take length) →
          p = vm.heap.length ∧ vm.heap.get p = none ∧
          vm1.heap = vm.heap ++ [some ⟨false,
            .OBJ_STRING length (hashString (chars.take length)) (chars.take length)⟩] ∧
          vm1.objects = p :: vm.objects ∧
          ∀ k, vm1.strings.hasKey k ↔ (k = p ∨ vm.strings.hasKey k))) ∧
    (∀ a b sa sb, a < 2 ^ 50 → b < 2 ^ 50 → vm.strings.hasKey a → vm.strings.hasKey b →
      vm.heap.string a = some sa → vm.heap.string b = some sb →
      (sa.2.2 = sb.2.2 ↔ isValuesEqual (OBJ_VAL a) (OBJ_VAL b) = true)) ∧
    (∀ key s, vm.heap.string key = some s →
      ∃ b t1, tableDelete vm.heap vm.strings key = some (b, t1) ∧ InternInv vm.heap t1 ∧
        ∀ k, t1.hasKey k ↔ (k ≠ key ∧ vm.strings.hasKey k)) := by
  refine ⟨InternInv_initTable, ?_, ?_, ?_⟩
  · intro f hf
    have hcopy : f vm chars length = copyString vm chars length := by
      rcases hf with rfl | rfl | rfl <;> rfl
    rw [hcopy]
    obtain ⟨p, vm1, h1, h2, h3, h4, h5, h6⟩ := copyString_spec vm chars length hinv hlen
    refine ⟨p, vm1, h1, h2, h3, h4, h5, fun hn => ?_⟩
    obtain ⟨e1, e2, e3, e4⟩ := h6 hn
    exact ⟨e1, by rw [e1]; exact Heap.get_length _, e2, e3, e4⟩
  · intro a b sa sb ha hb hka hkb hsa hsb
    have hv : isValuesEqual (OBJ_VAL a) (OBJ_VAL b) = (OBJ_VAL a == OBJ_VAL b) := by
      simp [isValuesEqual, IS_NUMBER_OBJ_VAL]
    rw [hv, beq_iff_eq, OBJ_VAL_inj a b ha hb]
    constructor
    · exact hinv.unique a b sa sb hka hkb hsa hsb
    · rintro rfl
      rw [hsa] at hsb
      rw [Option.some.inj hsb]
  · intro key s hs
    obtain ⟨b, t1, h1, h2, h3, _⟩ := tableDelete_spec vm.heap vm.strings key s hinv.table hs
    have hkeys : ∀ k, t1.hasKey k ↔ (k ≠ key ∧ vm.strings.hasKey k) := by
      intro k
      rw [hasKey_iff_Live, hasKey_iff_Live]
      constructor
      · rintro ⟨v, hv⟩
        exact ⟨((h3 k v).mp hv).1, v, ((h3 k v).mp hv).2⟩
      · rintro ⟨hne, v, hv⟩
        exact ⟨v, (h3 k v).mpr ⟨hne, hv⟩⟩
    refine ⟨b, t1, h1, ⟨h2, ?_, ?_⟩, hkeys⟩
    · intro k sk hk hsk
      exact hinv.cached k sk ((hkeys k).mp hk).2 hsk
    · intro ki kj si sj hki hkj hsi hsj heq
      exact hinv.unique ki kj si sj ((hkeys ki).mp hki).2 ((hkeys kj).mp hkj).2 hsi hsj heq

/-- C7 at the VM with empty heap and tables and the two bytes `hi`: the first
`copyString` allocates the string at address 0 and interns it; in the state
it leaves, a second `copyString` of the same bytes returns the same object
and changes nothing. -/
theorem C7_string_interning_witness :
    (InternInv emptyVM.heap emptyVM.strings ∧ 2 ≤ ['h', 'i'].length) ∧
    ∃ p vm1, copyString emptyVM ['h', 'i'] 2 = some (p, vm1) ∧ p = 0 ∧
      InternInv vm1.heap vm1.strings ∧ vm1.strings.hasKey p ∧
      vm1.heap.string p = some (2, hashString ['h', 'i'], ['h', 'i']) ∧
      copyString vm1 ['h', 'i'] 2 = some (p, vm1) :=
  ⟨⟨InternInv_initTable _, by decide⟩, by
    obtain ⟨p, vm1, h1, h2, h3, h4, _, h6⟩ :=
      (C7_string_interning emptyVM ['h', 'i'] 2 (InternInv_initTable _) (by decide)).2.1
        copyString (Or.inl rfl)
    have hnone : ∀ q sq, emptyVM.strings.hasKey q → emptyVM.heap.string q = some sq →
        sq.2.2 ≠ List.take 2 ['h', 'i'] := by
      rintro q sq ⟨i, hi⟩
      simp [keyAt, emptyVM, initTable] at hi
    obtain ⟨q, vm2, g1, _, _, g4, g5, _⟩ :=
      (C7_string_interning vm1 ['h', 'i'] 2 h2 (by decide)).2.1 copyString (Or.inl rfl)
    obtain ⟨gq, gvm⟩ := g5 ⟨p, _, h3, h4, rfl⟩
    subst gvm
    have hqp : q = p := h2.unique q p _ _ gq h3 g4 h4 rfl
    subst hqp
    exact ⟨q, vm2, h1, (h6 hnone).1, h2, h3, h4, g1⟩⟩

end Loxj

/-! # Globals: `tableGet` and `OP_SET_GLOBAL` (C11) -/

namespace Loxj

theorem Live_unique (heap : Heap) (entries : List Entry) (cap : Nat)
    (hinv : ProbeInv heap entries cap) (k v1 v2 : Nat)
    (h1 : Live entries k v1) (h2 : Live entries k v2) : v1 = v2 := by
  obtain ⟨j1, hj1⟩ := h1
  obtain ⟨j2, hj2⟩ := h2
  have e := hinv.nodup j1 j2 k (by rw [keyAt_eq _ _ _ hj1]) (by rw [keyAt_eq _ _ _ hj2])
  subst e
  rw [hj1] at hj2
  cases hj2
  rfl

theorem TableInv.no_key_of_count_zero (heap : Heap) (t : Table) (hinv : TableInv heap t)
    (hc : t.count = 0) (k : Nat) : ∀ j, keyAt t.entries j ≠ some k := by
  intro j hj
  obtain ⟨e, hge, hk⟩ := keyAt_some _ _ _ hj
  have hmem : e ∈ t.entries := List.mem_iff_getElem?.mpr ⟨j, hge⟩
  have h0 : t.entries.countP (fun e => !e.isEmpty) = 0 := by rw [← hinv.count_eq, hc]
  rw [List.countP_eq_zero] at h0
  have := h0 e hmem
  rw [isEmpty_false_of_key e k hk] at this
  simp at this

theorem TableInv.exists_empty (heap : Heap) (t : Table) (hinv : TableInv heap t)
    (hpos : 0 < t.capacity) :
    ∃ (j : Nat) (e : Entry), t.entries[j]? = some e ∧ e.isEmpty = true := by
  apply exists_empty_of_countP_lt
  have := hinv.load
  rw [← hinv.count_eq, hinv.length_eq heap t]
  omega

/-- The function `tableGet` returns `true` with the value of the bucket that
holds the key, and `false` when no bucket holds it. -/
theorem tableGet_spec (heap : Heap) (t : Table) (key : Nat) (s : Nat × Nat × List Char)
    (hinv : TableInv heap t) (hs : heap.string key = some s) :
    ∃ r, tableGet heap t key = some r ∧ ∀ v, r = some v ↔ Live t.entries key v := by
  by_cases hc : t.count = 0
  · refine ⟨none, by simp [tableGet, hc], ?_⟩
    intro v
    constructor
    · intro h; cases h
    · intro h
      exfalso
      obtain ⟨j, hj⟩ := h
      exact hinv.no_key_of_count_zero heap t hc key j (by rw [keyAt_eq _ _ _ hj])
  · have hpos : 0 < t.capacity := by
      have := hinv.load
      omega
    have hp := (hinv.probe hpos).1
    obtain ⟨i, hfi, hspec⟩ := findEntry_spec heap t.entries t.capacity key s hp hs
      (hinv.exists_empty heap t hpos)
    obtain ⟨e, hge, hcase⟩ := id hspec
    rcases hcase with hk | ⟨hk, habs, _⟩
    · refine ⟨some e.value, by simp [tableGet, hc, hfi, hge, hk], ?_⟩
      have hl : Live t.entries key e.value := ⟨i, by rw [hge, ← hk]⟩
      intro v
      constructor
      · intro h; cases h; exact hl
      · intro h; rw [Live_unique heap _ _ hp key _ _ h hl]
    · refine ⟨none, by simp [tableGet, hc, hfi, hge, hk], ?_⟩
      intro v
      constructor
      · intro h; cases h
      · intro h
        exfalso
        obtain ⟨j, hj⟩ := h
        exact habs j (by rw [keyAt_eq _ _ _ hj])

/-- Two tables that hold the same value, or none, for a key answer `tableGet`
for it alike. -/
theorem tableGet_eq_of_Live (heap : Heap) (t1 t2 : Table) (key : Nat) (s : Nat × Nat × List Char)
    (h1 : TableInv heap t1) (h2 : TableInv heap t2) (hs : heap.string key = some s)
    (hl : ∀ v, Live t1.entries key v ↔ Live t2.entries key v) :
    tableGet heap t1 key = tableGet heap t2 key := by
  obtain ⟨r1, hr1, hv1⟩ := tableGet_spec heap t1 key s h1 hs
  obtain ⟨r2, hr2, hv2⟩ := tableGet_spec heap t2 key s h2 hs
  rw [hr1, hr2]
  congr 1
  cases r1 with
  | none =>
    cases r2 with
    | none => rfl
    | some v2 =>
      have := (hv1 v2).mpr ((hl v2).mpr ((hv2 v2).mp rfl))
      cases this
  | some v1 =>
    have := (hv2 v1).mpr ((hl v1).mp ((hv1 v1).mp rfl))
    rw [this]


/-- C11: `OP_SET_GLOBAL` on a name that `tableGet` does not find in the
globals ends the run with `INTERPRET_RUNTIME_ERROR` after printing
`Undefined variable '<name>'.`, and the globals are observably as before:
`tableGet` still fails for the name and answers as before for every other
name.  On a name that is defined the instruction goes on with the global set
to the value on top of the stack, the stack untouched, and every other global
as before.  In both cases the table invariant is kept. -/
theorem C11_OP_SET_GLOBAL (vm0 vm : VM) (name : Nat) (s : Nat × Nat × List Char)
    (hread : READ_STRING vm0 = some (name, vm))
    (hs : vm.heap.string name = some s)
    (hinv : TableInv vm.heap vm.globals) :
    (tableGet vm.heap vm.globals name = some none →
      ∀ trace, stackTrace vm.heap vm.frames.reverse = some trace →
        ∃ vm1, run_OP_SET_GLOBAL vm0 = .ret .INTERPRET_RUNTIME_ERROR vm1 ∧
          vm1.stderr = vm.stderr ++ ("Undefined variable '" ++ cString s.2.2 ++ "'.") ++ "\n" ++ trace ∧
          vm1.heap = vm.heap ∧ TableInv vm1.heap vm1.globals ∧
          tableGet vm1.heap vm1.globals name = some none ∧
          ∀ k sk, vm.heap.string k = some sk →
            tableGet vm1.heap vm1.globals k = tableGet vm.heap vm.globals k) ∧
    (∀ old, tableGet vm.heap vm.globals name = some (some old) →
      ∃ vm1, run_OP_SET_GLOBAL vm0 = .next vm1 ∧
        tableGet vm1.heap vm1.globals name = some (some (vm.peek 0)) ∧
        vm1.stack = vm.stack ∧ vm1.stackTop = vm.stackTop ∧
        vm1.heap = vm.heap ∧ TableInv vm1.heap vm1.globals ∧
        ∀ k sk, k ≠ name → vm.heap.string k = some sk →
          tableGet vm1.heap vm1.globals k = tableGet vm.heap vm.globals k) := by
  obtain ⟨r, hr, hrv⟩ := tableGet_spec vm.heap vm.globals name s hinv hs
  obtain ⟨b, t1, hset, hinv1, hlive1, hb⟩ :=
    tableSet_spec vm.heap vm.globals name (vm.peek 0) s hinv hs
  constructor
  · intro hget trace htrace
    rw [hr] at hget
    cases hget
    have hno : ∀ v, ¬ Live vm.globals.entries name v := fun v h => by
      have := (hrv v).mpr h
      cases this
    have hbt : b = true := hb.mpr fun j hj =>
      (Live_iff_keyAt vm.globals.entries name).mpr ⟨j, hj⟩ |>.elim fun v hv => hno v hv
    subst hbt
    obtain ⟨b2, t2, hdel, hinv2, hlive2, _⟩ := tableDelete_spec vm.heap t1 name s hinv1 hs
    have hsame : ∀ k v, Live t2.entries k v ↔ Live vm.globals.entries k v := by
      intro k v
      rw [hlive2, hlive1]
      constructor
      · rintro ⟨hne, h | h⟩
        · exact absurd h.1 hne
        · exact h.2
      · intro h
        have hne : k ≠ name := fun e => hno v (e ▸ h)
        exact ⟨hne, Or.inr ⟨hne, h⟩⟩
    refine ⟨resetStack { vm with
                          globals := t2,
                          stderr := vm.stderr ++
                            ("Undefined variable '" ++ cString s.2.2 ++ "'.") ++ "\n" ++ trace },
      ?_, rfl, rfl, hinv2, ?_, ?_⟩
    · obtain ⟨l, h, c⟩ := s
      simp only [run_OP_SET_GLOBAL, hread, hset, hdel, hs, Step.error, runtimeError, htrace,
        Option.map_some']
    · have := tableGet_eq_of_Live vm.heap t2 vm.globals name s hinv2 hinv hs (hsame name)
      show tableGet vm.heap t2 name = some none
      rw [this, hr]
    · intro k sk hk
      exact tableGet_eq_of_Live vm.heap t2 vm.globals k sk hinv2 hinv hk (hsame k)
  · intro old hget
    rw [hr] at hget
    cases hget
    have hold : Live vm.globals.entries name old := (hrv old).mp rfl
    have hbf : b = false := by
      cases b with
      | false => rfl
      | true =>
        exfalso
        obtain ⟨j, hj⟩ := (Live_iff_keyAt vm.globals.entries name).mp ⟨old, hold⟩
        exact hb.mp rfl j hj
    subst hbf
    refine ⟨{ vm with globals := t1 }, ?_, ?_, rfl, rfl, rfl, hinv1, ?_⟩
    · simp only [run_OP_SET_GLOBAL, hread, hset]
    · obtain ⟨r1, hr1, hrv1⟩ := tableGet_spec vm.heap t1 name s hinv1 hs
      show tableGet vm.heap t1 name = _
      rw [hr1, (hrv1 (vm.peek 0)).mpr ((hlive1 _ _).mpr (Or.inl ⟨rfl, rfl⟩))]
    · intro k sk hne hk
      refine tableGet_eq_of_Live vm.heap t1 vm.globals k sk hinv1 hinv hk fun v => ?_
      rw [hlive1]
      constructor
      · rintro (h | h)
        · exact absurd h.1 hne
        · exact h.2
      · intro h
        exact Or.inr ⟨hne, h⟩


theorem TableInv_initTable (heap : Heap) : TableInv heap initTable :=
  ⟨fun _ => ⟨rfl, rfl⟩, fun h => absurd h (by decide), rfl, by decide⟩

theorem C11_OP_SET_GLOBAL_witness :
    ∃ vm1, run_OP_SET_GLOBAL setGlobalVM = .ret .INTERPRET_RUNTIME_ERROR vm1 ∧
      vm1.stderr = "Undefined variable 'x'.\n[line 1] at <script>\n" ∧
      tableGet vm1.heap vm1.globals 2 = some none := by
  obtain ⟨vm1, h1, h2, _, _, h5, _⟩ :=
    (C11_OP_SET_GLOBAL setGlobalVM (setGlobalVM.setIp 4) 2 (1, hashString "x".toList, "x".toList)
      (by decide) (by decide) (TableInv_initTable _)).1 (by decide)
      "[line 1] at <script>\n" (by decide)
  exact ⟨vm1, h1, by rw [h2]; decide, h5⟩

end Loxj

/-! # Stack, heap and operand lemmas -/

namespace Loxj

theorem storeAt_getD_ne (stack : List Nat) (i j v : Nat) (h : j ≠ i) :
    (storeAt stack i v).getD j 0 = stack.getD j 0 := by
  unfold storeAt
  split
  · simp [List.getD_eq_getElem?_getD, List.getElem?_set, Ne.symm h]
  · rename_i hi
    have h1 : stack.length ≤ i := Nat.not_lt.mp hi
    simp only [List.getD_eq_getElem?_getD, List.append_assoc]
    by_cases hj : j < stack.length
    · rw [List.getElem?_append_left hj]
    · have hj1 : stack.length ≤ j := Nat.not_lt.mp hj
      rw [List.getElem?_append_right hj1, List.getElem?_eq_none hj1]
      by_cases hj2 : j - stack.length < i - stack.length
      · rw [List.getElem?_append_left (by simpa using hj2)]
        simp [List.getElem?_replicate, hj2]
      · rw [List.getElem?_append_right (by simpa using hj2)]
        have : j - stack.length - (List.replicate (i - stack.length) 0).length ≠ 0 := by
          simp only [List.length_replicate]; omega
        cases hq : j - stack.length - (List.replicate (i - stack.length) 0).length with
        | zero => exact absurd hq this
        | succ q => simp

theorem push_peek (vm : VM) (v : Nat) : (push vm v).peek 0 = v := by
  show (storeAt vm.stack vm.stackTop v).getD (vm.stackTop + 1 - 1 - 0) 0 = v
  exact storeAt_getD_self _ _ _

theorem push_slot_ne (vm : VM) (v i : Nat) (h : i ≠ vm.stackTop) :
    (push vm v).slot i = vm.slot i :=
  storeAt_getD_ne _ _ _ _ h

theorem setIp_fields (vm : VM) (ip : Nat) :
    (vm.setIp ip).heap = vm.heap ∧ (vm.setIp ip).globals = vm.globals ∧
    (vm.setIp ip).strings = vm.strings ∧ (vm.setIp ip).objects = vm.objects ∧
    (vm.setIp ip).openUpvalues = vm.openUpvalues ∧ (vm.setIp ip).initString = vm.initString ∧
    (vm.setIp ip).stderr = vm.stderr ∧ (vm.setIp ip).frames.length = vm.frames.length := by
  unfold VM.setIp
  split
  · simp
  · rename_i frame hf
    simp only [true_and]
    have hne : vm.frames ≠ [] := by
      intro h; rw [h] at hf; cases hf
    simp [List.length_dropLast]
    have := List.length_pos.mpr hne
    omega

theorem READ_BYTE_eq (vm vm1 : VM) (b : Nat) (h : READ_BYTE vm = some (b, vm1)) :
    ∃ ip, vm.ip = some ip ∧ vm1 = vm.setIp (ip + 1) := by
  unfold READ_BYTE at h
  split at h
  · rename_i chunk ip hc hi
    refine ⟨ip, hi, ?_⟩
    cases hg : chunk.code.get? ip with
    | none => rw [hg] at h; cases h
    | some byte => rw [hg] at h; cases h; rfl
  · cases h

theorem READ_CONSTANT_eq (vm vm1 : VM) (c : Nat) (h : READ_CONSTANT vm = some (c, vm1)) :
    ∃ ip, vm.ip = some ip ∧ vm1 = vm.setIp (ip + 1) := by
  unfold READ_CONSTANT at h
  cases hb : READ_BYTE vm with
  | none => rw [hb] at h; cases h
  | some r =>
    obtain ⟨b, vm2⟩ := r
    rw [hb] at h
    simp only [Option.some_bind] at h
    obtain ⟨ip, hip, hvm⟩ := READ_BYTE_eq vm vm2 b hb
    refine ⟨ip, hip, ?_⟩
    split at h
    · cases h
    · rename_i chunk hc
      cases hg : chunk.constants.get? b with
      | none => rw [hg] at h; cases h
      | some k => rw [hg] at h; cases h; exact hvm

theorem READ_STRING_eq (vm vm1 : VM) (name : Nat) (h : READ_STRING vm = some (name, vm1)) :
    ∃ ip, vm.ip = some ip ∧ vm1 = vm.setIp (ip + 1) := by
  unfold READ_STRING at h
  cases hc : READ_CONSTANT vm with
  | none => rw [hc] at h; cases h
  | some r =>
    obtain ⟨c, vm2⟩ := r
    rw [hc] at h
    simp only [Option.map_some', Option.some.injEq, Prod.mk.injEq] at h
    rw [← h.2]
    exact READ_CONSTANT_eq vm vm2 c hc


theorem Heap.get_eq_some (heap : Heap) (p : Nat) (obj : Obj) (h : Heap.get heap p = some obj) :
    ∃ cell, heap[p]? = some (some cell) ∧ cell.obj = obj := by
  simp only [Heap.get, List.getD_eq_getElem?_getD] at h
  cases hp : heap[p]? with
  | none => rw [hp] at h; cases h
  | some c =>
    rw [hp] at h
    cases c with
    | none => cases h
    | some cell => exact ⟨cell, rfl, by simpa using h⟩

theorem Heap.setObj_get_self (heap : Heap) (p : Nat) (old obj : Obj)
    (h : Heap.get heap p = some old) : Heap.get (Heap.setObj heap p obj) p = some obj := by
  obtain ⟨cell, hc, _⟩ := Heap.get_eq_some heap p old h
  have hlt : p < heap.length := (List.getElem?_eq_some_iff.mp hc).1
  simp [Heap.get, Heap.setObj, List.getD_eq_getElem?_getD, hc, List.getElem?_set, hlt]

theorem Heap.setObj_get_ne (heap : Heap) (p q : Nat) (obj : Obj) (h : q ≠ p) :
    Heap.get (Heap.setObj heap p obj) q = Heap.get heap q := by
  unfold Heap.setObj
  split
  · rfl
  · simp [Heap.get, List.getD_eq_getElem?_getD, List.getElem?_set, Ne.symm h]

theorem Heap.setObj_length (heap : Heap) (p : Nat) (obj : Obj) :
    (Heap.setObj heap p obj).length = heap.length := by
  unfold Heap.setObj
  split <;> simp

/-- Assigning an object that is not a string, at an address that holds no
string, changes no string. -/
theorem Heap.setObj_string (heap : Heap) (p k : Nat) (old obj : Obj)
    (h : Heap.get heap p = some old) (h1 : old.type ≠ .OBJ_STRING) (h2 : obj.type ≠ .OBJ_STRING) :
    Heap.string (Heap.setObj heap p obj) k = Heap.string heap k := by
  unfold Heap.string
  by_cases hk : k = p
  · subst hk
    rw [Heap.setObj_get_self heap k old obj h, h]
    cases old <;> cases obj <;> simp_all [Obj.type]
  · rw [Heap.setObj_get_ne heap p k obj hk]

theorem ProbeInv_congr (heap heap1 : Heap) (entries : List Entry) (cap : Nat)
    (hh : ∀ k, Heap.string heap1 k = Heap.string heap k) (h : ProbeInv heap entries cap) :
    ProbeInv heap1 entries cap := by
  constructor
  · exact h.len
  · exact h.pow
  · intro i k hk
    rw [hh]
    exact h.strings i k hk
  · exact h.nodup
  · intro i k s d hk hs
    rw [hh] at hs
    exact h.path i k s d hk hs

theorem TableInv_congr (heap heap1 : Heap) (t : Table)
    (hh : ∀ k, Heap.string heap1 k = Heap.string heap k) (h : TableInv heap t) :
    TableInv heap1 t :=
  ⟨h.zero, fun hp => ⟨ProbeInv_congr heap heap1 _ _ hh (h.probe hp).1, (h.probe hp).2⟩,
    h.count_eq, h.load⟩

end Loxj

/-! # Properties: `OP_GET_PROPERTY` (C12) -/

namespace Loxj

theorem runtimeError_eq (vm : VM) (message trace : String)
    (h : stackTrace vm.heap vm.frames.reverse = some trace) :
    runtimeError vm message =
      some (resetStack { vm with stderr := vm.stderr ++ message ++ "\n" ++ trace }) := by
  simp only [runtimeError, h, Option.map_some']

theorem Step.error_eq (vm : VM) (message trace : String)
    (h : stackTrace vm.heap vm.frames.reverse = some trace) :
    Step.error vm message = .ret .INTERPRET_RUNTIME_ERROR
      (resetStack { vm with stderr := vm.stderr ++ message ++ "\n" ++ trace }) := by
  simp only [Step.error, runtimeError_eq vm message trace h]

theorem isObjType_of_get (heap : Heap) (value : Nat) (obj : Obj) (type : ObjType)
    (h1 : IS_OBJ value = true) (h2 : heap.get (AS_OBJ value) = some obj) :
    isObjType heap value type = some (decide (obj.type = type)) := by
  simp only [isObjType, h1, if_true, h2, Option.map_some']

theorem isObjType_false (heap : Heap) (value : Nat) (type : ObjType)
    (h : IS_OBJ value = false ∨
      ∃ obj, heap.get (AS_OBJ value) = some obj ∧ obj.type ≠ type) :
    isObjType heap value type = some false := by
  rcases h with h | ⟨obj, h2, h3⟩
  · simp only [isObjType, h, Bool.false_eq_true, if_false]
  · cases h1 : IS_OBJ value
    · simp only [isObjType, h1, Bool.false_eq_true, if_false]
    · rw [isObjType_of_get heap value obj type h1 h2]
      simp [h3]

/-- C12: `OP_GET_PROPERTY name` with an instance on top of the stack.  If the
field table holds `name`, the instance is replaced on the stack by the
field value, whatever the class has.  Otherwise, if the method table of the
class holds `name`, a new bound method is allocated whose receiver is the
instance and whose method is that closure, and it replaces the instance.
Otherwise the run ends with `Undefined property '<name>'.`.  With a value on
top that is not an instance (last part, for any state `vmN`) the run ends
with the error `Only instances have properties.`. -/
theorem C12_OP_GET_PROPERTY (vm0 vm vmN : VM) (name klass : Nat) (fields : Table)
    (s : Nat × Nat × List Char)
    (htop : 0 < vm0.stackTop)
    (hobj : IS_OBJ (vm0.peek 0) = true)
    (hinst : vm0.heap.get (AS_OBJ (vm0.peek 0)) = some (.OBJ_INSTANCE klass fields))
    (hread : READ_STRING vm0 = some (name, vm))
    (hs : vm0.heap.string name = some s)
    (hfields : TableInv vm0.heap fields) :
    (∀ value, Live fields.entries name value →
      ∃ vm1, run_OP_GET_PROPERTY vm0 = .next vm1 ∧ vm1.peek 0 = value ∧
        vm1.stackTop = vm0.stackTop ∧ vm1.heap = vm0.heap ∧
        ∀ i, i ≠ vm0.stackTop - 1 → vm1.slot i = vm0.slot i) ∧
    (∀ cname methods, (∀ v, ¬ Live fields.entries name v) →
      vm0.heap.get klass = some (.OBJ_CLASS cname methods) → TableInv vm0.heap methods →
      (∀ method, Live methods.entries name method →
        ∃ vm1, run_OP_GET_PROPERTY vm0 = .next vm1 ∧
          vm1.heap = vm0.heap ++
            [some ⟨false, .OBJ_BOUND_METHOD (vm0.peek 0) (AS_OBJ method)⟩] ∧
          vm1.peek 0 = OBJ_VAL vm0.heap.length ∧ vm1.stackTop = vm0.stackTop ∧
          ∀ i, i ≠ vm0.stackTop - 1 → vm1.slot i = vm0.slot i) ∧
      ((∀ v, ¬ Live methods.entries name v) →
        ∀ trace, stackTrace vm.heap vm.frames.reverse = some trace →
          ∃ vm1, run_OP_GET_PROPERTY vm0 = .ret .INTERPRET_RUNTIME_ERROR vm1 ∧
            vm1.stderr = vm0.stderr ++ ("Undefined property '" ++ cString s.2.2 ++ "'.") ++
              "\n" ++ trace)) ∧
    ((IS_OBJ (vmN.peek 0) = false ∨
        ∃ obj, vmN.heap.get (AS_OBJ (vmN.peek 0)) = some obj ∧ obj.type ≠ .OBJ_INSTANCE) →
      ∀ trace, stackTrace vmN.heap vmN.frames.reverse = some trace →
        ∃ vm1, run_OP_GET_PROPERTY vmN = .ret .INTERPRET_RUNTIME_ERROR vm1 ∧
          vm1.stderr = vmN.stderr ++ "Only instances have properties." ++ "\n" ++ trace) := by
  obtain ⟨ip, _, hvm⟩ := READ_STRING_eq vm0 vm name hread
  have hf := setIp_fields vm0 (ip + 1)
  have hst := setIp_stack vm0 (ip + 1)
  rw [← hvm] at hf hst
  obtain ⟨hheap, -, -, -, -, -, hstderr, -⟩ := hf
  have hpeek : vm.peek 0 = vm0.peek 0 := by rw [hvm]; exact setIp_peek _ _ _
  have hslot : ∀ i, vm.slot i = vm0.slot i := fun i => by simp only [VM.slot, hst.1]
  have htype : isObjType vm0.heap (vm0.peek 0) .OBJ_INSTANCE = some true := by
    rw [isObjType_of_get _ _ _ _ hobj hinst]; rfl
  obtain ⟨r, hr, hrv⟩ := tableGet_spec vm0.heap fields name s hfields hs
  refine ⟨?_, ?_, ?_⟩
  · intro value hl
    have hrs : r = some value := (hrv value).mpr hl
    subst hrs
    refine ⟨push (pop vm).2 value, ?_, push_peek _ _, ?_, hheap, ?_⟩
    · simp only [run_OP_GET_PROPERTY, htype, hinst, hread, hheap, hr]
    · show vm.stackTop - 1 + 1 = vm0.stackTop
      rw [hst.2]; omega
    · intro i hi
      rw [push_slot_ne _ _ _ (by show i ≠ vm.stackTop - 1; rw [hst.2]; exact hi)]
      exact hslot i
  · intro cname methods hnf hk hminv
    have hrn : r = none := by
      cases r with
      | none => rfl
      | some v => exact absurd ((hrv v).mp rfl) (hnf v)
    subst hrn
    obtain ⟨rm, hrm, hrmv⟩ := tableGet_spec vm0.heap methods name s hminv hs
    constructor
    · intro method hl
      have hrs : rm = some method := (hrmv method).mpr hl
      subst hrs
      refine ⟨push (pop (newBoundMethod vm (vm.peek 0) (AS_OBJ method)).2).2
          (OBJ_VAL vm.heap.length), ?_, ?_, ?_, ?_, ?_⟩
      · simp only [run_OP_GET_PROPERTY, htype, hinst, hread, hheap, hr, bindMethod, hk, hrm]
        rw [← hheap]
        rfl
      · show vm.heap ++ _ = _
        rw [hheap, hpeek]
      · rw [push_peek, hheap]
      · show vm.stackTop - 1 + 1 = vm0.stackTop
        rw [hst.2]; omega
      · intro i hi
        rw [push_slot_ne _ _ _ (by show i ≠ vm.stackTop - 1; rw [hst.2]; exact hi)]
        exact hslot i
    · intro hnm trace htrace
      have hrn : rm = none := by
        cases rm with
        | none => rfl
        | some v => exact absurd ((hrmv v).mp rfl) (hnm v)
      subst hrn
      refine ⟨resetStack { vm with stderr := vm.stderr ++
          ("Undefined property '" ++ cString s.2.2 ++ "'.") ++ "\n" ++ trace }, ?_, ?_⟩
      · obtain ⟨l, h, c⟩ := s
        simp only [run_OP_GET_PROPERTY, htype, hinst, hread, hheap, hr, bindMethod, hk, hrm, hs,
          runtimeError_eq vm _ trace htrace, Option.map_some']
      · show vm.stderr ++ _ ++ _ ++ _ = _
        rw [hstderr]
  · intro hno trace htrace
    refine ⟨resetStack { vmN with stderr := vmN.stderr ++ "Only instances have properties." ++
      "\n" ++ trace }, ?_, rfl⟩
    simp only [run_OP_GET_PROPERTY, isObjType_false _ _ _ hno, Step.error_eq vmN _ trace htrace]


theorem singletonTable_spec (heap : Heap) (key value : Nat) (s : Nat × Nat × List Char)
    (hs : heap.string key = some s) :
    TableInv heap (singletonTable heap key value) ∧
      ∀ k v, Live (singletonTable heap key value).entries k v ↔ (k = key ∧ v = value) := by
  obtain ⟨b, t1, hset, hinv, hlive, _⟩ :=
    tableSet_spec heap initTable key value s (TableInv_initTable heap) hs
  have e : singletonTable heap key value = t1 := by simp only [singletonTable, hset]
  rw [e]
  refine ⟨hinv, fun k v => ?_⟩
  rw [hlive]
  constructor
  · rintro (h | ⟨_, j, hj⟩)
    · exact h
    · simp [initTable] at hj
  · exact Or.inl

theorem C12_OP_GET_PROPERTY_witness :
    ∃ vm1, run_OP_GET_PROPERTY propertyVM = .next vm1 ∧ vm1.peek 0 = OBJ_VAL 5 ∧
      vm1.heap.get 5 = some (.OBJ_BOUND_METHOD (OBJ_VAL 4) 1) := by
  have hx : propertyVM.heap.string 2 = some (1, hashString "x".toList, "x".toList) := by decide
  have hm := singletonTable_spec propertyVM.heap 2 (OBJ_VAL 1) _ hx
  obtain ⟨vm1, h1, h2, h3, _⟩ :=
    (C12_OP_GET_PROPERTY propertyVM (propertyVM.setIp 2) propertyVM 2 3 initTable
      (1, hashString "x".toList, "x".toList) (by decide) (by decide) (by decide) (by decide) hx
      (TableInv_initTable _)).2.1 2 (singletonTable propertyVM.heap 2 (OBJ_VAL 1))
      (by intro v ⟨j, hj⟩; simp [initTable] at hj) (by decide) hm.1 |>.1 (OBJ_VAL 1)
      ((hm.2 _ _).mpr ⟨rfl, rfl⟩)
  refine ⟨vm1, h1, h3, ?_⟩
  rw [h2]
  decide

end Loxj

/-! # Inheritance: `tableAddAll` and `OP_INHERIT` (C13) -/

namespace Loxj

theorem TableInv.entry_string (heap : Heap) (t : Table) (hinv : TableInv heap t) (i k : Nat)
    (e : Entry) (hge : t.entries[i]? = some e) (hk : e.key = some k) :
    ∃ s, heap.string k = some s :=
  hinv.hasKey_string heap t k ⟨i, by rw [keyAt_eq _ _ _ hge, hk]⟩

theorem TableInv.key_unique (heap : Heap) (t : Table) (hinv : TableInv heap t) (i j k : Nat)
    (hi : keyAt t.entries i = some k) (hj : keyAt t.entries j = some k) : i = j := by
  obtain ⟨e, hge, _⟩ := keyAt_some _ _ _ hi
  have hpos : 0 < t.capacity := by
    have := (List.getElem?_eq_some_iff.mp hge).1
    rw [hinv.length_eq heap t] at this; omega
  exact (hinv.probe hpos).1.nodup i j k hi hj

/-- The loop of `tableAddAll` on two different tables, from bucket `i` on. -/
theorem tableAddAllLoop_spec (heap : Heap) (f : Table) (hf : TableInv heap f) :
    ∀ (n i fuel : Nat) (t : Table), n = f.capacity - i → i ≤ f.capacity → n + 1 ≤ fuel →
      TableInv heap t →
      ∃ t1, tableAddAllLoop heap false fuel f t i = some t1 ∧ TableInv heap t1 ∧
        ∀ k v, Live t1.entries k v ↔
          ((∃ j, i ≤ j ∧ f.entries[j]? = some ⟨some k, v⟩) ∨
            (Live t.entries k v ∧ ¬ ∃ j, i ≤ j ∧ keyAt f.entries j = some k)) := by
  have hlen := hf.length_eq heap f
  intro n
  induction n with
  | zero =>
    intro i fuel t hn hi hfuel ht
    obtain ⟨fuel, rfl⟩ : ∃ m, fuel = m + 1 := ⟨fuel - 1, by omega⟩
    have hige : ¬ i < f.capacity := by omega
    refine ⟨t, by simp only [tableAddAllLoop, hige, if_false], ht, fun k v => ?_⟩
    have hnone : ∀ j, i ≤ j → f.entries[j]? = none := fun j hj =>
      List.getElem?_eq_none (by omega)
    constructor
    · intro h
      refine Or.inr ⟨h, ?_⟩
      rintro ⟨j, hj, hk⟩
      simp [keyAt, hnone j hj] at hk
    · rintro (⟨j, hj, h⟩ | h)
      · rw [hnone j hj] at h; cases h
      · exact h.1
  | succ n ih =>
    intro i fuel t hn hi hfuel ht
    obtain ⟨fuel, rfl⟩ : ∃ m, fuel = m + 1 := ⟨fuel - 1, by omega⟩
    have hilt : i < f.capacity := by omega
    obtain ⟨e, hge⟩ : ∃ e, f.entries[i]? = some e :=
      ⟨_, List.getElem?_eq_getElem (by rw [hlen]; exact hilt)⟩
    rw [tableAddAllLoop]
    simp only [hilt, if_true, List.get?_eq_getElem?, hge]
    cases hk : e.key with
    | none =>
      simp only
      obtain ⟨t1, h1, h2, h3⟩ := ih (i + 1) fuel t (by omega) (by omega) (by omega) ht
      refine ⟨t1, h1, h2, fun k v => ?_⟩
      rw [h3]
      have hstep : ∀ (P : Nat → Prop), (∀ j, P j → j ≠ i) →
          ((∃ j, i + 1 ≤ j ∧ P j) ↔ ∃ j, i ≤ j ∧ P j) := by
        intro P hP
        constructor
        · rintro ⟨j, hj, h⟩; exact ⟨j, by omega, h⟩
        · rintro ⟨j, hj, h⟩
          have := hP j h
          exact ⟨j, by omega, h⟩
      rw [hstep (fun j => f.entries[j]? = some ⟨some k, v⟩)
          (fun j h e1 => by
            subst e1
            have h1 : f.entries[j]? = some ⟨some k, v⟩ := h
            rw [hge] at h1; cases h1; cases hk),
        hstep (fun j => keyAt f.entries j = some k)
          (fun j h e1 => by
            subst e1
            have h1 : keyAt f.entries j = some k := h
            rw [keyAt_eq _ _ _ hge, hk] at h1; cases h1)]
    | some key =>
      simp only
      obtain ⟨s, hs⟩ := hf.entry_string heap f i key e hge hk
      obtain ⟨b, t0, hset, hinv0, hlive0, _⟩ := tableSet_spec heap t key e.value s ht hs
      simp only [hset, Bool.false_eq_true, if_false]
      obtain ⟨t1, h1, h2, h3⟩ := ih (i + 1) fuel t0 (by omega) (by omega) (by omega) hinv0
      refine ⟨t1, h1, h2, fun k v => ?_⟩
      rw [h3, hlive0]
      have hki : keyAt f.entries i = some key := by rw [keyAt_eq _ _ _ hge, hk]
      have hee : e = ⟨some key, e.value⟩ := by rw [← hk]
      by_cases hkk : k = key
      · subst hkk
        have hnot : ¬ ∃ j, i + 1 ≤ j ∧ keyAt f.entries j = some k := by
          rintro ⟨j, hj, h⟩
          have := hf.key_unique heap f i j k hki h
          omega
        constructor
        · rintro (⟨j, hj, h⟩ | ⟨h | h, _⟩)
          · exact absurd ⟨j, hj, by rw [keyAt_eq _ _ _ h]⟩ hnot
          · refine Or.inl ⟨i, le_refl _, ?_⟩
            rw [hge, h.2]; exact congrArg some hee
          · exact absurd rfl h.1
        · rintro (⟨j, hj, h⟩ | ⟨_, h⟩)
          · have hji := hf.key_unique heap f i j k hki (by rw [keyAt_eq _ _ _ h])
            subst hji
            rw [hge] at h
            refine Or.inr ⟨Or.inl ⟨rfl, ?_⟩, hnot⟩
            have := congrArg Entry.value (Option.some.inj h)
            exact this.symm
          · exact absurd ⟨i, le_refl _, hki⟩ h
      · have hne : ∀ j, keyAt f.entries j = some k → j ≠ i := by
          intro j h e1
          subst e1
          rw [hki] at h
          exact hkk (Option.some.inj h).symm
        have hstep : ∀ (P : Nat → Prop), (∀ j, P j → j ≠ i) →
            ((∃ j, i + 1 ≤ j ∧ P j) ↔ ∃ j, i ≤ j ∧ P j) := by
          intro P hP
          constructor
          · rintro ⟨j, hj, h⟩; exact ⟨j, by omega, h⟩
          · rintro ⟨j, hj, h⟩
            have := hP j h
            exact ⟨j, by omega, h⟩
        rw [hstep (fun j => f.entries[j]? = some ⟨some k, v⟩)
            (fun j h => hne j (by
              have h1 : f.entries[j]? = some ⟨some k, v⟩ := h
              rw [keyAt_eq _ _ _ h1])),
          hstep (fun j => keyAt f.entries j = some k) hne]
        constructor
        · rintro (h | ⟨h | h, h2⟩)
          · exact Or.inl h
          · exact absurd h.1 hkk
          · exact Or.inr ⟨h.2, h2⟩
        · rintro (h | ⟨h, h2⟩)
          · exact Or.inl h
          · exact Or.inr ⟨Or.inr ⟨hkk, h⟩, h2⟩


/-- What `tableSet` does to `capacity` and `count`. -/
theorem tableSet_shape (heap : Heap) (t t1 : Table) (key v : Nat) (b : Bool)
    (hinv : TableInv heap t) (h : tableSet heap t key v = some (b, t1)) :
    (4 * (t.count + 1) ≤ 3 * t.capacity →
      t1.capacity = t.capacity ∧ (b = false → t1.count = t.count)) ∧
    (3 * t.capacity < 4 * (t.count + 1) →
      t1.capacity = GROW_CAPACITY t.capacity ∧ (b = false → t1.count ≤ t.count)) := by
  unfold tableSet at h
  constructor
  · intro hg
    have hng : ¬ 4 * (t.count + 1) > 3 * t.capacity := by omega
    simp only [hng, if_false, Option.some_bind] at h
    cases hfi : findEntry heap t.entries t.capacity key with
    | none => rw [hfi] at h; cases h
    | some i =>
      rw [hfi] at h
      simp only [Option.some_bind, List.get?_eq_getElem?] at h
      cases hge : t.entries[i]? with
      | none => rw [hge] at h; cases h
      | some e =>
        rw [hge] at h
        simp only [Option.map_some', Option.some.injEq, Prod.mk.injEq] at h
        obtain ⟨hb, ht1⟩ := h
        subst ht1
        refine ⟨rfl, fun hbf => ?_⟩
        simp only [hb, hbf, Bool.false_and, Bool.false_eq_true, if_false]
  · intro hg
    have hg1 : 4 * (t.count + 1) > 3 * t.capacity := hg
    obtain ⟨t0, h0, hcap0, _, _, _, hcount0, _⟩ := adjustCapacity_spec heap t hinv
    simp only [hg1, if_true, h0, Option.some_bind] at h
    cases hfi : findEntry heap t0.entries t0.capacity key with
    | none => rw [hfi] at h; cases h
    | some i =>
      rw [hfi] at h
      simp only [Option.some_bind, List.get?_eq_getElem?] at h
      cases hge : t0.entries[i]? with
      | none => rw [hge] at h; cases h
      | some e =>
        rw [hge] at h
        simp only [Option.map_some', Option.some.injEq, Prod.mk.injEq] at h
        obtain ⟨hb, ht1⟩ := h
        subst ht1
        refine ⟨hcap0, fun hbf => ?_⟩
        simp only [hb, hbf, Bool.false_and, Bool.false_eq_true, if_false]
        exact hcount0

/-- The loop of `tableAddAll` when both arguments are the same table `t`,
from bucket `i` on: every `tableSet` finds its key, the table is rebuilt at
most once, and it holds the same entries at the end. -/
theorem tableAddAllLoop_same (heap : Heap) (t0 : Table) (h0 : TableInv heap t0) :
    ∀ (n i fuel : Nat) (t : Table), n = GROW_CAPACITY t0.capacity - i → n + 1 ≤ fuel →
      TableInv heap t → (∀ k v, Live t.entries k v ↔ Live t0.entries k v) →
      t.count ≤ t0.count →
      (t.capacity = t0.capacity ∨ t.capacity = GROW_CAPACITY t0.capacity) →
      ∃ t1, tableAddAllLoop heap true fuel t t i = some t1 ∧ TableInv heap t1 ∧
        ∀ k v, Live t1.entries k v ↔ Live t0.entries k v := by
  have hgrow := GROW_CAPACITY_pow t0.capacity (h0.pow_cases heap t0)
  have hload0 := h0.load
  intro n
  induction n with
  | zero =>
    intro i fuel t hn hfuel ht hl hc hcap
    obtain ⟨fuel, rfl⟩ : ∃ m, fuel = m + 1 := ⟨fuel - 1, by omega⟩
    have hige : ¬ i < t.capacity := by omega
    exact ⟨t, by simp only [tableAddAllLoop, hige, if_false], ht, hl⟩
  | succ n ih =>
    intro i fuel t hn hfuel ht hl hc hcap
    obtain ⟨fuel, rfl⟩ : ∃ m, fuel = m + 1 := ⟨fuel - 1, by omega⟩
    by_cases hilt : i < t.capacity
    · obtain ⟨e, hge⟩ : ∃ e, t.entries[i]? = some e :=
        ⟨_, List.getElem?_eq_getElem (by rw [ht.length_eq heap t]; exact hilt)⟩
      rw [tableAddAllLoop]
      simp only [hilt, if_true, List.get?_eq_getElem?, hge]
      cases hk : e.key with
      | none =>
        simp only
        exact ih (i + 1) fuel t (by omega) (by omega) ht hl hc hcap
      | some key =>
        simp only
        obtain ⟨s, hs⟩ := ht.entry_string heap t i key e hge hk
        obtain ⟨b, t1, hset, hinv1, hlive1, hb⟩ := tableSet_spec heap t key e.value s ht hs
        have hbf : b = false := by
          cases b with
          | false => rfl
          | true => exact absurd (by rw [keyAt_eq _ _ _ hge, hk]) (hb.mp rfl i)
        subst hbf
        have hshape := tableSet_shape heap t t1 key e.value false ht hset
        have hpresent : Live t.entries key e.value := ⟨i, by rw [hge, ← hk]⟩
        have hl1 : ∀ k v, Live t1.entries k v ↔ Live t0.entries k v := by
          intro k v
          rw [hlive1, ← hl]
          constructor
          · rintro (h | h)
            · rw [h.1, h.2]; exact hpresent
            · exact h.2
          · intro h
            by_cases hkk : k = key
            · subst hkk
              have := Live_unique heap t.entries t.capacity
                (ht.probe (by omega)).1 k _ _ h hpresent
              exact Or.inl ⟨rfl, this⟩
            · exact Or.inr ⟨hkk, h⟩
        simp only [hset, if_true]
        have h8 := (ht.probe (by omega)).2
        by_cases hg : 4 * (t.count + 1) ≤ 3 * t.capacity
        · obtain ⟨hc1, hn1⟩ := hshape.1 hg
          exact ih (i + 1) fuel t1 (by omega) (by omega) hinv1 hl1
            (by rw [hn1 rfl]; exact hc) (by rw [hc1]; exact hcap)
        · obtain ⟨hc1, hn1⟩ := hshape.2 (by omega)
          have hcase : t.capacity = t0.capacity := by
            rcases hcap with h | h
            · exact h
            · exfalso
              rcases hgrow.2.2.2 with h8g | h2g
              · omega
              · omega
          have := hn1 rfl
          exact ih (i + 1) fuel t1 (by omega) (by omega) hinv1 hl1 (by omega)
            (Or.inr (by rw [hc1, hcase]))
    · exact ⟨t, by simp only [tableAddAllLoop, hilt, if_false], ht, hl⟩


/-- The function `tableAddAll(from, to)`, for two tables or twice the same
one: afterwards `to` holds every entry of `from`, and the entries it had
under other keys. -/
theorem tableAddAll_spec (heap : Heap) (f t : Table) (same : Bool)
    (hf : TableInv heap f) (ht : TableInv heap t) (hsame : same = true → t = f) :
    ∃ t1, tableAddAll heap f t same = some t1 ∧ TableInv heap t1 ∧
      ∀ k v, Live t1.entries k v ↔
        (Live f.entries k v ∨ (Live t.entries k v ∧ ¬ f.hasKey k)) := by
  have hgrow := GROW_CAPACITY_pow f.capacity (hf.pow_cases heap f)
  cases same with
  | false =>
    obtain ⟨t1, h1, h2, h3⟩ := tableAddAllLoop_spec heap f hf (f.capacity - 0) 0
      (GROW_CAPACITY f.capacity + 1) t rfl (Nat.zero_le _) (by omega) ht
    refine ⟨t1, h1, h2, fun k v => ?_⟩
    rw [h3]
    have e1 : (∃ j, 0 ≤ j ∧ f.entries[j]? = some ⟨some k, v⟩) ↔ Live f.entries k v :=
      ⟨fun ⟨j, _, h⟩ => ⟨j, h⟩, fun ⟨j, h⟩ => ⟨j, Nat.zero_le _, h⟩⟩
    have e2 : (∃ j, 0 ≤ j ∧ keyAt f.entries j = some k) ↔ f.hasKey k :=
      ⟨fun ⟨j, _, h⟩ => ⟨j, h⟩, fun ⟨j, h⟩ => ⟨j, Nat.zero_le _, h⟩⟩
    rw [e1, e2]
  | true =>
    have e := hsame rfl
    subst e
    obtain ⟨t1, h1, h2, h3⟩ := tableAddAllLoop_same heap t ht (GROW_CAPACITY t.capacity - 0) 0
      (GROW_CAPACITY t.capacity + 1) t rfl (by omega) ht (fun _ _ => Iff.rfl) (le_refl _)
      (Or.inl rfl)
    refine ⟨t1, h1, h2, fun k v => ?_⟩
    rw [h3]
    constructor
    · exact Or.inl
    · rintro (h | h)
      · exact h
      · exact h.1

/-- C13: `OP_INHERIT` with a class at stack position 1 (the superclass) and
a class at position 0 (the subclass).  The instruction goes on; the method
table of the subclass then holds every method of the superclass with the
same closure, and under other names what it held before; no other object is
modified, so the superclass is as before when it is another object, and when
both positions hold the same class its table holds the same methods as
before; only the subclass is popped.  Last part, for any state `vmN`: when
the value at position 1 is not a class the run ends with the error
`Superclass must be a class.` and the heap is as before. -/
theorem C13_OP_INHERIT (vm vmN : VM) (supName subName : Nat) (from_ to_ : Table)
    (hobj : IS_OBJ (vm.peek 1) = true)
    (hsup : vm.heap.get (AS_OBJ (vm.peek 1)) = some (.OBJ_CLASS supName from_))
    (hsub : vm.heap.get (AS_OBJ (vm.peek 0)) = some (.OBJ_CLASS subName to_))
    (hf : TableInv vm.heap from_) (ht : TableInv vm.heap to_) :
    (∃ vm1 to1, run_OP_INHERIT vm = .next vm1 ∧
      vm1.heap.get (AS_OBJ (vm.peek 0)) = some (.OBJ_CLASS subName to1) ∧
      TableInv vm1.heap to1 ∧
      (∀ m v, Live from_.entries m v → Live to1.entries m v) ∧
      (∀ m v, Live to1.entries m v ↔
        (Live from_.entries m v ∨ (Live to_.entries m v ∧ ¬ from_.hasKey m))) ∧
      (∀ p, p ≠ AS_OBJ (vm.peek 0) → vm1.heap.get p = vm.heap.get p) ∧
      vm1.stack = vm.stack ∧ vm1.stackTop = vm.stackTop - 1 ∧ vm1.peek 0 = vm.peek 1 ∧
      vm1.frames = vm.frames ∧ vm1.globals = vm.globals) ∧
    ((IS_OBJ (vmN.peek 1) = false ∨
        ∃ obj, vmN.heap.get (AS_OBJ (vmN.peek 1)) = some obj ∧ obj.type ≠ .OBJ_CLASS) →
      ∀ trace, stackTrace vmN.heap vmN.frames.reverse = some trace →
        ∃ vm1, run_OP_INHERIT vmN = .ret .INTERPRET_RUNTIME_ERROR vm1 ∧
          vm1.stderr = vmN.stderr ++ "Superclass must be a class." ++ "\n" ++ trace ∧
          vm1.heap = vmN.heap) := by
  constructor
  · have htype : isObjType vm.heap (vm.peek 1) .OBJ_CLASS = some true := by
      rw [isObjType_of_get _ _ _ _ hobj hsup]; rfl
    have hsame : (AS_OBJ (vm.peek 1) == AS_OBJ (vm.peek 0)) = true → to_ = from_ := by
      intro h
      rw [beq_iff_eq] at h
      rw [h, hsub] at hsup
      cases hsup
      rfl
    obtain ⟨to1, h1, h2, h3⟩ := tableAddAll_spec vm.heap from_ to_ _ hf ht hsame
    have hstr : ∀ k, Heap.string (Heap.setObj vm.heap (AS_OBJ (vm.peek 0))
        (.OBJ_CLASS subName to1)) k = Heap.string vm.heap k := fun k =>
      Heap.setObj_string vm.heap _ k _ _ hsub (by simp [Obj.type]) (by simp [Obj.type])
    refine ⟨(pop { vm with
                   heap := vm.heap.setObj (AS_OBJ (vm.peek 0)) (.OBJ_CLASS subName to1) }).2,
      to1, ?_, ?_, ?_, ?_, h3, ?_, rfl, rfl, rfl, rfl, rfl⟩
    · simp only [run_OP_INHERIT, htype, hsup, hsub, h1]
    · exact Heap.setObj_get_self vm.heap _ _ _ hsub
    · exact TableInv_congr vm.heap _ to1 hstr h2
    · intro m v h
      exact (h3 m v).mpr (Or.inl h)
    · intro p hp
      exact Heap.setObj_get_ne vm.heap _ p _ hp
  · intro hno trace htrace
    refine ⟨resetStack { vmN with stderr := vmN.stderr ++ "Superclass must be a class." ++
      "\n" ++ trace }, ?_, rfl, rfl⟩
    simp only [run_OP_INHERIT, isObjType_false _ _ _ hno, Step.error_eq vmN _ trace htrace]


theorem C13_OP_INHERIT_witness :
    ∃ vm1 to1, run_OP_INHERIT inheritVM = .next vm1 ∧ vm1.stackTop = 2 ∧
      vm1.heap.get 4 = some (.OBJ_CLASS 2 to1) ∧ Live to1.entries 2 (OBJ_VAL 1) ∧
      vm1.heap.get 3 = inheritVM.heap.get 3 := by
  have hx : inheritVM.heap.string 2 = some (1, hashString "x".toList, "x".toList) := by decide
  have hm := singletonTable_spec inheritVM.heap 2 (OBJ_VAL 1) _ hx
  obtain ⟨vm1, to1, h1, h2, _, h4, _, h6, _, h8, _⟩ :=
    (C13_OP_INHERIT inheritVM inheritVM 2 2 (singletonTable inheritVM.heap 2 (OBJ_VAL 1)) initTable
      (by decide) (by decide) (by decide) hm.1 (TableInv_initTable _)).1
  exact ⟨vm1, to1, h1, h8, h2, h4 _ _ ((hm.2 _ _).mpr ⟨rfl, rfl⟩), h6 3 (by decide)⟩

end Loxj

/-! # Addition: `OP_ADD` and `concatenate` (C14) -/

namespace Loxj

theorem IS_OBJ_of_IS_NUMBER (v : Nat) (h : IS_NUMBER v = true) : IS_OBJ v = false := by
  cases ho : IS_OBJ v
  · rfl
  · exfalso
    simp only [IS_OBJ, beq_iff_eq] at ho
    simp only [IS_NUMBER, bne_iff_ne, ne_eq] at h
    apply h
    have h1 : (v &&& (QNAN ||| SIGN_BIT)) &&& QNAN = v &&& QNAN := by
      rw [Nat.and_assoc]
      congr 1
    rw [← h1, ho]
    decide

theorem Heap.string_eq_some (heap : Heap) (p : Nat) (s : Nat × Nat × List Char)
    (h : Heap.string heap p = some s) : Heap.get heap p = some (.OBJ_STRING s.1 s.2.1 s.2.2) := by
  unfold Heap.string at h
  split at h
  · cases h; assumption
  · cases h

theorem isObjType_string (heap : Heap) (v : Nat) (s : Nat × Nat × List Char)
    (h1 : IS_OBJ v = true) (h2 : Heap.string heap (AS_OBJ v) = some s) :
    isObjType heap v .OBJ_STRING = some true := by
  rw [isObjType_of_get heap v _ _ h1 (Heap.string_eq_some heap _ s h2)]
  rfl

/-- What `allocateString` leaves of the stack: the slots in use. -/
theorem allocateString_stack (vm vm1 : VM) (chars : List Char) (length hash p : Nat)
    (h : allocateString vm chars length hash = some (p, vm1)) :
    vm1.stackTop = vm.stackTop ∧ (∀ i, i < vm.stackTop → vm1.slot i = vm.slot i) ∧
      vm1.frames = vm.frames ∧ vm1.globals = vm.globals := by
  unfold allocateString at h
  simp only [allocateObject] at h
  cases hset : tableSet (vm.heap ++ [some ⟨false, .OBJ_STRING length hash chars⟩]) vm.strings
      vm.heap.length NIL_VAL with
  | none =>
    simp only [push, hset, Option.map_none'] at h
    cases h
  | some r =>
    simp only [push, hset, Option.map_some', pop, Option.some.injEq, Prod.mk.injEq] at h
    obtain ⟨_, h2⟩ := h
    subst h2
    refine ⟨by simp, ?_, rfl, rfl⟩
    intro i hi
    simp only [VM.slot]
    exact storeAt_getD_ne _ _ _ _ (by omega)

theorem takeString_stack (vm vm1 : VM) (chars : List Char) (length p : Nat)
    (h : takeString vm chars length = some (p, vm1)) :
    vm1.stackTop = vm.stackTop ∧ (∀ i, i < vm.stackTop → vm1.slot i = vm.slot i) ∧
      vm1.frames = vm.frames ∧ vm1.globals = vm.globals := by
  simp only [takeString] at h
  cases hf : tableFindString vm.heap vm.strings chars length (hashString (chars.take length)) with
  | none => rw [hf] at h; cases h
  | some r =>
    rw [hf] at h
    simp only [Option.some_bind] at h
    cases r with
    | some q =>
      simp only [Option.some.injEq, Prod.mk.injEq] at h
      rw [← h.2]
      exact ⟨rfl, fun _ _ => rfl, rfl, rfl⟩
    | none => exact allocateString_stack vm vm1 _ _ _ p h


/-- C14: `OP_ADD` on `a` (below) and `b` (top).  For two strings of the
intern table (the top-level hypotheses) the instruction goes on with both
replaced by a string of the intern table whose bytes are those of `a`
followed by those of `b` and whose length is the sum of the lengths.  For two
numbers (any state `vmN`) it goes on with both replaced by their sum, `dadd`
being the addition of doubles.  In both cases the stack is one slot lower and
the slots below the operands are as before.  In every other case (any state
`vmE` whose top is no string, or is a string above a value that is none, and
whose two operands are not both numbers), among them a string with a number
in either order, the run ends with the error
`Operands must be two numbers or two strings.`. -/
theorem C14_OP_ADD (dadd : Nat → Nat → Nat) (vm vmN vmE : VM)
    (sa sb : Nat × Nat × List Char)
    (htop : 2 ≤ vm.stackTop)
    (hoa : IS_OBJ (vm.peek 1) = true) (hob : IS_OBJ (vm.peek 0) = true)
    (hsa : vm.heap.string (AS_OBJ (vm.peek 1)) = some sa)
    (hsb : vm.heap.string (AS_OBJ (vm.peek 0)) = some sb)
    (hinv : InternInv vm.heap vm.strings)
    (hka : vm.strings.hasKey (AS_OBJ (vm.peek 1)))
    (hkb : vm.strings.hasKey (AS_OBJ (vm.peek 0))) :
    (∃ r vm1, run_OP_ADD dadd vm = .next vm1 ∧ vm1.peek 0 = OBJ_VAL r ∧
      vm1.heap.string r = some (sa.1 + sb.1, hashString (sa.2.2 ++ sb.2.2), sa.2.2 ++ sb.2.2) ∧
      sa.1 + sb.1 = (sa.2.2 ++ sb.2.2).length ∧
      vm1.strings.hasKey r ∧ InternInv vm1.heap vm1.strings ∧
      vm1.stackTop = vm.stackTop - 1 ∧ ∀ i, i < vm.stackTop - 2 → vm1.slot i = vm.slot i) ∧
    (2 ≤ vmN.stackTop → IS_NUMBER (vmN.peek 0) = true → IS_NUMBER (vmN.peek 1) = true →
      ∃ vm1, run_OP_ADD dadd vmN = .next vm1 ∧ vm1.peek 0 = dadd (vmN.peek 1) (vmN.peek 0) ∧
        vm1.heap = vmN.heap ∧ vm1.strings = vmN.strings ∧
        vm1.stackTop = vmN.stackTop - 1 ∧ ∀ i, i < vmN.stackTop - 2 → vm1.slot i = vmN.slot i) ∧
    (∀ trace, stackTrace vmE.heap vmE.frames.reverse = some trace →
      ((isObjType vmE.heap (vmE.peek 0) .OBJ_STRING = some false ∨
          (isObjType vmE.heap (vmE.peek 0) .OBJ_STRING = some true ∧
            isObjType vmE.heap (vmE.peek 1) .OBJ_STRING = some false)) →
        (IS_NUMBER (vmE.peek 0) && IS_NUMBER (vmE.peek 1)) = false →
        ∃ vm1, run_OP_ADD dadd vmE = .ret .INTERPRET_RUNTIME_ERROR vm1 ∧
          vm1.stderr = vmE.stderr ++ "Operands must be two numbers or two strings." ++ "\n" ++
            trace) ∧
      (isObjType vmE.heap (vmE.peek 0) .OBJ_STRING = some true → IS_NUMBER (vmE.peek 1) = true →
        ∃ vm1, run_OP_ADD dadd vmE = .ret .INTERPRET_RUNTIME_ERROR vm1) ∧
      (IS_NUMBER (vmE.peek 0) = true → isObjType vmE.heap (vmE.peek 1) .OBJ_STRING = some true →
        ∃ vm1, run_OP_ADD dadd vmE = .ret .INTERPRET_RUNTIME_ERROR vm1)) := by
  have herr : ∀ trace, stackTrace vmE.heap vmE.frames.reverse = some trace →
      (isObjType vmE.heap (vmE.peek 0) .OBJ_STRING = some false ∨
          (isObjType vmE.heap (vmE.peek 0) .OBJ_STRING = some true ∧
            isObjType vmE.heap (vmE.peek 1) .OBJ_STRING = some false)) →
        (IS_NUMBER (vmE.peek 0) && IS_NUMBER (vmE.peek 1)) = false →
        ∃ vm1, run_OP_ADD dadd vmE = .ret .INTERPRET_RUNTIME_ERROR vm1 ∧
          vm1.stderr = vmE.stderr ++ "Operands must be two numbers or two strings." ++ "\n" ++
            trace := by
    intro trace htrace hstr hnum
    refine ⟨resetStack { vmE with
      stderr := vmE.stderr ++ "Operands must be two numbers or two strings." ++ "\n" ++ trace },
      ?_, rfl⟩
    rcases hstr with h | ⟨h0, h1⟩
    · simp only [run_OP_ADD, h, Bool.false_eq_true, if_false, hnum,
        Step.error_eq vmE _ trace htrace]
    · simp only [run_OP_ADD, h0, h1, if_true, hnum, Bool.false_eq_true, if_false,
        Step.error_eq vmE _ trace htrace]
  refine ⟨?_, ?_, fun trace htrace => ⟨herr trace htrace, ?_, ?_⟩⟩
  · have hca := hinv.cached _ sa hka hsa
    have hcb := hinv.cached _ sb hkb hsb
    have ht0 := isObjType_string vm.heap _ sb hob hsb
    have ht1 := isObjType_string vm.heap _ sa hoa hsa
    have hchars : sa.2.2.take sa.1 ++ sb.2.2.take sb.1 = sa.2.2 ++ sb.2.2 := by
      rw [hca.1, hcb.1, List.take_length, List.take_length]
    have hlen : sa.1 + sb.1 = (sa.2.2 ++ sb.2.2).length := by
      rw [List.length_append, ← hca.1, ← hcb.1]
    obtain ⟨p, vm1, h1, h2, h3, h4, _, _⟩ :=
      copyString_spec vm (sa.2.2 ++ sb.2.2) (sa.1 + sb.1) hinv (le_of_eq hlen)
    have htake : (sa.2.2 ++ sb.2.2).take (sa.1 + sb.1) = sa.2.2 ++ sb.2.2 := by
      rw [hlen, List.take_length]
    rw [htake] at h4
    have h1t : takeString vm (sa.2.2 ++ sb.2.2) (sa.1 + sb.1) = some (p, vm1) := h1
    obtain ⟨g1, g2, _, _⟩ := takeString_stack vm vm1 _ _ p h1t
    refine ⟨p, push (pop (pop vm1).2).2 (OBJ_VAL p), ?_, push_peek _ _, h4, hlen, h3, h2, ?_, ?_⟩
    · obtain ⟨la, ha, ca⟩ := sa
      obtain ⟨lb, hb, cb⟩ := sb
      simp only [run_OP_ADD, ht0, ht1, if_true, concatenate, hsa, hsb, hchars, h1t,
        Option.map_some', Step.ofOption]
    · show vm1.stackTop - 1 - 1 + 1 = vm.stackTop - 1
      rw [g1]; omega
    · intro i hi
      rw [push_slot_ne _ _ _ (by show i ≠ vm1.stackTop - 1 - 1; rw [g1]; omega)]
      exact g2 i (by omega)
  · intro htopN h0 h1
    have ho0 : isObjType vmN.heap (vmN.peek 0) .OBJ_STRING = some false :=
      isObjType_false _ _ _ (Or.inl (IS_OBJ_of_IS_NUMBER _ h0))
    refine ⟨push (pop (pop vmN).2).2 (dadd (vmN.peek 1) (vmN.peek 0)), ?_, push_peek _ _,
      rfl, rfl, ?_, ?_⟩
    · simp only [run_OP_ADD, ho0, Bool.false_eq_true, if_false, h0, h1, Bool.and_self, if_true]
      rfl
    · show vmN.stackTop - 1 - 1 + 1 = vmN.stackTop - 1
      omega
    · intro i hi
      exact push_slot_ne _ _ _ (by show i ≠ vmN.stackTop - 1 - 1; omega)
  · intro h0 h1
    have hn0 : IS_NUMBER (vmE.peek 0) = false := by
      cases hn : IS_NUMBER (vmE.peek 0)
      · rfl
      · rw [isObjType_false _ _ _ (Or.inl (IS_OBJ_of_IS_NUMBER _ hn))] at h0
        cases h0
    obtain ⟨vm1, h, _⟩ := herr trace htrace
      (Or.inr ⟨h0, isObjType_false _ _ _ (Or.inl (IS_OBJ_of_IS_NUMBER _ h1))⟩)
      (by rw [hn0]; rfl)
    exact ⟨vm1, h⟩
  · intro h0 h1
    have hn1 : IS_NUMBER (vmE.peek 1) = false := by
      cases hn : IS_NUMBER (vmE.peek 1)
      · rfl
      · rw [isObjType_false _ _ _ (Or.inl (IS_OBJ_of_IS_NUMBER _ hn))] at h1
        cases h1
    obtain ⟨vm1, h, _⟩ := herr trace htrace
      (Or.inl (isObjType_false _ _ _ (Or.inl (IS_OBJ_of_IS_NUMBER _ h0))))
      (by rw [hn1]; simp)
    exact ⟨vm1, h⟩


theorem C14_OP_ADD_witness :
    ∃ r vm1, run_OP_ADD (fun a _ => a) addVM = .next vm1 ∧ vm1.peek 0 = OBJ_VAL r ∧
      vm1.heap.string r = some (2, hashString ['x', 'x'], ['x', 'x']) ∧ vm1.stackTop = 2 := by
  have hx : addVM.heap.string 2 = some (1, hashString "x".toList, "x".toList) := by decide
  have hm := singletonTable_spec addVM.heap 2 NIL_VAL _ hx
  have hkey : ∀ k, addVM.strings.hasKey k ↔ k = 2 := by
    intro k
    rw [hasKey_iff_Live]
    constructor
    · rintro ⟨v, hv⟩
      exact ((hm.2 k v).mp hv).1
    · intro h
      exact ⟨NIL_VAL, (hm.2 _ _).mpr ⟨h, rfl⟩⟩
  have hinv : InternInv addVM.heap addVM.strings := by
    refine ⟨hm.1, ?_, ?_⟩
    · intro k s hk hs
      rw [(hkey k).mp hk, hx] at hs
      cases hs
      decide
    · intro ki kj si sj hki hkj _ _ _
      rw [(hkey ki).mp hki, (hkey kj).mp hkj]
  obtain ⟨r, vm1, h1, h2, h3, _, _, _, h7, _⟩ :=
    (C14_OP_ADD (fun a _ => a) addVM addVM addVM _ _ (by decide) (by decide) (by decide) hx hx
      hinv ((hkey _).mpr (by decide)) ((hkey _).mpr (by decide))).1
  exact ⟨r, vm1, h1, h2, h3, h7⟩

end Loxj

/-! # Returns: `closeUpvalues` and `OP_RETURN` (C15) -/

namespace Loxj

theorem OpenList_congr (heap heap1 : Heap) :
    ∀ (l : List (Nat × Nat)) (head : Option Nat),
      (∀ x ∈ l, Heap.get heap1 x.1 = Heap.get heap x.1) →
      OpenList heap head l → OpenList heap1 head l := by
  intro l
  induction l with
  | nil =>
    intro head _ h
    cases head with
    | none => trivial
    | some p => exact absurd h (by simp [OpenList])
  | cons x rest ih =>
    intro head hh h
    cases head with
    | none => exact absurd h (by simp [OpenList])
    | some p =>
      obtain ⟨hp, closed, next, hg, hrest⟩ := h
      refine ⟨hp, closed, next, ?_, ih next (fun y hy => hh y (List.mem_cons_of_mem _ hy)) hrest⟩
      rw [hp, hh x (List.mem_cons_self _ _), ← hp]
      exact hg

/-- In a list with strictly decreasing slots no address occurs twice. -/
theorem OpenList_not_mem (heap : Heap) :
    ∀ (l : List (Nat × Nat)) (head : Option Nat) (p slot : Nat) (closed : Nat) (next : Option Nat),
      OpenList heap head l → Heap.get heap p = some (.OBJ_UPVALUE (.stack slot) closed next) →
      (∀ y ∈ l, y.2 < slot) → ∀ y ∈ l, y.1 ≠ p := by
  intro l
  induction l with
  | nil => intro _ _ _ _ _ _ _ _ y hy; cases hy
  | cons x rest ih =>
    intro head p slot closed next h hg hlt y hy
    cases head with
    | none => exact absurd h (by simp [OpenList])
    | some q =>
      obtain ⟨hq, c1, n1, hg1, hrest⟩ := h
      rcases List.mem_cons.mp hy with rfl | hy1
      · intro e
        rw [hq, e, hg] at hg1
        have := hlt y (List.mem_cons_self _ _)
        simp only [Option.some.injEq, Obj.OBJ_UPVALUE.injEq, UpvalueLocation.stack.injEq] at hg1
        omega
      · exact ih n1 p slot closed next hrest hg
          (fun z hz => hlt z (List.mem_cons_of_mem _ hz)) y hy1

theorem OpenList_lt_length (heap : Heap) :
    ∀ (l : List (Nat × Nat)) (head : Option Nat), OpenList heap head l →
      ∀ y ∈ l, y.1 < heap.length := by
  intro l
  induction l with
  | nil => intro _ _ y hy; cases hy
  | cons x rest ih =>
    intro head h y hy
    cases head with
    | none => exact absurd h (by simp [OpenList])
    | some q =>
      obtain ⟨hq, c1, n1, hg1, hrest⟩ := h
      rcases List.mem_cons.mp hy with rfl | hy1
      · rw [← hq]; exact Heap.get_some_lt heap q _ hg1
      · exact ih n1 hrest y hy1

theorem OpenList_nodup (heap : Heap) :
    ∀ (l : List (Nat × Nat)) (head : Option Nat), OpenList heap head l → OpenSorted l →
      (l.map Prod.fst).Nodup := by
  intro l
  induction l with
  | nil => intro _ _ _; exact List.nodup_nil
  | cons x rest ih =>
    intro head h hs
    cases head with
    | none => exact absurd h (by simp [OpenList])
    | some q =>
      obtain ⟨hq, c1, n1, hg1, hrest⟩ := h
      have hs1 := List.pairwise_cons.mp hs
      rw [List.map_cons, List.nodup_cons]
      refine ⟨?_, ih n1 hrest hs1.2⟩
      intro hmem
      obtain ⟨y, hy, hy1⟩ := List.mem_map.mp hmem
      have := OpenList_not_mem heap rest n1 q x.2 c1 n1 hrest hg1 hs1.1 y hy
      exact this (by rw [hy1, hq])

theorem OpenList_length_le (heap : Heap) (l : List (Nat × Nat)) (head : Option Nat)
    (h : OpenList heap head l) (hs : OpenSorted l) : l.length ≤ heap.length := by
  have hnd := OpenList_nodup heap l head h hs
  have hsub : (l.map Prod.fst).toFinset ⊆ Finset.range heap.length := by
    intro p hp
    rw [List.mem_toFinset] at hp
    obtain ⟨y, hy, hy1⟩ := List.mem_map.mp hp
    rw [Finset.mem_range, ← hy1]
    exact OpenList_lt_length heap l head h y hy
  have := Finset.card_le_card hsub
  rw [List.toFinset_card_of_nodup hnd, List.length_map, Finset.card_range] at this
  exact this


/-- The loop of `closeUpvalues(last)` on a sorted list of open upvalues: it
closes those whose slot is at `last` or above, each with the value of its
slot, unlinks them, and touches nothing else. -/
theorem closeUpvaluesLoop_spec (last : Nat) :
    ∀ (l : List (Nat × Nat)) (fuel : Nat) (vm : VM),
      OpenList vm.heap vm.openUpvalues l → OpenSorted l → l.length < fuel →
      ∃ vm1, closeUpvaluesLoop fuel vm last = some vm1 ∧
        OpenList vm1.heap vm1.openUpvalues (l.dropWhile fun x => decide (last ≤ x.2)) ∧
        (∀ x ∈ l.dropWhile (fun x => decide (last ≤ x.2)), x.2 < last) ∧
        (∀ x ∈ l.takeWhile (fun x => decide (last ≤ x.2)), ∃ next,
          vm1.heap.get x.1 = some (.OBJ_UPVALUE .closed (vm.slot x.2) next)) ∧
        (∀ q, (∀ x ∈ l.takeWhile (fun x => decide (last ≤ x.2)), x.1 ≠ q) →
          vm1.heap.get q = vm.heap.get q) ∧
        vm1.stack = vm.stack ∧ vm1.stackTop = vm.stackTop ∧ vm1.frames = vm.frames ∧
        vm1.globals = vm.globals ∧ vm1.strings = vm.strings ∧
        vm1.heap.length = vm.heap.length := by
  intro l
  induction l with
  | nil =>
    intro fuel vm h _ hfuel
    obtain ⟨fuel, rfl⟩ : ∃ m, fuel = m + 1 := ⟨fuel - 1, by simp at hfuel; omega⟩
    cases ho : vm.openUpvalues with
    | some p => rw [ho] at h; exact absurd h (by simp [OpenList])
    | none =>
      refine ⟨vm, by simp only [closeUpvaluesLoop, ho], ?_, ?_, ?_, fun _ _ => rfl,
        rfl, rfl, rfl, rfl, rfl, rfl⟩
      · rw [ho]; trivial
      · intro x hx; cases hx
      · intro x hx; cases hx
  | cons x rest ih =>
    intro fuel vm h hs hfuel
    obtain ⟨fuel, rfl⟩ : ∃ m, fuel = m + 1 := ⟨fuel - 1, by simp at hfuel; omega⟩
    have hs1 := List.pairwise_cons.mp hs
    cases ho : vm.openUpvalues with
    | none => rw [ho] at h; exact absurd h (by simp [OpenList])
    | some p =>
      have h0 := h
      rw [ho] at h
      obtain ⟨hp, closed, next, hg, hrest⟩ := h
      by_cases hge : last ≤ x.2
      · have hne : ∀ y ∈ rest, y.1 ≠ p :=
          OpenList_not_mem vm.heap rest next p x.2 closed next hrest hg hs1.1
        have hrest1 : OpenList (Heap.setObj vm.heap p (.OBJ_UPVALUE .closed (vm.slot x.2) next))
            next rest :=
          OpenList_congr vm.heap _ rest next
            (fun y hy => Heap.setObj_get_ne vm.heap p y.1 _ (hne y hy)) hrest
        obtain ⟨vm1, g1, g2, g3, g4, g5, g6, g7, g8, g9, g10, g11⟩ :=
          ih fuel { vm with
                    heap := Heap.setObj vm.heap p (.OBJ_UPVALUE .closed (vm.slot x.2) next),
                    openUpvalues := next } hrest1 hs1.2 (by simp at hfuel ⊢; omega)
        have hdrop : (x :: rest).dropWhile (fun x => decide (last ≤ x.2)) =
            rest.dropWhile (fun x => decide (last ≤ x.2)) := by
          rw [List.dropWhile_cons]; simp [hge]
        have htake : (x :: rest).takeWhile (fun x => decide (last ≤ x.2)) =
            x :: rest.takeWhile (fun x => decide (last ≤ x.2)) := by
          rw [List.takeWhile_cons]; simp [hge]
        rw [hdrop, htake]
        refine ⟨vm1, ?_, g2, g3, ?_, ?_, g6, g7, g8, g9, g10, ?_⟩
        · rw [closeUpvaluesLoop]
          simp only [ho, hg, ge_iff_le, hge, if_true]
          exact g1
        · intro y hy
          rcases List.mem_cons.mp hy with rfl | hy1
          · refine ⟨next, ?_⟩
            rw [g5 y.1 (fun z hz => by
              rw [← hp]; exact hne z (List.takeWhile_subset _ hz)), ← hp]
            exact Heap.setObj_get_self vm.heap p _ _ hg
          · exact g4 y hy1
        · intro q hq
          rw [g5 q (fun z hz => hq z (List.mem_cons_of_mem _ hz))]
          exact Heap.setObj_get_ne vm.heap p q _
            (fun e => hq x (List.mem_cons_self _ _) (by rw [e, hp]))
        · rw [g11]; exact Heap.setObj_length _ _ _
      · have hdrop : (x :: rest).dropWhile (fun x => decide (last ≤ x.2)) = x :: rest := by
          rw [List.dropWhile_cons]; simp [hge]
        have htake : (x :: rest).takeWhile (fun x => decide (last ≤ x.2)) = [] := by
          rw [List.takeWhile_cons]; simp [hge]
        rw [hdrop, htake]
        refine ⟨vm, ?_, h0, ?_, ?_, fun _ _ => rfl, rfl, rfl, rfl, rfl, rfl, rfl⟩
        · rw [closeUpvaluesLoop]
          simp only [ho, hg, ge_iff_le, hge, if_false]
        · intro y hy
          rcases List.mem_cons.mp hy with rfl | hy1
          · omega
          · have := hs1.1 y hy1
            omega
        · intro y hy; cases hy

theorem closeUpvalues_spec (vm : VM) (last : Nat) (l : List (Nat × Nat))
    (h : OpenList vm.heap vm.openUpvalues l) (hs : OpenSorted l) :
    ∃ vm1, closeUpvalues vm last = some vm1 ∧
      OpenList vm1.heap vm1.openUpvalues (l.dropWhile fun x => decide (last ≤ x.2)) ∧
      (∀ x ∈ l.dropWhile (fun x => decide (last ≤ x.2)), x.2 < last) ∧
      (∀ x ∈ l.takeWhile (fun x => decide (last ≤ x.2)), ∃ next,
        vm1.heap.get x.1 = some (.OBJ_UPVALUE .closed (vm.slot x.2) next)) ∧
      (∀ q, (∀ x ∈ l.takeWhile (fun x => decide (last ≤ x.2)), x.1 ≠ q) →
        vm1.heap.get q = vm.heap.get q) ∧
      vm1.stack = vm.stack ∧ vm1.stackTop = vm.stackTop ∧ vm1.frames = vm.frames ∧
      vm1.globals = vm.globals ∧ vm1.strings = vm.strings ∧
      vm1.heap.length = vm.heap.length :=
  closeUpvaluesLoop_spec last l (vm.heap.length + 1) vm h hs
    (Nat.lt_succ_of_le (OpenList_length_le vm.heap l _ h hs))


theorem mem_takeWhile_of_sorted (last : Nat) :
    ∀ (l : List (Nat × Nat)), OpenSorted l → ∀ x ∈ l, last ≤ x.2 →
      x ∈ l.takeWhile fun x => decide (last ≤ x.2) := by
  intro l
  induction l with
  | nil => intro _ x hx; cases hx
  | cons y rest ih =>
    intro hs x hx hle
    have hs1 := List.pairwise_cons.mp hs
    have hy : last ≤ y.2 := by
      rcases List.mem_cons.mp hx with rfl | h
      · exact hle
      · have := hs1.1 x h
        omega
    rw [List.takeWhile_cons]
    simp only [hy, decide_True, if_true]
    rcases List.mem_cons.mp hx with rfl | h
    · exact List.mem_cons_self _ _
    · exact List.mem_cons_of_mem _ (ih hs1.2 x h hle)

/-- C15: `OP_RETURN` in a state whose open upvalues form a list with
decreasing slots.  In a frame that is not the outermost one, the instruction
goes on with one frame less, the caller's frame on top with its saved `ip`,
`stackTop` at the base slot of the returning frame plus one, the returned
value in that base slot and the slots below it as before; every upvalue that
was open on a slot at or above the base is closed with the value of its slot,
and the open upvalues left all point below the base.  In the outermost frame
`run` returns `INTERPRET_OK` with no frame left, the returned value and the
script closure popped. -/
theorem C15_OP_RETURN (vm : VM) (frame : CallFrame) (outer : List CallFrame)
    (l : List (Nat × Nat))
    (hframes : vm.frames = outer ++ [frame])
    (hopen : OpenList vm.heap vm.openUpvalues l) (hsorted : OpenSorted l) :
    (outer ≠ [] →
      ∃ vm1, run_OP_RETURN vm = .next vm1 ∧
        vm1.frames = outer ∧ vm1.frameCount + 1 = vm.frameCount ∧
        vm1.ip = outer.getLast?.map (fun f => f.ip) ∧
        vm1.stackTop = frame.slots + 1 ∧ vm1.slot frame.slots = vm.peek 0 ∧
        (∀ i, i < frame.slots → vm1.slot i = vm.slot i) ∧
        (∃ l1, OpenList vm1.heap vm1.openUpvalues l1 ∧ OpenSorted l1 ∧
          ∀ x ∈ l1, x.2 < frame.slots) ∧
        (∀ x ∈ l, frame.slots ≤ x.2 → ∃ next,
          vm1.heap.get x.1 = some (.OBJ_UPVALUE .closed (vm.slot x.2) next))) ∧
    (outer = [] →
      ∃ vm1, run_OP_RETURN vm = .ret .INTERPRET_OK vm1 ∧ vm1.frameCount = 0 ∧
        vm1.stackTop = vm.stackTop - 2 ∧
        ∃ l1, OpenList vm1.heap vm1.openUpvalues l1 ∧ ∀ x ∈ l1, x.2 < frame.slots) := by
  have hlast : vm.frames.getLast? = some frame := by
    rw [hframes]; simp
  have hdrop : vm.frames.dropLast = outer := by
    rw [hframes]; simp
  obtain ⟨vm2, g1, g2, g3, g4, _, g6, g7, g8, _, _, _⟩ :=
    closeUpvalues_spec (pop vm).2 frame.slots l hopen hsorted
  have g8 : vm2.frames = vm.frames := g8
  have g6 : vm2.stack = vm.stack := g6
  have g7 : vm2.stackTop = vm.stackTop - 1 := g7
  have hsub : (l.dropWhile fun x => decide (frame.slots ≤ x.2)).Sublist l :=
    List.dropWhile_sublist _
  constructor
  · intro hne
    refine ⟨push { vm2 with frames := vm2.frames.dropLast, stackTop := frame.slots } (vm.peek 0),
      ?_, ?_, ?_, ?_, rfl, ?_, ?_, ⟨_, g2, hsorted.sublist hsub, g3⟩, ?_⟩
    · have hfc : ¬ ({ vm2 with frames := vm2.frames.dropLast } : VM).frameCount = 0 := by
        show ¬ vm2.frames.dropLast.length = 0
        rw [g8, hdrop]
        exact fun h => hne (List.length_eq_zero.mp h)
      simp only [run_OP_RETURN, hlast, g1, hfc, if_false]
      rfl
    · show vm2.frames.dropLast = outer
      rw [g8, hdrop]
    · show vm2.frames.dropLast.length + 1 = vm.frames.length
      rw [g8, hdrop, hframes]; simp
    · show (vm2.frames.dropLast.getLast?).map _ = _
      rw [g8, hdrop]
    · show (storeAt vm2.stack frame.slots (vm.peek 0)).getD frame.slots 0 = _
      exact storeAt_getD_self _ _ _
    · intro i hi
      show (storeAt vm2.stack frame.slots (vm.peek 0)).getD i 0 = _
      rw [storeAt_getD_ne _ _ _ _ (by omega), g6]
      rfl
    · intro x hx hle
      exact g4 x (mem_takeWhile_of_sorted frame.slots l hsorted x hx hle)
  · intro he
    refine ⟨(pop { vm2 with frames := vm2.frames.dropLast }).2, ?_, ?_, ?_, ⟨_, g2, g3⟩⟩
    · have hfc : ({ vm2 with frames := vm2.frames.dropLast } : VM).frameCount = 0 := by
        show vm2.frames.dropLast.length = 0
        rw [g8, hdrop, he]; rfl
      simp only [run_OP_RETURN, hlast, g1, hfc, if_true]
    · show vm2.frames.dropLast.length = 0
      rw [g8, hdrop, he]; rfl
    · show vm2.stackTop - 1 = vm.stackTop - 2
      rw [g7]; omega

theorem C15_OP_RETURN_witness :
    ∃ vm1, run_OP_RETURN returnVM = .next vm1 ∧ vm1.frameCount = 1 ∧ vm1.ip = some 8 ∧
      vm1.stackTop = 2 ∧ vm1.slot 1 = OBJ_VAL 5 ∧ vm1.openUpvalues = none ∧
      vm1.heap.get 6 = some (.OBJ_UPVALUE .closed NIL_VAL none) := by
  obtain ⟨vm1, h1, _⟩ :=
    (C15_OP_RETURN returnVM ⟨3, 8, 1⟩ [⟨1, 8, 0⟩] [(6, 2)] (by decide)
      ⟨rfl, NIL_VAL, none, by decide, trivial⟩ (List.pairwise_singleton _ _)).1 (by decide)
  have e : vm1 = match run_OP_RETURN returnVM with
      | .next v => v
      | _ => returnVM := by rw [h1]
  refine ⟨vm1, h1, ?_, ?_, ?_, ?_, ?_, ?_⟩ <;> (rw [e]; decide)

end Loxj

/-! # Natives: `defineNative` (C19) -/

namespace Loxj

theorem tableGet_congr_heap (heap heap1 : Heap) (t : Table) (key : Nat)
    (h : Heap.string heap1 key = Heap.string heap key) :
    tableGet heap1 t key = tableGet heap t key := by
  simp only [tableGet, findEntry, h]

theorem Heap.string_append_native (heap : Heap) (f p : Nat) :
    Heap.string (heap ++ [some ⟨false, .OBJ_NATIVE f⟩]) p = Heap.string heap p := by
  unfold Heap.string
  rcases Nat.lt_trichotomy p heap.length with h | h | h
  · rw [Heap.get_append_lt _ _ _ h]
  · subst h
    rw [Heap.get_append_length, Heap.get_length]
  · have h1 : Heap.get (heap ++ [some ⟨false, .OBJ_NATIVE f⟩]) p = none := by
      simp [Heap.get, List.getD_eq_getElem?_getD, List.getElem?_eq_none, Nat.succ_le_of_lt h]
    have h2 : Heap.get heap p = none := by
      simp [Heap.get, List.getD_eq_getElem?_getD, List.getElem?_eq_none, Nat.le_of_lt h]
    rw [h1, h2]

/-- The function `copyString` leaves the heap as it is or puts one string at
its end, and leaves the globals and the slots in use alone. -/
theorem copyString_frame (vm vm1 : VM) (chars : List Char) (length p : Nat)
    (h : copyString vm chars length = some (p, vm1)) :
    (vm1.heap = vm.heap ∨ ∃ l hash c, vm1.heap = vm.heap ++ [some ⟨false, .OBJ_STRING l hash c⟩]) ∧
    vm1.stackTop = vm.stackTop ∧ vm1.globals = vm.globals := by
  have ht : takeString vm chars length = some (p, vm1) := h
  obtain ⟨h1, _, _, h4⟩ := takeString_stack vm vm1 chars length p ht
  refine ⟨?_, h1, h4⟩
  simp only [copyString] at h
  cases hf : tableFindString vm.heap vm.strings chars length (hashString (chars.take length)) with
  | none => rw [hf] at h; cases h
  | some r =>
    rw [hf] at h
    simp only [Option.some_bind] at h
    cases r with
    | some q =>
      simp only [Option.some.injEq, Prod.mk.injEq] at h
      rw [← h.2]
      exact Or.inl rfl
    | none =>
      right
      simp only [allocateString, allocateObject, push, pop] at h
      cases hset : tableSet (vm.heap ++ [some ⟨false,
          .OBJ_STRING length (hashString (chars.take length)) (chars.take length)⟩]) vm.strings
          vm.heap.length NIL_VAL with
      | none => rw [hset] at h; cases h
      | some r =>
        rw [hset] at h
        simp only [Option.map_some', Option.some.injEq, Prod.mk.injEq] at h
        rw [← h.2]
        exact ⟨_, _, _, rfl⟩


/-- C19, amended: in a state whose value stack is empty (as in `initVM`,
from where `loadBuiltInNative` calls it), with the intern table and the
globals well formed, `defineNative(name, fn)` returns; afterwards `name` is a
string of the intern table, the globals map it to a native object that wraps
`fn`, every other global is as before, and the stack is empty again. -/
theorem C19_defineNative (vm : VM) (name : List Char) (function : Nat)
    (hempty : vm.stackTop = 0)
    (hstr : InternInv vm.heap vm.strings) (hglob : TableInv vm.heap vm.globals)
    (hsize : vm.heap.length + 1 < 2 ^ 50) :
    ∃ p n vm1, defineNative vm name function = some vm1 ∧
      vm1.heap.string p = some (name.length, hashString name, name) ∧
      vm1.strings.hasKey p ∧ vm1.heap.get n = some (.OBJ_NATIVE function) ∧
      tableGet vm1.heap vm1.globals p = some (some (OBJ_VAL n)) ∧
      (∀ k sk, k ≠ p → vm.heap.string k = some sk →
        tableGet vm1.heap vm1.globals k = tableGet vm.heap vm.globals k) ∧
      vm1.stackTop = 0 ∧ InternInv vm1.heap vm1.strings ∧ TableInv vm1.heap vm1.globals := by
  obtain ⟨p, vm1, h1, hi1, hk1, hs1, _, _⟩ :=
    copyString_spec vm name name.length hstr (le_refl _)
  rw [List.take_length] at hs1
  obtain ⟨hheap, htop, hg⟩ := copyString_frame vm vm1 name name.length p h1
  rw [hempty] at htop
  -- the heap of `vm1` holds the strings of `vm`, and at most one object more
  have hext : ∀ k sk, vm.heap.string k = some sk → vm1.heap.string k = some sk := by
    intro k sk hk
    rcases hheap with e | ⟨l, hash, c, e⟩
    · rw [e]; exact hk
    · rw [e]; exact Heap.string_append_lt _ _ _ _ hk
  have hlen : vm1.heap.length ≤ vm.heap.length + 1 := by
    rcases hheap with e | ⟨l, hash, c, e⟩
    · rw [e]; omega
    · rw [e]; simp
  have hglob1 : TableInv vm1.heap vm1.globals := by
    rw [hg]
    rcases hheap with e | ⟨l, hash, c, e⟩
    · rw [e]; exact hglob
    · rw [e]; exact TableInv_heap_append _ _ _ hglob
  have hp : p < 2 ^ 50 := by
    have := Heap.get_some_lt vm1.heap p _ (Heap.string_eq_some vm1.heap p _ hs1)
    omega
  -- the state in which `tableSet` is called
  obtain ⟨vm4, hvm4⟩ : ∃ v : VM, v = push (newNative (push vm1 (OBJ_VAL p)) function).2
      (OBJ_VAL vm1.heap.length) := ⟨_, rfl⟩
  have h4heap : vm4.heap = vm1.heap ++ [some ⟨false, .OBJ_NATIVE function⟩] := by rw [hvm4]; rfl
  have h4glob : vm4.globals = vm1.globals := by rw [hvm4]; rfl
  have h4str : vm4.strings = vm1.strings := by rw [hvm4]; rfl
  have h4stack : vm4.stack = storeAt (storeAt vm1.stack 0 (OBJ_VAL p)) 1 (OBJ_VAL vm1.heap.length) := by
    rw [hvm4]
    show storeAt (storeAt vm1.stack vm1.stackTop (OBJ_VAL p)) (vm1.stackTop + 1) _ = _
    rw [htop]
  have h4top : vm4.stackTop = 2 := by
    rw [hvm4]
    show vm1.stackTop + 1 + 1 = 2
    rw [htop]
  have hslot0 : vm4.slot 0 = OBJ_VAL p := by
    simp only [VM.slot, h4stack]
    rw [storeAt_getD_ne _ _ _ _ (by decide)]
    exact storeAt_getD_self _ _ _
  have hslot1 : vm4.slot 1 = OBJ_VAL vm1.heap.length := by
    simp only [VM.slot, h4stack]
    exact storeAt_getD_self _ _ _
  have hdef : defineNative vm name function =
      (tableSet vm4.heap vm4.globals (AS_OBJ (vm4.slot 0)) (vm4.slot 1)).map fun t =>
        (pop (pop { vm4 with globals := t.2 }).2).2 := by
    simp only [defineNative, h1, Option.some_bind]
    rw [hvm4]
    rfl
  have hstr4 : ∀ k, vm4.heap.string k = vm1.heap.string k := by
    intro k; rw [h4heap]; exact Heap.string_append_native _ _ _
  have hglob4 : TableInv vm4.heap vm4.globals := by
    rw [h4glob]
    exact TableInv_congr vm1.heap vm4.heap _ hstr4 hglob1
  have hs4 : vm4.heap.string p = some (name.length, hashString name, name) := by
    rw [hstr4]; exact hs1
  obtain ⟨b, t1, hset, hinv1, hlive1, _⟩ :=
    tableSet_spec vm4.heap vm4.globals p (OBJ_VAL vm1.heap.length) _ hglob4 hs4
  rw [hslot0, hslot1, AS_OBJ_OBJ_VAL p hp, hset] at hdef
  refine ⟨p, vm1.heap.length, (pop (pop { vm4 with globals := t1 }).2).2, hdef, hs4, ?_, ?_, ?_,
    ?_, ?_, ?_, hinv1⟩
  · show vm4.strings.hasKey p
    rw [h4str]; exact hk1
  · show vm4.heap.get vm1.heap.length = _
    rw [h4heap]
    exact Heap.get_append_length _ _
  · obtain ⟨r, hr, hrv⟩ := tableGet_spec vm4.heap t1 p _ hinv1 hs4
    show tableGet vm4.heap t1 p = _
    rw [hr, (hrv (OBJ_VAL vm1.heap.length)).mpr ((hlive1 _ _).mpr (Or.inl ⟨rfl, rfl⟩))]
  · intro k sk hne hk
    have hk4 : vm4.heap.string k = some sk := by rw [hstr4]; exact hext k sk hk
    show tableGet vm4.heap t1 k = _
    rw [tableGet_eq_of_Live vm4.heap t1 vm4.globals k sk hinv1 hglob4 hk4 (fun v => by
      rw [hlive1]
      constructor
      · rintro (h | h)
        · exact absurd h.1 hne
        · exact h.2
      · intro h
        exact Or.inr ⟨hne, h⟩)]
    rw [h4glob, hg]
    exact tableGet_congr_heap vm.heap vm4.heap vm.globals k (by rw [hk4, hk])
  · show vm4.stackTop - 1 - 1 = 0
    rw [h4top]
  · show InternInv vm4.heap vm4.strings
    rw [h4str]
    exact ⟨TableInv_congr vm1.heap vm4.heap _ hstr4 hi1.table,
      fun k s hk hs => hi1.cached k s hk (by rw [← hstr4]; exact hs),
      fun ki kj si sj hki hkj hsi hsj => hi1.unique ki kj si sj hki hkj
        (by rw [← hstr4]; exact hsi) (by rw [← hstr4]; exact hsj)⟩

theorem C19_defineNative_witness :
    ∃ p n vm1, defineNative emptyVM "now".toList 7 = some vm1 ∧
      vm1.heap.string p = some (3, hashString "now".toList, "now".toList) ∧
      vm1.heap.get n = some (.OBJ_NATIVE 7) ∧
      tableGet vm1.heap vm1.globals p = some (some (OBJ_VAL n)) ∧ vm1.stackTop = 0 := by
  obtain ⟨p, n, vm1, h1, h2, _, h4, h5, _, h7, _⟩ :=
    C19_defineNative emptyVM "now".toList 7 rfl (InternInv_initTable _) (TableInv_initTable _)
      (by decide)
  exact ⟨p, n, vm1, h1, h2, h4, h5, h7⟩

/-- C19, as stated, fails on a stack that is not empty.  In `addVM`, where
slot 0 holds the script closure as it does while `run` executes,
`defineNative` hands that closure to `tableSet` as the key, and reading its
hash is not defined.  In `nativeCallVM`, where slot 0 holds the string `x`
and slot 1 the number 1, `defineNative("now", fn)` interns `now` (address 3)
and allocates the native (address 4), but then defines the global `x` as 1:
`now` is not a global afterwards, and the global `x`, undefined before, has
changed. -/
theorem C19_defineNative_counterexample :
    defineNative addVM "now".toList 7 = none ∧
    tableGet nativeCallVM.heap nativeCallVM.globals 2 = some none ∧
    ∃ vm1, defineNative nativeCallVM "now".toList 7 = some vm1 ∧
      vm1.heap.string 3 = some (3, hashString "now".toList, "now".toList) ∧
      vm1.heap.get 4 = some (.OBJ_NATIVE 7) ∧
      tableGet vm1.heap vm1.globals 3 = some none ∧
      tableGet vm1.heap vm1.globals 2 = some (some doubleOne) := by
  refine ⟨by decide, by decide, ?_⟩
  cases h : defineNative nativeCallVM "now".toList 7 with
  | none => exact absurd h (by decide)
  | some vm1 =>
    have e : vm1 = (defineNative nativeCallVM "now".toList 7).getD nativeCallVM := by rw [h]; rfl
    refine ⟨vm1, rfl, ?_, ?_, ?_, ?_⟩ <;> (rw [e]; decide)

end Loxj

/-! # Compiler: `emitByte`, `error`, `emitReturn` -/

namespace Loxj

theorem Compilation.compilingChunk_eq (c : Compilation) (compiler : Compiler)
    (enclosing : List Compiler) (name : Option Nat) (arity : Nat) (chunk : Chunk) (uc : Nat)
    (hcur : c.currentCompiler = compiler :: enclosing)
    (hfun : c.vm.heap.get compiler.function = some (.OBJ_FUNCTION name arity chunk uc)) :
    c.compilingChunk = some chunk := by
  simp only [Compilation.compilingChunk, hcur, hfun]

/-- What `emitByte` does when the current compiler writes to a function
object: the byte and the line go to the end of its chunk. -/
theorem Compilation.emitByte_spec (c : Compilation) (compiler : Compiler)
    (enclosing : List Compiler) (name : Option Nat) (arity : Nat) (chunk : Chunk) (uc : Nat)
    (byte : Nat)
    (hcur : c.currentCompiler = compiler :: enclosing)
    (hfun : c.vm.heap.get compiler.function = some (.OBJ_FUNCTION name arity chunk uc)) :
    ∃ c1, c.emitByte byte = some c1 ∧ c1.currentCompiler = compiler :: enclosing ∧
      c1.vm.heap.get compiler.function =
        some (.OBJ_FUNCTION name arity (writeChunk chunk (byte % 256) c.parser.line) uc) ∧
      c1.parser = c.parser ∧ c1.reported = c.reported ∧
      c1.innermostLoopStart = c.innermostLoopStart ∧
      c1.innermostLoopScopeDepth = c.innermostLoopScopeDepth ∧
      c1.vm.stack = c.vm.stack ∧ c1.vm.stackTop = c.vm.stackTop ∧
      (∀ q, q ≠ compiler.function → c1.vm.heap.get q = c.vm.heap.get q) := by
  obtain ⟨heap1, hheap1⟩ : ∃ h : Heap, h = c.vm.heap.setObj compiler.function
      (.OBJ_FUNCTION name arity (writeChunk chunk (byte % 256) c.parser.line) uc) := ⟨_, rfl⟩
  refine ⟨{ c with vm := { c.vm with heap := heap1 } }, ?_, hcur, ?_, rfl, rfl, rfl, rfl, rfl,
    rfl, ?_⟩ <;> rw [hheap1]
  · simp only [Compilation.emitByte, c.compilingChunk_eq compiler enclosing name arity chunk uc
      hcur hfun, Option.some_bind, Compilation.setChunk, hcur, hfun]
  · exact Heap.setObj_get_self _ _ _ _ hfun
  · intro q hq
    exact Heap.setObj_get_ne _ _ _ _ hq

/-- The function `error` leaves everything but the flags and the messages. -/
theorem Compilation.error_frame (c : Compilation) (message : String) :
    (c.error message).vm = c.vm ∧ (c.error message).currentCompiler = c.currentCompiler ∧
    (c.error message).parser.line = c.parser.line ∧
    (c.error message).innermostLoopStart = c.innermostLoopStart ∧
    (c.error message).innermostLoopScopeDepth = c.innermostLoopScopeDepth := by
  unfold Compilation.error
  split <;> exact ⟨rfl, rfl, rfl, rfl, rfl⟩

/-- Outside panic mode `error` prints the message and sets both flags. -/
theorem Compilation.error_reported (c : Compilation) (message : String)
    (h : c.parser.panicMode = false) :
    (c.error message).reported = c.reported ++ [message] ∧
    (c.error message).parser.hadError = true ∧ (c.error message).parser.panicMode = true := by
  simp [Compilation.error, h]

/-- In panic mode `error` does nothing. -/
theorem Compilation.error_panic (c : Compilation) (message : String)
    (h : c.parser.panicMode = true) : c.error message = c := by
  simp [Compilation.error, h]

/-- The bytes of `emitReturn`. -/
theorem Compilation.emitReturn_spec (c : Compilation) (compiler : Compiler)
    (enclosing : List Compiler) (name : Option Nat) (arity : Nat) (chunk : Chunk) (uc : Nat)
    (hcur : c.currentCompiler = compiler :: enclosing)
    (hfun : c.vm.heap.get compiler.function = some (.OBJ_FUNCTION name arity chunk uc)) :
    ∃ c1, c.emitReturn = some c1 ∧ c1.currentCompiler = compiler :: enclosing ∧
      c1.vm.heap.get compiler.function = some (.OBJ_FUNCTION name arity
        { chunk with
          code := chunk.code ++ (if compiler.type = .TYPE_INITIALIZER
            then [OP_GET_LOCAL, 0, OP_RETURN] else [OP_NIL, OP_RETURN]),
          lines := chunk.lines ++ (if compiler.type = .TYPE_INITIALIZER
            then [c.parser.line, c.parser.line, c.parser.line]
            else [c.parser.line, c.parser.line]) } uc) ∧
      c1.parser = c.parser ∧ c1.reported = c.reported ∧
      (∀ q, q ≠ compiler.function → c1.vm.heap.get q = c.vm.heap.get q) := by
  by_cases ht : compiler.type = .TYPE_INITIALIZER
  · obtain ⟨c1, h1, a1, b1, p1, r1, _, _, _, _, q1⟩ :=
      c.emitByte_spec compiler enclosing name arity chunk uc OP_GET_LOCAL hcur hfun
    obtain ⟨c2, h2, a2, b2, p2, r2, _, _, _, _, q2⟩ :=
      c1.emitByte_spec compiler enclosing name arity _ uc 0 a1 b1
    obtain ⟨c3, h3, a3, b3, p3, r3, _, _, _, _, q3⟩ :=
      c2.emitByte_spec compiler enclosing name arity _ uc OP_RETURN a2 b2
    refine ⟨c3, ?_, a3, ?_, by rw [p3, p2, p1], by rw [r3, r2, r1], ?_⟩
    · simp only [Compilation.emitReturn, hcur, ht, if_true, h1, Option.some_bind, h2, h3]
    · rw [b3, p2, p1]
      simp [writeChunk, ht, OP_GET_LOCAL, OP_RETURN]
    · intro q hq
      rw [q3 q hq, q2 q hq, q1 q hq]
  · obtain ⟨c1, h1, a1, b1, p1, r1, _, _, _, _, q1⟩ :=
      c.emitByte_spec compiler enclosing name arity chunk uc OP_NIL hcur hfun
    obtain ⟨c2, h2, a2, b2, p2, r2, _, _, _, _, q2⟩ :=
      c1.emitByte_spec compiler enclosing name arity _ uc OP_RETURN a1 b1
    refine ⟨c2, ?_, a2, ?_, by rw [p2, p1], by rw [r2, r1], ?_⟩
    · simp only [Compilation.emitReturn, hcur, ht, if_false, h1, Option.some_bind, h2]
    · rw [b2, p1]
      simp [writeChunk, ht, OP_NIL, OP_RETURN]
    · intro q hq
      rw [q2 q hq, q1 q hq]

end Loxj

/-! # Compiler: `returnStatement` (C17) -/

namespace Loxj

/-- The loop of `advance` changes the flags and the messages only, and
nothing when the next token is no error token. -/
theorem Parsing.advanceLoop_frame : ∀ (tokens : List Token) (c c1 : Compilation) (token : Token)
    (rest : List Token), Parsing.advanceLoop c tokens = some (c1, token, rest) →
    c1.vm = c.vm ∧ c1.currentCompiler = c.currentCompiler ∧ c1.parser.line = c.parser.line ∧
    (∃ scanned, c1.reported = c.reported ++ scanned) ∧
    (∀ first, tokens.head? = some first → first.type ≠ .TOKEN_ERROR → c1 = c)
  | [], c, c1, token, rest, h => by simp [Parsing.advanceLoop] at h
  | first :: more, c, c1, token, rest, h => by
    rw [Parsing.advanceLoop] at h
    by_cases he : first.type ≠ .TOKEN_ERROR
    · rw [if_pos he] at h
      simp only [Option.some.injEq, Prod.mk.injEq] at h
      obtain ⟨rfl, _, _⟩ := h
      exact ⟨rfl, rfl, rfl, ⟨[], by simp⟩, fun _ _ _ => rfl⟩
    · rw [if_neg he] at h
      cases hs : first.start with
      | static message =>
        rw [hs] at h
        simp only [] at h
        obtain ⟨e1, e2, e3, ⟨scanned, hsc⟩, _⟩ :=
          Parsing.advanceLoop_frame more (c.error message) c1 token rest h
        obtain ⟨f1, f2, f3, _, _⟩ := c.error_frame message
        refine ⟨by rw [e1, f1], by rw [e2, f2], by rw [e3, f3], ?_, ?_⟩
        · by_cases hp : c.parser.panicMode = true
          · rw [c.error_panic message hp] at hsc
            exact ⟨scanned, hsc⟩
          · have := (c.error_reported message (by simpa using hp)).1
            exact ⟨message :: scanned, by rw [hsc, this]; simp⟩
        · intro f hf hne
          simp only [List.head?_cons, Option.some.injEq] at hf
          subst hf
          exact absurd hne he
      | source offset => rw [hs] at h; simp at h
      | heap bytes => rw [hs] at h; simp at h

/-- What `advance` leaves and what it changes. -/
theorem Parsing.advance_frame (p p1 : Parsing) (h : p.advance = some p1) :
    p1.previous = p.current ∧ p1.compilation.vm = p.compilation.vm ∧
    p1.compilation.currentCompiler = p.compilation.currentCompiler ∧
    p1.compilation.parser.line = p.current.line ∧
    (∃ scanned, p1.compilation.reported = p.compilation.reported ++ scanned) ∧
    (∀ first, p.tokens.head? = some first → first.type ≠ .TOKEN_ERROR →
      p1.compilation.reported = p.compilation.reported ∧
      p1.compilation.parser.hadError = p.compilation.parser.hadError ∧
      p1.compilation.parser.panicMode = p.compilation.parser.panicMode) := by
  unfold Parsing.advance at h
  simp only [Option.map_eq_some'] at h
  obtain ⟨⟨c1, token, rest⟩, hl, rfl⟩ := h
  obtain ⟨e1, e2, e3, e4, e5⟩ := Parsing.advanceLoop_frame _ _ _ _ _ hl
  refine ⟨rfl, e1, e2, e3, e4, ?_⟩
  intro first hf hne
  have hc := e5 first hf hne
  show c1.reported = _ ∧ c1.parser.hadError = _ ∧ c1.parser.panicMode = _
  rw [hc]
  exact ⟨rfl, rfl, rfl⟩

/-- The function `error` of the parser changes the compilation only. -/
theorem Parsing.error_fields (p : Parsing) (message : String) :
    (p.error message).current = p.current ∧ (p.error message).previous = p.previous ∧
    (p.error message).tokens = p.tokens ∧
    (p.error message).compilation = p.compilation.error message :=
  ⟨rfl, rfl, rfl, rfl⟩

/-- C17, amended.  `returnStatement` in a compiler that writes to a function
object, entered with `return` as the previous token; `expression` is any
function.  It calls `error` for the return itself exactly when the function
is the top-level script (`q`), or it is an initializer and the statement
carries a value (`q1`); outside panic mode that call reports the message and
sets `hadError`, in panic mode it changes nothing.  A bare `return;`
advances over the semicolon and emits `OP_GET_LOCAL 0 OP_RETURN` in an
initializer and `OP_NIL OP_RETURN` in any other function, reporting besides
only what the scanner returns as error tokens.  With a value, the expression
is compiled in the state `q1`, then the semicolon is consumed, which reports
`Expect ';' after return value.` when it is missing (outside panic mode), and
`OP_RETURN` follows the code of the expression.  The implicit return of
`endCompiler` emits the bytes of the bare `return;` and reports nothing. -/
theorem C17_returnStatement (expression : Parsing → Option Parsing) (p : Parsing)
    (compiler : Compiler) (enclosing : List Compiler)
    (name : Option Nat) (arity : Nat) (chunk : Chunk) (uc : Nat)
    (hcur : p.compilation.currentCompiler = compiler :: enclosing)
    (hfun : p.compilation.vm.heap.get compiler.function =
      some (.OBJ_FUNCTION name arity chunk uc)) :
    ∃ q q1 : Parsing,
      q = (if compiler.type = .TYPE_SCRIPT
        then p.error "Illegal return statement in the top-level." else p) ∧
      q1 = (if compiler.type = .TYPE_INITIALIZER
        then q.error "Can't return a value from an initializer." else q) ∧
      (p.compilation.parser.panicMode = false →
        q.compilation.reported = p.compilation.reported ++
          (if compiler.type = .TYPE_SCRIPT
            then ["Illegal return statement in the top-level."] else []) ∧
        q.compilation.parser.hadError =
          (p.compilation.parser.hadError || decide (compiler.type = .TYPE_SCRIPT)) ∧
        q1.compilation.reported = p.compilation.reported ++
          (if compiler.type = .TYPE_SCRIPT
            then ["Illegal return statement in the top-level."]
            else if compiler.type = .TYPE_INITIALIZER
              then ["Can't return a value from an initializer."] else []) ∧
        q1.compilation.parser.hadError = (p.compilation.parser.hadError ||
          decide (compiler.type = .TYPE_SCRIPT ∨ compiler.type = .TYPE_INITIALIZER))) ∧
      (p.compilation.parser.panicMode = true → q = p ∧ q1 = p) ∧
      (p.current.type = .TOKEN_SEMICOLON →
        p.returnStatement expression =
          q.advance.bind (fun p1 => p1.emit fun c => c.emitReturn) ∧
        ∀ p1, q.advance = some p1 →
          ∃ p3 scanned, p.returnStatement expression = some p3 ∧
            p3.current = p1.current ∧ p3.previous = p.current ∧ p3.tokens = p1.tokens ∧
            p3.compilation.currentCompiler = compiler :: enclosing ∧
            p3.compilation.vm.heap.get compiler.function = some (.OBJ_FUNCTION name arity
              { chunk with
                code := chunk.code ++ (if compiler.type = .TYPE_INITIALIZER
                  then [OP_GET_LOCAL, 0, OP_RETURN] else [OP_NIL, OP_RETURN]),
                lines := chunk.lines ++ (if compiler.type = .TYPE_INITIALIZER
                  then [p.current.line, p.current.line, p.current.line]
                  else [p.current.line, p.current.line]) } uc) ∧
            p3.compilation.reported = q.compilation.reported ++ scanned ∧
            (∀ first, p.tokens.head? = some first → first.type ≠ .TOKEN_ERROR →
              scanned = [] ∧
              p3.compilation.parser.hadError = q.compilation.parser.hadError)) ∧
      (p.current.type ≠ .TOKEN_SEMICOLON →
        p.returnStatement expression =
          (expression q1).bind (fun p2 =>
            (p2.consume .TOKEN_SEMICOLON "Expect ';' after return value.").bind fun p2 =>
              p2.emit fun c => c.emitByte OP_RETURN) ∧
        ∀ p2 chunk2, expression q1 = some p2 →
          p2.compilation.currentCompiler = compiler :: enclosing →
          p2.compilation.vm.heap.get compiler.function =
            some (.OBJ_FUNCTION name arity chunk2 uc) →
          (p2.current.type = .TOKEN_SEMICOLON → ∀ p2a, p2.advance = some p2a →
            ∃ p3 scanned, p.returnStatement expression = some p3 ∧
              p3.current = p2a.current ∧ p3.previous = p2.current ∧ p3.tokens = p2a.tokens ∧
              p3.compilation.vm.heap.get compiler.function = some (.OBJ_FUNCTION name arity
                { chunk2 with code := chunk2.code ++ [OP_RETURN],
                              lines := chunk2.lines ++ [p2.current.line] } uc) ∧
              p3.compilation.reported = p2.compilation.reported ++ scanned ∧
              (∀ first, p2.tokens.head? = some first → first.type ≠ .TOKEN_ERROR →
                scanned = [] ∧
                p3.compilation.parser.hadError = p2.compilation.parser.hadError)) ∧
          (p2.current.type ≠ .TOKEN_SEMICOLON →
            ∃ p3, p.returnStatement expression = some p3 ∧
              p3.current = p2.current ∧ p3.previous = p2.previous ∧ p3.tokens = p2.tokens ∧
              p3.compilation.vm.heap.get compiler.function = some (.OBJ_FUNCTION name arity
                { chunk2 with code := chunk2.code ++ [OP_RETURN],
                              lines := chunk2.lines ++ [p2.compilation.parser.line] } uc) ∧
              p3.compilation.parser =
                (p2.compilation.error "Expect ';' after return value.").parser ∧
              p3.compilation.reported =
                (p2.compilation.error "Expect ';' after return value.").reported ∧
              (p2.compilation.parser.panicMode = false →
                p3.compilation.reported =
                  p2.compilation.reported ++ ["Expect ';' after return value."] ∧
                p3.compilation.parser.hadError = true))) ∧
      (∃ c1, p.compilation.endCompiler = some (compiler.function, c1) ∧
        c1.currentCompiler = enclosing ∧
        c1.vm.heap.get compiler.function = some (.OBJ_FUNCTION name arity
          { chunk with
            code := chunk.code ++ (if compiler.type = .TYPE_INITIALIZER
              then [OP_GET_LOCAL, 0, OP_RETURN] else [OP_NIL, OP_RETURN]),
            lines := chunk.lines ++ (if compiler.type = .TYPE_INITIALIZER
              then [p.compilation.parser.line, p.compilation.parser.line,
                p.compilation.parser.line]
              else [p.compilation.parser.line, p.compilation.parser.line]) } uc) ∧
        c1.reported = p.compilation.reported ∧ c1.parser = p.compilation.parser) := by
  obtain ⟨q, hq⟩ : ∃ q : Parsing, q = (if compiler.type = .TYPE_SCRIPT
      then p.error "Illegal return statement in the top-level." else p) := ⟨_, rfl⟩
  obtain ⟨q1, hq1⟩ : ∃ q1 : Parsing, q1 = (if compiler.type = .TYPE_INITIALIZER
      then q.error "Can't return a value from an initializer." else q) := ⟨_, rfl⟩
  have qf : q.current = p.current ∧ q.previous = p.previous ∧ q.tokens = p.tokens ∧
      q.compilation.vm = p.compilation.vm ∧
      q.compilation.currentCompiler = p.compilation.currentCompiler ∧
      q.compilation.parser.line = p.compilation.parser.line := by
    rw [hq]
    split
    · obtain ⟨f1, f2, f3, _, _⟩ :=
        p.compilation.error_frame "Illegal return statement in the top-level."
      exact ⟨rfl, rfl, rfl, f1, f2, f3⟩
    · exact ⟨rfl, rfl, rfl, rfl, rfl, rfl⟩
  obtain ⟨qc, qp, qt, qv, qcc, ql⟩ := qf
  have hunfold : p.returnStatement expression =
      (q.«match» .TOKEN_SEMICOLON).bind fun r =>
        if r.1 then r.2.emit fun c => c.emitReturn
        else
          match r.2.compilation.currentCompiler with
          | [] => none
          | compiler :: _ =>
            (expression (if compiler.type = .TYPE_INITIALIZER
              then r.2.error "Can't return a value from an initializer." else r.2)).bind
              fun p =>
                (p.consume .TOKEN_SEMICOLON "Expect ';' after return value.").bind fun p =>
                  p.emit fun c => c.emitByte OP_RETURN := by
    simp only [Parsing.returnStatement, hcur, hq]
  refine ⟨q, q1, hq, hq1, ?_, ?_, ?_, ?_, ?_⟩
  · intro hpanic
    by_cases hs : compiler.type = .TYPE_SCRIPT
    · have hni : compiler.type ≠ .TYPE_INITIALIZER := by rw [hs]; decide
      obtain ⟨r1, r2, _⟩ :=
        p.compilation.error_reported "Illegal return statement in the top-level." hpanic
      have e1 : q = p.error "Illegal return statement in the top-level." := by
        rw [hq, if_pos hs]
      have e2 : q1 = q := by rw [hq1, if_neg hni]
      rw [e2, e1]
      simp only [Parsing.error, r1, r2, hs, if_true, decide_True, Bool.or_true, true_or,
        and_self]
    · have e1 : q = p := by rw [hq, if_neg hs]
      by_cases hi : compiler.type = .TYPE_INITIALIZER
      · obtain ⟨r1, r2, _⟩ :=
          p.compilation.error_reported "Can't return a value from an initializer." hpanic
        have e2 : q1 = p.error "Can't return a value from an initializer." := by
          rw [hq1, if_pos hi, e1]
        rw [e2, e1]
        simp [Parsing.error, r1, r2, hs, hi]
      · have e2 : q1 = p := by rw [hq1, if_neg hi, e1]
        rw [e2, e1]
        simp [hs, hi]
  · intro hpanic
    have e1 : q = p := by
      rw [hq]
      split
      · simp only [Parsing.error, p.compilation.error_panic _ hpanic]
      · rfl
    have e2 : q1 = p := by
      rw [hq1, e1]
      split
      · simp only [Parsing.error, p.compilation.error_panic _ hpanic]
      · rfl
    exact ⟨e1, e2⟩
  · intro hsemi
    have hcheck : q.check .TOKEN_SEMICOLON = true := by
      simp only [Parsing.check, qc, hsemi, beq_self_eq_true]
    have heq : p.returnStatement expression =
        q.advance.bind (fun p1 => p1.emit fun c => c.emitReturn) := by
      rw [hunfold]
      simp only [Parsing.«match», hcheck, if_true]
      cases q.advance <;> simp
    refine ⟨heq, ?_⟩
    intro p1 hp1
    obtain ⟨a1, a2, a3, a4, ⟨scanned, a5⟩, a6⟩ := q.advance_frame p1 hp1
    obtain ⟨c1, h1, b1, b2, b3, b4, _⟩ :=
      p1.compilation.emitReturn_spec compiler enclosing name arity chunk uc
        (by rw [a3, qcc, hcur]) (by rw [a2, qv]; exact hfun)
    refine ⟨{ p1 with compilation := c1 }, scanned, ?_, rfl, ?_, rfl, b1, ?_, ?_, ?_⟩
    · rw [heq, hp1]
      simp only [Option.some_bind, Parsing.emit, h1, Option.map_some']
    · show p1.previous = p.current
      rw [a1, qc]
    · rw [b2, a4, qc]
    · show c1.reported = _
      rw [b4, a5]
    · intro first hf hne
      obtain ⟨g1, g2, _⟩ := a6 first (by rw [qt]; exact hf) hne
      constructor
      · have := a5
        rw [g1] at this
        exact (List.self_eq_append_right.mp this)
      · show c1.parser.hadError = _
        rw [b3, g2]
  · intro hsemi
    have hcheck : q.check .TOKEN_SEMICOLON = false := by
      simp only [Parsing.check, qc]
      exact beq_false_of_ne hsemi
    have heq : p.returnStatement expression =
        (expression q1).bind (fun p2 =>
          (p2.consume .TOKEN_SEMICOLON "Expect ';' after return value.").bind fun p2 =>
            p2.emit fun c => c.emitByte OP_RETURN) := by
      rw [hunfold]
      simp only [Parsing.«match», hcheck, Bool.false_eq_true, if_false, Option.some_bind, qcc,
        hcur, ← hq1]
    refine ⟨heq, ?_⟩
    intro p2 chunk2 he hc2 hf2
    constructor
    · intro hs2 p2a hp2a
      obtain ⟨a1, a2, a3, a4, ⟨scanned, a5⟩, a6⟩ := p2.advance_frame p2a hp2a
      obtain ⟨c3, h3, _, b3, pr3, r3, _⟩ :=
        p2a.compilation.emitByte_spec compiler enclosing name arity chunk2 uc OP_RETURN
          (by rw [a3, hc2]) (by rw [a2]; exact hf2)
      have hcheck2 : p2.check .TOKEN_SEMICOLON = true := by
        simp only [Parsing.check, hs2, beq_self_eq_true]
      refine ⟨{ p2a with compilation := c3 }, scanned, ?_, rfl, a1, rfl, ?_, ?_, ?_⟩
      · rw [heq, he]
        simp only [Option.some_bind, Parsing.consume, hcheck2, if_true, hp2a, Parsing.emit, h3,
          Option.map_some']
      · show c3.vm.heap.get compiler.function = _
        rw [b3, a4]
        rfl
      · show c3.reported = _
        rw [r3, a5]
      · intro first hf hne
        obtain ⟨g1, g2, _⟩ := a6 first hf hne
        constructor
        · have := a5
          rw [g1] at this
          exact (List.self_eq_append_right.mp this)
        · show c3.parser.hadError = _
          rw [pr3, g2]
    · intro hs2
      obtain ⟨f1, f2, f3, _, _⟩ :=
        p2.compilation.error_frame "Expect ';' after return value."
      obtain ⟨c3, h3, _, b3, pr3, r3, _⟩ :=
        (p2.compilation.error "Expect ';' after return value.").emitByte_spec compiler
          enclosing name arity chunk2 uc OP_RETURN (by rw [f2, hc2]) (by rw [f1]; exact hf2)
      have hcheck2 : p2.check .TOKEN_SEMICOLON = false := by
        simp only [Parsing.check]
        exact beq_false_of_ne hs2
      refine ⟨{ p2.error "Expect ';' after return value." with compilation := c3 }, ?_,
        rfl, rfl, rfl, ?_, pr3, r3, ?_⟩
      · rw [heq, he]
        simp only [Option.some_bind, Parsing.consume, hcheck2, Bool.false_eq_true, if_false,
          Parsing.emit, Parsing.error, h3, Option.map_some']
      · show c3.vm.heap.get compiler.function = _
        rw [b3, f3]
        rfl
      · intro hpanic
        obtain ⟨r1, r2, _⟩ :=
          p2.compilation.error_reported "Expect ';' after return value." hpanic
        exact ⟨by show c3.reported = _; rw [r3, r1], by show c3.parser.hadError = _; rw [pr3, r2]⟩
  · obtain ⟨c1, h1, a1, b1, p1, q1, _⟩ :=
      p.compilation.emitReturn_spec compiler enclosing name arity chunk uc hcur hfun
    refine ⟨{ c1 with currentCompiler := enclosing }, ?_, rfl, b1, q1, p1⟩
    simp only [Compilation.endCompiler, h1, Option.some_bind, a1]

set_option maxRecDepth 100000 in
/-- C17 on `return;` in an initializer: the semicolon is consumed,
`OP_GET_LOCAL 0 OP_RETURN` is emitted and nothing is reported; and on
`return 1;` in the same place the message of the initializer is reported and
the code is that of the value followed by `OP_RETURN`. -/
theorem C17_returnStatement_witness :
    (∃ p3, returnBareParsing.returnStatement (Parsing.expression (strtodDigits [])) = some p3 ∧
      p3.current = tokenAt .TOKEN_RIGHT_BRACE 24 1 ∧
      codeAt p3.compilation 0 = some [OP_GET_LOCAL, 0, OP_RETURN] ∧
      p3.compilation.reported = []) ∧
    ((({ returnBareParsing with
          current := tokenAt .TOKEN_NUMBER 23 1,
          tokens := [tokenAt .TOKEN_SEMICOLON 24 1, tokenAt .TOKEN_RIGHT_BRACE 26 1,
            tokenAt .TOKEN_EOF 27 0] } : Parsing).returnStatement
        (Parsing.expression (strtodDigits []))).map fun p3 =>
      (codeAt p3.compilation 0, p3.compilation.reported)) =
      some (some [OP_CONSTANT, 0, OP_RETURN], ["Can't return a value from an initializer."]) := by
  refine ⟨?_, by decide⟩
  obtain ⟨q, q1, hq, _, hnp, _, hbare, _, _⟩ :=
    C17_returnStatement (Parsing.expression (strtodDigits [])) returnBareParsing _ [] none 0
      initChunk 0 rfl (by decide)
  have hqe : q = returnBareParsing := by rw [hq]; decide
  obtain ⟨p1, hp1⟩ := Option.isSome_iff_exists.mp
    (show returnBareParsing.advance.isSome = true by decide)
  have hcur1 : p1.current = tokenAt .TOKEN_RIGHT_BRACE 24 1 := by
    have : returnBareParsing.advance.map (fun p => p.current) =
        some (tokenAt .TOKEN_RIGHT_BRACE 24 1) := by decide
    rw [hp1] at this
    simpa using this
  obtain ⟨p3, scanned, h3, c3, _, _, _, f3, r3, s3⟩ :=
    (hbare (by decide)).2 p1 (by rw [hqe]; exact hp1)
  obtain ⟨hs, _⟩ := s3 (tokenAt .TOKEN_RIGHT_BRACE 24 1) (by decide) (by decide)
  refine ⟨p3, h3, by rw [c3, hcur1], ?_, ?_⟩
  · simp only [codeAt, f3]
    decide
  · rw [r3, hs, (hnp (by decide)).1]
    decide

set_option maxRecDepth 100000 in
/-- C17 as stated fails in both directions.  In the body of a plain function
(`fun f() { return 1 }`) `returnStatement` reports a compile error, that of
the missing semicolon.  In the top-level script, in panic mode (`if (+)
return;`, where `expression` has reported the `+`), `returnStatement` reports
nothing. -/
theorem C17_returnStatement_counterexample :
    ((scanTokens 21 (initScanner returnValueSource.toList)).map fun tokens => tokens.drop 5) =
      some (returnValueParsing.previous :: returnValueParsing.current ::
        returnValueParsing.tokens) ∧
    returnValueParsing.compilation.currentCompiler.map (fun compiler => compiler.type) =
      [.TYPE_FUNCTION] ∧
    (returnValueParsing.compilation.reported, returnValueParsing.compilation.parser.panicMode) =
      ([], false) ∧
    ((returnValueParsing.returnStatement
        (Parsing.expression (strtodDigits returnValueSource.toList))).map fun p3 =>
      (p3.compilation.reported, p3.compilation.parser.hadError, codeAt p3.compilation 0,
        p3.current.type)) =
      some (["Expect ';' after return value."], true, some [OP_CONSTANT, 0, OP_RETURN],
        .TOKEN_RIGHT_BRACE) ∧
    ((scanTokens 15 (initScanner returnPanicSource.toList)).map fun tokens => tokens.drop 2) =
      some (ifConditionParsing.current :: ifConditionParsing.tokens) ∧
    ((ifConditionParsing.expression (strtodDigits returnPanicSource.toList)).map fun p =>
      (p.compilation.reported, p.compilation.parser.hadError, p.compilation.parser.panicMode,
        p.current :: p.tokens)) =
      some (returnPanicParsing.compilation.reported,
        returnPanicParsing.compilation.parser.hadError,
        returnPanicParsing.compilation.parser.panicMode, ifConditionParsing.tokens) ∧
    returnPanicParsing.compilation.currentCompiler.map (fun compiler => compiler.type) =
      [.TYPE_SCRIPT] ∧
    ((returnPanicParsing.returnStatement
        (Parsing.expression (strtodDigits returnPanicSource.toList))).map fun p3 =>
      (p3.compilation.reported, codeAt p3.compilation 0, p3.current.type)) =
      some (returnPanicParsing.compilation.reported,
        some [OP_JUMP_IF_FALSE, 0xff, 0xff, OP_POP, OP_NIL, OP_RETURN], .TOKEN_EOF) := by
  refine ⟨by decide, by decide, by decide, by decide, by decide, by decide, by decide,
    by decide⟩

end Loxj

/-! # Compiler: `continueStatement` (C16) -/

namespace Loxj

/-- C16: what `compile` does with `continue`.  In a `for` loop it compiles
without error to an `OP_LOOP` to the start of the loop (offset 0; the second
`OP_LOOP` is the one of the loop itself).  In a `while` loop that no `for`
loop encloses it is reported as being outside of a loop, and `compile`
returns no function.  In a `while` loop inside a `for` loop its `OP_LOOP`
(at offset 10, operand 13) goes to offset 0, the start of the `for` loop, not
to offset 5, where the `while` loop starts.  In a function declared in the
body of a `for` loop it is accepted although the function has no loop, and
the code of the function (at address 1) starts with an `OP_LOOP`. -/
theorem C16_continue_in_while_and_function :
    Compilation.summary forContinueProgram =
      some (some 0, [], some [OP_LOOP, 0, 3, OP_LOOP, 0, 6, OP_NIL, OP_RETURN], none) ∧
    Compilation.summary whileContinueProgram =
      some (none, ["Can't use 'continue' outside of a loop."],
        some [OP_TRUE, OP_JUMP_IF_FALSE, 0, 7, OP_POP, OP_LOOP, 0, 9, OP_LOOP, 0, 11, OP_POP,
          OP_NIL, OP_RETURN], none) ∧
    Compilation.summary forWhileContinueProgram =
      some (some 0, [],
        some [OP_TRUE, OP_JUMP_IF_FALSE, 0, 16, OP_POP,
          OP_TRUE, OP_JUMP_IF_FALSE, 0, 7, OP_POP, OP_LOOP, 0, 13, OP_LOOP, 0, 11, OP_POP,
          OP_LOOP, 0, 20, OP_POP, OP_NIL, OP_RETURN], none) ∧
    Compilation.summary forFunContinueProgram =
      some (some 0, [], some [OP_CLOSURE, 0, OP_POP, OP_LOOP, 0, 6, OP_NIL, OP_RETURN],
        some [OP_LOOP, 0, 3, OP_NIL, OP_RETURN]) := by
  refine ⟨by decide, by decide, by decide, by decide⟩

end Loxj

/-! # Compiler: `makeConstant` (C18) -/

namespace Loxj

set_option maxRecDepth 20000 in
/-- C18, as stated, fails: on a chunk whose pool holds 256 entries
`makeConstant` reports the error and returns 0, but the pool then holds 257
entries, the last one being the value. -/
theorem C18_makeConstant_counterexample :
    (initializerCompilation fullPoolChunk).compilingChunk.map (fun chunk => chunk.constants.length)
      = some 256 ∧
    ((initializerCompilation fullPoolChunk).makeConstant doubleOne).map (fun r =>
        (r.1, r.2.reported, r.2.compilingChunk.map fun chunk =>
          (chunk.constants.length, chunk.constants.getLast?))) =
      some (0, ["Too many constants in one chunk."], some (257, some doubleOne)) := by
  refine ⟨by decide, by decide⟩

/-- C18, amended: `makeConstant` always appends the value to the pool of the
chunk being compiled, and leaves the stack height.  When the pool held at
most 255 entries it returns the index of the new entry, which fits in one
byte, and reports nothing.  When the pool held 256 entries or more it returns
0 and calls `error` with `Too many constants in one chunk.` (which outside
panic mode prints the message and sets `hadError`).  So a pool can hold more
than 256 entries only in a compilation that has failed: if panic mode implies
`hadError`, as `errorAt` keeps it, then `hadError` or a pool of at most 256
entries before the call gives the same after it. -/
theorem C18_makeConstant (c : Compilation) (compiler : Compiler) (enclosing : List Compiler)
    (name : Option Nat) (arity : Nat) (chunk : Chunk) (uc : Nat) (value : Nat)
    (hcur : c.currentCompiler = compiler :: enclosing)
    (hfun : c.vm.heap.get compiler.function = some (.OBJ_FUNCTION name arity chunk uc)) :
    ∃ index c1, c.makeConstant value = some (index, c1) ∧
      c1.vm.heap.get compiler.function = some (.OBJ_FUNCTION name arity
        { chunk with constants := chunk.constants ++ [value] } uc) ∧
      c1.currentCompiler = c.currentCompiler ∧ c1.vm.stackTop = c.vm.stackTop ∧
      (chunk.constants.length ≤ 255 →
        index = chunk.constants.length ∧ index < 256 ∧
        (chunk.constants ++ [value]).get? index = some value ∧
        c1.reported = c.reported ∧ c1.parser = c.parser) ∧
      (256 ≤ chunk.constants.length →
        index = 0 ∧ 256 < (chunk.constants ++ [value]).length ∧
        (c.parser.panicMode = false →
          c1.reported = c.reported ++ ["Too many constants in one chunk."] ∧
          c1.parser.hadError = true) ∧
        (c.parser.panicMode = true → c1.reported = c.reported ∧ c1.parser = c.parser)) ∧
      ((c.parser.panicMode = true → c.parser.hadError = true) →
        (c.parser.hadError = true ∨ chunk.constants.length ≤ 256) →
        (c1.parser.hadError = true ∨ (chunk.constants ++ [value]).length ≤ 256)) := by
  have hchunk := c.compilingChunk_eq compiler enclosing name arity chunk uc hcur hfun
  obtain ⟨heap1, hheap1⟩ : ∃ h : Heap, h = c.vm.heap.setObj compiler.function
      (.OBJ_FUNCTION name arity { chunk with constants := chunk.constants ++ [value] } uc) :=
    ⟨_, rfl⟩
  obtain ⟨c2, hc2⟩ : ∃ c2 : Compilation, c2 =
      { c with vm := (pop { push c.vm value with heap := heap1 }).2 } := ⟨_, rfl⟩
  have hadd : c.addConstant value = some (chunk.constants.length, c2) := by
    simp only [Compilation.addConstant, hchunk, Option.some_bind, Compilation.setChunk, hcur]
    have : (push c.vm value).heap.get compiler.function =
        some (.OBJ_FUNCTION name arity chunk uc) := hfun
    simp only [this, Option.map_some']
    rw [hc2, hheap1, hcur]
    rfl
  have hget2 : c2.vm.heap.get compiler.function = some (.OBJ_FUNCTION name arity
      { chunk with constants := chunk.constants ++ [value] } uc) := by
    rw [hc2]
    show heap1.get compiler.function = _
    rw [hheap1]
    exact Heap.setObj_get_self _ _ _ _ hfun
  have htop2 : c2.vm.stackTop = c.vm.stackTop := by
    rw [hc2]
    show c.vm.stackTop + 1 - 1 = c.vm.stackTop
    omega
  have hcur2 : c2.currentCompiler = c.currentCompiler := by rw [hc2]
  have hrep2 : c2.reported = c.reported := by rw [hc2]
  have hpar2 : c2.parser = c.parser := by rw [hc2]
  by_cases hlen : chunk.constants.length ≤ 255
  · have hnot : ¬ chunk.constants.length > UINT8_MAX := by simp only [UINT8_MAX]; omega
    refine ⟨chunk.constants.length, c2, ?_, hget2, hcur2, htop2, ?_, ?_, ?_⟩
    · simp only [Compilation.makeConstant, hadd, Option.map_some', hnot, if_false]
    · intro _
      refine ⟨rfl, by omega, ?_, hrep2, hpar2⟩
      simp [List.getElem?_append_right]
    · intro h; omega
    · intro _ h
      rcases h with h | h
      · left; rw [hpar2]; exact h
      · right; simp only [List.length_append, List.length_singleton]; omega
  · have hgt : chunk.constants.length > UINT8_MAX := by simp only [UINT8_MAX]; omega
    obtain ⟨e1, e2, _⟩ := c2.error_frame "Too many constants in one chunk."
    refine ⟨0, c2.error "Too many constants in one chunk.", ?_, ?_, ?_, ?_, ?_, ?_, ?_⟩
    · simp only [Compilation.makeConstant, hadd, Option.map_some', hgt, if_true]
    · rw [e1]; exact hget2
    · rw [e2]; exact hcur2
    · rw [e1]; exact htop2
    · intro h; omega
    · intro _
      refine ⟨rfl, by simp only [List.length_append, List.length_singleton]; omega, ?_, ?_⟩
      · intro hp
        obtain ⟨r1, r2, _⟩ := c2.error_reported "Too many constants in one chunk."
          (by rw [hpar2]; exact hp)
        exact ⟨by rw [r1, hrep2], r2⟩
      · intro hp
        rw [c2.error_panic _ (by rw [hpar2]; exact hp)]
        exact ⟨hrep2, hpar2⟩
    · intro hinv _
      left
      cases hp : c.parser.panicMode
      · exact (c2.error_reported "Too many constants in one chunk."
          (by rw [hpar2]; exact hp)).2.1
      · rw [c2.error_panic _ (by rw [hpar2]; exact hp), hpar2]
        exact hinv hp

theorem C18_makeConstant_witness :
    ∃ index c1, (initializerCompilation initChunk).makeConstant doubleOne = some (index, c1) ∧
      index = 0 ∧ c1.compilingChunk = some { initChunk with constants := [doubleOne] } ∧
      c1.reported = [] := by
  obtain ⟨index, c1, h1, h2, h3, _, h5, _⟩ :=
    C18_makeConstant (initializerCompilation initChunk) _ [] none 0 initChunk 0 doubleOne rfl
      (by decide)
  obtain ⟨e1, _, _, e4, _⟩ := h5 (by decide)
  refine ⟨index, c1, h1, e1, ?_, e4⟩
  exact c1.compilingChunk_eq _ [] none 0 _ 0 h3 h2

end Loxj

/-! # Collector: marking -/

namespace Loxj

theorem countP_set_gen {α : Type} (l : List α) (i : Nat) (x e : α) (p : α → Bool)
    (hge : l[i]? = some e) :
    (l.set i x).countP p + (if p e then 1 else 0) = l.countP p + (if p x then 1 else 0) := by
  induction l generalizing i with
  | nil => simp at hge
  | cons a r ih =>
    cases i with
    | zero =>
      simp only [List.getElem?_cons_zero, Option.some.injEq] at hge
      subst hge
      simp only [List.set_cons_zero, List.countP_cons]
      omega
    | succ i =>
      simp only [List.getElem?_cons_succ] at hge
      have := ih i hge
      simp only [List.set_cons_succ, List.countP_cons]
      omega

theorem MarkedFrom.refl (heap : Heap) : MarkedFrom heap heap :=
  ⟨rfl, fun _ => rfl, fun _ h => h⟩

theorem MarkedFrom.trans (h1 h2 h3 : Heap) (a : MarkedFrom h1 h2) (b : MarkedFrom h2 h3) :
    MarkedFrom h1 h3 :=
  ⟨by rw [b.length, a.length], fun p => by rw [b.get, a.get], fun p h => b.marked p (a.marked p h)⟩

theorem MarkedFrom.allocated (h1 h2 : Heap) (a : MarkedFrom h1 h2) (p : Nat)
    (h : h1.allocated p) : h2.allocated p := by
  obtain ⟨obj, ho⟩ := h
  exact ⟨obj, by rw [a.get]; exact ho⟩

theorem MarkStep.same (s : Heap × List Nat) : MarkStep s s [] :=
  ⟨MarkedFrom.refl _, fun _ h => (by cases h), fun _ h => h, fun _ h => Or.inl h,
    fun _ h => Or.inl h, rfl⟩

/-- Nothing is marked: the state is left as it is, whatever list is named. -/
theorem MarkStep.of_marked (s : Heap × List Nat) (qs : List Nat)
    (h : ∀ q ∈ qs, s.1.marked q = true) : MarkStep s s qs :=
  ⟨MarkedFrom.refl _, h, fun _ h => h, fun _ h => Or.inl h, fun _ h => Or.inl h, rfl⟩

theorem MarkStep.append (s s1 s2 : Heap × List Nat) (qs rs : List Nat)
    (a : MarkStep s s1 qs) (b : MarkStep s1 s2 rs) : MarkStep s s2 (qs ++ rs) := by
  constructor
  · exact MarkedFrom.trans _ _ _ a.heap b.heap
  · intro q hq
    rcases List.mem_append.mp hq with h | h
    · exact b.heap.marked q (a.all q h)
    · exact b.all q h
  · intro p hp
    exact b.keep p (a.keep p hp)
  · intro p hp
    rcases b.gray p hp with h | h
    · rcases a.gray p h with h1 | h1
      · exact Or.inl h1
      · exact Or.inr (List.mem_append_left _ h1)
    · exact Or.inr (List.mem_append_right _ h)
  · intro p hp
    rcases b.new p hp with h | ⟨h, h1⟩
    · rcases a.new p h with h2 | ⟨h2, h3⟩
      · exact Or.inl h2
      · exact Or.inr ⟨List.mem_append_left _ h2, b.keep p h3⟩
    · exact Or.inr ⟨List.mem_append_right _ h, h1⟩
  · rw [b.measure, a.measure]

theorem Marks.bind (f g : Heap × List Nat → Option (Heap × List Nat)) (qs rs : List Nat)
    (hf : Marks f qs) (hg : Marks g rs) : Marks (fun s => (f s).bind g) (qs ++ rs) := by
  intro s hs
  obtain ⟨s1, h1, st1⟩ := hf s (fun q hq => hs q (List.mem_append_left _ hq))
  obtain ⟨s2, h2, st2⟩ := hg s1 (fun q hq =>
    st1.heap.allocated _ _ q (hs q (List.mem_append_right _ hq)))
  exact ⟨s2, by simp only [h1, Option.some_bind, h2], MarkStep.append _ _ _ _ _ st1 st2⟩

theorem Marks.nil : Marks (fun s => some s) [] :=
  fun s _ => ⟨s, rfl, MarkStep.same s⟩

theorem Marks.congr (f g : Heap × List Nat → Option (Heap × List Nat)) (qs : List Nat)
    (h : ∀ s, g s = f s) (hf : Marks f qs) : Marks g qs := by
  intro s hs
  obtain ⟨s1, h1, st⟩ := hf s hs
  exact ⟨s1, by rw [h, h1], st⟩


theorem Heap.allocated_cell (heap : Heap) (p : Nat) (h : heap.allocated p) :
    ∃ cell, heap[p]? = some (some cell) := by
  obtain ⟨obj, ho⟩ := h
  obtain ⟨cell, hc, _⟩ := Heap.get_eq_some heap p obj ho
  exact ⟨cell, hc⟩

theorem Heap.getD_of_getElem? (heap : Heap) (p : Nat) (c : Option HeapCell)
    (h : heap[p]? = some c) : heap.getD p none = c := by
  simp [List.getD_eq_getElem?_getD, h]

theorem Heap.marked_of_cell (heap : Heap) (p : Nat) (cell : HeapCell)
    (h : heap[p]? = some (some cell)) : heap.marked p = cell.isMarked := by
  simp only [Heap.marked, Heap.getD_of_getElem? heap p _ h]

theorem Heap.get_of_cell (heap : Heap) (p : Nat) (cell : HeapCell)
    (h : heap[p]? = some (some cell)) : heap.get p = some cell.obj := by
  simp only [Heap.get, Heap.getD_of_getElem? heap p _ h, Option.map_some']

theorem Heap.marked_set_ne (heap : Heap) (p q : Nat) (c : Option HeapCell) (h : p ≠ q) :
    Heap.marked (heap.set q c) p = heap.marked p := by
  simp only [Heap.marked, List.getD_eq_getElem?_getD, List.getElem?_set_ne (Ne.symm h)]

theorem Heap.get_set_ne (heap : Heap) (p q : Nat) (c : Option HeapCell) (h : p ≠ q) :
    Heap.get (heap.set q c) p = heap.get p := by
  simp only [Heap.get, List.getD_eq_getElem?_getD, List.getElem?_set_ne (Ne.symm h)]

theorem Heap.getElem?_set_self (heap : Heap) (q : Nat) (c : Option HeapCell)
    (h : q < heap.length) : (heap.set q c)[q]? = some c := by
  simp [List.getElem?_set, h]

/-- The function `markObject` on an allocated object. -/
theorem markObject_marks (q : Nat) : Marks (fun s => markObject s (some q)) [q] := by
  intro s hs
  obtain ⟨cell, hc⟩ := Heap.allocated_cell s.1 q (hs q (List.mem_singleton_self q))
  have hlt : q < s.1.length := (List.getElem?_eq_some_iff.mp hc).1
  have hgd := Heap.getD_of_getElem? s.1 q _ hc
  by_cases hm : cell.isMarked = true
  · refine ⟨s, by simp only [markObject, hgd, hm, if_true], MarkStep.of_marked s [q] ?_⟩
    intro p hp
    rw [List.mem_singleton.mp hp, Heap.marked_of_cell s.1 q cell hc, hm]
  · have hself := Heap.getElem?_set_self s.1 q (some { cell with isMarked := true }) hlt
    refine ⟨(s.1.set q (some { cell with isMarked := true }), q :: s.2),
      by simp only [markObject, hgd, hm, if_false]; rfl, ?_⟩
    constructor
    · constructor
      · exact List.length_set _ _ _
      · intro p
        by_cases hp : p = q
        · rw [hp, Heap.get_of_cell _ q _ hself, Heap.get_of_cell _ q _ hc]
        · exact Heap.get_set_ne _ _ _ _ hp
      · intro p hpm
        by_cases hp : p = q
        · rw [hp, Heap.marked_of_cell _ q _ hself]
        · show Heap.marked (s.1.set q _) p = true
          rw [Heap.marked_set_ne _ _ _ _ hp]; exact hpm
    · intro p hp
      rw [List.mem_singleton.mp hp]
      exact Heap.marked_of_cell _ q _ hself
    · intro p hp
      exact List.mem_cons_of_mem _ hp
    · intro p hp
      rcases List.mem_cons.mp hp with h | h
      · exact Or.inr (by rw [h]; exact List.mem_singleton_self q)
      · exact Or.inl h
    · intro p hpm
      by_cases hp : p = q
      · exact Or.inr ⟨by rw [hp]; exact List.mem_singleton_self q,
          by rw [hp]; exact List.mem_cons_self _ _⟩
      · left
        have : Heap.marked (s.1.set q (some { cell with isMarked := true })) p = true := hpm
        rw [Heap.marked_set_ne _ _ _ _ hp] at this
        exact this
    · have := countP_set_gen s.1 q (some { cell with isMarked := true }) (some cell)
        isUnmarked hc
      simp only [Bool.not_eq_true] at hm
      simp only [isUnmarked, hm, Bool.not_false, if_true, Bool.not_true, Bool.false_eq_true,
        if_false] at this
      show (q :: s.2).length + Heap.unmarked (s.1.set q _) = s.2.length + Heap.unmarked s.1
      simp only [Heap.unmarked, List.length_cons]
      omega

theorem markObject_none_marks : Marks (fun s => markObject s none) [] :=
  fun s _ => ⟨s, rfl, MarkStep.same s⟩

theorem markObject_option_marks (object : Option Nat) :
    Marks (fun s => markObject s object) object.toList := by
  cases object with
  | none => exact markObject_none_marks
  | some q => exact markObject_marks q

theorem markValue_marks (value : Nat) : Marks (fun s => markValue s value) (valueRefs value) := by
  by_cases h : IS_OBJ value = true
  · have e : valueRefs value = [AS_OBJ value] := by simp only [valueRefs, h, if_true]
    rw [e]
    exact Marks.congr _ _ _ (fun s => by simp only [markValue, h, if_true])
      (markObject_marks (AS_OBJ value))
  · simp only [Bool.not_eq_true] at h
    have e : valueRefs value = [] := by
      simp only [valueRefs, h, Bool.false_eq_true, if_false]
    rw [e]
    exact Marks.congr _ _ _
      (fun s => by simp only [markValue, h, Bool.false_eq_true, if_false]) Marks.nil

theorem markArray_marks (values : List Nat) :
    Marks (fun s => markArray s values) (values.flatMap valueRefs) := by
  induction values with
  | nil => exact Marks.nil
  | cons v rest ih =>
    rw [List.flatMap_cons]
    exact Marks.congr _ _ _ (fun s => by simp only [markArray])
      (Marks.bind _ _ _ _ (markValue_marks v) ih)

theorem markEntries_marks (entries : List Entry) :
    Marks (fun s => markEntries s entries)
      (entries.flatMap fun entry => entry.key.toList ++ valueRefs entry.value) := by
  induction entries with
  | nil => exact Marks.nil
  | cons e rest ih =>
    rw [List.flatMap_cons]
    exact Marks.congr _ _ _ (fun s => by simp only [markEntries])
      (Marks.bind _ _ _ _
        (Marks.bind _ _ _ _ (markObject_option_marks e.key) (markValue_marks e.value)) ih)

theorem markTable_marks (table : Table) (h : table.capacity ≤ table.entries.length) :
    Marks (fun s => markTable s table) table.refs :=
  Marks.congr _ _ _ (fun s => by simp only [markTable, h, if_true])
    (markEntries_marks (table.entries.take table.capacity))

theorem markUpvalues_marks (upvalues : List (Option Nat)) :
    Marks (fun s => markUpvalues s upvalues) (upvalues.flatMap fun upvalue => upvalue.toList) := by
  induction upvalues with
  | nil => exact Marks.nil
  | cons u rest ih =>
    rw [List.flatMap_cons]
    exact Marks.congr _ _ _ (fun s => by simp only [markUpvalues])
      (Marks.bind _ _ _ _ (markObject_option_marks u) ih)

/-- The function `blackenObject` marks the references of the object. -/
theorem blackenObject_marks (obj : Obj) (hwf : obj.wf = true) :
    Marks (fun s => blackenObject s obj) obj.refs := by
  cases obj with
  | OBJ_CLASS name methods =>
    exact Marks.congr _ _ _ (fun s => by simp only [blackenObject])
      (Marks.bind _ _ _ _ (markObject_marks name)
        (markTable_marks methods (of_decide_eq_true hwf)))
  | OBJ_BOUND_METHOD receiver method =>
    exact Marks.congr _ _ _ (fun s => by simp only [blackenObject])
      (Marks.bind _ _ _ _ (markValue_marks receiver) (markObject_marks method))
  | OBJ_CLOSURE function upvalues upvalueCount =>
    have hwf1 : upvalueCount ≤ upvalues.length := of_decide_eq_true hwf
    exact Marks.congr _ _ _ (fun s => by simp only [blackenObject, hwf1, if_true])
      (Marks.bind _ _ _ _ (markObject_marks function)
        (markUpvalues_marks (upvalues.take upvalueCount)))
  | OBJ_FUNCTION name arity chunk upvalueCount =>
    exact Marks.congr _ _ _ (fun s => by simp only [blackenObject])
      (Marks.bind _ _ _ _ (markObject_option_marks name) (markArray_marks chunk.constants))
  | OBJ_INSTANCE klass fields =>
    exact Marks.congr _ _ _ (fun s => by simp only [blackenObject])
      (Marks.bind _ _ _ _ (markObject_marks klass)
        (markTable_marks fields (of_decide_eq_true hwf)))
  | OBJ_NATIVE function => exact Marks.nil
  | OBJ_STRING length hash chars => exact Marks.nil
  | OBJ_UPVALUE location closed next =>
    exact Marks.congr _ _ _ (fun s => by simp only [blackenObject]) (markValue_marks closed)

end Loxj

/-! # Collector: tracing -/

namespace Loxj

/-- One turn of `traceReferences` keeps the invariant. -/
theorem TraceInv.step (heap0 : Heap) (rs : List Nat) (heap : Heap) (p : Nat) (gray : List Nat)
    (obj : Obj) (s1 : Heap × List Nat)
    (hinv : TraceInv heap0 rs (heap, p :: gray)) (hobj : heap0.get p = some obj)
    (hstep : MarkStep (heap, gray) s1 obj.refs) : TraceInv heap0 rs s1 := by
  have hpm : heap.marked p = true := hinv.gray p (List.mem_cons_self _ _)
  constructor
  · exact MarkedFrom.trans _ _ _ hinv.heap hstep.heap
  · intro x hx
    rcases hstep.gray x hx with h | h
    · exact hstep.heap.marked x (hinv.gray x (List.mem_cons_of_mem _ h))
    · exact hstep.all x h
  · intro x hx
    rcases hstep.new x hx with h | ⟨h, _⟩
    · exact hinv.reach x h
    · exact Reachable.step p x obj (hinv.reach p hpm) hobj h
  · intro x objx hxm hxg hxo q hq
    by_cases hxp : x = p
    · rw [hxp, hobj] at hxo
      cases hxo
      exact hstep.all q hq
    · rcases hstep.new x hxm with h | ⟨_, h⟩
      · have hng : x ∉ p :: gray := by
          intro hmem
          rcases List.mem_cons.mp hmem with h1 | h1
          · exact hxp h1
          · exact hxg (hstep.keep x h1)
        exact hstep.heap.marked q (hinv.black x objx h hng hxo q hq)
      · exact absurd h hxg
  · intro r hr
    exact hstep.heap.marked r (hinv.roots r hr)

/-- The loop of `traceReferences` ends with an empty gray stack and keeps the
invariant, given fuel for one turn per gray or unmarked object. -/
theorem traceReferences_spec (heap0 : Heap) (rs : List Nat)
    (hvalid : ∀ p, Reachable heap0 rs p → ∃ obj, heap0.get p = some obj ∧ obj.wf = true) :
    ∀ (fuel : Nat) (s : Heap × List Nat), TraceInv heap0 rs s →
      s.2.length + s.1.unmarked < fuel →
      ∃ heap1, traceReferences fuel s = some (heap1, []) ∧ TraceInv heap0 rs (heap1, []) := by
  intro fuel
  induction fuel with
  | zero => intro s _ h; omega
  | succ fuel ih =>
    intro s hinv hfuel
    obtain ⟨heap, gray⟩ := s
    cases gray with
    | nil => exact ⟨heap, by simp only [traceReferences], hinv⟩
    | cons p gray =>
      have hpm : heap.marked p = true := hinv.gray p (List.mem_cons_self _ _)
      have hreach := hinv.reach p hpm
      obtain ⟨obj, hobj, hwf⟩ := hvalid p hreach
      have hget : heap.get p = some obj := by rw [hinv.heap.get]; exact hobj
      obtain ⟨s1, h1, hstep⟩ := blackenObject_marks obj hwf (heap, gray) (fun q hq => by
        obtain ⟨o, ho, _⟩ := hvalid q (Reachable.step p q obj hreach hobj hq)
        exact ⟨o, by rw [hinv.heap.get]; exact ho⟩)
      have hinv1 := TraceInv.step heap0 rs heap p gray obj s1 hinv hobj hstep
      have hm := hstep.measure
      obtain ⟨heap1, h2, hinv2⟩ := ih s1 hinv1 (by
        simp only [List.length_cons] at hfuel
        have : (heap, gray).2.length + (heap, gray).1.unmarked = gray.length + heap.unmarked := rfl
        omega)
      exact ⟨heap1, by simp only [traceReferences, hget, h1, Option.some_bind, h2], hinv2⟩

/-- With an empty gray stack the invariant says that every reachable object
is marked. -/
theorem TraceInv.marked_of_reachable (heap0 : Heap) (rs : List Nat) (heap1 : Heap)
    (hinv : TraceInv heap0 rs (heap1, [])) :
    ∀ p, Reachable heap0 rs p → heap1.marked p = true := by
  intro p hp
  induction hp with
  | root p h => exact hinv.roots p h
  | step p q obj _ ho hq ih =>
    exact hinv.black p obj ih (by simp) ho q hq


theorem UpvalueList_functional (heap : Heap) :
    ∀ (l1 l2 : List Nat) (head : Option Nat),
      UpvalueList heap head l1 → UpvalueList heap head l2 → l1 = l2 := by
  intro l1
  induction l1 with
  | nil =>
    intro l2 head h1 h2
    cases head with
    | some p => exact absurd h1 (by simp [UpvalueList])
    | none =>
      cases l2 with
      | nil => rfl
      | cons y r => exact absurd h2 (by simp [UpvalueList])
  | cons x rest ih =>
    intro l2 head h1 h2
    cases head with
    | none => exact absurd h1 (by simp [UpvalueList])
    | some p =>
      cases l2 with
      | nil => exact absurd h2 (by simp [UpvalueList])
      | cons y r =>
        obtain ⟨e1, loc1, c1, n1, g1, r1⟩ := h1
        obtain ⟨e2, loc2, c2, n2, g2, r2⟩ := h2
        rw [g1] at g2
        simp only [Option.some.injEq, Obj.OBJ_UPVALUE.injEq] at g2
        rw [← g2.2.2] at r2
        rw [← e1, ← e2, ih r n1 r1 r2]

theorem UpvalueList_suffix (heap : Heap) :
    ∀ (l : List Nat) (head : Option Nat), UpvalueList heap head l →
      ∀ q ∈ l, ∃ l1, UpvalueList heap (some q) l1 ∧ l1.length ≤ l.length := by
  intro l
  induction l with
  | nil => intro _ _ q hq; cases hq
  | cons x rest ih =>
    intro head h q hq
    cases head with
    | none => exact absurd h (by simp [UpvalueList])
    | some p =>
      have h0 := h
      obtain ⟨e1, loc1, c1, n1, g1, r1⟩ := h
      rcases List.mem_cons.mp hq with hx | hr
      · refine ⟨x :: rest, ?_, le_refl _⟩
        rw [e1] at h0
        rw [hx]; exact h0
      · obtain ⟨l1, a, b⟩ := ih n1 r1 q hr
        exact ⟨l1, a, by simp only [List.length_cons]; omega⟩

theorem UpvalueList_nodup (heap : Heap) :
    ∀ (l : List Nat) (head : Option Nat), UpvalueList heap head l → l.Nodup := by
  intro l
  induction l with
  | nil => intro _ _; exact List.nodup_nil
  | cons x rest ih =>
    intro head h
    cases head with
    | none => exact absurd h (by simp [UpvalueList])
    | some p =>
      have h0 := h
      obtain ⟨e1, loc1, c1, n1, g1, r1⟩ := h
      rw [List.nodup_cons]
      refine ⟨?_, ih n1 r1⟩
      intro hmem
      obtain ⟨l1, a, b⟩ := UpvalueList_suffix heap rest n1 r1 x hmem
      rw [e1] at h0
      have := UpvalueList_functional heap l1 (x :: rest) (some x) a h0
      rw [this] at b
      simp only [List.length_cons] at b
      omega

theorem UpvalueList_allocated (heap : Heap) :
    ∀ (l : List Nat) (head : Option Nat), UpvalueList heap head l →
      ∀ q ∈ l, heap.allocated q := by
  intro l
  induction l with
  | nil => intro _ _ q hq; cases hq
  | cons x rest ih =>
    intro head h q hq
    cases head with
    | none => exact absurd h (by simp [UpvalueList])
    | some p =>
      obtain ⟨e1, loc1, c1, n1, g1, r1⟩ := h
      rcases List.mem_cons.mp hq with hx | hr
      · rw [hx, ← e1]; exact ⟨_, g1⟩
      · exact ih n1 r1 q hr

theorem UpvalueList_length_le (heap : Heap) (l : List Nat) (head : Option Nat)
    (h : UpvalueList heap head l) : l.length ≤ heap.length := by
  have hnd := UpvalueList_nodup heap l head h
  have hsub : l.toFinset ⊆ Finset.range heap.length := by
    intro p hp
    rw [List.mem_toFinset] at hp
    rw [Finset.mem_range]
    obtain ⟨obj, ho⟩ := UpvalueList_allocated heap l head h p hp
    exact Heap.get_some_lt heap p obj ho
  have := Finset.card_le_card hsub
  rw [List.toFinset_card_of_nodup hnd, Finset.card_range] at this
  exact this

/-- The loop of `markRoots` over the open upvalues marks them. -/
theorem markOpenUpvalues_spec (heap0 : Heap) :
    ∀ (ups : List Nat) (fuel : Nat) (head : Option Nat) (s : Heap × List Nat),
      UpvalueList heap0 head ups → (∀ p, s.1.get p = heap0.get p) → ups.length < fuel →
      ∃ s1, markOpenUpvalues fuel s head = some s1 ∧ MarkStep s s1 ups := by
  intro ups
  induction ups with
  | nil =>
    intro fuel head s h _ hfuel
    obtain ⟨fuel, rfl⟩ : ∃ m, fuel = m + 1 := ⟨fuel - 1, by simp at hfuel; omega⟩
    cases head with
    | some p => exact absurd h (by simp [UpvalueList])
    | none => exact ⟨s, by simp only [markOpenUpvalues], MarkStep.same s⟩
  | cons x rest ih =>
    intro fuel head s h hget hfuel
    obtain ⟨fuel, rfl⟩ : ∃ m, fuel = m + 1 := ⟨fuel - 1, by simp at hfuel; omega⟩
    cases head with
    | none => exact absurd h (by simp [UpvalueList])
    | some p =>
      obtain ⟨e1, loc1, c1, n1, g1, r1⟩ := h
      subst e1
      have hg : s.1.get p = some (.OBJ_UPVALUE loc1 c1 n1) := by rw [hget]; exact g1
      obtain ⟨s1, h1, st1⟩ := markObject_marks p s (fun q hq => by
        rw [List.mem_singleton.mp hq]; exact ⟨_, hg⟩)
      obtain ⟨s2, h2, st2⟩ := ih fuel n1 s1 r1 (fun q => by rw [st1.heap.get, hget])
        (by simp only [List.length_cons] at hfuel; omega)
      refine ⟨s2, ?_, MarkStep.append _ _ _ _ _ st1 st2⟩
      simp only [markOpenUpvalues, hg, h1, Option.some_bind, h2]

theorem markCompilerRoots_marks (compilers : List Compiler) :
    Marks (fun s => markCompilerRoots s compilers)
      (compilers.map fun compiler => compiler.function) := by
  induction compilers with
  | nil => exact Marks.nil
  | cons c rest ih =>
    exact Marks.congr _ _ _ (fun s => by simp only [markCompilerRoots])
      (Marks.bind _ _ _ _ (markObject_marks c.function) ih)

theorem markFrames_marks (frames : List CallFrame) :
    Marks (fun s => markFrames s frames) (frames.map fun frame => frame.closure) := by
  induction frames with
  | nil => exact Marks.nil
  | cons f rest ih =>
    exact Marks.congr _ _ _ (fun s => by simp only [markFrames])
      (Marks.bind _ _ _ _ (markObject_marks f.closure) ih)

end Loxj

/-! # Collector: roots, the string table, the sweep -/

namespace Loxj

/-- The function `markRoots` marks the roots. -/
theorem markRoots_spec (vm : VM) (currentCompiler : List Compiler) (ups : List Nat)
    (hups : UpvalueList vm.heap vm.openUpvalues ups)
    (halloc : ∀ r ∈ roots vm currentCompiler ups, vm.heap.allocated r)
    (hglobals : vm.globals.capacity ≤ vm.globals.entries.length) :
    ∃ s, markRoots vm currentCompiler = some s ∧
      MarkStep (vm.heap, []) s (roots vm currentCompiler ups) := by
  have hmem : ∀ r, r ∈ roots vm currentCompiler ups ↔
      (((((r ∈ ((List.range vm.stackTop).map vm.slot).flatMap valueRefs ∨ r ∈ vm.globals.refs) ∨
        r ∈ currentCompiler.map (fun compiler => compiler.function)) ∨
        r ∈ vm.initString.toList) ∨ r ∈ vm.frames.map (fun frame => frame.closure)) ∨
        r ∈ ups) := by
    intro r
    simp only [roots, List.mem_append]
  obtain ⟨s1, h1, st1⟩ := markArray_marks ((List.range vm.stackTop).map vm.slot) (vm.heap, [])
    (fun q hq => halloc q ((hmem q).mpr (Or.inl (Or.inl (Or.inl (Or.inl (Or.inl hq)))))))
  obtain ⟨s2, h2, st2⟩ := markTable_marks vm.globals hglobals s1
    (fun q hq => st1.heap.allocated _ _ q
      (halloc q ((hmem q).mpr (Or.inl (Or.inl (Or.inl (Or.inl (Or.inr hq))))))))
  have st12 := MarkStep.append _ _ _ _ _ st1 st2
  obtain ⟨s3, h3, st3⟩ := markCompilerRoots_marks currentCompiler s2
    (fun q hq => st12.heap.allocated _ _ q
      (halloc q ((hmem q).mpr (Or.inl (Or.inl (Or.inl (Or.inr hq)))))))
  have st13 := MarkStep.append _ _ _ _ _ st12 st3
  obtain ⟨s4, h4, st4⟩ := markObject_option_marks vm.initString s3
    (fun q hq => st13.heap.allocated _ _ q
      (halloc q ((hmem q).mpr (Or.inl (Or.inl (Or.inr hq))))))
  have st14 := MarkStep.append _ _ _ _ _ st13 st4
  obtain ⟨s5, h5, st5⟩ := markFrames_marks vm.frames s4
    (fun q hq => st14.heap.allocated _ _ q
      (halloc q ((hmem q).mpr (Or.inl (Or.inr hq)))))
  have st15 := MarkStep.append _ _ _ _ _ st14 st5
  obtain ⟨s6, h6, st6⟩ := markOpenUpvalues_spec vm.heap ups (vm.heap.length + 1)
    vm.openUpvalues s5 hups st15.heap.get
    (Nat.lt_succ_of_le (UpvalueList_length_le vm.heap ups _ hups))
  refine ⟨s6, ?_, MarkStep.append _ _ _ _ _ st15 st6⟩
  simp only [markRoots, h1, Option.some_bind, h2, h3, h4, h5, h6]

/-- After `markRoots` in a heap without marks the invariant of
`traceReferences` holds. -/
theorem TraceInv.of_roots (heap0 : Heap) (rs : List Nat) (s : Heap × List Nat)
    (hunmarked : ∀ p, heap0.marked p = false)
    (hstep : MarkStep (heap0, []) s rs) : TraceInv heap0 rs s := by
  have hnew : ∀ p, s.1.marked p = true → p ∈ rs ∧ p ∈ s.2 := by
    intro p hp
    rcases hstep.new p hp with h | h
    · have h1 : heap0.marked p = true := h
      rw [hunmarked p] at h1
      cases h1
    · exact h
  constructor
  · exact hstep.heap
  · intro p hp
    rcases hstep.gray p hp with h | h
    · cases h
    · exact hstep.all p h
  · intro p hp
    exact Reachable.root p (hnew p hp).1
  · intro p obj hp hng
    exact absurd (hnew p hp).2 hng
  · exact hstep.all

theorem Heap.unmarked_le (heap : Heap) : heap.unmarked ≤ heap.length :=
  List.countP_le_length _

/-- The mark phase: `markRoots` and `traceReferences` return, the gray stack
is empty at the end, the heap is as before but for the mark bits, and every
reachable object is marked. -/
theorem markPhase_spec (vm : VM) (currentCompiler : List Compiler) (ups : List Nat)
    (hunmarked : ∀ p, vm.heap.marked p = false)
    (hups : UpvalueList vm.heap vm.openUpvalues ups)
    (hvalid : ∀ p, Reachable vm.heap (roots vm currentCompiler ups) p →
      ∃ obj, vm.heap.get p = some obj ∧ obj.wf = true)
    (hglobals : vm.globals.capacity ≤ vm.globals.entries.length) :
    ∃ heap1, markPhase vm currentCompiler = some (heap1, []) ∧ MarkedFrom vm.heap heap1 ∧
      (∀ p, Reachable vm.heap (roots vm currentCompiler ups) p → heap1.marked p = true) ∧
      (∀ p, heap1.marked p = true → Reachable vm.heap (roots vm currentCompiler ups) p) := by
  obtain ⟨s, hs, hstep⟩ := markRoots_spec vm currentCompiler ups hups
    (fun r hr => by
      obtain ⟨obj, ho, _⟩ := hvalid r (Reachable.root r hr)
      exact ⟨obj, ho⟩) hglobals
  have hinv := TraceInv.of_roots vm.heap _ s hunmarked hstep
  obtain ⟨heap1, h1, hinv1⟩ := traceReferences_spec vm.heap _ hvalid
    (s.2.length + s.1.length + 1) s hinv (by
      have := Heap.unmarked_le s.1
      omega)
  refine ⟨heap1, ?_, hinv1.heap, TraceInv.marked_of_reachable vm.heap _ heap1 hinv1,
    hinv1.reach⟩
  simp only [markPhase, hs, Option.some_bind, h1]


theorem tableDelete_shape (heap : Heap) (t t1 : Table) (key : Nat) (b : Bool)
    (h : tableDelete heap t key = some (b, t1)) :
    t1.capacity = t.capacity ∧ t1.entries.length = t.entries.length := by
  unfold tableDelete at h
  split at h
  · simp only [Option.some.injEq, Prod.mk.injEq] at h
    rw [← h.2]; exact ⟨rfl, rfl⟩
  · cases hfi : findEntry heap t.entries t.capacity key with
    | none => rw [hfi] at h; cases h
    | some i =>
      rw [hfi] at h
      simp only [Option.some_bind, List.get?_eq_getElem?] at h
      cases hge : t.entries[i]? with
      | none => rw [hge] at h; cases h
      | some e =>
        rw [hge] at h
        simp only [Option.map_some', Option.some.injEq] at h
        cases hk : e.key with
        | none =>
          rw [hk] at h
          simp only [Prod.mk.injEq] at h
          rw [← h.2]; exact ⟨rfl, rfl⟩
        | some k =>
          rw [hk] at h
          simp only [Prod.mk.injEq] at h
          rw [← h.2]
          exact ⟨rfl, List.length_set _ _ _⟩

/-- The loop of `tableRemoveWhite` returns, keeps the table invariant, and
keeps the entries whose key is marked. -/
theorem tableRemoveWhiteLoop_spec (heap : Heap) :
    ∀ (n i : Nat) (t : Table), TableInv heap t → i + n = t.capacity →
      ∃ t1, tableRemoveWhiteLoop heap n i t = some t1 ∧ TableInv heap t1 ∧
        (∀ k v, Live t1.entries k v → Live t.entries k v) ∧
        (∀ k v, Live t.entries k v → heap.marked k = true → Live t1.entries k v) := by
  intro n
  induction n with
  | zero =>
    intro i t ht _
    exact ⟨t, rfl, ht, fun _ _ h => h, fun _ _ h _ => h⟩
  | succ n ih =>
    intro i t ht hcap
    obtain ⟨e, hge⟩ : ∃ e, t.entries[i]? = some e :=
      ⟨_, List.getElem?_eq_getElem (by rw [ht.length_eq heap t]; omega)⟩
    rw [tableRemoveWhiteLoop]
    simp only [List.get?_eq_getElem?, hge]
    cases hk : e.key with
    | none => exact ih (i + 1) t ht (by omega)
    | some key =>
      simp only
      obtain ⟨s, hs⟩ := ht.hasKey_string heap t key ⟨i, by rw [keyAt_eq _ _ _ hge, hk]⟩
      obtain ⟨cell, hc, _⟩ := Heap.get_eq_some heap key _ (Heap.string_eq_some heap key s hs)
      rw [Heap.getD_of_getElem? heap key _ hc]
      simp only
      by_cases hm : cell.isMarked = true
      · simp only [hm, if_true]
        exact ih (i + 1) t ht (by omega)
      · have hmf : cell.isMarked = false := by simpa using hm
        simp only [hmf, Bool.false_eq_true, if_false]
        obtain ⟨b, t1, hdel, hinv1, hlive1, _⟩ := tableDelete_spec heap t key s ht hs
        obtain ⟨hcap1, _⟩ := tableDelete_shape heap t t1 key b hdel
        obtain ⟨t2, h2, hinv2, hl2, hm2⟩ := ih (i + 1) t1 hinv1 (by omega)
        refine ⟨t2, by simp only [hdel, Option.some_bind, h2], hinv2, ?_, ?_⟩
        · intro k v h
          exact ((hlive1 k v).mp (hl2 k v h)).2
        · intro k v h hkm
          refine hm2 k v ((hlive1 k v).mpr ⟨?_, h⟩) hkm
          intro e1
          rw [e1, Heap.marked_of_cell heap key cell hc] at hkm
          exact hm hkm

theorem tableRemoveWhite_spec (heap : Heap) (t : Table) (ht : TableInv heap t) :
    ∃ t1, tableRemoveWhite heap t = some t1 ∧ TableInv heap t1 ∧
      (∀ k v, Live t1.entries k v → Live t.entries k v) ∧
      (∀ k v, Live t.entries k v → heap.marked k = true → Live t1.entries k v) :=
  tableRemoveWhiteLoop_spec heap t.capacity 0 t ht (Nat.zero_add _)

/-- The loop of `sweep` over a list of allocated objects without repetition:
it keeps the marked objects, with the mark bit reset, frees the others, and
leaves the rest of the heap. -/
theorem sweepLoop_spec :
    ∀ (objs : List Nat) (heap : Heap), objs.Nodup → (∀ p ∈ objs, heap.allocated p) →
      ∃ heap1 kept, sweepLoop heap objs = some (heap1, kept) ∧
        (∀ p, p ∉ objs → heap1[p]? = heap[p]?) ∧
        (∀ p ∈ objs, ∀ cell, heap[p]? = some (some cell) →
          (cell.isMarked = true →
            p ∈ kept ∧ heap1[p]? = some (some { cell with isMarked := false })) ∧
          (cell.isMarked = false → p ∉ kept ∧ heap1[p]? = some none)) ∧
        (∀ p ∈ kept, p ∈ objs) := by
  intro objs
  induction objs with
  | nil =>
    intro heap _ _
    exact ⟨heap, [], rfl, fun _ _ => rfl, fun _ h => (by cases h), fun _ h => (by cases h)⟩
  | cons q rest ih =>
    intro heap hnd halloc
    obtain ⟨hq, hnd1⟩ := List.nodup_cons.mp hnd
    obtain ⟨cell, hc⟩ := Heap.allocated_cell heap q (halloc q (List.mem_cons_self _ _))
    have hlt : q < heap.length := (List.getElem?_eq_some_iff.mp hc).1
    have hgd := Heap.getD_of_getElem? heap q _ hc
    have halloc1 : ∀ (c : Option HeapCell), ∀ p ∈ rest, Heap.allocated (heap.set q c) p := by
      intro c p hp
      obtain ⟨obj, ho⟩ := halloc p (List.mem_cons_of_mem _ hp)
      have hne : p ≠ q := fun e => hq (e ▸ hp)
      exact ⟨obj, by rw [Heap.get_set_ne _ _ _ _ hne]; exact ho⟩
    have hother : ∀ (c : Option HeapCell) (p : Nat), p ≠ q → (heap.set q c)[p]? = heap[p]? :=
      fun c p hne => List.getElem?_set_ne (Ne.symm hne)
    by_cases hm : cell.isMarked = true
    · obtain ⟨heap1, kept, h1, h2, h3, h4⟩ :=
        ih (heap.set q (some { cell with isMarked := false })) hnd1 (halloc1 _)
      refine ⟨heap1, q :: kept, ?_, ?_, ?_, ?_⟩
      · simp only [sweepLoop, hgd, hm, if_true, h1, Option.map_some']
      · intro p hp
        have hne : p ≠ q := fun e => hp (e ▸ List.mem_cons_self _ _)
        rw [h2 p (fun h => hp (List.mem_cons_of_mem _ h)), hother _ p hne]
      · intro p hp c hpc
        rcases List.mem_cons.mp hp with e | hr
        · subst e
          rw [hc] at hpc
          cases hpc
          refine ⟨fun _ => ⟨List.mem_cons_self _ _, ?_⟩, fun hf => ?_⟩
          · rw [h2 p hq]
            exact Heap.getElem?_set_self heap p _ hlt
          · rw [hm] at hf; cases hf
        · have hne : p ≠ q := fun e => hq (e ▸ hr)
          obtain ⟨a, b⟩ := h3 p hr c (by rw [hother _ p hne]; exact hpc)
          refine ⟨fun hx => ⟨List.mem_cons_of_mem _ (a hx).1, (a hx).2⟩, fun hx => ⟨?_, (b hx).2⟩⟩
          intro hmem
          rcases List.mem_cons.mp hmem with e | hk
          · exact hne e
          · exact (b hx).1 hk
      · intro p hp
        rcases List.mem_cons.mp hp with e | hk
        · rw [e]; exact List.mem_cons_self _ _
        · exact List.mem_cons_of_mem _ (h4 p hk)
    · simp only [Bool.not_eq_true] at hm
      obtain ⟨heap1, kept, h1, h2, h3, h4⟩ := ih (heap.set q none) hnd1 (halloc1 _)
      refine ⟨heap1, kept, ?_, ?_, ?_, ?_⟩
      · simp only [sweepLoop, hgd, hm, Bool.false_eq_true, if_false, h1]
      · intro p hp
        have hne : p ≠ q := fun e => hp (e ▸ List.mem_cons_self _ _)
        rw [h2 p (fun h => hp (List.mem_cons_of_mem _ h)), hother _ p hne]
      · intro p hp c hpc
        rcases List.mem_cons.mp hp with e | hr
        · subst e
          rw [hc] at hpc
          cases hpc
          refine ⟨fun hf => ?_, fun _ => ⟨fun hk => hq (h4 p hk), ?_⟩⟩
          · rw [hm] at hf; cases hf
          · rw [h2 p hq]
            exact Heap.getElem?_set_self heap p _ hlt
        · have hne : p ≠ q := fun e => hq (e ▸ hr)
          exact h3 p hr c (by rw [hother _ p hne]; exact hpc)
      · intro p hp
        exact List.mem_cons_of_mem _ (h4 p hp)

end Loxj

/-! # Collector: `collectGarbage` (C20) -/

namespace Loxj

/-- In a closed heap whose roots are allocated every reachable object is
allocated and has arrays of the length their count says. -/
theorem Reachable.valid_of_closed (heap : Heap) (rs : List Nat) (hclosed : heap.closed = true)
    (hroots : ∀ r ∈ rs, heap.allocated r) (p : Nat) (h : Reachable heap rs p) :
    ∃ obj, heap.get p = some obj ∧ obj.wf = true := by
  have hcell : ∀ q obj, heap.get q = some obj →
      obj.wf = true ∧ ∀ r ∈ obj.refs, heap.allocated r := by
    intro q obj hq
    obtain ⟨cell, hc, ho⟩ := Heap.get_eq_some heap q obj hq
    have hmem : some cell ∈ heap := List.mem_iff_getElem?.mpr ⟨q, hc⟩
    have hall := List.all_eq_true.mp hclosed (some cell) hmem
    simp only [Bool.and_eq_true, List.all_eq_true] at hall
    rw [ho] at hall
    refine ⟨hall.1, fun r hr => ?_⟩
    exact Option.isSome_iff_exists.mp (hall.2 r hr)
  have halloc : heap.allocated p := by
    induction h with
    | root p hp => exact hroots p hp
    | step p q obj _ ho hq _ => exact (hcell p obj ho).2 q hq
  obtain ⟨obj, ho⟩ := halloc
  exact ⟨obj, ho, (hcell p obj ho).1⟩

/-- A heap whose cells are all unmarked has no mark at any address. -/
theorem Heap.marked_false_of_all (heap : Heap)
    (h : ∀ c ∈ heap, ∀ cell, c = some cell → cell.isMarked = false) (p : Nat) :
    heap.marked p = false := by
  unfold Heap.marked
  cases hc : heap.getD p none with
  | none => rfl
  | some cell =>
    simp only
    by_cases hlt : p < heap.length
    · have hg : heap[p]? = some (some cell) := by
        rw [List.getD_eq_getElem?_getD, List.getElem?_eq_getElem hlt] at hc
        rw [List.getElem?_eq_getElem hlt]
        exact congrArg some hc
      exact h (some cell) (List.mem_iff_getElem?.mpr ⟨p, hg⟩) cell rfl
    · rw [List.getD_eq_getElem?_getD, List.getElem?_eq_none (by omega)] at hc
      cases hc

/-- C20: `collectGarbage` never frees an object that is reachable from the
roots.  In a state where no object is marked, the open upvalues form a list
`ups`, every reachable object is allocated with arrays of the length their
count says, the string table is well formed and `vm.objects` lists the
allocated objects once each: the mark phase returns with an empty gray stack
and has marked exactly the reachable objects; `collectGarbage` returns; every
reachable object is still in the object list and its cell is the one of
before; every object of the list that is not reachable is freed; the stack,
the frames, the globals, the open upvalues and the initializer name are the
ones of before. -/
theorem C20_collectGarbage (vm : VM) (currentCompiler : List Compiler) (ups : List Nat)
    (hunmarked : ∀ p, vm.heap.marked p = false)
    (hups : UpvalueList vm.heap vm.openUpvalues ups)
    (hvalid : ∀ p, Reachable vm.heap (roots vm currentCompiler ups) p →
      ∃ obj, vm.heap.get p = some obj ∧ obj.wf = true)
    (hglobals : vm.globals.capacity ≤ vm.globals.entries.length)
    (hstrings : TableInv vm.heap vm.strings)
    (hnodup : vm.objects.Nodup)
    (hobjects : ∀ p, p ∈ vm.objects ↔ vm.heap.allocated p) :
    ∃ heapM vm1, markPhase vm currentCompiler = some (heapM, []) ∧
      (∀ p, heapM.marked p = true ↔ Reachable vm.heap (roots vm currentCompiler ups) p) ∧
      collectGarbage vm currentCompiler = some vm1 ∧
      (∀ p, Reachable vm.heap (roots vm currentCompiler ups) p →
        p ∈ vm1.objects ∧ vm1.heap[p]? = vm.heap[p]?) ∧
      (∀ p ∈ vm.objects, ¬Reachable vm.heap (roots vm currentCompiler ups) p →
        p ∉ vm1.objects ∧ vm1.heap[p]? = some none) ∧
      vm1.stack = vm.stack ∧ vm1.stackTop = vm.stackTop ∧ vm1.frames = vm.frames ∧
      vm1.globals = vm.globals ∧ vm1.openUpvalues = vm.openUpvalues ∧
      vm1.initString = vm.initString := by
  obtain ⟨heapM, hmp, hfrom, hmarked, hreach⟩ :=
    markPhase_spec vm currentCompiler ups hunmarked hups hvalid hglobals
  have hstr : TableInv heapM vm.strings :=
    TableInv_congr vm.heap heapM vm.strings
      (fun k => by unfold Heap.string; rw [hfrom.get k]) hstrings
  obtain ⟨strings1, hrw, _, _, _⟩ := tableRemoveWhite_spec heapM vm.strings hstr
  have hallocM : ∀ p ∈ vm.objects, heapM.allocated p := fun p hp =>
    hfrom.allocated _ _ p ((hobjects p).mp hp)
  obtain ⟨heap2, kept, hsw, _, hcells, _⟩ := sweepLoop_spec vm.objects heapM hnodup hallocM
  have hcell : ∀ p ∈ vm.objects, ∃ cell0 cellM, vm.heap[p]? = some (some cell0) ∧
      heapM[p]? = some (some cellM) ∧ cellM.obj = cell0.obj ∧ cell0.isMarked = false ∧
      cellM.isMarked = heapM.marked p := by
    intro p hp
    obtain ⟨cell0, h0⟩ := Heap.allocated_cell vm.heap p ((hobjects p).mp hp)
    obtain ⟨cellM, hM⟩ := Heap.allocated_cell heapM p (hallocM p hp)
    refine ⟨cell0, cellM, h0, hM, ?_, ?_, ?_⟩
    · have hg := hfrom.get p
      rw [Heap.get_of_cell heapM p cellM hM, Heap.get_of_cell vm.heap p cell0 h0] at hg
      exact Option.some.inj hg
    · rw [← Heap.marked_of_cell vm.heap p cell0 h0]
      exact hunmarked p
    · exact (Heap.marked_of_cell heapM p cellM hM).symm
  refine ⟨heapM, { vm with heap := heap2, strings := strings1, objects := kept }, hmp,
    fun p => ⟨hreach p, hmarked p⟩, ?_, ?_, ?_, rfl, rfl, rfl, rfl, rfl, rfl⟩
  · simp only [collectGarbage, hmp, Option.some_bind, hrw, sweep, hsw, Option.map_some']
  · intro p hp
    obtain ⟨obj, ho, _⟩ := hvalid p hp
    have hmem : p ∈ vm.objects := (hobjects p).mpr ⟨obj, ho⟩
    obtain ⟨cell0, cellM, h0, hM, hobj, hm0, hmM⟩ := hcell p hmem
    obtain ⟨hk, hh⟩ := (hcells p hmem cellM hM).1 (by rw [hmM]; exact hmarked p hp)
    refine ⟨hk, ?_⟩
    show heap2[p]? = vm.heap[p]?
    rw [hh, h0]
    cases cell0
    cases cellM
    simp only at hobj hm0
    rw [hobj, hm0]
  · intro p hmem hnr
    obtain ⟨cell0, cellM, h0, hM, hobj, hm0, hmM⟩ := hcell p hmem
    have hf : cellM.isMarked = false := by
      rw [hmM]
      cases hx : heapM.marked p with
      | false => rfl
      | true => exact absurd (hreach p hx) hnr
    exact (hcells p hmem cellM hM).2 hf

/-- C20 on the state `garbageVM`: the seven objects of `classVM` are reachable
and stay as they are; the collection keeps them in the object list and frees
the string at address 7. -/
theorem C20_collectGarbage_witness :
    ((collectGarbage garbageVM []).map fun vm1 => (vm1.objects, vm1.heap[7]?, vm1.heap[4]?)) =
        some ([6, 5, 4, 3, 2, 1, 0], some none, garbageVM.heap[4]?) ∧
    ∃ heapM vm1, markPhase garbageVM [] = some (heapM, []) ∧
      (∀ p, heapM.marked p = true ↔ Reachable garbageVM.heap (roots garbageVM [] []) p) ∧
      collectGarbage garbageVM [] = some vm1 ∧
      (∀ p, Reachable garbageVM.heap (roots garbageVM [] []) p →
        p ∈ vm1.objects ∧ vm1.heap[p]? = garbageVM.heap[p]?) ∧
      (∀ p ∈ garbageVM.objects, ¬Reachable garbageVM.heap (roots garbageVM [] []) p →
        p ∉ vm1.objects ∧ vm1.heap[p]? = some none) ∧
      vm1.stack = garbageVM.stack ∧ vm1.stackTop = garbageVM.stackTop ∧
      vm1.frames = garbageVM.frames ∧ vm1.globals = garbageVM.globals ∧
      vm1.openUpvalues = garbageVM.openUpvalues ∧ vm1.initString = garbageVM.initString :=
  ⟨by decide, C20_collectGarbage garbageVM [] []
    (Heap.marked_false_of_all garbageVM.heap (by decide))
    trivial
    (Reachable.valid_of_closed garbageVM.heap _ (by decide) (fun r hr => by
      have h : ∀ r ∈ roots garbageVM [] [], (garbageVM.heap.get r).isSome = true := by decide
      exact Option.isSome_iff_exists.mp (h r hr)))
    (by decide)
    (TableInv_initTable _)
    (by decide)
    (fun p => by
      have hlen : garbageVM.heap.length = 8 := by decide
      have hall : ∀ q < 8, q ∈ garbageVM.objects ∧ (garbageVM.heap.get q).isSome = true := by
        decide
      constructor
      · intro hp
        have hlt : p < 8 := by
          have hb : ∀ q ∈ garbageVM.objects, q < 8 := by decide
          exact hb p hp
        exact Option.isSome_iff_exists.mp (hall p hlt).2
      · intro hp
        obtain ⟨obj, ho⟩ := hp
        obtain ⟨cell, hc, _⟩ := Heap.get_eq_some garbageVM.heap p obj ho
        have hlt : p < garbageVM.heap.length := (List.getElem?_eq_some_iff.mp hc).1
        exact (hall p (by omega)).1)⟩

end Loxj

/-! # Values: the NaN-boxing predicates (C30) -/

namespace Loxj

theorem IS_BOOL_cases (v : Nat) (h : IS_BOOL v = true) : v = FALSE_VAL ∨ v = TRUE_VAL := by
  have h1 := or_one_div_two v
  have h2 := or_one_mod_two v
  have hT : TRUE_VAL = 0x7ffc000000000003 := by decide
  have hF : FALSE_VAL = 0x7ffc000000000002 := by decide
  simp only [IS_BOOL, beq_iff_eq, hT] at h
  have h' : (v ||| 1 : Nat) = 0x7ffc000000000003 := h
  rw [hT, hF]
  omega

theorem and_QNAN_mod (v : Nat) : (v % 2 ^ 63) &&& QNAN = v &&& QNAN := by
  rw [← Nat.and_pow_two_sub_one_eq_mod, Nat.and_assoc]
  congr 1

theorem IS_NUMBER_of_finite (v : Nat) (h : doubleIsFinite v = true) : IS_NUMBER v = true := by
  simp only [doubleIsFinite, decide_eq_true_eq] at h
  simp only [IS_NUMBER, bne_iff_ne, ne_eq]
  intro he
  have h1 : (v % 2 ^ 63) &&& QNAN ≤ v % 2 ^ 63 := Nat.and_le_left
  rw [and_QNAN_mod, he] at h1
  have hq : QNAN = 0x7ffc000000000000 := rfl
  rw [hq] at h1
  omega

/-- C30: the NaN-boxed representation of `value.h`.  For every word at most
one of `IS_NIL`, `IS_BOOL`, `IS_NUMBER`, `IS_OBJ` holds; `NIL_VAL`,
`BOOL_VAL(b)` and `OBJ_VAL(p)` satisfy their own predicate and none of the
others; the bit pattern of a finite double satisfies `IS_NUMBER`;
`AS_BOOL(BOOL_VAL(b))` is `b`; and `AS_OBJ(OBJ_VAL(p))` is `p` for every
address below `2 ^ 50`. -/
theorem C30_nan_boxing (v : Nat) (b : Bool) (p : Nat) :
    (IS_NIL v).toNat + (IS_BOOL v).toNat + (IS_NUMBER v).toNat + (IS_OBJ v).toNat ≤ 1 ∧
    (IS_NIL NIL_VAL = true ∧ IS_BOOL NIL_VAL = false ∧ IS_NUMBER NIL_VAL = false ∧
      IS_OBJ NIL_VAL = false) ∧
    (IS_BOOL (BOOL_VAL b) = true ∧ IS_NIL (BOOL_VAL b) = false ∧
      IS_NUMBER (BOOL_VAL b) = false ∧ IS_OBJ (BOOL_VAL b) = false) ∧
    (IS_OBJ (OBJ_VAL p) = true ∧ IS_NIL (OBJ_VAL p) = false ∧ IS_BOOL (OBJ_VAL p) = false ∧
      IS_NUMBER (OBJ_VAL p) = false) ∧
    (doubleIsFinite v = true → IS_NUMBER v = true) ∧
    AS_BOOL (BOOL_VAL b) = b ∧
    (p < 2 ^ 50 → AS_OBJ (OBJ_VAL p) = p) := by
  have hone : ∀ w : Nat,
      (IS_NIL w).toNat + (IS_BOOL w).toNat + (IS_NUMBER w).toNat + (IS_OBJ w).toNat ≤ 1 := by
    intro w
    by_cases hn : IS_NIL w = true
    · have e : w = NIL_VAL := by simpa [IS_NIL] using hn
      rw [e]; decide
    · by_cases hb : IS_BOOL w = true
      · rcases IS_BOOL_cases w hb with e | e <;> rw [e] <;> decide
      · by_cases hnum : IS_NUMBER w = true
        · have ho := IS_OBJ_of_IS_NUMBER w hnum
          simp only [Bool.not_eq_true] at hn hb
          rw [hn, hb, hnum, ho]; decide
        · simp only [Bool.not_eq_true] at hn hb hnum
          rw [hn, hb, hnum]
          cases IS_OBJ w <;> decide
  have hobj : IS_OBJ (OBJ_VAL p) = true := IS_OBJ_OBJ_VAL p
  have hp := hone (OBJ_VAL p)
  rw [hobj] at hp
  refine ⟨hone v, by decide, ?_, ⟨hobj, ?_, ?_, IS_NUMBER_OBJ_VAL p⟩, IS_NUMBER_of_finite v, ?_,
    AS_OBJ_OBJ_VAL p⟩
  · cases b <;> decide
  · cases h : IS_NIL (OBJ_VAL p)
    · rfl
    · rw [h] at hp; simp only [Bool.toNat_true] at hp; omega
  · cases h : IS_BOOL (OBJ_VAL p)
    · rfl
    · rw [h] at hp; simp only [Bool.toNat_true] at hp; omega
  · cases b <;> decide

/-- C30 at the double 1.0 and the address 5: the word of 1.0 is that of a
finite double and a number, and the address comes back from its object
value. -/
theorem C30_nan_boxing_witness :
    doubleIsFinite doubleOne = true ∧ IS_NUMBER doubleOne = true ∧
    (5 : Nat) < 2 ^ 50 ∧ AS_OBJ (OBJ_VAL 5) = 5 :=
  ⟨by decide, (C30_nan_boxing doubleOne true 5).2.2.2.2.1 (by decide), by decide,
    (C30_nan_boxing doubleOne true 5).2.2.2.2.2.2 (by decide)⟩

end Loxj

/-! # Collector: `sweep` (C29) -/

namespace Loxj

/-- The object list that the loop of `sweep` leaves: the marked objects of
the list it was given, in their order. -/
theorem sweepLoop_kept :
    ∀ (objs : List Nat) (heap heap1 : Heap) (kept : List Nat), objs.Nodup →
      sweepLoop heap objs = some (heap1, kept) →
      kept = objs.filter fun p => heap.marked p := by
  intro objs
  induction objs with
  | nil =>
    intro heap heap1 kept _ h
    simp only [sweepLoop, Option.some.injEq, Prod.mk.injEq] at h
    rw [← h.2]; rfl
  | cons q rest ih =>
    intro heap heap1 kept hnd h
    obtain ⟨hq, hnd1⟩ := List.nodup_cons.mp hnd
    have hfilter : ∀ c : Option HeapCell,
        (rest.filter fun p => Heap.marked (heap.set q c) p) = rest.filter fun p => heap.marked p := by
      intro c
      apply List.filter_congr
      intro p hp
      exact Heap.marked_set_ne heap p q c (fun e => hq (e ▸ hp))
    rw [sweepLoop] at h
    cases hc : heap.getD q none with
    | none => rw [hc] at h; cases h
    | some cell =>
      rw [hc] at h
      simp only at h
      have hm : heap.marked q = cell.isMarked := by simp only [Heap.marked, hc]
      by_cases hmk : cell.isMarked = true
      · simp only [hmk, if_true] at h
        cases hr : sweepLoop (heap.set q (some { cell with isMarked := false })) rest with
        | none => rw [hr] at h; cases h
        | some r =>
          rw [hr] at h
          simp only [Option.map_some', Option.some.injEq, Prod.mk.injEq] at h
          have hk := ih _ r.1 r.2 hnd1 hr
          rw [hfilter] at hk
          rw [← h.2, List.filter_cons, hm, hmk, if_pos rfl, hk]
      · simp only [Bool.not_eq_true] at hmk
        simp only [hmk, Bool.false_eq_true, if_false] at h
        have hk := ih _ heap1 kept hnd1 h
        rw [hfilter] at hk
        rw [List.filter_cons, hm, hmk, hk]
        simp

theorem sweepLoop_length :
    ∀ (objs : List Nat) (heap heap1 : Heap) (kept : List Nat),
      sweepLoop heap objs = some (heap1, kept) → heap1.length = heap.length := by
  intro objs
  induction objs with
  | nil =>
    intro heap heap1 kept h
    simp only [sweepLoop, Option.some.injEq, Prod.mk.injEq] at h
    rw [← h.1]
  | cons q rest ih =>
    intro heap heap1 kept h
    rw [sweepLoop] at h
    cases hc : heap.getD q none with
    | none => rw [hc] at h; cases h
    | some cell =>
      rw [hc] at h
      simp only at h
      by_cases hmk : cell.isMarked = true
      · simp only [hmk, if_true] at h
        cases hr : sweepLoop (heap.set q (some { cell with isMarked := false })) rest with
        | none => rw [hr] at h; cases h
        | some r =>
          rw [hr] at h
          simp only [Option.map_some', Option.some.injEq, Prod.mk.injEq] at h
          rw [← h.1, ih _ r.1 r.2 hr, List.length_set]
      · simp only [Bool.not_eq_true] at hmk
        simp only [hmk, Bool.false_eq_true, if_false] at h
        rw [ih _ heap1 kept h, List.length_set]

/-- C29: `sweep` on an object list without repetition whose objects are all
allocated.  It returns (it reads no freed object, so no object is freed
twice); the object list afterwards is the list of before restricted to the
objects whose mark bit was set, in the same order; every object of the list
that was not marked is freed; every object that stays has its fields as
before and its mark bit cleared, so no object of the list is marked; and what
is not in the list is left as it was. -/
theorem C29_sweep (vm : VM) (hnodup : vm.objects.Nodup)
    (halloc : ∀ p ∈ vm.objects, vm.heap.allocated p) :
    ∃ vm1, sweep vm = some vm1 ∧
      vm1.objects = vm.objects.filter (fun p => vm.heap.marked p) ∧
      (∀ p ∈ vm.objects, vm.heap.marked p = false → vm1.heap[p]? = some none) ∧
      (∀ p ∈ vm1.objects, p ∈ vm.objects ∧ vm.heap.marked p = true ∧
        vm1.heap.get p = vm.heap.get p ∧ vm1.heap.marked p = false) ∧
      (∀ p, p ∉ vm.objects → vm1.heap[p]? = vm.heap[p]?) ∧
      vm1.heap.length = vm.heap.length ∧
      vm1.stack = vm.stack ∧ vm1.stackTop = vm.stackTop ∧ vm1.frames = vm.frames ∧
      vm1.globals = vm.globals ∧ vm1.strings = vm.strings ∧
      vm1.openUpvalues = vm.openUpvalues ∧ vm1.initString = vm.initString := by
  obtain ⟨heap1, kept, hsw, hother, hcells, hsub⟩ :=
    sweepLoop_spec vm.objects vm.heap hnodup halloc
  have hkept := sweepLoop_kept vm.objects vm.heap heap1 kept hnodup hsw
  refine ⟨{ vm with heap := heap1, objects := kept }, ?_, hkept, ?_, ?_, hother, ?_,
    rfl, rfl, rfl, rfl, rfl, rfl, rfl⟩
  · simp only [sweep, hsw, Option.map_some']
  · intro p hp hm
    obtain ⟨cell, hc⟩ := Heap.allocated_cell vm.heap p (halloc p hp)
    rw [Heap.marked_of_cell vm.heap p cell hc] at hm
    exact ((hcells p hp cell hc).2 hm).2
  · intro p hp
    have hp1 : p ∈ kept := hp
    have hmem := hsub p hp1
    obtain ⟨cell, hc⟩ := Heap.allocated_cell vm.heap p (halloc p hmem)
    have hmk : vm.heap.marked p = true := by
      rw [hkept] at hp1
      simpa using (List.mem_filter.mp hp1).2
    have hcm : cell.isMarked = true := by
      rw [← Heap.marked_of_cell vm.heap p cell hc]; exact hmk
    obtain ⟨_, h1⟩ := (hcells p hmem cell hc).1 hcm
    refine ⟨hmem, hmk, ?_, ?_⟩
    · show Heap.get heap1 p = _
      rw [Heap.get_of_cell heap1 p _ h1, Heap.get_of_cell vm.heap p cell hc]
    · show Heap.marked heap1 p = false
      rw [Heap.marked_of_cell heap1 p _ h1]
  · exact sweepLoop_length vm.objects vm.heap heap1 kept hsw

/-- C29 on the state `sweepVM`, where the objects 0 to 6 are marked and the
string at address 7 is not: the list keeps the seven objects in their order
and the string is freed. -/
theorem C29_sweep_witness :
    (sweepVM.objects = [7, 6, 5, 4, 3, 2, 1, 0] ∧
      sweepVM.objects.filter (fun p => sweepVM.heap.marked p) = [6, 5, 4, 3, 2, 1, 0]) ∧
    ∃ vm1, sweep sweepVM = some vm1 ∧
      vm1.objects = sweepVM.objects.filter (fun p => sweepVM.heap.marked p) ∧
      (∀ p ∈ sweepVM.objects, sweepVM.heap.marked p = false → vm1.heap[p]? = some none) ∧
      (∀ p ∈ vm1.objects, p ∈ sweepVM.objects ∧ sweepVM.heap.marked p = true ∧
        vm1.heap.get p = sweepVM.heap.get p ∧ vm1.heap.marked p = false) ∧
      (∀ p, p ∉ sweepVM.objects → vm1.heap[p]? = sweepVM.heap[p]?) ∧
      vm1.heap.length = sweepVM.heap.length ∧
      vm1.stack = sweepVM.stack ∧ vm1.stackTop = sweepVM.stackTop ∧
      vm1.frames = sweepVM.frames ∧ vm1.globals = sweepVM.globals ∧
      vm1.strings = sweepVM.strings ∧ vm1.openUpvalues = sweepVM.openUpvalues ∧
      vm1.initString = sweepVM.initString :=
  ⟨by decide, C29_sweep sweepVM (by decide) (fun p hp => by
    have h : ∀ q ∈ sweepVM.objects, (sweepVM.heap.get q).isSome = true := by decide
    exact Option.isSome_iff_exists.mp (h p hp))⟩

end Loxj

/-! # Collector: the intern table is weak (C28) -/

namespace Loxj

/-- The function `tableDelete` on a key that bucket `i` holds: the bucket
becomes a tombstone. -/
theorem tableDelete_at (heap : Heap) (t : Table) (key i : Nat) (hinv : TableInv heap t)
    (hi : keyAt t.entries i = some key) :
    tableDelete heap t key =
      some (true, { t with entries := t.entries.set i ⟨none, BOOL_VAL true⟩ }) := by
  obtain ⟨s, hs⟩ := hinv.hasKey_string heap t key ⟨i, hi⟩
  have hc : t.count ≠ 0 := fun hc => hinv.no_key_of_count_zero heap t hc key i hi
  have hpos : 0 < t.capacity := by
    have := hinv.load
    omega
  have hp := (hinv.probe hpos).1
  obtain ⟨j, hfi, hspec⟩ := findEntry_spec heap t.entries t.capacity key s hp hs
    (hinv.exists_empty heap t hpos)
  obtain ⟨e, hge, hcase⟩ := id hspec
  rcases hcase with hk | ⟨_, habs, _⟩
  · have hji : j = i := hp.nodup j i key (by rw [keyAt_eq _ _ _ hge, hk]) hi
    subst hji
    simp only [tableDelete, hc, if_false, hfi, Option.some_bind, List.get?_eq_getElem?, hge,
      Option.map_some', hk]
  · exact absurd hi (habs i)

/-- The function `tableDelete` on a key that no bucket holds. -/
theorem tableDelete_absent (heap : Heap) (t : Table) (key : Nat) (s : Nat × Nat × List Char)
    (hinv : TableInv heap t) (hs : heap.string key = some s)
    (habs : ∀ j, keyAt t.entries j ≠ some key) :
    tableDelete heap t key = some (false, t) := by
  by_cases hc : t.count = 0
  · simp only [tableDelete, hc, if_true]
  · have hpos : 0 < t.capacity := by
      have := hinv.load
      omega
    have hp := (hinv.probe hpos).1
    obtain ⟨j, hfi, hspec⟩ := findEntry_spec heap t.entries t.capacity key s hp hs
      (hinv.exists_empty heap t hpos)
    obtain ⟨e, hge, hcase⟩ := id hspec
    rcases hcase with hk | ⟨hk, _, _⟩
    · exact absurd (by rw [keyAt_eq _ _ _ hge, hk]) (habs j)
    · simp only [tableDelete, hc, if_false, hfi, Option.some_bind, List.get?_eq_getElem?, hge,
        Option.map_some', hk]

/-- After the loop of `tableRemoveWhite` a bucket holds the key it held
before or none, and from the bucket the loop started at every key is
marked. -/
theorem tableRemoveWhiteLoop_marked (heap : Heap) :
    ∀ (n i : Nat) (t t1 : Table), TableInv heap t → i + n = t.capacity →
      tableRemoveWhiteLoop heap n i t = some t1 →
      ∀ j k, keyAt t1.entries j = some k →
        keyAt t.entries j = some k ∧ (i ≤ j → heap.marked k = true) := by
  intro n
  induction n with
  | zero =>
    intro i t t1 ht hcap h j k hk
    simp only [tableRemoveWhiteLoop, Option.some.injEq] at h
    subst h
    refine ⟨hk, fun hij => ?_⟩
    obtain ⟨e, hge, _⟩ := keyAt_some _ _ _ hk
    have hlt : j < t.entries.length := (List.getElem?_eq_some_iff.mp hge).1
    rw [ht.length_eq heap t] at hlt
    omega
  | succ n ih =>
    intro i t t1 ht hcap h j k hk
    obtain ⟨e, hge⟩ : ∃ e, t.entries[i]? = some e :=
      ⟨_, List.getElem?_eq_getElem (by rw [ht.length_eq heap t]; omega)⟩
    rw [tableRemoveWhiteLoop] at h
    simp only [List.get?_eq_getElem?, hge] at h
    cases hkey : e.key with
    | none =>
      rw [hkey] at h
      simp only at h
      obtain ⟨h1, h2⟩ := ih (i + 1) t t1 ht (by omega) h j k hk
      refine ⟨h1, fun hij => h2 ?_⟩
      have hne : j ≠ i := by
        rintro rfl
        rw [keyAt_eq _ _ _ hge, hkey] at h1
        cases h1
      omega
    | some key =>
      rw [hkey] at h
      simp only at h
      have hki : keyAt t.entries i = some key := by rw [keyAt_eq _ _ _ hge, hkey]
      obtain ⟨s, hs⟩ := ht.hasKey_string heap t key ⟨i, hki⟩
      obtain ⟨cell, hc, _⟩ := Heap.get_eq_some heap key _ (Heap.string_eq_some heap key s hs)
      rw [Heap.getD_of_getElem? heap key _ hc] at h
      simp only at h
      by_cases hm : cell.isMarked = true
      · simp only [hm, if_true] at h
        obtain ⟨h1, h2⟩ := ih (i + 1) t t1 ht (by omega) h j k hk
        refine ⟨h1, fun hij => ?_⟩
        by_cases hji : j = i
        · subst hji
          rw [hki] at h1
          cases h1
          rw [Heap.marked_of_cell heap k cell hc]
          exact hm
        · exact h2 (by omega)
      · have hmf : cell.isMarked = false := by simpa using hm
        simp only [hmf, Bool.false_eq_true, if_false] at h
        have hdel := tableDelete_at heap t key i ht hki
        obtain ⟨b, t2, hdel2, hinv2, _, _⟩ := tableDelete_spec heap t key s ht hs
        rw [hdel] at hdel2
        simp only [Option.some.injEq, Prod.mk.injEq] at hdel2
        rw [hdel] at h
        simp only [Option.some_bind] at h
        have hinv3 : TableInv heap { t with entries := t.entries.set i ⟨none, BOOL_VAL true⟩ } := by
          rw [hdel2.2]; exact hinv2
        obtain ⟨h1, h2⟩ := ih (i + 1) _ t1 hinv3 (by simpa using hcap ▸ (by omega)) h j k hk
        have hil : i < t.entries.length := (List.getElem?_eq_some_iff.mp hge).1
        simp only [keyAt_set t.entries i j _ hil] at h1
        by_cases hji : j = i
        · rw [if_pos hji] at h1
          cases h1
        · rw [if_neg hji] at h1
          exact ⟨h1, fun hij => h2 (by omega)⟩

/-- After `tableRemoveWhite` every key of the table is marked. -/
theorem tableRemoveWhite_marked (heap : Heap) (t t1 : Table) (ht : TableInv heap t)
    (h : tableRemoveWhite heap t = some t1) (k : Nat) (hk : t1.hasKey k) :
    heap.marked k = true := by
  obtain ⟨j, hj⟩ := hk
  exact (tableRemoveWhiteLoop_marked heap t.capacity 0 t t1 ht (Nat.zero_add _) h j k hj).2
    (Nat.zero_le _)

theorem ProbeInv_congr_keys (heap heap1 : Heap) (entries : List Entry) (cap : Nat)
    (hh : ∀ i k, keyAt entries i = some k → Heap.string heap1 k = Heap.string heap k)
    (h : ProbeInv heap entries cap) : ProbeInv heap1 entries cap := by
  constructor
  · exact h.len
  · exact h.pow
  · intro i k hk
    rw [hh i k hk]
    exact h.strings i k hk
  · exact h.nodup
  · intro i k s d hk hs
    rw [hh i k hk] at hs
    exact h.path i k s d hk hs

/-- The table invariant only looks at the strings that are keys. -/
theorem TableInv_congr_keys (heap heap1 : Heap) (t : Table)
    (hh : ∀ k, t.hasKey k → Heap.string heap1 k = Heap.string heap k) (h : TableInv heap t) :
    TableInv heap1 t :=
  ⟨h.zero, fun hp => ⟨ProbeInv_congr_keys heap heap1 _ _ (fun i k hk => hh k ⟨i, hk⟩)
    (h.probe hp).1, (h.probe hp).2⟩, h.count_eq, h.load⟩

/-- The intern-table invariant goes over to a table with fewer keys, in a
heap that holds these keys as before. -/
theorem InternInv_sub (heap heap1 : Heap) (t t1 : Table) (h : InternInv heap t)
    (h1 : TableInv heap1 t1)
    (hsub : ∀ k, t1.hasKey k → t.hasKey k ∧ Heap.string heap1 k = Heap.string heap k) :
    InternInv heap1 t1 := by
  constructor
  · exact h1
  · intro k s hk hs
    rw [(hsub k hk).2] at hs
    exact h.cached k s (hsub k hk).1 hs
  · intro ki kj si sj hki hkj hsi hsj
    rw [(hsub ki hki).2] at hsi
    rw [(hsub kj hkj).2] at hsj
    exact h.unique ki kj si sj (hsub ki hki).1 (hsub kj hkj).1 hsi hsj

/-- C28: the intern table is weak.  In a state as `collectGarbage` finds it
(no object marked, the open upvalues a list, every reachable object allocated
and well formed, the intern table well formed, `vm.objects` the allocated
objects once each), with `heapM` the heap as the mark phase leaves it:
`collectGarbage` returns and the intern table is well formed again; every
key it still holds was a key before, was marked, is in the object list and
is the string it was, so no entry refers to a freed string; a key that was
marked is what `tableFindString` returns for its bytes; and for the bytes of
a key that was not marked `tableFindString` returns `NULL`, the string being
freed. -/
theorem C28_weak_intern_table (vm : VM) (currentCompiler : List Compiler) (ups : List Nat)
    (hunmarked : ∀ p, vm.heap.marked p = false)
    (hups : UpvalueList vm.heap vm.openUpvalues ups)
    (hvalid : ∀ p, Reachable vm.heap (roots vm currentCompiler ups) p →
      ∃ obj, vm.heap.get p = some obj ∧ obj.wf = true)
    (hglobals : vm.globals.capacity ≤ vm.globals.entries.length)
    (hstrings : InternInv vm.heap vm.strings)
    (hnodup : vm.objects.Nodup)
    (hobjects : ∀ p, p ∈ vm.objects ↔ vm.heap.allocated p) :
    ∃ heapM vm1, markPhase vm currentCompiler = some (heapM, []) ∧
      collectGarbage vm currentCompiler = some vm1 ∧
      InternInv vm1.heap vm1.strings ∧
      (∀ k, vm1.strings.hasKey k →
        vm.strings.hasKey k ∧ heapM.marked k = true ∧ k ∈ vm1.objects ∧
        vm1.heap.string k = vm.heap.string k ∧ ∃ s, vm1.heap.string k = some s) ∧
      (∀ k s, vm.strings.hasKey k → vm.heap.string k = some s → heapM.marked k = true →
        vm1.strings.hasKey k ∧
        tableFindString vm1.heap vm1.strings s.2.2 s.1 s.2.1 = some (some k)) ∧
      (∀ k s, vm.strings.hasKey k → vm.heap.string k = some s → heapM.marked k = false →
        ¬ vm1.strings.hasKey k ∧ vm1.heap[k]? = some none ∧
        tableFindString vm1.heap vm1.strings s.2.2 s.1 s.2.1 = some none) := by
  obtain ⟨heapM, hmp, hfrom, _, _⟩ :=
    markPhase_spec vm currentCompiler ups hunmarked hups hvalid hglobals
  have hstrM : ∀ k, heapM.string k = vm.heap.string k := fun k => by
    unfold Heap.string; rw [hfrom.get k]
  have hinvM : TableInv heapM vm.strings := TableInv_congr vm.heap heapM vm.strings hstrM
    hstrings.table
  obtain ⟨t1, hrw, hinv1, hsub, hkeep⟩ := tableRemoveWhite_spec heapM vm.strings hinvM
  have hmk := tableRemoveWhite_marked heapM vm.strings t1 hinvM hrw
  have hallocM : ∀ p ∈ vm.objects, heapM.allocated p := fun p hp =>
    hfrom.allocated _ _ p ((hobjects p).mp hp)
  obtain ⟨heap2, kept, hsw, _, hcells, _⟩ := sweepLoop_spec vm.objects heapM hnodup hallocM
  have hkey : ∀ k s, vm.strings.hasKey k → vm.heap.string k = some s →
      k ∈ vm.objects ∧ ∃ cellM, heapM[k]? = some (some cellM) ∧
        cellM.isMarked = heapM.marked k := by
    intro k s _ hs
    have ha : vm.heap.allocated k := ⟨_, Heap.string_eq_some vm.heap k s hs⟩
    have hmem := (hobjects k).mpr ha
    obtain ⟨cellM, hM⟩ := Heap.allocated_cell heapM k (hallocM k hmem)
    exact ⟨hmem, cellM, hM, (Heap.marked_of_cell heapM k cellM hM).symm⟩
  have hsub1 : ∀ k, t1.hasKey k → vm.strings.hasKey k := by
    intro k hk
    obtain ⟨v, hv⟩ := (hasKey_iff_Live t1 k).mp hk
    exact hasKey_of_Live vm.strings k v (hsub k v hv)
  have hlive : ∀ k, t1.hasKey k → k ∈ kept ∧ Heap.string heap2 k = vm.heap.string k := by
    intro k hk
    obtain ⟨s, hs⟩ := hstrings.table.hasKey_string vm.heap vm.strings k (hsub1 k hk)
    obtain ⟨hmem, cellM, hM, hcm⟩ := hkey k s (hsub1 k hk) hs
    obtain ⟨h1, h2⟩ := (hcells k hmem cellM hM).1 (by rw [hcm]; exact hmk k hk)
    refine ⟨h1, ?_⟩
    rw [← hstrM k]
    unfold Heap.string
    rw [Heap.get_of_cell heap2 k _ h2, Heap.get_of_cell heapM k cellM hM]
  have hinv2 : InternInv heap2 t1 := by
    apply InternInv_sub vm.heap heap2 vm.strings t1 hstrings
    · exact TableInv_congr_keys heapM heap2 t1
        (fun k hk => by rw [(hlive k hk).2, hstrM k]) hinv1
    · exact fun k hk => ⟨hsub1 k hk, (hlive k hk).2⟩
  have hfind : ∀ k s, vm.strings.hasKey k → vm.heap.string k = some s →
      ∃ r, tableFindString heap2 t1 s.2.2 s.1 s.2.1 = some r ∧
        match r with
        | some k1 => t1.hasKey k1 ∧ Heap.string heap2 k1 = some s
        | none => ∀ k1 s1, t1.hasKey k1 → Heap.string heap2 k1 = some s1 → s1.2.2 ≠ s.2.2 := by
    intro k s hk hs
    obtain ⟨hlen, hhash⟩ := hstrings.cached k s hk hs
    have htake : s.2.2.take s.1 = s.2.2 := by rw [hlen]; exact List.take_length _
    obtain ⟨r, hr, hmatch⟩ := tableFindString_spec heap2 t1 s.2.2 s.1 hinv2 (by omega)
    rw [htake, ← hhash] at hr hmatch
    exact ⟨r, hr, hmatch⟩
  refine ⟨heapM, { vm with heap := heap2, strings := t1, objects := kept }, hmp, ?_, hinv2,
    ?_, ?_, ?_⟩
  · simp only [collectGarbage, hmp, Option.some_bind, hrw, sweep, hsw, Option.map_some']
  · intro k hk
    have hk1 : t1.hasKey k := hk
    obtain ⟨s, hs⟩ := hstrings.table.hasKey_string vm.heap vm.strings k (hsub1 k hk1)
    exact ⟨hsub1 k hk1, hmk k hk1, (hlive k hk1).1, (hlive k hk1).2,
      s, by rw [← hs]; exact (hlive k hk1).2⟩
  · intro k s hk hs hm
    have hk1 : t1.hasKey k := by
      obtain ⟨v, hv⟩ := (hasKey_iff_Live vm.strings k).mp hk
      exact hasKey_of_Live t1 k v (hkeep k v hv hm)
    refine ⟨hk1, ?_⟩
    obtain ⟨r, hr, hmatch⟩ := hfind k s hk hs
    show tableFindString heap2 t1 s.2.2 s.1 s.2.1 = some (some k)
    rw [hr]
    cases r with
    | none =>
      exact absurd rfl (hmatch k s hk1 (by rw [(hlive k hk1).2]; exact hs))
    | some k1 =>
      obtain ⟨hk1', hs1⟩ := hmatch
      have e : k1 = k := hinv2.unique k1 k s s hk1' hk1 hs1
        (by rw [(hlive k hk1).2]; exact hs) rfl
      rw [e]
  · intro k s hk hs hm
    have hnk : ¬ t1.hasKey k := fun hk1 => by
      have := hmk k hk1
      rw [hm] at this
      cases this
    obtain ⟨hmem, cellM, hM, hcm⟩ := hkey k s hk hs
    refine ⟨hnk, ((hcells k hmem cellM hM).2 (by rw [hcm]; exact hm)).2, ?_⟩
    obtain ⟨r, hr, hmatch⟩ := hfind k s hk hs
    show tableFindString heap2 t1 s.2.2 s.1 s.2.1 = some none
    rw [hr]
    cases r with
    | none => rfl
    | some k1 =>
      exfalso
      obtain ⟨hk1, hs1⟩ := hmatch
      rw [(hlive k1 hk1).2] at hs1
      have e : k1 = k := hstrings.unique k1 k s s (hsub1 k1 hk1) hk hs1 hs rfl
      exact hnk (e ▸ hk1)

theorem InternInv_internVM : InternInv internVM.heap internVM.strings := by
  obtain ⟨p, vm1, h1, hinv1, _⟩ :=
    copyString_spec emptyVM "hi".toList 2 (InternInv_initTable _) (by decide)
  have hinv1p : InternInv (push vm1 (OBJ_VAL p)).heap (push vm1 (OBJ_VAL p)).strings := hinv1
  obtain ⟨q, vm2, h2, hinv2, _⟩ := copyString_spec _ "yo".toList 2 hinv1p (by decide)
  have e : internVM = vm2 := by simp only [internVM, h1, h2]
  rw [e]
  exact hinv2

/-- C28 on the state `internVM`, where the string `hi` (address 0) is on the
stack and the string `yo` (address 1) is not: after the collection the object
list holds `hi` alone, `tableFindString` finds `hi` and does not find `yo`. -/
theorem C28_weak_intern_table_witness :
    ((collectGarbage internVM []).map fun vm1 =>
        (vm1.objects, vm1.heap[1]?,
          tableFindString vm1.heap vm1.strings "hi".toList 2 (hashString "hi".toList),
          tableFindString vm1.heap vm1.strings "yo".toList 2 (hashString "yo".toList))) =
      some ([0], some none, some (some 0), some none) ∧
    ∃ heapM vm1, markPhase internVM [] = some (heapM, []) ∧
      collectGarbage internVM [] = some vm1 ∧
      InternInv vm1.heap vm1.strings ∧
      (∀ k, vm1.strings.hasKey k →
        internVM.strings.hasKey k ∧ heapM.marked k = true ∧ k ∈ vm1.objects ∧
        vm1.heap.string k = internVM.heap.string k ∧ ∃ s, vm1.heap.string k = some s) ∧
      (∀ k s, internVM.strings.hasKey k → internVM.heap.string k = some s →
        heapM.marked k = true →
        vm1.strings.hasKey k ∧
        tableFindString vm1.heap vm1.strings s.2.2 s.1 s.2.1 = some (some k)) ∧
      (∀ k s, internVM.strings.hasKey k → internVM.heap.string k = some s →
        heapM.marked k = false →
        ¬ vm1.strings.hasKey k ∧ vm1.heap[k]? = some none ∧
        tableFindString vm1.heap vm1.strings s.2.2 s.1 s.2.1 = some none) :=
  ⟨by decide, C28_weak_intern_table internVM [] []
    (Heap.marked_false_of_all internVM.heap (by decide))
    (by
      have e : internVM.openUpvalues = none := by decide
      rw [e]
      exact trivial)
    (Reachable.valid_of_closed internVM.heap _ (by decide) (fun r hr => by
      have h : ∀ r ∈ roots internVM [] [], (internVM.heap.get r).isSome = true := by decide
      exact Option.isSome_iff_exists.mp (h r hr)))
    (by decide)
    InternInv_internVM
    (by decide)
    (fun p => by
      have hlen : internVM.heap.length = 2 := by decide
      have hall : ∀ q < 2, q ∈ internVM.objects ∧ (internVM.heap.get q).isSome = true := by
        decide
      constructor
      · intro hp
        have hlt : p < 2 := by
          have hb : ∀ q ∈ internVM.objects, q < 2 := by decide
          exact hb p hp
        exact Option.isSome_iff_exists.mp (hall p hlt).2
      · intro hp
        obtain ⟨obj, ho⟩ := hp
        obtain ⟨cell, hc, _⟩ := Heap.get_eq_some internVM.heap p obj ho
        have hlt : p < internVM.heap.length := (List.getElem?_eq_some_iff.mp hc).1
        exact (hall p (by omega)).1)⟩

end Loxj

/-! # Tables: `tableDelete` and tombstones (C26) -/

namespace Loxj

/-- When no bucket holds the key, the probe loop of `findEntry` returns the
first bucket without a key on the probe path. -/
theorem findEntryLoop_first (entries : List Entry) (n key h : Nat)
    (hlen : entries.length = 2 ^ n) (habs : ∀ j, keyAt entries j ≠ some key) :
    ∀ (fuel d : Nat) (tb : Option Nat) (i : Nat), d + fuel = 2 ^ n →
      (tb = none → ∀ d1, d1 < d → ∃ k1, keyAt entries (probeAt (2 ^ n) h d1) = some k1) →
      (∀ t, tb = some t → FirstKeyless entries (2 ^ n) h t) →
      findEntryLoop entries (2 ^ n) key fuel (probeAt (2 ^ n) h d) tb = some i →
      FirstKeyless entries (2 ^ n) h i := by
  have hcap : 0 < 2 ^ n := Nat.two_pow_pos n
  intro fuel
  induction fuel with
  | zero =>
    intro d tb i _ _ _ hr
    simp only [findEntryLoop] at hr
    cases hr
  | succ fuel ih =>
    intro d tb i hd hpre htb hr
    have hdlt : d < 2 ^ n := by omega
    have hidx : probeAt (2 ^ n) h d < entries.length := by
      rw [hlen]; exact probeAt_lt _ _ _ hcap
    obtain ⟨e, hge⟩ : ∃ e, entries[probeAt (2 ^ n) h d]? = some e :=
      ⟨_, List.getElem?_eq_getElem hidx⟩
    rw [findEntryLoop] at hr
    simp only [List.get?_eq_getElem?, hge, probeAt_next] at hr
    cases hk : e.key with
    | none =>
      rw [hk] at hr
      simp only at hr
      have hfirst : ∀ t, tb.getD (probeAt (2 ^ n) h d) = t → FirstKeyless entries (2 ^ n) h t := by
        intro t ht
        cases tb with
        | none =>
          simp only [Option.getD_none] at ht
          rw [← ht]
          exact ⟨d, hdlt, rfl, ⟨e, hge, hk⟩, hpre rfl⟩
        | some t0 =>
          simp only [Option.getD_some] at ht
          rw [← ht]
          exact htb t0 rfl
      by_cases hnil : IS_NIL e.value = true
      · simp only [hnil, if_true, Option.some.injEq] at hr
        exact hfirst i hr
      · simp only [hnil] at hr
        refine ih (d + 1) _ i (by omega) (fun hx => by cases hx) ?_ hr
        intro t ht
        simp only [Option.some.injEq] at ht
        exact hfirst t ht
    | some k =>
      rw [hk] at hr
      simp only at hr
      have hkk : (k == key) = false := by
        simp only [beq_eq_false_iff_ne, ne_eq]
        rintro rfl
        exact habs _ (by rw [keyAt_eq _ _ _ hge, hk])
      simp only [hkk] at hr
      refine ih (d + 1) tb i (by omega) ?_ htb hr
      intro hn d1 h1
      rcases Nat.lt_succ_iff_lt_or_eq.mp h1 with h2 | h2
      · exact hpre hn d1 h2
      · subst h2
        exact ⟨k, by rw [keyAt_eq _ _ _ hge, hk]⟩

theorem getElem?_set_self_entry (entries : List Entry) (i : Nat) (x : Entry)
    (h : i < entries.length) : (entries.set i x)[i]? = some x := by
  simp [List.getElem?_set, h]

/-- A table that does not hold the key and need not grow: `tableSet` puts
the key into the first bucket without a key on its probe path, and counts it
only when that bucket was empty, not when it was a tombstone. -/
theorem tableSet_first (heap : Heap) (t : Table) (key v : Nat) (s : Nat × Nat × List Char)
    (dt : Nat) (e : Entry) (hinv : TableInv heap t) (hs : heap.string key = some s)
    (habs : ∀ j, keyAt t.entries j ≠ some key)
    (hload : 4 * (t.count + 1) ≤ 3 * t.capacity) (hdt : dt < t.capacity)
    (hge : t.entries[probeAt t.capacity s.2.1 dt]? = some e) (hk : e.key = none)
    (hpre : ∀ d1, d1 < dt → ∃ k1, keyAt t.entries (probeAt t.capacity s.2.1 d1) = some k1) :
    tableSet heap t key v = some (true,
      { t with
        count := if IS_NIL e.value then t.count + 1 else t.count,
        entries := t.entries.set (probeAt t.capacity s.2.1 dt) ⟨some key, v⟩ }) := by
  have hpos : 0 < t.capacity := by omega
  have hp := (hinv.probe hpos).1
  obtain ⟨i, hfi, _⟩ := findEntry_spec heap t.entries t.capacity key s hp hs
    (hinv.exists_empty heap t hpos)
  obtain ⟨n, hn⟩ := hp.pow
  have hlen := hp.len
  have hcap : t.capacity ≠ 0 := by omega
  have hfirst : FirstKeyless t.entries t.capacity s.2.1 i := by
    have hfi1 := hfi
    obtain ⟨l, hh, cs⟩ := s
    simp only [findEntry, hs, hcap, if_false] at hfi1
    rw [hn] at hfi1 hlen ⊢
    have h0 : hh % 2 ^ n = probeAt (2 ^ n) hh 0 := by simp [probeAt]
    rw [h0] at hfi1
    exact findEntryLoop_first t.entries n key hh hlen habs (2 ^ n) 0 none i (by simp)
      (fun _ d1 h1 => by omega) (fun t ht => by cases ht) hfi1
  obtain ⟨di, hdi, hpi, ⟨ei, hgei, hki⟩, hprei⟩ := hfirst
  have hd : di = dt := by
    rcases Nat.lt_trichotomy di dt with h | h | h
    · obtain ⟨k1, hk1⟩ := hpre di h
      rw [hpi, keyAt_eq _ _ _ hgei, hki] at hk1
      cases hk1
    · exact h
    · obtain ⟨k1, hk1⟩ := hprei dt h
      rw [keyAt_eq _ _ _ hge, hk] at hk1
      cases hk1
  subst hd
  subst hpi
  have hng : ¬ 4 * (t.count + 1) > 3 * t.capacity := by omega
  simp only [tableSet, hng, if_false, Option.some_bind, hfi, List.get?_eq_getElem?, hge,
    Option.map_some', hk, Option.isNone_none, Bool.true_and]

/-- The count that `adjustCapacity` computes is the number of buckets with a
key. -/
theorem adjustCapacityLoop_count (heap : Heap) (cap : Nat) :
    ∀ (rest entries : List Entry) (count : Nat) (r : List Entry × Nat),
      adjustCapacityLoop heap cap rest entries count = some r →
      r.2 = count + rest.countP fun e => e.key.isSome := by
  intro rest
  induction rest with
  | nil =>
    intro entries count r h
    simp only [adjustCapacityLoop, Option.some.injEq] at h
    rw [← h]; simp
  | cons e rest ih =>
    intro entries count r h
    rw [adjustCapacityLoop] at h
    cases hk : e.key with
    | none =>
      rw [hk] at h
      simp only at h
      rw [ih _ _ _ h, List.countP_cons, hk]
      simp
    | some k =>
      rw [hk] at h
      simp only at h
      cases hf : findEntry heap entries cap k with
      | none => rw [hf] at h; cases h
      | some dest =>
        rw [hf] at h
        simp only at h
        rw [ih _ _ _ h, List.countP_cons, hk]
        simp only [Option.isSome_some, if_true]
        omega

/-- The buckets that are not empty are the buckets with a key and the
tombstones. -/
theorem countP_nonempty (entries : List Entry) :
    entries.countP (fun e => !e.isEmpty) =
      entries.countP (fun e => e.key.isSome) + entries.countP (fun e => e.isTombstone) := by
  induction entries with
  | nil => rfl
  | cons e rest ih =>
    simp only [List.countP_cons, ih]
    cases hk : e.key with
    | none =>
      cases hn : IS_NIL e.value <;> simp [Entry.isEmpty, Entry.isTombstone, hk, hn]
      omega
    | some k =>
      simp [Entry.isEmpty, Entry.isTombstone, hk]
      omega

/-- A table that does not hold the key and must grow: `tableSet` drops the
tombstones, and the count afterwards is the number of keys. -/
theorem tableSet_grow (heap : Heap) (t : Table) (key v : Nat) (s : Nat × Nat × List Char)
    (hinv : TableInv heap t) (hs : heap.string key = some s)
    (habs : ∀ j, keyAt t.entries j ≠ some key)
    (hload : 3 * t.capacity < 4 * (t.count + 1)) :
    ∃ t1, tableSet heap t key v = some (true, t1) ∧
      t1.capacity = GROW_CAPACITY t.capacity ∧
      t1.count = t.entries.countP (fun e => e.key.isSome) + 1 ∧
      t1.count + t.entries.countP (fun e => e.isTombstone) = t.count + 1 := by
  obtain ⟨t0, h0, hcap0, hp0, hnt0, hc0, _, hlive0⟩ := adjustCapacity_spec heap t hinv
  have hlen := hinv.length_eq heap t
  have htake : t.entries.take t.capacity = t.entries := by
    rw [← hlen]; exact List.take_length _
  have hcount0 : t0.count = t.entries.countP fun e => e.key.isSome := by
    have h1 := h0
    simp only [adjustCapacity, htake] at h1
    cases hl : adjustCapacityLoop heap (GROW_CAPACITY t.capacity) t.entries
        (List.replicate (GROW_CAPACITY t.capacity) ⟨none, NIL_VAL⟩) 0 with
    | none => rw [hl] at h1; cases h1
    | some r =>
      rw [hl] at h1
      simp only [Option.map_some', Option.some.injEq] at h1
      rw [← h1]
      simp only
      rw [adjustCapacityLoop_count _ _ _ _ _ _ hl, Nat.zero_add]
  have hgp := GROW_CAPACITY_pow t.capacity (hinv.pow_cases heap t)
  have hload0 : 4 * (t0.count + 1) ≤ 3 * t0.capacity := by
    have h1 := hinv.load
    have h2 := hinv.count_eq
    rw [countP_nonempty] at h2
    rw [hcap0, hcount0]
    rcases hinv.pow_cases heap t with hz | ⟨h8, _⟩
    · have := (hinv.zero hz).2
      omega
    · omega
  have hpos0 : 0 < t0.capacity := by omega
  obtain ⟨i, hfi, hspec⟩ := findEntry_spec heap t0.entries t0.capacity key s hp0 hs
    (exists_empty_of_countP_lt _ (by rw [← hc0, hp0.len]; omega))
  obtain ⟨e, hge, hcase⟩ := id hspec
  have habs0 : ∀ j, keyAt t0.entries j ≠ some key := by
    intro j hj
    obtain ⟨e1, hge1, hk1⟩ := keyAt_some _ _ _ hj
    have hl : Live t0.entries key e1.value := ⟨j, by rw [hge1, ← hk1]⟩
    obtain ⟨j1, hj1⟩ := (hlive0 key e1.value).mp hl
    exact habs j1 (by rw [keyAt_eq _ _ _ hj1])
  have hk : e.key = none := by
    rcases hcase with hk | ⟨hk, _, _⟩
    · exact absurd (by rw [keyAt_eq _ _ _ hge, hk]) (habs0 i)
    · exact hk
  have hnil : IS_NIL e.value = true := by
    have := hnt0 i e hge hk
    simpa [Entry.isEmpty, hk] using this
  have hg : 4 * (t.count + 1) > 3 * t.capacity := hload
  refine ⟨{ t0 with count := t0.count + 1,
                    entries := t0.entries.set i ⟨some key, v⟩ }, ?_, hcap0, ?_, ?_⟩
  · simp only [tableSet, hg, if_true, h0, Option.some_bind, hfi, List.get?_eq_getElem?, hge,
      Option.map_some', hk, Option.isNone_none, Bool.true_and, hnil]
  · simp only [hcount0]
  · simp only [hcount0]
    have h2 := hinv.count_eq
    rw [countP_nonempty] at h2
    omega

/-- A call of a function of `table.c` with valid arguments returns and keeps
the table invariant. -/
theorem TableOp.run_inv (heap : Heap) (t : Table) (op : TableOp) (hinv : TableInv heap t)
    (hok : op.ok heap) : ∃ t1, op.run heap t = some t1 ∧ TableInv heap t1 := by
  cases op with
  | initTable => exact ⟨Loxj.initTable, rfl, TableInv_initTable heap⟩
  | tableSet key value =>
    obtain ⟨s, hs⟩ := Option.isSome_iff_exists.mp hok
    obtain ⟨b, t1, h1, h2, _⟩ := tableSet_spec heap t key value s hinv hs
    exact ⟨t1, by simp only [TableOp.run, h1, Option.map_some'], h2⟩
  | tableDelete key =>
    obtain ⟨s, hs⟩ := Option.isSome_iff_exists.mp hok
    obtain ⟨b, t1, h1, h2, _⟩ := tableDelete_spec heap t key s hinv hs
    exact ⟨t1, by simp only [TableOp.run, h1, Option.map_some'], h2⟩
  | tableAddAll from_ =>
    obtain ⟨t1, h1, h2, _⟩ := tableAddAll_spec heap from_ t false hok hinv (fun h => by cases h)
    exact ⟨t1, h1, h2⟩
  | tableAddAllSelf =>
    obtain ⟨t1, h1, h2, _⟩ := tableAddAll_spec heap t t true hinv hinv (fun _ => rfl)
    exact ⟨t1, h1, h2⟩

/-- A sequence of calls with valid arguments returns and keeps the table
invariant. -/
theorem runTableOps_inv (heap : Heap) :
    ∀ (ops : List TableOp) (t : Table), TableInv heap t → (∀ op ∈ ops, op.ok heap) →
      ∃ t1, runTableOps heap ops t = some t1 ∧ TableInv heap t1 := by
  intro ops
  induction ops with
  | nil => exact fun t hinv _ => ⟨t, rfl, hinv⟩
  | cons op ops ih =>
    intro t hinv hok
    obtain ⟨t1, h1, hinv1⟩ := TableOp.run_inv heap t op hinv (hok op (List.mem_cons_self _ _))
    obtain ⟨t2, h2, hinv2⟩ := ih t1 hinv1 (fun o ho => hok o (List.mem_cons_of_mem _ ho))
    exact ⟨t2, by simp only [runTableOps, h1, Option.some_bind, h2], hinv2⟩

theorem TableInv_probeTable : TableInv probeHeap probeTable := by
  obtain ⟨t1, h1, hinv1⟩ := runTableOps_inv probeHeap
    [.tableSet 0 doubleOne, .tableSet 1 doubleFortyTwo, .tableSet 3 NIL_VAL] initTable
    (TableInv_initTable _) (by
      intro op hop
      simp only [List.mem_cons, List.mem_singleton, List.not_mem_nil, or_false] at hop
      rcases hop with rfl | rfl | rfl <;> simp only [TableOp.ok] <;> decide)
  have e : probeTable = t1 := by simp only [probeTable, h1, Option.getD_some]
  rw [e]
  exact hinv1

/-- C26, amended: `tableDelete(t, k)` on a table that satisfies the table invariant.
It returns `true` exactly when the table held `k`; afterwards `tableGet`
fails for `k` and answers as before for every other key; `count` and
`capacity` are as before and the bucket that held `k` is a tombstone.  A
later `tableSet` of a key the table does not hold, on whose probe path the
first bucket without a key is a tombstone: when the table need not grow the
key goes into that tombstone and nothing else changes, `count` included; when
it must grow the tombstones are dropped and `count` is not greater than
before either. -/
theorem C26_tableDelete (heap : Heap) (t : Table) (k : Nat) (s : Nat × Nat × List Char)
    (hinv : TableInv heap t) (hs : heap.string k = some s) :
    ∃ b t1, tableDelete heap t k = some (b, t1) ∧ TableInv heap t1 ∧
      (b = true ↔ t.hasKey k) ∧
      tableGet heap t1 k = some none ∧
      (∀ k1 s1, k1 ≠ k → heap.string k1 = some s1 →
        tableGet heap t1 k1 = tableGet heap t k1) ∧
      t1.count = t.count ∧ t1.capacity = t.capacity ∧
      (∀ i, keyAt t.entries i = some k →
        t1.entries = t.entries.set i ⟨none, BOOL_VAL true⟩ ∧
        ∃ e, t1.entries[i]? = some e ∧ e.isTombstone = true) ∧
      (∀ (k2 : Nat) (s2 : Nat × Nat × List Char) (v dt : Nat) (e : Entry),
        heap.string k2 = some s2 → ¬ t1.hasKey k2 → dt < t1.capacity →
        t1.entries[probeAt t1.capacity s2.2.1 dt]? = some e → e.isTombstone = true →
        (∀ d1, d1 < dt → ∃ k1, keyAt t1.entries (probeAt t1.capacity s2.2.1 d1) = some k1) →
        (4 * (t1.count + 1) ≤ 3 * t1.capacity →
          tableSet heap t1 k2 v = some (true,
            { t1 with entries := t1.entries.set (probeAt t1.capacity s2.2.1 dt) ⟨some k2, v⟩ })) ∧
        (3 * t1.capacity < 4 * (t1.count + 1) →
          ∃ t2, tableSet heap t1 k2 v = some (true, t2) ∧
            t2.capacity = GROW_CAPACITY t1.capacity ∧ t2.count ≤ t1.count)) := by
  obtain ⟨b, t1, hd, hinv1, hlive, hb⟩ := tableDelete_spec heap t k s hinv hs
  have hshape : t1.count = t.count ∧ t1.capacity = t.capacity ∧
      ∀ i, keyAt t.entries i = some k → t1.entries = t.entries.set i ⟨none, BOOL_VAL true⟩ := by
    by_cases hk : t.hasKey k
    · obtain ⟨i, hi⟩ := hk
      have h1 := tableDelete_at heap t k i hinv hi
      rw [h1] at hd
      simp only [Option.some.injEq, Prod.mk.injEq] at hd
      rw [← hd.2]
      refine ⟨rfl, rfl, fun j hj => ?_⟩
      have hp : 0 < t.capacity := by
        obtain ⟨e, hge, _⟩ := keyAt_some _ _ _ hi
        have := (List.getElem?_eq_some_iff.mp hge).1
        rw [hinv.length_eq heap t] at this
        omega
      rw [(hinv.probe hp).1.nodup i j k hi hj]
    · have h1 := tableDelete_absent heap t k s hinv hs (fun j hj => hk ⟨j, hj⟩)
      rw [h1] at hd
      simp only [Option.some.injEq, Prod.mk.injEq] at hd
      rw [← hd.2]
      exact ⟨rfl, rfl, fun j hj => absurd ⟨j, hj⟩ hk⟩
  refine ⟨b, t1, hd, hinv1, hb, ?_, ?_, hshape.1, hshape.2.1, ?_, ?_⟩
  · obtain ⟨r, hr, hiff⟩ := tableGet_spec heap t1 k s hinv1 hs
    rw [hr]
    cases r with
    | none => rfl
    | some v => exact absurd rfl ((hlive k v).mp ((hiff v).mp rfl)).1
  · intro k1 s1 hne hs1
    apply tableGet_eq_of_Live heap t1 t k1 s1 hinv1 hinv hs1
    intro v
    rw [hlive k1 v]
    exact ⟨fun h => h.2, fun h => ⟨hne, h⟩⟩
  · intro i hi
    have he := hshape.2.2 i hi
    refine ⟨he, ⟨none, BOOL_VAL true⟩, ?_, by decide⟩
    rw [he]
    obtain ⟨e, hge, _⟩ := keyAt_some _ _ _ hi
    exact getElem?_set_self_entry t.entries i _ (List.getElem?_eq_some_iff.mp hge).1
  · intro k2 s2 v dt e hs2 hnk hdt hge het hpre
    have hk : e.key = none := by
      cases hkk : e.key with
      | none => rfl
      | some x => simp [Entry.isTombstone, hkk] at het
    have hnil : IS_NIL e.value = false := by
      cases hn : IS_NIL e.value with
      | false => rfl
      | true => simp [Entry.isTombstone, hn] at het
    have habs : ∀ j, keyAt t1.entries j ≠ some k2 := fun j hj => hnk ⟨j, hj⟩
    constructor
    · intro hload
      have h1 := tableSet_first heap t1 k2 v s2 dt e hinv1 hs2 habs hload hdt hge hk hpre
      rw [h1]
      simp only [hnil, Bool.false_eq_true, if_false]
    · intro hload
      obtain ⟨t2, h1, h2, _, h4⟩ := tableSet_grow heap t1 k2 v s2 hinv1 hs2 habs hload
      refine ⟨t2, h1, h2, ?_⟩
      have hpos : 0 < t1.entries.countP (fun e => e.isTombstone) :=
        List.countP_pos_iff.mpr ⟨e, List.mem_iff_getElem?.mpr ⟨_, hge⟩, het⟩
      omega

/-- C26 on `probeTable`, whose buckets 0, 1 and 2 hold the strings 0, 1 and
3 of `probeHeap`, the first two with home bucket 0: deleting string 0 returns
`true` and leaves `count` at 3; string 0 is not found afterwards; string 1,
whose probe path goes through the bucket of string 0, and string 3 are found
with their values; and `tableSet` of string 2, whose home bucket is 0 too,
puts it into bucket 0 with `count` still 3. -/
theorem C26_tableDelete_witness :
    (((tableDelete probeHeap probeTable 0).map fun r => (r.1, r.2.count)) = some (true, 3) ∧
      ((tableDelete probeHeap probeTable 0).bind fun r => tableGet probeHeap r.2 0) =
        some none ∧
      ((tableDelete probeHeap probeTable 0).bind fun r => tableGet probeHeap r.2 1) =
        some (some doubleFortyTwo) ∧
      ((tableDelete probeHeap probeTable 0).bind fun r => tableGet probeHeap r.2 3) =
        some (some NIL_VAL) ∧
      ((tableDelete probeHeap probeTable 0).bind fun r =>
        (tableSet probeHeap r.2 2 TRUE_VAL).map fun q => (q.1, q.2.count, keyAt q.2.entries 0)) =
        some (true, 3, some 2)) ∧
    ∃ b t1, tableDelete probeHeap probeTable 0 = some (b, t1) ∧ TableInv probeHeap t1 ∧
      (b = true ↔ probeTable.hasKey 0) ∧
      tableGet probeHeap t1 0 = some none ∧
      (∀ k1 s1, k1 ≠ 0 → probeHeap.string k1 = some s1 →
        tableGet probeHeap t1 k1 = tableGet probeHeap probeTable k1) ∧
      t1.count = probeTable.count ∧ t1.capacity = probeTable.capacity ∧
      (∀ i, keyAt probeTable.entries i = some 0 →
        t1.entries = probeTable.entries.set i ⟨none, BOOL_VAL true⟩ ∧
        ∃ e, t1.entries[i]? = some e ∧ e.isTombstone = true) ∧
      (∀ (k2 : Nat) (s2 : Nat × Nat × List Char) (v dt : Nat) (e : Entry),
        probeHeap.string k2 = some s2 → ¬ t1.hasKey k2 → dt < t1.capacity →
        t1.entries[probeAt t1.capacity s2.2.1 dt]? = some e → e.isTombstone = true →
        (∀ d1, d1 < dt → ∃ k1, keyAt t1.entries (probeAt t1.capacity s2.2.1 d1) = some k1) →
        (4 * (t1.count + 1) ≤ 3 * t1.capacity →
          tableSet probeHeap t1 k2 v = some (true,
            { t1 with entries := t1.entries.set (probeAt t1.capacity s2.2.1 dt) ⟨some k2, v⟩ })) ∧
        (3 * t1.capacity < 4 * (t1.count + 1) →
          ∃ t2, tableSet probeHeap t1 k2 v = some (true, t2) ∧
            t2.capacity = GROW_CAPACITY t1.capacity ∧ t2.count ≤ t1.count)) :=
  ⟨⟨by decide, by decide, by decide, by decide, by decide⟩,
    C26_tableDelete probeHeap probeTable 0 (1, 0, ['a']) TableInv_probeTable rfl⟩

theorem TableInv_tombstoneTable : TableInv tombstoneHeap tombstoneTable := by
  obtain ⟨t1, h1, hinv1⟩ := runTableOps_inv tombstoneHeap
    [.tableSet 0 doubleOne, .tableSet 1 doubleOne, .tableSet 2 doubleOne, .tableSet 3 doubleOne,
      .tableSet 4 doubleOne, .tableSet 5 doubleOne, .tableDelete 0] initTable
    (TableInv_initTable _) (by
      intro op hop
      simp only [List.mem_cons, List.mem_singleton, List.not_mem_nil, or_false] at hop
      rcases hop with rfl | rfl | rfl | rfl | rfl | rfl | rfl <;> simp only [TableOp.ok] <;>
        decide)
  have e : tombstoneTable = t1 := by simp only [tombstoneTable, h1, Option.getD_some]
  rw [e]
  exact hinv1

/-- C26, as stated, fails in its last sentence: `tombstoneTable` satisfies the
table invariant, counts six of its eight buckets, and its bucket 4 is a
tombstone, which is the first bucket on the probe path of the string `a`
(address 6), a key the table does not hold.  `tableSet` of that key grows the
table to 16 buckets before it looks for a bucket: the tombstone is not copied,
bucket 4 of the new array is empty and the key goes into bucket 12. -/
theorem C26_tableDelete_counterexample :
    TableInv tombstoneHeap tombstoneTable ∧
    (tombstoneTable.count, tombstoneTable.capacity) = (6, 8) ∧
    tombstoneTable.entries[4]? = some ⟨none, BOOL_VAL true⟩ ∧
    ((tombstoneHeap.string 6).map fun s => probeAt tombstoneTable.capacity s.2.1 0) = some 4 ∧
    tableGet tombstoneHeap tombstoneTable 6 = some none ∧
    ((tableSet tombstoneHeap tombstoneTable 6 doubleOne).map fun r =>
        (r.1, r.2.count, r.2.capacity)) = some (true, 6, 16) ∧
    ((tableSet tombstoneHeap tombstoneTable 6 doubleOne).bind fun r => r.2.entries[4]?) =
      some ⟨none, NIL_VAL⟩ ∧
    ((tableSet tombstoneHeap tombstoneTable 6 doubleOne).map fun r =>
        (keyAt r.2.entries 12, r.2.entries.countP Entry.isTombstone)) = some (some 6, 0) :=
  ⟨TableInv_tombstoneTable, by decide, by decide, by decide, by decide, by decide, by decide,
    by decide⟩

end Loxj

/-! # Tables: sequences of operations (C27) -/

namespace Loxj

/-- The probe loop of `tableFindString` returns when the path meets an empty
bucket. -/
theorem tableFindStringLoop_returns (heap : Heap) (t : Table) (n : Nat) (chars : List Char)
    (length hash dE : Nat) (hcap : t.capacity = 2 ^ n) (hinv : TableInv heap t)
    (hE : ∃ e, t.entries[probeAt (2 ^ n) hash dE]? = some e ∧ e.isEmpty = true) :
    ∀ (fuel d : Nat), d + fuel = 2 ^ n → dE < 2 ^ n → d ≤ dE →
      ∃ r, tableFindStringLoop heap t chars length hash fuel (probeAt (2 ^ n) hash d) = some r := by
  have hpos : 0 < t.capacity := by rw [hcap]; exact Nat.two_pow_pos n
  have hp := (hinv.probe hpos).1
  intro fuel
  induction fuel with
  | zero => intro d hd hlt hle; omega
  | succ fuel ih =>
    intro d hd hlt hle
    have hidx : probeAt (2 ^ n) hash d < t.entries.length := by
      rw [hp.len, hcap]; exact probeAt_lt _ _ _ (Nat.two_pow_pos n)
    obtain ⟨e, hge⟩ : ∃ e, t.entries[probeAt (2 ^ n) hash d]? = some e :=
      ⟨_, List.getElem?_eq_getElem hidx⟩
    obtain ⟨eE, hgE, heE⟩ := hE
    rw [tableFindStringLoop]
    simp only [List.get?_eq_getElem?, hge, hcap, probeAt_next]
    cases hk : e.key with
    | none =>
      simp only
      by_cases hnil : IS_NIL e.value = true
      · simp only [hnil, if_true]
        exact ⟨_, rfl⟩
      · simp only [hnil]
        have hne : d ≠ dE := by
          rintro rfl
          rw [hge] at hgE
          cases hgE
          simp [Entry.isEmpty, hk, hnil] at heE
        exact ih (d + 1) (by omega) hlt (by omega)
    | some k =>
      simp only
      obtain ⟨s, hs⟩ := hp.strings _ k (by rw [keyAt_eq _ _ _ hge, hk])
      obtain ⟨l, hh, cs⟩ := s
      simp only [hs]
      split
      · exact ⟨_, rfl⟩
      · have hne : d ≠ dE := by
          rintro rfl
          rw [hge] at hgE
          cases hgE
          rw [isEmpty_false_of_key _ _ hk] at heE
          cases heE
        exact ih (d + 1) (by omega) hlt (by omega)

/-- On a table that satisfies the table invariant `tableFindString` returns,
whatever the bytes and the hash. -/
theorem tableFindString_returns (heap : Heap) (t : Table) (chars : List Char)
    (length hash : Nat) (hinv : TableInv heap t) :
    ∃ r, tableFindString heap t chars length hash = some r := by
  unfold tableFindString
  by_cases hc : t.count = 0
  · simp only [hc, if_true]
    exact ⟨_, rfl⟩
  · simp only [hc, if_false]
    have hpos : 0 < t.capacity := by
      have := hinv.load; omega
    have hp := (hinv.probe hpos).1
    obtain ⟨n, hn⟩ := hp.pow
    obtain ⟨j0, e0, hj0, he0⟩ := hinv.exists_empty heap t hpos
    have hj0lt : j0 < 2 ^ n := by
      have := (List.getElem?_eq_some_iff.mp hj0).1
      rw [hp.len, hn] at this; exact this
    obtain ⟨dE, hdE, hpE⟩ := probeAt_surj (2 ^ n) hash j0 hj0lt
    have h := tableFindStringLoop_returns heap t n chars length hash dE hn hinv
      ⟨e0, by rw [hpE]; exact hj0, he0⟩ (2 ^ n) 0 (by simp) hdE (Nat.zero_le _)
    rw [hn, Nat.and_pow_two_sub_one_eq_mod]
    simpa [probeAt] using h

/-- C27: the table invariant.  After any sequence of `initTable`, `tableSet`,
`tableDelete` and `tableAddAll` on a table that `initTable` has set up (the
keys being string objects, and the tables copied from satisfying the
invariant themselves), every call returns, and in the table they leave:
`capacity` is 0 or a power of two that is at least 8, and the number of
buckets; `count` is the number of buckets with a key plus the number of
tombstones; `count <= 0.75 * capacity`; hence when `capacity > 0` some bucket
is empty, `findEntry` returns for every key, and `tableFindString` returns for
all bytes and every hash. -/
theorem C27_table_invariant (heap : Heap) (ops : List TableOp)
    (hok : ∀ op ∈ ops, op.ok heap) :
    ∃ t, runTableOps heap ops initTable = some t ∧ TableInv heap t ∧
      (t.capacity = 0 ∨ (8 ≤ t.capacity ∧ ∃ n, t.capacity = 2 ^ n)) ∧
      t.entries.length = t.capacity ∧
      t.count = t.entries.countP (fun e => e.key.isSome) +
        t.entries.countP (fun e => e.isTombstone) ∧
      4 * t.count ≤ 3 * t.capacity ∧
      (0 < t.capacity → ∃ (j : Nat) (e : Entry), t.entries[j]? = some e ∧ e.isEmpty = true) ∧
      (0 < t.capacity → ∀ key s, heap.string key = some s →
        ∃ i, findEntry heap t.entries t.capacity key = some i ∧ i < t.capacity) ∧
      (∀ chars length hash, ∃ r, tableFindString heap t chars length hash = some r) := by
  obtain ⟨t, ht, hinv⟩ := runTableOps_inv heap ops initTable (TableInv_initTable heap) hok
  refine ⟨t, ht, hinv, hinv.pow_cases heap t, hinv.length_eq heap t, ?_, hinv.load,
    hinv.exists_empty heap t, ?_, fun chars length hash =>
      tableFindString_returns heap t chars length hash hinv⟩
  · rw [hinv.count_eq, countP_nonempty]
  · intro hpos key s hs
    obtain ⟨i, hfi, e, hge, _⟩ := findEntry_spec heap t.entries t.capacity key s
      (hinv.probe hpos).1 hs (hinv.exists_empty heap t hpos)
    refine ⟨i, hfi, ?_⟩
    have := (List.getElem?_eq_some_iff.mp hge).1
    rw [hinv.length_eq heap t] at this
    exact this

/-- C27 on a sequence of calls over the strings of `probeHeap`: the table
ends with capacity 8, the keys 1 and 3 and one tombstone, so `count` is
3. -/
theorem C27_table_invariant_witness :
    ((runTableOps probeHeap
        [.tableSet 3 doubleOne, .initTable, .tableSet 0 doubleOne, .tableSet 1 doubleOne,
          .tableDelete 0, .tableAddAllSelf,
          .tableSet 2 NIL_VAL, .tableDelete 2, .tableAddAll probeTable, .tableDelete 0]
        initTable).map fun t =>
          (t.capacity, t.count, t.entries.countP (fun e => e.key.isSome),
            t.entries.countP (fun e => e.isTombstone))) = some (8, 3, 2, 1) ∧
    ∃ t, runTableOps probeHeap
        [.tableSet 3 doubleOne, .initTable, .tableSet 0 doubleOne, .tableSet 1 doubleOne,
          .tableDelete 0, .tableAddAllSelf,
          .tableSet 2 NIL_VAL, .tableDelete 2, .tableAddAll probeTable, .tableDelete 0]
        initTable = some t ∧ TableInv probeHeap t ∧
      (t.capacity = 0 ∨ (8 ≤ t.capacity ∧ ∃ n, t.capacity = 2 ^ n)) ∧
      t.entries.length = t.capacity ∧
      t.count = t.entries.countP (fun e => e.key.isSome) +
        t.entries.countP (fun e => e.isTombstone) ∧
      4 * t.count ≤ 3 * t.capacity ∧
      (0 < t.capacity → ∃ (j : Nat) (e : Entry), t.entries[j]? = some e ∧ e.isEmpty = true) ∧
      (0 < t.capacity → ∀ key s, probeHeap.string key = some s →
        ∃ i, findEntry probeHeap t.entries t.capacity key = some i ∧ i < t.capacity) ∧
      (∀ chars length hash, ∃ r, tableFindString probeHeap t chars length hash = some r) :=
  ⟨by decide, C27_table_invariant probeHeap _ (by
    intro op hop
    simp only [List.mem_cons, List.mem_singleton, List.not_mem_nil, or_false] at hop
    rcases hop with rfl | rfl | rfl | rfl | rfl | rfl | rfl | rfl | rfl | rfl
    all_goals first
      | exact TableInv_probeTable
      | exact trivial
      | (simp only [TableOp.ok]; decide))⟩

end Loxj

/-! # Upvalues: `captureUpvalue` -/

namespace Loxj

theorem OpenList_none (heap : Heap) (l : List (Nat × Nat)) (h : OpenList heap none l) :
    l = [] := by
  cases l with
  | nil => rfl
  | cons x rest => exact absurd h (by simp [OpenList])

theorem OpenList_some (heap : Heap) (p : Nat) (l : List (Nat × Nat))
    (h : OpenList heap (some p) l) :
    ∃ slot closed next rest, l = (p, slot) :: rest ∧
      heap.get p = some (.OBJ_UPVALUE (.stack slot) closed next) ∧ OpenList heap next rest := by
  cases l with
  | nil => exact absurd h (by simp [OpenList])
  | cons x rest =>
    obtain ⟨hp, closed, next, hg, hrest⟩ := h
    obtain ⟨a, b⟩ := x
    simp only at hp hg
    subst hp
    exact ⟨b, closed, next, rest, rfl, hg, hrest⟩

/-- The list of open upvalues that starts at a pointer is determined by the
heap. -/
theorem OpenList_unique (heap : Heap) :
    ∀ (l l1 : List (Nat × Nat)) (head : Option Nat),
      OpenList heap head l → OpenList heap head l1 → l = l1 := by
  intro l
  induction l with
  | nil =>
    intro l1 head h h1
    cases head with
    | none => exact (OpenList_none heap l1 h1).symm
    | some p => exact absurd h (by simp [OpenList])
  | cons x rest ih =>
    intro l1 head h h1
    cases head with
    | none => exact absurd h (by simp [OpenList])
    | some p =>
      obtain ⟨slot, closed, next, rest1, e1, hg1, hr1⟩ := OpenList_some heap p _ h1
      obtain ⟨slot0, closed0, next0, rest0, e0, hg0, hr0⟩ := OpenList_some heap p _ h
      rw [hg0] at hg1
      simp only [Option.some.injEq, Obj.OBJ_UPVALUE.injEq, UpvalueLocation.stack.injEq] at hg1
      obtain ⟨hs, _, hn⟩ := hg1
      subst hs hn
      rw [e1, e0]
      simp only [List.cons.injEq] at e0
      rw [← ih rest1 next0 (by rw [e0.2]; exact hr0) hr1, e0.2]

/-- The end of `captureUpvalue`: the new upvalue is allocated, points at the
rest of the list, and `prevUpvalue`, or the VM, points at it. -/
theorem insertUpvalue_spec (vm : VM) (local_ : Nat) (prev head : Option Nat)
    (l : List (Nat × Nat)) (hlink : linkTarget vm prev = some head)
    (hl : OpenList vm.heap head l) (hprev : ∀ x ∈ l, prev ≠ some x.1) :
    ∃ vm1, insertUpvalue vm local_ prev head = some (vm.heap.length, vm1) ∧
      linkTarget vm1 prev = some (some vm.heap.length) ∧
      OpenList vm1.heap (some vm.heap.length) ((vm.heap.length, local_) :: l) ∧
      CaptureFrame vm vm1 prev [] := by
  -- the heap with the new upvalue
  obtain ⟨heapA, hA⟩ : ∃ h : Heap,
      h = vm.heap ++ [some ⟨false, .OBJ_UPVALUE (.stack local_) NIL_VAL none⟩] := ⟨_, rfl⟩
  obtain ⟨heapB, hB⟩ : ∃ h : Heap,
      h = heapA.setObj vm.heap.length (.OBJ_UPVALUE (.stack local_) NIL_VAL head) := ⟨_, rfl⟩
  have hgetA : heapA.get vm.heap.length = some (.OBJ_UPVALUE (.stack local_) NIL_VAL none) := by
    rw [hA]; exact Heap.get_append_length vm.heap _
  have hnew : heapB.get vm.heap.length = some (.OBJ_UPVALUE (.stack local_) NIL_VAL head) := by
    rw [hB]; exact Heap.setObj_get_self heapA _ _ _ hgetA
  have hold : ∀ q, q < vm.heap.length → heapB.get q = vm.heap.get q := by
    intro q hq
    rw [hB, Heap.setObj_get_ne heapA _ q _ (by omega), hA]
    exact Heap.get_append_lt vm.heap _ q hq
  have hlenB : heapB.length = vm.heap.length + 1 := by
    rw [hB, Heap.setObj_length, hA]; simp
  have hlt := OpenList_lt_length vm.heap l head hl
  have hins : insertUpvalue vm local_ prev head =
      match prev with
      | none => some (vm.heap.length,
          { vm with heap := heapB, objects := vm.heap.length :: vm.objects,
                    openUpvalues := some vm.heap.length })
      | some p =>
        match heapB.get p with
        | some (.OBJ_UPVALUE location closed _) =>
          some (vm.heap.length,
            { vm with heap := heapB.setObj p (.OBJ_UPVALUE location closed (some vm.heap.length)),
                      objects := vm.heap.length :: vm.objects })
        | _ => none := by
    simp only [insertUpvalue, newUpvalue, allocateObject, hB, hA]
    cases prev <;> rfl
  rw [hins]
  cases prev with
  | none =>
    refine ⟨_, rfl, rfl, ⟨rfl, NIL_VAL, head, hnew, ?_⟩, ?_⟩
    · exact OpenList_congr vm.heap heapB l head (fun x hx => hold x.1 (hlt x hx)) hl
    · exact ⟨rfl, rfl, rfl, rfl, rfl, rfl, hlenB, rfl, fun h => absurd rfl h,
        fun q hq _ _ => hold q hq, fun q loc c n hq =>
          ⟨n, by rw [hold q (Heap.get_some_lt _ _ _ hq)]; exact hq⟩⟩
  | some p =>
    simp only [linkTarget] at hlink
    cases hp : vm.heap.get p with
    | none => rw [hp] at hlink; cases hlink
    | some obj =>
      rw [hp] at hlink
      cases obj with
      | OBJ_UPVALUE location closed next =>
        simp only [Option.some.injEq] at hlink
        subst hlink
        have hplt := Heap.get_some_lt _ _ _ hp
        have hpB : heapB.get p = some (.OBJ_UPVALUE location closed next) := by
          rw [hold p hplt]; exact hp
        simp only [hpB]
        have hself := Heap.setObj_get_self heapB p _
          (.OBJ_UPVALUE location closed (some vm.heap.length)) hpB
        have hne : ∀ q, q ≠ p → Heap.get (heapB.setObj p
            (.OBJ_UPVALUE location closed (some vm.heap.length))) q = heapB.get q :=
          fun q hq => Heap.setObj_get_ne heapB p q _ hq
        refine ⟨_, rfl, ?_, ⟨rfl, NIL_VAL, next, ?_, ?_⟩, ?_⟩
        · simp only [linkTarget, hself]
        · show Heap.get (heapB.setObj p _) vm.heap.length = _
          rw [hne _ (by omega)]
          exact hnew
        · apply OpenList_congr vm.heap _ l next _ hl
          intro x hx
          show Heap.get (heapB.setObj p _) x.1 = _
          rw [hne x.1 (fun e => hprev x hx (by rw [e])), hold x.1 (hlt x hx)]
        · refine ⟨rfl, rfl, rfl, rfl, rfl, rfl, ?_, rfl, fun _ => rfl, ?_, ?_⟩
          · show (heapB.setObj p _).length = _
            rw [Heap.setObj_length, hlenB]
          · intro q hq hqp _
            show Heap.get (heapB.setObj p _) q = _
            rw [hne q (fun e => hqp (by rw [e])), hold q hq]
          · intro q loc c n hq
            show ∃ next1, Heap.get (heapB.setObj p _) q = _
            by_cases hqp : q = p
            · subst hqp
              rw [hp] at hq
              simp only [Option.some.injEq, Obj.OBJ_UPVALUE.injEq] at hq
              obtain ⟨h1, h2, _⟩ := hq
              subst h1 h2
              exact ⟨_, hself⟩
            · exact ⟨n, by rw [hne q hqp, hold q (Heap.get_some_lt _ _ _ hq)]; exact hq⟩
      | _ => cases hlink

/-- The loop of `captureUpvalue` and what follows it, on a sorted list that
has no upvalue for the slot: a new upvalue is inserted after the upvalues of
higher slots. -/
theorem captureUpvalue_absent_aux (vm : VM) (local_ : Nat) :
    ∀ (l : List (Nat × Nat)) (fuel : Nat) (prev head : Option Nat),
      linkTarget vm prev = some head → OpenList vm.heap head l → OpenSorted l →
      l.length < fuel → (∀ x ∈ l, prev ≠ some x.1) → (∀ x ∈ l, x.2 ≠ local_) →
      ∃ vm1 head1,
        ((captureUpvalueLoop vm.heap local_ fuel prev head).bind fun r =>
          captureUpvalueEnd vm local_ r.1 r.2) = some (vm.heap.length, vm1) ∧
        linkTarget vm1 prev = some head1 ∧
        OpenList vm1.heap head1
          (l.takeWhile (fun x => decide (local_ < x.2)) ++
            (vm.heap.length, local_) :: l.dropWhile (fun x => decide (local_ < x.2))) ∧
        CaptureFrame vm vm1 prev (l.takeWhile fun x => decide (local_ < x.2)) := by
  intro l
  induction l with
  | nil =>
    intro fuel prev head hlink hl _ hfuel hprev _
    cases head with
    | some p => exact absurd hl (by simp [OpenList])
    | none =>
      obtain ⟨f, rfl⟩ : ∃ f, fuel = f + 1 := ⟨fuel - 1, by simp at hfuel; omega⟩
      obtain ⟨vm1, h1, h2, h3, h4⟩ := insertUpvalue_spec vm local_ prev none [] hlink hl hprev
      refine ⟨vm1, some vm.heap.length, ?_, h2, h3, h4⟩
      simp only [captureUpvalueLoop, Option.some_bind, captureUpvalueEnd, h1]
  | cons x rest ih =>
    intro fuel prev head hlink hl hs hfuel hprev habs
    cases head with
    | none => exact absurd hl (by simp [OpenList])
    | some p =>
      obtain ⟨hp, closed, next, hg, hrest⟩ := id hl
      subst hp
      obtain ⟨f, rfl⟩ : ∃ f, fuel = f + 1 := ⟨fuel - 1, by simp at hfuel; omega⟩
      have hs1 := List.pairwise_cons.mp hs
      by_cases hgt : x.2 > local_
      · have hpx : decide (local_ < x.2) = true := by simpa using hgt
        have hnm := OpenList_not_mem vm.heap rest next x.1 x.2 closed next hrest hg hs1.1
        obtain ⟨vm1, head1, h1, h2, h3, h4⟩ := ih f (some x.1) next
          (by simp only [linkTarget, hg]) hrest hs1.2 (by simp at hfuel; omega)
          (fun y hy e => hnm y hy (by simp only [Option.some.injEq] at e; exact e.symm))
          (fun y hy => habs y (List.mem_cons_of_mem _ hy))
        have hopen : vm1.openUpvalues = vm.openUpvalues := h4.head (by simp)
        have hx1 : vm1.heap.get x.1 = some (.OBJ_UPVALUE (.stack x.2) closed head1) := by
          obtain ⟨n1, hn1⟩ := h4.fields x.1 _ _ _ hg
          simp only [linkTarget, hn1, Option.some.injEq] at h2
          rw [hn1, h2]
        refine ⟨vm1, some x.1, ?_, ?_, ?_, ?_⟩
        · rw [captureUpvalueLoop]
          simp only [hg, hgt, if_true]
          exact h1
        · cases prev with
          | none =>
            simp only [linkTarget, Option.some.injEq] at hlink ⊢
            rw [hopen, hlink]
          | some q =>
            have hq : vm1.heap.get q = vm.heap.get q := by
              cases hgq : vm.heap.get q with
              | none => exact absurd hlink (by simp [linkTarget, hgq])
              | some obj =>
                rw [← hgq]
                apply h4.other q (Heap.get_some_lt _ _ _ hgq)
                · intro e
                  simp only [Option.some.injEq] at e
                  exact hprev x (List.mem_cons_self _ _) (by rw [e])
                · intro y hy e
                  exact hprev y (List.mem_cons_of_mem _ (List.takeWhile_subset _ hy)) (by rw [e])
            simp only [linkTarget, hq] at hlink ⊢
            exact hlink
        · simp only [List.takeWhile_cons, List.dropWhile_cons, hpx, if_true, List.cons_append]
          exact ⟨rfl, closed, head1, hx1, h3⟩
        · simp only [List.takeWhile_cons, hpx, if_true]
          refine ⟨h4.stack, h4.stackTop, h4.frames, h4.globals, h4.strings, h4.initString,
            h4.length, h4.objects, fun _ => hopen, ?_, h4.fields⟩
          intro q hq hqp hql
          apply h4.other q hq
          · intro e
            simp only [Option.some.injEq] at e
            exact hql x (List.mem_cons_self _ _) e
          · intro y hy
            exact hql y (List.mem_cons_of_mem _ hy)
      · have hpx : decide (local_ < x.2) = false := by simpa using hgt
        have hne : x.2 ≠ local_ := habs x (List.mem_cons_self _ _)
        obtain ⟨vm1, h1, h2, h3, h4⟩ :=
          insertUpvalue_spec vm local_ prev (some x.1) (x :: rest) hlink hl hprev
        refine ⟨vm1, some vm.heap.length, ?_, h2, ?_, ?_⟩
        · rw [captureUpvalueLoop]
          simp only [hg, hgt, if_false, Option.some_bind, captureUpvalueEnd, hne, h1]
        · simp only [List.takeWhile_cons, List.dropWhile_cons, hpx, Bool.false_eq_true, if_false,
            List.nil_append]
          exact h3
        · simp only [List.takeWhile_cons, hpx, Bool.false_eq_true, if_false]
          exact h4

/-- The loop of `captureUpvalue` and what follows it, on a sorted list that
has an upvalue for the slot: that upvalue is returned and nothing changes. -/
theorem captureUpvalue_found_aux (vm : VM) (local_ : Nat) (u : Nat × Nat) (hu : u.2 = local_) :
    ∀ (l : List (Nat × Nat)) (fuel : Nat) (prev head : Option Nat),
      OpenList vm.heap head l → OpenSorted l → l.length < fuel → u ∈ l →
      ((captureUpvalueLoop vm.heap local_ fuel prev head).bind fun r =>
        captureUpvalueEnd vm local_ r.1 r.2) = some (u.1, vm) := by
  intro l
  induction l with
  | nil => intro _ _ _ _ _ _ h; cases h
  | cons x rest ih =>
    intro fuel prev head hl hs hfuel hmem
    cases head with
    | none => exact absurd hl (by simp [OpenList])
    | some p =>
      obtain ⟨hp, closed, next, hg, hrest⟩ := id hl
      subst hp
      obtain ⟨f, rfl⟩ : ∃ f, fuel = f + 1 := ⟨fuel - 1, by simp at hfuel; omega⟩
      have hs1 := List.pairwise_cons.mp hs
      rw [captureUpvalueLoop]
      simp only [hg]
      by_cases hgt : x.2 > local_
      · simp only [hgt, if_true]
        rcases List.mem_cons.mp hmem with e | hr
        · rw [e] at hu; omega
        · exact ih f (some x.1) next hrest hs1.2 (by simp at hfuel; omega) hr
      · simp only [hgt, if_false, Option.some_bind, captureUpvalueEnd, hg]
        rcases List.mem_cons.mp hmem with e | hr
        · rw [← e, hu]
          simp only [if_true]
        · have := hs1.1 u hr
          omega

theorem OpenList_head (heap : Heap) (head : Option Nat) (l : List (Nat × Nat))
    (h : OpenList heap head l) : head = l.head?.map Prod.fst := by
  cases l with
  | nil =>
    cases head with
    | none => rfl
    | some p => exact absurd h (by simp [OpenList])
  | cons x rest =>
    cases head with
    | none => exact absurd h (by simp [OpenList])
    | some p =>
      obtain ⟨hp, _⟩ := h
      simp [hp]

/-- In a sorted list without an upvalue for the slot, what `dropWhile` leaves
is below the slot. -/
theorem dropWhile_lt_of_sorted (local_ : Nat) :
    ∀ (l : List (Nat × Nat)), OpenSorted l → (∀ x ∈ l, x.2 ≠ local_) →
      ∀ x ∈ l.dropWhile (fun x => decide (local_ < x.2)), x.2 < local_ := by
  intro l
  induction l with
  | nil => intro _ _ x hx; cases hx
  | cons y rest ih =>
    intro hs habs x hx
    have hs1 := List.pairwise_cons.mp hs
    rw [List.dropWhile_cons] at hx
    by_cases hgt : local_ < y.2
    · simp only [hgt, decide_True, if_true] at hx
      exact ih hs1.2 (fun z hz => habs z (List.mem_cons_of_mem _ hz)) x hx
    · simp only [hgt, decide_False, Bool.false_eq_true, if_false] at hx
      have hy := habs y (List.mem_cons_self _ _)
      rcases List.mem_cons.mp hx with e | hr
      · rw [e]; omega
      · have := hs1.1 x hr
        omega

/-- Inserting the slot between the higher and the lower slots of a sorted
list gives a sorted list. -/
theorem OpenSorted_insert (local_ new : Nat) (l : List (Nat × Nat)) (hs : OpenSorted l)
    (habs : ∀ x ∈ l, x.2 ≠ local_) :
    OpenSorted (l.takeWhile (fun x => decide (local_ < x.2)) ++
      (new, local_) :: l.dropWhile (fun x => decide (local_ < x.2))) := by
  have hsplit := List.takeWhile_append_dropWhile (fun x : Nat × Nat => decide (local_ < x.2)) l
  have hs2 : OpenSorted (l.takeWhile (fun x => decide (local_ < x.2)) ++
      l.dropWhile (fun x => decide (local_ < x.2))) := by rw [hsplit]; exact hs
  obtain ⟨h1, h2, h3⟩ := List.pairwise_append.mp hs2
  have hlo := dropWhile_lt_of_sorted local_ l hs habs
  have hhi : ∀ x ∈ l.takeWhile (fun x => decide (local_ < x.2)), local_ < x.2 := by
    intro x hx
    simpa using List.mem_takeWhile_imp hx
  apply List.pairwise_append.mpr
  refine ⟨h1, List.pairwise_cons.mpr ⟨fun y hy => hlo y hy, h2⟩, ?_⟩
  intro a ha b hb
  rcases List.mem_cons.mp hb with e | hr
  · rw [e]; exact hhi a ha
  · exact h3 a ha b hr

/-- The function `captureUpvalue` on a sorted list of open upvalues.  When
the list has an upvalue for the slot it is returned and the VM is left as it
was.  Otherwise a new upvalue is allocated and linked in after the upvalues
of higher slots; the list is sorted again; and of the objects there were only
the `next` link of the upvalue before the new one has changed. -/
theorem captureUpvalue_spec (vm : VM) (local_ : Nat) (l : List (Nat × Nat))
    (hl : OpenList vm.heap vm.openUpvalues l) (hs : OpenSorted l) :
    (∀ u ∈ l, u.2 = local_ → captureUpvalue vm local_ = some (u.1, vm)) ∧
    ((∀ x ∈ l, x.2 ≠ local_) →
      ∃ vm1, captureUpvalue vm local_ = some (vm.heap.length, vm1) ∧
        OpenList vm1.heap vm1.openUpvalues
          (l.takeWhile (fun x => decide (local_ < x.2)) ++
            (vm.heap.length, local_) :: l.dropWhile (fun x => decide (local_ < x.2))) ∧
        OpenSorted (l.takeWhile (fun x => decide (local_ < x.2)) ++
            (vm.heap.length, local_) :: l.dropWhile (fun x => decide (local_ < x.2))) ∧
        CaptureFrame vm vm1 none (l.takeWhile fun x => decide (local_ < x.2))) := by
  have hlen := OpenList_length_le vm.heap l _ hl hs
  constructor
  · intro u hu hslot
    exact captureUpvalue_found_aux vm local_ u hslot l _ none _ hl hs (by omega) hu
  · intro habs
    obtain ⟨vm1, head1, h1, h2, h3, h4⟩ := captureUpvalue_absent_aux vm local_ l
      (vm.heap.length + 1) none vm.openUpvalues rfl hl hs (by omega) (fun _ _ h => by cases h)
      habs
    simp only [linkTarget, Option.some.injEq] at h2
    refine ⟨vm1, h1, ?_, OpenSorted_insert local_ _ l hs habs, h4⟩
    rw [h2]
    exact h3

end Loxj

/-! # Upvalues: the open list is sorted (C23) -/

namespace Loxj

theorem OpenList_nil_intro (heap : Heap) (head : Option Nat) (h : head = none) :
    OpenList heap head [] := by
  rw [h]; trivial

theorem OpenList_cons_intro (heap : Heap) (head : Option Nat) (p slot closed : Nat)
    (next : Option Nat) (rest : List (Nat × Nat)) (hh : head = some p)
    (hg : heap.get p = some (.OBJ_UPVALUE (.stack slot) closed next))
    (hr : OpenList heap next rest) : OpenList heap head ((p, slot) :: rest) := by
  rw [hh]
  exact ⟨rfl, closed, next, hg, hr⟩

/-- The list of open upvalues of `upvalueVM`: 7 on slot 3, then 6 on slot 2. -/
theorem OpenList_upvalueVM :
    OpenList upvalueVM.heap upvalueVM.openUpvalues [(7, 3), (6, 2)] :=
  OpenList_cons_intro _ _ 7 3 NIL_VAL (some 6) _ (by decide) (by decide)
    (OpenList_cons_intro _ _ 6 2 NIL_VAL none _ rfl (by decide) (OpenList_nil_intro _ _ rfl))

theorem OpenSorted_upvalueVM : OpenSorted [(7, 3), (6, 2)] := by
  unfold OpenSorted
  simp

/-- In a sorted list no slot occurs twice. -/
theorem OpenSorted.nodup_slots (l : List (Nat × Nat)) (hs : OpenSorted l) :
    (l.map Prod.snd).Nodup := by
  unfold List.Nodup
  rw [List.pairwise_map]
  exact List.Pairwise.imp (fun h => by omega) hs

/-- On a sorted list, `dropWhile` on the slots at or above a bound leaves
the upvalues whose slot is below it. -/
theorem dropWhile_eq_filter (last : Nat) :
    ∀ (l : List (Nat × Nat)), OpenSorted l →
      l.dropWhile (fun x => decide (last ≤ x.2)) = l.filter (fun x => decide (x.2 < last)) := by
  intro l
  induction l with
  | nil => intro _; rfl
  | cons y rest ih =>
    intro hs
    have hs1 := List.pairwise_cons.mp hs
    by_cases hle : last ≤ y.2
    · have h1 : decide (last ≤ y.2) = true := by simpa using hle
      have h2 : decide (y.2 < last) = false := by simpa using hle
      simp only [List.dropWhile_cons, h1, if_true, List.filter_cons, h2, Bool.false_eq_true,
        if_false]
      exact ih hs1.2
    · have h1 : decide (last ≤ y.2) = false := by simpa using hle
      have h2 : decide (y.2 < last) = true := by simpa using hle
      simp only [List.dropWhile_cons, h1, Bool.false_eq_true, if_false, List.filter_cons, h2,
        if_true]
      congr 1
      symm
      rw [List.filter_eq_self]
      intro x hx
      have := hs1.1 x hx
      simp only [decide_eq_true_eq]
      omega

/-- C23: the list of open upvalues is sorted by strictly decreasing stack
slot.  The empty list is; in a sorted list no two upvalues have the same slot
or the same address; `captureUpvalue`, for any slot, returns and leaves a
sorted list; `closeUpvalues`, for any threshold, returns and leaves a sorted
list; and `resetStack` leaves the empty list. -/
theorem C23_open_upvalues_sorted (vm : VM) (l : List (Nat × Nat))
    (hl : OpenList vm.heap vm.openUpvalues l) (hs : OpenSorted l) :
    (∀ heap, OpenList heap none [] ∧ OpenSorted []) ∧
    (l.map Prod.snd).Nodup ∧ (l.map Prod.fst).Nodup ∧
    (∀ slot, ∃ upvalue vm1 l1, captureUpvalue vm slot = some (upvalue, vm1) ∧
      OpenList vm1.heap vm1.openUpvalues l1 ∧ OpenSorted l1 ∧ (upvalue, slot) ∈ l1) ∧
    (∀ last, ∃ vm1 l1, closeUpvalues vm last = some vm1 ∧
      OpenList vm1.heap vm1.openUpvalues l1 ∧ OpenSorted l1) ∧
    (OpenList (resetStack vm).heap (resetStack vm).openUpvalues [] ∧ OpenSorted []) := by
  refine ⟨fun _ => ⟨trivial, List.Pairwise.nil⟩, OpenSorted.nodup_slots l hs,
    OpenList_nodup vm.heap l _ hl hs, ?_, ?_, ⟨trivial, List.Pairwise.nil⟩⟩
  · intro slot
    obtain ⟨hfound, habsent⟩ := captureUpvalue_spec vm slot l hl hs
    by_cases hex : ∃ u ∈ l, u.2 = slot
    · obtain ⟨u, hu, hslot⟩ := hex
      refine ⟨u.1, vm, l, hfound u hu hslot, hl, hs, ?_⟩
      rw [← hslot]
      exact hu
    · obtain ⟨vm1, h1, h2, h3, _⟩ := habsent (fun x hx e => hex ⟨x, hx, e⟩)
      exact ⟨_, vm1, _, h1, h2, h3, List.mem_append_right _ (List.mem_cons_self _ _)⟩
  · intro last
    obtain ⟨vm1, h1, h2, _⟩ := closeUpvalues_spec vm last l hl hs
    exact ⟨vm1, _, h1, h2, List.Pairwise.sublist (List.dropWhile_sublist _) hs⟩

/-- C23 on the state `upvalueVM`, whose open upvalues are 7 (slot 3) and 6
(slot 2): capturing slot 3 again returns the upvalue 7, capturing slot 4
allocates the upvalue 10 and puts it at the head of the list, and closing
from slot 3 leaves the upvalue 6. -/
theorem C23_open_upvalues_sorted_witness :
    ((captureUpvalue upvalueVM 3).map (fun r => (r.1, r.2.openUpvalues)) = some (7, some 7) ∧
      (captureUpvalue upvalueVM 4).map (fun r => (r.1, r.2.openUpvalues)) = some (10, some 10) ∧
      (closeUpvalues upvalueVM 3).map (fun r => r.openUpvalues) = some (some 6)) ∧
    ((∀ heap, OpenList heap none [] ∧ OpenSorted []) ∧
    (([(7, 3), (6, 2)] : List (Nat × Nat)).map Prod.snd).Nodup ∧
    (([(7, 3), (6, 2)] : List (Nat × Nat)).map Prod.fst).Nodup ∧
    (∀ slot, ∃ upvalue vm1 l1, captureUpvalue upvalueVM slot = some (upvalue, vm1) ∧
      OpenList vm1.heap vm1.openUpvalues l1 ∧ OpenSorted l1 ∧ (upvalue, slot) ∈ l1) ∧
    (∀ last, ∃ vm1 l1, closeUpvalues upvalueVM last = some vm1 ∧
      OpenList vm1.heap vm1.openUpvalues l1 ∧ OpenSorted l1) ∧
    (OpenList (resetStack upvalueVM).heap (resetStack upvalueVM).openUpvalues [] ∧
      OpenSorted [])) :=
  ⟨⟨by decide, by decide, by decide⟩,
    C23_open_upvalues_sorted upvalueVM [(7, 3), (6, 2)] OpenList_upvalueVM OpenSorted_upvalueVM⟩

end Loxj

/-! # Upvalues: capture, `OP_GET_UPVALUE`, `OP_SET_UPVALUE` (C24) -/

namespace Loxj

/-- The value read through `location` depends on the heap and the stack. -/
theorem readLocation_congr (vm vm1 : VM) (u : Nat) (hh : vm1.heap = vm.heap)
    (hst : vm1.stack = vm.stack) : readLocation vm1 u = readLocation vm u := by
  simp only [readLocation, VM.slot, hh, hst]

/-- What `*upvalue->location = value` stores is what `*upvalue->location`
reads afterwards; an open upvalue stores into its stack slot. -/
theorem writeLocation_spec (vm : VM) (u v : Nat) (location : UpvalueLocation) (closed : Nat)
    (next : Option Nat) (hg : vm.heap.get u = some (.OBJ_UPVALUE location closed next)) :
    ∃ vm1, writeLocation vm u v = some vm1 ∧ readLocation vm1 u = some v ∧
      (∀ s, location = .stack s → vm1.slot s = v ∧ vm1.heap = vm.heap) ∧
      (location = .closed → vm1.stack = vm.stack ∧
        vm1.heap.get u = some (.OBJ_UPVALUE .closed v next)) ∧
      vm1.frames = vm.frames ∧ vm1.stackTop = vm.stackTop ∧
      vm1.openUpvalues = vm.openUpvalues := by
  cases location with
  | stack s =>
    refine ⟨{ vm with stack := storeAt vm.stack s v }, (by simp only [writeLocation, hg]), ?_,
      fun s1 e => ?_, (fun e => nomatch e), rfl, rfl, rfl⟩
    · have hg1 : Heap.get ({ vm with stack := storeAt vm.stack s v } : VM).heap u =
          some (.OBJ_UPVALUE (.stack s) closed next) := hg
      simp only [readLocation, hg1, VM.slot, storeAt_getD_self]
    · cases e
      exact ⟨storeAt_getD_self vm.stack s v, rfl⟩
  | closed =>
    have hself := Heap.setObj_get_self vm.heap u _ (.OBJ_UPVALUE .closed v next) hg
    refine ⟨{ vm with heap := vm.heap.setObj u (.OBJ_UPVALUE .closed v next) },
      (by simp only [writeLocation, hg]), ?_, (fun s e => nomatch e), fun _ => ⟨rfl, hself⟩,
      rfl, rfl, rfl⟩
    simp only [readLocation, hself]

/-- C24: `captureUpvalue(slot)` on a sorted list of open upvalues.  When an
upvalue is open for the slot it is returned and the VM is left as it was.
Otherwise a new upvalue, at an address that was not allocated, is linked in
between the upvalues of higher slots and those of lower slots, which are all
kept, in their order and with their slots and values; the list is sorted
again.  Capturing the slot again returns the same upvalue and changes
nothing.  What `OP_SET_UPVALUE` stores through an upvalue of the closure of
its frame, `OP_GET_UPVALUE` reads through the same upvalue from the closure
of any frame, whether the upvalue is open (the value is then in the stack
slot) or closed. -/
theorem C24_captureUpvalue (vm : VM) (slot : Nat) (l : List (Nat × Nat))
    (hl : OpenList vm.heap vm.openUpvalues l) (hs : OpenSorted l) :
    (∀ u ∈ l, u.2 = slot → captureUpvalue vm slot = some (u.1, vm)) ∧
    ((∀ x ∈ l, x.2 ≠ slot) →
      ∃ vm1 hi lo, l = hi ++ lo ∧ (∀ x ∈ hi, slot < x.2) ∧ (∀ x ∈ lo, x.2 < slot) ∧
        vm.heap.get vm.heap.length = none ∧
        captureUpvalue vm slot = some (vm.heap.length, vm1) ∧
        OpenList vm1.heap vm1.openUpvalues (hi ++ (vm.heap.length, slot) :: lo) ∧
        OpenSorted (hi ++ (vm.heap.length, slot) :: lo) ∧
        CaptureFrame vm vm1 none hi) ∧
    (∃ upvalue vm1, captureUpvalue vm slot = some (upvalue, vm1) ∧
      captureUpvalue vm1 slot = some (upvalue, vm1) ∧
      ∃ closed next, vm1.heap.get upvalue = some (.OBJ_UPVALUE (.stack slot) closed next)) ∧
    (∀ (vmA0 vmA : VM) (a upvalue : Nat) (location : UpvalueLocation) (closed : Nat)
        (next : Option Nat),
      READ_BYTE vmA0 = some (a, vmA) → frameUpvalue vmA a = some (some upvalue) →
      vmA.heap.get upvalue = some (.OBJ_UPVALUE location closed next) →
      ∃ vmA1, run_OP_SET_UPVALUE vmA0 = .next vmA1 ∧
        readLocation vmA1 upvalue = some (vmA.peek 0) ∧
        (∀ s, location = .stack s → vmA1.slot s = vmA.peek 0) ∧
        ∀ (vmB0 vmB : VM) (b : Nat), READ_BYTE vmB0 = some (b, vmB) →
          frameUpvalue vmB b = some (some upvalue) →
          vmB.heap = vmA1.heap → vmB.stack = vmA1.stack →
          run_OP_GET_UPVALUE vmB0 = .next (push vmB (vmA.peek 0))) := by
  obtain ⟨hfound, habsent⟩ := captureUpvalue_spec vm slot l hl hs
  refine ⟨hfound, ?_, ?_, ?_⟩
  · intro habs
    obtain ⟨vm1, h1, h2, h3, h4⟩ := habsent habs
    refine ⟨vm1, _, _, (List.takeWhile_append_dropWhile _ l).symm, ?_,
      dropWhile_lt_of_sorted slot l hs habs, Heap.get_length vm.heap, h1, h2, h3, h4⟩
    intro x hx
    simpa using List.mem_takeWhile_imp hx
  · by_cases hex : ∃ u ∈ l, u.2 = slot
    · obtain ⟨u, hu, hslot⟩ := hex
      have h1 := hfound u hu hslot
      obtain ⟨i, hi⟩ := List.mem_iff_getElem?.mp hu
      have hget : ∃ closed next,
          vm.heap.get u.1 = some (.OBJ_UPVALUE (.stack slot) closed next) := by
        have hgen : ∀ (l : List (Nat × Nat)) (head : Option Nat), OpenList vm.heap head l →
            u ∈ l → ∃ closed next,
              vm.heap.get u.1 = some (.OBJ_UPVALUE (.stack u.2) closed next) := by
          intro l
          induction l with
          | nil => intro _ _ h; cases h
          | cons y rest ih =>
            intro head h hm
            cases head with
            | none => exact absurd h (by simp [OpenList])
            | some p =>
              obtain ⟨hp, c, n, hg, hr⟩ := h
              rcases List.mem_cons.mp hm with e | hr1
              · rw [e, ← hp]; exact ⟨c, n, hg⟩
              · exact ih n hr hr1
        rw [← hslot]
        exact hgen l _ hl hu
      exact ⟨u.1, vm, h1, h1, hget⟩
    · obtain ⟨vm1, h1, h2, h3, _⟩ := habsent (fun x hx e => hex ⟨x, hx, e⟩)
      obtain ⟨hfound1, _⟩ := captureUpvalue_spec vm1 slot _ h2 h3
      have hmem : (vm.heap.length, slot) ∈
          l.takeWhile (fun x => decide (slot < x.2)) ++
            (vm.heap.length, slot) :: l.dropWhile (fun x => decide (slot < x.2)) :=
        List.mem_append_right _ (List.mem_cons_self _ _)
      refine ⟨_, vm1, h1, hfound1 _ hmem rfl, ?_⟩
      have hgen : ∀ (l : List (Nat × Nat)) (head : Option Nat) (u : Nat × Nat),
          OpenList vm1.heap head l → u ∈ l → ∃ closed next,
            vm1.heap.get u.1 = some (.OBJ_UPVALUE (.stack u.2) closed next) := by
        intro l
        induction l with
        | nil => intro _ _ _ h; cases h
        | cons y rest ih =>
          intro head u h hm
          cases head with
          | none => exact absurd h (by simp [OpenList])
          | some p =>
            obtain ⟨hp, c, n, hg, hr⟩ := h
            rcases List.mem_cons.mp hm with e | hr1
            · rw [e, ← hp]; exact ⟨c, n, hg⟩
            · exact ih n u hr hr1
      exact hgen _ _ _ h2 hmem
  · intro vmA0 vmA a upvalue location closed next hread hfu hg
    obtain ⟨vmA1, hw, hr, hopen, _⟩ := writeLocation_spec vmA upvalue (vmA.peek 0) location
      closed next hg
    refine ⟨vmA1, ?_, hr, fun s e => (hopen s e).1, ?_⟩
    · simp only [run_OP_SET_UPVALUE, hread, hfu, hw, Step.ofOption]
    · intro vmB0 vmB b hreadB hfuB hh hst
      simp only [run_OP_GET_UPVALUE, hreadB, hfuB, readLocation_congr vmA1 vmB upvalue hh hst, hr]

/-- C24 on the state `upvalueVM`, whose open upvalues are 7 (slot 3) and 6
(slot 2).  Capturing slot 2 returns the upvalue 6 and changes nothing.  In a
call of `g`, whose upvalue 0 is the upvalue 6, `OP_SET_UPVALUE 0` with 42 on
top of the stack stores 42 into slot 2, and in a call of `h`, whose upvalue 0
is the upvalue 6 too, `OP_GET_UPVALUE 0` then pushes 42. -/
theorem C24_captureUpvalue_witness :
    (captureUpvalue upvalueVM 2 = some (6, upvalueVM) ∧
      upvalueVM.slot 2 = doubleOne ∧
      (run_OP_SET_UPVALUE (inCall upvalueVM 5 3 doubleFortyTwo)).state.map (fun vm => vm.slot 2)
        = some doubleFortyTwo ∧
      ((run_OP_SET_UPVALUE (inCall upvalueVM 5 3 doubleFortyTwo)).state.bind fun vm =>
        (run_OP_GET_UPVALUE (inCall { vm with frames := upvalueVM.frames } 9 1 NIL_VAL)).top)
        = some doubleFortyTwo) ∧
    ((∀ u ∈ ([(7, 3), (6, 2)] : List (Nat × Nat)), u.2 = 2 →
      captureUpvalue upvalueVM 2 = some (u.1, upvalueVM)) ∧
    ((∀ x ∈ ([(7, 3), (6, 2)] : List (Nat × Nat)), x.2 ≠ 2) →
      ∃ vm1 hi lo, [(7, 3), (6, 2)] = hi ++ lo ∧ (∀ x ∈ hi, 2 < x.2) ∧ (∀ x ∈ lo, x.2 < 2) ∧
        upvalueVM.heap.get upvalueVM.heap.length = none ∧
        captureUpvalue upvalueVM 2 = some (upvalueVM.heap.length, vm1) ∧
        OpenList vm1.heap vm1.openUpvalues (hi ++ (upvalueVM.heap.length, 2) :: lo) ∧
        OpenSorted (hi ++ (upvalueVM.heap.length, 2) :: lo) ∧
        CaptureFrame upvalueVM vm1 none hi) ∧
    (∃ upvalue vm1, captureUpvalue upvalueVM 2 = some (upvalue, vm1) ∧
      captureUpvalue vm1 2 = some (upvalue, vm1) ∧
      ∃ closed next, vm1.heap.get upvalue = some (.OBJ_UPVALUE (.stack 2) closed next)) ∧
    (∀ (vmA0 vmA : VM) (a upvalue : Nat) (location : UpvalueLocation) (closed : Nat)
        (next : Option Nat),
      READ_BYTE vmA0 = some (a, vmA) → frameUpvalue vmA a = some (some upvalue) →
      vmA.heap.get upvalue = some (.OBJ_UPVALUE location closed next) →
      ∃ vmA1, run_OP_SET_UPVALUE vmA0 = .next vmA1 ∧
        readLocation vmA1 upvalue = some (vmA.peek 0) ∧
        (∀ s, location = .stack s → vmA1.slot s = vmA.peek 0) ∧
        ∀ (vmB0 vmB : VM) (b : Nat), READ_BYTE vmB0 = some (b, vmB) →
          frameUpvalue vmB b = some (some upvalue) →
          vmB.heap = vmA1.heap → vmB.stack = vmA1.stack →
          run_OP_GET_UPVALUE vmB0 = .next (push vmB (vmA.peek 0)))) :=
  ⟨⟨by decide, by decide, by decide, by decide⟩,
    C24_captureUpvalue upvalueVM 2 [(7, 3), (6, 2)] OpenList_upvalueVM OpenSorted_upvalueVM⟩

end Loxj

/-! # Upvalues: `closeUpvalues` (C25) -/

namespace Loxj

/-- C25: `closeUpvalues(last)` on a sorted list of open upvalues.  It
returns; every upvalue of the list whose slot is at `last` or above is closed
and holds the value its stack slot held, which is what `OP_GET_UPVALUE` then
pushes through it from the closure of any frame; the open list afterwards
consists of the upvalues whose slot is below `last`, in the order of before,
each as it was; and no other object, nor the stack, has changed. -/
theorem C25_closeUpvalues (vm : VM) (last : Nat) (l : List (Nat × Nat))
    (hl : OpenList vm.heap vm.openUpvalues l) (hs : OpenSorted l) :
    ∃ vm1, closeUpvalues vm last = some vm1 ∧
      (∀ x ∈ l, last ≤ x.2 →
        (∃ next, vm1.heap.get x.1 = some (.OBJ_UPVALUE .closed (vm.slot x.2) next)) ∧
        readLocation vm1 x.1 = some (vm.slot x.2) ∧
        ∀ (vmB0 vmB : VM) (b : Nat), READ_BYTE vmB0 = some (b, vmB) →
          frameUpvalue vmB b = some (some x.1) → vmB.heap = vm1.heap →
          run_OP_GET_UPVALUE vmB0 = .next (push vmB (vm.slot x.2))) ∧
      OpenList vm1.heap vm1.openUpvalues (l.filter fun x => decide (x.2 < last)) ∧
      (∀ x ∈ l, x.2 < last → vm1.heap.get x.1 = vm.heap.get x.1) ∧
      (∀ q, (∀ x ∈ l, x.1 ≠ q) → vm1.heap.get q = vm.heap.get q) ∧
      vm1.stack = vm.stack ∧ vm1.stackTop = vm.stackTop ∧ vm1.frames = vm.frames ∧
      vm1.heap.length = vm.heap.length := by
  obtain ⟨vm1, h1, h2, _, h4, h5, h6, h7, h8, _, _, h11⟩ := closeUpvalues_spec vm last l hl hs
  have hnd := OpenList_nodup vm.heap l _ hl hs
  refine ⟨vm1, h1, ?_, ?_, ?_, ?_, h6, h7, h8, h11⟩
  · intro x hx hle
    obtain ⟨next, hn⟩ := h4 x (mem_takeWhile_of_sorted last l hs x hx hle)
    have hr : readLocation vm1 x.1 = some (vm.slot x.2) := by
      simp only [readLocation, hn]
    refine ⟨⟨next, hn⟩, hr, ?_⟩
    intro vmB0 vmB b hread hfu hh
    have hrB : readLocation vmB x.1 = some (vm.slot x.2) := by
      simp only [readLocation, hh, hn]
    simp only [run_OP_GET_UPVALUE, hread, hfu, hrB]
  · rw [← dropWhile_eq_filter last l hs]
    exact h2
  · intro x hx hlt
    apply h5
    intro y hy e
    have hym : y ∈ l := List.takeWhile_subset _ hy
    have hyle : last ≤ y.2 := by simpa using List.mem_takeWhile_imp hy
    have hxy : x = y := by
      have hinj := List.inj_on_of_nodup_map hnd hx hym
      exact hinj e.symm
    rw [hxy] at hlt
    omega
  · intro q hq
    exact h5 q (fun x hx => hq x (List.takeWhile_subset _ hx))

/-- C25 on the state `upvalueVM`, whose open upvalues are 7 (slot 3, where
the stack holds 42) and 6 (slot 2): `closeUpvalues` from slot 3 closes the
upvalue 7 with the value 42 and leaves the upvalue 6 open. -/
theorem C25_closeUpvalues_witness :
    ((closeUpvalues upvalueVM 3).map (fun vm1 =>
        (vm1.openUpvalues, vm1.heap.get 7, vm1.heap.get 6)) =
      some (some 6, some (.OBJ_UPVALUE .closed doubleFortyTwo (some 6)),
        some (.OBJ_UPVALUE (.stack 2) NIL_VAL none))) ∧
    ∃ vm1, closeUpvalues upvalueVM 3 = some vm1 ∧
      (∀ x ∈ ([(7, 3), (6, 2)] : List (Nat × Nat)), 3 ≤ x.2 →
        (∃ next, vm1.heap.get x.1 = some (.OBJ_UPVALUE .closed (upvalueVM.slot x.2) next)) ∧
        readLocation vm1 x.1 = some (upvalueVM.slot x.2) ∧
        ∀ (vmB0 vmB : VM) (b : Nat), READ_BYTE vmB0 = some (b, vmB) →
          frameUpvalue vmB b = some (some x.1) → vmB.heap = vm1.heap →
          run_OP_GET_UPVALUE vmB0 = .next (push vmB (upvalueVM.slot x.2))) ∧
      OpenList vm1.heap vm1.openUpvalues
        (([(7, 3), (6, 2)] : List (Nat × Nat)).filter fun x => decide (x.2 < 3)) ∧
      (∀ x ∈ ([(7, 3), (6, 2)] : List (Nat × Nat)), x.2 < 3 →
        vm1.heap.get x.1 = upvalueVM.heap.get x.1) ∧
      (∀ q, (∀ x ∈ ([(7, 3), (6, 2)] : List (Nat × Nat)), x.1 ≠ q) →
        vm1.heap.get q = upvalueVM.heap.get q) ∧
      vm1.stack = upvalueVM.stack ∧ vm1.stackTop = upvalueVM.stackTop ∧
      vm1.frames = upvalueVM.frames ∧ vm1.heap.length = upvalueVM.heap.length :=
  ⟨by decide,
    C25_closeUpvalues upvalueVM 3 [(7, 3), (6, 2)] OpenList_upvalueVM OpenSorted_upvalueVM⟩

end Loxj

/-! # Calls: `OP_INVOKE` and the unfused sequence (C22) -/

namespace Loxj

/-! ### The stack memory -/

theorem storeAt_length (stack : List Nat) (i v : Nat) :
    (storeAt stack i v).length = max stack.length (i + 1) := by
  unfold storeAt
  split
  · rw [List.length_set]; omega
  · simp only [List.length_append, List.length_replicate, List.length_singleton]; omega

theorem getD_of_length_le (l : List Nat) (k : Nat) (h : l.length ≤ k) : l.getD k 0 = 0 := by
  rw [List.getD_eq_getElem?_getD, List.getElem?_eq_none h]; rfl

/-- Two stack memories with the same length and the same slots are equal. -/
theorem stack_ext (a b : List Nat) (hl : a.length = b.length)
    (h : ∀ k, a.getD k 0 = b.getD k 0) : a = b := by
  apply List.ext_getElem? 
  intro k
  by_cases hk : k < a.length
  · have hk2 : k < b.length := by omega
    have := h k
    rw [List.getD_eq_getElem?_getD, List.getD_eq_getElem?_getD, List.getElem?_eq_getElem hk,
      List.getElem?_eq_getElem hk2] at this
    rw [List.getElem?_eq_getElem hk, List.getElem?_eq_getElem hk2]
    exact congrArg some this
  · rw [List.getElem?_eq_none (by omega), List.getElem?_eq_none (by omega)]

theorem storeAt_getD (stack : List Nat) (i v k : Nat) :
    (storeAt stack i v).getD k 0 = if k = i then v else stack.getD k 0 := by
  by_cases h : k = i
  · rw [if_pos h, h]; exact storeAt_getD_self stack i v
  · rw [if_neg h]; exact storeAt_getD_ne stack i k v h

theorem storeAt_comm (stack : List Nat) (i j v w : Nat) (h : i ≠ j) :
    storeAt (storeAt stack i v) j w = storeAt (storeAt stack j w) i v := by
  apply stack_ext
  · simp only [storeAt_length]; omega
  · intro k
    simp only [storeAt_getD]
    by_cases h1 : k = j
    · subst h1
      rw [if_pos rfl, if_neg (Ne.symm h), if_pos rfl]
    · rw [if_neg h1, if_neg h1]

theorem storeAt_storeAt (stack : List Nat) (i v w : Nat) :
    storeAt (storeAt stack i v) i w = storeAt stack i w := by
  apply stack_ext
  · simp only [storeAt_length]; omega
  · intro k
    simp only [storeAt_getD]
    split <;> rfl

theorem storeAt_self (stack : List Nat) (i : Nat) (h : i < stack.length) :
    storeAt stack i (stack.getD i 0) = stack := by
  apply stack_ext
  · simp only [storeAt_length]; omega
  · intro k
    simp only [storeAt_getD]
    split
    · rename_i e; rw [e]
    · rfl

/-! ### Pushing the arguments -/

theorem pushAll_cons (vm : VM) (a : Nat) (rest : List Nat) :
    pushAll vm (a :: rest) = pushAll (push vm a) rest := rfl

theorem pushAll_fields (args : List Nat) :
    ∀ vm : VM, (pushAll vm args).heap = vm.heap ∧ (pushAll vm args).frames = vm.frames ∧
      (pushAll vm args).objects = vm.objects ∧ (pushAll vm args).globals = vm.globals ∧
      (pushAll vm args).strings = vm.strings ∧ (pushAll vm args).initString = vm.initString ∧
      (pushAll vm args).openUpvalues = vm.openUpvalues ∧ (pushAll vm args).stderr = vm.stderr ∧
      (pushAll vm args).stackTop = vm.stackTop + args.length ∧
      vm.stack.length ≤ (pushAll vm args).stack.length ∧
      ∀ k, k < vm.stackTop → (pushAll vm args).slot k = vm.slot k := by
  induction args with
  | nil => intro vm; exact ⟨rfl, rfl, rfl, rfl, rfl, rfl, rfl, rfl, rfl, Nat.le_refl _, fun _ _ => rfl⟩
  | cons a rest ih =>
    intro vm
    obtain ⟨h1, h2, h3, h4, h5, h6, h7, h8, h9, h10, h11⟩ := ih (push vm a)
    rw [pushAll_cons]
    refine ⟨h1, h2, h3, h4, h5, h6, h7, h8, ?_, ?_, ?_⟩
    · rw [h9]; simp only [push, List.length_cons]; omega
    · refine Nat.le_trans ?_ h10
      simp only [push, storeAt_length]; omega
    · intro k hk
      rw [h11 k (by simp only [push]; omega)]
      exact push_slot_ne vm a k (by omega)

/-- Pushing the arguments on a state in which a slot below the top, the
heap and the object list have been assigned. -/
theorem pushAll_update (heap : Heap) (objects : List Nat) (i v : Nat) (args : List Nat) :
    ∀ vm : VM, i < vm.stackTop →
      pushAll { vm with heap := heap, objects := objects, stack := storeAt vm.stack i v } args =
        { pushAll vm args with heap := heap, objects := objects,
                               stack := storeAt (pushAll vm args).stack i v } := by
  induction args with
  | nil => intro vm _; rfl
  | cons a rest ih =>
    intro vm hi
    rw [pushAll_cons, pushAll_cons, ← ih (push vm a) (by simp only [push]; omega)]
    congr 1
    simp only [push]
    rw [storeAt_comm vm.stack i vm.stackTop v a (by omega)]

/-! ### Allocating a bound method changes no call -/

theorem Heap.get_append_cell (heap : Heap) (cell : HeapCell) (p : Nat) :
    Heap.get (heap ++ [some cell]) p = if p = heap.length then some cell.obj else heap.get p := by
  rcases Nat.lt_trichotomy p heap.length with h | h | h
  · rw [Heap.get_append_lt _ _ _ h, if_neg (by omega)]
  · subst h
    rw [Heap.get_append_length, if_pos rfl]
  · rw [if_neg (by omega)]
    have h1 : Heap.get (heap ++ [some cell]) p = none := by
      simp only [Heap.get, List.getD_eq_getElem?_getD]
      rw [List.getElem?_eq_none (by simp; omega)]; rfl
    have h2 : Heap.get heap p = none := by
      simp only [Heap.get, List.getD_eq_getElem?_getD]
      rw [List.getElem?_eq_none (by omega)]; rfl
    rw [h1, h2]

theorem Heap.string_append_bound (heap : Heap) (r m p : Nat) :
    Heap.string (heap ++ [some ⟨false, .OBJ_BOUND_METHOD r m⟩]) p = Heap.string heap p := by
  unfold Heap.string
  rw [Heap.get_append_cell]
  by_cases e : p = heap.length
  · rw [if_pos e, e, Heap.get_length]
  · rw [if_neg e]

theorem closureFunction_append_bound (heap : Heap) (r m c : Nat) :
    Heap.closureFunction (heap ++ [some ⟨false, .OBJ_BOUND_METHOD r m⟩]) c =
      Heap.closureFunction heap c := by
  unfold Heap.closureFunction
  rw [Heap.get_append_cell]
  by_cases hc : c = heap.length
  · rw [if_pos hc, hc, Heap.get_length]
  · rw [if_neg hc]
    cases hg : heap.get c with
    | none => rfl
    | some obj =>
      cases obj with
      | OBJ_CLOSURE f ups n =>
        simp only
        rw [Heap.get_append_cell]
        by_cases hf : f = heap.length
        · rw [if_pos hf, hf, Heap.get_length]
        · rw [if_neg hf]
      | _ => rfl

theorem traceLine_append_bound (heap : Heap) (r m : Nat) (frame : CallFrame) :
    traceLine (heap ++ [some ⟨false, .OBJ_BOUND_METHOD r m⟩]) frame = traceLine heap frame := by
  simp only [traceLine, closureFunction_append_bound, Heap.string_append_bound]

theorem stackTrace_append_bound (heap : Heap) (r m : Nat) :
    ∀ frames : List CallFrame,
      stackTrace (heap ++ [some ⟨false, .OBJ_BOUND_METHOD r m⟩]) frames =
        stackTrace heap frames := by
  intro frames
  induction frames with
  | nil => rfl
  | cons f rest ih => simp only [stackTrace, traceLine_append_bound, ih]

/-- The function `call` in a state with one more bound method on the heap:
the result is the same, with that object on the heap. -/
theorem call_append_bound (vm : VM) (r m : Nat) (objects : List Nat) (c argCount : Nat) :
    call { vm with heap := vm.heap ++ [some ⟨false, .OBJ_BOUND_METHOD r m⟩],
                   objects := objects } c argCount =
      (call vm c argCount).map fun x =>
        (x.1, { x.2 with heap := x.2.heap ++ [some ⟨false, .OBJ_BOUND_METHOD r m⟩],
                         objects := objects }) := by
  simp only [call, closureFunction_append_bound, runtimeError, stackTrace_append_bound,
    VM.frameCount]
  cases hcf : vm.heap.closureFunction c with
  | none => rfl
  | some f =>
    obtain ⟨nm, arity, ch⟩ := f
    simp only
    split
    · cases stackTrace vm.heap vm.frames.reverse <;> rfl
    · split
      · cases stackTrace vm.heap vm.frames.reverse <;> rfl
      · rfl

theorem tableGet_append_bound (heap : Heap) (r m : Nat) (t : Table) (key : Nat) :
    tableGet (heap ++ [some ⟨false, .OBJ_BOUND_METHOD r m⟩]) t key = tableGet heap t key := by
  simp only [tableGet, findEntry, Heap.string_append_bound]

theorem tableGet_of_Live (heap : Heap) (t : Table) (key v : Nat) (s : Nat × Nat × List Char)
    (hinv : TableInv heap t) (hs : heap.string key = some s) (h : Live t.entries key v) :
    tableGet heap t key = some (some v) := by
  obtain ⟨r, hr, hiff⟩ := tableGet_spec heap t key s hinv hs
  rw [hr, (hiff v).mpr h]

theorem tableGet_of_not_Live (heap : Heap) (t : Table) (key : Nat) (s : Nat × Nat × List Char)
    (hinv : TableInv heap t) (hs : heap.string key = some s)
    (h : ∀ v, ¬ Live t.entries key v) : tableGet heap t key = some none := by
  obtain ⟨r, hr, hiff⟩ := tableGet_spec heap t key s hinv hs
  rw [hr]
  cases r with
  | none => rfl
  | some v => exact absurd ((hiff v).mp rfl) (h v)

theorem pushAll_store (i v : Nat) (args : List Nat) :
    ∀ vm : VM, i < vm.stackTop →
      pushAll { vm with stack := storeAt vm.stack i v } args =
        { pushAll vm args with stack := storeAt (pushAll vm args).stack i v } := by
  induction args with
  | nil => intro vm _; rfl
  | cons a rest ih =>
    intro vm hi
    rw [pushAll_cons, pushAll_cons, ← ih (push vm a) (by simp only [push]; omega)]
    congr 1
    simp only [push]
    rw [storeAt_comm vm.stack i vm.stackTop v a (by omega)]

theorem push_pop (vm : VM) (v : Nat) (h : 1 ≤ vm.stackTop) :
    push (pop vm).2 v = { vm with stack := storeAt vm.stack (vm.stackTop - 1) v } := by
  have e : vm.stackTop - 1 + 1 = vm.stackTop := by omega
  simp only [push, pop, e]

/-- The receiver under the pushed arguments. -/
theorem pushAll_peek (vm : VM) (args : List Nat) (h : 1 ≤ vm.stackTop) :
    (pushAll vm args).peek args.length = vm.peek 0 := by
  obtain ⟨_, _, _, _, _, _, _, _, h9, _, h11⟩ := pushAll_fields args vm
  show (pushAll vm args).slot ((pushAll vm args).stackTop - 1 - args.length) =
    vm.slot (vm.stackTop - 1 - 0)
  rw [h9, ← h11 (vm.stackTop - 1 - 0) (by omega)]
  congr 1
  omega

/-! ### The opcodes and the functions they call -/

theorem run_OP_INVOKE_eq (natives : Natives) (vm0 vm1 vm2 : VM) (name argCount : Nat)
    (h1 : READ_STRING vm0 = some (name, vm1)) (h2 : READ_BYTE vm1 = some (argCount, vm2)) :
    run_OP_INVOKE natives vm0 = Step.ofCall (invoke natives vm2 name argCount) := by
  simp only [run_OP_INVOKE, h1, h2]
  cases h : invoke natives vm2 name argCount with
  | none => rfl
  | some r => obtain ⟨b, vm3⟩ := r; cases b <;> rfl

theorem run_OP_CALL_eq (natives : Natives) (vm0 vm1 : VM) (argCount : Nat)
    (h1 : READ_BYTE vm0 = some (argCount, vm1)) :
    run_OP_CALL natives vm0 =
      Step.ofCall (callValue natives vm1 (vm1.peek argCount) argCount) := by
  simp only [run_OP_CALL, h1]
  cases h : callValue natives vm1 (vm1.peek argCount) argCount with
  | none => rfl
  | some r => obtain ⟨b, vm3⟩ := r; cases b <;> rfl

theorem run_OP_GET_PROPERTY_eq (vm0 vm1 : VM) (name : Nat)
    (hi : isObjType vm0.heap (vm0.peek 0) .OBJ_INSTANCE = some true)
    (h1 : READ_STRING vm0 = some (name, vm1)) :
    run_OP_GET_PROPERTY vm0 = Step.ofCall (getProperty vm1 name) := by
  obtain ⟨ip, _, hvm⟩ := READ_STRING_eq vm0 vm1 name h1
  have hheap : vm1.heap = vm0.heap := by rw [hvm]; exact (setIp_fields vm0 _).1
  have hpeek : vm1.peek 0 = vm0.peek 0 := by rw [hvm]; exact setIp_peek vm0 _ 0
  simp only [run_OP_GET_PROPERTY, getProperty, hheap, hpeek, hi, h1]
  cases hg : vm0.heap.get (AS_OBJ (vm0.peek 0)) with
  | none => rfl
  | some obj =>
    cases obj with
    | OBJ_INSTANCE klass fields =>
      simp only
      cases ht : tableGet vm0.heap fields name with
      | none => rfl
      | some r =>
        cases r with
        | some value => rfl
        | none =>
          simp only
          cases hb : bindMethod vm1 klass name with
          | none => rfl
          | some r => obtain ⟨b, vm3⟩ := r; cases b <;> rfl
    | _ => rfl

/-- The fused sequence when the field table holds the name. -/
theorem fusedInvoke_field (natives : Natives) (vm : VM) (name : Nat) (args : List Nat)
    (klass : Nat) (fields : Table) (value : Nat)
    (htop : 1 ≤ vm.stackTop) (hobj : IS_OBJ (vm.peek 0) = true)
    (hinst : vm.heap.get (AS_OBJ (vm.peek 0)) = some (.OBJ_INSTANCE klass fields))
    (hget : tableGet vm.heap fields name = some (some value)) :
    fusedInvoke natives vm name args =
      callValue natives
        { pushAll vm args with
            stack := storeAt (pushAll vm args).stack (vm.stackTop - 1) value }
        value args.length := by
  obtain ⟨h1, _, _, _, _, _, _, _, h9, _, _⟩ := pushAll_fields args vm
  have hty : isObjType vm.heap (vm.peek 0) .OBJ_INSTANCE = some true := by
    rw [isObjType_of_get _ _ _ _ hobj hinst]; rfl
  have hidx : (pushAll vm args).stackTop - args.length - 1 = vm.stackTop - 1 := by
    rw [h9]; omega
  simp only [fusedInvoke, invoke, pushAll_peek vm args htop, h1, hty, hinst, hget, hidx]

/-- The unfused sequence when the field table holds the name. -/
theorem unfusedInvoke_field (natives : Natives) (vm : VM) (name : Nat) (args : List Nat)
    (klass : Nat) (fields : Table) (value : Nat)
    (htop : 1 ≤ vm.stackTop) (hobj : IS_OBJ (vm.peek 0) = true)
    (hinst : vm.heap.get (AS_OBJ (vm.peek 0)) = some (.OBJ_INSTANCE klass fields))
    (hget : tableGet vm.heap fields name = some (some value)) :
    unfusedInvoke natives vm name args =
      callValue natives
        { pushAll vm args with
            stack := storeAt (pushAll vm args).stack (vm.stackTop - 1) value }
        value args.length := by
  obtain ⟨h1, _, _, _, _, _, _, _, h9, _, _⟩ := pushAll_fields args vm
  have hty : isObjType vm.heap (vm.peek 0) .OBJ_INSTANCE = some true := by
    rw [isObjType_of_get _ _ _ _ hobj hinst]; rfl
  have hgp : getProperty vm name = some (true, push (pop vm).2 value) := by
    simp only [getProperty, hty, hinst, hget]
  have hpk : VM.peek { pushAll vm args with
      stack := storeAt (pushAll vm args).stack (vm.stackTop - 1) value } args.length = value := by
    show (storeAt (pushAll vm args).stack (vm.stackTop - 1) value).getD
      ((pushAll vm args).stackTop - 1 - args.length) 0 = value
    have e : (pushAll vm args).stackTop - 1 - args.length = vm.stackTop - 1 := by rw [h9]; omega
    rw [e]
    exact storeAt_getD_self _ _ _
  simp only [unfusedInvoke, hgp, Option.some_bind, if_true, push_pop vm value htop]
  rw [pushAll_store (vm.stackTop - 1) value args vm (by omega), hpk]

/-- The fused sequence when only the class holds the name. -/
theorem fusedInvoke_method (natives : Natives) (vm : VM) (name : Nat) (args : List Nat)
    (klass cname : Nat) (fields methods : Table) (method : Nat)
    (htop : 1 ≤ vm.stackTop) (hobj : IS_OBJ (vm.peek 0) = true)
    (hinst : vm.heap.get (AS_OBJ (vm.peek 0)) = some (.OBJ_INSTANCE klass fields))
    (hget : tableGet vm.heap fields name = some none)
    (hclass : vm.heap.get klass = some (.OBJ_CLASS cname methods))
    (hm : tableGet vm.heap methods name = some (some method)) :
    fusedInvoke natives vm name args = call (pushAll vm args) (AS_OBJ method) args.length := by
  obtain ⟨h1, _, _, _, _, _, _, _, h9, _, _⟩ := pushAll_fields args vm
  have hty : isObjType vm.heap (vm.peek 0) .OBJ_INSTANCE = some true := by
    rw [isObjType_of_get _ _ _ _ hobj hinst]; rfl
  simp only [fusedInvoke, invoke, invokeFromClass, pushAll_peek vm args htop, h1, hty, hinst,
    hget, hclass, hm]

/-- The unfused sequence when only the class holds the name: the call of the
fused sequence, with the bound method on the heap. -/
theorem unfusedInvoke_method (natives : Natives) (vm : VM) (name : Nat) (args : List Nat)
    (klass cname : Nat) (fields methods : Table) (method : Nat)
    (htop : 1 ≤ vm.stackTop) (hlen : vm.stackTop ≤ vm.stack.length)
    (hsize : vm.heap.length < 2 ^ 50) (hobj : IS_OBJ (vm.peek 0) = true)
    (hinst : vm.heap.get (AS_OBJ (vm.peek 0)) = some (.OBJ_INSTANCE klass fields))
    (hget : tableGet vm.heap fields name = some none)
    (hclass : vm.heap.get klass = some (.OBJ_CLASS cname methods))
    (hm : tableGet vm.heap methods name = some (some method)) :
    unfusedInvoke natives vm name args =
      (call (pushAll vm args) (AS_OBJ method) args.length).map fun r =>
        (r.1, { r.2 with
          heap := r.2.heap ++ [some ⟨false, .OBJ_BOUND_METHOD (vm.peek 0) (AS_OBJ method)⟩],
          objects := vm.heap.length :: vm.objects }) := by
  obtain ⟨h1, _, _, _, _, _, _, _, h9, h10, h11⟩ := pushAll_fields args vm
  have hty : isObjType vm.heap (vm.peek 0) .OBJ_INSTANCE = some true := by
    rw [isObjType_of_get _ _ _ _ hobj hinst]; rfl
  have hbm : bindMethod vm klass name = some (true,
      { vm with heap := vm.heap ++ [some ⟨false, .OBJ_BOUND_METHOD (vm.peek 0) (AS_OBJ method)⟩],
                objects := vm.heap.length :: vm.objects,
                stack := storeAt vm.stack (vm.stackTop - 1) (OBJ_VAL vm.heap.length) }) := by
    have e : vm.stackTop - 1 + 1 = vm.stackTop := by omega
    simp only [bindMethod, hclass, hm, newBoundMethod, allocateObject, push, pop, e]
  have hgp : getProperty vm name = bindMethod vm klass name := by
    simp only [getProperty, hty, hinst, hget]
  have hidx : (pushAll vm args).stackTop - 1 - args.length = vm.stackTop - 1 := by
    rw [h9]; omega
  have hidx2 : (pushAll vm args).stackTop - args.length - 1 = vm.stackTop - 1 := by
    rw [h9]; omega
  have hslot : (pushAll vm args).stack.getD (vm.stackTop - 1) 0 = vm.peek 0 :=
    h11 (vm.stackTop - 1) (by omega)
  have hstack : storeAt (storeAt (pushAll vm args).stack (vm.stackTop - 1)
      (OBJ_VAL vm.heap.length)) (vm.stackTop - 1) (vm.peek 0) = (pushAll vm args).stack := by
    rw [storeAt_storeAt, ← hslot]
    exact storeAt_self _ _ (by omega)
  simp only [unfusedInvoke, hgp, hbm, Option.some_bind, if_true]
  rw [pushAll_update _ _ (vm.stackTop - 1) _ args vm (by omega)]
  have hpk : VM.peek { pushAll vm args with
      heap := vm.heap ++ [some ⟨false, .OBJ_BOUND_METHOD (vm.peek 0) (AS_OBJ method)⟩],
      objects := vm.heap.length :: vm.objects,
      stack := storeAt (pushAll vm args).stack (vm.stackTop - 1) (OBJ_VAL vm.heap.length) }
      args.length = OBJ_VAL vm.heap.length := by
    show (storeAt (pushAll vm args).stack (vm.stackTop - 1) (OBJ_VAL vm.heap.length)).getD
      ((pushAll vm args).stackTop - 1 - args.length) 0 = _
    rw [hidx]
    exact storeAt_getD_self _ _ _
  rw [hpk]
  simp only [callValue, IS_OBJ_OBJ_VAL, if_true, AS_OBJ_OBJ_VAL _ hsize,
    Heap.get_append_length, hidx2, hstack]
  rw [← call_append_bound (pushAll vm args) (vm.peek 0) (AS_OBJ method)
    (vm.heap.length :: vm.objects) (AS_OBJ method) args.length, h1]

/-- The result of both sequences when neither the fields nor the class hold
the name: the error is reported from the state without the arguments in the
unfused sequence. -/
theorem invoke_undefined (natives : Natives) (vm : VM) (name : Nat) (args : List Nat)
    (klass cname : Nat) (fields methods : Table) (s : Nat × Nat × List Char)
    (htop : 1 ≤ vm.stackTop) (hobj : IS_OBJ (vm.peek 0) = true)
    (hinst : vm.heap.get (AS_OBJ (vm.peek 0)) = some (.OBJ_INSTANCE klass fields))
    (hname : vm.heap.string name = some s)
    (hget : tableGet vm.heap fields name = some none)
    (hclass : vm.heap.get klass = some (.OBJ_CLASS cname methods))
    (hm : tableGet vm.heap methods name = some none) :
    unfusedInvoke natives vm name args =
        (runtimeError vm ("Undefined property '" ++ cString s.2.2 ++ "'.")).map
          (fun x => (false, x)) ∧
      fusedInvoke natives vm name args =
        (runtimeError vm ("Undefined property '" ++ cString s.2.2 ++ "'.")).map
          (fun x => (false, { x with stack := (pushAll vm args).stack })) := by
  obtain ⟨h1, h2, h3, h4, h5, h6, _, h8, h9, _, _⟩ := pushAll_fields args vm
  have hty : isObjType vm.heap (vm.peek 0) .OBJ_INSTANCE = some true := by
    rw [isObjType_of_get _ _ _ _ hobj hinst]; rfl
  obtain ⟨len, hash, chars⟩ := s
  constructor
  · simp only [unfusedInvoke, getProperty, hty, hinst, hget, bindMethod, hclass, hm, hname]
    cases runtimeError vm ("Undefined property '" ++ cString chars ++ "'.") <;> rfl
  · simp only [fusedInvoke, invoke, invokeFromClass, pushAll_peek vm args htop, h1, hty, hinst,
      hget, hclass, hm, hname, runtimeError, h2, h8, h3, h4, h5, h6, resetStack]
    cases stackTrace vm.heap vm.frames.reverse <;> rfl

/-- C22: `OP_INVOKE name argCount` against `OP_GET_PROPERTY name`, the
arguments, `OP_CALL argCount`, for a receiver that is an instance, with the
arguments as values that are pushed.  The first three parts say that the
three cases of `run` apply `Step.ofCall` to `invoke`, `getProperty` and
`callValue` once their operands are read.  If the field table of the instance
holds `name`, both sequences return the same result in the same state, the one
of `callValue` on the field value with that value in the slot of the
receiver, whatever the class has.  Otherwise, if the method table of the class
holds `name`, the fused sequence is `call` on the method with the receiver
left in its slot, and the unfused sequence returns the same result in the
same state but for the bound method it has allocated.  If neither holds
`name`, both report `Undefined property` with the same trace and reset the
stack. -/
theorem C22_OP_INVOKE (natives : Natives) (vm : VM) (name : Nat) (args : List Nat)
    (klass : Nat) (fields : Table) (s : Nat × Nat × List Char)
    (htop : 1 ≤ vm.stackTop) (hlen : vm.stackTop ≤ vm.stack.length)
    (hsize : vm.heap.length < 2 ^ 50) (hobj : IS_OBJ (vm.peek 0) = true)
    (hinst : vm.heap.get (AS_OBJ (vm.peek 0)) = some (.OBJ_INSTANCE klass fields))
    (hfields : TableInv vm.heap fields) (hname : vm.heap.string name = some s) :
    (∀ vm0 vm1 vm2 argCount, READ_STRING vm0 = some (name, vm1) →
      READ_BYTE vm1 = some (argCount, vm2) →
      run_OP_INVOKE natives vm0 = Step.ofCall (invoke natives vm2 name argCount)) ∧
    (∀ vm0 vm1, isObjType vm0.heap (vm0.peek 0) .OBJ_INSTANCE = some true →
      READ_STRING vm0 = some (name, vm1) →
      run_OP_GET_PROPERTY vm0 = Step.ofCall (getProperty vm1 name)) ∧
    (∀ vm0 vm1 argCount, READ_BYTE vm0 = some (argCount, vm1) →
      run_OP_CALL natives vm0 =
        Step.ofCall (callValue natives vm1 (vm1.peek argCount) argCount)) ∧
    (∀ value, Live fields.entries name value →
      fusedInvoke natives vm name args = unfusedInvoke natives vm name args ∧
      fusedInvoke natives vm name args =
        callValue natives
          { pushAll vm args with
              stack := storeAt (pushAll vm args).stack (vm.stackTop - 1) value }
          value args.length) ∧
    ((∀ value, ¬Live fields.entries name value) →
      ∀ cname methods, vm.heap.get klass = some (.OBJ_CLASS cname methods) →
        TableInv vm.heap methods →
        (∀ method, Live methods.entries name method →
          fusedInvoke natives vm name args =
            call (pushAll vm args) (AS_OBJ method) args.length ∧
          unfusedInvoke natives vm name args =
            (fusedInvoke natives vm name args).map fun r =>
              (r.1, { r.2 with
                heap := r.2.heap ++
                  [some ⟨false, .OBJ_BOUND_METHOD (vm.peek 0) (AS_OBJ method)⟩],
                objects := vm.heap.length :: vm.objects })) ∧
        ((∀ method, ¬Live methods.entries name method) →
          unfusedInvoke natives vm name args =
              (runtimeError vm ("Undefined property '" ++ cString s.2.2 ++ "'.")).map
                (fun x => (false, x)) ∧
            fusedInvoke natives vm name args =
              (runtimeError vm ("Undefined property '" ++ cString s.2.2 ++ "'.")).map
                (fun x => (false, { x with stack := (pushAll vm args).stack })))) := by
  refine ⟨fun vm0 vm1 vm2 argCount h1 h2 => run_OP_INVOKE_eq natives vm0 vm1 vm2 name argCount h1 h2,
    fun vm0 vm1 hi h1 => run_OP_GET_PROPERTY_eq vm0 vm1 name hi h1,
    fun vm0 vm1 argCount h1 => run_OP_CALL_eq natives vm0 vm1 argCount h1, ?_, ?_⟩
  · intro value hlive
    have hget := tableGet_of_Live vm.heap fields name value s hfields hname hlive
    rw [fusedInvoke_field natives vm name args klass fields value htop hobj hinst hget,
      unfusedInvoke_field natives vm name args klass fields value htop hobj hinst hget]
    exact ⟨rfl, rfl⟩
  · intro hno cname methods hclass hmethods
    have hget := tableGet_of_not_Live vm.heap fields name s hfields hname hno
    constructor
    · intro method hlive
      have hm := tableGet_of_Live vm.heap methods name method s hmethods hname hlive
      rw [fusedInvoke_method natives vm name args klass cname fields methods method htop hobj
          hinst hget hclass hm,
        unfusedInvoke_method natives vm name args klass cname fields methods method htop hlen
          hsize hobj hinst hget hclass hm]
      exact ⟨rfl, rfl⟩
    · intro hnom
      have hm := tableGet_of_not_Live vm.heap methods name s hmethods hname hnom
      exact invoke_undefined natives vm name args klass cname fields methods s htop hobj hinst
        hname hget hclass hm

/-- C22 on `invokeVM 8`, whose receiver has the field `x` and whose class has
the method `x`: with one argument both sequences enter the closure the field
holds (6, one parameter), not the method (4, no parameter), in the same
state. -/
theorem C22_OP_INVOKE_witness :
    (fusedInvoke noNatives (invokeVM 8) 2 [doubleOne] =
      unfusedInvoke noNatives (invokeVM 8) 2 [doubleOne]) ∧
    ((fusedInvoke noNatives (invokeVM 8) 2 [doubleOne]).map fun r => (r.1, r.2.frames)) =
      some (true, [{ closure := 1, ip := 1, slots := 0 }, { closure := 6, ip := 0, slots := 1 }]) ∧
    ((unfusedInvoke noNatives (invokeVM 9) 2 []).map fun r => (r.1, r.2.frames, r.2.heap.length)) =
      some (true, [{ closure := 1, ip := 1, slots := 0 }, { closure := 4, ip := 0, slots := 1 }], 11) ∧
    ((fusedInvoke noNatives (invokeVM 9) 2 []).map fun r => (r.1, r.2.frames, r.2.heap.length)) =
      some (true, [{ closure := 1, ip := 1, slots := 0 }, { closure := 4, ip := 0, slots := 1 }], 10) := by
  have hx : (invokeVM 8).heap.string 2 = some (1, hashString "x".toList, "x".toList) := by decide
  have hf := singletonTable_spec (invokeVM 8).heap 2 (OBJ_VAL 6) _ hx
  have he : (invokeVM 8).heap.get (AS_OBJ ((invokeVM 8).peek 0)) =
      some (.OBJ_INSTANCE 7 (singletonTable (invokeVM 8).heap 2 (OBJ_VAL 6))) := by decide
  exact ⟨((C22_OP_INVOKE noNatives (invokeVM 8) 2 [doubleOne] 7
      (singletonTable (invokeVM 8).heap 2 (OBJ_VAL 6)) _ (by decide) (by decide) (by decide)
      (by decide) he hf.1 hx).2.2.2.1 (OBJ_VAL 6) ((hf.2 _ _).mpr ⟨rfl, rfl⟩)).1,
    by decide, by decide, by decide⟩

end Loxj

/-! # Compiler: what the emitters write -/

namespace Loxj

/-! ### The emitters on what is written and reported -/

theorem Compilation.emission_eq_some (c : Compilation) (function : Nat) (e : Emission)
    (h : c.emission function = some e) :
    ∃ name arity chunk uc, c.vm.heap.get function = some (.OBJ_FUNCTION name arity chunk uc) ∧
      chunk.code = e.code ∧ chunk.constants = e.constants ∧ c.parser.hadError = e.hadError ∧
      c.parser.panicMode = e.panicMode ∧ c.reported = e.reported := by
  unfold Compilation.emission at h
  cases hg : c.vm.heap.get function with
  | none => rw [hg] at h; cases h
  | some obj =>
    rw [hg] at h
    cases obj with
    | OBJ_FUNCTION name arity chunk uc =>
      simp only [Option.some.injEq] at h
      subst h
      exact ⟨name, arity, chunk, uc, rfl, rfl, rfl, rfl, rfl, rfl⟩
    | _ => cases h

theorem Compilation.emission_of_get (c : Compilation) (function : Nat) (name : Option Nat)
    (arity uc : Nat) (chunk : Chunk)
    (h : c.vm.heap.get function = some (.OBJ_FUNCTION name arity chunk uc)) :
    c.emission function =
      some { code := chunk.code, constants := chunk.constants, hadError := c.parser.hadError,
             panicMode := c.parser.panicMode, reported := c.reported } := by
  simp only [Compilation.emission, h]

theorem Compilation.emitByte_emission (c : Compilation) (compiler : Compiler)
    (enclosing : List Compiler) (e : Emission) (byte : Nat)
    (hcur : c.currentCompiler = compiler :: enclosing)
    (hem : c.emission compiler.function = some e) :
    ∃ c1, c.emitByte byte = some c1 ∧ c1.currentCompiler = compiler :: enclosing ∧
      c1.emission compiler.function = some (e.emitByte byte) ∧
      c1.parser.line = c.parser.line := by
  obtain ⟨name, arity, chunk, uc, hget, h1, h2, h3, h4, h5⟩ :=
    c.emission_eq_some compiler.function e hem
  obtain ⟨c1, hc1, hcur1, hget1, hpar, hrep, _⟩ :=
    c.emitByte_spec compiler enclosing name arity chunk uc byte hcur hget
  refine ⟨c1, hc1, hcur1, ?_, by rw [hpar]⟩
  rw [c1.emission_of_get _ _ _ _ _ hget1, hpar, hrep, h3, h4, h5]
  simp only [writeChunk, Emission.emitByte, h1, h2]

theorem Compilation.error_emission (c : Compilation) (function : Nat) (e : Emission)
    (message : String) (hem : c.emission function = some e) :
    (c.error message).emission function = some (e.error message) ∧
      (c.error message).currentCompiler = c.currentCompiler ∧
      (c.error message).parser.line = c.parser.line := by
  obtain ⟨name, arity, chunk, uc, hget, h1, h2, h3, h4, h5⟩ :=
    c.emission_eq_some function e hem
  obtain ⟨e1, e2, e3, _⟩ := c.error_frame message
  refine ⟨?_, e2, e3⟩
  have hget1 : (c.error message).vm.heap.get function =
      some (.OBJ_FUNCTION name arity chunk uc) := by rw [e1]; exact hget
  cases hp : c.parser.panicMode
  · obtain ⟨r1, r2, r3⟩ := c.error_reported message hp
    have hp2 : e.panicMode = false := by rw [← h4]; exact hp
    rw [(c.error message).emission_of_get _ _ _ _ _ hget1]
    simp only [Emission.error, hp2, r1, r2, r3, h1, h2, h5, Bool.false_eq_true, if_false]
  · have hp2 : e.panicMode = true := by rw [← h4]; exact hp
    rw [c.error_panic message hp, hem]
    simp only [Emission.error, hp2, if_true]

theorem Compilation.addConstant_emission (c : Compilation) (compiler : Compiler)
    (enclosing : List Compiler) (e : Emission) (value : Nat)
    (hcur : c.currentCompiler = compiler :: enclosing)
    (hem : c.emission compiler.function = some e) :
    ∃ c1, c.addConstant value = some (e.constants.length, c1) ∧
      c1.currentCompiler = compiler :: enclosing ∧
      c1.emission compiler.function = some { e with constants := e.constants ++ [value] } ∧
      c1.parser.line = c.parser.line := by
  obtain ⟨name, arity, chunk, uc, hget, h1, h2, h3, h4, h5⟩ :=
    c.emission_eq_some compiler.function e hem
  have hchunk := c.compilingChunk_eq compiler enclosing name arity chunk uc hcur hget
  obtain ⟨heap1, hheap1⟩ : ∃ h : Heap, h = c.vm.heap.setObj compiler.function
      (.OBJ_FUNCTION name arity { chunk with constants := chunk.constants ++ [value] } uc) :=
    ⟨_, rfl⟩
  obtain ⟨c2, hc2⟩ : ∃ c2 : Compilation, c2 =
      { c with vm := (pop { push c.vm value with heap := heap1 }).2 } := ⟨_, rfl⟩
  have hadd : c.addConstant value = some (chunk.constants.length, c2) := by
    simp only [Compilation.addConstant, hchunk, Option.some_bind, Compilation.setChunk, hcur]
    have : (push c.vm value).heap.get compiler.function =
        some (.OBJ_FUNCTION name arity chunk uc) := hget
    simp only [this, Option.map_some']
    rw [hc2, hheap1, hcur]
    rfl
  have hget2 : c2.vm.heap.get compiler.function = some (.OBJ_FUNCTION name arity
      { chunk with constants := chunk.constants ++ [value] } uc) := by
    rw [hc2]
    show heap1.get compiler.function = _
    rw [hheap1]
    exact Heap.setObj_get_self _ _ _ _ hget
  refine ⟨c2, by rw [hadd, h2], by rw [hc2]; exact hcur, ?_, by rw [hc2]⟩
  rw [c2.emission_of_get _ _ _ _ _ hget2]
  have hpar : c2.parser = c.parser := by rw [hc2]
  have hrep : c2.reported = c.reported := by rw [hc2]
  simp only [hpar, hrep, h1, h2, h3, h4, h5]

theorem Compilation.emitConstant_emission (c : Compilation) (compiler : Compiler)
    (enclosing : List Compiler) (e : Emission) (value : Nat)
    (hcur : c.currentCompiler = compiler :: enclosing)
    (hem : c.emission compiler.function = some e) :
    ∃ c1, c.emitConstant value = some c1 ∧ c1.currentCompiler = compiler :: enclosing ∧
      c1.emission compiler.function = some (e.emitConstant value) ∧
      c1.parser.line = c.parser.line := by
  obtain ⟨c1, h1, hcur1, hem1, hl1⟩ :=
    c.emitByte_emission compiler enclosing e OP_CONSTANT hcur hem
  obtain ⟨c2, h2, hcur2, hem2, hl2⟩ :=
    c1.addConstant_emission compiler enclosing _ value hcur1 hem1
  by_cases hlen : (e.emitByte OP_CONSTANT).constants.length > UINT8_MAX
  · obtain ⟨hem3, hcur3, hl3⟩ :=
      c2.error_emission compiler.function _ "Too many constants in one chunk." hem2
    obtain ⟨c4, h4, hcur4, hem4, hl4⟩ :=
      (c2.error "Too many constants in one chunk.").emitByte_emission compiler enclosing _ 0
        (by rw [hcur3]; exact hcur2) hem3
    refine ⟨c4, ?_, hcur4, ?_, by rw [hl4, hl3, hl2, hl1]⟩
    · simp only [Compilation.emitConstant, h1, Option.some_bind, Compilation.makeConstant, h2,
        Option.map_some', hlen, if_true, h4]
    · rw [hem4]
      simp only [Emission.emitConstant, hlen, if_true]
  · obtain ⟨c4, h4, hcur4, hem4, hl4⟩ :=
      c2.emitByte_emission compiler enclosing _ (e.emitByte OP_CONSTANT).constants.length
        hcur2 hem2
    refine ⟨c4, ?_, hcur4, ?_, by rw [hl4, hl2, hl1]⟩
    · simp only [Compilation.emitConstant, h1, Option.some_bind, Compilation.makeConstant, h2,
        Option.map_some', hlen, if_false, h4]
    · rw [hem4]
      simp only [Emission.emitConstant, hlen, if_false]

theorem Compilation.binaryOperator_emission (c : Compilation) (compiler : Compiler)
    (enclosing : List Compiler) (e : Emission) (operatorType : TokenType)
    (hcur : c.currentCompiler = compiler :: enclosing)
    (hem : c.emission compiler.function = some e) :
    ∃ c1, c.binaryOperator operatorType = some c1 ∧ c1.currentCompiler = compiler :: enclosing ∧
      c1.emission compiler.function = some (e.binaryOperator operatorType) ∧
      c1.parser.line = c.parser.line := by
  have one : ∀ byte, ∃ c1, c.emitByte byte = some c1 ∧
      c1.currentCompiler = compiler :: enclosing ∧
      c1.emission compiler.function = some (e.emitByte byte) ∧
      c1.parser.line = c.parser.line :=
    fun byte => c.emitByte_emission compiler enclosing e byte hcur hem
  have two : ∀ b1 b2, ∃ c1, ((c.emitByte b1).bind fun c => c.emitByte b2) = some c1 ∧
      c1.currentCompiler = compiler :: enclosing ∧
      c1.emission compiler.function = some ((e.emitByte b1).emitByte b2) ∧
      c1.parser.line = c.parser.line := by
    intro b1 b2
    obtain ⟨c1, h1, hcur1, hem1, hl1⟩ := one b1
    obtain ⟨c2, h2, hcur2, hem2, hl2⟩ :=
      c1.emitByte_emission compiler enclosing _ b2 hcur1 hem1
    exact ⟨c2, by rw [h1]; exact h2, hcur2, hem2, by rw [hl2, hl1]⟩
  cases operatorType <;>
    first
    | exact one _
    | exact two _ _
    | exact ⟨c, rfl, hcur, hem, rfl⟩

end Loxj

/-! # Compiler: the expression parser -/

namespace Loxj

/-! ### The parser functions, one call at a time -/

theorem Parsing.parsePrecedence_succ (strtod : TokenStart → Nat) (fuel : Nat) (p : Parsing)
    (precedence : Nat) :
    Parsing.parsePrecedence strtod (fuel + 1) p precedence =
      p.advance.bind fun p =>
        match (getRule p.previous.type).prefixRule with
        | none => some (p.error "Expect expression.")
        | some .number =>
          (p.number strtod).bind fun p =>
            (Parsing.infixLoop strtod fuel p precedence).bind fun p =>
              if precedence ≤ PREC_ASSIGNMENT then
                (p.«match» .TOKEN_EQUAL).map fun r =>
                  if r.1 then r.2.error "Invalid assignment target." else r.2
              else some p
        | some _ => none := by
  rfl

theorem Parsing.infixLoop_succ (strtod : TokenStart → Nat) (fuel : Nat) (p : Parsing)
    (precedence : Nat) :
    Parsing.infixLoop strtod (fuel + 1) p precedence =
      if (getRule p.current.type).precedence ≥ precedence then
        p.advance.bind fun p =>
          match (getRule p.previous.type).infixRule with
          | some .binary =>
            (Parsing.binary strtod fuel p).bind fun p => Parsing.infixLoop strtod fuel p precedence
          | _ => none
      else some p := by
  rfl

theorem Parsing.binary_succ (strtod : TokenStart → Nat) (fuel : Nat) (p : Parsing) :
    Parsing.binary strtod (fuel + 1) p =
      (Parsing.parsePrecedence strtod fuel p ((getRule p.previous.type).precedence + 1)).bind
        fun p1 => p1.emit fun c => c.binaryOperator p.previous.type := by
  rw [Parsing.binary]

theorem Parsing.At_congr (p p1 : Parsing) (stream : List Token)
    (hc : p1.current = p.current) (ht : p1.tokens = p.tokens) (h : p.At stream) :
    p1.At stream := by
  cases stream with
  | nil => exact h
  | cons token rest => exact ⟨by rw [hc]; exact h.1, by rw [ht]; exact h.2⟩

theorem Parsing.advance_spec (p : Parsing) (compiler : Compiler) (enclosing : List Compiler)
    (e : Emission) (token next : Token) (rest : List Token)
    (hw : p.Writes compiler enclosing e) (hat : p.At (token :: next :: rest))
    (heof : token.type ≠ .TOKEN_EOF) (herr : next.type ≠ .TOKEN_ERROR) :
    ∃ p1, p.advance = some p1 ∧ p1.At (next :: rest) ∧ p1.previous = token ∧
      p1.Writes compiler enclosing e := by
  obtain ⟨hcur, htok⟩ := hat
  have htok1 : p.tokens = next :: rest := by
    rw [htok]; simp only [tokensAfter, heof, if_false]
  refine ⟨{ compilation := { p.compilation with
                parser := { p.compilation.parser with line := p.current.line } },
            current := next, previous := p.current, tokens := tokensAfter next rest },
    ?_, ⟨rfl, rfl⟩, hcur, hw⟩
  simp only [Parsing.advance, htok1, Parsing.advanceLoop, herr, ne_eq, not_false_eq_true,
    if_true, Option.map_some', tokensAfter]

theorem Parsing.emit_spec (p : Parsing) (compiler : Compiler) (enclosing : List Compiler)
    (e1 : Emission) (f : Compilation → Option Compilation) (c1 : Compilation)
    (h : f p.compilation = some c1) (hcur : c1.currentCompiler = compiler :: enclosing)
    (hem : c1.emission compiler.function = some e1) :
    ∃ p1, p.emit f = some p1 ∧ p1.current = p.current ∧ p1.previous = p.previous ∧
      p1.tokens = p.tokens ∧ p1.Writes compiler enclosing e1 :=
  ⟨{ p with compilation := c1 }, by simp only [Parsing.emit, h, Option.map_some'], rfl, rfl, rfl,
    hcur, hem⟩

theorem Parsing.number_spec (strtod : TokenStart → Nat) (p : Parsing) (compiler : Compiler)
    (enclosing : List Compiler) (e : Emission) (hw : p.Writes compiler enclosing e) :
    ∃ p1, p.number strtod = some p1 ∧ p1.current = p.current ∧ p1.previous = p.previous ∧
      p1.tokens = p.tokens ∧
      p1.Writes compiler enclosing (e.emitConstant (strtod p.previous.start)) := by
  obtain ⟨c1, h1, hcur1, hem1, _⟩ :=
    p.compilation.emitConstant_emission compiler enclosing e (strtod p.previous.start) hw.1 hw.2
  exact p.emit_spec compiler enclosing _ _ c1 h1 hcur1 hem1

theorem Parsing.binaryOperator_spec (p : Parsing) (compiler : Compiler)
    (enclosing : List Compiler) (e : Emission) (operatorType : TokenType)
    (hw : p.Writes compiler enclosing e) :
    ∃ p1, (p.emit fun c => c.binaryOperator operatorType) = some p1 ∧ p1.current = p.current ∧
      p1.previous = p.previous ∧ p1.tokens = p.tokens ∧
      p1.Writes compiler enclosing (e.binaryOperator operatorType) := by
  obtain ⟨c1, h1, hcur1, hem1, _⟩ :=
    p.compilation.binaryOperator_emission compiler enclosing e operatorType hw.1 hw.2
  exact p.emit_spec compiler enclosing _ _ c1 h1 hcur1 hem1

/-- The loop of `parsePrecedence` ends at a token of lower precedence. -/
theorem Parsing.infixLoop_stop (strtod : TokenStart → Nat) (fuel : Nat) (p : Parsing)
    (precedence : Nat) (h : (getRule p.current.type).precedence < precedence) :
    Parsing.infixLoop strtod (fuel + 1) p precedence = some p := by
  rw [Parsing.infixLoop_succ, if_neg (by omega)]

/-- A number literal at a precedence above that of the token after it:
`parsePrecedence` compiles the literal and stops. -/
theorem Parsing.parsePrecedence_literal (strtod : TokenStart → Nat) (fuel : Nat) (p : Parsing)
    (compiler : Compiler) (enclosing : List Compiler) (e : Emission) (token next : Token)
    (rest : List Token) (precedence : Nat)
    (hw : p.Writes compiler enclosing e) (hat : p.At (token :: next :: rest))
    (hnum : token.type = .TOKEN_NUMBER) (herr : next.type ≠ .TOKEN_ERROR)
    (hprec : PREC_ASSIGNMENT < precedence) :
    ∃ p1, Parsing.parsePrecedence strtod (fuel + 1) p precedence =
        Parsing.infixLoop strtod fuel p1 precedence ∧
      p1.At (next :: rest) ∧ p1.previous = token ∧
      p1.Writes compiler enclosing (e.emitConstant (strtod token.start)) := by
  obtain ⟨p1, h1, hat1, hprev1, hw1⟩ := p.advance_spec compiler enclosing e token next rest hw hat
    (by rw [hnum]; decide) herr
  obtain ⟨p2, h2, hc2, hp2, ht2, hw2⟩ := p1.number_spec strtod compiler enclosing e hw1
  refine ⟨p2, ?_, p1.At_congr p2 _ hc2 ht2 hat1, by rw [hp2, hprev1], by rw [← hprev1]; exact hw2⟩
  have hrule : (getRule p1.previous.type).prefixRule = some .number := by
    rw [hprev1, hnum]; rfl
  rw [Parsing.parsePrecedence_succ, h1]
  simp only [Option.some_bind, hrule, h2]
  have hn : ¬ precedence ≤ PREC_ASSIGNMENT := by omega
  simp only [hn, if_false]
  cases Parsing.infixLoop strtod fuel p2 precedence <;> rfl

theorem isFactorOperator_rule (type : TokenType) (h : isFactorOperator type = true) :
    getRule type = ⟨none, some .binary, PREC_FACTOR⟩ ∧ type ≠ .TOKEN_EOF ∧
      type ≠ .TOKEN_ERROR := by
  cases type <;> simp [isFactorOperator] at h <;> exact ⟨rfl, by decide, by decide⟩

theorem isTermOperator_rule (type : TokenType) (h : isTermOperator type = true) :
    (getRule type).infixRule = some .binary ∧ (getRule type).precedence = PREC_TERM ∧
      type ≠ .TOKEN_EOF ∧ type ≠ .TOKEN_ERROR := by
  cases type <;> simp [isTermOperator] at h <;> exact ⟨rfl, rfl, by decide, by decide⟩

/-- One turn of the loop of `parsePrecedence` at an operator whose right
operand is a number literal followed by a token of lower precedence than the
operand is parsed at: the literal is compiled, then the operator. -/
theorem Parsing.infixLoop_literal (strtod : TokenStart → Nat) (fuel : Nat) (p : Parsing)
    (compiler : Compiler) (enclosing : List Compiler) (e : Emission)
    (operator number next : Token) (rest : List Token) (precedence : Nat)
    (hw : p.Writes compiler enclosing e) (hat : p.At (operator :: number :: next :: rest))
    (hop : isFactorOperator operator.type = true) (hnum : number.type = .TOKEN_NUMBER)
    (herr : next.type ≠ .TOKEN_ERROR) (hnext : (getRule next.type).precedence < PREC_UNARY)
    (hprec : precedence ≤ PREC_FACTOR) :
    ∃ p1, Parsing.infixLoop strtod (fuel + 4) p precedence =
        Parsing.infixLoop strtod (fuel + 3) p1 precedence ∧
      p1.At (next :: rest) ∧
      p1.Writes compiler enclosing
        ((e.emitConstant (strtod number.start)).binaryOperator operator.type) := by
  obtain ⟨hrule, heof, _⟩ := isFactorOperator_rule operator.type hop
  obtain ⟨p1, h1, hat1, hprev1, hw1⟩ :=
    p.advance_spec compiler enclosing e operator number (next :: rest) hw hat heof
      (by rw [hnum]; decide)
  obtain ⟨p2, h2, hat2, _, hw2⟩ :=
    Parsing.parsePrecedence_literal strtod (fuel + 1) p1 compiler enclosing e number next rest
      (PREC_FACTOR + 1) hw1 hat1 hnum herr (by decide)
  have hstop : Parsing.infixLoop strtod (fuel + 1) p2 (PREC_FACTOR + 1) = some p2 :=
    Parsing.infixLoop_stop strtod fuel p2 _ (by rw [hat2.1]; exact hnext)
  obtain ⟨p3, h3, hc3, _, ht3, hw3⟩ :=
    p2.binaryOperator_spec compiler enclosing _ operator.type hw2
  refine ⟨p3, ?_, p2.At_congr p3 _ hc3 ht3 hat2, hw3⟩
  have hge : (getRule p.current.type).precedence ≥ precedence := by
    rw [hat.1, hrule]; exact hprec
  have hbin : (getRule p1.previous.type).infixRule = some .binary := by
    rw [hprev1, hrule]
  have hp1 : (getRule p1.previous.type).precedence + 1 = PREC_FACTOR + 1 := by
    rw [hprev1, hrule]
  rw [show fuel + 4 = (fuel + 3) + 1 from rfl, Parsing.infixLoop_succ, if_pos hge, h1]
  simp only [Option.some_bind, hbin]
  rw [show fuel + 3 = (fuel + 2) + 1 from rfl, Parsing.binary_succ, hp1,
    show fuel + 2 = (fuel + 1) + 1 from rfl, h2, hstop]
  simp only [Option.some_bind, hprev1, h3]

/-- The first of the tokens that follow some pairs is an operator or the
token after them. -/
theorem operandTokens_head (rest : List (Token × Token)) (stop : Token) (more : List Token)
    (P : Token → Prop) (hrest : ∀ x ∈ rest, P x.1) (hstop : P stop) :
    ∃ next tail, operandTokens rest ++ stop :: more = next :: tail ∧ P next := by
  cases rest with
  | nil => exact ⟨stop, more, rfl, hstop⟩
  | cons y rest2 =>
    exact ⟨y.1, y.2 :: (operandTokens rest2 ++ stop :: more), rfl,
      hrest y (List.mem_cons_self _ _)⟩

/-- The loop of `parsePrecedence`, at the precedence of a factor or below,
over the pairs of `*` or `/` and a number literal that follow a left operand:
what is written is the code of the left-associative tree. -/
theorem Parsing.infixLoop_factors (strtod : TokenStart → Nat) (compiler : Compiler)
    (enclosing : List Compiler) (e0 : Emission) (precedence : Nat) (stop : Token)
    (more : List Token) (hprec : precedence ≤ PREC_FACTOR)
    (herr : stop.type ≠ .TOKEN_ERROR) (hstop : (getRule stop.type).precedence < PREC_UNARY) :
    ∀ (factors : List (Token × Token)),
      (∀ x ∈ factors, isFactorOperator x.1.type = true ∧ x.2.type = .TOKEN_NUMBER) →
      ∀ (fuel : Nat) (p : Parsing) (left : Arith),
        p.Writes compiler enclosing (left.emit strtod e0) →
        p.At (operandTokens factors ++ stop :: more) →
        ∃ p1, Parsing.infixLoop strtod (fuel + 3 + factors.length) p precedence =
            Parsing.infixLoop strtod (fuel + 3) p1 precedence ∧
          p1.At (stop :: more) ∧
          p1.Writes compiler enclosing
            ((factors.foldl (fun left x => Arith.binary x.1.type left (.number x.2)) left).emit
              strtod e0) := by
  intro factors
  induction factors with
  | nil => intro _ fuel p left hw hat; exact ⟨p, rfl, hat, hw⟩
  | cons x rest ih =>
    intro hwf fuel p left hw hat
    obtain ⟨hx1, hx2⟩ := hwf x (List.mem_cons_self _ _)
    have hwf2 : ∀ y ∈ rest, isFactorOperator y.1.type = true ∧ y.2.type = .TOKEN_NUMBER :=
      fun y hy => hwf y (List.mem_cons_of_mem _ hy)
    obtain ⟨next, tail, htail, hnext1, hnext2⟩ :=
      operandTokens_head rest stop more
        (fun t => t.type ≠ .TOKEN_ERROR ∧ (getRule t.type).precedence < PREC_UNARY)
        (fun y hy => by
          obtain ⟨hr, _, he⟩ := isFactorOperator_rule y.1.type (hwf2 y hy).1
          exact ⟨he, by rw [hr]; decide⟩)
        ⟨herr, hstop⟩
    have hat1 : p.At (x.1 :: x.2 :: next :: tail) := by
      rw [← htail]; exact hat
    obtain ⟨p1, h1, hat2, hw1⟩ :=
      Parsing.infixLoop_literal strtod (fuel + rest.length) p compiler enclosing _ x.1 x.2 next
        tail precedence hw hat1 hx1 hx2 hnext1 hnext2 hprec
    obtain ⟨p2, h2, hat3, hw2⟩ :=
      ih hwf2 fuel p1 (.binary x.1.type left (.number x.2)) hw1 (by rw [htail]; exact hat2)
    refine ⟨p2, ?_, hat3, hw2⟩
    rw [← h2, show fuel + 3 + rest.length = fuel + rest.length + 3 by omega, ← h1,
      List.length_cons,
      show fuel + 3 + (rest.length + 1) = fuel + rest.length + 4 by omega]

theorem termTokens_head (rest : List (Token × Token × List (Token × Token))) (stop : Token)
    (more : List Token) (P : Token → Prop) (hrest : ∀ x ∈ rest, P x.1) (hstop : P stop) :
    ∃ next tail, termTokens rest ++ stop :: more = next :: tail ∧ P next := by
  cases rest with
  | nil => exact ⟨stop, more, rfl, hstop⟩
  | cons y rest2 =>
    exact ⟨y.1, y.2.1 :: (operandTokens y.2.2 ++ termTokens rest2 ++ stop :: more), by
      simp only [termTokens, List.cons_append, List.append_assoc],
      hrest y (List.mem_cons_self _ _)⟩

/-- One turn of the loop of `parsePrecedence`, at the precedence of a term or
below, at a `+` or `-` that a term follows: the term is compiled by the call
of `parsePrecedence` in `binary`, then the operator. -/
theorem Parsing.infixLoop_term (strtod : TokenStart → Nat) (fuel : Nat) (p : Parsing)
    (compiler : Compiler) (enclosing : List Compiler) (e0 : Emission) (left : Arith)
    (operator number next : Token) (factors : List (Token × Token)) (tail : List Token)
    (precedence : Nat)
    (hw : p.Writes compiler enclosing (left.emit strtod e0))
    (hat : p.At (operator :: number :: (operandTokens factors ++ next :: tail)))
    (hop : isTermOperator operator.type = true) (hnum : number.type = .TOKEN_NUMBER)
    (hfactors : ∀ x ∈ factors, isFactorOperator x.1.type = true ∧ x.2.type = .TOKEN_NUMBER)
    (herr : next.type ≠ .TOKEN_ERROR) (hnext : (getRule next.type).precedence < PREC_FACTOR)
    (hprec : precedence ≤ PREC_TERM) (hfuel : factors.length + 5 ≤ fuel) :
    ∃ p1, Parsing.infixLoop strtod (fuel + 1) p precedence =
        Parsing.infixLoop strtod fuel p1 precedence ∧
      p1.At (next :: tail) ∧
      p1.Writes compiler enclosing
        ((Arith.binary operator.type left (termTree number factors)).emit strtod e0) := by
  obtain ⟨hbin, hrule, heof, _⟩ := isTermOperator_rule operator.type hop
  obtain ⟨f, hf⟩ : ∃ f, fuel = f + 3 + factors.length + 2 := ⟨fuel - factors.length - 5, by omega⟩
  obtain ⟨p1, h1, hat1, hprev1, hw1⟩ :=
    p.advance_spec compiler enclosing _ operator number (operandTokens factors ++ next :: tail)
      hw hat heof (by rw [hnum]; decide)
  obtain ⟨next2, tail2, htail2, hnext2⟩ :=
    operandTokens_head factors next tail (fun t => t.type ≠ .TOKEN_ERROR)
      (fun y hy => (isFactorOperator_rule y.1.type (hfactors y hy).1).2.2) herr
  obtain ⟨p2, h2, hat2, _, hw2⟩ :=
    Parsing.parsePrecedence_literal strtod (f + 3 + factors.length) p1 compiler enclosing _
      number next2 tail2 (PREC_TERM + 1) hw1 (by rw [← htail2]; exact hat1) hnum hnext2
      (by decide)
  obtain ⟨p3, h3, hat3, hw3⟩ :=
    Parsing.infixLoop_factors strtod compiler enclosing (left.emit strtod e0) (PREC_TERM + 1)
      next tail (by decide) herr (by
        have : PREC_FACTOR < PREC_UNARY := by decide
        omega)
      factors hfactors f p2 (.number number) hw2 (by rw [htail2]; exact hat2)
  have hstop : Parsing.infixLoop strtod (f + 3) p3 (PREC_TERM + 1) = some p3 :=
    Parsing.infixLoop_stop strtod (f + 2) p3 _ (by rw [hat3.1]; exact hnext)
  obtain ⟨p4, h4, hc4, _, ht4, hw4⟩ :=
    p3.binaryOperator_spec compiler enclosing _ operator.type hw3
  refine ⟨p4, ?_, p3.At_congr p4 _ hc4 ht4 hat3, hw4⟩
  have hge : (getRule p.current.type).precedence ≥ precedence := by
    rw [hat.1, hrule]; exact hprec
  have hinfix1 : (getRule p1.previous.type).infixRule = some .binary := by
    rw [hprev1, hbin]
  have hp1 : (getRule p1.previous.type).precedence + 1 = PREC_TERM + 1 := by
    rw [hprev1, hrule]
  rw [Parsing.infixLoop_succ, if_pos hge, h1]
  simp only [Option.some_bind, hinfix1]
  rw [hf, show f + 3 + factors.length + 2 = (f + 3 + factors.length + 1) + 1 from rfl,
    Parsing.binary_succ, hp1, h2, h3, hstop]
  simp only [Option.some_bind, hprev1, h4]

/-- The loop of `parsePrecedence`, at the precedence of a term or below, over
the terms that follow a left operand, each after a `+` or `-`: what is written
is the code of the left-associative tree. -/
theorem Parsing.infixLoop_terms (strtod : TokenStart → Nat) (compiler : Compiler)
    (enclosing : List Compiler) (e0 : Emission) (precedence : Nat) (stop : Token)
    (more : List Token) (bound : Nat) (hprec : precedence ≤ PREC_TERM)
    (herr : stop.type ≠ .TOKEN_ERROR) (hstop : (getRule stop.type).precedence < PREC_FACTOR) :
    ∀ (terms : List (Token × Token × List (Token × Token))),
      (∀ x ∈ terms, isTermOperator x.1.type = true ∧ x.2.1.type = .TOKEN_NUMBER ∧
        x.2.2.length ≤ bound ∧
        ∀ y ∈ x.2.2, isFactorOperator y.1.type = true ∧ y.2.type = .TOKEN_NUMBER) →
      ∀ (fuel : Nat) (p : Parsing) (left : Arith),
        p.Writes compiler enclosing (left.emit strtod e0) →
        p.At (termTokens terms ++ stop :: more) →
        ∃ p1, Parsing.infixLoop strtod (fuel + bound + 5 + terms.length) p precedence =
            Parsing.infixLoop strtod (fuel + bound + 5) p1 precedence ∧
          p1.At (stop :: more) ∧
          p1.Writes compiler enclosing ((sumTree left terms).emit strtod e0) := by
  intro terms
  induction terms with
  | nil => intro _ fuel p left hw hat; exact ⟨p, rfl, hat, hw⟩
  | cons x rest ih =>
    intro hwf fuel p left hw hat
    obtain ⟨hx1, hx2, hx3, hx4⟩ := hwf x (List.mem_cons_self _ _)
    have hwf2 : ∀ y ∈ rest, isTermOperator y.1.type = true ∧ y.2.1.type = .TOKEN_NUMBER ∧
        y.2.2.length ≤ bound ∧
        ∀ z ∈ y.2.2, isFactorOperator z.1.type = true ∧ z.2.type = .TOKEN_NUMBER :=
      fun y hy => hwf y (List.mem_cons_of_mem _ hy)
    obtain ⟨next, tail, htail, hnext1, hnext2⟩ :=
      termTokens_head rest stop more
        (fun t => t.type ≠ .TOKEN_ERROR ∧ (getRule t.type).precedence < PREC_FACTOR)
        (fun y hy => by
          obtain ⟨_, hr, _, he⟩ := isTermOperator_rule y.1.type (hwf2 y hy).1
          exact ⟨he, by rw [hr]; decide⟩)
        ⟨herr, hstop⟩
    have hat1 : p.At (x.1 :: x.2.1 :: (operandTokens x.2.2 ++ next :: tail)) := by
      rw [← htail]
      simpa only [termTokens, List.cons_append, List.append_assoc] using hat
    obtain ⟨p1, h1, hat2, hw1⟩ :=
      Parsing.infixLoop_term strtod (fuel + bound + 5 + rest.length) p compiler enclosing e0 left
        x.1 x.2.1 next x.2.2 tail precedence hw hat1 hx1 hx2 hx4 hnext1 hnext2 hprec (by omega)
    obtain ⟨p2, h2, hat3, hw2⟩ :=
      ih hwf2 fuel p1 (.binary x.1.type left (termTree x.2.1 x.2.2)) hw1
        (by rw [htail]; exact hat2)
    exact ⟨p2, by rw [← h2, ← h1]; rfl, hat3, hw2⟩

/-- The terms of a sequence of pairs: the tokens are those of the first
factors followed by those of the terms, in order, and every pair is in one
of them. -/
theorem splitTerms_spec (rest : List (Token × Token))
    (hwf : ∀ x ∈ rest, (isTermOperator x.1.type || isFactorOperator x.1.type) = true ∧
      x.2.type = .TOKEN_NUMBER) :
    operandTokens rest =
        operandTokens (splitTerms rest).1 ++ termTokens (splitTerms rest).2 ∧
      (∀ x ∈ (splitTerms rest).1,
        isFactorOperator x.1.type = true ∧ x.2.type = .TOKEN_NUMBER) ∧
      (∀ x ∈ (splitTerms rest).2, isTermOperator x.1.type = true ∧
        x.2.1.type = .TOKEN_NUMBER ∧ x.2.2.length ≤ rest.length ∧
        ∀ y ∈ x.2.2, isFactorOperator y.1.type = true ∧ y.2.type = .TOKEN_NUMBER) ∧
      (splitTerms rest).1.length + (splitTerms rest).2.length ≤ rest.length := by
  induction rest with
  | nil =>
    exact ⟨rfl, (fun _ h => absurd h (List.not_mem_nil _)),
      (fun _ h => absurd h (List.not_mem_nil _)), Nat.le_refl _⟩
  | cons x rest ih =>
    obtain ⟨hx1, hx2⟩ := hwf x (List.mem_cons_self _ _)
    obtain ⟨h1, h2, h3, h4⟩ := ih fun y hy => hwf y (List.mem_cons_of_mem _ hy)
    by_cases hf : isFactorOperator x.1.type = true
    · have e : splitTerms (x :: rest) = (x :: (splitTerms rest).1, (splitTerms rest).2) := by
        simp only [splitTerms, hf, if_true]
      rw [e]
      refine ⟨?_, ?_, ?_, ?_⟩
      · simp only [operandTokens, h1, List.cons_append]
      · intro y hy
        rcases List.mem_cons.mp hy with hy | hy
        · rw [hy]; exact ⟨hf, hx2⟩
        · exact h2 y hy
      · intro y hy
        obtain ⟨a, b, c, d⟩ := h3 y hy
        exact ⟨a, b, by simp only [List.length_cons]; omega, d⟩
      · simp only [List.length_cons]; omega
    · have e : splitTerms (x :: rest) =
          ([], (x.1, x.2, (splitTerms rest).1) :: (splitTerms rest).2) := by
        simp only [splitTerms, hf, if_false, Bool.false_eq_true]
      rw [e]
      have hterm : isTermOperator x.1.type = true := by
        cases ht : isTermOperator x.1.type
        · rw [ht, Bool.false_or] at hx1; exact absurd hx1 hf
        · rfl
      refine ⟨?_, (fun _ h => absurd h (List.not_mem_nil _)), ?_, ?_⟩
      · simp only [operandTokens, termTokens, h1, List.nil_append]
      · intro y hy
        rcases List.mem_cons.mp hy with hy | hy
        · rw [hy]
          exact ⟨hterm, hx2, by simp only [List.length_cons]; omega, h2⟩
        · obtain ⟨a, b, c, d⟩ := h3 y hy
          exact ⟨a, b, by simp only [List.length_cons]; omega, d⟩
      · simp only [List.length_cons, List.length_nil]; omega

theorem isArithmetic_iff (first : Token) (rest : List (Token × Token)) :
    isArithmetic first rest = true ↔
      first.type = .TOKEN_NUMBER ∧
        ∀ x ∈ rest, (isTermOperator x.1.type || isFactorOperator x.1.type) = true ∧
          x.2.type = .TOKEN_NUMBER := by
  simp only [isArithmetic, Bool.and_eq_true, beq_iff_eq, List.all_eq_true]

/-- The function `parsePrecedence` at the precedence of `expression` on the
tokens `first op1 n1 ... opk nk` followed by a token that is no operator:
with enough fuel it returns at that token and what it has written is the code
of the tree of the expression. -/
theorem Parsing.parsePrecedence_arithmetic (strtod : TokenStart → Nat) (p : Parsing)
    (compiler : Compiler) (enclosing : List Compiler) (e0 : Emission) (first : Token)
    (rest : List (Token × Token)) (stop : Token) (more : List Token) (fuel : Nat)
    (hwf : isArithmetic first rest = true)
    (hw : p.Writes compiler enclosing e0)
    (hat : p.At (first :: (operandTokens rest ++ stop :: more)))
    (hstop : (getRule stop.type).precedence = PREC_NONE)
    (herr : stop.type ≠ .TOKEN_ERROR) (heq : stop.type ≠ .TOKEN_EQUAL)
    (hfuel : 2 * rest.length + 7 ≤ fuel) :
    ∃ p1, Parsing.parsePrecedence strtod fuel p PREC_ASSIGNMENT = some p1 ∧
      p1.At (stop :: more) ∧
      p1.Writes compiler enclosing ((arithTree first rest).emit strtod e0) := by
  obtain ⟨hfirst, hrest⟩ := (isArithmetic_iff first rest).mp hwf
  obtain ⟨hsplit, hfs, hts, hlen⟩ := splitTerms_spec rest hrest
  obtain ⟨f, hf⟩ : ∃ f, fuel =
      (f + rest.length + 5 + (splitTerms rest).2.length) + (splitTerms rest).1.length + 1 :=
    ⟨fuel - rest.length - 6 - (splitTerms rest).2.length - (splitTerms rest).1.length, by omega⟩
  have hp0 : (PREC_NONE : Nat) = 0 := rfl
  -- the token after the first literal
  obtain ⟨next, tail, htail, hnext⟩ :=
    operandTokens_head rest stop more (fun t => t.type ≠ .TOKEN_ERROR)
      (fun y hy => by
        obtain ⟨hy1, _⟩ := hrest y hy
        cases ht : isTermOperator y.1.type
        · rw [ht, Bool.false_or] at hy1
          exact (isFactorOperator_rule _ hy1).2.2
        · exact (isTermOperator_rule _ ht).2.2.2)
      herr
  obtain ⟨p1, h1, hat1, hprev1, hw1⟩ :=
    p.advance_spec compiler enclosing e0 first next tail hw (by rw [← htail]; exact hat)
      (by rw [hfirst]; decide) hnext
  obtain ⟨p2, h2, hc2, hp2, ht2, hw2⟩ := p1.number_spec strtod compiler enclosing e0 hw1
  rw [hprev1] at hw2
  have hat2 : p2.At (operandTokens rest ++ stop :: more) := by
    rw [htail]; exact p1.At_congr p2 _ hc2 ht2 hat1
  -- the factors of the first term
  obtain ⟨next3, tail3, htail3, hnext3a, hnext3b⟩ :=
    termTokens_head (splitTerms rest).2 stop more
      (fun t => t.type ≠ .TOKEN_ERROR ∧ (getRule t.type).precedence < PREC_FACTOR)
      (fun y hy => by
        obtain ⟨_, hr, _, he⟩ := isTermOperator_rule y.1.type (hts y hy).1
        exact ⟨he, by rw [hr]; decide⟩)
      ⟨herr, by rw [hstop]; decide⟩
  obtain ⟨p3, h3, hat3, hw3⟩ :=
    Parsing.infixLoop_factors strtod compiler enclosing e0 PREC_ASSIGNMENT next3 tail3
      (by decide) hnext3a (by
        have : PREC_FACTOR < PREC_UNARY := by decide
        omega)
      (splitTerms rest).1 hfs (f + rest.length + 2 + (splitTerms rest).2.length) p2
      (.number first) hw2 (by
        rw [← htail3, ← List.append_assoc, ← hsplit]; exact hat2)
  -- the terms
  obtain ⟨p4, h4, hat4, hw4⟩ :=
    Parsing.infixLoop_terms strtod compiler enclosing e0 PREC_ASSIGNMENT stop more rest.length
      (by decide) herr (by rw [hstop]; decide) (splitTerms rest).2 hts f p3 _ hw3
      (by rw [htail3]; exact hat3)
  have h5 : Parsing.infixLoop strtod (f + rest.length + 5) p4 PREC_ASSIGNMENT = some p4 :=
    Parsing.infixLoop_stop strtod (f + rest.length + 4) p4 _ (by
      rw [hat4.1, hstop]; decide)
  refine ⟨p4, ?_, hat4, hw4⟩
  have hrule : (getRule p1.previous.type).prefixRule = some .number := by
    rw [hprev1, hfirst]; rfl
  have hm : p4.«match» .TOKEN_EQUAL = some (false, p4) := by
    have : p4.check .TOKEN_EQUAL = false := by
      simp only [Parsing.check, hat4.1, beq_eq_false_iff_ne, ne_eq]
      exact heq
    simp only [Parsing.«match», this, Bool.false_eq_true, if_false]
  have h34 : Parsing.infixLoop strtod
      ((f + rest.length + 5 + (splitTerms rest).2.length) + (splitTerms rest).1.length) p2
      PREC_ASSIGNMENT = some p4 := by
    have e1 : (f + rest.length + 5 + (splitTerms rest).2.length) + (splitTerms rest).1.length =
        (f + rest.length + 2 + (splitTerms rest).2.length) + 3 + (splitTerms rest).1.length := by
      omega
    have e2 : (f + rest.length + 2 + (splitTerms rest).2.length) + 3 =
        f + rest.length + 5 + (splitTerms rest).2.length := by omega
    rw [e1, h3, e2, h4, h5]
  rw [hf, Parsing.parsePrecedence_succ, h1]
  simp only [Option.some_bind, hrule, h2, h34, le_refl, if_true, hm, Option.map_some',
    Bool.false_eq_true, if_false]

end Loxj

/-! # Compiler: the trees of arithmetic expressions -/

namespace Loxj

/-! ### The trees of the spec and what the compiler writes for them -/

theorem Arith.length_literals (tree : Arith) : tree.literals.length = tree.size := by
  induction tree with
  | number token => rfl
  | binary op left right ihl ihr =>
    simp only [Arith.literals, Arith.size, List.length_append, ihl, ihr]

theorem Arith.size_pos (tree : Arith) : 0 < tree.size := by
  induction tree with
  | number token => exact Nat.one_pos
  | binary op left right ihl ihr => simp only [Arith.size]; omega

/-- The tree of a term: its literals and its operators. -/
theorem termTree_spec (factors : List (Token × Token)) :
    ∀ left : Arith,
      (factors.foldl (fun left x => Arith.binary x.1.type left (.number x.2)) left).literals =
          left.literals ++ factors.map Prod.snd ∧
        (factors.foldl (fun left x => Arith.binary x.1.type left (.number x.2)) left).operators =
          left.operators ++ factors.map fun x => x.1.type := by
  induction factors with
  | nil => intro left; simp
  | cons x rest ih =>
    intro left
    obtain ⟨h1, h2⟩ := ih (.binary x.1.type left (.number x.2))
    simp only [List.foldl_cons, h1, h2, Arith.literals, Arith.operators, List.map_cons,
      List.append_assoc, List.singleton_append, List.nil_append, List.cons_append, and_self]

theorem termTree_literals (first : Token) (factors : List (Token × Token)) :
    (termTree first factors).literals = first :: factors.map Prod.snd ∧
      (termTree first factors).operators = factors.map fun x => x.1.type :=
  termTree_spec factors (.number first)

theorem sumTree_cons (left : Arith) (x : Token × Token × List (Token × Token))
    (rest : List (Token × Token × List (Token × Token))) :
    sumTree left (x :: rest) = sumTree (.binary x.1.type left (termTree x.2.1 x.2.2)) rest := rfl

/-- The literals of a tree of terms are the number tokens in their order, and
its operators are the operator tokens in theirs. -/
theorem sumTree_spec (terms : List (Token × Token × List (Token × Token))) :
    ∀ left : Arith,
      (sumTree left terms).literals =
          left.literals ++ (terms.map fun x => x.2.1 :: x.2.2.map Prod.snd).flatten ∧
        (sumTree left terms).operators =
          left.operators ++
            (terms.map fun x => x.1.type :: x.2.2.map fun y => y.1.type).flatten := by
  induction terms with
  | nil => intro left; simp [sumTree]
  | cons x rest ih =>
    intro left
    obtain ⟨h1, h2⟩ := ih (.binary x.1.type left (termTree x.2.1 x.2.2))
    obtain ⟨t1, t2⟩ := termTree_literals x.2.1 x.2.2
    rw [sumTree_cons, h1, h2]
    simp only [Arith.literals, Arith.operators, t1, t2, List.map_cons, List.flatten_cons,
      List.append_assoc, List.cons_append, and_self]

theorem splitTerms_pairs (rest : List (Token × Token)) :
    rest.map Prod.snd =
        (splitTerms rest).1.map Prod.snd ++
          ((splitTerms rest).2.map fun x => x.2.1 :: x.2.2.map Prod.snd).flatten ∧
      (rest.map fun x => x.1.type) =
        ((splitTerms rest).1.map fun x => x.1.type) ++
          ((splitTerms rest).2.map fun x => x.1.type :: x.2.2.map fun y => y.1.type).flatten := by
  induction rest with
  | nil => simp [splitTerms]
  | cons x rest ih =>
    obtain ⟨h1, h2⟩ := ih
    by_cases hf : isFactorOperator x.1.type = true
    · have e : splitTerms (x :: rest) = (x :: (splitTerms rest).1, (splitTerms rest).2) := by
        simp only [splitTerms, hf, if_true]
      rw [e]
      simp only [List.map_cons, h1, h2, List.cons_append, and_self]
    · have e : splitTerms (x :: rest) =
          ([], (x.1, x.2, (splitTerms rest).1) :: (splitTerms rest).2) := by
        simp only [splitTerms, hf, if_false, Bool.false_eq_true]
      rw [e]
      simp only [List.map_cons, h1, h2, List.map_nil, List.nil_append, List.flatten_cons,
        List.cons_append, and_self]

/-- The tree of an expression has the number tokens as its literals, in
their order, and the types of the operator tokens as its operators. -/
theorem arithTree_spec (first : Token) (rest : List (Token × Token)) :
    (arithTree first rest).literals = first :: rest.map Prod.snd ∧
      (arithTree first rest).operators = rest.map (fun x => x.1.type) ∧
      (arithTree first rest).size = rest.length + 1 := by
  obtain ⟨s1, s2⟩ := sumTree_spec (splitTerms rest).2 (termTree first (splitTerms rest).1)
  obtain ⟨t1, t2⟩ := termTree_literals first (splitTerms rest).1
  obtain ⟨p1, p2⟩ := splitTerms_pairs rest
  have hl : (arithTree first rest).literals = first :: rest.map Prod.snd := by
    simp only [arithTree, s1, t1, List.cons_append, p1]
  refine ⟨hl, ?_, ?_⟩
  · simp only [arithTree, s2, t2, p2]
  · rw [← Arith.length_literals, hl, List.length_cons, List.length_map]

theorem Emission.binaryOperator_fields (e : Emission) (operatorType : TokenType) :
    (e.binaryOperator operatorType).constants = e.constants ∧
      (e.binaryOperator operatorType).hadError = e.hadError ∧
      (e.binaryOperator operatorType).panicMode = e.panicMode ∧
      (e.binaryOperator operatorType).reported = e.reported := by
  cases operatorType <;> exact ⟨rfl, rfl, rfl, rfl⟩

theorem Emission.binaryOperator_code (e : Emission) (operatorType : TokenType)
    (h : (isTermOperator operatorType || isFactorOperator operatorType) = true) :
    (e.binaryOperator operatorType).code = e.code ++ operatorCode operatorType := by
  cases operatorType <;> simp [isTermOperator, isFactorOperator] at h <;> rfl

/-- What `emitConstant` leaves of the pool and of the flags: the value is
appended, and the error is reported when the pool held 256 constants or
more (once: in panic mode nothing is printed). -/
theorem Emission.emitConstant_fields (e : Emission) (value : Nat) :
    (e.emitConstant value).constants = e.constants ++ [value] ∧
      (e.emitConstant value).panicMode =
        (e.panicMode || decide (256 < e.constants.length + 1)) ∧
      (e.emitConstant value).hadError =
        (e.hadError || (!e.panicMode && decide (256 < e.constants.length + 1))) ∧
      (e.emitConstant value).reported =
        if (!e.panicMode && decide (256 < e.constants.length + 1)) = true then
          e.reported ++ ["Too many constants in one chunk."]
        else e.reported := by
  by_cases hlen : e.constants.length > UINT8_MAX
  · have h256 : 256 < e.constants.length + 1 := by simp only [UINT8_MAX] at hlen; omega
    have hd : decide (256 < e.constants.length + 1) = true := decide_eq_true h256
    have hlen1 : UINT8_MAX < e.constants.length := hlen
    cases hp : e.panicMode
    · simp [Emission.emitConstant, hlen1, Emission.error, Emission.emitByte, hp, hd]
    · simp [Emission.emitConstant, hlen1, Emission.error, Emission.emitByte, hp, hd]
  · have h256 : ¬ 256 < e.constants.length + 1 := by simp only [UINT8_MAX] at hlen; omega
    have hd : decide (256 < e.constants.length + 1) = false := decide_eq_false h256
    have hlen1 : ¬ UINT8_MAX < e.constants.length := hlen
    simp [Emission.emitConstant, hlen1, Emission.emitByte, hd]

/-- What the code of a tree leaves of the pool and of the flags. -/
theorem Arith.emit_fields (strtod : TokenStart → Nat) (tree : Arith) :
    ∀ e : Emission,
      (tree.emit strtod e).constants =
          e.constants ++ tree.literals.map (fun token => strtod token.start) ∧
        (tree.emit strtod e).panicMode =
          (e.panicMode || decide (256 < e.constants.length + tree.size)) ∧
        (tree.emit strtod e).hadError =
          (e.hadError || (!e.panicMode && decide (256 < e.constants.length + tree.size))) ∧
        (tree.emit strtod e).reported =
          if (!e.panicMode && decide (256 < e.constants.length + tree.size)) = true then
            e.reported ++ ["Too many constants in one chunk."]
          else e.reported := by
  induction tree with
  | number token =>
    intro e
    exact e.emitConstant_fields (strtod token.start)
  | binary op left right ihl ihr =>
    intro e
    obtain ⟨l1, l2, l3, l4⟩ := ihl e
    obtain ⟨r1, r2, r3, r4⟩ := ihr (left.emit strtod e)
    obtain ⟨b1, b2, b3, b4⟩ := (right.emit strtod (left.emit strtod e)).binaryOperator_fields op
    have hlen : (left.emit strtod e).constants.length = e.constants.length + left.size := by
      rw [l1, List.length_append, List.length_map, left.length_literals]
    have hpos := right.size_pos
    simp only [Arith.emit, b1, b2, b3, b4, r1, r2, r3, r4, l1, l2, l3, l4, hlen, Arith.literals,
      Arith.size, List.map_append, List.append_assoc, true_and]
    by_cases h1 : 256 < e.constants.length + left.size
    · have h2 : 256 < e.constants.length + left.size + right.size := by omega
      have h3 : 256 < e.constants.length + (left.size + right.size) := by omega
      cases hp : e.panicMode <;> simp [h1, h2, h3, Arith.length_literals]
    · by_cases h2 : 256 < e.constants.length + left.size + right.size
      · have h3 : 256 < e.constants.length + (left.size + right.size) := by omega
        cases hp : e.panicMode <;> simp [h1, h2, h3, Arith.length_literals]
      · have h3 : ¬ 256 < e.constants.length + (left.size + right.size) := by omega
        cases hp : e.panicMode <;> simp [h1, h2, h3, Arith.length_literals]

/-- The code of a tree whose literals fit into the pool: operands, then
operator, the literals being the next constants of the pool. -/
theorem Arith.emit_code (strtod : TokenStart → Nat) (tree : Arith) :
    ∀ e : Emission, e.constants.length + tree.size ≤ 256 →
      (∀ t ∈ tree.operators, (isTermOperator t || isFactorOperator t) = true) →
      (tree.emit strtod e).code = e.code ++ tree.code e.constants.length := by
  induction tree with
  | number token =>
    intro e hfit _
    have hlen : ¬ e.constants.length > UINT8_MAX := by
      simp only [Arith.size] at hfit
      simp only [UINT8_MAX]
      omega
    have hmod : e.constants.length % 256 = e.constants.length := by
      simp only [Arith.size] at hfit
      exact Nat.mod_eq_of_lt (by omega)
    simp only [Arith.emit, Emission.emitConstant, Emission.emitByte, hmod, Arith.code,
      List.append_assoc, List.singleton_append]
    rw [if_neg hlen]
    rfl
  | binary op left right ihl ihr =>
    intro e hfit hops
    have hpos := right.size_pos
    have hposl := left.size_pos
    simp only [Arith.size] at hfit
    simp only [Arith.operators, List.mem_append, List.mem_cons] at hops
    have hlen : (left.emit strtod e).constants.length = e.constants.length + left.size := by
      rw [(left.emit_fields strtod e).1, List.length_append, List.length_map,
        left.length_literals]
    rw [Arith.emit, Emission.binaryOperator_code _ _ (hops op (Or.inr (Or.inl rfl))),
      ihr _ (by rw [hlen]; omega) (fun t ht => hops t (Or.inr (Or.inr ht))),
      ihl e (by omega) (fun t ht => hops t (Or.inl ht)), hlen]
    simp only [Arith.code, List.append_assoc]

end Loxj

/-! # Interpreter: the arithmetic instructions -/

namespace Loxj

/-! ### Reading the code of the frame -/

theorem getLast?_concat_frame (l : List CallFrame) (x : CallFrame) :
    (l ++ [x]).getLast? = some x := by
  simp

theorem setIp_frames (vm : VM) (frame : CallFrame) (ip : Nat)
    (h : vm.frames.getLast? = some frame) :
    vm.setIp ip = { vm with frames := vm.frames.dropLast ++ [{ frame with ip := ip }] } := by
  simp only [VM.setIp, h]

theorem setIp_chunk (vm : VM) (ip : Nat) : (vm.setIp ip).chunk = vm.chunk := by
  cases hf : vm.frames.getLast? with
  | none => simp only [VM.setIp, hf]
  | some frame =>
    rw [setIp_frames vm frame ip hf]
    simp only [VM.chunk, getLast?_concat_frame, hf]

theorem setIp_ip (vm : VM) (ip ip0 : Nat) (h : vm.ip = some ip0) :
    (vm.setIp ip).ip = some ip := by
  cases hf : vm.frames.getLast? with
  | none => simp [VM.ip, hf] at h
  | some frame =>
    rw [setIp_frames vm frame ip hf]
    simp only [VM.ip, getLast?_concat_frame, Option.map_some']

theorem setIp_setIp (vm : VM) (a b : Nat) : (vm.setIp a).setIp b = vm.setIp b := by
  cases hf : vm.frames.getLast? with
  | none => simp only [VM.setIp, hf]
  | some frame =>
    rw [setIp_frames vm frame a hf, setIp_frames vm frame b hf]
    rw [setIp_frames _ { frame with ip := a } b (by simp)]
    simp

theorem setIp_update (vm : VM) (ip : Nat) (stack : List Nat) (stackTop : Nat) :
    VM.setIp { vm with stack := stack, stackTop := stackTop } ip =
      { vm.setIp ip with stack := stack, stackTop := stackTop } := by
  cases hf : vm.frames.getLast? with
  | none => simp only [VM.setIp, hf]
  | some frame => simp only [VM.setIp, hf]

theorem setIp_update_setIp (vm : VM) (a b : Nat) (stack stack1 : List Nat)
    (stackTop stackTop1 : Nat) :
    { VM.setIp { vm.setIp a with stack := stack, stackTop := stackTop } b with
        stack := stack1, stackTop := stackTop1 } =
      { vm.setIp b with stack := stack1, stackTop := stackTop1 } := by
  rw [setIp_update, setIp_setIp]

theorem READ_BYTE_spec (vm : VM) (chunk : Chunk) (ip byte : Nat)
    (hc : vm.chunk = some chunk) (hi : vm.ip = some ip) (hb : chunk.code.get? ip = some byte) :
    READ_BYTE vm = some (byte, vm.setIp (ip + 1)) := by
  simp only [READ_BYTE, hc, hi, hb, Option.map_some']

theorem READ_CONSTANT_spec (vm : VM) (chunk : Chunk) (ip index constant : Nat)
    (hc : vm.chunk = some chunk) (hi : vm.ip = some ip)
    (hb : chunk.code.get? ip = some index)
    (hk : chunk.constants.get? index = some constant) :
    READ_CONSTANT vm = some (constant, vm.setIp (ip + 1)) := by
  simp only [READ_CONSTANT, READ_BYTE_spec vm chunk ip index hc hi hb, Option.some_bind,
    setIp_chunk, hc, hk, Option.map_some']

theorem runWith_add (ops : DoubleOps) (natives : Natives) (a b : Nat) :
    ∀ vm vm1 : VM, runWith ops natives a vm = .next vm1 →
      runWith ops natives (a + b) vm = runWith ops natives b vm1 := by
  induction a with
  | zero =>
    intro vm vm1 h
    simp only [runWith, Step.next.injEq] at h
    rw [h, Nat.zero_add]
  | succ n ih =>
    intro vm vm1 h
    rw [show n + 1 + b = (n + b) + 1 by omega]
    simp only [runWith] at h ⊢
    cases hs : runStepWith ops natives vm with
    | next vm2 =>
      rw [hs] at h
      simp only at h ⊢
      exact ih vm2 vm1 h
    | ret r vm2 => rw [hs] at h; cases h
    | undefined => rw [hs] at h; cases h
    | notCovered i => rw [hs] at h; cases h

/-- The instruction `OP_CONSTANT index`. -/
theorem runStepWith_constant (ops : DoubleOps) (natives : Natives) (vm : VM) (chunk : Chunk)
    (ip index constant : Nat) (hc : vm.chunk = some chunk) (hi : vm.ip = some ip)
    (h0 : chunk.code.get? ip = some OP_CONSTANT) (h1 : chunk.code.get? (ip + 1) = some index)
    (hk : chunk.constants.get? index = some constant) :
    runStepWith ops natives vm = .next (push (vm.setIp (ip + 2)) constant) := by
  have hb := READ_BYTE_spec vm chunk ip OP_CONSTANT hc hi h0
  have hk1 := READ_CONSTANT_spec (vm.setIp (ip + 1)) chunk (ip + 1) index constant
    (by rw [setIp_chunk]; exact hc) (setIp_ip vm _ ip hi) h1 hk
  have e1 : ¬ OP_CONSTANT = OP_ADD := by decide
  have e2 : ¬ OP_CONSTANT = OP_SUBTRACT := by decide
  have e3 : ¬ OP_CONSTANT = OP_MULTIPLY := by decide
  have e4 : ¬ OP_CONSTANT = OP_DIVIDE := by decide
  simp only [runStepWith, hb, e1, e2, e3, e4, if_false, runStep, if_true, hk1, setIp_setIp]

/-- An arithmetic instruction on two numbers. -/
theorem runStepWith_operator (ops : DoubleOps) (natives : Natives) (vm : VM) (chunk : Chunk)
    (ip : Nat) (operatorType : TokenType) (op : Nat → Nat → Nat) (instruction : Nat)
    (hc : vm.chunk = some chunk) (hi : vm.ip = some ip)
    (hop : ops.apply operatorType = some op)
    (hcode : operatorCode operatorType = [instruction])
    (h0 : chunk.code.get? ip = some instruction)
    (ha : IS_NUMBER (vm.peek 1) = true) (hb : IS_NUMBER (vm.peek 0) = true) :
    runStepWith ops natives vm =
      .next { vm.setIp (ip + 1) with
        stack := storeAt vm.stack (vm.stackTop - 1 - 1) (op (vm.peek 1) (vm.peek 0)),
        stackTop := vm.stackTop - 1 - 1 + 1 } := by
  have hr := READ_BYTE_spec vm chunk ip instruction hc hi h0
  have hp0 : (vm.setIp (ip + 1)).peek 0 = vm.peek 0 := setIp_peek vm _ 0
  have hp1 : (vm.setIp (ip + 1)).peek 1 = vm.peek 1 := setIp_peek vm _ 1
  have hstack : (vm.setIp (ip + 1)).stack = vm.stack := (setIp_stack vm _).1
  have htop : (vm.setIp (ip + 1)).stackTop = vm.stackTop := (setIp_stack vm _).2
  have hheap : (vm.setIp (ip + 1)).heap = vm.heap := (setIp_fields vm _).1
  have hres : ∀ f : Nat → Nat → Nat,
      (let (b, vm1) := pop (vm.setIp (ip + 1))
       let (a, vm2) := pop vm1
       Step.next (push vm2 (f a b))) =
      .next { vm.setIp (ip + 1) with
        stack := storeAt vm.stack (vm.stackTop - 1 - 1) (f (vm.peek 1) (vm.peek 0)),
        stackTop := vm.stackTop - 1 - 1 + 1 } := by
    intro f
    simp only [pop, push, hstack, htop, VM.slot, VM.peek, Nat.sub_zero]
  cases operatorType <;> simp only [operatorCode, List.cons.injEq, and_true] at hcode <;>
    try (exact absurd hcode (List.noConfusion))
  all_goals
    simp only [DoubleOps.apply, Option.some.injEq] at hop
    subst hop
    subst hcode
  · -- TOKEN_MINUS
    simp only [runStepWith, hr, show ¬ OP_SUBTRACT = OP_ADD by decide, if_false, if_true,
      BINARY_OP_NUMBER, hp0, hp1, ha, hb, Bool.not_true, Bool.or_self, Bool.false_eq_true]
    exact hres ops.sub
  · -- TOKEN_PLUS
    have hobj : isObjType (vm.setIp (ip + 1)).heap (vm.peek 0) .OBJ_STRING = some false :=
      isObjType_false _ _ _ (Or.inl (IS_OBJ_of_IS_NUMBER _ hb))
    simp only [runStepWith, hr, if_true, run_OP_ADD, hobj, Bool.false_eq_true, if_false, hp0,
      hp1, ha, hb, Bool.and_self]
    exact hres ops.add
  · -- TOKEN_SLASH
    simp only [runStepWith, hr, show ¬ OP_DIVIDE = OP_ADD by decide,
      show ¬ OP_DIVIDE = OP_SUBTRACT by decide, show ¬ OP_DIVIDE = OP_MULTIPLY by decide,
      if_false, if_true, BINARY_OP_NUMBER, hp0, hp1, ha, hb, Bool.not_true, Bool.or_self,
      Bool.false_eq_true]
    exact hres ops.div
  · -- TOKEN_STAR
    simp only [runStepWith, hr, show ¬ OP_MULTIPLY = OP_ADD by decide,
      show ¬ OP_MULTIPLY = OP_SUBTRACT by decide, if_false, if_true, BINARY_OP_NUMBER, hp0,
      hp1, ha, hb, Bool.not_true, Bool.or_self, Bool.false_eq_true]
    exact hres ops.mul

theorem operatorCode_arithmetic (ops : DoubleOps) (type : TokenType)
    (h : (isTermOperator type || isFactorOperator type) = true) :
    ∃ instruction op, operatorCode type = [instruction] ∧ ops.apply type = some op := by
  cases type <;> simp [isTermOperator, isFactorOperator] at h <;> exact ⟨_, _, rfl, rfl⟩

theorem getElem?_append_mid (l r o : List Nat) (i b : Nat) (h : r[i]? = some b) :
    (l ++ r ++ o)[l.length + i]? = some b := by
  have hi : i < r.length := (List.getElem?_eq_some_iff.mp h).1
  rw [List.getElem?_append_left (by rw [List.length_append]; omega),
    List.getElem?_append_right (by omega), Nat.add_sub_cancel_left, h]

/-- The code of a tree runs to the value of the tree: with the code at `ip`
in the chunk of the frame, and its literals in the pool from `index` on, the
loop runs one instruction per literal and per operator and ends with the
value pushed on the stack, which is a number, and `ip` after the code. -/
theorem runWith_arith (ops : DoubleOps) (natives : Natives) (strtod : TokenStart → Nat)
    (chunk : Chunk)
    (hclosed : ∀ t op a b, ops.apply t = some op → IS_NUMBER a = true → IS_NUMBER b = true →
      IS_NUMBER (op a b) = true) :
    ∀ (tree : Arith) (index ip : Nat) (vm : VM),
      vm.chunk = some chunk → vm.ip = some ip →
      (∀ t ∈ tree.operators, (isTermOperator t || isFactorOperator t) = true) →
      (∀ t ∈ tree.literals, IS_NUMBER (strtod t.start) = true) →
      (∀ i b, (tree.code index)[i]? = some b → chunk.code[ip + i]? = some b) →
      (∀ i t, tree.literals[i]? = some t →
        chunk.constants[index + i]? = some (strtod t.start)) →
      ∃ v stack, tree.value ops strtod = some v ∧ IS_NUMBER v = true ∧
        runWith ops natives (2 * tree.size - 1) vm =
          .next { vm.setIp (ip + (tree.code index).length) with
                  stack := stack, stackTop := vm.stackTop + 1 } ∧
        stack.getD vm.stackTop 0 = v ∧ ∀ i, i < vm.stackTop → stack.getD i 0 = vm.stack.getD i 0 := by
  intro tree
  induction tree with
  | number token =>
    intro index ip vm hc hi _ hlit hcode hconst
    have h0 : chunk.code.get? ip = some OP_CONSTANT := by
      rw [List.get?_eq_getElem?]; exact hcode 0 OP_CONSTANT rfl
    have h1 : chunk.code.get? (ip + 1) = some index := by
      rw [List.get?_eq_getElem?]; exact hcode 1 index rfl
    have hk : chunk.constants.get? index = some (strtod token.start) := by
      rw [List.get?_eq_getElem?]; exact hconst 0 token rfl
    have hstep := runStepWith_constant ops natives vm chunk ip index _ hc hi h0 h1 hk
    refine ⟨strtod token.start, storeAt vm.stack vm.stackTop (strtod token.start), rfl,
      hlit token (List.mem_singleton_self _), ?_, storeAt_getD_self _ _ _,
      fun i hlt => storeAt_getD_ne _ _ _ _ (by omega)⟩
    show runWith ops natives 1 vm = _
    simp only [runWith, hstep, push, (setIp_stack vm _).1, (setIp_stack vm _).2, Arith.code,
      List.length_cons, List.length_nil]
  | binary op left right ihl ihr =>
    intro index ip vm hc hi hops hlit hcode hconst
    simp only [Arith.operators, List.mem_append, List.mem_cons] at hops
    simp only [Arith.literals, List.mem_append] at hlit
    obtain ⟨instruction, f, hinstr, hf⟩ :=
      operatorCode_arithmetic ops op (hops op (Or.inr (Or.inl rfl)))
    have hcodeEq : (Arith.binary op left right).code index =
        left.code index ++ right.code (index + left.size) ++ [instruction] := by
      rw [Arith.code, hinstr]
    rw [hcodeEq] at hcode
    -- the left operand
    obtain ⟨a, s1, hva, hna, hrun1, hs1, hkeep1⟩ :=
      ihl index ip vm hc hi (fun t ht => hops t (Or.inl ht)) (fun t ht => hlit t (Or.inl ht))
        (fun i b h => hcode i b (by
          have hlt : i < (left.code index).length := (List.getElem?_eq_some_iff.mp h).1
          rw [List.append_assoc, List.getElem?_append_left hlt, h]))
        (fun i t h => hconst i t (by
          have hlt : i < left.literals.length := (List.getElem?_eq_some_iff.mp h).1
          rw [Arith.literals, List.getElem?_append_left hlt, h]))
    obtain ⟨vm1, hvm1⟩ : ∃ vm1 : VM, vm1 = { vm.setIp (ip + (left.code index).length) with
        stack := s1, stackTop := vm.stackTop + 1 } := ⟨_, rfl⟩
    rw [← hvm1] at hrun1
    have hc1 : vm1.chunk = some chunk := by
      rw [hvm1]; show (vm.setIp _).chunk = _; rw [setIp_chunk]; exact hc
    have hi1 : vm1.ip = some (ip + (left.code index).length) := by
      rw [hvm1]; exact setIp_ip vm _ ip hi
    -- the right operand
    obtain ⟨b, s2, hvb, hnb, hrun2, hs2, hkeep2⟩ :=
      ihr (index + left.size) (ip + (left.code index).length) vm1 hc1 hi1
        (fun t ht => hops t (Or.inr (Or.inr ht))) (fun t ht => hlit t (Or.inr ht))
        (fun i b h => by
          rw [Nat.add_assoc]
          exact hcode _ b (getElem?_append_mid _ _ _ i b h))
        (fun i t h => by
          rw [Nat.add_assoc]
          refine hconst _ t ?_
          rw [Arith.literals, ← left.length_literals,
            List.getElem?_append_right (by omega), Nat.add_sub_cancel_left, h])
    obtain ⟨vm2, hvm2⟩ : ∃ vm2 : VM, vm2 =
        { vm.setIp (ip + (left.code index).length + (right.code (index + left.size)).length) with
          stack := s2, stackTop := vm.stackTop + 2 } := ⟨_, rfl⟩
    have hrun2a : runWith ops natives (2 * right.size - 1) vm1 = .next vm2 := by
      rw [hrun2, hvm2, hvm1, setIp_update, setIp_setIp]
    have hc2 : vm2.chunk = some chunk := by
      rw [hvm2]; show (vm.setIp _).chunk = _; rw [setIp_chunk]; exact hc
    have hi2 : vm2.ip =
        some (ip + (left.code index).length + (right.code (index + left.size)).length) := by
      rw [hvm2]; exact setIp_ip vm _ ip hi
    have htop1 : vm1.stackTop = vm.stackTop + 1 := by rw [hvm1]
    have hpeek0 : vm2.peek 0 = b := by
      rw [hvm2]
      show s2.getD (vm.stackTop + 1) 0 = b
      rw [← hs2, htop1]
    have hpeek1 : vm2.peek 1 = a := by
      rw [hvm2]
      show s2.getD (vm.stackTop + 2 - 1 - 1) 0 = a
      rw [show vm.stackTop + 2 - 1 - 1 = vm.stackTop by omega,
        hkeep2 vm.stackTop (by rw [htop1]; omega), ← hs1, hvm1]
    -- the operator
    have hstep := runStepWith_operator ops natives vm2 chunk _ op f instruction hc2 hi2 hf hinstr
      (by
        rw [List.get?_eq_getElem?, Nat.add_assoc]
        refine hcode _ instruction ?_
        rw [List.getElem?_append_right (by rw [List.length_append])]
        simp [List.length_append])
      (by rw [hpeek1]; exact hna) (by rw [hpeek0]; exact hnb)
    have hv : (Arith.binary op left right).value ops strtod = some (f a b) := by
      simp only [Arith.value, hf, hva, hvb, Option.some_bind, Option.map_some']
    have hsize : 2 * (Arith.binary op left right).size - 1 =
        (2 * left.size - 1) + ((2 * right.size - 1) + 1) := by
      have := left.size_pos
      have := right.size_pos
      simp only [Arith.size]
      omega
    refine ⟨f a b, storeAt s2 vm.stackTop (f a b), hv, hclosed op f a b hf hna hnb, ?_,
      storeAt_getD_self _ _ _, ?_⟩
    · rw [hsize, runWith_add ops natives _ _ vm vm1 hrun1,
        runWith_add ops natives _ _ vm1 vm2 hrun2a]
      show runWith ops natives 1 vm2 = _
      simp only [runWith, hstep, hpeek0, hpeek1]
      have hlen : ip + (left.code index).length + (right.code (index + left.size)).length + 1 =
          ip + ((Arith.binary op left right).code index).length := by
        rw [hcodeEq]
        simp only [List.length_append, List.length_singleton]
        omega
      rw [hlen, hvm2]
      exact congrArg Step.next (setIp_update_setIp vm _ _ s2 _ _ _)
    · intro i hlt
      rw [storeAt_getD_ne _ _ _ _ (by omega), hkeep2 i (by rw [htop1]; omega), hvm1]
      exact hkeep1 i hlt

end Loxj

/-! # Compiler: `expression` and `printStatement` -/

namespace Loxj

/-! ### `expression` and `printStatement` on an arithmetic expression -/

theorem length_operandTokens (rest : List (Token × Token)) :
    (operandTokens rest).length = 2 * rest.length := by
  induction rest with
  | nil => rfl
  | cons x rest ih => simp only [operandTokens, List.length_cons, ih]; omega

/-- The function `expression` on the tokens `first op1 n1 ... opk nk` followed
by a token that is no operator: it returns at that token, and what it has
written and reported is what the tree of the expression gives. -/
theorem Parsing.expression_arithmetic (strtod : TokenStart → Nat) (p : Parsing)
    (compiler : Compiler) (enclosing : List Compiler) (e0 : Emission) (first : Token)
    (rest : List (Token × Token)) (stop : Token) (more : List Token)
    (hwf : isArithmetic first rest = true)
    (hw : p.Writes compiler enclosing e0)
    (hcur : p.current = first) (htok : p.tokens = operandTokens rest ++ stop :: more)
    (hstop : (getRule stop.type).precedence = PREC_NONE)
    (herr : stop.type ≠ .TOKEN_ERROR) (heq : stop.type ≠ .TOKEN_EQUAL) :
    ∃ p1, p.expression strtod = some p1 ∧ p1.At (stop :: more) ∧
      p1.Writes compiler enclosing ((arithTree first rest).emit strtod e0) := by
  have hfirst := ((isArithmetic_iff first rest).mp hwf).1
  have hat : p.At (first :: (operandTokens rest ++ stop :: more)) := by
    refine ⟨hcur, ?_⟩
    rw [htok, tokensAfter, hfirst]
    rfl
  exact Parsing.parsePrecedence_arithmetic strtod p compiler enclosing e0 first rest stop more _
    hwf hw hat hstop herr heq (by
      rw [htok, List.length_append, length_operandTokens, List.length_cons]
      omega)

/-- The function `printStatement` on `first op1 n1 ... opk nk ;`: the code of
the expression, then `OP_PRINT`. -/
theorem Parsing.printStatement_arithmetic (strtod : TokenStart → Nat) (p : Parsing)
    (compiler : Compiler) (enclosing : List Compiler) (e0 : Emission) (first : Token)
    (rest : List (Token × Token)) (stop next : Token) (more : List Token)
    (hwf : isArithmetic first rest = true)
    (hw : p.Writes compiler enclosing e0)
    (hcur : p.current = first)
    (htok : p.tokens = operandTokens rest ++ stop :: next :: more)
    (hstop : stop.type = .TOKEN_SEMICOLON) (hnext : next.type ≠ .TOKEN_ERROR) :
    ∃ p1, p.printStatement strtod = some p1 ∧ p1.At (next :: more) ∧
      p1.Writes compiler enclosing
        (((arithTree first rest).emit strtod e0).emitByte OP_PRINT) := by
  obtain ⟨p1, h1, hat1, hw1⟩ :=
    Parsing.expression_arithmetic strtod p compiler enclosing e0 first rest stop (next :: more)
      hwf hw hcur htok (by rw [hstop]; rfl) (by rw [hstop]; decide) (by rw [hstop]; decide)
  obtain ⟨p2, h2, hat2, _, hw2⟩ :=
    p1.advance_spec compiler enclosing _ stop next more hw1 hat1 (by rw [hstop]; decide) hnext
  obtain ⟨c3, h3, hcur3, hem3, _⟩ :=
    p2.compilation.emitByte_emission compiler enclosing _ OP_PRINT hw2.1 hw2.2
  obtain ⟨p3, h4, hc4, _, ht4, hw4⟩ :=
    p2.emit_spec compiler enclosing _ (fun c => c.emitByte OP_PRINT) c3 h3 hcur3 hem3
  refine ⟨p3, ?_, p2.At_congr p3 _ hc4 ht4 hat2, hw4⟩
  have hcheck : p1.check .TOKEN_SEMICOLON = true := by
    simp only [Parsing.check, hat1.1, hstop, beq_self_eq_true]
  simp only [Parsing.printStatement, h1, Option.some_bind, Parsing.consume, hcheck, if_true, h2,
    h4]

end Loxj

/-! # Compiler: arithmetic expressions (C21) -/

namespace Loxj

/-- What the code of the tree of an expression leaves when its literals fit
into the pool: the code and the literals are appended and nothing is
reported. -/
theorem arithTree_emit (strtod : TokenStart → Nat) (e0 : Emission) (first : Token)
    (rest : List (Token × Token)) (hwf : isArithmetic first rest = true)
    (hfit : e0.constants.length + rest.length + 1 ≤ 256) :
    (arithTree first rest).emit strtod e0 =
      { e0 with
        code := e0.code ++ (arithTree first rest).code e0.constants.length,
        constants := e0.constants ++
          (first :: rest.map Prod.snd).map fun token => strtod token.start } := by
  obtain ⟨hl, ho, hs⟩ := arithTree_spec first rest
  obtain ⟨f1, f2, f3, f4⟩ := (arithTree first rest).emit_fields strtod e0
  have hcode := (arithTree first rest).emit_code strtod e0 (by rw [hs]; omega) (by
    intro t ht
    rw [ho] at ht
    obtain ⟨x, hx, rfl⟩ := List.mem_map.mp ht
    exact (((isArithmetic_iff first rest).mp hwf).2 x hx).1)
  have hno : decide (256 < e0.constants.length + (arithTree first rest).size) = false := by
    rw [hs]; exact decide_eq_false (by omega)
  rw [hno] at f2 f3 f4
  rw [hl] at f1
  simp only [Bool.and_false, Bool.or_false, Bool.false_eq_true, if_false] at f2 f3 f4
  cases h : (arithTree first rest).emit strtod e0
  rw [h] at f1 f2 f3 f4 hcode
  simp only at f1 f2 f3 f4 hcode
  rw [f1, f2, f3, f4, hcode]

/-- C21, amended: for every expression `first op1 n1 ... opk nk` of number
literals and the operators `+ - * /` whose literals leave the constant pool
of the chunk at 256 entries or fewer, followed by a token that is no
operator.  The function `expression` returns at that token and reports
nothing; it has appended to the chunk the code of the tree of the expression
in which `*` and `/` bind tighter than `+` and `-` and all four associate to
the left, operands before operator, and to the pool the values of the
literals in their order.  When the token is `;`, `printStatement` appends
`OP_PRINT` to that.  In a frame that runs a chunk with this code and these
constants, the dispatch loop runs the code in one turn per literal and per
operator and leaves the value of that tree on top of the stack, with the
slots below as they were; the four operators of C on doubles are a
parameter, which maps numbers to numbers. -/
theorem C21_arithmetic_expressions (strtod : TokenStart → Nat) (p : Parsing)
    (compiler : Compiler) (enclosing : List Compiler) (e0 : Emission) (first : Token)
    (rest : List (Token × Token)) (stop : Token) (more : List Token)
    (hwf : isArithmetic first rest = true)
    (hw : p.Writes compiler enclosing e0)
    (hcur : p.current = first) (htok : p.tokens = operandTokens rest ++ stop :: more)
    (hstop : (getRule stop.type).precedence = PREC_NONE)
    (herr : stop.type ≠ .TOKEN_ERROR) (heq : stop.type ≠ .TOKEN_EQUAL)
    (hfit : e0.constants.length + rest.length + 1 ≤ 256) :
    (∃ p1, p.expression strtod = some p1 ∧ p1.current = stop ∧
      p1.tokens = tokensAfter stop more ∧
      p1.Writes compiler enclosing
        { e0 with
          code := e0.code ++ (arithTree first rest).code e0.constants.length,
          constants := e0.constants ++
            (first :: rest.map Prod.snd).map fun token => strtod token.start }) ∧
    (∀ next more1, stop.type = .TOKEN_SEMICOLON → more = next :: more1 →
      next.type ≠ .TOKEN_ERROR →
      ∃ p2, p.printStatement strtod = some p2 ∧ p2.current = next ∧
        p2.Writes compiler enclosing
          { e0 with
            code := e0.code ++ (arithTree first rest).code e0.constants.length ++ [OP_PRINT],
            constants := e0.constants ++
              (first :: rest.map Prod.snd).map fun token => strtod token.start }) ∧
    (∀ (ops : DoubleOps) (natives : Natives) (vm : VM) (chunk : Chunk)
        (code constants : List Nat),
      (∀ t op a b, ops.apply t = some op → IS_NUMBER a = true → IS_NUMBER b = true →
        IS_NUMBER (op a b) = true) →
      (∀ token ∈ first :: rest.map Prod.snd, IS_NUMBER (strtod token.start) = true) →
      vm.chunk = some chunk → vm.ip = some e0.code.length →
      chunk.code = e0.code ++ (arithTree first rest).code e0.constants.length ++ code →
      chunk.constants = e0.constants ++
        ((first :: rest.map Prod.snd).map fun token => strtod token.start) ++ constants →
      ∃ v stack, (arithTree first rest).value ops strtod = some v ∧ IS_NUMBER v = true ∧
        runWith ops natives (2 * rest.length + 1) vm =
          .next { vm.setIp (e0.code.length +
                    ((arithTree first rest).code e0.constants.length).length) with
                  stack := stack, stackTop := vm.stackTop + 1 } ∧
        stack.getD vm.stackTop 0 = v ∧
        ∀ i, i < vm.stackTop → stack.getD i 0 = vm.stack.getD i 0) := by
  obtain ⟨hl, ho, hs⟩ := arithTree_spec first rest
  have hemit := arithTree_emit strtod e0 first rest hwf hfit
  refine ⟨?_, ?_, ?_⟩
  · obtain ⟨p1, h1, hat1, hw1⟩ :=
      Parsing.expression_arithmetic strtod p compiler enclosing e0 first rest stop more hwf hw
        hcur htok hstop herr heq
    rw [hemit] at hw1
    exact ⟨p1, h1, hat1.1, hat1.2, hw1⟩
  · intro next more1 hsemi hmore hnext
    obtain ⟨p2, h2, hat2, hw2⟩ :=
      Parsing.printStatement_arithmetic strtod p compiler enclosing e0 first rest stop next more1
        hwf hw hcur (by rw [htok, hmore]) hsemi hnext
    rw [hemit] at hw2
    exact ⟨p2, h2, hat2.1, hw2⟩
  · intro ops natives vm chunk code constants hclosed hlit hc hi hcode hconst
    obtain ⟨v, stack, hv, hn, hrun, htop, hkeep⟩ :=
      runWith_arith ops natives strtod chunk hclosed (arithTree first rest) e0.constants.length
        e0.code.length vm hc hi
        (by
          intro t ht
          rw [ho] at ht
          obtain ⟨x, hx, rfl⟩ := List.mem_map.mp ht
          exact (((isArithmetic_iff first rest).mp hwf).2 x hx).1)
        (by rw [hl]; exact hlit)
        (fun i b h => by rw [hcode]; exact getElem?_append_mid _ _ _ i b h)
        (fun i t h => by
          rw [hconst]
          refine getElem?_append_mid _ _ _ i _ ?_
          rw [← hl, List.getElem?_map, h]
          rfl)
    refine ⟨v, stack, hv, hn, ?_, htop, hkeep⟩
    rw [← hrun, hs]
    congr 1

theorem floorLog2_le (n : Nat) : floorLog2 n ≤ 64 := by
  unfold floorLog2
  exact Nat.le_trans (List.countP_le_length _) (by simp)

theorem IS_NUMBER_doubleOfNat (n : Nat) : IS_NUMBER (doubleOfNat n) = true := by
  apply IS_NUMBER_of_finite
  simp only [doubleIsFinite, decide_eq_true_eq]
  have h1 := floorLog2_le n
  have h2 : n * 2 ^ (52 - floorLog2 n) % 2 ^ 52 < 2 ^ 52 := Nat.mod_lt _ (by decide)
  have h3 : doubleOfNat n < 0x7ff0000000000000 := by
    unfold doubleOfNat
    split
    · decide
    · have e : (2 : Nat) ^ 52 = 4503599627370496 := by decide
      rw [e] at h2 ⊢
      omega
  rw [Nat.mod_eq_of_lt (by omega)]
  exact h3

theorem exactOps_closed (t : TokenType) (op : Nat → Nat → Nat) (a b : Nat)
    (h : exactOps.apply t = some op) : IS_NUMBER (op a b) = true := by
  have h0 : IS_NUMBER 0 = true := by decide
  cases t <;> cases h <;> simp only [exactOps] <;> split <;> (try split) <;>
    first
    | exact IS_NUMBER_doubleOfNat _
    | exact h0

/-- C21 on the two examples of the claim, with the doubles that are small
natural numbers.  The source `print 1 + 2 * 3;` scans to `printTokens`; the
statement compiles to `OP_CONSTANT 0, OP_CONSTANT 1, OP_CONSTANT 2,
OP_MULTIPLY, OP_ADD, OP_PRINT` with the constants 1, 2, 3; and the loop, five
instructions on, is at `OP_PRINT` with 7 on top of the stack.  The source
`8 - 3 - 2` compiles to `OP_CONSTANT 0, OP_CONSTANT 1, OP_SUBTRACT,
OP_CONSTANT 2, OP_SUBTRACT` with the constants 8, 3, 2, which runs to 3. -/
theorem C21_arithmetic_expressions_witness :
    (scanTokens 17 (initScanner printSource.toList) = some printTokens ∧
      ((Parsing.start emptyVM printTokens).bind fun p => p.«match» .TOKEN_PRINT) =
        some (true, printParsing)) ∧
    (∃ p2, printParsing.printStatement (strtodDigits printSource.toList) = some p2 ∧
      p2.compilation.emission 0 =
        some { code := [OP_CONSTANT, 0, OP_CONSTANT, 1, OP_CONSTANT, 2, OP_MULTIPLY, OP_ADD,
                        OP_PRINT],
               constants := [doubleOfNat 1, doubleOfNat 2, doubleOfNat 3],
               hadError := false, panicMode := false, reported := [] }) ∧
    (∃ stack, runWith exactOps noNatives 5 (scriptVM printChunk) =
        .next { (scriptVM printChunk).setIp 8 with stack := stack, stackTop := 2 } ∧
      stack.getD 1 0 = doubleOfNat 7) ∧
    (scanTokens 10 (initScanner subtractSource.toList) = some subtractTokens ∧
      Parsing.start emptyVM subtractTokens = some subtractParsing) ∧
    (∃ p1, subtractParsing.expression (strtodDigits subtractSource.toList) = some p1 ∧
      p1.compilation.emission 0 =
        some { code := [OP_CONSTANT, 0, OP_CONSTANT, 1, OP_SUBTRACT, OP_CONSTANT, 2,
                        OP_SUBTRACT],
               constants := [doubleOfNat 8, doubleOfNat 3, doubleOfNat 2],
               hadError := false, panicMode := false, reported := [] }) ∧
    (∃ stack, runWith exactOps noNatives 5 (scriptVM subtractChunk) =
        .next { (scriptVM subtractChunk).setIp 8 with stack := stack, stackTop := 2 } ∧
      stack.getD 1 0 = doubleOfNat 3) := by
  have hprint := C21_arithmetic_expressions (strtodDigits printSource.toList) printParsing
    { function := 0, type := .TYPE_SCRIPT,
      locals := [{ name := "this".toList, depth := 0, isCaptured := false }],
      scopeDepth := 0, upvalues := [] } []
    { code := [], constants := [], hadError := false, panicMode := false, reported := [] }
    (tokenAt .TOKEN_NUMBER 6 1)
    [(tokenAt .TOKEN_PLUS 8 1, tokenAt .TOKEN_NUMBER 10 1),
     (tokenAt .TOKEN_STAR 12 1, tokenAt .TOKEN_NUMBER 14 1)]
    (tokenAt .TOKEN_SEMICOLON 15 1) [tokenAt .TOKEN_EOF 16 0]
    (by decide) ⟨rfl, by decide⟩ rfl rfl rfl (by decide) (by decide) (by decide)
  have hsub := C21_arithmetic_expressions (strtodDigits subtractSource.toList) subtractParsing
    { function := 0, type := .TYPE_SCRIPT,
      locals := [{ name := "this".toList, depth := 0, isCaptured := false }],
      scopeDepth := 0, upvalues := [] } []
    { code := [], constants := [], hadError := false, panicMode := false, reported := [] }
    (tokenAt .TOKEN_NUMBER 0 1)
    [(tokenAt .TOKEN_MINUS 2 1, tokenAt .TOKEN_NUMBER 4 1),
     (tokenAt .TOKEN_MINUS 6 1, tokenAt .TOKEN_NUMBER 8 1)]
    (tokenAt .TOKEN_EOF 9 0) []
    (by decide) ⟨rfl, by decide⟩ rfl rfl rfl (by decide) (by decide) (by decide)
  refine ⟨⟨by decide, by decide⟩, ?_, ?_, ⟨by decide, by decide⟩, ?_, ?_⟩
  · obtain ⟨p2, h2, _, hw2⟩ := hprint.2.1 (tokenAt .TOKEN_EOF 16 0) [] rfl rfl (by decide)
    exact ⟨p2, h2, hw2.2.trans (congrArg some (by decide))⟩
  · obtain ⟨v, stack, hv, _, hrun, htop, _⟩ :=
      hprint.2.2 exactOps noNatives (scriptVM printChunk) printChunk
        [OP_PRINT, OP_NIL, OP_RETURN] []
        (fun t op a b h _ _ => exactOps_closed t op a b h) (by decide) (by decide) (by decide)
        (by decide) (by decide)
    have hval : some v = some (doubleOfNat 7) := by rw [← hv]; decide
    exact ⟨stack, hrun, by rw [← Option.some.inj hval]; exact htop⟩
  · obtain ⟨p1, h1, _, _, hw1⟩ := hsub.1
    exact ⟨p1, h1, hw1.2.trans (congrArg some (by decide))⟩
  · obtain ⟨v, stack, hv, _, hrun, htop, _⟩ :=
      hsub.2.2 exactOps noNatives (scriptVM subtractChunk) subtractChunk [] []
        (fun t op a b h _ _ => exactOps_closed t op a b h) (by decide) (by decide) (by decide)
        (by decide) (by decide)
    have hval : some v = some (doubleOfNat 3) := by rw [← hv]; decide
    exact ⟨stack, hrun, by rw [← Option.some.inj hval]; exact htop⟩

/-- C21, as stated, fails: the expression `1 + 1 + ... + 1` of 257 number
literals, alone in a script, is one the claim speaks of, and `expression`
reads it to its end but reports `Too many constants in one chunk.` and sets
`hadError`, with which `compile` returns `NULL`: no code is run. -/
theorem C21_arithmetic_expressions_counterexample :
    isArithmetic (tokenAt .TOKEN_NUMBER 0 1) overflowOperands = true ∧
    overflowOperands.length = 256 ∧
    ((overflowParsing.expression fun _ => doubleOne).map fun p1 =>
        (p1.current.type, p1.compilation.parser.hadError, p1.compilation.reported)) =
      some (.TOKEN_EOF, true, ["Too many constants in one chunk."]) := by
  have hlen : overflowOperands.length = 256 := by
    simp only [overflowOperands, List.length_map, List.length_range]
  have hwf : isArithmetic (tokenAt .TOKEN_NUMBER 0 1) overflowOperands = true := by
    rw [isArithmetic_iff]
    refine ⟨rfl, fun x hx => ?_⟩
    obtain ⟨i, _, rfl⟩ := List.mem_map.mp hx
    exact ⟨rfl, rfl⟩
  obtain ⟨p1, h1, hat1, hw1⟩ :=
    Parsing.expression_arithmetic (fun _ => doubleOne) overflowParsing
      { function := 0, type := .TYPE_SCRIPT,
        locals := [{ name := "this".toList, depth := 0, isCaptured := false }],
        scopeDepth := 0, upvalues := [] } []
      { code := [], constants := [], hadError := false, panicMode := false, reported := [] }
      (tokenAt .TOKEN_NUMBER 0 1) overflowOperands (tokenAt .TOKEN_EOF 1025 0) []
      hwf ⟨rfl, by decide⟩ rfl rfl rfl (by decide) (by decide)
  obtain ⟨_, _, _, _, _, _, _, h3, _, h5⟩ :=
    p1.compilation.emission_eq_some _ _ hw1.2
  obtain ⟨_, _, f3, f4⟩ :=
    (arithTree (tokenAt .TOKEN_NUMBER 0 1) overflowOperands).emit_fields (fun _ => doubleOne)
      { code := [], constants := [], hadError := false, panicMode := false, reported := [] }
  have hsize := (arithTree_spec (tokenAt .TOKEN_NUMBER 0 1) overflowOperands).2.2
  rw [hsize, hlen] at f3 f4
  refine ⟨hwf, hlen, ?_⟩
  rw [h1, Option.map_some', hat1.1, h3, h5, f3, f4]
  rfl

end Loxj

/-! # Tables: `tableSet` (C39) -/

namespace Loxj

/-- A call of `tableSet` that grows the table leaves no tombstone: the new
array holds the live entries and the key that is set. -/
theorem tableSet_grow_clean (heap : Heap) (t t1 : Table) (key v : Nat) (b : Bool)
    (hinv : TableInv heap t) (hload : 3 * t.capacity < 4 * (t.count + 1))
    (h : tableSet heap t key v = some (b, t1)) : NoTombstone t1.entries := by
  obtain ⟨t0, h0, _, _, hnt0, _, _, _⟩ := adjustCapacity_spec heap t hinv
  have hg : 4 * (t.count + 1) > 3 * t.capacity := hload
  simp only [tableSet, hg, if_true, h0, Option.some_bind] at h
  cases hfi : findEntry heap t0.entries t0.capacity key with
  | none => rw [hfi] at h; cases h
  | some i =>
    rw [hfi] at h
    simp only [Option.some_bind, List.get?_eq_getElem?] at h
    cases hge : t0.entries[i]? with
    | none => rw [hge] at h; cases h
    | some e =>
      rw [hge] at h
      simp only [Option.map_some', Option.some.injEq, Prod.mk.injEq] at h
      rw [← h.2]
      intro j e1 hj hk
      simp only at hj
      rw [List.getElem?_set] at hj
      by_cases hij : i = j
      · rw [if_pos hij] at hj
        split at hj
        · cases hj; cases hk
        · cases hj
      · rw [if_neg hij] at hj
        exact hnt0 j e1 hj hk

/-- C39: `tableSet(t, k, v)` on a table that satisfies the table invariant,
for a key that is a string object.  The call returns and keeps the invariant;
afterwards `tableGet` yields `v` for `k` and, for every other key, what it
yielded before; the result is `true` exactly when no bucket held `k` before
the call.  When the call grows the table (`count + 1` is above three quarters
of `capacity`) the capacity is `GROW_CAPACITY` of the old one, no bucket of
the new array is a tombstone, and the live entries of the old array other
than `k` are exactly those of the new one. -/
theorem C39_tableSet (heap : Heap) (t : Table) (k v : Nat) (s : Nat × Nat × List Char)
    (hinv : TableInv heap t) (hs : heap.string k = some s) :
    ∃ b t1, tableSet heap t k v = some (b, t1) ∧ TableInv heap t1 ∧
      tableGet heap t1 k = some (some v) ∧
      (∀ k1 s1, k1 ≠ k → heap.string k1 = some s1 →
        tableGet heap t1 k1 = tableGet heap t k1) ∧
      (b = true ↔ ¬ t.hasKey k) ∧
      (3 * t.capacity < 4 * (t.count + 1) →
        t1.capacity = GROW_CAPACITY t.capacity ∧ NoTombstone t1.entries ∧
        ∀ k1 v1, k1 ≠ k → (Live t1.entries k1 v1 ↔ Live t.entries k1 v1)) := by
  obtain ⟨b, t1, hset, hinv1, hlive, hb⟩ := tableSet_spec heap t k v s hinv hs
  refine ⟨b, t1, hset, hinv1, ?_, ?_, ?_, ?_⟩
  · obtain ⟨r, hr, hiff⟩ := tableGet_spec heap t1 k s hinv1 hs
    rw [hr, (hiff v).mpr ((hlive k v).mpr (Or.inl ⟨rfl, rfl⟩))]
  · intro k1 s1 hne hs1
    refine tableGet_eq_of_Live heap t1 t k1 s1 hinv1 hinv hs1 fun v1 => ?_
    rw [hlive k1 v1]
    constructor
    · rintro (h | h)
      · exact absurd h.1 hne
      · exact h.2
    · intro h
      exact Or.inr ⟨hne, h⟩
  · rw [hb]
    constructor
    · intro h hk
      obtain ⟨j, hj⟩ := hk
      exact h j hj
    · intro h j hj
      exact h ⟨j, hj⟩
  · intro hload
    refine ⟨((tableSet_shape heap t t1 k v b hinv hset).2 hload).1,
      tableSet_grow_clean heap t t1 k v b hinv hload hset, fun k1 v1 hne => ?_⟩
    rw [hlive k1 v1]
    constructor
    · rintro (h | h)
      · exact absurd h.1 hne
      · exact h.2
    · intro h
      exact Or.inr ⟨hne, h⟩

/-- C39 on the table `tombstoneTable` (capacity 8 at its load limit, keys
b c d e f at addresses 1 to 5, a tombstone where `i` was): setting the new key
`a` (address 6) to 42 grows the table to 16 buckets and returns `true`, and
afterwards `a` yields 42 and `b` yields what it did. -/
theorem C39_tableSet_witness :
    3 * tombstoneTable.capacity < 4 * (tombstoneTable.count + 1) ∧
    ∃ b t1, tableSet tombstoneHeap tombstoneTable 6 doubleFortyTwo = some (b, t1) ∧
      TableInv tombstoneHeap t1 ∧
      tableGet tombstoneHeap t1 6 = some (some doubleFortyTwo) ∧
      (∀ k1 s1, k1 ≠ 6 → tombstoneHeap.string k1 = some s1 →
        tableGet tombstoneHeap t1 k1 = tableGet tombstoneHeap tombstoneTable k1) ∧
      (b = true ↔ ¬ tombstoneTable.hasKey 6) ∧
      (3 * tombstoneTable.capacity < 4 * (tombstoneTable.count + 1) →
        t1.capacity = GROW_CAPACITY tombstoneTable.capacity ∧ NoTombstone t1.entries ∧
        ∀ k1 v1, k1 ≠ 6 → (Live t1.entries k1 v1 ↔ Live tombstoneTable.entries k1 v1)) :=
  ⟨by decide, C39_tableSet tombstoneHeap tombstoneTable 6 doubleFortyTwo
    (1, hashString ['a'], ['a']) TableInv_tombstoneTable (by decide)⟩

end Loxj

/-! # Values: the two representations (C31) -/

namespace Loxj

theorem IS_NIL_of_IS_NUMBER (v : Nat) (h : IS_NUMBER v = true) : IS_NIL v = false := by
  cases hn : IS_NIL v
  · rfl
  · have e : v = NIL_VAL := by simpa [IS_NIL] using hn
    rw [e] at h
    exact absurd h (by decide)

theorem IS_BOOL_of_IS_NUMBER (v : Nat) (h : IS_NUMBER v = true) : IS_BOOL v = false := by
  cases hb : IS_BOOL v
  · rfl
  · rcases IS_BOOL_cases v hb with e | e <;> rw [e] at h <;> exact absurd h (by decide)

theorem IS_NIL_OBJ_VAL (p : Nat) : IS_NIL (OBJ_VAL p) = false := by
  cases hn : IS_NIL (OBJ_VAL p)
  · rfl
  · have e : OBJ_VAL p = NIL_VAL := by simpa [IS_NIL] using hn
    have h := IS_OBJ_OBJ_VAL p
    rw [e] at h
    exact absurd h (by decide)

theorem IS_BOOL_OBJ_VAL (p : Nat) : IS_BOOL (OBJ_VAL p) = false := by
  cases hb : IS_BOOL (OBJ_VAL p)
  · rfl
  · have h := IS_OBJ_OBJ_VAL p
    rcases IS_BOOL_cases _ hb with e | e <;> rw [e] at h <;> exact absurd h (by decide)

/-- The comparison `==` of two words is that of the addresses they box. -/
theorem OBJ_VAL_beq (p q : Nat) (hp : p < 2 ^ 50) (hq : q < 2 ^ 50) :
    (OBJ_VAL p == OBJ_VAL q) = (p == q) := by
  by_cases h : p = q
  · subst h; simp
  · have hne : OBJ_VAL p ≠ OBJ_VAL q := fun e => h ((OBJ_VAL_inj p q hp hq).mp e)
    simp [h, hne]

/-- Two words of which one is a number and the other is not are different. -/
theorem ne_of_IS_NUMBER (v w : Nat) (hv : IS_NUMBER v = true) (hw : IS_NUMBER w = false) :
    (v == w) = false ∧ (w == v) = false := by
  have hne : v ≠ w := by
    intro e
    rw [e, hw] at hv
    cases hv
  exact ⟨by simp [hne], by simp [Ne.symm hne]⟩

/-- The comparison of two doubles of which one is a NaN is false. -/
theorem doubleEq_of_NaN (m n : Nat) (h : (doubleIsNaN m || doubleIsNaN n) = true) :
    doubleEq m n = false := by
  simp only [Bool.or_eq_true] at h
  rcases h with h | h <;> simp [doubleEq, h]

theorem isValuesEqual_boxed (a b : TaggedValue) (ha : a.boxable = true)
    (hb : b.boxable = true) : isValuesEqual a.boxed b.boxed = a.isValuesEqual b := by
  have hnumB : ∀ c : Bool, IS_NUMBER (BOOL_VAL c) = false := by decide
  have hobjB : ∀ c : Bool, IS_OBJ (BOOL_VAL c) = false := by decide
  cases a with
  | BOOL_VAL x =>
    cases b with
    | BOOL_VAL y => cases x <;> cases y <;> decide
    | NIL_VAL => cases x <;> decide
    | NUMBER_VAL n =>
      have hn : IS_NUMBER n = true := hb
      have := (ne_of_IS_NUMBER n (BOOL_VAL x) hn (hnumB x)).2
      simp [isValuesEqual, TaggedValue.isValuesEqual, TaggedValue.boxed, TaggedValue.type,
        hnumB, this]
    | OBJ_VAL q =>
      have hne : BOOL_VAL x ≠ OBJ_VAL q := by
        intro e
        have h := IS_OBJ_OBJ_VAL q
        rw [← e, hobjB] at h
        cases h
      simp [isValuesEqual, TaggedValue.isValuesEqual, TaggedValue.boxed, TaggedValue.type,
        hnumB, hne]
  | NIL_VAL =>
    cases b with
    | BOOL_VAL y => cases y <;> decide
    | NIL_VAL => decide
    | NUMBER_VAL n =>
      have hn : IS_NUMBER n = true := hb
      have := (ne_of_IS_NUMBER n NIL_VAL hn (by decide)).2
      have h0 : IS_NUMBER NIL_VAL = false := by decide
      simp [isValuesEqual, TaggedValue.isValuesEqual, TaggedValue.boxed, TaggedValue.type,
        h0, this]
    | OBJ_VAL q =>
      have hne : NIL_VAL ≠ OBJ_VAL q := by
        intro e
        have h := IS_OBJ_OBJ_VAL q
        rw [← e] at h
        exact absurd h (by decide)
      have h0 : IS_NUMBER NIL_VAL = false := by decide
      simp [isValuesEqual, TaggedValue.isValuesEqual, TaggedValue.boxed, TaggedValue.type,
        h0, hne]
  | NUMBER_VAL m =>
    have hm : IS_NUMBER m = true := ha
    cases b with
    | BOOL_VAL y =>
      have := (ne_of_IS_NUMBER m (BOOL_VAL y) hm (hnumB y)).1
      simp [isValuesEqual, TaggedValue.isValuesEqual, TaggedValue.boxed, TaggedValue.type,
        hnumB, this]
    | NIL_VAL =>
      have := (ne_of_IS_NUMBER m NIL_VAL hm (by decide)).1
      have h0 : IS_NUMBER NIL_VAL = false := by decide
      simp [isValuesEqual, TaggedValue.isValuesEqual, TaggedValue.boxed, TaggedValue.type,
        h0, this]
    | NUMBER_VAL n =>
      have hn : IS_NUMBER n = true := hb
      simp only [isValuesEqual, TaggedValue.isValuesEqual, TaggedValue.boxed,
        TaggedValue.type, TaggedValue.AS_NUMBER, hm, hn, Bool.and_self, if_true, bne_self_eq_false,
        Bool.false_eq_true, if_false]
      by_cases hnan : (doubleIsNaN m || doubleIsNaN n) = true
      · rw [if_pos hnan, doubleEq_of_NaN m n hnan]
      · rw [if_neg hnan]
    | OBJ_VAL q =>
      have := (ne_of_IS_NUMBER m (OBJ_VAL q) hm (IS_NUMBER_OBJ_VAL q)).1
      simp [isValuesEqual, TaggedValue.isValuesEqual, TaggedValue.boxed, TaggedValue.type,
        IS_NUMBER_OBJ_VAL, this]
  | OBJ_VAL p =>
    have hp : p < 2 ^ 50 := of_decide_eq_true ha
    cases b with
    | BOOL_VAL y =>
      have hne : OBJ_VAL p ≠ BOOL_VAL y := by
        intro e
        have h := IS_OBJ_OBJ_VAL p
        rw [e, hobjB] at h
        cases h
      simp [isValuesEqual, TaggedValue.isValuesEqual, TaggedValue.boxed, TaggedValue.type,
        IS_NUMBER_OBJ_VAL, hne]
    | NIL_VAL =>
      have hne : OBJ_VAL p ≠ NIL_VAL := by
        intro e
        have h := IS_OBJ_OBJ_VAL p
        rw [e] at h
        exact absurd h (by decide)
      simp [isValuesEqual, TaggedValue.isValuesEqual, TaggedValue.boxed, TaggedValue.type,
        IS_NUMBER_OBJ_VAL, hne]
    | NUMBER_VAL n =>
      have hn : IS_NUMBER n = true := hb
      have := (ne_of_IS_NUMBER n (OBJ_VAL p) hn (IS_NUMBER_OBJ_VAL p)).2
      simp [isValuesEqual, TaggedValue.isValuesEqual, TaggedValue.boxed, TaggedValue.type,
        IS_NUMBER_OBJ_VAL, this]
    | OBJ_VAL q =>
      have hq : q < 2 ^ 50 := of_decide_eq_true hb
      simp only [isValuesEqual, TaggedValue.isValuesEqual, TaggedValue.boxed,
        TaggedValue.type, TaggedValue.AS_OBJ, IS_NUMBER_OBJ_VAL, Bool.and_self,
        Bool.false_eq_true, if_false, bne_self_eq_false]
      exact OBJ_VAL_beq p q hp hq

theorem isFalsey_boxed (a : TaggedValue) (ha : a.boxable = true) :
    isFalsey a.boxed = a.isFalsey := by
  cases a with
  | BOOL_VAL x => cases x <;> decide
  | NIL_VAL => decide
  | NUMBER_VAL m =>
    have hm : IS_NUMBER m = true := ha
    simp [isFalsey, TaggedValue.isFalsey, TaggedValue.boxed, TaggedValue.IS_NIL,
      TaggedValue.IS_BOOL, TaggedValue.IS_NUMBER, TaggedValue.type, TaggedValue.AS_NUMBER,
      hm, IS_NIL_of_IS_NUMBER m hm, IS_BOOL_of_IS_NUMBER m hm]
  | OBJ_VAL p =>
    have hp : p < 2 ^ 50 := of_decide_eq_true ha
    rw [TaggedValue.boxed, isFalsey_OBJ_VAL p hp]
    rfl

theorem typeofValue_boxed (heap : Heap) (a : TaggedValue) (ha : a.boxable = true) :
    typeofValue heap a.boxed = a.typeofValue heap := by
  cases a with
  | BOOL_VAL x => cases x <;> rfl
  | NIL_VAL => rfl
  | NUMBER_VAL m =>
    have hm : IS_NUMBER m = true := ha
    simp [typeofValue, TaggedValue.typeofValue, TaggedValue.boxed, TaggedValue.type,
      hm, IS_NIL_of_IS_NUMBER m hm, IS_BOOL_of_IS_NUMBER m hm]
  | OBJ_VAL p =>
    have hp : p < 2 ^ 50 := of_decide_eq_true ha
    simp [typeofValue, TaggedValue.typeofValue, TaggedValue.boxed, TaggedValue.type,
      TaggedValue.AS_OBJ, IS_NIL_OBJ_VAL, IS_BOOL_OBJ_VAL, IS_NUMBER_OBJ_VAL, IS_OBJ_OBJ_VAL,
      AS_OBJ_OBJ_VAL p hp]

/-- C31: the two representations of `value.h` agree.  For values `a`, `b`
of the tagged union that have a word under `NAN_BOXING` (a number whose bit
pattern does not have all the bits of `QNAN` set, an object address below
`2 ^ 50`, nil, a boolean), `isValuesEqual`, `isFalsey` and `typeofValue` on the
words return what the functions of the tagged branch return on `a`, `b`.  In
both, two numbers compare as their doubles do, so a NaN is unequal to itself,
two objects compare by address, and values of different kinds are unequal. -/
theorem C31_value_representations (heap : Heap) (a b : TaggedValue)
    (ha : a.boxable = true) (hb : b.boxable = true) :
    isValuesEqual a.boxed b.boxed = a.isValuesEqual b ∧
    isFalsey a.boxed = a.isFalsey ∧
    typeofValue heap a.boxed = a.typeofValue heap ∧
    (∀ m n, a = .NUMBER_VAL m → b = .NUMBER_VAL n →
      a.isValuesEqual b = doubleEq m n ∧ isValuesEqual a.boxed b.boxed = doubleEq m n ∧
      (doubleIsNaN m = true →
        a.isValuesEqual a = false ∧ isValuesEqual a.boxed a.boxed = false)) ∧
    (∀ p q, a = .OBJ_VAL p → b = .OBJ_VAL q →
      a.isValuesEqual b = decide (p = q) ∧ isValuesEqual a.boxed b.boxed = decide (p = q)) ∧
    (a.type ≠ b.type →
      a.isValuesEqual b = false ∧ isValuesEqual a.boxed b.boxed = false) := by
  have heq := isValuesEqual_boxed a b ha hb
  refine ⟨heq, isFalsey_boxed a ha, typeofValue_boxed heap a ha, ?_, ?_, ?_⟩
  · intro m n ea eb
    have h1 : a.isValuesEqual b = doubleEq m n := by
      subst ea eb
      simp only [TaggedValue.isValuesEqual, TaggedValue.type, TaggedValue.AS_NUMBER,
        bne_self_eq_false, Bool.false_eq_true, if_false]
      by_cases hnan : (doubleIsNaN m || doubleIsNaN n) = true
      · rw [if_pos hnan, doubleEq_of_NaN m n hnan]
      · rw [if_neg hnan]
    refine ⟨h1, by rw [heq, h1], fun hnan => ?_⟩
    have h2 : a.isValuesEqual a = false := by
      subst ea
      simp [TaggedValue.isValuesEqual, TaggedValue.type, TaggedValue.AS_NUMBER, hnan]
    exact ⟨h2, by rw [isValuesEqual_boxed a a ha ha, h2]⟩
  · intro p q ea eb
    have h1 : a.isValuesEqual b = decide (p = q) := by
      subst ea eb
      by_cases h : p = q <;>
        simp [TaggedValue.isValuesEqual, TaggedValue.type, TaggedValue.AS_OBJ, h]
    exact ⟨h1, by rw [heq, h1]⟩
  · intro hne
    have h1 : a.isValuesEqual b = false := by
      have : (a.type != b.type) = true := by simp [hne]
      simp [TaggedValue.isValuesEqual, this]
    exact ⟨h1, by rw [heq, h1]⟩

/-- C31 at a NaN and at the string at address 1 of `classHeap`: the NaN is
unequal to itself and not falsey in both representations, and the address is
a `string` in both. -/
theorem C31_value_representations_witness :
    (TaggedValue.NUMBER_VAL doubleNaN).boxable = true ∧
    (TaggedValue.OBJ_VAL 1).boxable = true ∧
    isValuesEqual doubleNaN doubleNaN = false ∧
    (TaggedValue.NUMBER_VAL doubleNaN).isValuesEqual (.NUMBER_VAL doubleNaN) = false ∧
    isFalsey doubleNaN = (TaggedValue.NUMBER_VAL doubleNaN).isFalsey ∧
    typeofValue classHeap (OBJ_VAL 1) = (TaggedValue.OBJ_VAL 1).typeofValue classHeap ∧
    (TaggedValue.OBJ_VAL 1).typeofValue classHeap = some "string" :=
  ⟨by decide, by decide,
    ((C31_value_representations classHeap (.NUMBER_VAL doubleNaN) (.NUMBER_VAL doubleNaN)
      (by decide) (by decide)).2.2.2.1 doubleNaN doubleNaN rfl rfl).2.2 (by decide) |>.2,
    ((C31_value_representations classHeap (.NUMBER_VAL doubleNaN) (.NUMBER_VAL doubleNaN)
      (by decide) (by decide)).2.2.2.1 doubleNaN doubleNaN rfl rfl).2.2 (by decide) |>.1,
    (C31_value_representations classHeap (.NUMBER_VAL doubleNaN) (.NUMBER_VAL doubleNaN)
      (by decide) (by decide)).2.1,
    (C31_value_representations classHeap (.OBJ_VAL 1) (.OBJ_VAL 1)
      (by decide) (by decide)).2.2.1,
    by decide⟩

end Loxj

/-! # Compiler: `emitJump` and `patchJump` (C32) -/

namespace Loxj

end Loxj

/-! # Compiler: `endScope` (C33) -/

namespace Loxj

theorem scopeExitCode_mod (local_ : Local) : scopeExitCode local_ % 256 = scopeExitCode local_ := by
  unfold scopeExitCode
  split <;> decide

theorem getLast?_eq_some_append {α : Type} (l : List α) (x : α) (h : l.getLast? = some x) :
    l = l.dropLast ++ [x] := by
  induction l using List.reverseRecOn with
  | nil => simp at h
  | append_singleton init y _ =>
    simp at h
    simp [h]

/-- The loop of `endScope`, given fuel for every local: it removes the locals
from the top down while their depth is above `scopeDepth`, and emits one
instruction for each. -/
theorem Compilation.endScopeLoop_spec (enclosing : List Compiler) (name : Option Nat)
    (arity uc : Nat) :
    ∀ (fuel : Nat) (c : Compilation) (compiler : Compiler) (chunk : Chunk),
      c.currentCompiler = compiler :: enclosing →
      c.vm.heap.get compiler.function = some (.OBJ_FUNCTION name arity chunk uc) →
      compiler.locals.length < fuel →
      ∃ (c1 : Compilation) (kept removed : List Local),
        Compilation.endScopeLoop fuel c = some c1 ∧
        c1.currentCompiler = { compiler with locals := kept } :: enclosing ∧
        compiler.locals = kept ++ removed.reverse ∧
        (∀ l ∈ removed, l.depth > compiler.scopeDepth) ∧
        (∀ l, kept.getLast? = some l → ¬ l.depth > compiler.scopeDepth) ∧
        c1.vm.heap.get compiler.function = some (.OBJ_FUNCTION name arity
          { chunk with
            code := chunk.code ++ removed.map scopeExitCode,
            lines := chunk.lines ++ List.replicate removed.length c.parser.line } uc) ∧
        c1.parser = c.parser ∧ c1.reported = c.reported ∧
        (∀ q, q ≠ compiler.function → c1.vm.heap.get q = c.vm.heap.get q) := by
  intro fuel
  induction fuel with
  | zero => intro c compiler chunk _ _ h; omega
  | succ fuel ih =>
    intro c compiler chunk hcur hfun hfuel
    cases hl : compiler.locals.getLast? with
    | none =>
      have hnil : compiler.locals = [] := List.getLast?_eq_none_iff.mp hl
      refine ⟨c, compiler.locals, [], ?_, ?_, by simp, by simp, ?_, ?_, rfl, rfl, fun _ _ => rfl⟩
      · simp only [Compilation.endScopeLoop, hcur, hl]
      · rw [hcur]
      · intro l h; rw [hl] at h; cases h
      · simp only [List.map_nil, List.append_nil, List.length_nil, List.replicate_zero]
        exact hfun
    | some local_ =>
      by_cases hd : local_.depth > compiler.scopeDepth
      · obtain ⟨c1, h1, a1, b1, p1, r1, _, _, _, _, q1⟩ :=
          c.emitByte_spec compiler enclosing name arity chunk uc (scopeExitCode local_) hcur hfun
        have hsplit := getLast?_eq_some_append compiler.locals local_ hl
        have hlen : compiler.locals.dropLast.length < fuel := by
          have := congrArg List.length hsplit
          simp only [List.length_append, List.length_singleton] at this
          omega
        obtain ⟨c3, kept, removed, h3, a3, s3, d3, k3, b3, p3, r3, q3⟩ :=
          ih { c1 with currentCompiler :=
                { compiler with locals := compiler.locals.dropLast } :: enclosing }
            { compiler with locals := compiler.locals.dropLast } _ rfl b1 hlen
        refine ⟨c3, kept, local_ :: removed, ?_, a3, ?_, ?_, k3, ?_, ?_, ?_, ?_⟩
        · have e : c.emitByte (if local_.isCaptured then OP_CLOSE_UPVALUE else OP_POP) = some c1 :=
            h1
          simp only [Compilation.endScopeLoop, hcur, hl, hd, if_true, e, Option.some_bind,
            Compilation.mapCompiler, a1]
          exact h3
        · rw [List.reverse_cons, ← List.append_assoc, ← s3]
          exact hsplit
        · intro l hmem
          rcases List.mem_cons.mp hmem with e | hmem
          · rw [e]; exact hd
          · exact d3 l hmem
        · rw [b3]
          simp only [writeChunk, scopeExitCode_mod, List.append_assoc, List.singleton_append,
            List.map_cons, List.length_cons, List.replicate_succ, p1]
        · rw [p3, p1]
        · rw [r3, r1]
        · intro q hq
          rw [q3 q hq]
          exact q1 q hq
      · refine ⟨c, compiler.locals, [], ?_, ?_, by simp, by simp, ?_, ?_, rfl, rfl,
          fun _ _ => rfl⟩
        · simp only [Compilation.endScopeLoop, hcur, hl, hd, if_false]
        · rw [hcur]
        · intro l h
          rw [hl] at h
          cases h
          exact hd
        · simp only [List.map_nil, List.append_nil, List.length_nil, List.replicate_zero]
          exact hfun

/-- In an array of locals whose depths do not decrease, the locals above a
top run of depths greater than `d` that stops at a depth not greater than `d`
all have a depth not greater than `d`. -/
theorem depth_le_of_sorted (kept rest : List Local) (d : Int)
    (hs : (kept ++ rest).Pairwise fun a b => a.depth ≤ b.depth)
    (hk : ∀ l, kept.getLast? = some l → ¬ l.depth > d) : ∀ x ∈ kept, ¬ x.depth > d := by
  intro x hx
  cases hl : kept.getLast? with
  | none =>
    rw [List.getLast?_eq_none_iff.mp hl] at hx
    cases hx
  | some l =>
    have hsplit := getLast?_eq_some_append kept l hl
    have hp := (List.pairwise_append.mp hs).1
    rw [hsplit] at hp hx
    have := hk l hl
    rcases List.mem_append.mp hx with hx | hx
    · have := (List.pairwise_append.mp hp).2.2 x hx l (List.mem_singleton.mpr rfl)
      omega
    · rw [List.mem_singleton.mp hx]
      omega

/-- C33: `endScope` when the current compiler writes to a function object.
It returns with `scopeDepth` one less; the locals array afterwards is the one
of before without a top run `removed` (listed from the top down) of locals
whose depth is greater than the new `scopeDepth`, and the local then on top,
if any, has no greater depth; the code gets, for each removed local in that
order, `OP_CLOSE_UPVALUE` if it is captured and `OP_POP` otherwise, so the
number of instructions emitted is the decrease of `localCount`; nothing else
of the compiler, the enclosing compilers or the error state changes.  When
the depths of the locals do not decrease along the array, as `addLocal` and
`markInitialized` fill it, the removed locals are exactly the locals whose
depth is greater than the new `scopeDepth`. -/
theorem C33_endScope (c : Compilation) (compiler : Compiler) (enclosing : List Compiler)
    (name : Option Nat) (arity : Nat) (chunk : Chunk) (uc : Nat)
    (hcur : c.currentCompiler = compiler :: enclosing)
    (hfun : c.vm.heap.get compiler.function = some (.OBJ_FUNCTION name arity chunk uc)) :
    ∃ (c1 : Compilation) (kept removed : List Local) (chunk1 : Chunk), c.endScope = some c1 ∧
      c1.currentCompiler =
        { compiler with scopeDepth := compiler.scopeDepth - 1, locals := kept } :: enclosing ∧
      compiler.locals = kept ++ removed.reverse ∧
      (∀ l ∈ removed, l.depth > compiler.scopeDepth - 1) ∧
      (∀ l, kept.getLast? = some l → ¬ l.depth > compiler.scopeDepth - 1) ∧
      c1.compilingChunk = some chunk1 ∧
      chunk1.code = chunk.code ++ removed.map
        (fun l => if l.isCaptured then OP_CLOSE_UPVALUE else OP_POP) ∧
      chunk1.constants = chunk.constants ∧
      chunk1.count - chunk.count = compiler.locals.length - kept.length ∧
      chunk1.count - chunk.count = removed.length ∧
      c1.parser = c.parser ∧ c1.reported = c.reported ∧
      (compiler.locals.Pairwise (fun a b => a.depth ≤ b.depth) →
        kept = compiler.locals.filter (fun l => !decide (l.depth > compiler.scopeDepth - 1)) ∧
        removed.reverse =
          compiler.locals.filter (fun l => decide (l.depth > compiler.scopeDepth - 1))) := by
  obtain ⟨c1, kept, removed, h1, a1, s1, d1, k1, b1, p1, r1, _⟩ :=
    Compilation.endScopeLoop_spec enclosing name arity uc (compiler.locals.length + 1)
      { c with currentCompiler :=
          { compiler with scopeDepth := compiler.scopeDepth - 1 } :: enclosing }
      { compiler with scopeDepth := compiler.scopeDepth - 1 } chunk rfl hfun (by simp)
  have hlen : compiler.locals.length = kept.length + removed.length := by
    have := congrArg List.length s1
    simpa using this
  refine ⟨c1, kept, removed, _, ?_, a1, s1, d1, k1,
    c1.compilingChunk_eq _ enclosing name arity _ uc a1 b1, rfl, rfl, ?_, ?_, p1, r1, ?_⟩
  · simp only [Compilation.endScope, Compilation.mapCompiler, hcur, Option.some_bind]
    exact h1
  · simp only [Chunk.count, List.length_append, List.length_map]
    omega
  · simp [Chunk.count]
  · intro hs
    have hs1 : (kept ++ removed.reverse).Pairwise fun a b => a.depth ≤ b.depth := by
      have e : compiler.locals = kept ++ removed.reverse := s1
      rw [← e]; exact hs
    have hk := depth_le_of_sorted kept removed.reverse (compiler.scopeDepth - 1) hs1 k1
    have e : compiler.locals = kept ++ removed.reverse := s1
    rw [e, List.filter_append, List.filter_append]
    have f1 : kept.filter (fun l => !decide (l.depth > compiler.scopeDepth - 1)) = kept :=
      List.filter_eq_self.mpr fun x hx => by simp [hk x hx]
    have f2 : removed.reverse.filter (fun l => !decide (l.depth > compiler.scopeDepth - 1)) =
        [] :=
      List.filter_eq_nil_iff.mpr fun x hx => by simp [d1 x (List.mem_reverse.mp hx)]
    have f3 : kept.filter (fun l => decide (l.depth > compiler.scopeDepth - 1)) = [] :=
      List.filter_eq_nil_iff.mpr fun x hx => by simp [hk x hx]
    have f4 : removed.reverse.filter (fun l => decide (l.depth > compiler.scopeDepth - 1)) =
        removed.reverse :=
      List.filter_eq_self.mpr fun x hx => by simp [d1 x (List.mem_reverse.mp hx)]
    rw [f1, f2, f3, f4]
    simp

/-- C33 on a compiler at depth 2 whose locals are the reserved slot (depth
0), `a` (depth 1), `b` (depth 2, captured) and `c` (depth 2): `endScope`
leaves depth 1 and the first two locals, and emits `OP_POP` for `c`, then
`OP_CLOSE_UPVALUE` for `b`. -/
theorem C33_endScope_witness :
    (scopeCompilation.endScope.map fun c1 =>
      (c1.currentCompiler.map fun compiler =>
        (compiler.scopeDepth, compiler.locals.map fun l => l.name), codeAt c1 0)) =
      some ([(1, [[], ['a']])], some [OP_POP, OP_CLOSE_UPVALUE]) ∧
    ∃ (c1 : Compilation) (kept removed : List Local) (chunk1 : Chunk),
      scopeCompilation.endScope = some c1 ∧
      c1.currentCompiler = [{ scopeLocals with scopeDepth := 2 - 1, locals := kept }] ∧
      scopeLocals.locals = kept ++ removed.reverse ∧
      (∀ l ∈ removed, l.depth > 2 - 1) ∧
      (∀ l, kept.getLast? = some l → ¬ l.depth > 2 - 1) ∧
      c1.compilingChunk = some chunk1 ∧
      chunk1.code = initChunk.code ++ removed.map
        (fun l => if l.isCaptured then OP_CLOSE_UPVALUE else OP_POP) ∧
      chunk1.constants = initChunk.constants ∧
      chunk1.count - initChunk.count = scopeLocals.locals.length - kept.length ∧
      chunk1.count - initChunk.count = removed.length ∧
      c1.parser = scopeCompilation.parser ∧ c1.reported = scopeCompilation.reported ∧
      (scopeLocals.locals.Pairwise (fun a b => a.depth ≤ b.depth) →
        kept = scopeLocals.locals.filter (fun l => !decide (l.depth > 2 - 1)) ∧
        removed.reverse = scopeLocals.locals.filter (fun l => decide (l.depth > 2 - 1))) :=
  ⟨by decide, C33_endScope scopeCompilation scopeLocals [] none 0 initChunk 0 rfl (by decide)⟩

end Loxj

/-! # Compiler: `resolveLocal` -/

namespace Loxj

theorem identifiersEqual_iff (a b : List Char) : identifiersEqual a b = true ↔ a = b := by
  unfold identifiersEqual
  constructor
  · intro h
    split at h
    · exact eq_of_beq h
    · cases h
  · intro h
    subst h
    simp

/-- The loop of `resolveLocal` changes the error state only, and returns -1
when no local of the name is initialized, else the index of the first
initialized one it meets. -/
theorem Compilation.resolveLocalLoop_spec (name : List Char) :
    ∀ (rev : List Local) (c : Compilation),
      (Compilation.resolveLocalLoop name rev c).2.vm = c.vm ∧
      (Compilation.resolveLocalLoop name rev c).2.currentCompiler = c.currentCompiler ∧
      (((Compilation.resolveLocalLoop name rev c).1 = -1 ∧
          ∀ l ∈ rev, l.name = name → l.depth = -1) ∨
        ∃ above l below, rev = above ++ l :: below ∧
          (Compilation.resolveLocalLoop name rev c).1 = (below.length : Int) ∧
          l.name = name ∧ l.depth ≠ -1 ∧ ∀ x ∈ above, x.name = name → x.depth = -1) := by
  intro rev
  induction rev with
  | nil =>
    intro c
    exact ⟨rfl, rfl, Or.inl ⟨rfl, fun l h => absurd h (List.not_mem_nil l)⟩⟩
  | cons local_ below ih =>
    intro c
    by_cases he : identifiersEqual name local_.name = true
    · have hname : local_.name = name := ((identifiersEqual_iff _ _).mp he).symm
      by_cases hd : local_.depth = -1
      · have e : Compilation.resolveLocalLoop name (local_ :: below) c =
            Compilation.resolveLocalLoop name below
              (c.error "Can't read local variable in its own initializer.") := by
          simp only [Compilation.resolveLocalLoop, he, hd, if_true]
        rw [e]
        obtain ⟨h1, h2, h3⟩ :=
          ih (c.error "Can't read local variable in its own initializer.")
        refine ⟨h1.trans (c.error_frame _).1, h2.trans (c.error_frame _).2.1, ?_⟩
        rcases h3 with ⟨h3, h4⟩ | ⟨above, l, rest, h3, h4, h5, h6, h7⟩
        · refine Or.inl ⟨h3, fun l hl hn => ?_⟩
          rcases List.mem_cons.mp hl with e1 | e1
          · rw [e1]; exact hd
          · exact h4 l e1 hn
        · refine Or.inr ⟨local_ :: above, l, rest, by rw [h3]; rfl, h4, h5, h6, fun x hx hn => ?_⟩
          rcases List.mem_cons.mp hx with e1 | e1
          · rw [e1]; exact hd
          · exact h7 x e1 hn
      · have e : Compilation.resolveLocalLoop name (local_ :: below) c =
            ((below.length : Int), c) := by
          simp only [Compilation.resolveLocalLoop, he, hd, if_true, if_false]
        rw [e]
        exact ⟨rfl, rfl, Or.inr ⟨[], local_, below, rfl, rfl, hname, hd,
          fun x hx => absurd hx (List.not_mem_nil x)⟩⟩
    · have hname : local_.name ≠ name := fun h => he ((identifiersEqual_iff _ _).mpr h.symm)
      have e : Compilation.resolveLocalLoop name (local_ :: below) c =
          Compilation.resolveLocalLoop name below c := by
        simp only [Compilation.resolveLocalLoop, he, Bool.false_eq_true, if_false]
      rw [e]
      obtain ⟨h1, h2, h3⟩ := ih c
      refine ⟨h1, h2, ?_⟩
      rcases h3 with ⟨h3, h4⟩ | ⟨above, l, rest, h3, h4, h5, h6, h7⟩
      · refine Or.inl ⟨h3, fun l hl hn => ?_⟩
        rcases List.mem_cons.mp hl with e1 | e1
        · rw [e1] at hn; exact absurd hn hname
        · exact h4 l e1 hn
      · refine Or.inr ⟨local_ :: above, l, rest, by rw [h3]; rfl, h4, h5, h6, fun x hx hn => ?_⟩
        rcases List.mem_cons.mp hx with e1 | e1
        · rw [e1] at hn; exact absurd hn hname
        · exact h7 x e1 hn

/-- The function `resolveLocal` changes the error state only; it returns -1
when the compiler has no initialized local of the name, and else the slot of
the innermost one. -/
theorem Compilation.resolveLocal_spec (c : Compilation) (compiler : Compiler)
    (name : List Char) :
    (c.resolveLocal compiler name).2.vm = c.vm ∧
    (c.resolveLocal compiler name).2.currentCompiler = c.currentCompiler ∧
    (((c.resolveLocal compiler name).1 = -1 ∧ ¬ compiler.hasLocal name) ∨
      ∃ s : Nat, (c.resolveLocal compiler name).1 = (s : Int) ∧ compiler.localAt name s ∧
        s < compiler.locals.length) := by
  obtain ⟨h1, h2, h3⟩ := Compilation.resolveLocalLoop_spec name compiler.locals.reverse c
  refine ⟨h1, h2, ?_⟩
  rcases h3 with ⟨h3, h4⟩ | ⟨above, l, below, h3, h4, h5, h6, h7⟩
  · refine Or.inl ⟨h3, ?_⟩
    rintro ⟨l, hl, hn, hd⟩
    exact hd (h4 l (List.mem_reverse.mpr hl) hn)
  · have hloc : compiler.locals = below.reverse ++ l :: above.reverse := by
      have := congrArg List.reverse h3
      simpa using this
    refine Or.inr ⟨below.length, h4, ⟨⟨l, ?_, h5, h6⟩, ?_⟩, ?_⟩
    · rw [hloc, List.getElem?_append_right (by simp)]
      simp
    · intro i x hi hx hn
      rw [hloc, List.getElem?_append_right (by simp; omega)] at hx
      simp only [List.length_reverse] at hx
      obtain ⟨k, hk⟩ : ∃ k, i - below.length = k + 1 := ⟨i - below.length - 1, by omega⟩
      rw [hk, List.getElem?_cons_succ] at hx
      exact h7 x (List.mem_reverse.mp (List.mem_iff_getElem?.mpr ⟨k, hx⟩)) hn
    · rw [hloc]
      simp

end Loxj

/-! # Compiler: `addUpvalue` -/

namespace Loxj

theorem upvalue_test_iff (upvalue : Upvalue) (index : Nat) (isLocal : Bool) :
    (upvalue.index == index && upvalue.isLocal == isLocal) = true ↔
      upvalue = { index := index, isLocal := isLocal } := by
  cases upvalue with
  | mk i b =>
    simp only [Bool.and_eq_true, beq_iff_eq, Upvalue.mk.injEq]

theorem findUpvalue_none (index : Nat) (isLocal : Bool) :
    ∀ (l : List Upvalue) (i : Nat), findUpvalue index isLocal l i = none →
      ({ index := index, isLocal := isLocal } : Upvalue) ∉ l := by
  intro l
  induction l with
  | nil => intro i _ h; cases h
  | cons u rest ih =>
    intro i h hm
    by_cases ht : (u.index == index && u.isLocal == isLocal) = true
    · simp only [findUpvalue, ht, if_true] at h
      cases h
    · simp only [findUpvalue, ht, if_false] at h
      rcases List.mem_cons.mp hm with e | e
      · exact ht ((upvalue_test_iff u index isLocal).mpr e.symm)
      · exact ih (i + 1) h e

theorem findUpvalue_some (index : Nat) (isLocal : Bool) :
    ∀ (l : List Upvalue) (i k : Nat), findUpvalue index isLocal l i = some k →
      i ≤ k ∧ l[k - i]? = some { index := index, isLocal := isLocal } := by
  intro l
  induction l with
  | nil => intro i k h; cases h
  | cons u rest ih =>
    intro i k h
    by_cases ht : (u.index == index && u.isLocal == isLocal) = true
    · simp only [findUpvalue, ht, if_true, Option.some.injEq] at h
      subst h
      refine ⟨Nat.le_refl _, ?_⟩
      rw [Nat.sub_self, List.getElem?_cons_zero, (upvalue_test_iff u index isLocal).mp ht]
    · simp only [findUpvalue, ht, if_false] at h
      obtain ⟨h1, h2⟩ := ih (i + 1) k h
      refine ⟨by omega, ?_⟩
      obtain ⟨j, hj⟩ : ∃ j, k - i = j + 1 := ⟨k - i - 1, by omega⟩
      rw [hj, List.getElem?_cons_succ]
      have : k - (i + 1) = j := by omega
      rw [← this]
      exact h2

theorem findUpvalue_append (index : Nat) (isLocal : Bool) :
    ∀ (l : List Upvalue) (i : Nat), findUpvalue index isLocal l i = none →
      findUpvalue index isLocal (l ++ [{ index := index, isLocal := isLocal }]) i =
        some (i + l.length) := by
  intro l
  induction l with
  | nil =>
    intro i _
    simp [findUpvalue]
  | cons u rest ih =>
    intro i h
    by_cases ht : (u.index == index && u.isLocal == isLocal) = true
    · simp only [findUpvalue, ht, if_true] at h
      cases h
    · have ht1 : (u.index == index && u.isLocal == isLocal) = false := by simpa using ht
      have h1 : findUpvalue index isLocal rest (i + 1) = none := by
        simpa only [findUpvalue, ht1, Bool.false_eq_true, if_false] using h
      have e : findUpvalue index isLocal
          (u :: (rest ++ [({ index := index, isLocal := isLocal } : Upvalue)])) i =
          findUpvalue index isLocal
            (rest ++ [({ index := index, isLocal := isLocal } : Upvalue)]) (i + 1) := by
        simp only [findUpvalue, ht1, Bool.false_eq_true, if_false]
      rw [List.cons_append, e, ih (i + 1) h1, List.length_cons]
      congr 1
      omega

/-- After a call `error` is in panic mode, where a second call does
nothing. -/
theorem Compilation.error_error (c : Compilation) (m1 m2 : String) :
    (c.error m1).error m2 = c.error m1 := by
  by_cases h : c.parser.panicMode = true
  · rw [c.error_panic m1 h, c.error_panic m2 h]
  · have h1 := (c.error_reported m1 (by simpa using h)).2.2
    exact (c.error m1).error_panic m2 h1

/-- The function `addUpvalue` for a compiler whose function object counts its
upvalues.  It returns an index below 256 and keeps that count right; only
that function object and the array `upvalues`, which is extended at most at
its end, change; when the array has room, or holds the upvalue already, the
entry at the returned index is the one asked for; and a second request for
the same upvalue returns the same index and changes nothing. -/
theorem Compilation.addUpvalue_spec (c : Compilation) (compiler : Compiler) (index : Nat)
    (isLocal : Bool) (name : Option Nat) (arity : Nat) (chunk : Chunk)
    (hfun : c.vm.heap.get compiler.function =
      some (.OBJ_FUNCTION name arity chunk compiler.upvalues.length))
    (hlen : compiler.upvalues.length ≤ 256) :
    ∃ (i : Nat) (c1 : Compilation) (upvalues1 : List Upvalue),
      c.addUpvalue compiler index isLocal =
        some ((i : Int), c1, { compiler with upvalues := upvalues1 }) ∧
      i < 256 ∧
      c1.vm.heap.get compiler.function =
        some (.OBJ_FUNCTION name arity chunk upvalues1.length) ∧
      upvalues1.length ≤ 256 ∧
      (∃ ext, upvalues1 = compiler.upvalues ++ ext) ∧
      (∀ q, q ≠ compiler.function → c1.vm.heap.get q = c.vm.heap.get q) ∧
      (compiler.upvalues.length < 256 ∨
          ({ index := index, isLocal := isLocal } : Upvalue) ∈ compiler.upvalues →
        upvalues1[i]? = some { index := index, isLocal := isLocal } ∧
        c1.parser = c.parser ∧ c1.reported = c.reported) ∧
      c1.addUpvalue { compiler with upvalues := upvalues1 } index isLocal =
        some ((i : Int), c1, { compiler with upvalues := upvalues1 }) := by
  have hnl : ¬ compiler.upvalues.length < compiler.upvalues.length := Nat.lt_irrefl _
  cases hf : findUpvalue index isLocal compiler.upvalues 0 with
  | some k =>
    have hcall : c.addUpvalue compiler index isLocal = some ((k : Int), c, compiler) := by
      simp only [Compilation.addUpvalue, hfun, hnl, if_false, List.take_length, hf]
    obtain ⟨_, hk⟩ := findUpvalue_some index isLocal compiler.upvalues 0 k hf
    rw [Nat.sub_zero] at hk
    have hlt : k < compiler.upvalues.length := (List.getElem?_eq_some_iff.mp hk).1
    exact ⟨k, c, compiler.upvalues, hcall, by omega, hfun, hlen, ⟨[], by simp⟩,
      fun _ _ => rfl, fun _ => ⟨hk, rfl, rfl⟩, hcall⟩
  | none =>
    by_cases hfull : compiler.upvalues.length ≥ UINT8_MAX + 1
    · have hcall : ∀ c0 : Compilation, c0.vm = c.vm →
          c0.addUpvalue compiler index isLocal =
            some (((0 : Nat) : Int), c0.error "Too many closure variables in function.",
              compiler) := by
        intro c0 h0
        simp only [Compilation.addUpvalue, h0, hfun, hnl, if_false, List.take_length, hf, hfull,
          if_true]
        rfl
      have h256 : compiler.upvalues.length = 256 := by
        simp only [UINT8_MAX] at hfull; omega
      refine ⟨0, c.error "Too many closure variables in function.", compiler.upvalues,
        hcall c rfl, by omega, ?_, hlen, ⟨[], by simp⟩, ?_, ?_, ?_⟩
      · rw [(c.error_frame _).1]; exact hfun
      · intro q _; rw [(c.error_frame _).1]
      · rintro (h | h)
        · omega
        · exact absurd h (findUpvalue_none index isLocal _ 0 hf)
      · rw [hcall _ (c.error_frame _).1, Compilation.error_error]
    · have hroom : compiler.upvalues.length < 256 := by
        simp only [UINT8_MAX] at hfull; omega
      obtain ⟨heap1, hheap1⟩ : ∃ h : Heap, h = c.vm.heap.setObj compiler.function
          (.OBJ_FUNCTION name arity chunk (compiler.upvalues.length + 1)) := ⟨_, rfl⟩
      have hstore : storeUpvalue compiler.upvalues compiler.upvalues.length
          { index := index, isLocal := isLocal } =
          compiler.upvalues ++ [{ index := index, isLocal := isLocal }] := by
        simp [storeUpvalue]
      have hget : heap1.get compiler.function = some (.OBJ_FUNCTION name arity chunk
          (compiler.upvalues ++ [({ index := index, isLocal := isLocal } : Upvalue)]).length) := by
        rw [hheap1, Heap.setObj_get_self _ _ _ _ hfun]
        simp
      refine ⟨compiler.upvalues.length, { c with vm := { c.vm with heap := heap1 } },
        compiler.upvalues ++ [{ index := index, isLocal := isLocal }], ?_, hroom, hget, ?_,
        ⟨_, rfl⟩, ?_, ?_, ?_⟩
      · simp only [Compilation.addUpvalue, hfun, hnl, if_false, List.take_length, hf, hfull,
          hstore, hheap1]
      · simp only [List.length_append, List.length_singleton]; omega
      · intro q hq
        show heap1.get q = c.vm.heap.get q
        rw [hheap1]
        exact Heap.setObj_get_ne _ _ _ _ hq
      · intro _
        refine ⟨?_, rfl, rfl⟩
        rw [List.getElem?_append_right (Nat.le_refl _)]
        simp
      · have hf2 := findUpvalue_append index isLocal compiler.upvalues 0 hf
        rw [Nat.zero_add] at hf2
        have hnl2 : ¬ (compiler.upvalues ++
            [({ index := index, isLocal := isLocal } : Upvalue)]).length <
            (compiler.upvalues ++
              [({ index := index, isLocal := isLocal } : Upvalue)]).length := Nat.lt_irrefl _
        simp only [Compilation.addUpvalue, hget, hnl2, if_false, List.take_length, hf2]

end Loxj

/-! # Compiler: `resolveUpvalue` -/

namespace Loxj

theorem captureLocal_length (locals : List Local) (i : Nat) :
    (captureLocal locals i).length = locals.length := by
  unfold captureLocal
  split <;> simp

theorem captureLocal_get (locals : List Local) (i : Nat) (l : Local)
    (h : locals[i]? = some l) :
    (captureLocal locals i)[i]? = some { l with isCaptured := true } := by
  have hlt : i < locals.length := (List.getElem?_eq_some_iff.mp h).1
  simp only [captureLocal, List.get?_eq_getElem?, h]
  rw [List.getElem?_set, if_pos rfl, if_pos hlt]

/-- The function `resolveUpvalue` on a chain whose compilers have room for
one more upvalue. -/
theorem Compilation.resolveUpvalue_spec (name : List Char) :
    ∀ (chain : List Compiler), chain ≠ [] → ∀ (c : Compilation), ChainInv c.vm.heap chain →
      (∀ compiler ∈ chain, compiler.upvalues.length < 256) →
      ∃ (r : Int) (c1 : Compilation) (chain1 : List Compiler),
        c.resolveUpvalue name chain = some (r, c1, chain1) ∧
        ChainInv c1.vm.heap chain1 ∧
        (chain1.map fun compiler => compiler.function) =
          (chain.map fun compiler => compiler.function) ∧
        (∀ q, q ∉ (chain.map fun compiler => compiler.function) →
          c1.vm.heap.get q = c.vm.heap.get q) ∧
        (r = -1 ↔ ∀ compiler ∈ chain.tail, ¬ compiler.hasLocal name) ∧
        (r = -1 → chain1 = chain ∧ c1.vm = c.vm) ∧
        (r ≠ -1 → ∃ i : Nat, r = (i : Int) ∧ i < 256 ∧ UpvaluePath name chain chain1 i) := by
  intro chain
  induction chain with
  | nil => intro h; exact absurd rfl h
  | cons compiler rest ih =>
    intro _ c hinv hroom
    cases rest with
    | nil =>
      refine ⟨-1, c, [compiler], rfl, hinv, rfl, fun _ _ => rfl, ?_, fun _ => ⟨rfl, rfl⟩, ?_⟩
      · exact ⟨fun _ x hx => absurd hx (List.not_mem_nil x), fun _ => rfl⟩
      · intro h; exact absurd rfl h
    | cons enclosing outer =>
      obtain ⟨hnodup, hobj⟩ := hinv
      obtain ⟨fname, arity, chunk, hfun, hlen, hloc⟩ := hobj compiler (List.mem_cons_self _ _)
      have hne : ∀ x ∈ enclosing :: outer, x.function ≠ compiler.function := by
        intro x hx e
        have := (List.nodup_cons.mp hnodup).1
        exact this (List.mem_map.mpr ⟨x, hx, e⟩)
      obtain ⟨hv, _, hres⟩ := c.resolveLocal_spec enclosing name
      rcases hres with ⟨hr, hno⟩ | ⟨s, hr, hat, hs⟩
      · -- the directly enclosing compiler has no such local
        have hinv2 : ChainInv (c.resolveLocal enclosing name).2.vm.heap (enclosing :: outer) := by
          rw [hv]
          exact ⟨(List.nodup_cons.mp hnodup).2, fun x hx => hobj x (List.mem_cons_of_mem _ hx)⟩
        obtain ⟨u, c3, chain3, h3, hinv3, hmap3, hout3, hiff3, hsame3, hpath3⟩ :=
          ih (List.cons_ne_nil _ _) (c.resolveLocal enclosing name).2 hinv2
            (fun x hx => hroom x (List.mem_cons_of_mem _ hx))
        have hcond : ((c.resolveLocal enclosing name).1 != -1) = false := by simp [hr]
        by_cases hu : u = -1
        · obtain ⟨e1, e2⟩ := hsame3 hu
          have hcall : c.resolveUpvalue name (compiler :: enclosing :: outer) =
              some (-1, c3, compiler :: chain3) := by
            simp only [Compilation.resolveUpvalue, hcond, Bool.false_eq_true, if_false, h3,
              Option.some_bind, hu]
            rfl
          refine ⟨-1, c3, compiler :: chain3, hcall, ?_, ?_, ?_, ?_, ?_, ?_⟩
          · rw [e1, e2, hv]; exact ⟨hnodup, hobj⟩
          · rw [e1]
          · intro q _; rw [e2, hv]
          · refine ⟨fun _ x hx => ?_, fun _ => rfl⟩
            rcases List.mem_cons.mp hx with e | e
            · rw [e]; exact hno
            · exact (hiff3.mp hu) x e
          · intro _; rw [e1, e2, hv]; exact ⟨rfl, rfl⟩
          · intro h; exact absurd rfl h
        · obtain ⟨j, hj, hj256, hpath⟩ := hpath3 hu
          have hfun3 : c3.vm.heap.get compiler.function =
              some (.OBJ_FUNCTION fname arity chunk compiler.upvalues.length) := by
            rw [hout3 compiler.function, hv]
            · exact hfun
            · intro hm
              obtain ⟨x, hx, e⟩ := List.mem_map.mp hm
              exact hne x hx e
          obtain ⟨i, c4, upvalues1, h4, hi, hfun4, hlen4, _, hout4, hentry, _⟩ :=
            c3.addUpvalue_spec compiler j false fname arity chunk hfun3 hlen
          have hcondu : (u != -1) = true := by simp [hu]
          have htoNat : u.toNat % 256 = j := by
            rw [hj, Int.toNat_ofNat]; omega
          have hcall : c.resolveUpvalue name (compiler :: enclosing :: outer) =
              some ((i : Int), c4, { compiler with upvalues := upvalues1 } :: chain3) := by
            simp only [Compilation.resolveUpvalue, hcond, Bool.false_eq_true, if_false, h3,
              Option.some_bind, hcondu, if_true, htoNat, h4, Option.map_some']
          obtain ⟨enclosing3, outer3, hchain3⟩ : ∃ e3 o3, chain3 = e3 :: o3 := by
            cases chain3 with
            | nil => simp at hmap3
            | cons e3 o3 => exact ⟨e3, o3, rfl⟩
          refine ⟨(i : Int), c4, { compiler with upvalues := upvalues1 } :: chain3, hcall,
            ?_, ?_, ?_, ?_, ?_, ?_⟩
          · constructor
            · simp only [List.map_cons, hmap3]
              exact hnodup
            · intro x hx
              rcases List.mem_cons.mp hx with e | e
              · rw [e]
                exact ⟨fname, arity, chunk, hfun4, hlen4, hloc⟩
              · obtain ⟨n, a, ch, h1, h2, h3'⟩ := hinv3.2 x e
                refine ⟨n, a, ch, ?_, h2, h3'⟩
                rw [hout4 x.function, h1]
                intro e2
                have hm : x.function ∈ (enclosing :: outer).map fun y => y.function := by
                  rw [← hmap3]
                  exact List.mem_map.mpr ⟨x, e, rfl⟩
                obtain ⟨y, hy, e3⟩ := List.mem_map.mp hm
                exact hne y hy (e3.trans e2)
          · simp only [List.map_cons, hmap3]
          · intro q hq
            simp only [List.map_cons, List.mem_cons, not_or] at hq
            rw [hout4 q hq.1, hout3 q (by simpa using hq.2), hv]
          · refine ⟨fun h => absurd h (by omega), fun h => ?_⟩
            exfalso
            exact hu (hiff3.mpr fun x hx => h x (List.mem_cons_of_mem _ hx))
          · intro h; exact absurd h (by omega)
          · intro _
            refine ⟨i, rfl, hi, ?_⟩
            rw [hchain3]
            rw [hchain3] at hpath
            exact Or.inr ⟨hno, j, (hentry (Or.inl (hroom compiler (List.mem_cons_self _ _)))).1,
              hpath⟩
      · -- the directly enclosing compiler has the local at slot `s`
        obtain ⟨_, _, _, _, _, hlocE⟩ := hobj enclosing (List.mem_cons_of_mem _ (List.mem_cons_self _ _))
        have hcond : ((c.resolveLocal enclosing name).1 != -1) = true := by
          rw [hr]; simp
        have htoNat : (c.resolveLocal enclosing name).1.toNat = s := by
          rw [hr, Int.toNat_ofNat]
        have hmod : s % 256 = s := by omega
        have hfun2 : (c.resolveLocal enclosing name).2.vm.heap.get compiler.function =
            some (.OBJ_FUNCTION fname arity chunk compiler.upvalues.length) := by
          rw [hv]; exact hfun
        obtain ⟨i, c4, upvalues1, h4, hi, hfun4, hlen4, _, hout4, hentry, _⟩ :=
          (c.resolveLocal enclosing name).2.addUpvalue_spec compiler s true fname arity chunk
            hfun2 hlen
        have hcall : c.resolveUpvalue name (compiler :: enclosing :: outer) =
            some ((i : Int), c4, { compiler with upvalues := upvalues1 } ::
              { enclosing with locals := captureLocal enclosing.locals s } :: outer) := by
          simp only [Compilation.resolveUpvalue, hcond, if_true, htoNat, hmod, h4,
            Option.map_some']
        refine ⟨(i : Int), c4, _, hcall, ?_, rfl, ?_, ?_, ?_, ?_⟩
        · constructor
          · exact hnodup
          · intro x hx
            rcases List.mem_cons.mp hx with e | e
            · rw [e]
              exact ⟨fname, arity, chunk, hfun4, hlen4, hloc⟩
            · rcases List.mem_cons.mp e with e1 | e1
              · obtain ⟨n, a, ch, h1, h2, h3⟩ :=
                  hobj enclosing (List.mem_cons_of_mem _ (List.mem_cons_self _ _))
                rw [e1]
                refine ⟨n, a, ch, ?_, h2, ?_⟩
                · show c4.vm.heap.get enclosing.function = _
                  rw [hout4 _ (hne enclosing (List.mem_cons_self _ _)), hv]
                  exact h1
                · show (captureLocal enclosing.locals s).length ≤ 256
                  rw [captureLocal_length]; exact h3
              · obtain ⟨n, a, ch, h1, h2, h3⟩ :=
                  hobj x (List.mem_cons_of_mem _ (List.mem_cons_of_mem _ e1))
                refine ⟨n, a, ch, ?_, h2, h3⟩
                rw [hout4 _ (hne x (List.mem_cons_of_mem _ e1)), hv]
                exact h1
        · intro q hq
          simp only [List.map_cons, List.mem_cons, not_or] at hq
          rw [hout4 q hq.1, hv]
        · refine ⟨fun h => absurd h (by omega), fun h => ?_⟩
          exfalso
          obtain ⟨⟨l, hl, hn, hd⟩, _⟩ := hat
          exact h enclosing (List.mem_cons_self _ _)
            ⟨l, List.mem_iff_getElem?.mpr ⟨s, hl⟩, hn, hd⟩
        · intro h; exact absurd h (by omega)
        · intro _
          refine ⟨i, rfl, hi, Or.inl ⟨s, hat,
            (hentry (Or.inl (hroom compiler (List.mem_cons_self _ _)))).1, ?_, rfl⟩⟩
          obtain ⟨⟨l, hl, _, _⟩, _⟩ := hat
          exact ⟨_, captureLocal_get enclosing.locals s l hl, rfl⟩

end Loxj

/-! # Compiler: upvalue resolution (C34) -/

namespace Loxj

/-- At most one slot holds the innermost initialized local of a name. -/
theorem Compiler.localAt_unique (compiler : Compiler) (name : List Char) (s t : Nat)
    (hs : compiler.localAt name s) (ht : compiler.localAt name t) : s = t := by
  obtain ⟨⟨l1, h1, n1, d1⟩, a1⟩ := hs
  obtain ⟨⟨l2, h2, n2, d2⟩, a2⟩ := ht
  rcases Nat.lt_trichotomy s t with h | h | h
  · exact absurd (a1 t l2 h h2 n2) d2
  · exact h
  · exact absurd (a2 s l1 h h1 n1) d1

/-- The result of `chainCompilation` satisfies the invariant of the chain
when the compilers write to the function objects 0, 1, ... in order. -/
theorem ChainInv_chainCompilation (chain : List Compiler)
    (hf : (chain.map fun compiler => compiler.function) = List.range chain.length)
    (hu : ∀ compiler ∈ chain, compiler.upvalues.length ≤ 256 ∧ compiler.locals.length ≤ 256) :
    ChainInv (chainCompilation chain).vm.heap chain := by
  refine ⟨by rw [hf]; exact List.nodup_range _, fun compiler hc => ?_⟩
  obtain ⟨i, hi⟩ := List.mem_iff_getElem?.mp hc
  have hlt : i < chain.length := (List.getElem?_eq_some_iff.mp hi).1
  have hfi : compiler.function = i := by
    have h1 : (chain.map fun compiler => compiler.function)[i]? = some compiler.function := by
      rw [List.getElem?_map, hi]; rfl
    rw [hf, List.getElem?_range hlt] at h1
    exact (Option.some.inj h1).symm
  refine ⟨none, 0, initChunk, ?_, (hu compiler hc).1, (hu compiler hc).2⟩
  simp only [chainCompilation, Heap.get, List.getD_eq_getElem?_getD, hfi, List.getElem?_map, hi,
    Option.map_some', Option.getD_some]

/-- C34, amended: `resolveUpvalue` on a chain of compilers that each hold
fewer than 256 upvalues.  It returns; the result is -1 exactly when no
enclosing compiler has an initialized local of the name (when the enclosing
compilers hold initialized locals only: exactly when none has the name as a
local).  When the directly enclosing compiler has the name as an initialized
local, innermost at slot `s`, that local is marked `isCaptured` and the result
is the index of an upvalue `(isLocal = true, index = s)` of the first
compiler.  In general a result `i` other than -1 is below 256 and
`UpvaluePath` holds: the first compiler has at `i` either that upvalue, or an
upvalue with `isLocal = false` whose index is the one the same holds for in
the next compiler out, and so on through every intermediate compiler.
`addUpvalue`, for any compiler whose function object counts its upvalues (up
to 256): a second request with the same `(index, isLocal)` returns the same
index and changes nothing, and `upvalueCount` is at most 256 afterwards. -/
theorem C34_resolveUpvalue (c : Compilation) (name : List Char) (chain : List Compiler)
    (hne : chain ≠ []) (hinv : ChainInv c.vm.heap chain)
    (hroom : ∀ compiler ∈ chain, compiler.upvalues.length < 256) :
    (∃ (r : Int) (c1 : Compilation) (chain1 : List Compiler),
      c.resolveUpvalue name chain = some (r, c1, chain1) ∧
      ChainInv c1.vm.heap chain1 ∧
      (r = -1 ↔ ∀ compiler ∈ chain.tail, ¬ compiler.hasLocal name) ∧
      ((∀ compiler ∈ chain.tail, ∀ l ∈ compiler.locals, l.depth ≠ -1) →
        (r = -1 ↔ ∀ compiler ∈ chain.tail, ∀ l ∈ compiler.locals, l.name ≠ name)) ∧
      (∀ compiler enclosing outer s, chain = compiler :: enclosing :: outer →
        enclosing.localAt name s →
        ∃ (i : Nat) (compiler1 enclosing1 : Compiler), r = (i : Int) ∧
          chain1 = compiler1 :: enclosing1 :: outer ∧
          compiler1.upvalues[i]? = some { index := s, isLocal := true } ∧
          ∃ l, enclosing1.locals[s]? = some l ∧ l.isCaptured = true) ∧
      (r ≠ -1 → ∃ i : Nat, r = (i : Int) ∧ i < 256 ∧ UpvaluePath name chain chain1 i) ∧
      ∀ compiler ∈ chain1, compiler.upvalues.length ≤ 256) ∧
    (∀ (c0 : Compilation) (compiler : Compiler) (index : Nat) (isLocal : Bool)
      (fname : Option Nat) (arity : Nat) (chunk : Chunk),
      c0.vm.heap.get compiler.function =
        some (.OBJ_FUNCTION fname arity chunk compiler.upvalues.length) →
      compiler.upvalues.length ≤ 256 →
      ∃ (i : Nat) (c2 : Compilation) (upvalues1 : List Upvalue),
        c0.addUpvalue compiler index isLocal =
          some ((i : Int), c2, { compiler with upvalues := upvalues1 }) ∧
        c2.addUpvalue { compiler with upvalues := upvalues1 } index isLocal =
          some ((i : Int), c2, { compiler with upvalues := upvalues1 }) ∧
        c2.vm.heap.get compiler.function =
          some (.OBJ_FUNCTION fname arity chunk upvalues1.length) ∧
        upvalues1.length ≤ 256) := by
  constructor
  · obtain ⟨r, c1, chain1, h1, hinv1, _, _, hiff, _, hpath⟩ :=
      Compilation.resolveUpvalue_spec name chain hne c hinv hroom
    refine ⟨r, c1, chain1, h1, hinv1, hiff, ?_, ?_, hpath, ?_⟩
    · intro hinit
      rw [hiff]
      constructor
      · intro h compiler hc l hl hn
        exact h compiler hc ⟨l, hl, hn, hinit compiler hc l hl⟩
      · rintro h compiler hc ⟨l, hl, hn, _⟩
        exact h compiler hc l hl hn
    · intro compiler enclosing outer s hchain hat
      have hhas : enclosing.hasLocal name := by
        obtain ⟨⟨l, hl, hn, hd⟩, _⟩ := hat
        exact ⟨l, List.mem_iff_getElem?.mpr ⟨s, hl⟩, hn, hd⟩
      have hr : r ≠ -1 := by
        intro h
        refine (hiff.mp h) enclosing ?_ hhas
        rw [hchain]
        exact List.mem_cons_self _ _
      obtain ⟨i, hi, _, hp⟩ := hpath hr
      rw [hchain] at hp
      cases chain1 with
      | nil => exact absurd hp (by simp [UpvaluePath])
      | cons compiler1 rest1 =>
        cases rest1 with
        | nil => exact absurd hp (by simp [UpvaluePath])
        | cons enclosing1 outer1 =>
          simp only [UpvaluePath] at hp
          rcases hp with ⟨s1, hat1, hu, hcap, hout⟩ | ⟨hno, _⟩
          · have hs : s1 = s := enclosing.localAt_unique name s1 s hat1 hat
            rw [hs] at hu hcap
            exact ⟨i, compiler1, enclosing1, hi, by rw [hout], hu, hcap⟩
          · exact absurd hhas hno
    · intro compiler hc
      obtain ⟨_, _, _, _, h, _⟩ := hinv1.2 compiler hc
      exact h
  · intro c0 compiler index isLocal fname arity chunk hfun hlen
    obtain ⟨i, c2, upvalues1, h1, _, h3, h4, _, _, _, h8⟩ :=
      c0.addUpvalue_spec compiler index isLocal fname arity chunk hfun hlen
    exact ⟨i, c2, upvalues1, h1, h8, h3, h4⟩

/-- C34 on the three compilers of `nestedChain`, for the name `x`: the result
is upvalue 0 of `inner`, which is `(isLocal = false, index = 0)`; `middle` has
got the upvalue 0 `(isLocal = true, index = 1)`; and `x`, in slot 1 of
`outer`, is marked captured. -/
theorem C34_resolveUpvalue_witness :
    (((chainCompilation nestedChain).resolveUpvalue ['x'] nestedChain).map fun r =>
      (r.1, r.2.2.map fun compiler =>
        (compiler.upvalues, compiler.locals.map fun l => l.isCaptured))) =
      some (0, [([⟨0, false⟩], [false]), ([⟨1, true⟩], [false, false]),
        ([], [false, true, false])]) ∧
    ∃ (r : Int) (c1 : Compilation) (chain1 : List Compiler),
      (chainCompilation nestedChain).resolveUpvalue ['x'] nestedChain = some (r, c1, chain1) ∧
      (r ≠ -1 → ∃ i : Nat, r = (i : Int) ∧ i < 256 ∧ UpvaluePath ['x'] nestedChain chain1 i) := by
  obtain ⟨⟨r, c1, chain1, h1, _, _, _, _, h6, _⟩, _⟩ :=
    C34_resolveUpvalue (chainCompilation nestedChain) ['x'] nestedChain (by decide)
      (ChainInv_chainCompilation nestedChain (by decide) (by decide)) (by decide)
  exact ⟨by decide, r, c1, chain1, h1, h6⟩

set_option maxRecDepth 100000 in
/-- C34 as stated fails where the first compiler is full: on `fullChain`,
whose compiler `inner` holds 256 upvalues, for the name `x`, an initialized
local at slot 1 of the directly enclosing compiler, `resolveUpvalue` reports
`Too many closure variables in function.` and returns 0, and upvalue 0 of
`inner` is `(isLocal = false, index = 0)`, not `(isLocal = true, index = 1)`. -/
theorem C34_resolveUpvalue_counterexample :
    (fullChain.map fun compiler => (compiler.upvalues.length, compiler.locals.length)) =
      [(256, 1), (256, 2), (0, 256)] ∧
    (fullChain[1]?.bind fun enclosing => enclosing.locals[1]?) =
      some { name := ['x'], depth := 1, isCaptured := false } ∧
    (((chainCompilation fullChain).resolveUpvalue ['x'] fullChain).map fun r =>
      (r.1, r.2.1.reported, r.2.2.head?.bind fun compiler => compiler.upvalues[0]?)) =
      some (0, ["Too many closure variables in function."],
        some { index := 0, isLocal := false }) := by
  refine ⟨by decide, by decide, by decide⟩

end Loxj

/-! # Compiler: the rule of `typeof` (C35) -/

namespace Loxj

/-- C35 (code at the failing input): in the table `rules` the token kind
`TOKEN_TYPEOF`, and no other, has a precedence above `PREC_NONE` and the
infix function `NULL`.  The source `1 typeof 2;` scans to the tokens NUMBER,
TYPEOF, NUMBER, `;`, EOF, and `expression` is entered at the first one.  In
`parsePrecedence(PREC_ASSIGNMENT)` the prefix rule of `1` is `number`; then
the test of the loop holds at `typeof`, `advance` makes it `parser.previous`,
and the infix rule that is fetched and called is `NULL`: the call is
undefined, and `parsePrecedence` does not return a parser state whatever the
depth allowed. -/
theorem C35_typeof_infix_null :
    (∀ type : TokenType,
      (PREC_NONE < (getRule type).precedence ∧ (getRule type).infixRule = none) ↔
        type = .TOKEN_TYPEOF) ∧
    scanTokens 6 (initScanner typeofSource.toList) = some typeofTokens ∧
    Parsing.start emptyVM typeofTokens = some typeofParsing ∧
    (typeofParsing.advance.bind fun p1 =>
      (p1.number (strtodDigits typeofSource.toList)).bind fun p2 =>
        p2.advance.map fun p3 =>
          ((getRule p1.previous.type).prefixRule, p2.current.type,
            decide ((getRule p2.current.type).precedence ≥ PREC_ASSIGNMENT),
            p3.previous.type, (getRule p3.previous.type).infixRule)) =
      some (some .number, .TOKEN_TYPEOF, true, .TOKEN_TYPEOF, none) ∧
    ∀ fuel, Parsing.parsePrecedence (strtodDigits typeofSource.toList) fuel typeofParsing
      PREC_ASSIGNMENT = none := by
  have htrace : (typeofParsing.advance.bind fun p1 =>
      (p1.number (strtodDigits typeofSource.toList)).bind fun p2 =>
        p2.advance.map fun p3 =>
          ((getRule p1.previous.type).prefixRule, p2.current.type,
            decide ((getRule p2.current.type).precedence ≥ PREC_ASSIGNMENT),
            p3.previous.type, (getRule p3.previous.type).infixRule)) =
      some (some .number, .TOKEN_TYPEOF, true, .TOKEN_TYPEOF, none) := by decide
  refine ⟨?_, by decide, by decide, htrace, ?_⟩
  · intro type
    cases type <;> decide
  · intro fuel
    cases h1 : typeofParsing.advance with
    | none => rw [h1] at htrace; cases htrace
    | some p1 =>
      rw [h1] at htrace
      simp only [Option.some_bind] at htrace
      cases h2 : p1.number (strtodDigits typeofSource.toList) with
      | none => rw [h2] at htrace; cases htrace
      | some p2 =>
        rw [h2] at htrace
        simp only [Option.some_bind] at htrace
        cases h3 : p2.advance with
        | none => rw [h3] at htrace; cases htrace
        | some p3 =>
          rw [h3] at htrace
          simp only [Option.map_some', Option.some.injEq, Prod.mk.injEq,
            decide_eq_true_eq] at htrace
          obtain ⟨hr1, _, hge, _, hr3⟩ := htrace
          cases fuel with
          | zero => rfl
          | succ f =>
            rw [Parsing.parsePrecedence_succ, h1]
            simp only [Option.some_bind, hr1, h2]
            cases f with
            | zero => rfl
            | succ g =>
              rw [Parsing.infixLoop_succ, if_pos hge, h3]
              simp only [Option.some_bind, hr3, Option.none_bind]

end Loxj

/-! # Compiler: the rule of `extends` (C36) -/

namespace Loxj

set_option maxRecDepth 100000 in
/-- C36 (code at the failing input): in the table `rules` the token kind
`TOKEN_EXTENDS`, and no other, has the infix function `binary` and no case in
the `switch` of `binary`, which emits nothing for it.  The source
`1 extends 2;` scans to the tokens NUMBER, EXTENDS, NUMBER, `;`, EOF;
`expressionStatement` compiles it without an error to `OP_CONSTANT 0
OP_CONSTANT 1 OP_POP`: no instruction follows the right operand.  Run in the
script, the two `OP_CONSTANT` leave two values on the stack above the script
closure, `OP_POP` leaves one, and when `OP_RETURN` ends the script the stack
still holds one value.  For comparison `1 < 2;` compiles to `OP_CONSTANT 0
OP_CONSTANT 1 OP_LESS OP_POP` and its script ends with the stack empty. -/
theorem C36_extends_emits_nothing :
    (∀ type : TokenType,
      ((getRule type).infixRule = some .binary ∧
        (noEmission.binaryOperator type).code = noEmission.code) ↔ type = .TOKEN_EXTENDS) ∧
    scanTokens 6 (initScanner extendsSource.toList) = some extendsTokens ∧
    Parsing.start emptyVM extendsTokens = some extendsParsing ∧
    ((extendsParsing.expressionStatement (strtodDigits extendsSource.toList)).map fun p =>
      (p.compilation.emission 0, p.current.type)) =
      some (some { code := [OP_CONSTANT, 0, OP_CONSTANT, 1, OP_POP],
                   constants := [doubleOfNat 1, doubleOfNat 2],
                   hadError := false, panicMode := false, reported := [] }, .TOKEN_EOF) ∧
    (scriptVM extendsChunk).stackTop = 1 ∧
    (∃ vm, run noNatives 2 (scriptVM extendsChunk) = .next vm ∧ vm.ip = some 4 ∧
      vm.stackTop = 3) ∧
    (∃ vm, run noNatives 3 (scriptVM extendsChunk) = .next vm ∧ vm.ip = some 5 ∧
      vm.stackTop = 2) ∧
    (run noNatives 5 (scriptVM extendsChunk)).height = some (some .INTERPRET_OK, 1) ∧
    scanTokens 6 (initScanner lessSource.toList) = some lessTokens ∧
    ((lessParsing.expressionStatement (strtodDigits lessSource.toList)).map fun p =>
      (p.compilation.emission 0, p.current.type)) =
      some (some { code := [OP_CONSTANT, 0, OP_CONSTANT, 1, OP_LESS, OP_POP],
                   constants := [doubleOfNat 1, doubleOfNat 2],
                   hadError := false, panicMode := false, reported := [] }, .TOKEN_EOF) ∧
    (run noNatives 6 (scriptVM lessChunk)).height = some (some .INTERPRET_OK, 0) := by
  refine ⟨?_, by decide, by decide, by decide, by decide, ⟨_, rfl, by decide, by decide⟩,
    ⟨_, rfl, by decide, by decide⟩, by decide, by decide, by decide, by decide⟩
  intro type
  cases type <;> decide

end Loxj

/-! # Interpreter: runtime errors and open upvalues (C38) -/

namespace Loxj

set_option maxRecDepth 100000 in
/-- C38 (code at the failing input): `runtimeError` empties the stack, the
frames and the list of open upvalues, and never changes the heap, so it
closes no upvalue.  In the line
`var f; fun outer() { var x = 42; fun inner() { return x; } f = inner; x(); } outer();`
the call `x()` is a runtime error; before it the upvalue of `x` (object 8) is
open on stack slot 2, which holds 42, and after it that upvalue is still open
on slot 2, while the closure of `inner` (object 7), which holds it, is the
value of the global `f`.  A later line `nil == f();` has `nil` in slot 1 and
the callee in slot 2 when `inner` runs, and the call returns what `inner`
reads through the upvalue: the closure in slot 2, not 42. -/
theorem C38_runtime_error_leaves_upvalue_open :
    (∀ (vm : VM) (message : String),
      ((runtimeError vm message).map fun vm1 =>
        (vm1.stackTop, vm1.frames, vm1.openUpvalues, vm1.heap)) =
      (stackTrace vm.heap vm.frames.reverse).map fun _ => (0, [], none, vm.heap)) ∧
    ((run noNatives 6 captureVM).going.map fun vm =>
      (vm.openUpvalues, vm.heap.get 8, vm.slot 2, vm.ip)) =
      some (some 8, some (.OBJ_UPVALUE (.stack 2) NIL_VAL none), doubleFortyTwo, some 13) ∧
    ((run noNatives 7 captureVM).returned.map fun r =>
      (r.1, r.2.stackTop, r.2.frames, r.2.openUpvalues)) =
      some (.INTERPRET_RUNTIME_ERROR, 0, [], none) ∧
    ((run noNatives 7 captureVM).returned.map fun r =>
      (r.2.heap.get 8, r.2.heap.get 7)) =
      some (some (.OBJ_UPVALUE (.stack 2) NIL_VAL none), some (.OBJ_CLOSURE 5 [some 8] 1)) ∧
    ((run noNatives 7 captureVM).returned.map fun r => tableGet r.2.heap r.2.globals 2) =
      some (some (some (OBJ_VAL 7))) ∧
    ((run noNatives 7 captureVM).returned.bind fun r =>
      (interpretCompiled (compiledScript r.2 secondChunk).2
        (compiledScript r.2 secondChunk).1).bind fun vm2 =>
        (runGlobal noNatives 5 vm2).going.map fun vm3 =>
          (vm3.frames.length, vm3.ip, vm3.stackTop, vm3.peek 0)) =
      some (1, some 5, 3, OBJ_VAL 7) ∧
    OBJ_VAL 7 ≠ doubleFortyTwo := by
  refine ⟨?_, by decide, by decide, by decide, by decide, by decide, by decide⟩
  intro vm message
  unfold runtimeError
  cases stackTrace vm.heap vm.frames.reverse <;> rfl

end Loxj

/-! # Memory: the allocation counter (C37) -/

namespace Loxj

set_option maxRecDepth 100000 in
/-- C37 (code at the failing input): `initVM` sets `vm.bytesAllocated` to 0
after `copyString` has obtained the bytes of `constructor`, its `ObjString`
and the first 8 buckets of `vm.strings` through `reallocate` (172 bytes with
8-byte pointers; up to there the counter and the allocated total are both
172), so from there on the counter is short of the allocated total by those
bytes: after `initVM` the counter is 1712 while 1884 bytes are allocated, and
after `freeVM`, when no block is left, the counter has wrapped to 2^64 - 172
instead of being 0.  The buffer of a string literal comes from `malloc` in the
scanner and is never added, yet `freeObject` subtracts `length + 1` for it:
with the literal `"hi"` the counter ends at 2^64 - 175. -/
theorem C37_counter_reset_after_allocation :
    ((Accounting.internInitString Accounting.lp64 Accounting.start).memory.bytesAllocated,
      (Accounting.internInitString Accounting.lp64 Accounting.start).memory.live) = (172, 172) ∧
    Accounting.uncounted Accounting.lp64 = 172 ∧
    ((Accounting.initVM Accounting.lp64 Accounting.start).memory.bytesAllocated,
      (Accounting.initVM Accounting.lp64 Accounting.start).memory.live) = (1712, 1884) ∧
    ((Accounting.freeVM Accounting.lp64
        (Accounting.initVM Accounting.lp64 Accounting.start)).memory.inUse,
      (Accounting.freeVM Accounting.lp64
        (Accounting.initVM Accounting.lp64 Accounting.start)).memory.live,
      (Accounting.freeVM Accounting.lp64
        (Accounting.initVM Accounting.lp64 Accounting.start)).memory.bytesAllocated) =
      (0, 0, 2 ^ 64 - 172) ∧
    (((Accounting.stringLiteral Accounting.lp64
        (Accounting.initVM Accounting.lp64 Accounting.start) "hi".toList).2.memory.bytesAllocated,
      (Accounting.stringLiteral Accounting.lp64
        (Accounting.initVM Accounting.lp64 Accounting.start) "hi".toList).2.memory.live) =
      (1744, 1916)) ∧
    ((Accounting.freeVM Accounting.lp64 (Accounting.stringLiteral Accounting.lp64
        (Accounting.initVM Accounting.lp64 Accounting.start) "hi".toList).2).memory.inUse,
      (Accounting.freeVM Accounting.lp64 (Accounting.stringLiteral Accounting.lp64
        (Accounting.initVM Accounting.lp64 Accounting.start) "hi".toList).2).memory.bytesAllocated) =
      (0, 2 ^ 64 - 175) := by
  refine ⟨by decide, by decide, by decide, by decide, by decide, by decide⟩

end Loxj

/-! # Scanner: the loops stay inside the source -/

namespace Loxj


theorem byteAt_nul_iff (s : Scanner) (h : '\x00' ∉ s.source) (i : Nat) :
    s.byteAt i = '\x00' ↔ s.source.length ≤ i := by
  unfold Scanner.byteAt
  constructor
  · intro e
    by_contra hlt
    push_neg at hlt
    rw [List.getD_eq_getElem _ _ hlt] at e
    exact h (e ▸ List.getElem_mem hlt)
  · intro hle
    exact List.getD_eq_default _ _ hle

theorem isAtEnd_iff (s : Scanner) (h : '\x00' ∉ s.source) :
    isAtEnd s = true ↔ s.source.length ≤ s.current := by
  unfold isAtEnd
  rw [beq_iff_eq]
  exact byteAt_nul_iff s h _

theorem isAtEnd_false_iff (s : Scanner) (h : '\x00' ∉ s.source) :
    isAtEnd s = false ↔ s.current < s.source.length := by
  rw [← Bool.not_eq_true, isAtEnd_iff s h]
  omega

theorem peek_lt (s : Scanner) (h : '\x00' ∉ s.source) (hp : peek s ≠ '\x00') :
    s.current < s.source.length := by
  by_contra hge
  exact hp ((byteAt_nul_iff s h _).mpr (by omega))

@[simp] theorem advance_source (s : Scanner) : (advance s).2.source = s.source := rfl
@[simp] theorem advance_current (s : Scanner) : (advance s).2.current = s.current + 1 := rfl
@[simp] theorem advance_start (s : Scanner) : (advance s).2.start = s.start := rfl

theorem isAlpha_ne_nul (c : Char) (h : isAlpha c = true) : c ≠ '\x00' := by
  rintro rfl
  revert h
  decide

theorem isDigit_ne_nul (c : Char) (h : isDigit c = true) : c ≠ '\x00' := by
  rintro rfl
  revert h
  decide

theorem skipIdentifier_progress (fuel : Nat) : ∀ (s : Scanner), '\x00' ∉ s.source →
    s.current ≤ s.source.length → s.source.length - s.current < fuel →
    ∃ s1, skipIdentifier fuel s = some s1 ∧ s1.source = s.source ∧ s1.start = s.start ∧
      s.current ≤ s1.current ∧ s1.current ≤ s.source.length := by
  induction fuel with
  | zero => intro s _ _ hf; omega
  | succ fuel ih =>
    intro s h hc hf
    rw [skipIdentifier]
    by_cases hp : (isAlpha (peek s) || isDigit (peek s)) = true
    · rw [if_pos hp]
      have hne : peek s ≠ '\x00' := by
        rcases Bool.or_eq_true _ _ ▸ hp with ha | hd
        · exact isAlpha_ne_nul _ ha
        · exact isDigit_ne_nul _ hd
      have hlt := peek_lt s h hne
      obtain ⟨s1, e, h1, h2, h3, h4⟩ := ih (advance s).2 h (by simp; omega) (by simp; omega)
      exact ⟨s1, e, h1, h2, by simp at h3; omega, h4⟩
    · rw [if_neg hp]
      exact ⟨s, rfl, rfl, rfl, le_refl _, hc⟩

theorem skipDigits_progress (fuel : Nat) : ∀ (s : Scanner), '\x00' ∉ s.source →
    s.current ≤ s.source.length → s.source.length - s.current < fuel →
    ∃ s1, skipDigits fuel s = some s1 ∧ s1.source = s.source ∧ s1.start = s.start ∧
      s.current ≤ s1.current ∧ s1.current ≤ s.source.length := by
  induction fuel with
  | zero => intro s _ _ hf; omega
  | succ fuel ih =>
    intro s h hc hf
    rw [skipDigits]
    by_cases hp : isDigit (peek s) = true
    · rw [if_pos hp]
      have hlt := peek_lt s h (isDigit_ne_nul _ hp)
      obtain ⟨s1, e, h1, h2, h3, h4⟩ := ih (advance s).2 h (by simp; omega) (by simp; omega)
      exact ⟨s1, e, h1, h2, by simp at h3; omega, h4⟩
    · rw [if_neg hp]
      exact ⟨s, rfl, rfl, rfl, le_refl _, hc⟩

theorem skipComment_progress (fuel : Nat) : ∀ (s : Scanner), '\x00' ∉ s.source →
    s.current ≤ s.source.length → s.source.length - s.current < fuel →
    ∃ s1, skipComment fuel s = some s1 ∧ s1.source = s.source ∧
      s.current ≤ s1.current ∧ s1.current ≤ s.source.length ∧
      (peek s = '/' → s.current < s1.current) := by
  induction fuel with
  | zero => intro s _ _ hf; omega
  | succ fuel ih =>
    intro s h hc hf
    rw [skipComment]
    by_cases hp : (peek s != '\n' && !isAtEnd s) = true
    · rw [if_pos hp]
      have hlt : s.current < s.source.length := by
        simp only [Bool.and_eq_true, Bool.not_eq_true'] at hp
        exact (isAtEnd_false_iff s h).mp hp.2
      obtain ⟨s1, e, h1, h3, h4, _⟩ := ih (advance s).2 h (by simp; omega) (by simp; omega)
      exact ⟨s1, e, h1, by simp at h3; omega, h4, fun _ => by simp at h3; omega⟩
    · rw [if_neg hp]
      refine ⟨s, rfl, rfl, le_refl _, hc, ?_⟩
      intro hs
      exfalso
      apply hp
      have hlt := peek_lt s h (by rw [hs]; decide)
      simp only [Bool.and_eq_true, Bool.not_eq_true', bne_iff_ne]
      exact ⟨by rw [hs]; decide, (isAtEnd_false_iff s h).mpr hlt⟩

theorem skipWhitespace_progress (fuel : Nat) : ∀ (s : Scanner), '\x00' ∉ s.source →
    s.current ≤ s.source.length → s.source.length - s.current < fuel →
    ∃ s1, skipWhitespace fuel s = some s1 ∧ s1.source = s.source ∧
      s.current ≤ s1.current ∧ s1.current ≤ s.source.length := by
  induction fuel with
  | zero => intro s _ _ hf; omega
  | succ fuel ih =>
    intro s h hc hf
    rw [skipWhitespace]
    simp only []
    by_cases h1 : (peek s == ' ' || peek s == '\r' || peek s == '\t') = true
    · rw [if_pos h1]
      have hne : peek s ≠ '\x00' := by
        intro e
        rw [e] at h1
        revert h1
        decide
      have hlt := peek_lt s h hne
      obtain ⟨s1, e, e1, h3, h4⟩ := ih (advance s).2 h (by simp; omega) (by simp; omega)
      exact ⟨s1, e, e1, by simp at h3; omega, h4⟩
    · rw [if_neg h1]
      by_cases h2 : (peek s == '\n') = true
      · rw [if_pos h2]
        have hne : peek s ≠ '\x00' := by
          intro e
          rw [e] at h2
          revert h2
          decide
        have hlt := peek_lt s h hne
        obtain ⟨s1, e, e1, h3, h4⟩ :=
          ih { (advance s).2 with line := (advance s).2.line + 1 } h
            (by simp; omega) (by simp; omega)
        exact ⟨s1, e, e1, by simp at h3; omega, h4⟩
      · rw [if_neg h2]
        by_cases h3 : (peek s == '/') = true
        · rw [if_pos h3]
          by_cases h4 : (peekNext s == '/') = true
          · rw [if_pos h4]
            obtain ⟨s1, e, e1, h5, h6, h7⟩ := skipComment_progress (fuel + 1) s h hc hf
            have h8 := h7 (by simpa using h3)
            rw [e, Option.some_bind]
            obtain ⟨s2, e2, e3, h9, h10⟩ :=
              ih s1 (e1 ▸ h) (by rw [e1]; exact h6) (by rw [e1]; omega)
            exact ⟨s2, e2, by rw [e3, e1], by omega, by rw [e1] at h10; exact h10⟩
          · rw [if_neg h4]
            exact ⟨s, rfl, rfl, le_refl _, hc⟩
        · rw [if_neg h3]
          exact ⟨s, rfl, rfl, le_refl _, hc⟩

theorem unescape_isSome (s : Scanner) (src srcLen : Nat) (fuel : Nat) :
    ∀ (i : Nat) (dst : List Char), srcLen - i < fuel →
      (unescape s src srcLen fuel i dst).isSome = true := by
  induction fuel with
  | zero => intro i dst hf; omega
  | succ fuel ih =>
    intro i dst hf
    rw [unescape]
    by_cases hi : i < srcLen
    · rw [if_pos hi]
      split
      · exact ih _ _ (by omega)
      · exact ih _ _ (by omega)
    · rw [if_neg hi]
      rfl

theorem stringScan_progress (fuel : Nat) : ∀ (s : Scanner) (escapeCount : Nat),
    '\x00' ∉ s.source → s.current ≤ s.source.length → s.source.length - s.current < fuel →
    (∃ token s1, stringScan fuel s escapeCount = some (.inl (token, s1)) ∧
      token.type = .TOKEN_ERROR ∧ s1.source = s.source ∧
      s.current ≤ s1.current ∧ s1.current ≤ s.source.length) ∨
    (∃ s1 n, stringScan fuel s escapeCount = some (.inr (s1, n)) ∧ s1.source = s.source ∧
      s1.start = s.start ∧ s.current ≤ s1.current ∧ s1.current ≤ s.source.length) := by
  induction fuel with
  | zero => intro s _ _ _ hf; omega
  | succ fuel ih =>
    intro s escapeCount h hc hf
    rw [stringScan]
    by_cases hp : (peek s != '"' && !isAtEnd s) = true
    · rw [if_pos hp]
      have hlt : s.current < s.source.length := by
        simp only [Bool.and_eq_true, Bool.not_eq_true'] at hp
        exact (isAtEnd_false_iff s h).mp hp.2
      simp only []
      generalize hs1 : (if (peek s == '\n') = true then { s with line := s.line + 1 } else s) = s1
      have e1 : s1.source = s.source := by rw [← hs1]; split <;> rfl
      have e2 : s1.current = s.current := by rw [← hs1]; split <;> rfl
      have e3 : s1.start = s.start := by rw [← hs1]; split <;> rfl
      by_cases hb : (peek s1 == '\\' && !isAtEnd s1) = true
      · rw [if_pos hb]
        by_cases hc2 : (peek (advance s1).2 == 'n' || peek (advance s1).2 == 't' ||
            peek (advance s1).2 == '\\' || peek (advance s1).2 == '"') = true
        · rw [if_pos hc2]
          have hne : peek (advance s1).2 ≠ '\x00' := by
            intro e
            rw [e] at hc2
            revert hc2
            decide
          have hlt2 := peek_lt (advance s1).2 (by simpa [e1] using h) hne
          simp only [advance_current, advance_source, e1, e2] at hlt2
          rcases ih (advance (advance s1).2).2 (escapeCount + 1) (by simpa [e1] using h)
            (by simp [e1, e2]; omega) (by simp [e1, e2]; omega) with
            ⟨token, s2, e, ht, es, h3, h4⟩ | ⟨s2, n, e, es, est, h3, h4⟩
          · left
            refine ⟨token, s2, e, ht, ?_, ?_, ?_⟩
            · simpa [e1] using es
            · simp [e2] at h3; omega
            · simpa [e1] using h4
          · right
            refine ⟨s2, n, e, ?_, ?_, ?_, ?_⟩
            · simpa [e1] using es
            · simpa [e3] using est
            · simp [e2] at h3; omega
            · simpa [e1] using h4
        · rw [if_neg hc2]
          left
          refine ⟨_, _, rfl, rfl, ?_, ?_, ?_⟩
          · simp [e1]
          · simp [e2]
          · simp [e1, e2]; omega
      · rw [if_neg hb]
        rcases ih (advance s1).2 escapeCount (by simpa [e1] using h)
          (by simp [e1, e2]; omega) (by simp [e1, e2]; omega) with
          ⟨token, s2, e, ht, es, h3, h4⟩ | ⟨s2, n, e, es, est, h3, h4⟩
        · left
          refine ⟨token, s2, e, ht, ?_, ?_, ?_⟩
          · simpa [e1] using es
          · simp [e2] at h3; omega
          · simpa [e1] using h4
        · right
          refine ⟨s2, n, e, ?_, ?_, ?_, ?_⟩
          · simpa [e1] using es
          · simpa [e3] using est
          · simp [e2] at h3; omega
          · simpa [e1] using h4
    · rw [if_neg hp]
      right
      exact ⟨s, escapeCount, rfl, rfl, rfl, le_refl _, hc⟩

end Loxj

/-! # Scanner: progress (C40) -/

namespace Loxj

theorem CHECK_KEYWORD_ne_EOF (s : Scanner) (a b : Nat) (rest : String) (ty : TokenType)
    (h : ty ≠ .TOKEN_EOF) : CHECK_KEYWORD s a b rest ty ≠ .TOKEN_EOF := by
  unfold CHECK_KEYWORD
  split
  · exact h
  · decide

theorem ite_ne_EOF (c : Prop) [Decidable c] (a b : TokenType)
    (ha : a ≠ .TOKEN_EOF) (hb : b ≠ .TOKEN_EOF) : (if c then a else b) ≠ .TOKEN_EOF := by
  split
  · exact ha
  · exact hb

theorem identifierType_ne_EOF (s : Scanner) : identifierType s ≠ .TOKEN_EOF := by
  unfold identifierType
  simp only []
  repeat' (first
    | apply ite_ne_EOF
    | exact CHECK_KEYWORD_ne_EOF _ _ _ _ _ (by decide)
    | decide)

theorem ScanProgress_make (s : Scanner) (ty : TokenType) (from_ : Nat) (hty : ty ≠ .TOKEN_EOF)
    (hlt : from_ < s.current) (hle : s.current ≤ s.source.length) :
    ScanProgress s.source from_ (some (makeToken s ty, s)) :=
  ⟨_, _, rfl, rfl, hty, hlt, hle⟩

theorem ScanProgress_error (s : Scanner) (message : String) (from_ : Nat)
    (hlt : from_ < s.current) (hle : s.current ≤ s.source.length) :
    ScanProgress s.source from_ (some (errorToken s message, s)) :=
  ⟨_, _, rfl, rfl, by simp [errorToken], hlt, hle⟩

theorem match_progress (s : Scanner) (c : Char) (h : '\x00' ∉ s.source)
    (hle : s.current ≤ s.source.length) :
    («match» s c).2.source = s.source ∧ s.current ≤ («match» s c).2.current ∧
      («match» s c).2.current ≤ s.source.length := by
  unfold «match»
  by_cases he : isAtEnd s = true
  · rw [if_pos he]
    exact ⟨rfl, le_refl _, hle⟩
  · rw [if_neg he]
    have hlt := (isAtEnd_false_iff s h).mp (by simpa using he)
    split
    · exact ⟨rfl, le_refl _, hle⟩
    · exact ⟨rfl, by simp, by simp; omega⟩

theorem ScanProgress_match (s : Scanner) (c : Char) (a b : TokenType) (from_ : Nat)
    (h : '\x00' ∉ s.source) (ha : a ≠ .TOKEN_EOF) (hb : b ≠ .TOKEN_EOF)
    (hlt : from_ < s.current) (hle : s.current ≤ s.source.length) :
    ScanProgress s.source from_
      (some (makeToken («match» s c).2 (if («match» s c).1 = true then a else b),
        («match» s c).2)) := by
  obtain ⟨e, h1, h2⟩ := match_progress s c h hle
  exact ⟨_, _, rfl, e, ite_ne_EOF _ _ _ ha hb, by omega, h2⟩

theorem ScanProgress_shift (s : Scanner) (c : Char) (t1 t2 t3 t4 : TokenType) (from_ : Nat)
    (h : '\x00' ∉ s.source) (h1 : t1 ≠ .TOKEN_EOF) (h2 : t2 ≠ .TOKEN_EOF)
    (h3 : t3 ≠ .TOKEN_EOF) (h4 : t4 ≠ .TOKEN_EOF)
    (hlt : from_ < s.current) (hle : s.current ≤ s.source.length) :
    ScanProgress s.source from_
      (if («match» s '=').1 = true then
        some (makeToken («match» s '=').2 t1, («match» s '=').2)
      else if («match» («match» s '=').2 c).1 = true then
        some (makeToken («match» («match» («match» s '=').2 c).2 c).2
          (if («match» («match» («match» s '=').2 c).2 c).1 = true then t2 else t3),
          («match» («match» («match» s '=').2 c).2 c).2)
      else some (makeToken («match» («match» s '=').2 c).2 t4, («match» («match» s '=').2 c).2)) := by
  obtain ⟨e1, a1, b1⟩ := match_progress s '=' h hle
  generalize («match» s '=').1 = r1 at *
  generalize («match» s '=').2 = m1 at *
  have hn1 : '\x00' ∉ m1.source := by rw [e1]; exact h
  have hl1 : m1.current ≤ m1.source.length := by rw [e1]; exact b1
  obtain ⟨e2, a2, b2⟩ := match_progress m1 c hn1 hl1
  generalize («match» m1 c).1 = r2 at *
  generalize («match» m1 c).2 = m2 at *
  have hn2 : '\x00' ∉ m2.source := by rw [e2]; exact hn1
  have hl2 : m2.current ≤ m2.source.length := by rw [e2]; exact b2
  obtain ⟨e3, a3, b3⟩ := match_progress m2 c hn2 hl2
  generalize («match» m2 c).1 = r3 at *
  generalize («match» m2 c).2 = m3 at *
  rw [e1] at b2
  rw [e2, e1] at b3
  split
  · exact ⟨_, _, rfl, e1, h1, by omega, b1⟩
  · split
    · exact ⟨_, _, rfl, by rw [e3, e2, e1], ite_ne_EOF _ _ _ h2 h3, by omega, b3⟩
    · exact ⟨_, _, rfl, by rw [e2, e1], h4, by omega, b2⟩

theorem ScanProgress_ite (source : List Char) (from_ : Nat) (c : Prop) [Decidable c]
    (a b : Option (Token × Scanner)) (ha : ScanProgress source from_ a)
    (hb : ScanProgress source from_ b) : ScanProgress source from_ (if c then a else b) := by
  split
  · exact ha
  · exact hb

theorem identifierToken_progress (s : Scanner) (from_ : Nat) (h : '\x00' ∉ s.source)
    (hlt : from_ < s.current) (hle : s.current ≤ s.source.length) :
    ScanProgress s.source from_ (identifierToken s) := by
  obtain ⟨s1, e, e1, _, h1, h2⟩ :=
    skipIdentifier_progress (s.source.length + 1) s h hle (by omega)
  unfold identifierToken
  rw [e]
  exact ⟨_, _, rfl, e1, identifierType_ne_EOF s1, by omega, h2⟩

theorem numberToken_progress (s : Scanner) (from_ : Nat) (h : '\x00' ∉ s.source)
    (hlt : from_ < s.current) (hle : s.current ≤ s.source.length) :
    ScanProgress s.source from_ (numberToken s) := by
  obtain ⟨s1, e, e1, _, h1, h2⟩ :=
    skipDigits_progress (s.source.length + 1) s h hle (by omega)
  unfold numberToken
  simp only []
  rw [e, Option.some_bind]
  by_cases hd : (peek s1 == '.' && isDigit (peekNext s1)) = true
  · rw [if_pos hd]
    have hne : peek s1 ≠ '\x00' := by
      intro e0
      rw [e0] at hd
      revert hd
      simp
    have hlt1 := peek_lt s1 (e1 ▸ h) hne
    obtain ⟨s2, e2, e3, _, h3, h4⟩ :=
      skipDigits_progress (s.source.length + 1) (advance s1).2 (by simpa [e1] using h)
        (by simp; omega) (by simp [e1]; omega)
    rw [e2]
    refine ⟨_, _, rfl, ?_, by simp [makeToken], ?_, ?_⟩
    · simpa [e1] using e3
    · simp at h3; omega
    · simpa [e1] using h4
  · rw [if_neg hd]
    exact ⟨_, _, rfl, e1, by simp [makeToken], by omega, h2⟩

theorem stringToken_progress (s : Scanner) (from_ : Nat) (h : '\x00' ∉ s.source)
    (hlt : from_ < s.current) (hle : s.current ≤ s.source.length) :
    ScanProgress s.source from_ (stringToken s) := by
  unfold stringToken
  simp only []
  rcases stringScan_progress (s.source.length + 1) s 0 h hle (by omega) with
    ⟨token, s1, e, ht, es, h1, h2⟩ | ⟨s1, n, e, es, _, h1, h2⟩
  · rw [e]
    exact ⟨_, _, rfl, es, by rw [ht]; decide, by omega, h2⟩
  · rw [e]
    simp only []
    by_cases he : isAtEnd s1 = true
    · rw [if_pos he]
      exact ⟨_, _, rfl, es, by simp [errorToken], by omega, h2⟩
    · rw [if_neg he]
      have hlt1 := (isAtEnd_false_iff s1 (es ▸ h)).mp (by simpa using he)
      have hu := unescape_isSome (advance s1).2 s.current
        ((advance s1).2.current - (advance s1).2.start - 2)
        ((advance s1).2.current - (advance s1).2.start - 2 + 1) 0 [] (by omega)
      obtain ⟨u, eu⟩ := Option.isSome_iff_exists.mp hu
      rw [eu]
      refine ⟨_, _, rfl, ?_, by simp, ?_, ?_⟩
      · simpa using es
      · simp; omega
      · simp; rw [es] at hlt1; omega

theorem progress_of_ScanProgress (s : Scanner) (source : List Char)
    (r : Option (Token × Scanner)) (e : source = s.source)
    (hp : ScanProgress source s.current r) :
    ∃ token s1, r = some (token, s1) ∧ s1.source = s.source ∧
      s1.current ≤ s.source.length ∧
      ((token.type = .TOKEN_EOF ∧ s1.current = s.source.length) ∨
        (token.type ≠ .TOKEN_EOF ∧ s.current < s1.current)) := by
  subst e
  obtain ⟨token, s1, et, es, hty, a1, a2⟩ := hp
  exact ⟨token, s1, et, es, a2, Or.inr ⟨hty, a1⟩⟩

theorem scanToken_progress (s : Scanner) (h : '\x00' ∉ s.source)
    (hc : s.current ≤ s.source.length) :
    ∃ token s1, scanToken s = some (token, s1) ∧ s1.source = s.source ∧
      s1.current ≤ s.source.length ∧
      ((token.type = .TOKEN_EOF ∧ s1.current = s.source.length) ∨
        (token.type ≠ .TOKEN_EOF ∧ s.current < s1.current)) := by
  obtain ⟨sw, e, e1, h1, h2⟩ := skipWhitespace_progress (s.source.length + 1) s h hc (by omega)
  unfold scanToken
  rw [e, Option.some_bind]
  simp only []
  by_cases he : isAtEnd { sw with start := sw.current } = true
  · rw [if_pos he]
    have hge := (isAtEnd_iff { sw with start := sw.current } (by simpa [e1] using h)).mp he
    simp only [e1] at hge
    exact ⟨_, _, rfl, e1, h2, Or.inl ⟨rfl, by show sw.current = _; omega⟩⟩
  · rw [if_neg he]
    have hlt := (isAtEnd_false_iff { sw with start := sw.current }
      (by simpa [e1] using h)).mp (by simpa using he)
    simp only [e1] at hlt
    generalize (advance { sw with start := sw.current }).1 = c
    generalize hs2 : (advance { sw with start := sw.current }).2 = s2
    have e2 : s2.source = s.source := by rw [← hs2]; exact e1
    have c2 : s2.current = sw.current + 1 := by rw [← hs2]; rfl
    have hn2 : '\x00' ∉ s2.source := by rw [e2]; exact h
    have hlt2 : s.current < s2.current := by omega
    have hle2 : s2.current ≤ s2.source.length := by rw [e2]; omega
    apply progress_of_ScanProgress s s2.source _ e2
    apply ScanProgress_ite
    · exact identifierToken_progress s2 _ hn2 hlt2 hle2
    apply ScanProgress_ite
    · exact numberToken_progress s2 _ hn2 hlt2 hle2
    repeat' (first
      | exact ScanProgress_shift s2 _ _ _ _ _ _ hn2 (by decide) (by decide) (by decide)
          (by decide) hlt2 hle2
      | apply ScanProgress_ite
      | exact stringToken_progress s2 _ hn2 hlt2 hle2
      | exact ScanProgress_make s2 _ _ (by decide) hlt2 hle2
      | exact ScanProgress_error s2 _ _ hlt2 hle2
      | exact ScanProgress_match s2 _ _ _ _ hn2 (by decide) (by decide) hlt2 hle2)

theorem scanTokens_progress (fuel : Nat) : ∀ (s : Scanner), '\x00' ∉ s.source →
    s.current ≤ s.source.length → s.source.length - s.current < fuel →
    ∃ tokens last, scanTokens fuel s = some (tokens ++ [last]) ∧
      last.type = .TOKEN_EOF ∧ (∀ token ∈ tokens, token.type ≠ .TOKEN_EOF) ∧
      tokens.length ≤ s.source.length - s.current := by
  induction fuel with
  | zero => intro s _ _ hf; omega
  | succ fuel ih =>
    intro s h hc hf
    obtain ⟨token, s1, e, es, hle, hd⟩ := scanToken_progress s h hc
    rw [scanTokens, e, Option.some_bind]
    rcases hd with ⟨ht, _⟩ | ⟨ht, hlt⟩
    · rw [if_pos ht]
      exact ⟨[], token, rfl, ht, by simp, by simp⟩
    · rw [if_neg ht]
      obtain ⟨tokens, last, e2, hl, hall, hlen⟩ :=
        ih s1 (es ▸ h) (by rw [es]; exact hle) (by rw [es]; omega)
      rw [e2]
      refine ⟨token :: tokens, last, rfl, hl, ?_, ?_⟩
      · intro t htm
        rcases List.mem_cons.mp htm with rfl | hm
        · exact ht
        · exact hall t hm
      · rw [es] at hlen
        simp only [List.length_cons]
        omega

/-- C40: for a source without an inner NUL and a scanner that is not past the
terminator, a call of `scanToken` returns, leaves the scanner not past the
terminator, and either returns `TOKEN_EOF` with the scanner at the terminator
or returns another token (an error token included) and has advanced
`scanner.current` by at least one byte; hence the calls reach `TOKEN_EOF`
after at most `length(source) + 1` calls, all earlier tokens being other
tokens. -/
theorem C40_scanner_progress (s : Scanner) (hnul : '\x00' ∉ s.source)
    (hcur : s.current ≤ s.source.length) :
    (∃ token s1, scanToken s = some (token, s1) ∧ s1.source = s.source ∧
      s1.current ≤ s.source.length ∧
      ((token.type = .TOKEN_EOF ∧ s1.current = s.source.length) ∨
        (token.type ≠ .TOKEN_EOF ∧ s.current < s1.current))) ∧
    (∃ tokens last, scanTokens (s.source.length + 1) s = some (tokens ++ [last]) ∧
      last.type = .TOKEN_EOF ∧ (∀ token ∈ tokens, token.type ≠ .TOKEN_EOF) ∧
      (tokens ++ [last]).length ≤ s.source.length - s.current + 1 ∧
      (tokens ++ [last]).length ≤ s.source.length + 1) := by
  refine ⟨scanToken_progress s hnul hcur, ?_⟩
  obtain ⟨tokens, last, e, hl, hall, hlen⟩ :=
    scanTokens_progress (s.source.length + 1) s hnul hcur (by omega)
  refine ⟨tokens, last, e, hl, hall, ?_, ?_⟩
  · simp only [List.length_append, List.length_singleton]
    omega
  · simp only [List.length_append, List.length_singleton]
    omega

set_option maxRecDepth 100000 in
theorem C40_scanner_progress_witness :
    ('\x00' ∉ (initScanner progressSource.toList).source ∧
      (initScanner progressSource.toList).current ≤
        (initScanner progressSource.toList).source.length) ∧
    ((scanTokens 20 (initScanner progressSource.toList)).map fun tokens =>
      tokens.map fun token => token.type) =
      some [.TOKEN_IDENTIFIER, .TOKEN_ERROR, .TOKEN_IDENTIFIER, .TOKEN_NUMBER, .TOKEN_ERROR,
        .TOKEN_ERROR, .TOKEN_EOF] ∧
    ((∃ token s1, scanToken (initScanner progressSource.toList) = some (token, s1) ∧
      s1.source = (initScanner progressSource.toList).source ∧
      s1.current ≤ (initScanner progressSource.toList).source.length ∧
      ((token.type = .TOKEN_EOF ∧
          s1.current = (initScanner progressSource.toList).source.length) ∨
        (token.type ≠ .TOKEN_EOF ∧ (initScanner progressSource.toList).current < s1.current))) ∧
    (∃ tokens last,
      scanTokens ((initScanner progressSource.toList).source.length + 1)
        (initScanner progressSource.toList) = some (tokens ++ [last]) ∧
      last.type = .TOKEN_EOF ∧ (∀ token ∈ tokens, token.type ≠ .TOKEN_EOF) ∧
      (tokens ++ [last]).length ≤
        (initScanner progressSource.toList).source.length -
          (initScanner progressSource.toList).current + 1 ∧
      (tokens ++ [last]).length ≤ (initScanner progressSource.toList).source.length + 1)) :=
  ⟨⟨by decide, by decide⟩, by decide,
    C40_scanner_progress (initScanner progressSource.toList) (by decide) (by decide)⟩

end Loxj
